import Mathlib

/-!
# BlockSettleDB wallet core: encrypted store, account hierarchy

A shallow embedding of `cppForSwig/WalletFileInterface.cpp` and
`cppForSwig/Accounts.cpp`, with the properties of the wallet specification
stated and proved over it.

Conventions of the embedding.

* `BinaryData` / `SecureBinaryData` are lists of bytes; a byte is a natural
  number below 256 and every writer produces its bytes with `% 256`.
* `BinaryRefReader` is a function from the unread bytes to the value read and
  the bytes left; a read past the end gives `none` (the C++ reader throws).
* A C++ exception is the `Except.error` result of the embedded function.
* Cryptographic primitives (HMAC, AES-CBC, secp256k1) are the fields of
  `Crypto`; fresh randomness is an explicit argument.
-/

namespace Wallet

/-! ## Bytes, integers, BinaryWriter and BinaryRefReader -/

abbrev BinaryData := List Nat

/-- Little-endian encoding of `n` over `w` bytes (the low `8 * w` bits). -/
def WRITE_LE : Nat → Nat → BinaryData
  | 0, _ => []
  | w + 1, n => (n % 256) :: WRITE_LE w (n / 256)

/-- Little-endian decoding of a byte string. -/
def READ_LE : BinaryData → Nat
  | [] => 0
  | b :: rest => b + 256 * READ_LE rest

/-- `WRITE_UINT32_BE`: the 4 bytes of a 32-bit integer, most significant first. -/
def WRITE_UINT32_BE (n : Nat) : BinaryData := (WRITE_LE 4 n).reverse

/-- `READ_UINT32_BE`: the integer held by the first 4 bytes, most significant
first. -/
def READ_UINT32_BE (b : BinaryData) : Nat := READ_LE (b.take 4).reverse

/-- `BinaryWriter::put_uint32_t` with the default (little) endianness. -/
def put_uint32_t (n : Nat) : BinaryData := WRITE_LE 4 n

/-- Modelled from the spec: `BinaryWriter::put_var_int` (BinaryData.h is not
part of the sources at hand). The record layout names a `varint` length, the
Bitcoin variable-length integer: one byte below 0xfd, else a marker byte 0xfd,
0xfe or 0xff followed by the value over 2, 4 or 8 little-endian bytes. -/
def put_var_int (n : Nat) : BinaryData :=
  if n < 0xfd then [n]
  else if n ≤ 0xffff then 0xfd :: WRITE_LE 2 n
  else if n ≤ 0xffffffff then 0xfe :: WRITE_LE 4 n
  else 0xff :: WRITE_LE 8 n

/-- `BinaryRefReader::get_BinaryData(n)`: the next `n` bytes and the rest;
`none` when fewer than `n` bytes are left. -/
def get_BinaryData (n : Nat) (d : BinaryData) : Option (BinaryData × BinaryData) :=
  if n ≤ d.length then some (d.take n, d.drop n) else none

/-- Modelled from the spec: `BinaryRefReader::get_var_int`, the reader of
`put_var_int`. -/
def get_var_int (d : BinaryData) : Option (Nat × BinaryData) :=
  match d with
  | [] => none
  | b :: r =>
    if b < 0xfd then some (b, r)
    else
      let w := if b = 0xfd then 2 else if b = 0xfe then 4 else 8
      match get_BinaryData w r with
      | none => none
      | some (x, r') => some (READ_LE x, r')

/-- The `WalletInterfaceException`s thrown by `WalletFileInterface.cpp`, one
constructor per message, and the reader overflow of `BinaryRefReader`. -/
inductive WalletInterfaceException where
  | invalidDecryptionPrivateKey
  | erasurePlaceHolderForMissingGap
  | invalidDbKey
  | emptyDataKey
  | duplicatedDbEntry
  | unfilledDbKeyGaps
  | looseDataEntry
  | macMismatch
  | readerOverflow
  | decryptionFailed
  | insertNotMappedToDataKey
  | keyMarkedForDeletionDoesNotExist
  | failedToCreateDbTx
  | missingDbNameInTxMap
  | missingThreadIdInTxMap
  | insertLambdaNotSet
  | insertThreadIdMismatch
  | nullTxPtr
  | txMissingGetLbd
  deriving DecidableEq, Repr

instance {ε α : Type} [DecidableEq ε] [DecidableEq α] : DecidableEq (Except ε α) :=
  fun a b =>
    match a, b with
    | .ok x, .ok y => if h : x = y then isTrue (by rw [h]) else isFalse (fun e => h (by cases e; rfl))
    | .error x, .error y =>
      if h : x = y then isTrue (by rw [h]) else isFalse (fun e => h (by cases e; rfl))
    | .ok _, .error _ => isFalse (fun e => by cases e)
    | .error _, .ok _ => isFalse (fun e => by cases e)

/-! ## Cryptographic primitives -/

/-- The primitives `WalletFileInterface.cpp` calls (`BtcUtils`, `CryptoECDSA`,
`CryptoAES`); they are contracts of the wallet, not part of it. -/
structure Crypto where
  getHMAC256 : BinaryData → BinaryData → BinaryData
  getHMAC512 : BinaryData → BinaryData → BinaryData
  hash256 : BinaryData → BinaryData
  ComputePublicKey : BinaryData → BinaryData
  PubKeyScalarMultiply : BinaryData → BinaryData → BinaryData
  EncryptCBC : BinaryData → BinaryData → BinaryData → BinaryData
  DecryptCBC : BinaryData → BinaryData → BinaryData → Option BinaryData
  checkPrivKeyIsValid : BinaryData → Bool

/-- The contracts of the primitives the store relies on: AES-CBC decryption
inverts encryption, both sides of the ECDH exchange reach the same point, a
compressed public key has 33 bytes, an HMAC-SHA256 tag has 32 and an
HMAC-SHA512 tag has 64. -/
structure Crypto.Sound (c : Crypto) : Prop where
  decrypt_encrypt : ∀ d k iv, c.DecryptCBC (c.EncryptCBC d k iv) k iv = some d
  ecdh : ∀ a b, c.PubKeyScalarMultiply (c.ComputePublicKey a) b
      = c.PubKeyScalarMultiply (c.ComputePublicKey b) a
  pub_length : ∀ a, (c.ComputePublicKey a).length = 33
  hmac_length : ∀ k m, (c.getHMAC256 k m).length = 32
  hmac512_length : ∀ k m, (c.getHMAC512 k m).length = 64

/-- `Cipher::getBlockSize(CipherType_AES)`. -/
def AES_BLOCK_SIZE : Nat := 16

/-! ## DBInterface::createDataPacket / readDataPacket -/

/-- `DBInterface::createDataPacket`. The local private key
(`createNewPrivateKey`) and the IV (`CryptoPRNG::generateRandom`) are the two
random draws of the function, made arguments here. -/
def createDataPacket (c : Crypto) (dbKey dataKey dataVal encrPubKey macKey : BinaryData)
    (localPrivKey iv : BinaryData) : BinaryData :=
  -- authentication leg
  let bw := put_var_int dataKey.length ++ dataKey ++ (put_var_int dataVal.length ++ dataVal)
  let bwHmac := bw ++ dbKey
  let hmac := c.getHMAC256 macKey bwHmac
  let bwData := hmac ++ bw
  -- encryption key generation
  let localPubKey := c.ComputePublicKey localPrivKey
  let ecdhPubKey := c.PubKeyScalarMultiply encrPubKey localPrivKey
  let encrKey := c.hash256 ecdhPubKey
  -- encryption leg
  let cipherText := c.EncryptCBC bwData encrKey iv
  localPubKey ++ iv ++ cipherText

/-- `DBInterface::readDataPacket`. -/
def readDataPacket (c : Crypto) (dbKey dataPacket decrPrivKey macKey : BinaryData) :
    Except WalletInterfaceException (BinaryData × BinaryData) :=
  match get_BinaryData 33 dataPacket with
  | none => .error .readerOverflow
  | some (localPubKey, r1) =>
    let ecdhPubKey := c.PubKeyScalarMultiply localPubKey decrPrivKey
    let decrKey := c.hash256 ecdhPubKey
    match get_BinaryData AES_BLOCK_SIZE r1 with
    | none => .error .readerOverflow
    | some (iv, cipherText) =>
      match c.DecryptCBC cipherText decrKey iv with
      | none => .error .decryptionFailed
      | some plainText =>
        match get_BinaryData 32 plainText with
        | none => .error .readerOverflow
        | some (hmac, p1) =>
          match get_var_int p1 with
          | none => .error .readerOverflow
          | some (len, p2) =>
            match get_BinaryData len p2 with
            | none => .error .readerOverflow
            | some (dataKey, p3) =>
              match get_var_int p3 with
              | none => .error .readerOverflow
              | some (len2, p4) =>
                match get_BinaryData len2 p4 with
                | none => .error .readerOverflow
                | some (dataVal, p5) =>
                  -- mark the position
                  let pos := (plainText.length - p5.length) - 32
                  if p5.length ≠ 0 then .error .looseDataEntry
                  else
                    -- reset reader, skip the hmac, grab the payload
                    let data := (plainText.drop 32).take pos
                    let computedHmac := c.getHMAC256 macKey (data ++ dbKey)
                    if computedHmac ≠ hmac then .error .macMismatch
                    else .ok (dataKey, dataVal)

/-! ## std::map and std::set -/

/-- `BinaryData::operator<`: byte-wise lexicographic order, a proper initial
segment coming first. -/
def bdLess : BinaryData → BinaryData → Bool
  | [], [] => false
  | [], _ :: _ => true
  | _ :: _, [] => false
  | a :: as, b :: bs => if a < b then true else if b < a then false else bdLess as bs

/-- The strict order a `std::map` (or the LMDB b-tree) keeps its keys in. -/
class MapKey (κ : Type) where
  less : κ → κ → Bool

instance : MapKey Nat := ⟨fun a b => decide (a < b)⟩

instance : MapKey BinaryData := ⟨bdLess⟩

/-- `std::map::find`. A map is the list of its entries in iteration order. -/
def mapFind {κ β : Type} [DecidableEq κ] (m : List (κ × β)) (k : κ) : Option β :=
  match m with
  | [] => none
  | (k', v) :: t => if k' = k then some v else mapFind t k

/-- Insert-or-assign (`m[k] = v`): the entry of `k` is replaced where it
stands, a new key is put at its place in the key order. -/
def mapInsert {κ β : Type} [DecidableEq κ] [MapKey κ] (m : List (κ × β)) (k : κ) (v : β) :
    List (κ × β) :=
  match m with
  | [] => [(k, v)]
  | (k', v') :: t =>
    if k' = k then (k, v) :: t
    else if MapKey.less k k' then (k, v) :: (k', v') :: t
    else (k', v') :: mapInsert t k v

/-- `std::map::erase(key)`. -/
def mapErase {κ β : Type} [DecidableEq κ] (m : List (κ × β)) (k : κ) : List (κ × β) :=
  m.filter (fun e => decide (e.1 ≠ k))

/-- `std::set<unsigned>::insert`. -/
def setInsert (s : List Nat) (g : Nat) : List Nat := if g ∈ s then s else s ++ [g]

/-- `std::set<unsigned>::erase`. -/
def setErase (s : List Nat) (g : Nat) : List Nat := s.filter (fun x => decide (x ≠ g))

/-! ## 32-bit integers -/

/-- Conversion of a 32-bit pattern to `int`. -/
def toInt32 (n : Nat) : Int :=
  if n % 2 ^ 32 < 2 ^ 31 then ((n % 2 ^ 32 : Nat) : Int) else ((n % 2 ^ 32 : Nat) : Int) - 2 ^ 32

/-- Conversion of an `int` to `unsigned`. -/
def toUInt32 (i : Int) : Nat := (i % 2 ^ 32).toNat

/-- `++n` on an `unsigned`. -/
def incr32 (n : Nat) : Nat := (n + 1) % 2 ^ 32

/-! ## DBInterface -/

/-- `ERASURE_PLACE_HOLDER` (WalletFileInterface.h is not part of the sources at
hand): the commit path writes the marker with `put_String("erased")` and the
load path compares with `erasurePlaceHolder_`, so the constant is that string. -/
def erasurePlaceHolder_ : BinaryData := [0x65, 0x72, 0x61, 0x73, 0x65, 0x64]

/-- `KEY_CYCLE_FLAG` (same header): the string "cycle". -/
def keyCycleFlag_ : BinaryData := [0x63, 0x79, 0x63, 0x6c, 0x65]

/-- The two random draws of `createDataPacket`, as a function of the db-key the
packet is written under (every db-key is written once): the local private key
and the IV. -/
abbrev Entropy := BinaryData → BinaryData × BinaryData

/-- `InsertData`: one buffered operation of a write transaction. -/
structure InsertData where
  key_ : BinaryData
  value_ : BinaryData := []
  write_ : Bool := true
  wipe_ : Bool := false
  deriving DecidableEq, Repr

/-- The members of `DBInterface`. `db_` is the LMDB database: its records in
iteration order, the slot of a 4-byte big-endian db-key being the integer the
key holds (keys of another size, which `loadAllEntries` rejects, are not
representable). -/
structure DBInterface where
  db_ : List (Nat × BinaryData)
  dataMap_ : List (BinaryData × BinaryData)
  dataKeyToDbKey_ : List (BinaryData × BinaryData)
  dbKeyCounter_ : Nat
  controlSalt_ : BinaryData
  encrPubKey_ : BinaryData
  macKey_ : BinaryData
  deriving DecidableEq, Repr

/-- `LMDB::insert` on the slot of `dbKey`. -/
def lmdbInsert (db : List (Nat × BinaryData)) (dbKey val : BinaryData) : List (Nat × BinaryData) :=
  mapInsert db (READ_UINT32_BE dbKey) val

/-- Modelled from the spec: `LMDB::wipe` (the LMDB wrapper is not part of the
sources at hand). The slot is zeroised and removed, so that its db-key becomes
one of the "missing db-key integers" the load-time reconciliation accounts for
with the erasure placeholder written next. -/
def lmdbWipe (db : List (Nat × BinaryData)) (dbKey : BinaryData) : List (Nat × BinaryData) :=
  mapErase db (READ_UINT32_BE dbKey)

/-- `DBInterface::getNewDbKey`: `fetch_add(1)` on the 32-bit counter. -/
def DBInterface.getNewDbKey (d : DBInterface) : BinaryData × DBInterface :=
  (WRITE_UINT32_BE d.dbKeyCounter_, { d with dbKeyCounter_ := incr32 d.dbKeyCounter_ })

/-- `DBInterface::resolveDataKey`: the flag returned, the db-key, the state. -/
def DBInterface.resolveDataKey (d : DBInterface) (dataKey : BinaryData) :
    Bool × BinaryData × DBInterface :=
  match mapFind d.dataKeyToDbKey_ dataKey with
  | some dbKey => (true, dbKey, d)
  | none =>
    let r := d.getNewDbKey
    (false, r.1, r.2)

/-- The locals of `loadAllEntries` and the two maps it fills. -/
structure LoadState where
  gaps : List Nat
  decrKeyCounter : Nat
  decrPrivKey : BinaryData
  macKey : BinaryData
  prevDbKey : Int
  dataKeyToDbKey_ : List (BinaryData × BinaryData)
  dataMap_ : List (BinaryData × BinaryData)
  deriving DecidableEq, Repr

/-- The `computeKeyPair` lambda of `loadAllEntries`: decryption private key and
MAC key number `hmacKeyInt`. The HMAC key is the 4 bytes of the counter as they
lie in memory (little-endian). -/
def computeKeyPair (c : Crypto) (saltedRoot : BinaryData) (hmacKeyInt : Nat) :
    Except WalletInterfaceException (BinaryData × BinaryData) :=
  let hmacKey := WRITE_LE 4 hmacKeyInt
  let hmacVal := c.getHMAC512 hmacKey saltedRoot
  match get_BinaryData 32 hmacVal with
  | none => .error .readerOverflow
  | some (decrPrivKey, r) =>
    match get_BinaryData 32 r with
    | none => .error .readerOverflow
    | some (macKey, _) =>
      if c.checkPrivKeyIsValid decrPrivKey then .ok (decrPrivKey, macKey)
      else .error .invalidDecryptionPrivateKey

/-- The `processMetaDataPacket` lambda of `loadAllEntries`; `none` is its
`false` return. -/
def processMetaDataPacket (c : Crypto) (saltedRoot : BinaryData) (s : LoadState)
    (packet : BinaryData) : Except WalletInterfaceException (Option LoadState) :=
  let cycle : Except WalletInterfaceException (Option LoadState) :=
    if packet = keyCycleFlag_ then
      let n := incr32 s.decrKeyCounter
      match computeKeyPair c saltedRoot n with
      | .error e => .error e
      | .ok (priv, mac) =>
        .ok (some { s with decrKeyCounter := n, decrPrivKey := priv, macKey := mac })
    else .ok none
  if packet.length > erasurePlaceHolder_.length then
    match get_BinaryData erasurePlaceHolder_.length packet with
    | none => .error .readerOverflow
    | some (placeHolder, r) =>
      if placeHolder = erasurePlaceHolder_ then
        match get_var_int r with
        | none => .error .readerOverflow
        | some (len, r') =>
          if len = 4 then
            match get_BinaryData 4 r' with
            | none => .error .readerOverflow
            | some (key, _) =>
              let gapInt := READ_UINT32_BE key
              if gapInt ∈ s.gaps then .ok (some { s with gaps := setErase s.gaps gapInt })
              else .error .erasurePlaceHolderForMissingGap
          else cycle
      else cycle
  else cycle

/-- The gap marking of the load loop: `if (dbKeyInt - prevDbKey != 1)
for (unsigned i = prevDbKey + 1; i < dbKeyInt; i++) gaps.insert(i)`. -/
def markGaps (prevDbKey dbKeyInt : Int) (gaps : List Nat) : List Nat :=
  if dbKeyInt - prevDbKey ≠ 1 then
    let start := toUInt32 (prevDbKey + 1)
    let stop := toUInt32 dbKeyInt
    (List.range' start (stop - start)).foldl setInsert gaps
  else gaps

/-- One iteration of the `while (iter.isValid())` loop of `loadAllEntries`, on
the record at slot `k`. -/
def loadStep (c : Crypto) (saltedRoot : BinaryData) (s : LoadState) (k : Nat)
    (val : BinaryData) : Except WalletInterfaceException LoadState :=
  let key_bdr := WRITE_UINT32_BE k
  let dbKeyInt := toInt32 (READ_UINT32_BE key_bdr)
  let s1 := { s with gaps := markGaps s.prevDbKey dbKeyInt s.gaps, prevDbKey := dbKeyInt }
  match readDataPacket c key_bdr val s1.decrPrivKey s1.macKey with
  | .error e => .error e
  | .ok dataPair =>
    if dataPair.1.length = 0 then
      match processMetaDataPacket c saltedRoot s1 dataPair.2 with
      | .error e => .error e
      | .ok none => .error .emptyDataKey
      | .ok (some s2) => .ok s2
    else
      match mapFind s1.dataKeyToDbKey_ dataPair.1 with
      | some _ => .error .duplicatedDbEntry
      | none =>
        .ok { s1 with
          dataKeyToDbKey_ := mapInsert s1.dataKeyToDbKey_ dataPair.1 key_bdr
          dataMap_ :=
            match mapFind s1.dataMap_ dataPair.1 with
            | some _ => s1.dataMap_
            | none => mapInsert s1.dataMap_ dataPair.1 dataPair.2 }

/-- The `while (iter.isValid())` loop of `loadAllEntries`. -/
def loadLoop (c : Crypto) (saltedRoot : BinaryData) :
    List (Nat × BinaryData) → LoadState → Except WalletInterfaceException LoadState
  | [], s => .ok s
  | (k, val) :: rest, s =>
    match loadStep c saltedRoot s k val with
    | .error e => .error e
    | .ok s' => loadLoop c saltedRoot rest s'

/-- The state `loadAllEntries` enters its loop with: no gap, key pair number 0,
`prevDbKey = -1`, and the maps of the object. -/
def initLoadState (d : DBInterface) (priv0 mac0 : BinaryData) : LoadState :=
  { gaps := [], decrKeyCounter := 0, decrPrivKey := priv0, macKey := mac0, prevDbKey := -1,
    dataKeyToDbKey_ := d.dataKeyToDbKey_, dataMap_ := d.dataMap_ }

/-- `DBInterface::loadAllEntries`. -/
def DBInterface.loadAllEntries (c : Crypto) (ent : Entropy) (d : DBInterface)
    (rootKey : BinaryData) : Except WalletInterfaceException DBInterface :=
  let saltedRoot := c.getHMAC256 d.controlSalt_ rootKey
  -- init first decryption key pair
  match computeKeyPair c saltedRoot 0 with
  | .error e => .error e
  | .ok (priv0, mac0) =>
    let s0 : LoadState := initLoadState d priv0 mac0
    -- read all db entries
    match loadLoop c saltedRoot d.db_ s0 with
    | .error e => .error e
    | .ok s =>
      if s.gaps.length ≠ 0 then .error .unfilledDbKeyGaps
      else
        let d1 : DBInterface :=
          { d with dataKeyToDbKey_ := s.dataKeyToDbKey_, dataMap_ := s.dataMap_,
                   dbKeyCounter_ := toUInt32 (s.prevDbKey + 1) }
        -- append a key cycling flag
        let r := d1.getNewDbKey
        let flagKey := r.1
        let d2 := r.2
        let encrPubKey := c.ComputePublicKey s.decrPrivKey
        let flagPacket := createDataPacket c flagKey [] keyCycleFlag_ encrPubKey s.macKey
          (ent flagKey).1 (ent flagKey).2
        let d3 := { d2 with db_ := lmdbInsert d2.db_ flagKey flagPacket }
        -- cycle to next key for this session
        match computeKeyPair c saltedRoot (incr32 s.decrKeyCounter) with
        | .error e => .error e
        | .ok (priv, mac) =>
          .ok { d3 with encrPubKey_ := c.ComputePublicKey priv, macKey_ := mac }

/-- `DBInterface::update`: apply the buffered operations to `dataMap_`. -/
def DBInterface.update (d : DBInterface) : List InsertData → DBInterface
  | [] => d
  | dataPtr :: rest =>
    if !dataPtr.write_ then
      DBInterface.update { d with dataMap_ := mapErase d.dataMap_ dataPtr.key_ } rest
    else
      DBInterface.update
        { d with dataMap_ := mapInsert d.dataMap_ dataPtr.key_ dataPtr.value_ } rest

/-! ## WalletIfaceTransaction -/

/-- The buffer of a write transaction: `insertVec_` and `keyToDataMap_`, the
index in `insertVec_` of the last operation buffered for each data key. -/
structure WalletIfaceTransaction where
  commit_ : Bool := true
  insertVec_ : List InsertData := []
  keyToDataMap_ : List (BinaryData × Nat) := []
  deriving DecidableEq, Repr

/-- The `insertLbd` lambda of `insertTx` (behind `WalletIfaceTransaction::insert`). -/
def WalletIfaceTransaction.insert (tx : WalletIfaceTransaction) (key val : BinaryData) :
    WalletIfaceTransaction :=
  let dataPtr : InsertData := { key_ := key, value_ := val }
  let vecSize := tx.insertVec_.length
  { tx with insertVec_ := tx.insertVec_ ++ [dataPtr],
            keyToDataMap_ := mapInsert tx.keyToDataMap_ key vecSize }

/-- The `eraseLbd` lambda of `insertTx` (behind `erase` and `wipe`). -/
def WalletIfaceTransaction.eraseLbd (tx : WalletIfaceTransaction) (key : BinaryData)
    (wipe : Bool) : WalletIfaceTransaction :=
  let dataPtr : InsertData := { key_ := key, write_ := false, wipe_ := wipe }
  let vecSize := tx.insertVec_.length
  { tx with insertVec_ := tx.insertVec_ ++ [dataPtr],
            keyToDataMap_ := mapInsert tx.keyToDataMap_ key vecSize }

/-- `WalletIfaceTransaction::erase`. -/
def WalletIfaceTransaction.erase (tx : WalletIfaceTransaction) (key : BinaryData) :
    WalletIfaceTransaction := tx.eraseLbd key false

/-- The erasure packet the commit writes for the wiped db-key:
`put_String("erased")`, `put_var_int(dbKey.getSize())`, `put_BinaryData(dbKey)`. -/
def erasedPacket (dbKey : BinaryData) : BinaryData :=
  erasurePlaceHolder_ ++ put_var_int dbKey.length ++ dbKey

/-- The tail of one commit iteration: map the data key to `dbKey` and write
the payload packet there. -/
def writePayload (c : Crypto) (ent : Entropy) (d : DBInterface) (dataPtr : InsertData)
    (dbKey : BinaryData) : DBInterface :=
  let dbVal := createDataPacket c dbKey dataPtr.key_ dataPtr.value_ d.encrPubKey_ d.macKey_
    (ent dbKey).1 (ent dbKey).2
  { d with dataKeyToDbKey_ := mapInsert d.dataKeyToDbKey_ dataPtr.key_ dbKey,
           db_ := lmdbInsert d.db_ dbKey dbVal }

/-- One iteration of the commit loop of `~WalletIfaceTransaction` on an
operation that is the last one buffered for its data key: the state of the
`DBInterface` after it and the exception thrown, if any. -/
def commitOp (c : Crypto) (ent : Entropy) (d : DBInterface) (dataPtr : InsertData) :
    DBInterface × Option WalletInterfaceException :=
  let r := d.resolveDataKey dataPtr.key_
  let dbKey := r.2.1
  let d1 := r.2.2
  if r.1 then
    -- wipe the key
    let d2 := { d1 with db_ := lmdbWipe d1.db_ dbKey }
    -- get new key, commit erasure packet
    let r2 := d2.getNewDbKey
    let dbVal := createDataPacket c r2.1 [] (erasedPacket dbKey) d2.encrPubKey_ d2.macKey_
      (ent r2.1).1 (ent r2.1).2
    let d3 := { r2.2 with db_ := lmdbInsert r2.2.db_ r2.1 dbVal }
    if !dataPtr.write_ then
      -- nothing to write: update dataKeyToDbKey, move on
      ({ d3 with dataKeyToDbKey_ := mapErase d3.dataKeyToDbKey_ dataPtr.key_ }, none)
    else
      -- grab a fresh key for the follow up write
      let r3 := d3.getNewDbKey
      (writePayload c ent r3.2 dataPtr r3.1, none)
  else if !dataPtr.write_ then (d1, some .keyMarkedForDeletionDoesNotExist)
  else (writePayload c ent d1 dataPtr dbKey, none)

/-- The commit loop of `~WalletIfaceTransaction` over `insertVec_[i..]`. The
result is the state of the `DBInterface` when the loop is left and the
exception that left it, if any: the destructor holds no rollback call, so what
was written before a throw stays written. -/
def commitLoop (c : Crypto) (ent : Entropy) (keyToDataMap_ : List (BinaryData × Nat)) :
    List InsertData → Nat → DBInterface → DBInterface × Option WalletInterfaceException
  | [], _, d => (d, none)
  | dataPtr :: rest, i, d =>
    -- is this operation the last for this data key?
    match mapFind keyToDataMap_ dataPtr.key_ with
    | none => (d, some .insertNotMappedToDataKey)
    | some effect =>
      -- skip if this isn't the last effect
      if i ≠ effect then commitLoop c ent keyToDataMap_ rest (i + 1) d
      else
        match commitOp c ent d dataPtr with
        | (d', some e) => (d', some e)
        | (d', none) => commitLoop c ent keyToDataMap_ rest (i + 1) d'

/-- The body of `~WalletIfaceTransaction` for the outermost write transaction
(`eraseTx` returned true and `commit_` is set): the commit loop, then
`DBInterface::update`. -/
def WalletIfaceTransaction.commit (c : Crypto) (ent : Entropy) (tx : WalletIfaceTransaction)
    (d : DBInterface) : DBInterface × Option WalletInterfaceException :=
  match commitLoop c ent tx.keyToDataMap_ tx.insertVec_ 0 d with
  | (d', some e) => (d', some e)
  | (d', none) => (d'.update tx.insertVec_, none)

/-- A call made on a write transaction: `insert(key, val)` or `erase(key)`. -/
inductive TxOp where
  | insert (key val : BinaryData)
  | erase (key : BinaryData)
  deriving DecidableEq, Repr

/-- The data key a call names. -/
def TxOp.key : TxOp → BinaryData
  | .insert k _ => k
  | .erase k => k

/-- The transaction after one call. -/
def WalletIfaceTransaction.call (tx : WalletIfaceTransaction) : TxOp → WalletIfaceTransaction
  | .insert k v => tx.insert k v
  | .erase k => tx.erase k

/-- The transaction after a sequence of calls. -/
def WalletIfaceTransaction.calls (tx : WalletIfaceTransaction) (ops : List TxOp) :
    WalletIfaceTransaction :=
  ops.foldl WalletIfaceTransaction.call tx

/-! ## Reading of the load loop, record by record -/

/-- What a meta data packet (a packet with an empty data key) says. -/
inductive MetaEntry where
  | placeholder (gapInt : Nat)
  | cycle
  | unknown
  deriving DecidableEq, Repr

/-- The parse made by `processMetaDataPacket`, without its effects: an erasure
place holder naming a db-key, the key cycle flag, or neither. -/
def classifyMeta (packet : BinaryData) : Except WalletInterfaceException MetaEntry :=
  let cycle : Except WalletInterfaceException MetaEntry :=
    if packet = keyCycleFlag_ then .ok .cycle else .ok .unknown
  if packet.length > erasurePlaceHolder_.length then
    match get_BinaryData erasurePlaceHolder_.length packet with
    | none => .error .readerOverflow
    | some (placeHolder, r) =>
      if placeHolder = erasurePlaceHolder_ then
        match get_var_int r with
        | none => .error .readerOverflow
        | some (len, r') =>
          if len = 4 then
            match get_BinaryData 4 r' with
            | none => .error .readerOverflow
            | some (key, _) => .ok (.placeholder (READ_UINT32_BE key))
          else cycle
      else cycle
  else cycle

/-- The record at slot `k` reads, under the key pair of the load state `s`, as
an erasure place holder naming the db-key `g`. -/
def readsAsPlaceholder (c : Crypto) (s : LoadState) (k : Nat) (val : BinaryData) (g : Nat) :
    Prop :=
  ∃ packet, readDataPacket c (WRITE_UINT32_BE k) val s.decrPrivKey s.macKey = .ok ([], packet)
    ∧ classifyMeta packet = .ok (.placeholder g)

/-- A `DBInterface` as its constructor leaves it over the database file of
`d`: the records of `d`, no entry loaded yet. -/
def DBInterface.reopen (d : DBInterface) : DBInterface :=
  { db_ := d.db_, dataMap_ := [], dataKeyToDbKey_ := [], dbKeyCounter_ := 0,
    controlSalt_ := d.controlSalt_, encrPubKey_ := [], macKey_ := [] }

/-- The operation a call buffers. -/
def TxOp.toInsertData : TxOp → InsertData
  | .insert k v => { key_ := k, value_ := v }
  | .erase k => { key_ := k, write_ := false, wipe_ := false }

/-- Index, counted from `i`, of the last operation of the vector on the data
key `K`. -/
def lastIdxFrom (i : Nat) : List InsertData → BinaryData → Option Nat
  | [], _ => none
  | op :: rest, K =>
    match lastIdxFrom (i + 1) rest K with
    | some j => some j
    | none => if op.key_ = K then some i else none

/-- A sequence of write transactions, each opened on its own, filled by its
calls and committed; the first exception ends the sequence. -/
def commitAll (c : Crypto) (ent : Entropy) :
    List (List TxOp) → DBInterface → DBInterface × Option WalletInterfaceException
  | [], d => (d, none)
  | ops :: rest, d =>
    match (({} : WalletIfaceTransaction).calls ops).commit c ent d with
    | (d', some e) => (d', some e)
    | (d', none) => commitAll c ent rest d'

/-- The key/value map after the calls of one transaction, applied in order. -/
def applyOps (m : List (BinaryData × BinaryData)) : List TxOp → List (BinaryData × BinaryData)
  | [] => m
  | .insert k v :: rest => applyOps (mapInsert m k v) rest
  | .erase k :: rest => applyOps (mapErase m k) rest

/-- The key/value map after a sequence of transactions. -/
def applyAll (m : List (BinaryData × BinaryData)) :
    List (List TxOp) → List (BinaryData × BinaryData)
  | [] => m
  | ops :: rest => applyAll (applyOps m ops) rest

/-- A call the store takes: a non-empty data key, sizes a `size_t` holds, and
for an erase a data key the map `m` stores. -/
def TxOp.Ok (m : List (BinaryData × BinaryData)) : TxOp → Prop
  | .insert k v => k ≠ [] ∧ k.length < 2 ^ 64 ∧ v.length < 2 ^ 64
  | .erase k => k ≠ [] ∧ k.length < 2 ^ 64 ∧ mapFind m k ≠ none

/-- The calls of a transaction insert new data keys, overwrite stored ones, or
erase data keys the map `m` stores. -/
def StoredOps (m : List (BinaryData × BinaryData)) (ops : List TxOp) : Prop :=
  ∀ op ∈ ops, op.Ok m

/-- Every transaction of the sequence satisfies `StoredOps` on the map it is
committed to. -/
def StoredTxs (m : List (BinaryData × BinaryData)) : List (List TxOp) → Prop
  | [] => True
  | ops :: rest => StoredOps m ops ∧ StoredTxs (applyOps m ops) rest

/-! ## A concrete instance of the primitives, for evaluation -/

/-- Sum of the bytes, modulo 256. -/
def byteSum (b : BinaryData) : Nat := (b.foldl (fun acc x => acc + x) 0) % 256

/-- A toy instance of the primitives that satisfies their contracts: a
checksum for the hashes, a commutative product for ECDH, reversal for
AES-CBC. It serves to evaluate the embedding on concrete stores. -/
def toyCrypto : Crypto where
  getHMAC256 := fun k m => List.replicate 32 ((byteSum k + byteSum m) % 256)
  getHMAC512 := fun k m => List.replicate 64 ((byteSum k + byteSum m) % 256)
  hash256 := fun m => List.replicate 32 (byteSum m)
  ComputePublicKey := fun a => 2 :: List.replicate 32 (byteSum a)
  PubKeyScalarMultiply := fun p s => 2 :: List.replicate 32 ((p.getD 1 0 * byteSum s) % 256)
  EncryptCBC := fun d _ _ => d.reverse
  DecryptCBC := fun d _ _ => some d.reverse
  checkPrivKeyIsValid := fun _ => true

/-- A constant source of randomness: local private key `[1]`, IV of 16 zero
bytes. -/
def toyEntropy : Entropy := fun _ => ([1], List.replicate 16 0)

/-- An empty database file under the control salt `[7]`. -/
def emptyDb : DBInterface :=
  { db_ := [], dataMap_ := [], dataKeyToDbKey_ := [], dbKeyCounter_ := 0, controlSalt_ := [7],
    encrPubKey_ := [], macKey_ := [] }

/-- The session opened by loading the empty database file under the root key
`[9]`: the key cycle flag at db-key 0, the allocator at 1. -/
def toySession : DBInterface :=
  match emptyDb.loadAllEntries toyCrypto toyEntropy [9] with
  | .ok d => d
  | .error _ => emptyDb

/-! ## Invariants of the load loop and of the session -/

/-- A db-key the loop has neither read nor ruled out yet: an open gap, or an
integer above the last key read. -/
def Open (s : LoadState) (g : Nat) : Prop := g ∈ s.gaps ∨ s.prevDbKey < (g : Int)

/-- What the load loop keeps true of its state. -/
structure LoadInv (s : LoadState) : Prop where
  prev_ge : -1 ≤ s.prevDbKey
  prev_lt : s.prevDbKey < 2 ^ 31
  gaps_below : ∀ g ∈ s.gaps, (g : Int) < s.prevDbKey
  dom_eq : ∀ K, mapFind s.dataMap_ K = none ↔ mapFind s.dataKeyToDbKey_ K = none

/-- The state of the loop once the gaps below slot `k` are marked. -/
def markState (s : LoadState) (k : Nat) : LoadState :=
  { s with gaps := markGaps s.prevDbKey (k : Int) s.gaps, prevDbKey := (k : Int) }

/-- The effect of a data record on the two maps. -/
def addData (s : LoadState) (k : Nat) (dk dv : BinaryData) : LoadState :=
  { s with
    dataKeyToDbKey_ := mapInsert s.dataKeyToDbKey_ dk (WRITE_UINT32_BE k)
    dataMap_ :=
      match mapFind s.dataMap_ dk with
      | some _ => s.dataMap_
      | none => mapInsert s.dataMap_ dk dv }

/-- The effect of an erasure place holder naming `g`. -/
def closeGap (s : LoadState) (g : Nat) : LoadState := { s with gaps := setErase s.gaps g }

/-- The effect of a key cycle flag. -/
def cycleKeys (s : LoadState) (priv mac : BinaryData) : LoadState :=
  { s with decrKeyCounter := incr32 s.decrKeyCounter, decrPrivKey := priv, macKey := mac }

/-- The load of a store from which the data record of `K` at slot `p` was
wiped (`t'`), against the load of the store that still holds it (`t`). -/
structure SimRel (K : BinaryData) (p : Nat) (t t' : LoadState) : Prop where
  cnt : t'.decrKeyCounter = t.decrKeyCounter
  priv : t'.decrPrivKey = t.decrPrivKey
  mac : t'.macKey = t.macKey
  open_iff : ∀ g, Open t' g ↔ (Open t g ∨ g = p)
  closed : ¬ Open t p
  dk2db : ∀ K2, mapFind t'.dataKeyToDbKey_ K2
      = if K2 = K then none else mapFind t.dataKeyToDbKey_ K2
  dmap : ∀ K2, mapFind t'.dataMap_ K2 = if K2 = K then none else mapFind t.dataMap_ K2
  has : mapFind t.dataKeyToDbKey_ K ≠ none
  prev_le : t'.prevDbKey ≤ t.prevDbKey

/-- The slots of the store are listed in increasing order and hold 31-bit
db-keys. -/
def SortedBelow (raw : List (Nat × BinaryData)) (lo : Int) : Prop :=
  List.Pairwise (fun a b => a.1 < b.1) raw ∧ ∀ e ∈ raw, lo < (e.1 : Int) ∧ e.1 < 2 ^ 31

/-- The session state of a `DBInterface`: its file reloads into `t` without an
open gap, `t` agrees with the db-key map in memory and carries the key pair of
the session. -/
structure Sess (c : Crypto) (saltedRoot : BinaryData) (s0 : LoadState) (d : DBInterface)
    (t : LoadState) : Prop where
  sorted : SortedBelow d.db_ (-1)
  load : loadLoop c saltedRoot d.db_ s0 = .ok t
  gaps : t.gaps = []
  counter : t.prevDbKey + 1 = (d.dbKeyCounter_ : Int)
  dk2db : ∀ K, mapFind t.dataKeyToDbKey_ K = mapFind d.dataKeyToDbKey_ K
  pub : d.encrPubKey_ = c.ComputePublicKey t.decrPrivKey
  mac : d.macKey_ = t.macKey

/-- The loop starts from `prevDbKey = -1` and empty maps. -/
structure FreshLoad (s0 : LoadState) : Prop where
  inv : LoadInv s0
  prev : s0.prevDbKey = -1
  empty : ∀ K, mapFind s0.dataKeyToDbKey_ K = none

/-- The last operation of the vector on the data key `K`. -/
def lastOp : List InsertData → BinaryData → Option InsertData
  | [], _ => none
  | op :: rest, K =>
    match lastOp rest K with
    | some e => some e
    | none => if op.key_ = K then some op else none

/-- What an operation leaves under its data key. -/
def InsertData.effect (op : InsertData) : Option BinaryData :=
  if op.write_ then some op.value_ else none

/-- `keyToDataMap_` gives, for every data key of the rest of the vector, the
index of the last operation on it. -/
def LastIdxMap (km : List (BinaryData × Nat)) (i : Nat) (ops : List InsertData) : Prop :=
  ∀ op ∈ ops, mapFind km op.key_ = lastIdxFrom i ops op.key_

/-- An operation the commit may meet: non-empty data key, sizes a `size_t`
holds, and an erase names a key that has a db-key. -/
def OpOk (d : DBInterface) (op : InsertData) : Prop :=
  op.key_ ≠ [] ∧ op.key_.length < 2 ^ 64 ∧ op.value_.length < 2 ^ 64 ∧
    (op.write_ = false → mapFind d.dataKeyToDbKey_ op.key_ ≠ none)

/-- The buffer of a transaction: `keyToDataMap_` indexes the last operation of
every data key of `insertVec_`. -/
def BufferOk (tx : WalletIfaceTransaction) : Prop :=
  ∀ K, mapFind tx.keyToDataMap_ K = lastIdxFrom 0 tx.insertVec_ K

/-- The session between two transactions: reloadable, and the key/value map in
memory is the one a reload gives. -/
structure SessB (c : Crypto) (saltedRoot : BinaryData) (s0 : LoadState) (d : DBInterface)
    (t : LoadState) : Prop where
  sess : Sess c saltedRoot s0 d t
  dmap : ∀ K, mapFind t.dataMap_ K = mapFind d.dataMap_ K

/-- The db-key `g` is named by an erasure place holder the load loop reads, in
the store `raw`, at a db-key above `g`. -/
def NamedLater (c : Crypto) (saltedRoot : BinaryData) (s0 : LoadState)
    (raw : List (Nat × BinaryData)) (g : Nat) : Prop :=
  ∃ l1 p pv l2 sp, raw = l1 ++ (p, pv) :: l2 ∧ g < p ∧ loadLoop c saltedRoot l1 s0 = .ok sp ∧
    readsAsPlaceholder c sp p pv g

/-- The toy session after one transaction wrote `[10]` under the logical key
`[1,2,3]`: the payload is at db-key 1, the allocator at 2. -/
def toyStoreA : DBInterface :=
  ((({} : WalletIfaceTransaction).calls [.insert [1, 2, 3] [10]]).commit toyCrypto toyEntropy
    toySession).1

/-- The file of the toy session with one more record, at db-key 1: an erasure
place holder, written under the session key, that names db-key 7. -/
def toyStoreBadPlaceholder : DBInterface :=
  { emptyDb with
    db_ := toySession.db_ ++
      [(1, createDataPacket toyCrypto (WRITE_UINT32_BE 1) [] (erasedPacket (WRITE_UINT32_BE 7))
        toySession.encrPubKey_ toySession.macKey_ [1] (List.replicate 16 0))] }

/-- The load state after the toy key cycle flag at db-key 0 was read. -/
def toyLoadStateAfterFlag : LoadState :=
  { gaps := [], decrKeyCounter := 1, decrPrivKey := List.replicate 32 1,
    macKey := List.replicate 32 1, prevDbKey := 0, dataKeyToDbKey_ := [], dataMap_ := [] }

/-! ## The transaction registry -/

instance : MapKey String := ⟨fun a b => decide (a < b)⟩

/-- `DBIfaceTransaction::ParentTx`, the registry entry of the outermost
transaction of a thread on a database. The three lambdas are set together and
capture the same two values, the creating thread and the pointer to the
outermost transaction: `lbd_` is that pair, `none` when the lambdas are not
set (read transaction). -/
structure ParentTx where
  counter_ : Nat := 1
  commit_ : Bool
  lbd_ : Option (Nat × Nat) := none
  deriving DecidableEq, Repr

/-- A live `WalletIfaceTransaction` object: the database it was opened on, its
own buffer, and its copy of the lambdas. -/
structure TxObject where
  dbName_ : String
  tx : WalletIfaceTransaction
  lbd_ : Option (Nat × Nat) := none
  deriving DecidableEq, Repr

/-- The process state the transactions act on: the static registry `txMap_`
(database name, then thread id), the live transaction objects by address, and
the databases by name. -/
structure World where
  txMap_ : List (String × List (Nat × ParentTx)) := []
  objects : List (Nat × TxObject) := []
  dbMap_ : List (String × DBInterface) := []
  deriving DecidableEq, Repr

/-- The constructor `WalletIfaceTransaction(dbPtr, mode)` run by thread `thr`
for the object at address `txPtr`, with `insertTx` inlined: the state it leaves
and the exception it throws, if any (the object exists only if it returns). -/
def World.construct (w : World) (thr txPtr : Nat) (dbName : String) (mode : Bool) :
    World × Option WalletInterfaceException :=
  let txMap1 :=
    match mapFind w.txMap_ dbName with
    | some _ => w.txMap_
    | none => mapInsert w.txMap_ dbName []
  let txMap := (mapFind txMap1 dbName).getD []
  match mapFind txMap thr with
  | none =>
    -- this is the parent tx, create the lambdas and set up the struct
    let lbd := if mode then some (thr, txPtr) else none
    let ptx : ParentTx := { commit_ := mode, lbd_ := lbd }
    let obj : TxObject := { dbName_ := dbName, tx := { commit_ := mode }, lbd_ := lbd }
    ({ w with
        txMap_ := mapInsert txMap1 dbName (mapInsert txMap thr ptx)
        objects := mapInsert w.objects txPtr obj }, none)
  | some ptx =>
    -- make sure the commit type between parent and nested tx match
    if ptx.commit_ ≠ mode then ({ w with txMap_ := txMap1 }, some .failedToCreateDbTx)
    else
      -- set lambdas, increment counter
      let ptx' : ParentTx := { ptx with counter_ := incr32 ptx.counter_ }
      let obj : TxObject := { dbName_ := dbName, tx := { commit_ := mode }, lbd_ := ptx.lbd_ }
      ({ w with
          txMap_ := mapInsert txMap1 dbName (mapInsert txMap thr ptx')
          objects := mapInsert w.objects txPtr obj }, none)

/-- `WalletIfaceTransaction::insert(key, val)` called by thread `thr` on the
object at `txPtr`: the insert lambda appends to the buffer of the transaction
it captured. -/
def World.insert (w : World) (thr txPtr : Nat) (key val : BinaryData) :
    World × Option WalletInterfaceException :=
  match mapFind w.objects txPtr with
  | none => (w, some .nullTxPtr)
  | some obj =>
    match obj.lbd_ with
    | none => (w, some .insertLambdaNotSet)
    | some (thrId, target) =>
      if thrId ≠ thr then (w, some .insertThreadIdMismatch)
      else
        match mapFind w.objects target with
        | none => (w, some .nullTxPtr)
        | some pobj =>
          let pobj' : TxObject := { pobj with tx := pobj.tx.insert key val }
          ({ w with objects := mapInsert w.objects target pobj' }, none)

/-- `WalletIfaceTransaction::erase(key)`, the same way. -/
def World.erase (w : World) (thr txPtr : Nat) (key : BinaryData) :
    World × Option WalletInterfaceException :=
  match mapFind w.objects txPtr with
  | none => (w, some .nullTxPtr)
  | some obj =>
    match obj.lbd_ with
    | none => (w, some .insertLambdaNotSet)
    | some (thrId, target) =>
      if thrId ≠ thr then (w, some .insertThreadIdMismatch)
      else
        match mapFind w.objects target with
        | none => (w, some .nullTxPtr)
        | some pobj =>
          let pobj' : TxObject := { pobj with tx := pobj.tx.erase key }
          ({ w with objects := mapInsert w.objects target pobj' }, none)

/-- The destructor `~WalletIfaceTransaction` run by thread `thr` on the object
at `txPtr`, with `eraseTx` inlined. -/
def World.destruct (c : Crypto) (ent : Entropy) (w : World) (thr txPtr : Nat) :
    World × Option WalletInterfaceException :=
  match mapFind w.objects txPtr with
  | none => (w, some .nullTxPtr)
  | some obj =>
    let w0 := { w with objects := mapErase w.objects txPtr }
    match mapFind w.txMap_ obj.dbName_ with
    | none => (w0, some .missingDbNameInTxMap)
    | some txMap =>
      match mapFind txMap thr with
      | none => (w0, some .missingThreadIdInTxMap)
      | some ptx =>
        if ptx.counter_ > 1 then
          -- this is a nested tx, decrement and return
          let ptx' : ParentTx := { ptx with counter_ := ptx.counter_ - 1 }
          ({ w0 with txMap_ := mapInsert w.txMap_ obj.dbName_ (mapInsert txMap thr ptx') }, none)
        else
          -- counter is 1, this is the parent tx, clean up the entry
          let w1 := { w0 with txMap_ := mapInsert w.txMap_ obj.dbName_ (mapErase txMap thr) }
          if !obj.tx.commit_ then (w1, none)
          else
            match mapFind w.dbMap_ obj.dbName_ with
            | none => (w1, some .nullTxPtr)
            | some db =>
              let r := obj.tx.commit c ent db
              ({ w1 with dbMap_ := mapInsert w1.dbMap_ obj.dbName_ r.1 },
                r.2)

/-- A call through a transaction object. -/
def World.call (w : World) (thr txPtr : Nat) : TxOp → World × Option WalletInterfaceException
  | .insert k v => w.insert thr txPtr k v
  | .erase k => w.erase thr txPtr k

/-- A process with the toy session open as database "wallet" and, on thread
1, one write transaction, the object at address 100. -/
def toyWorld : World :=
  (({ dbMap_ := [("wallet", toySession)] } : World).construct 1 100 "wallet" true).1

/-! ## Accounts.cpp: asset accounts -/

/-- The exceptions of `Accounts.cpp` (`AccountException`, one constructor per
message; `UnrequestedAddressException`), the reader overflow of
`BinaryRefReader`, a failure of the derivation scheme or of the asset
deserializer, and the dereference of a null pointer. -/
inductive AccountException where
  | invalidKeySize
  | unexpectedPrefixForAssetAccountKey
  | missingAssetCountEntry
  | missingLastUsedEntry
  | unexpectedAccountAssetCount
  | unexpectedAssetAccountType
  | unexpectedDerSchemeType
  | requestedIndexOverflowsMaxLookup
  | unknownAssetIndex
  | invalidAssetId
  | unknownAccountId
  | unrequestedAddress
  | emptyAddressAccountKey
  | unexpectedKeyPrefixForAddressAccount
  | readerOverflow
  | derivationFailed
  | deserializationFailed
  | nullPointer
  | noActiveAssetAccount
  | invalidAssetAccount
  | invalidAddressTypeForAccount
  | invalidAddressEntryType
  | unexpectedAssetIdLength
  | unexpectedAssetTypeInMap
  | fillPrivateKeyFailed
  | unknownScrAddr
  | invalidAccountRoot
  | unexpectAssetType
  | unexpectedDerSchemeObjectType
  | invalidAccountIdLength
  | alreadyHaveThisAssetAccount
  | emptyPublicRoot
  | accountIdCollision
  deriving DecidableEq, Repr

/-- The record prefixes of the wallet store (macros of a header that is not
part of the sources at hand): one byte each, taken as parameters. -/
structure DbPrefixes where
  ADDRESS_ACCOUNT_PREFIX : Nat
  ASSET_ACCOUNT_PREFIX : Nat
  ASSET_COUNT_PREFIX : Nat
  ASSET_TOP_INDEX_PREFIX : Nat
  ASSETENTRY_PREFIX : Nat
  ADDRESS_TYPE_PREFIX : Nat
  deriving DecidableEq, Repr

/-- `ROOT_ASSETENTRY_ID`: the index of an account root, `-1` as an `int`. -/
def ROOT_ASSETENTRY_ID : Nat := 0xFFFFFFFF

/-- An `AssetEntry` (single-key asset). `index_` is the 32-bit pattern of the
`int` index (`0xFFFFFFFF`, that is `-1`, for an account root), `ID_` the full
asset ID, `privKey_` the encrypted private key when there is one. -/
structure AssetEntry where
  index_ : Nat
  ID_ : BinaryData
  pubKey_ : BinaryData
  privKey_ : Option BinaryData := none
  needsCommit_ : Bool := true
  deriving DecidableEq, Repr

/-- `AssetEntry::doNotCommit`. -/
def AssetEntry.doNotCommit (e : AssetEntry) : AssetEntry := { e with needsCommit_ := false }

/-- Modelled from the spec: `AssetEntry::getDbKey` (Assets.cpp is not part of
the sources at hand). The persistence layout is
`(ASSETENTRY_PREFIX, fullId ‖ i) → serialized asset`: the prefix byte, then the
full asset ID. -/
def AssetEntry.getDbKey (p : DbPrefixes) (e : AssetEntry) : BinaryData :=
  p.ASSETENTRY_PREFIX :: e.ID_

/-- `DerivationSchemeType`, as `AssetAccount::extendPublicChain` switches on it. -/
inductive DerSchemeType where
  | ArmoryLegacy
  | BIP32
  | ECDH
  | other
  deriving DecidableEq, Repr

/-- A derivation scheme object: its type tag, its `extendPublicChain(asset,
start, end)` and its serialization. The derivation algorithms are contracts of
the account layer. -/
structure DerivationScheme where
  type : DerSchemeType
  extendPublicChain : Option AssetEntry → Nat → Nat → Except AccountException (List AssetEntry)
  serialize : BinaryData

/-- The deserializers the account layer calls:
`AssetEntry::deserialize(key, DBUtils::getDataRefForPacket(value))`,
`DerivationScheme::deserialize(DBUtils::getDataRefForPacket(data), ..)`, and
`AssetEntry::serialize`. -/
structure AssetCodec where
  serialize : AssetEntry → BinaryData
  deserialize : BinaryData → BinaryData → Except AccountException AssetEntry
  derDeserialize : BinaryData → Except AccountException DerivationScheme

/-- `AssetAccountTypeEnum`. -/
inductive AssetAccountTypeEnum where
  | Plain
  | ECDH
  deriving DecidableEq, Repr

/-- The byte `put_uint8_t(type())` writes: the enumerators in declaration
order. -/
def AssetAccountTypeEnum.toByte : AssetAccountTypeEnum → Nat
  | .Plain => 0
  | .ECDH => 1

/-- The members of `AssetAccount` the operations below use. `assets_` is the
`std::map<unsigned, AssetEntry>` in key order, `lastUsedIndex_` an `unsigned`
that starts at `UINT32_MAX` (no address handed out), `lookup_` the value of
`getLookup()`. -/
structure AssetAccount where
  id_ : BinaryData
  parent_id_ : BinaryData
  type : AssetAccountTypeEnum := .Plain
  root_ : Option AssetEntry
  derScheme_ : DerivationScheme
  assets_ : List (Nat × AssetEntry) := []
  lastUsedIndex_ : Nat := 0xFFFFFFFF
  lookup_ : Nat

/-- The wallet store as the write and read transactions of the account layer
see it: the key/value map `dataMap_`, with `tx->insert` an insert-or-assign,
`tx->erase` an erase and `tx->getDataRef` a lookup. -/
abbrev Disk := List (BinaryData × BinaryData)

/-- Modelled from the spec: `AssetAccount::getFullID` (Accounts.h is not part
of the sources at hand): "Full asset-account ID = address-account ID ‖
asset-account ID". -/
def AssetAccount.getFullID (a : AssetAccount) : BinaryData := a.parent_id_ ++ a.id_

/-- `AssetAccount::writeAssetEntry`: the entry (its commit flag cleared) and
the store. -/
def writeAssetEntry (p : DbPrefixes) (cd : AssetCodec) (entryPtr : AssetEntry) (disk : Disk) :
    AssetEntry × Disk :=
  if !entryPtr.needsCommit_ then (entryPtr, disk)
  else (entryPtr.doNotCommit, mapInsert disk (entryPtr.getDbKey p) (cd.serialize entryPtr))

/-- `for (auto& entryPtr : assets_) writeAssetEntry(entryPtr.second)`. -/
def writeAssetEntries (p : DbPrefixes) (cd : AssetCodec) :
    List (Nat × AssetEntry) → Disk → List (Nat × AssetEntry) × Disk
  | [], disk => ([], disk)
  | (i, e) :: rest, disk =>
    let r := writeAssetEntry p cd e disk
    let rs := writeAssetEntries p cd rest r.2
    ((i, r.1) :: rs.1, rs.2)

/-- `AssetAccount::updateAssetCount`. -/
def AssetAccount.updateAssetCount (p : DbPrefixes) (a : AssetAccount) (disk : Disk) : Disk :=
  mapInsert disk (p.ASSET_COUNT_PREFIX :: a.getFullID) (put_var_int a.assets_.length)

/-- `AssetAccount::updateOnDiskAssets`. -/
def AssetAccount.updateOnDiskAssets (p : DbPrefixes) (cd : AssetCodec) (a : AssetAccount)
    (disk : Disk) : AssetAccount × Disk :=
  let r := writeAssetEntries p cd a.assets_ disk
  let a1 := { a with assets_ := r.1 }
  (a1, a1.updateAssetCount p r.2)

/-- `AssetAccount::updateHighestUsedIndex`. -/
def AssetAccount.updateHighestUsedIndex (p : DbPrefixes) (a : AssetAccount) (disk : Disk) :
    Disk :=
  mapInsert disk (p.ASSET_TOP_INDEX_PREFIX :: a.getFullID) (put_var_int a.lastUsedIndex_)

/-- `AssetAccount::commit`. -/
def AssetAccount.commit (p : DbPrefixes) (cd : AssetCodec) (a : AssetAccount) (disk : Disk) :
    AssetAccount × Disk :=
  let bwKey := p.ASSET_ACCOUNT_PREFIX :: a.getFullID
  let derSchemeSerData := a.derScheme_.serialize
  let bwData := [a.type.toByte] ++ put_var_int a.parent_id_.length
    ++ put_var_int derSchemeSerData.length ++ derSchemeSerData
  -- commit root asset if there is one
  let rootStep : Option AssetEntry × Disk :=
    match a.root_ with
    | none => (none, disk)
    | some r => let w := writeAssetEntry p cd r disk; (some w.1, w.2)
  -- commit assets
  let r := writeAssetEntries p cd a.assets_ rootStep.2
  let a1 := { a with root_ := rootStep.1, assets_ := r.1 }
  -- commit serialized account data
  let d3 := mapInsert r.2 bwKey bwData
  let d4 := a1.updateAssetCount p d3
  (a1, a1.updateHighestUsedIndex p d4)

/-- `AssetAccount::extendPublicChain(assetPtr, start, end)`: the dispatch on the
derivation scheme type. -/
def AssetAccount.extendPublicChainRange (a : AssetAccount) (assetPtr : Option AssetEntry)
    (start stop : Nat) : Except AccountException (List AssetEntry) :=
  match a.derScheme_.type with
  | .ArmoryLegacy => a.derScheme_.extendPublicChain assetPtr start stop
  | .BIP32 => a.derScheme_.extendPublicChain a.root_ start stop
  | .ECDH => a.derScheme_.extendPublicChain a.root_ start stop
  | .other => .error .unexpectedDerSchemeType

/-- The insertion loop of `extendPublicChain(assetPtr, count)`: an asset whose
index is already in the map is skipped. -/
def insertNewAssets (assets : List (Nat × AssetEntry)) :
    List AssetEntry → List (Nat × AssetEntry)
  | [] => assets
  | asset :: rest =>
    match mapFind assets asset.index_ with
    | some _ => insertNewAssets assets rest
    | none => insertNewAssets (mapInsert assets asset.index_ asset) rest

/-- `AssetAccount::extendPublicChain(assetPtr, count)`. `getIndex() + 1` and
`getIndex() + count` are taken modulo 2^32. -/
def AssetAccount.extendPublicChainFrom (p : DbPrefixes) (cd : AssetCodec) (a : AssetAccount)
    (disk : Disk) (assetPtr : Option AssetEntry) (count : Nat) :
    Except AccountException (AssetAccount × Disk) :=
  if count = 0 then .ok (a, disk)
  else
    match assetPtr with
    | none => .error .nullPointer
    | some ap =>
      match a.extendPublicChainRange assetPtr ((ap.index_ + 1) % 2 ^ 32)
          ((ap.index_ + count) % 2 ^ 32) with
      | .error e => .error e
      | .ok assetVec =>
        .ok ({ a with assets_ := insertNewAssets a.assets_ assetVec }.updateOnDiskAssets p cd disk)

/-- `AssetAccount::extendPublicChain(count)`. -/
def AssetAccount.extendPublicChain (p : DbPrefixes) (cd : AssetCodec) (a : AssetAccount)
    (disk : Disk) (count : Nat) : Except AccountException (AssetAccount × Disk) :=
  let assetPtr : Option AssetEntry :=
    match a.assets_.getLast? with
    | some last => some last.2
    | none => a.root_
  if count = 0 then .ok (a, disk)
  else a.extendPublicChainFrom p cd disk assetPtr count

/-- `AssetAccount::getAndBumpHighestUsedIndex`. -/
def AssetAccount.getAndBumpHighestUsedIndex (p : DbPrefixes) (a : AssetAccount) (disk : Disk) :
    Nat × AssetAccount × Disk :=
  let a1 := { a with lastUsedIndex_ := incr32 a.lastUsedIndex_ }
  (a1.lastUsedIndex_, a1, a1.updateHighestUsedIndex p disk)

/-- `AssetAccount::getNewAsset`: the asset returned or the exception thrown,
with the account and the store as the call leaves them. -/
def AssetAccount.getNewAsset (p : DbPrefixes) (cd : AssetCodec) (a : AssetAccount)
    (disk : Disk) : Except AccountException AssetEntry × AssetAccount × Disk :=
  let r := a.getAndBumpHighestUsedIndex p disk
  let index := r.1
  match mapFind r.2.1.assets_ index with
  | some entry => (.ok entry, r.2.1, r.2.2)
  | none =>
    match r.2.1.extendPublicChain p cd r.2.2 r.2.1.lookup_ with
    | .error e => (.error e, r.2.1, r.2.2)
    | .ok (a2, d2) =>
      match mapFind a2.assets_ index with
      | some entry => (.ok entry, a2, d2)
      | none => (.error .requestedIndexOverflowsMaxLookup, a2, d2)

/-- `AssetAccount::getAssetForIndex`. -/
def AssetAccount.getAssetForIndex (a : AssetAccount) (id : Nat) :
    Except AccountException AssetEntry :=
  match mapFind a.assets_ id with
  | none => .error .unknownAssetIndex
  | some e => .ok e

/-- `AssetAccount::getHighestUsedIndex`. -/
def AssetAccount.getHighestUsedIndex (a : AssetAccount) : Nat := a.lastUsedIndex_

/-- `std::map::insert` / `emplace`: nothing happens when the key is there. -/
def mapEmplace {κ β : Type} [DecidableEq κ] [MapKey κ] (m : List (κ × β)) (k : κ) (v : β) :
    List (κ × β) :=
  match mapFind m k with
  | some _ => m
  | none => mapInsert m k v

/-- `tx->getDataRef(key)`: the value stored, an empty reference when there is
none. -/
def getDataRef (disk : Disk) (key : BinaryData) : BinaryData := (mapFind disk key).getD []

/-- `BinaryData::getSliceCopy(pos, n)`: the `n` bytes from position `pos`.
BinaryData.h is not part of the sources at hand: a slice that leaves the data
is `none` here and read as a reader overflow by the callers. -/
def getSliceCopy (d : BinaryData) (pos n : Nat) : Option BinaryData :=
  if pos + n ≤ d.length then some ((d.drop pos).take n) else none

/-- `BinaryRefReader::get_uint8_t`: the next byte and the rest, `none` when the
data is exhausted. -/
def get_uint8_t (d : BinaryData) : Option (Nat × BinaryData) :=
  match d with
  | [] => none
  | b :: r => some (b, r)

/-- `WalletIfaceIterator::seek(key)`: `lower_bound` in the key/value map, the
entries from the first key that is not below `key`. -/
def seek (disk : Disk) (key : BinaryData) : Disk := disk.dropWhile (fun e => bdLess e.1 key)

/-- The loop of `AssetAccount::loadFromDisk` that collects the asset entries,
from the iterator position `entries`: one unit of fuel for each pass through
the loop body. A key equal to the asset-entry key of the account is passed with
`continue`, the iterator staying where it is. -/
def loadAssetsLoop (cd : AssetCodec) (assetDbKey : BinaryData) :
    Nat → Disk → Option AssetEntry × List (Nat × AssetEntry) →
    Option (Except AccountException (Option AssetEntry × List (Nat × AssetEntry)))
  | 0, _, _ => none
  | _ + 1, [], st => some (.ok st)
  | fuel + 1, (key_bdr, value_bdr) :: rest, st =>
    -- check key isnt prefix
    if key_bdr = assetDbKey then loadAssetsLoop cd assetDbKey fuel ((key_bdr, value_bdr) :: rest) st
    -- check key starts with prefix
    else if !assetDbKey.isPrefixOf key_bdr then some (.ok st)
    else
      match cd.deserialize key_bdr value_bdr with
      | .error e => some (.error e)
      | .ok assetPtr =>
        if assetPtr.index_ ≠ ROOT_ASSETENTRY_ID then
          loadAssetsLoop cd assetDbKey fuel rest (st.1, mapEmplace st.2 assetPtr.index_ assetPtr)
        else loadAssetsLoop cd assetDbKey fuel rest (some assetPtr, st.2)

/-- `AssetAccount::loadFromDisk`; `none` when the fuel runs out in the asset
loop. `lookup_` is `getLookup()` of the account class instantiated. -/
def AssetAccount.loadFromDisk (p : DbPrefixes) (cd : AssetCodec) (lookup : AssetAccountTypeEnum → Nat)
    (fuel : Nat) (disk : Disk) (key : BinaryData) :
    Option (Except AccountException AssetAccount) :=
  match key with
  | [] => some (.error .invalidKeySize)
  | k0 :: keyTail =>
    if k0 ≠ p.ASSET_ACCOUNT_PREFIX then some (.error .unexpectedPrefixForAssetAccountKey)
    else
      match get_uint8_t (getDataRef disk key) with
      | none => some (.error .readerOverflow)
      | some (typeByte, r1) =>
        match get_var_int r1 with
        | none => some (.error .readerOverflow)
        | some (parent_id_len, r2) =>
          match getSliceCopy key 1 parent_id_len,
              getSliceCopy key (1 + parent_id_len) (key.length - 1 - parent_id_len) with
          | some parent_id, some account_id =>
            match get_var_int r2 with
            | none => some (.error .readerOverflow)
            | some (len, r3) =>
              match get_BinaryData len r3 with
              | none => some (.error .readerOverflow)
              | some (derSchemeBDR, _) =>
                match cd.derDeserialize derSchemeBDR with
                | .error e => some (.error e)
                | .ok derScheme =>
                  -- asset count
                  let assetcount := getDataRef disk (p.ASSET_COUNT_PREFIX :: keyTail)
                  if assetcount.length = 0 then some (.error .missingAssetCountEntry)
                  else
                    match get_var_int assetcount with
                    | none => some (.error .readerOverflow)
                    | some (assetCount, _) =>
                      -- last used index
                      let lastusedindex := getDataRef disk (p.ASSET_TOP_INDEX_PREFIX :: keyTail)
                      if lastusedindex.length = 0 then some (.error .missingLastUsedEntry)
                      else
                        match get_var_int lastusedindex with
                        | none => some (.error .readerOverflow)
                        | some (lastUsedIndex, _) =>
                          -- get all assets
                          let assetDbKey := p.ASSETENTRY_PREFIX :: keyTail
                          match loadAssetsLoop cd assetDbKey fuel (seek disk assetDbKey)
                              (none, []) with
                          | none => none
                          | some (.error e) => some (.error e)
                          | some (.ok (rootEntry, assetMap)) =>
                            -- sanity check
                            if assetCount ≠ assetMap.length then
                              some (.error .unexpectedAccountAssetCount)
                            else
                              let mk : AssetAccountTypeEnum → AssetAccount := fun ty =>
                                { id_ := account_id, parent_id_ := parent_id, type := ty,
                                  root_ := rootEntry, derScheme_ := derScheme,
                                  assets_ := assetMap,
                                  lastUsedIndex_ := lastUsedIndex % 2 ^ 32,
                                  lookup_ := lookup ty }
                              if typeByte = AssetAccountTypeEnum.Plain.toByte then
                                some (.ok (mk .Plain))
                              else if typeByte = AssetAccountTypeEnum.ECDH.toByte then
                                some (.ok (mk .ECDH))
                              else some (.error .unexpectedAssetAccountType)
          | _, _ => some (.error .readerOverflow)

/-! ## Accounts.cpp: address accounts -/

/-- An `AddressEntry`: an asset under an address type. -/
structure AddressEntry where
  asset : AssetEntry
  type : Nat
  deriving DecidableEq, Repr

/-- The members of `AddressAccount` the operations below use: `addressTypes_`
is the `std::set` of permitted address types, `addresses_` the table of the
address types that differ from the default (asset ID to type). -/
structure AddressAccount where
  ID_ : BinaryData
  outerAccount_ : BinaryData
  innerAccount_ : BinaryData
  assetAccounts_ : List (BinaryData × AssetAccount) := []
  addressTypes_ : List Nat := []
  defaultAddressEntryType_ : Nat
  addresses_ : List (BinaryData × Nat) := []

/-- `AddressAccount::writeAddressType`. -/
def writeAddressType (p : DbPrefixes) (disk : Disk) (id : BinaryData) (aeType : Nat) : Disk :=
  mapInsert disk (p.ADDRESS_TYPE_PREFIX :: id) (put_uint32_t aeType)

/-- The loop of `AddressAccount::commit` over the asset accounts: the accounts
after their `commit()`, the bytes appended to `bwData`, the store. -/
def commitAssetAccounts (p : DbPrefixes) (cd : AssetCodec) :
    List (BinaryData × AssetAccount) → Disk →
    List (BinaryData × AssetAccount) × BinaryData × Disk
  | [], disk => ([], [], disk)
  | (id, account) :: rest, disk =>
    let assetAccountID := account.getFullID
    let r := account.commit p cd disk
    let rs := commitAssetAccounts p cd rest r.2
    ((id, r.1) :: rs.1, put_var_int assetAccountID.length ++ assetAccountID ++ rs.2.1, rs.2.2)

/-- `AddressAccount::commit`. -/
def AddressAccount.commit (p : DbPrefixes) (cd : AssetCodec) (aa : AddressAccount)
    (disk : Disk) : AddressAccount × Disk :=
  let bwKey := p.ADDRESS_ACCOUNT_PREFIX :: aa.ID_
  let head := put_var_int aa.outerAccount_.length ++ aa.outerAccount_
    ++ put_var_int aa.innerAccount_.length ++ aa.innerAccount_
    ++ put_var_int aa.addressTypes_.length ++ (aa.addressTypes_.map put_uint32_t).flatten
    ++ put_uint32_t aa.defaultAddressEntryType_
    ++ put_var_int aa.assetAccounts_.length
  -- asset accounts
  let r := commitAssetAccounts p cd aa.assetAccounts_ disk
  -- commit address account data to disk
  let d1 := mapInsert r.2.2 bwKey (head ++ r.2.1)
  -- commit instantiated address types
  let d2 := aa.addresses_.foldl (fun d addrPair => writeAddressType p d addrPair.1 addrPair.2) d1
  ({ aa with assetAccounts_ := r.1 }, d2)

/-- `AddressAccount::getAddressEntryForID`. -/
def AddressAccount.getAddressEntryForID (aa : AddressAccount) (ID : BinaryData) :
    Except AccountException AddressEntry :=
  -- sanity check
  if ID.length ≠ 12 then .error .invalidAssetId
  else
    -- get the asset account
    let accIDRef := (ID.drop 4).take 4
    match mapFind aa.assetAccounts_ accIDRef with
    | none => .error .unknownAccountId
    | some acc =>
      -- does this ID exist?
      let id_int := READ_UINT32_BE (ID.drop 8)
      if id_int > acc.getHighestUsedIndex then .error .unrequestedAddress
      else
        -- is there an address entry with this ID?
        let aeType :=
          match mapFind aa.addresses_ ID with
          | some t => t
          | none => aa.defaultAddressEntryType_
        match acc.getAssetForIndex id_int with
        | .error e => .error e
        | .ok assetPtr => .ok { asset := assetPtr, type := aeType }

/-- The inner loop of `getUsedAddressMap`: the addresses of the indices
`0 .. usedIndex` of one asset account, added to `result`. -/
def usedAddressesOf (aa : AddressAccount) (acc : AssetAccount) (usedIndex : Nat)
    (result : List (BinaryData × AddressEntry)) :
    Except AccountException (List (BinaryData × AddressEntry)) :=
  (List.range (usedIndex + 1)).foldl
    (fun res i =>
      match res with
      | .error e => .error e
      | .ok r =>
        match acc.getAssetForIndex i with
        | .error e => .error e
        | .ok assetPtr =>
          let aeType :=
            match mapFind aa.addresses_ assetPtr.ID_ with
            | some t => t
            | none => aa.defaultAddressEntryType_
          .ok (mapEmplace r assetPtr.ID_ { asset := assetPtr, type := aeType }))
    (.ok result)

/-- `AddressAccount::getUsedAddressMap`: an asset account at `UINT32_MAX` has
handed out no address and is passed over. -/
def AddressAccount.getUsedAddressMap (aa : AddressAccount) :
    Except AccountException (List (BinaryData × AddressEntry)) :=
  aa.assetAccounts_.foldl
    (fun res account =>
      match res with
      | .error e => .error e
      | .ok r =>
        let usedIndex := account.2.getHighestUsedIndex
        if usedIndex = 0xFFFFFFFF then .ok r
        else usedAddressesOf aa account.2 usedIndex r)
    (.ok [])

/-! ## A concrete account, for evaluation -/

/-- Record prefixes for the examples: six distinct bytes. -/
def toyPrefixes : DbPrefixes :=
  { ADDRESS_ACCOUNT_PREFIX := 0xD0, ASSET_ACCOUNT_PREFIX := 0xE1, ASSET_COUNT_PREFIX := 0xE2,
    ASSET_TOP_INDEX_PREFIX := 0xE3, ASSETENTRY_PREFIX := 0x8A, ADDRESS_TYPE_PREFIX := 0xD1 }

/-- An asset of the examples: index `i` under the full account ID `fullID`,
its public key standing for the derived one. -/
def toyAsset (fullID : BinaryData) (i : Nat) : AssetEntry :=
  { index_ := i, ID_ := fullID ++ WRITE_UINT32_BE i, pubKey_ := [2, i % 256] }

/-- A derivation scheme for the examples: it derives every index asked for. -/
def toyDerScheme : DerivationScheme :=
  { type := .ArmoryLegacy
    extendPublicChain := fun assetPtr start stop =>
      match assetPtr with
      | none => .error .nullPointer
      | some ap =>
        .ok ((List.range' start (stop + 1 - start)).map (fun i => toyAsset (ap.ID_.take 8) i))
    serialize := [1, 0x20] }

/-- A codec for the examples: an asset is stored as its public key, the ID and
the index are read back from the record key. -/
def toyCodec : AssetCodec :=
  { serialize := fun e => e.pubKey_
    deserialize := fun key value =>
      .ok { index_ := READ_UINT32_BE (key.drop (key.length - 4)), ID_ := key.drop 1,
            pubKey_ := value, needsCommit_ := false }
    derDeserialize := fun d => if d = [1, 0x20] then .ok toyDerScheme else .error .deserializationFailed }

/-- An asset account that has computed nothing and handed out nothing: its
root only, lookup window 2. -/
def toyAssetAccount : AssetAccount :=
  { id_ := [0, 0, 0, 1], parent_id_ := [0, 0, 0, 7],
    root_ := some (toyAsset [0, 0, 0, 7, 0, 0, 0, 1] 0xFFFFFFFF),
    derScheme_ := toyDerScheme, lookup_ := 2 }

/-- An asset account whose top index runs ahead of the assets computed: assets
0 and 1, last used index 5, lookup window 2. -/
def toyAssetAccountAhead : AssetAccount :=
  { toyAssetAccount with
    assets_ := [(0, toyAsset [0, 0, 0, 7, 0, 0, 0, 1] 0), (1, toyAsset [0, 0, 0, 7, 0, 0, 0, 1] 1)],
    lastUsedIndex_ := 5 }

/-- An asset account whose chain is computed (assets 0 and 1) and that has
handed out no address: `lastUsedIndex_` is `UINT32_MAX`. -/
def toyAssetAccountUnused : AssetAccount :=
  { toyAssetAccount with
    assets_ := [(0, toyAsset [0, 0, 0, 7, 0, 0, 0, 1] 0), (1, toyAsset [0, 0, 0, 7, 0, 0, 0, 1] 1)] }

/-- An address account over `toyAssetAccountUnused`, default address type 1,
no override. -/
def toyAddressAccountUnused : AddressAccount :=
  { ID_ := [0, 0, 0, 7], outerAccount_ := [0, 0, 0, 1], innerAccount_ := [0, 0, 0, 1],
    assetAccounts_ := [([0, 0, 0, 1], toyAssetAccountUnused)],
    addressTypes_ := [1], defaultAddressEntryType_ := 1 }

/-- The store of `toyAssetAccountAhead`: the top index 5 under its key. -/
def toyDiskAhead : Disk := [([0xE3, 0, 0, 0, 7, 0, 0, 0, 1], [5])]

/-! ## Key order -/

/-- The laws of a key order: a strict total order. -/
structure MapKey.Laws (κ : Type) [MapKey κ] : Prop where
  irrefl : ∀ a : κ, MapKey.less a a = false
  trans : ∀ a b c : κ, MapKey.less a b = true → MapKey.less b c = true → MapKey.less a c = true
  total : ∀ a b : κ, a ≠ b → MapKey.less a b = false → MapKey.less b a = true

/-- A map whose entries stand in strictly increasing key order, as a
`std::map` keeps them. -/
def MapSorted {κ β : Type} [MapKey κ] (m : List (κ × β)) : Prop :=
  m.Pairwise (fun x y => MapKey.less x.1 y.1 = true)

/-! ## Well-formed accounts and the records of a commit -/

/-- The six record prefixes are distinct bytes. -/
def DbPrefixes.Distinct (p : DbPrefixes) : Prop :=
  [p.ADDRESS_ACCOUNT_PREFIX, p.ASSET_ACCOUNT_PREFIX, p.ASSET_COUNT_PREFIX,
    p.ASSET_TOP_INDEX_PREFIX, p.ASSETENTRY_PREFIX, p.ADDRESS_TYPE_PREFIX].Nodup

/-- The asset entries of an account: the assets in index order, then the root. -/
def AssetAccount.entries (a : AssetAccount) : List AssetEntry :=
  a.assets_.map Prod.snd ++ a.root_.toList

/-- The invariants of an asset account object: 4-byte account and parent IDs,
a 32-bit top index, `assets_` in key order with each asset under its own index
(an index other than the root's), the root at index `ROOT_ASSETENTRY_ID`, and
every asset ID the full account ID followed by the big-endian index. -/
def AssetAccount.WellFormed (a : AssetAccount) : Prop :=
  a.id_.length = 4 ∧ a.parent_id_.length = 4 ∧ a.lastUsedIndex_ < 2 ^ 32 ∧
  a.derScheme_.serialize.length < 2 ^ 64 ∧ a.assets_.length < 2 ^ 64 ∧
  MapSorted a.assets_ ∧
  (∀ x ∈ a.assets_, x.2.index_ = x.1 ∧ x.1 < ROOT_ASSETENTRY_ID) ∧
  (∀ r ∈ a.root_.toList, r.index_ = ROOT_ASSETENTRY_ID) ∧
  (∀ e ∈ a.entries, e.ID_ = a.getFullID ++ WRITE_UINT32_BE e.index_)

/-- The invariants of an address account object: a 4-byte ID, the address types
and the default type 32-bit values, the set and the maps in key order, every
asset account under its own ID with this account as parent, and every
override under a 12-byte asset ID of this account. -/
def AddressAccount.WellFormed (aa : AddressAccount) : Prop :=
  aa.ID_.length = 4 ∧ aa.outerAccount_.length < 2 ^ 64 ∧ aa.innerAccount_.length < 2 ^ 64 ∧
  aa.addressTypes_.length < 2 ^ 64 ∧ aa.assetAccounts_.length < 2 ^ 64 ∧
  aa.addressTypes_.Pairwise (fun x y => x < y) ∧ (∀ t ∈ aa.addressTypes_, t < 2 ^ 32) ∧
  aa.defaultAddressEntryType_ < 2 ^ 32 ∧
  MapSorted aa.assetAccounts_ ∧
  (∀ x ∈ aa.assetAccounts_, x.1 = x.2.id_ ∧ x.2.parent_id_ = aa.ID_ ∧ x.2.WellFormed) ∧
  MapSorted aa.addresses_ ∧
  (∀ x ∈ aa.addresses_, x.1.length = 12 ∧ aa.ID_.isPrefixOf x.1 = true ∧ x.2 < 2 ^ 32)

/-- The record slot of an asset in a commit: its key, and the value written,
`none` when the commit flag is down and nothing is written. -/
def AssetEntry.slot (p : DbPrefixes) (cd : AssetCodec) (e : AssetEntry) :
    BinaryData × Option BinaryData :=
  (e.getDbKey p, if e.needsCommit_ then some (cd.serialize e) else none)

/-- The store after the slots are written in order. -/
def applySlots (d : Disk) (S : List (BinaryData × Option BinaryData)) : Disk :=
  S.foldl (fun d s => match s.2 with
    | some v => mapInsert d s.1 v
    | none => d) d

/-- An address account for the round trip: the asset account of
`toyAddressAccountUnused` (root, assets 0 and 1, nothing handed out), address
types 1 and 2, default type 1, asset 0 overridden to type 2. -/
def toyAddressAccount : AddressAccount :=
  { toyAddressAccountUnused with
    addressTypes_ := [1, 2],
    addresses_ := [([0, 0, 0, 7, 0, 0, 0, 1, 0, 0, 0, 0], 2)] }

/-! ## Accounts.cpp: new addresses and the override table -/

/-- `AddressAccount::eraseInstantiatedAddressType`. -/
def eraseInstantiatedAddressType (p : DbPrefixes) (disk : Disk) (id : BinaryData) : Disk :=
  mapErase disk (p.ADDRESS_TYPE_PREFIX :: id)

/-- `AddressAccount::updateInstantiatedAddressType(id, aeType)`. -/
def AddressAccount.updateInstantiatedAddressType (p : DbPrefixes) (aa : AddressAccount)
    (disk : Disk) (id : BinaryData) (aeType : Nat) : AddressAccount × Disk :=
  -- otherwise write address type to disk
  let write : AddressAccount × Disk :=
    ({ aa with addresses_ := mapInsert aa.addresses_ id aeType },
      writeAddressType p disk id aeType)
  match mapFind aa.addresses_ id with
  | some t =>
    -- skip if type entry already exist and new type matches old one
    if t = aeType then (aa, disk)
    -- delete entry if new type matches default account type
    else if aeType = aa.defaultAddressEntryType_ then
      ({ aa with addresses_ := mapErase aa.addresses_ id },
        eraseInstantiatedAddressType p disk id)
    else write
  | none => write

/-- `AddressAccount::updateInstantiatedAddressType(addrPtr)`.
`AddressEntryType_Default` is an enumerator of a header that is not part of
the sources at hand, taken as a parameter; `addrPtr->getID()` is the ID of the
asset of the address. -/
def AddressAccount.updateInstantiatedAddressTypeOf (AddressEntryType_Default : Nat)
    (p : DbPrefixes) (aa : AddressAccount) (disk : Disk) (addrPtr : AddressEntry) :
    Except AccountException (AddressAccount × Disk) :=
  -- sanity check
  if addrPtr.type = AddressEntryType_Default then .error .invalidAddressEntryType
  else .ok (aa.updateInstantiatedAddressType p disk addrPtr.asset.ID_ addrPtr.type)

/-- `AddressAccount::getNewAddress(account, aeType)`: the address returned or
the exception thrown, with the account and the store as the call leaves them.
The asset account is held by pointer: its entry in `assetAccounts_` is the
account as `getNewAsset` leaves it. -/
def AddressAccount.getNewAddressFor (AddressEntryType_Default : Nat) (p : DbPrefixes)
    (cd : AssetCodec) (aa : AddressAccount) (disk : Disk) (account : BinaryData) (aeType : Nat) :
    Except AccountException AddressEntry × AddressAccount × Disk :=
  match mapFind aa.assetAccounts_ account with
  | none => (.error .invalidAssetAccount, aa, disk)
  | some acc =>
    let aeType := if aeType = AddressEntryType_Default then aa.defaultAddressEntryType_ else aeType
    if aeType ∉ aa.addressTypes_ then (.error .invalidAddressTypeForAccount, aa, disk)
    else
      let r := acc.getNewAsset p cd disk
      let aa1 := { aa with assetAccounts_ := mapInsert aa.assetAccounts_ account r.2.1 }
      match r.1 with
      | .error e => (.error e, aa1, r.2.2)
      | .ok assetPtr =>
        let addrPtr : AddressEntry := { asset := assetPtr, type := aeType }
        -- keep track of the address type for this asset if it doesnt use the
        -- account default
        if aeType ≠ aa.defaultAddressEntryType_ then
          match aa1.updateInstantiatedAddressTypeOf AddressEntryType_Default p r.2.2 addrPtr with
          | .error e => (.error e, aa1, r.2.2)
          | .ok (aa2, d2) => (.ok addrPtr, aa2, d2)
        else (.ok addrPtr, aa1, r.2.2)

/-- `AddressAccount::getNewAddress(aeType)`. -/
def AddressAccount.getNewAddress (AddressEntryType_Default : Nat) (p : DbPrefixes)
    (cd : AssetCodec) (aa : AddressAccount) (disk : Disk) (aeType : Nat) :
    Except AccountException AddressEntry × AddressAccount × Disk :=
  if aa.outerAccount_.length = 0 then (.error .noActiveAssetAccount, aa, disk)
  else aa.getNewAddressFor AddressEntryType_Default p cd disk aa.outerAccount_ aeType

/-- `AddressAccount::getNewChangeAddress(aeType)`. -/
def AddressAccount.getNewChangeAddress (AddressEntryType_Default : Nat) (p : DbPrefixes)
    (cd : AssetCodec) (aa : AddressAccount) (disk : Disk) (aeType : Nat) :
    Except AccountException AddressEntry × AddressAccount × Disk :=
  if aa.innerAccount_.length = 0 then (.error .noActiveAssetAccount, aa, disk)
  else aa.getNewAddressFor AddressEntryType_Default p cd disk aa.innerAccount_ aeType

/-- An address account over `toyAssetAccountUnused` that permits the address
types 1 and 2, default type 1, empty override table. -/
def toyAddressAccountTwoTypes : AddressAccount :=
  { toyAddressAccountUnused with addressTypes_ := [1, 2] }

/-! ## Accounts.cpp: private chains -/

/-- `AssetEntry::hasPrivateKey`: the asset carries private key data. -/
def AssetEntry.hasPrivateKey (e : AssetEntry) : Bool := e.privKey_.isSome

/-- `derScheme_->extendPrivateChain(ddc, asset, start, end)` with the decrypted
data container it works in: a contract of the account layer. -/
abbrev PrivateDerivation :=
  Option AssetEntry → Nat → Nat → Except AccountException (List AssetEntry)

/-- `AssetAccount::extendPrivateChain(ddc, assetPtr, start, end)`: the dispatch
on the derivation scheme type. -/
def AssetAccount.extendPrivateChainRange (derPriv : PrivateDerivation) (a : AssetAccount)
    (assetPtr : Option AssetEntry) (start stop : Nat) :
    Except AccountException (List AssetEntry) :=
  match a.derScheme_.type with
  | .ArmoryLegacy => derPriv assetPtr start stop
  | .BIP32 => derPriv a.root_ start stop
  | .ECDH => derPriv a.root_ start stop
  | .other => .error .unexpectedDerSchemeType

/-- The insertion loop of `extendPrivateChain(ddc, assetPtr, count)`: an asset
in the map that has a private key is kept, one without is replaced. -/
def insertPrivateAssets (assets : List (Nat × AssetEntry)) :
    List AssetEntry → List (Nat × AssetEntry)
  | [] => assets
  | asset :: rest =>
    match mapFind assets asset.index_ with
    | some existing =>
      -- do not overwrite an existing asset that already has a privkey
      if existing.hasPrivateKey then insertPrivateAssets assets rest
      else insertPrivateAssets (mapInsert assets asset.index_ asset) rest
    | none => insertPrivateAssets (mapInsert assets asset.index_ asset) rest

/-- `AssetAccount::extendPrivateChain(ddc, assetPtr, count)`. -/
def AssetAccount.extendPrivateChainFrom (derPriv : PrivateDerivation) (p : DbPrefixes)
    (cd : AssetCodec) (a : AssetAccount) (disk : Disk) (assetPtr : Option AssetEntry)
    (count : Nat) : Except AccountException (AssetAccount × Disk) :=
  if count = 0 then .ok (a, disk)
  else
    let assetIndex : Nat :=
      match assetPtr with
      | some x => x.index_
      | none => 0xFFFFFFFF
    match a.extendPrivateChainRange derPriv assetPtr ((assetIndex + 1) % 2 ^ 32)
        ((assetIndex + count) % 2 ^ 32) with
    | .error e => .error e
    | .ok assetVec =>
      .ok ({ a with assets_ := insertPrivateAssets a.assets_ assetVec }.updateOnDiskAssets p cd disk)

/-- The reverse walk of `fillPrivateKey` from the entry of `assetID`: the
closest previous asset with a private key, the account root when no asset
before the entry has one. -/
def AssetAccount.prevAssetWithKey (a : AssetAccount) (assetID : Nat) : Option AssetEntry :=
  match (a.assets_.takeWhile (fun x => decide (x.1 ≠ assetID))).reverse.find?
      (fun x => x.2.hasPrivateKey) with
  | some x => some x.2
  -- if no asset in map had a private key, use the account root instead
  | none => a.root_

/-- `AssetAccount::fillPrivateKey`: the private key returned or the exception
thrown, with the account and the store as the call leaves them. `single` is the
dynamic type test `dynamic_pointer_cast<AssetEntry_Single>`. -/
def AssetAccount.fillPrivateKey (single : AssetEntry → Bool) (derPriv : PrivateDerivation)
    (p : DbPrefixes) (cd : AssetCodec) (a : AssetAccount) (disk : Disk) (id : BinaryData) :
    Except AccountException BinaryData × AssetAccount × Disk :=
  if id.length ≠ 12 then (.error .unexpectedAssetIdLength, a, disk)
  else
    -- get the asset
    let assetID := READ_UINT32_BE (id.drop 8)
    match mapFind a.assets_ assetID with
    | none => (.error .invalidAssetId, a, disk)
    | some thisAsset =>
      if !single thisAsset then (.error .unexpectedAssetTypeInMap, a, disk)
      else
        -- sanity check
        match thisAsset.privKey_ with
        | some privKey => (.ok privKey, a, disk)
        | none =>
          match a.prevAssetWithKey assetID with
          | none => (.error .nullPointer, a, disk)
          | some prev =>
            -- figure out the asset count
            let count := (assetID + 2 ^ 32 - prev.index_ % 2 ^ 32) % 2 ^ 32
            -- extend the private chain
            match a.extendPrivateChainFrom derPriv p cd disk (some prev) count with
            | .error e => (.error e, a, disk)
            | .ok (a2, d2) =>
              -- grab the fresh asset, return its private key
              match mapFind a2.assets_ assetID with
              | none => (.error .invalidAssetId, a2, d2)
              | some fresh =>
                match fresh.privKey_ with
                | none => (.error .fillPrivateKeyFailed, a2, d2)
                | some privKey =>
                  if !single fresh then (.error .fillPrivateKeyFailed, a2, d2)
                  else (.ok privKey, a2, d2)

/-- The start of a private chain extension in the words of the specification:
the nearest asset below index `idx` that has a private key, or the account
root when no asset below `idx` has one. -/
def AssetAccount.NearestPrivate (a : AssetAccount) (idx : Nat) (s : AssetEntry) : Prop :=
  (∃ i, (i, s) ∈ a.assets_ ∧ i < idx ∧ s.hasPrivateKey = true ∧
    ∀ x ∈ a.assets_, i < x.1 → x.1 < idx → x.2.hasPrivateKey = false) ∨
  ((∀ x ∈ a.assets_, x.1 < idx → x.2.hasPrivateKey = false) ∧ a.root_ = some s)

/-- A private derivation for the examples: every index asked for is derived
with a private key. -/
def toyDerPriv : PrivateDerivation := fun assetPtr start stop =>
  match assetPtr with
  | none => .error .nullPointer
  | some ap =>
    .ok ((List.range' start (stop + 1 - start)).map
      (fun i => { toyAsset (ap.ID_.take 8) i with privKey_ := some [9, i % 256] }))

/-- An asset account whose asset 0 has a private key and whose assets 1 and 2
have none. -/
def toyAssetAccountPrivate : AssetAccount :=
  { toyAssetAccount with
    assets_ := [(0, { toyAsset [0, 0, 0, 7, 0, 0, 0, 1] 0 with privKey_ := some [9, 0] }),
      (1, toyAsset [0, 0, 0, 7, 0, 0, 0, 1] 1), (2, toyAsset [0, 0, 0, 7, 0, 0, 0, 1] 2)] }

/-! ## Accounts.cpp: the address hash index -/

/-- `AddressEntry::instantiate(asset, type)->getPrefixedHash()`: the prefixed
hash of the address of an asset under an address type, a contract of the
account layer. -/
abbrev PrefixedHash := AssetEntry → Nat → BinaryData

/-- The hash-cache members of an `AssetAccount`, kept apart from the members
above: the index of the last asset hashed and the map from asset ID to the
hashes of its addresses by address type. -/
structure AssetHashCache where
  lastHashedAsset_ : Nat
  addrHashMap_ : List (BinaryData × List (Nat × BinaryData))

/-- The loop of `AssetAccount::updateAddressHashMap` over the address types of
one asset: a type that has its hash is passed over. -/
def hashTypes (hash : PrefixedHash) (asset : AssetEntry) :
    List Nat → List (Nat × BinaryData) → List (Nat × BinaryData)
  | [], m => m
  | ae_type :: rest, m =>
    match mapFind m ae_type with
    | some _ => hashTypes hash asset rest m
    | none => hashTypes hash asset rest (mapEmplace m ae_type (hash asset ae_type))

/-- The loop of `AssetAccount::updateAddressHashMap` over the assets from the
iterator position on. -/
def hashAssetsLoop (hash : PrefixedHash) (typeSet : List Nat) :
    List (Nat × AssetEntry) → AssetHashCache → AssetHashCache
  | [], c => c
  | (i, asset) :: rest, c =>
    let hashes := (mapFind c.addrHashMap_ asset.ID_).getD []
    hashAssetsLoop hash typeSet rest
      { lastHashedAsset_ := i,
        addrHashMap_ := mapInsert c.addrHashMap_ asset.ID_ (hashTypes hash asset typeSet hashes) }

/-- `AssetAccount::updateAddressHashMap(typeSet)`. -/
def AssetAccount.updateAddressHashMap (hash : PrefixedHash) (typeSet : List Nat)
    (a : AssetAccount) (c : AssetHashCache) : AssetHashCache :=
  let start : List (Nat × AssetEntry) :=
    match mapFind a.assets_ c.lastHashedAsset_ with
    | none => a.assets_
    | some _ => (a.assets_.dropWhile (fun x => decide (x.1 ≠ c.lastHashedAsset_))).drop 1
  hashAssetsLoop hash typeSet start c

/-- The hash-index members of an `AddressAccount`, kept apart from the members
above: the hash-cache members of each asset account (by account key), the map
from prefixed hash to asset ID and address type, and the last asset ID indexed
of each asset account. -/
structure AddressHashCache where
  assetCaches_ : BinaryData → AssetHashCache
  addressHashes_ : List (BinaryData × (BinaryData × Nat))
  topHashedAssetId_ : List (BinaryData × BinaryData)

/-- The `while` loop of `AddressAccount::updateAddressHashMap`: every hash of
the entries from the iterator position on is put in `addressHashes_` with
`emplace`. -/
def emplaceHashes (addressHashes : List (BinaryData × (BinaryData × Nat))) :
    List (BinaryData × List (Nat × BinaryData)) → List (BinaryData × (BinaryData × Nat))
  | [] => addressHashes
  | (id, hashes) :: rest =>
    emplaceHashes
      (hashes.foldl (fun m hash => mapEmplace m hash.2 (id, hash.1)) addressHashes) rest

/-- The body of the loop of `AddressAccount::updateAddressHashMap` for one
asset account. -/
def AddressAccount.updateAddressHashMapFor (hash : PrefixedHash) (aa : AddressAccount)
    (h : AddressHashCache) (account : BinaryData × AssetAccount) : AddressHashCache :=
  let c := account.2.updateAddressHashMap hash aa.addressTypes_ (h.assetCaches_ account.1)
  let h1 : AddressHashCache :=
    { h with assetCaches_ := fun k => if k = account.1 then c else h.assetCaches_ k }
  let hashMap := c.addrHashMap_
  if hashMap.length = 0 then h1
  else
    let start : List (BinaryData × List (Nat × BinaryData)) :=
      match mapFind h.topHashedAssetId_ account.1 with
      | none => hashMap
      | some top => (hashMap.dropWhile (fun e => decide (e.1 ≠ top))).drop 1
    match start, hashMap.getLast? with
    | _ :: _, some last =>
      { h1 with
        addressHashes_ := emplaceHashes h.addressHashes_ start,
        topHashedAssetId_ := mapInsert h.topHashedAssetId_ account.1 last.1 }
    | _, _ => h1

/-- `AddressAccount::updateAddressHashMap`. -/
def AddressAccount.updateAddressHashMap (hash : PrefixedHash) (aa : AddressAccount)
    (h : AddressHashCache) : AddressHashCache :=
  aa.assetAccounts_.foldl (aa.updateAddressHashMapFor hash) h

/-- `AddressAccount::getAssetIDPairForAddr`. -/
def AddressAccount.getAssetIDPairForAddr (hash : PrefixedHash) (aa : AddressAccount)
    (h : AddressHashCache) (scrAddr : BinaryData) :
    Except AccountException (BinaryData × Nat) × AddressHashCache :=
  let h1 := aa.updateAddressHashMap hash h
  match mapFind h1.addressHashes_ scrAddr with
  | none => (.error .unknownScrAddr, h1)
  | some pair => (.ok pair, h1)

/-- The entry of an asset in `addrHashMap_` once hashed: its ID and the hashes
of its addresses under the address types. -/
def hashEntryOf (hash : PrefixedHash) (typeSet : List Nat) (a : AssetEntry) :
    BinaryData × List (Nat × BinaryData) :=
  (a.ID_, hashTypes hash a typeSet [])

/-- The hash cache of an asset account is coherent: nothing is hashed and the
last hashed index names no asset, or the assets up to the last hashed index,
and no others, have their entry. -/
def AssetAccount.HashCoherent (hash : PrefixedHash) (typeSet : List Nat) (acc : AssetAccount)
    (c : AssetHashCache) : Prop :=
  (c.addrHashMap_ = [] ∧ mapFind acc.assets_ c.lastHashedAsset_ = none) ∨
  (∃ pre x post, acc.assets_ = pre ++ x :: post ∧ x.1 = c.lastHashedAsset_ ∧
    c.addrHashMap_ = (pre ++ [x]).map (fun y => hashEntryOf hash typeSet y.2))

/-- The asset IDs of an account increase along `assets_`. -/
def AssetAccount.IdSorted (acc : AssetAccount) : Prop :=
  (acc.assets_.map (fun x => x.2.ID_)).Pairwise (fun x y => bdLess x y = true)

/-- No two (asset, address type) pairs of the account share a prefixed hash. -/
def AddressAccount.HashInjective (hash : PrefixedHash) (aa : AddressAccount) : Prop :=
  ∀ x ∈ aa.assetAccounts_, ∀ y ∈ aa.assetAccounts_, ∀ a ∈ x.2.assets_, ∀ b ∈ y.2.assets_,
    ∀ t1 ∈ aa.addressTypes_, ∀ t2 ∈ aa.addressTypes_,
      hash a.2 t1 = hash b.2 t2 → a.2.ID_ = b.2.ID_ ∧ t1 = t2

/-- `v` is the prefixed hash of the address of an asset of the account under a
permitted address type, and `pair` the ID of that asset and the type. -/
def AddressAccount.IsAddressHash (hash : PrefixedHash) (aa : AddressAccount) (v : BinaryData)
    (pair : BinaryData × Nat) : Prop :=
  ∃ x ∈ aa.assetAccounts_, ∃ a ∈ x.2.assets_, ∃ t ∈ aa.addressTypes_,
    v = hash a.2 t ∧ pair = (a.2.ID_, t)

/-- The last asset ID indexed of an asset account is coherent: there is none,
or it is the ID of an asset and the hashes of the assets up to that one are
in `addressHashes_`. -/
def AddressAccount.TopCoherent (hash : PrefixedHash) (aa : AddressAccount) (h : AddressHashCache)
    (x : BinaryData × AssetAccount) : Prop :=
  mapFind h.topHashedAssetId_ x.1 = none ∨
  ∃ pre y post, x.2.assets_ = pre ++ y :: post ∧
    mapFind h.topHashedAssetId_ x.1 = some y.2.ID_ ∧
    ∀ a ∈ pre ++ [y], ∀ t ∈ aa.addressTypes_,
      mapFind h.addressHashes_ (hash a.2 t) = some (a.2.ID_, t)

/-- The hash index of an address account is coherent: the cache of every asset
account and its last asset ID indexed are, a cache that holds no hash has a
`lastHashedAsset_` that is no asset index, and every entry of
`addressHashes_` is the hash of an address of the account. -/
def AddressAccount.HashCoherent (hash : PrefixedHash) (aa : AddressAccount)
    (h : AddressHashCache) : Prop :=
  (∀ x ∈ aa.assetAccounts_,
    x.2.HashCoherent hash aa.addressTypes_ (h.assetCaches_ x.1) ∧ aa.TopCoherent hash h x ∧
    ((h.assetCaches_ x.1).addrHashMap_ = [] →
      ROOT_ASSETENTRY_ID ≤ (h.assetCaches_ x.1).lastHashedAsset_)) ∧
  (∀ v pair, mapFind h.addressHashes_ v = some pair → aa.IsAddressHash hash v pair)

/-- The account `aa2` is `aa` after chain extensions: the same address types
and asset accounts, each with the assets it had followed by new ones. -/
def AddressAccount.ChainExtends (aa aa2 : AddressAccount) : Prop :=
  aa2.addressTypes_ = aa.addressTypes_ ∧
  (∀ y ∈ aa2.assetAccounts_, ∃ x ∈ aa.assetAccounts_, x.1 = y.1 ∧
    ∃ new, y.2.assets_ = x.2.assets_ ++ new) ∧
  (∀ x ∈ aa.assetAccounts_, ∃ y ∈ aa2.assetAccounts_, x.1 = y.1 ∧
    ∃ new, y.2.assets_ = x.2.assets_ ++ new)

/-- The hashes of a list of entries of `addrHashMap_`, as the pairs put in
`addressHashes_`. -/
def flatHashes (entries : List (BinaryData × List (Nat × BinaryData))) :
    List (BinaryData × (BinaryData × Nat)) :=
  (entries.map (fun e => e.2.map (fun hv => (hv.2, (e.1, hv.1))))).flatten

/-! ## A hash index, for evaluation -/

/-- A prefixed hash for the examples: the address type before the asset ID. -/
def toyHash : PrefixedHash := fun a t => t :: a.ID_

/-- A hash index that holds nothing. -/
def toyHashCache : AddressHashCache :=
  { assetCaches_ := fun _ => { lastHashedAsset_ := 0xFFFFFFFF, addrHashMap_ := [] },
    addressHashes_ := [], topHashedAssetId_ := [] }

/-! ## Accounts.cpp: watching-only copies -/

/-- Modelled from the spec: `AssetEntry_Single::getPublicCopy` (Assets.cpp is
not part of the sources at hand): a "public-only asset copy", the asset
without its private key. -/
def AssetEntry.getPublicCopy (e : AssetEntry) : AssetEntry := { e with privKey_ := none }

/-- `AssetEntry::flagForCommit`. -/
def AssetEntry.flagForCommit (e : AssetEntry) : AssetEntry := { e with needsCommit_ := true }

/-- `AddressAccount::addAccount`. -/
def AddressAccount.addAccount (aa : AddressAccount) (account : AssetAccount) :
    Except AccountException AddressAccount :=
  if account.id_.length ≠ 4 then .error .invalidAccountIdLength
  else
    match mapFind aa.assetAccounts_ account.id_ with
    | some _ => .error .alreadyHaveThisAssetAccount
    | none =>
      .ok { aa with assetAccounts_ := mapInsert aa.assetAccounts_ account.id_ account }

/-- The loop of `AddressAccount::getWatchingOnlyCopy` over the assets of an
asset account; `single` is the outcome of the cast to `AssetEntry_Single`. -/
def watchingOnlyAssets (single : AssetEntry → Bool) :
    List (Nat × AssetEntry) → List (Nat × AssetEntry) →
      Except AccountException (List (Nat × AssetEntry))
  | [], wo => .ok wo
  | assetPair :: rest, wo =>
    if single assetPair.2 then
      watchingOnlyAssets single rest
        (mapEmplace wo assetPair.1 assetPair.2.getPublicCopy.flagForCommit)
    else .error .unexpectAssetType

/-- The body of the loop of `AddressAccount::getWatchingOnlyCopy` for one asset
account. `disk` is the store of the copy (`iface`, `dbName`), `putAllSalts`
the write of the salts of an ECDH derivation scheme to it, `lookup` the
look-up of a newly made asset account of a type. -/
def AddressAccount.watchingOnlyAccount (single : AssetEntry → Bool)
    (putAllSalts : DerivationScheme → Disk → Disk) (lookup : AssetAccountTypeEnum → Nat)
    (woAcc : AddressAccount) (disk : Disk) (assetAccPtr : AssetAccount) :
    Except AccountException AddressAccount × Disk :=
  let woRoot : Except AccountException (Option AssetEntry) :=
    match assetAccPtr.root_ with
    | none => .ok none
    | some root =>
      if single root then .ok (some root.getPublicCopy) else .error .invalidAccountRoot
  match woRoot with
  | .error e => (.error e, disk)
  | .ok woRoot =>
    let made : Except AccountException Disk :=
      match assetAccPtr.type with
      | .Plain => .ok disk
      | .ECDH =>
        if assetAccPtr.derScheme_.type = .ECDH then .ok (putAllSalts assetAccPtr.derScheme_ disk)
        else .error .unexpectedDerSchemeObjectType
    match made with
    | .error e => (.error e, disk)
    | .ok disk1 =>
      match watchingOnlyAssets single assetAccPtr.assets_ [] with
      | .error e => (.error e, disk1)
      | .ok assets =>
        (woAcc.addAccount
          { id_ := assetAccPtr.id_, parent_id_ := assetAccPtr.parent_id_,
            type := assetAccPtr.type, root_ := woRoot, derScheme_ := assetAccPtr.derScheme_,
            assets_ := assets, lastUsedIndex_ := assetAccPtr.lastUsedIndex_,
            lookup_ := lookup assetAccPtr.type }, disk1)

/-- The loop of `AddressAccount::getWatchingOnlyCopy` over the asset accounts. -/
def watchingOnlyLoop (single : AssetEntry → Bool)
    (putAllSalts : DerivationScheme → Disk → Disk) (lookup : AssetAccountTypeEnum → Nat) :
    List (BinaryData × AssetAccount) → AddressAccount → Disk →
      Except AccountException AddressAccount × Disk
  | [], woAcc, disk => (.ok woAcc, disk)
  | assetAccPair :: rest, woAcc, disk =>
    match woAcc.watchingOnlyAccount single putAllSalts lookup disk assetAccPair.2 with
    | (.error e, disk1) => (.error e, disk1)
    | (.ok woAcc1, disk1) => watchingOnlyLoop single putAllSalts lookup rest woAcc1 disk1

/-- `AddressAccount::getWatchingOnlyCopy(iface, dbName)`. -/
def AddressAccount.getWatchingOnlyCopy (single : AssetEntry → Bool)
    (putAllSalts : DerivationScheme → Disk → Disk) (lookup : AssetAccountTypeEnum → Nat)
    (aa : AddressAccount) (disk : Disk) : Except AccountException AddressAccount × Disk :=
  watchingOnlyLoop single putAllSalts lookup aa.assetAccounts_
    { ID_ := aa.ID_, defaultAddressEntryType_ := aa.defaultAddressEntryType_,
      addressTypes_ := aa.addressTypes_, addresses_ := aa.addresses_,
      outerAccount_ := aa.outerAccount_, innerAccount_ := aa.innerAccount_ } disk

/-- The watching-only copy of an asset account, in the words of the spec: a clone
of the account in which every asset and the root is replaced by its public copy. -/
def AssetAccount.publicCopy (lookup : AssetAccountTypeEnum → Nat) (a : AssetAccount) :
    AssetAccount :=
  { id_ := a.id_, parent_id_ := a.parent_id_, type := a.type,
    root_ := a.root_.map AssetEntry.getPublicCopy, derScheme_ := a.derScheme_,
    assets_ := a.assets_.map (fun x => (x.1, x.2.getPublicCopy.flagForCommit)),
    lastUsedIndex_ := a.lastUsedIndex_, lookup_ := lookup a.type }

/-! ## Accounts.cpp: account types -/

/-- The reserved address-account IDs (macros of a header that is not part of
the sources at hand), taken as parameters. -/
structure ReservedAccountIds where
  ARMORY_LEGACY_ACCOUNTID : Nat
  IMPORTS_ACCOUNTID : Nat
  deriving DecidableEq, Repr

/-- `BtcUtils::getHash160`, a contract of the account layer. -/
abbrev Hash160 := BinaryData → BinaryData

/-- The members of `AccountType_BIP32` that `getAccountID` reads; `publicRoot_`
is the value of `getPublicRoot()`, `addressTypes_` the `std::set` of address
types as the list of its elements. -/
structure AccountType_BIP32 where
  publicRoot_ : BinaryData
  nodes_ : List Nat
  outerAccount_ : BinaryData
  innerAccount_ : BinaryData
  addressTypes_ : List Nat
  defaultAddressEntryType_ : Nat
  isMain_ : Bool
  deriving DecidableEq, Repr

/-- The test of `getAccountID` on the first 4 bytes of the hash: a reserved ID
is refused. -/
def checkAccountID (r : ReservedAccountIds) (pub_hash160 : BinaryData) :
    Except AccountException BinaryData :=
  match getSliceCopy pub_hash160 0 4 with
  | none => .error .readerOverflow
  | some accountID =>
    if accountID = WRITE_UINT32_BE r.ARMORY_LEGACY_ACCOUNTID ∨
        accountID = WRITE_UINT32_BE r.IMPORTS_ACCOUNTID then
      .error .accountIdCollision
    else .ok accountID

/-- `AccountType_BIP32::getAccountID`. -/
def AccountType_BIP32.getAccountID (r : ReservedAccountIds) (getHash160 : Hash160)
    (t : AccountType_BIP32) : Except AccountException BinaryData :=
  let bw := t.publicRoot_
  if bw.length = 0 then .error .emptyPublicRoot
  else
    -- account soft derivation paths
    let bw := bw ++ (t.nodes_.map WRITE_UINT32_BE).flatten
    -- accounts structure
    let bw := if t.outerAccount_.length ≠ 0 then bw ++ t.outerAccount_ else bw
    let bw := if t.innerAccount_.length ≠ 0 then bw ++ t.innerAccount_ else bw
    -- address types
    let bw := bw ++ (t.addressTypes_.map WRITE_UINT32_BE).flatten
    -- default address
    let bw := bw ++ put_uint32_t t.defaultAddressEntryType_
    -- main flag
    let bw := bw ++ [if t.isMain_ then 1 else 0]
    -- hash, use first 4 bytes
    checkAccountID r (getHash160 bw)

/-- The preimage of the BIP32 account ID in the words of the spec: the public
root, each soft-derivation node, the outer and the inner account ID, each
address type, the default address type and the main flag, every 32-bit
integer as 4 bytes big-endian and the flag as one byte. -/
def AccountType_BIP32.specPreimage (t : AccountType_BIP32) : BinaryData :=
  t.publicRoot_ ++ (t.nodes_.map WRITE_UINT32_BE).flatten ++ t.outerAccount_ ++ t.innerAccount_
    ++ (t.addressTypes_.map WRITE_UINT32_BE).flatten
    ++ WRITE_UINT32_BE t.defaultAddressEntryType_ ++ [if t.isMain_ then 1 else 0]

/-- The members of `AccountType_ECDH` that `getAccountID` reads. -/
structure AccountType_ECDH where
  privateKey_ : BinaryData
  publicKey_ : BinaryData
  deriving DecidableEq, Repr

/-- `AccountType_ECDH::isWatchingOnly`. -/
def AccountType_ECDH.isWatchingOnly (t : AccountType_ECDH) : Bool := t.privateKey_.isEmpty

/-- The statement `key.getPtr()[0] ^= (uint8_t)type()`: `none` when the data
has no byte at position 0. -/
def xorFirstByte (key : BinaryData) (type : Nat) : Option BinaryData :=
  match key with
  | [] => none
  | b :: rest => some (((b ^^^ (type % 256)) % 256) :: rest)

/-- `AccountType_ECDH::getAccountID`. `type` is the value of `type()`,
`ComputePublicKey` the `CryptoECDSA` operation; the result is `none` when the
key has no first byte to change. -/
def AccountType_ECDH.getAccountID (r : ReservedAccountIds) (getHash160 : Hash160)
    (ComputePublicKey : BinaryData → BinaryData) (type : Nat) (t : AccountType_ECDH) :
    Option (Except AccountException BinaryData) :=
  if t.isWatchingOnly then
    (xorFirstByte t.publicKey_ type).map (fun rootCopy => checkAccountID r (getHash160 rootCopy))
  else
    (xorFirstByte (ComputePublicKey t.privateKey_) type).map
      (fun root_pub => checkAccountID r (getHash160 root_pub))

/-! ## Account types, for evaluation -/

/-- Reserved IDs for the examples. -/
def toyReserved : ReservedAccountIds :=
  { ARMORY_LEGACY_ACCOUNTID := 0xF6E10000, IMPORTS_ACCOUNTID := 0 }

/-- A 20-byte hash for the examples: the last bytes of the data, last first,
padded with zeros. -/
def toyHash160 : Hash160 := fun d => (d.reverse ++ List.replicate 20 0).take 20

/-- A BIP32 account type for the examples: one node, address types 1 and 2,
default type 1, main. -/
def toyBIP32 : AccountType_BIP32 :=
  { publicRoot_ := [2, 7], nodes_ := [5], outerAccount_ := [0, 0, 0, 0],
    innerAccount_ := [0, 0, 0, 1], addressTypes_ := [1, 2], defaultAddressEntryType_ := 1,
    isMain_ := true }

/-- The same account type without a public root. -/
def toyBIP32NoRoot : AccountType_BIP32 := { toyBIP32 with publicRoot_ := [] }

/-- A watching-only ECDH account type for the examples. -/
def toyECDH : AccountType_ECDH := { privateKey_ := [], publicKey_ := [2, 7, 9, 11, 13] }

/-! ## DecryptedDataContainer.cpp: the objects -/

/-- The messages of the `DecryptedDataContainerException`s thrown. -/
inductive DecryptedDataContainerException where
  | unlockedDoesNotOwnLock
  | nullptrLock
  | nullData
  | unexpectedDataPtrType
  | cantFindKdfParamsForId
  | couldNotGetEncryptionKey
  | couldNotGetDerivedEncryptionKey
  | failedToDecryptData
  | unexpectedObjectForEncryptionKeyId
  | triedToInsertEmptyDecryptionKey
  | failedToDecryptKey
  | nullCipher
  | emptyPassphraseLambda
  | emptyPassphrase
  | cannotChangePassphraseForUnknownKey
  | failedToGrabKdf
  | failedToFindEncryptionKey
  | failedToEraseOldEncryptionKey
  | cipherDataAlreadyPresent
  deriving DecidableEq, Repr

/-- What a call on the container can throw: a
`DecryptedDataContainerException`, `EncryptedDataMissing`, the failure of a
`SingleLock` on a container that is locked, a `runtime_error` of the asset
layer (a derivation asked for that the key does not hold, a record that does
not deserialize), or the use of a null pointer. -/
inductive ContainerError where
  | container (e : DecryptedDataContainerException)
  | EncryptedDataMissing
  | AlreadyLocked
  | runtimeError
  | nullPointer
  deriving DecidableEq, Repr

/-- A cipher spec: KDF ID, encryption key ID, IV. -/
structure Cipher where
  kdfId_ : BinaryData
  encryptionKeyId_ : BinaryData
  iv_ : BinaryData := []
  deriving DecidableEq, Repr

/-- `CipherData`: a cipher text and its cipher. -/
structure CipherData where
  cipherText_ : BinaryData
  cipher_ : Cipher
  deriving DecidableEq, Repr

/-- An `Asset_EncryptionKey`: its ID and `cipherData_`, its wraps by the ID of
the key that encrypts them. The pointers held are not null. -/
structure Asset_EncryptionKey where
  id_ : BinaryData
  cipherData_ : List (BinaryData × CipherData) := []
  deriving DecidableEq, Repr

/-- An `Asset_EncryptedData` as `getDecryptedPrivateData` reads it: `getId()`,
`hasData()`, `getCipherText()` and `getCipherDataPtr()`. -/
structure Asset_EncryptedData where
  id_ : BinaryData
  hasData : Bool
  cipherText : BinaryData := []
  cipherDataPtr : Option CipherData := none
  deriving DecidableEq, Repr

/-- A `KeyDerivationFunction`: its ID and its parameters. -/
structure KeyDerivationFunction where
  id_ : BinaryData
  params_ : BinaryData := []
  deriving DecidableEq, Repr

/-- A `DecryptedEncryptionKey`: the raw key and the keys derived from it, by
KDF ID. -/
structure DecryptedEncryptionKey where
  rawKey_ : BinaryData
  derivedKeys_ : List (BinaryData × BinaryData) := []
  deriving DecidableEq, Repr

/-- `DecryptedDataMaps`: the decrypted encryption keys by key ID (a pointer
that has been moved from is `none`) and the decrypted private data by ID. -/
structure DecryptedDataMaps where
  encryptionKeys_ : List (BinaryData × Option DecryptedEncryptionKey) := []
  privateData_ : List (BinaryData × BinaryData) := []
  deriving DecidableEq, Repr

/-- The operations of the cipher layer the container calls, contracts of the
container: the key a KDF derives from a raw key, the ID of a derived key, the
cipher's encryption and decryption under a derived key, and the decryption of
an encrypted datum (the ID and the data of the `DecryptedData`, `none` for a
null result). -/
structure CipherLayer where
  deriveKey : KeyDerivationFunction → BinaryData → BinaryData
  computeId : BinaryData → BinaryData
  encrypt : Cipher → BinaryData → BinaryData → BinaryData
  decrypt : Cipher → BinaryData → BinaryData → BinaryData
  decryptData : Asset_EncryptedData → BinaryData → Option (BinaryData × BinaryData)

/-- Who holds the lock of the container, seen from the calling thread. -/
inductive LockHolder where
  | free
  | caller
  | other
  deriving DecidableEq, Repr

/-- The members of `DecryptedDataContainer`. `lock_` is the state of the lock,
`promptCalls_` the number of calls `getPassphraseLambda_` has had: the lambda
is a function of that number and of the set of key IDs it is shown. `store_`
is the store behind `iface_` and `dbName_`. -/
structure DecryptedDataContainer where
  lock_ : LockHolder := .free
  lockedDecryptedData_ : Option DecryptedDataMaps := none
  encryptionKeyMap_ : List (BinaryData × Asset_EncryptionKey) := []
  kdfMap_ : List (BinaryData × Option KeyDerivationFunction) := []
  defaultEncryptionKey_ : BinaryData := []
  defaultEncryptionKeyId_ : BinaryData := []
  getPassphraseLambda_ : Option (Nat → List BinaryData → BinaryData) := none
  promptCalls_ : Nat := 0
  store_ : Disk := []

/-- Modelled from the spec: `Lockable::ownsLock` (the header is not part of
the sources at hand): the calling thread holds the lock of the container. -/
def DecryptedDataContainer.ownsLock (ddc : DecryptedDataContainer) : Bool :=
  decide (ddc.lock_ = .caller)

/-- Modelled from the spec: `DecryptedEncryptionKey::deriveKey(kdf)` (Assets.cpp
is not part of the sources at hand). "Derive the key, this will insert it into
the container too": the key the KDF derives is kept under the ID of the KDF. -/
def DecryptedEncryptionKey.deriveKey (cl : CipherLayer) (k : DecryptedEncryptionKey)
    (kdf : KeyDerivationFunction) : DecryptedEncryptionKey :=
  { k with derivedKeys_ := mapEmplace k.derivedKeys_ kdf.id_ (cl.deriveKey kdf k.rawKey_) }

/-- Modelled from the spec: `DecryptedEncryptionKey::getDerivedKey(kdfId)`
(Assets.cpp is not part of the sources at hand): the key derived under the
KDF, a `runtime_error` when there is none. -/
def DecryptedEncryptionKey.getDerivedKey (k : DecryptedEncryptionKey) (kdfId : BinaryData) :
    Except ContainerError BinaryData :=
  match mapFind k.derivedKeys_ kdfId with
  | none => .error .runtimeError
  | some d => .ok d

/-- Modelled from the spec: `DecryptedEncryptionKey::getId(kdfId)` (Assets.cpp
is not part of the sources at hand): "when `DerivedKey.id == keyId`, that
passphrase is the one"; the ID of the key derived under the KDF. -/
def DecryptedEncryptionKey.getId (cl : CipherLayer) (k : DecryptedEncryptionKey)
    (kdfId : BinaryData) : Except ContainerError BinaryData :=
  match k.getDerivedKey kdfId with
  | .error e => .error e
  | .ok d => .ok (cl.computeId d)

/-! ## DecryptedDataContainer.cpp: the lock -/

/-- `DecryptedDataContainer::initAfterLock`. -/
def DecryptedDataContainer.initAfterLock (ddc : DecryptedDataContainer) :
    DecryptedDataContainer :=
  let defaultKey : DecryptedEncryptionKey := { rawKey_ := ddc.defaultEncryptionKey_ }
  let decryptedDataInstance : DecryptedDataMaps :=
    { encryptionKeys_ := mapEmplace [] ddc.defaultEncryptionKeyId_ (some defaultKey) }
  { ddc with lockedDecryptedData_ := some decryptedDataInstance }

/-- `DecryptedDataContainer::cleanUpBeforeUnlock`. -/
def DecryptedDataContainer.cleanUpBeforeUnlock (ddc : DecryptedDataContainer) :
    DecryptedDataContainer :=
  { ddc with lockedDecryptedData_ := none }

/-! ## DecryptedDataContainer.cpp: decryption -/

/-- `DecryptedDataContainer::deriveEncryptionKey`. -/
def DecryptedDataContainer.deriveEncryptionKey (cl : CipherLayer)
    (ddc : DecryptedDataContainer) (decrKey : DecryptedEncryptionKey) (kdfid : BinaryData) :
    Except ContainerError DecryptedEncryptionKey :=
  -- sanity check
  if !ddc.ownsLock then .error (.container .unlockedDoesNotOwnLock)
  else if ddc.lockedDecryptedData_.isNone then .error (.container .nullptrLock)
  else
    -- does the decryption key have this derivation?
    match mapFind decrKey.derivedKeys_ kdfid with
    | some _ => .ok decrKey
    | none =>
      -- look for the kdf
      match mapFind ddc.kdfMap_ kdfid with
      | some (some kdf) => .ok (decrKey.deriveKey cl kdf)
      | _ => .error (.container .cantFindKdfParamsForId)

/-- The loop of `promptPassphrase` over the candidate pairs: the key once its
ID under the KDF of a pair is the key ID of the pair, `none` when no pair
matches. -/
def DecryptedDataContainer.tryKeyPairs (cl : CipherLayer) (ddc : DecryptedDataContainer) :
    DecryptedEncryptionKey → List (BinaryData × BinaryData) →
      Except ContainerError (Option DecryptedEncryptionKey)
  | _, [] => .ok none
  | keyPtr, keyPair :: rest =>
    match ddc.deriveEncryptionKey cl keyPtr keyPair.2 with
    | .error e => .error e
    | .ok keyPtr1 =>
      match keyPtr1.getId cl keyPair.2 with
      | .error e => .error e
      | .ok id =>
        if keyPair.1 = id then .ok (some keyPtr1) else ddc.tryKeyPairs cl keyPtr1 rest

/-- `DecryptedDataContainer::promptPassphrase`: the `while (1)` loop, one
iteration per unit of fuel; `none` when the fuel is spent. -/
def DecryptedDataContainer.promptPassphrase (cl : CipherLayer) :
    Nat → DecryptedDataContainer → List (BinaryData × BinaryData) →
      Option (Except ContainerError DecryptedEncryptionKey × DecryptedDataContainer)
  | 0, _, _ => none
  | fuel + 1, ddc, keyMap =>
    match ddc.getPassphraseLambda_ with
    | none => some (.error (.container .emptyPassphraseLambda), ddc)
    | some lambda =>
      let keySet := keyMap.map Prod.fst
      let passphrase := lambda ddc.promptCalls_ keySet
      let ddc1 := { ddc with promptCalls_ := ddc.promptCalls_ + 1 }
      if passphrase.length = 0 then some (.error (.container .emptyPassphrase), ddc1)
      else
        match ddc1.tryKeyPairs cl { rawKey_ := passphrase } keyMap with
        | .error e => some (.error e, ddc1)
        | .ok (some keyPtr) => some (.ok keyPtr, ddc1)
        | .ok none => DecryptedDataContainer.promptPassphrase cl fuel ddc1 keyMap

/-- The state of `encryptionKeys_` after `move(iter->second)` on the entry of
`keyid`: the pointer left in the map is null. -/
def DecryptedDataMaps.moveOut (maps : DecryptedDataMaps) (keyid : BinaryData) :
    DecryptedDataMaps :=
  { maps with encryptionKeys_ :=
      maps.encryptionKeys_.map (fun e => (e.1, if e.1 = keyid then none else e.2)) }

/-- The lambda `insertDecryptedData` of `populateEncryptionKey`. -/
def DecryptedDataContainer.insertDecryptedKey (ddc : DecryptedDataContainer)
    (keyid : BinaryData) (decrKey : Option DecryptedEncryptionKey) :
    Except ContainerError Unit × DecryptedDataContainer :=
  match decrKey with
  -- if decrKey is empty, all casts failed, throw
  | none => (.error (.container .triedToInsertEmptyDecryptionKey), ddc)
  | some decrKey =>
    match ddc.lockedDecryptedData_ with
    | none => (.error .nullPointer, ddc)
    | some maps =>
      -- make sure insertion succeeds
      let inserted : DecryptedDataMaps :=
        { maps with encryptionKeys_ :=
            mapEmplace (mapErase maps.encryptionKeys_ keyid) keyid (some decrKey) }
      (.ok (), { ddc with lockedDecryptedData_ := some inserted })

/-- The loop "grab encryption key from map" of `populateEncryptionKey` over
the cipher data of the encrypted key: the decrypted key and `done`. -/
def DecryptedDataContainer.decryptFromParents (cl : CipherLayer) :
    List (BinaryData × CipherData) → DecryptedDataContainer →
      Option DecryptedEncryptionKey → Bool →
      Except ContainerError (Option DecryptedEncryptionKey × Bool) × DecryptedDataContainer
  | [], ddc, decryptedKey, done => (.ok (decryptedKey, done), ddc)
  | cipherPair :: rest, ddc, decryptedKey, done =>
    let cipherDataPtr := cipherPair.2
    let encrKeyId := cipherDataPtr.cipher_.encryptionKeyId_
    let encrKdfId := cipherDataPtr.cipher_.kdfId_
    match ddc.lockedDecryptedData_ with
    | none => (.error .nullPointer, ddc)
    | some maps =>
      match mapFind maps.encryptionKeys_ encrKeyId with
      | none => DecryptedDataContainer.decryptFromParents cl rest ddc decryptedKey done
      | some moved =>
        let ddc1 := { ddc with lockedDecryptedData_ := some (maps.moveOut encrKeyId) }
        match moved with
        | none => (.error .nullPointer, ddc1)
        | some decryptionKey =>
          -- derive encryption key
          match ddc1.deriveEncryptionKey cl decryptionKey encrKdfId with
          | .error e => (.error e, ddc1)
          | .ok decryptionKey =>
            match decryptionKey.getDerivedKey encrKdfId with
            | .error e => (.error e, ddc1)
            | .ok derived =>
              -- decrypt encrypted key
              let rawDecryptedKey :=
                cl.decrypt cipherDataPtr.cipher_ derived cipherDataPtr.cipherText_
              -- move decryption key back to container
              match ddc1.insertDecryptedKey encrKeyId (some decryptionKey) with
              | (.error e, ddc2) => (.error e, ddc2)
              | (.ok _, ddc2) =>
                DecryptedDataContainer.decryptFromParents cl rest ddc2
                  (some { rawKey_ := rawDecryptedKey }) true

/-- The map of parent keys `populateEncryptionKey` builds from the cipher data
of an encrypted key: encryption key ID to KDF ID. -/
def Asset_EncryptionKey.parentKeyMap (k : Asset_EncryptionKey) : List (BinaryData × BinaryData) :=
  k.cipherData_.foldl
    (fun m cipherPair =>
      mapEmplace m cipherPair.2.cipher_.encryptionKeyId_ cipherPair.2.cipher_.kdfId_) []

/-- The part of `populateEncryptionKey` that looks for the key in the
encrypted map; `recurse` is the recursive call. The result is the decrypted
key with `keyId` and `kdfId`. -/
def DecryptedDataContainer.decryptEncryptedKey (cl : CipherLayer)
    (recurse : DecryptedDataContainer → List (BinaryData × BinaryData) →
      Option (Except ContainerError Unit × DecryptedDataContainer))
    (ddc : DecryptedDataContainer) (keyMap : List (BinaryData × BinaryData))
    (keyId kdfId : BinaryData) :
    Option (Except ContainerError (Option DecryptedEncryptionKey × BinaryData × BinaryData)
      × DecryptedDataContainer) :=
  match keyMap.find? (fun keyPair => (mapFind ddc.encryptionKeyMap_ keyPair.1).isSome) with
  | none => some (.ok (none, keyId, kdfId), ddc)
  | some keyPair =>
    match mapFind ddc.encryptionKeyMap_ keyPair.1 with
    | none => some (.ok (none, keyId, kdfId), ddc)
    | some encryptedKeyPtr =>
      -- found the encrypted key, need to decrypt it first
      match recurse ddc encryptedKeyPtr.parentKeyMap with
      | none => none
      | some (.error e, ddc1) => some (.error e, ddc1)
      | some (.ok _, ddc1) =>
        -- grab encryption key from map
        match ddc1.decryptFromParents cl encryptedKeyPtr.cipherData_ none false with
        | (.error e, ddc2) => some (.error e, ddc2)
        | (.ok (decryptedKey, done), ddc2) =>
          if !done then some (.error (.container .failedToDecryptKey), ddc2)
          else some (.ok (decryptedKey, keyPair.1, keyPair.2), ddc2)

/-- The loop of `populateEncryptionKey` after the prompt: the pair whose key ID
is the ID of the key under the KDF of the pair. -/
def matchKeyPair (cl : CipherLayer) (decryptedKey : DecryptedEncryptionKey) :
    List (BinaryData × BinaryData) → BinaryData × BinaryData →
      Except ContainerError (BinaryData × BinaryData)
  | [], ids => .ok ids
  | keyPair :: rest, ids =>
    match decryptedKey.getId cl keyPair.2 with
    | .error e => .error e
    | .ok id => if id = keyPair.1 then .ok (keyPair.1, keyPair.2)
                else matchKeyPair cl decryptedKey rest ids

/-- The end of `populateEncryptionKey`: "still no key, prompt the user", then
"apply kdf" and "insert into map". -/
def DecryptedDataContainer.promptAndInsert (cl : CipherLayer) (fuel : Nat)
    (ddc : DecryptedDataContainer) (keyMap : List (BinaryData × BinaryData))
    (decryptedKey : Option DecryptedEncryptionKey) (keyId kdfId : BinaryData) :
    Option (Except ContainerError Unit × DecryptedDataContainer) :=
  -- still no key, prompt the user
  let third : Option (Except ContainerError
      (DecryptedEncryptionKey × BinaryData × BinaryData) × DecryptedDataContainer) :=
    match decryptedKey with
    | some k => some (.ok (k, keyId, kdfId), ddc)
    | none =>
      match ddc.promptPassphrase cl fuel keyMap with
      | none => none
      | some (.error e, ddc3) => some (.error e, ddc3)
      | some (.ok k, ddc3) =>
        match matchKeyPair cl k keyMap (keyId, kdfId) with
        | .error e => some (.error e, ddc3)
        | .ok ids => some (.ok (k, ids.1, ids.2), ddc3)
  match third with
  | none => none
  | some (.error e, ddc3) => some (.error e, ddc3)
  | some (.ok (decryptedKey, keyId, kdfId), ddc3) =>
    -- apply kdf
    match ddc3.deriveEncryptionKey cl decryptedKey kdfId with
    | .error e => some (.error e, ddc3)
    | .ok decryptedKey =>
      -- insert into map
      some (ddc3.insertDecryptedKey keyId (some decryptedKey))

/-- `DecryptedDataContainer::populateEncryptionKey`, one unit of fuel per
nested call; `none` when the fuel is spent. -/
def DecryptedDataContainer.populateEncryptionKey (cl : CipherLayer) :
    Nat → DecryptedDataContainer → List (BinaryData × BinaryData) →
      Option (Except ContainerError Unit × DecryptedDataContainer)
  | 0, _, _ => none
  | fuel + 1, ddc, keyMap =>
    -- sanity check
    if !ddc.ownsLock then some (.error (.container .unlockedDoesNotOwnLock), ddc)
    else
      match ddc.lockedDecryptedData_ with
      | none => some (.error (.container .nullptrLock), ddc)
      | some maps =>
        -- look for already decrypted data
        let found := keyMap.find? (fun keyPair => (mapFind maps.encryptionKeys_ keyPair.1).isSome)
        let decryptedKey : Option DecryptedEncryptionKey :=
          match found with
          | none => none
          | some keyPair => (mapFind maps.encryptionKeys_ keyPair.1).join
        let keyId : BinaryData := match found with
          | none => []
          | some keyPair => keyPair.1
        let kdfId : BinaryData := match found with
          | none => []
          | some keyPair => keyPair.2
        let ddc1 : DecryptedDataContainer := match found with
          | none => ddc
          | some keyPair => { ddc with lockedDecryptedData_ := some (maps.moveOut keyPair.1) }
        -- we don't have a decrypted key, let's look for it in the encrypted map
        let second : Option (Except ContainerError
            (Option DecryptedEncryptionKey × BinaryData × BinaryData)
              × DecryptedDataContainer) :=
          match decryptedKey with
          | some k => some (.ok (some k, keyId, kdfId), ddc1)
          | none =>
            ddc1.decryptEncryptedKey cl (DecryptedDataContainer.populateEncryptionKey cl fuel)
              keyMap keyId kdfId
        match second with
        | none => none
        | some (.error e, ddc2) => some (.error e, ddc2)
        | some (.ok (decryptedKey, keyId, kdfId), ddc2) =>
          ddc2.promptAndInsert cl fuel keyMap decryptedKey keyId kdfId

/-- The lambda `insertDecryptedData` of `getDecryptedPrivateData`; the
`DecryptedData` is its ID and its data. -/
def DecryptedDataContainer.insertDecryptedData (ddc : DecryptedDataContainer)
    (decrKey : Option (BinaryData × BinaryData)) :
    Except ContainerError BinaryData × DecryptedDataContainer :=
  match decrKey with
  -- if decrKey is empty, all casts failed, throw
  | none => (.error (.container .unexpectedDataPtrType), ddc)
  | some decrKey =>
    match ddc.lockedDecryptedData_ with
    | none => (.error .nullPointer, ddc)
    | some maps =>
      -- make sure insertion succeeds
      let inserted : DecryptedDataMaps :=
        { maps with privateData_ :=
            mapEmplace (mapErase maps.privateData_ decrKey.1) decrKey.1 decrKey.2 }
      (.ok decrKey.2, { ddc with lockedDecryptedData_ := some inserted })

/-- `DecryptedDataContainer::getDecryptedPrivateData(dataPtr)` with the body of
the branch under the second `if (!dataPtr->hasData())` as the parameter
`nullCipher`. -/
def DecryptedDataContainer.getDecryptedPrivateDataWith (cl : CipherLayer)
    (nullCipher : DecryptedDataContainer → Asset_EncryptedData →
      Except ContainerError BinaryData × DecryptedDataContainer)
    (fuel : Nat) (ddc : DecryptedDataContainer) (dataPtr : Option Asset_EncryptedData) :
    Option (Except ContainerError BinaryData × DecryptedDataContainer) :=
  -- sanity check
  if !ddc.ownsLock then some (.error (.container .unlockedDoesNotOwnLock), ddc)
  else
    match ddc.lockedDecryptedData_ with
    | none => some (.error (.container .nullptrLock), ddc)
    | some maps =>
      match dataPtr with
      | none => some (.error (.container .nullData), ddc)
      | some dataPtr =>
        -- look for already decrypted data
        match mapFind maps.privateData_ dataPtr.id_ with
        | some data => some (.ok data, ddc)
        | none =>
          -- no decrypted val entry, let's try to decrypt the data instead
          if !dataPtr.hasData then
            -- missing encrypted data in container (most likely uncomputed private key)
            some (.error .EncryptedDataMissing, ddc)
          -- check cipher
          else if !dataPtr.hasData then some (nullCipher ddc dataPtr)
          else
            -- we have a valid cipher, grab the encryption key
            match dataPtr.cipherDataPtr with
            | none => some (.error .nullPointer, ddc)
            | some cipherData =>
              let encryptionKeyId := cipherData.cipher_.encryptionKeyId_
              let kdfId := cipherData.cipher_.kdfId_
              let encrKeyMap := mapEmplace [] encryptionKeyId kdfId
              match ddc.populateEncryptionKey cl fuel encrKeyMap with
              | none => none
              | some (.error e, ddc1) => some (.error e, ddc1)
              | some (.ok _, ddc1) =>
                match ddc1.lockedDecryptedData_ with
                | none => some (.error .nullPointer, ddc1)
                | some maps1 =>
                  match mapFind maps1.encryptionKeys_ encryptionKeyId with
                  | none => some (.error (.container .couldNotGetEncryptionKey), ddc1)
                  | some none => some (.error .nullPointer, ddc1)
                  | some (some decrKey) =>
                    match mapFind decrKey.derivedKeys_ kdfId with
                    | none =>
                      some (.error (.container .couldNotGetDerivedEncryptionKey), ddc1)
                    | some derivationKey =>
                      -- decrypt data
                      match cl.decryptData dataPtr derivationKey with
                      -- sanity check
                      | none => some (.error (.container .failedToDecryptData), ddc1)
                      -- insert the newly decrypted data in the container and return
                      | some decryptedDataPtr =>
                        some (ddc1.insertDecryptedData (some decryptedDataPtr))

/-- `DecryptedDataContainer::getDecryptedPrivateData(dataPtr)`: under the second
`if (!dataPtr->hasData())` ("null cipher, data is not encrypted, create entry
and return it") the cipher text is put in the container as the decrypted
data. -/
def DecryptedDataContainer.getDecryptedPrivateData (cl : CipherLayer) (fuel : Nat)
    (ddc : DecryptedDataContainer) (dataPtr : Option Asset_EncryptedData) :
    Option (Except ContainerError BinaryData × DecryptedDataContainer) :=
  ddc.getDecryptedPrivateDataWith cl
    (fun ddc dataPtr => ddc.insertDecryptedData (some (dataPtr.id_, dataPtr.cipherText)))
    fuel dataPtr

/-- `DecryptedDataContainer::encryptData(cipher, data)`. -/
def DecryptedDataContainer.encryptData (cl : CipherLayer) (fuel : Nat)
    (ddc : DecryptedDataContainer) (cipher : Option Cipher) (data : BinaryData) :
    Option (Except ContainerError BinaryData × DecryptedDataContainer) :=
  -- sanity check
  match cipher with
  | none => some (.error (.container .nullCipher), ddc)
  | some cipher =>
    if !ddc.ownsLock then some (.error (.container .unlockedDoesNotOwnLock), ddc)
    else if ddc.lockedDecryptedData_.isNone then some (.error (.container .nullptrLock), ddc)
    else
      let keyMap := mapEmplace [] cipher.encryptionKeyId_ cipher.kdfId_
      match ddc.populateEncryptionKey cl fuel keyMap with
      | none => none
      | some (.error e, ddc1) => some (.error e, ddc1)
      | some (.ok _, ddc1) =>
        match ddc1.lockedDecryptedData_ with
        | none => some (.error .nullPointer, ddc1)
        | some maps =>
          match mapFind maps.encryptionKeys_ cipher.encryptionKeyId_ with
          | some (some key) =>
            match key.getDerivedKey cipher.kdfId_ with
            | .error e => some (.error e, ddc1)
            | .ok derivedKey => some (.ok (cl.encrypt cipher derivedKey data), ddc1)
          | _ => some (.error .nullPointer, ddc1)

/-! ## A container, for evaluation -/

/-- A cipher layer for the examples: the derived key is the parameters of the
KDF followed by the raw key, its ID its first four bytes, encryption adds the
sum of the bytes of the key to every byte of the data. -/
def toyCipherLayer : CipherLayer :=
  { deriveKey := fun kdf raw => kdf.params_ ++ raw
    computeId := fun k => k.take 4
    encrypt := fun _ k d => d.map (fun x => x + k.sum)
    decrypt := fun _ k d => d.map (fun x => x - k.sum)
    decryptData := fun dataPtr k =>
      dataPtr.cipherDataPtr.map (fun cd =>
        (dataPtr.id_, cd.cipherText_.map (fun x => x - k.sum))) }

/-- The master key of the examples, `[100, 101]` under the ID `[0xAA]`, with
one wrap: under the key of ID `[7, 5]`, derived from the passphrase `[5]` by
the KDF `[1]`. -/
def toyMasterKey : Asset_EncryptionKey :=
  { id_ := [0xAA]
    cipherData_ := [([7, 5], { cipherText_ := [112, 113],
                               cipher_ := { kdfId_ := [1], encryptionKeyId_ := [7, 5] } })] }

/-- A container for the examples, its lock held by the caller: the KDF `[1]`
with parameters `[7]` and the master key `toyMasterKey`. The prompt answers
`[6]` on every call. -/
def toyContainer : DecryptedDataContainer :=
  { lock_ := .caller
    lockedDecryptedData_ := some { encryptionKeys_ := [([0], some { rawKey_ := [3] })] }
    encryptionKeyMap_ := [([0xAA], toyMasterKey)]
    kdfMap_ := [([1], some { id_ := [1], params_ := [7] })]
    defaultEncryptionKey_ := [3]
    defaultEncryptionKeyId_ := [0]
    getPassphraseLambda_ := some (fun _ _ => [6]) }

/-- An encrypted datum without data: the slot of a private key that is not
computed yet. -/
def toyMissingDatum : Asset_EncryptedData := { id_ := [4, 2], hasData := false }

/-- A passphrase that is not empty and matches none of the candidate pairs:
the KDF of every pair is at hand, and the ID of the key it derives from the
passphrase is not the key ID of the pair. -/
def DecryptedDataContainer.NoMatch (cl : CipherLayer) (ddc : DecryptedDataContainer)
    (keyMap : List (BinaryData × BinaryData)) (passphrase : BinaryData) : Prop :=
  passphrase ≠ [] ∧
  ∀ kp ∈ keyMap, ∃ kdf, mapFind ddc.kdfMap_ kp.2 = some (some kdf) ∧ kdf.id_ = kp.2 ∧
    cl.computeId (cl.deriveKey kdf passphrase) ≠ kp.1

/-- The toy container with a prompt that answers `[6]` twice, then gives up
with an empty passphrase. -/
def toyContainerGivingUp : DecryptedDataContainer :=
  { toyContainer with getPassphraseLambda_ := some (fun n _ => if n < 2 then [6] else []) }

/-! ## DecryptedDataContainer.cpp: passphrase changes -/

/-- The record prefixes of the encryption keys (macros of a header that is not
part of the sources at hand), taken as parameters. -/
structure KeyPrefixes where
  ENCRYPTIONKEY_PREFIX : Nat
  ENCRYPTIONKEY_PREFIX_TEMP : Nat
  deriving DecidableEq, Repr

/-- The serializer of the encrypted keys as the container calls it:
`serialize`, `Asset_EncryptedData::deserialize` (`none` when it throws) and
`isSame`, contracts of the container. -/
structure KeyCodec where
  serialize : Asset_EncryptionKey → BinaryData
  deserialize : BinaryData → Option Asset_EncryptionKey
  isSame : Asset_EncryptionKey → Asset_EncryptionKey → Bool

/-- Modelled from the spec: `SingleLock lock(this)` (the header is not part of
the sources at hand). "This requires acquiring the DDC lock in single-owner
mode: any existing holder causes failure": a free lock is taken and
`initAfterLock` runs, a lock that is held makes the call fail. -/
def DecryptedDataContainer.singleLock (ddc : DecryptedDataContainer) :
    Except ContainerError DecryptedDataContainer :=
  match ddc.lock_ with
  | .free => .ok (DecryptedDataContainer.initAfterLock { ddc with lock_ := .caller })
  | _ => .error .AlreadyLocked

/-- Modelled from the spec: the end of the scope of a lock (the header is not
part of the sources at hand). "Leaving the scope drops decrypted material":
`cleanUpBeforeUnlock` runs and the lock is free. -/
def DecryptedDataContainer.unlock (ddc : DecryptedDataContainer) : DecryptedDataContainer :=
  { ddc.cleanUpBeforeUnlock with lock_ := .free }

/-- Modelled from the spec: `Asset_EncryptionKey::getCipherPtrForId` (Assets.cpp
is not part of the sources at hand): the cipher of the wrap under the key ID,
null when there is none. -/
def Asset_EncryptionKey.getCipherPtrForId (k : Asset_EncryptionKey) (id : BinaryData) :
    Option Cipher :=
  (mapFind k.cipherData_ id).map (fun cd => cd.cipher_)

/-- Modelled from the spec: `Asset_EncryptionKey::removeCipherData` (Assets.cpp
is not part of the sources at hand): the wrap under the key ID is erased;
false when there is none. -/
def Asset_EncryptionKey.removeCipherData (k : Asset_EncryptionKey) (id : BinaryData) :
    Bool × Asset_EncryptionKey :=
  ((mapFind k.cipherData_ id).isSome, { k with cipherData_ := mapErase k.cipherData_ id })

/-- Modelled from the spec: `Asset_EncryptionKey::addCipherData` (Assets.cpp is
not part of the sources at hand): the wrap is put under the encryption key ID
of its cipher; false, and nothing is put, when the key has a wrap under that
ID ("cipher data already present in encryption key"). -/
def Asset_EncryptionKey.addCipherData (k : Asset_EncryptionKey) (cd : CipherData) :
    Bool × Asset_EncryptionKey :=
  match mapFind k.cipherData_ cd.cipher_.encryptionKeyId_ with
  | some _ => (false, k)
  | none =>
    (true, { k with cipherData_ := mapInsert k.cipherData_ cd.cipher_.encryptionKeyId_ cd })

/-- Modelled from the spec: `Cipher::getCopy(keyId)` (the header is not part of
the sources at hand): "create new cipher, pointing to the new key id"; the
copy has the KDF of the cipher, the key ID given and a new IV. -/
def Cipher.getCopy (c : Cipher) (keyId iv : BinaryData) : Cipher :=
  { c with encryptionKeyId_ := keyId, iv_ := iv }

/-- `DecryptedDataContainer::deleteKeyFromDisk`. -/
def DecryptedDataContainer.deleteKeyFromDisk (ddc : DecryptedDataContainer) (key : BinaryData) :
    Except ContainerError Unit × DecryptedDataContainer :=
  -- sanity checks
  if !ddc.ownsLock then (.error (.container .unlockedDoesNotOwnLock), ddc)
  -- erase key, db interface will wipe it from file
  else (.ok (), { ddc with store_ := mapErase ddc.store_ key })

/-- `DecryptedDataContainer::updateKeyOnDiskNoPrefix`. -/
def DecryptedDataContainer.updateKeyOnDiskNoPrefix (kc : KeyCodec)
    (ddc : DecryptedDataContainer) (dbKey : BinaryData) (dataPtr : Asset_EncryptionKey) :
    Except ContainerError Unit × DecryptedDataContainer :=
  -- check if data is on disk already
  let dataRef := (mapFind ddc.store_ dbKey).getD []
  if dataRef.length ≠ 0 then
    -- already have this key, is it the same data?
    match kc.deserialize dataRef with
    | none => (.error .runtimeError, ddc)
    | some onDiskData =>
      -- data has not changed, no need to commit
      if kc.isSame onDiskData dataPtr then (.ok (), ddc)
      else
        -- data has changed, wipe the existing data
        match ddc.deleteKeyFromDisk dbKey with
        | (.error e, ddc1) => (.error e, ddc1)
        | (.ok _, ddc1) =>
          (.ok (), { ddc1 with store_ := mapInsert ddc1.store_ dbKey (kc.serialize dataPtr) })
  else (.ok (), { ddc with store_ := mapInsert ddc.store_ dbKey (kc.serialize dataPtr) })

/-- The end of `encryptEncryptionKey`: the three transactions that write the
encrypted key to the store. -/
def DecryptedDataContainer.writeEncryptedKey (kc : KeyCodec) (kp : KeyPrefixes)
    (ddc : DecryptedDataContainer) (keyID : BinaryData) (encryptedKey : Asset_EncryptionKey) :
    Except ContainerError Unit × DecryptedDataContainer :=
  let temp_key := kp.ENCRYPTIONKEY_PREFIX_TEMP :: keyID
  let perm_key := kp.ENCRYPTIONKEY_PREFIX :: keyID
  -- write new encrypted key as temp key within it's own transaction
  match ddc.updateKeyOnDiskNoPrefix kc temp_key encryptedKey with
  | (.error e, ddc1) => (.error e, ddc1)
  | (.ok _, ddc1) =>
    -- wipe old key from disk
    match ddc1.deleteKeyFromDisk perm_key with
    | (.error e, ddc2) => (.error e, ddc2)
    | (.ok _, ddc2) =>
      -- write new key to disk
      match ddc2.updateKeyOnDiskNoPrefix kc perm_key encryptedKey with
      | (.error e, ddc3) => (.error e, ddc3)
      | (.ok _, ddc3) =>
        -- wipe temp entry
        ddc3.deleteKeyFromDisk temp_key

/-- The body of `encryptEncryptionKey` from "create new cipher" on: the master
key `decryptedKey` is encrypted under the new key, the wraps of `encryptedKey`
are changed and the key is written. `cipherPtr` is the cipher of the wrap that
the loop over the decrypted keys has found, `iv` the IV of the new cipher. -/
def DecryptedDataContainer.rewrap (cl : CipherLayer) (kc : KeyCodec) (kp : KeyPrefixes)
    (fuel : Nat) (ddc : DecryptedDataContainer) (keyID : BinaryData)
    (encryptedKey : Asset_EncryptionKey) (decryptedKey : BinaryData) (cipherPtr : Cipher)
    (newKeyId : BinaryData) (newEncryptionKey : DecryptedEncryptionKey) (replace : Bool)
    (iv : BinaryData) :
    Option (Except ContainerError Unit × DecryptedDataContainer) :=
  -- create new cipher, pointing to the new key id
  let newCipher := cipherPtr.getCopy newKeyId iv
  -- add new encryption key object to container
  match ddc.lockedDecryptedData_ with
  | none => some (.error .nullPointer, ddc)
  | some maps =>
    let inserted : DecryptedDataMaps :=
      { maps with encryptionKeys_ :=
          mapEmplace maps.encryptionKeys_ newKeyId (some newEncryptionKey) }
    let ddc1 := { ddc with lockedDecryptedData_ := some inserted }
    -- encrypt master key
    match ddc1.encryptData cl fuel (some newCipher) decryptedKey with
    | none => none
    | some (.error e, ddc2) => some (.error e, ddc2)
    | some (.ok newEncryptedKey, ddc2) =>
      -- create new encrypted container
      let newCipherData : CipherData := { cipherText_ := newEncryptedKey, cipher_ := newCipher }
      -- remove old cipher data from the encrypted key object
      let removed := if replace then encryptedKey.removeCipherData cipherPtr.encryptionKeyId_
                     else (true, encryptedKey)
      let ddc3 := { ddc2 with encryptionKeyMap_ :=
                      mapInsert ddc2.encryptionKeyMap_ keyID removed.2 }
      if !removed.1 then some (.error (.container .failedToEraseOldEncryptionKey), ddc3)
      else
        -- add new cipher data object to the encrypted key object
        let added := removed.2.addCipherData newCipherData
        let ddc4 := { ddc3 with encryptionKeyMap_ :=
                        mapInsert ddc3.encryptionKeyMap_ keyID added.2 }
        if !added.1 then some (.error (.container .cipherDataAlreadyPresent), ddc4)
        else some (ddc4.writeEncryptedKey kc kp keyID added.2)

/-- The body of `encryptEncryptionKey` under the lock. -/
def DecryptedDataContainer.encryptEncryptionKeyLocked (cl : CipherLayer) (kc : KeyCodec)
    (kp : KeyPrefixes) (fuel : Nat) (ddc : DecryptedDataContainer)
    (keyID kdfID newPassphrase : BinaryData) (replace : Bool) (iv : BinaryData) :
    Option (Except ContainerError Unit × DecryptedDataContainer) :=
  -- sanity check
  if !ddc.ownsLock then some (.error (.container .unlockedDoesNotOwnLock), ddc)
  else if ddc.lockedDecryptedData_.isNone then some (.error (.container .nullptrLock), ddc)
  else
    -- grab encryption key object
    match mapFind ddc.encryptionKeyMap_ keyID with
    | none => some (.error (.container .cannotChangePassphraseForUnknownKey), ddc)
    | some encryptedKey =>
      -- decrypt master encryption key
      let encrKeyMap := mapEmplace [] keyID kdfID
      match ddc.populateEncryptionKey cl fuel encrKeyMap with
      | none => none
      | some (.error e, ddc1) => some (.error e, ddc1)
      | some (.ok _, ddc1) =>
        -- grab decrypted key
        match ddc1.lockedDecryptedData_ with
        | none => some (.error .nullPointer, ddc1)
        | some maps =>
          match mapFind maps.encryptionKeys_ keyID with
          | none => some (.error (.container .failedToDecryptKey), ddc1)
          | some none => some (.error .nullPointer, ddc1)
          | some (some decryptedKeyPtr) =>
            let decryptedKey := decryptedKeyPtr.rawKey_
            -- grab kdf for key id computation
            match mapFind ddc1.kdfMap_ kdfID with
            | none => some (.error (.container .failedToGrabKdf), ddc1)
            | some none => some (.error .nullPointer, ddc1)
            | some (some kdf) =>
              -- kdf the key to get its id
              let newEncryptionKey :=
                DecryptedEncryptionKey.deriveKey cl { rawKey_ := newPassphrase } kdf
              match newEncryptionKey.getId cl kdfID with
              | .error e => some (.error e, ddc1)
              | .ok newKeyId =>
                -- figure out which passphrase unlocked the key
                match maps.encryptionKeys_.findSome?
                    (fun keyPair => encryptedKey.getCipherPtrForId keyPair.1) with
                | none => some (.error (.container .failedToFindEncryptionKey), ddc1)
                | some cipherPtr =>
                  ddc1.rewrap cl kc kp fuel keyID encryptedKey decryptedKey cipherPtr
                    newKeyId newEncryptionKey replace iv

/-- `DecryptedDataContainer::encryptEncryptionKey(keyID, kdfID, newPassphrase,
replace)`: the body under a `SingleLock` that is given up when the body is
left. `iv` is the IV the copy of the cipher draws. -/
def DecryptedDataContainer.encryptEncryptionKey (cl : CipherLayer) (kc : KeyCodec)
    (kp : KeyPrefixes) (fuel : Nat) (ddc : DecryptedDataContainer)
    (keyID kdfID newPassphrase : BinaryData) (replace : Bool) (iv : BinaryData) :
    Option (Except ContainerError Unit × DecryptedDataContainer) :=
  match ddc.singleLock with
  | .error e => some (.error e, ddc)
  | .ok ddc1 =>
    match ddc1.encryptEncryptionKeyLocked cl kc kp fuel keyID kdfID newPassphrase replace iv with
    | none => none
    | some (r, ddc2) => some (r, ddc2.unlock)

/-- The derived keys a decrypted key holds are the keys the KDFs of the
container derive from its raw key. -/
def DerivedOk (cl : CipherLayer) (ddc : DecryptedDataContainer) (k : DecryptedEncryptionKey) :
    Prop :=
  ∀ id v, mapFind k.derivedKeys_ id = some v →
    ∃ kdf, mapFind ddc.kdfMap_ id = some (some kdf) ∧ v = cl.deriveKey kdf k.rawKey_

/-- Every KDF of the container is kept under its ID. -/
def DecryptedDataContainer.KdfMapOk (ddc : DecryptedDataContainer) : Prop :=
  ∀ id kdf, mapFind ddc.kdfMap_ id = some (some kdf) → kdf.id_ = id

/-- The container with `encryptionKeys_` set. -/
def DecryptedDataContainer.withKeys (ddc : DecryptedDataContainer) (maps : DecryptedDataMaps)
    (keys : List (BinaryData × Option DecryptedEncryptionKey)) : DecryptedDataContainer :=
  { ddc with lockedDecryptedData_ := some { maps with encryptionKeys_ := keys } }

/-- The members of the container that decryption leaves alone are the same in
two states. -/
structure DecryptedDataContainer.Frame (a b : DecryptedDataContainer) : Prop where
  lock : b.lock_ = a.lock_
  keys : b.encryptionKeyMap_ = a.encryptionKeyMap_
  kdfs : b.kdfMap_ = a.kdfMap_
  defaultKey : b.defaultEncryptionKey_ = a.defaultEncryptionKey_
  defaultId : b.defaultEncryptionKeyId_ = a.defaultEncryptionKeyId_
  lambda : b.getPassphraseLambda_ = a.getPassphraseLambda_
  store : b.store_ = a.store_

/-- The setting of a passphrase change: the master key `K` is kept under
`keyID`, which is not the ID of the default key; no key that wraps it is
itself an encrypted key of the container; its wraps are kept, in key order,
under the encryption key ID of their cipher; and every KDF is kept under its
ID. -/
structure DecryptedDataContainer.MasterKey (ddc : DecryptedDataContainer) (keyID : BinaryData)
    (K : Asset_EncryptionKey) : Prop where
  found : mapFind ddc.encryptionKeyMap_ keyID = some K
  notDefault : keyID ≠ ddc.defaultEncryptionKeyId_
  parents : ∀ w ∈ K.cipherData_, mapFind ddc.encryptionKeyMap_ w.1 = none
  keyed : ∀ w ∈ K.cipherData_, w.2.cipher_.encryptionKeyId_ = w.1
  sorted : MapSorted K.cipherData_
  kdfs : ddc.KdfMapOk

/-- The decrypted keys right after `initAfterLock`: the default key under its
ID, nothing else. -/
def DecryptedDataContainer.FreshKeys (ddc : DecryptedDataContainer)
    (E : List (BinaryData × Option DecryptedEncryptionKey)) : Prop :=
  ∀ id, mapFind E id
    = if id = ddc.defaultEncryptionKeyId_ then
        some (some { rawKey_ := ddc.defaultEncryptionKey_ })
      else none

/-- The toy container with its lock free and a prompt that answers `[6]` on
its first call and `[5]`, the passphrase of the wrap of the master key, from
then on. -/
def toyContainerUnlocked : DecryptedDataContainer :=
  { toyContainer with
    lock_ := .free
    lockedDecryptedData_ := none
    getPassphraseLambda_ := some (fun n _ => if n < 1 then [6] else [5]) }

/-- A serializer for the examples: an encrypted key is written as its ID and
the IDs of the keys that wrap it; nothing read compares. -/
def toyKeyCodec : KeyCodec :=
  { serialize := fun k => k.id_ ++ (k.cipherData_.map Prod.fst).flatten
    deserialize := fun _ => none
    isSame := fun _ _ => false }

/-- Record prefixes for the examples. -/
def toyKeyPrefixes : KeyPrefixes :=
  { ENCRYPTIONKEY_PREFIX := 0xC0, ENCRYPTIONKEY_PREFIX_TEMP := 0xCC }

/-- The toy container after the passphrase `[8]` is added to the master key. -/
def toyContainerRewrapped : DecryptedDataContainer :=
  { toyContainerUnlocked with
    encryptionKeyMap_ :=
      [([0xAA],
        { id_ := [0xAA]
          cipherData_ :=
            [([7, 5], { cipherText_ := [112, 113],
                        cipher_ := { kdfId_ := [1], encryptionKeyId_ := [7, 5] } }),
             ([7, 8], { cipherText_ := [115, 116],
                        cipher_ := { kdfId_ := [1], encryptionKeyId_ := [7, 8],
                                     iv_ := [1, 1] } })] })]
    promptCalls_ := 2
    store_ := [([0xC0, 0xAA], [0xAA, 7, 5, 7, 8])] }

/-! ## DecryptedDataContainer.cpp: calls without the lock -/

/-- The toy container with its lock held by another thread, the decrypted
keys still in place. -/
def toyContainerOtherLock : DecryptedDataContainer :=
  { toyContainer with lock_ := .other }

/-- The exception of the sanity checks on a container without decrypted data:
"unlocked/does not own lock", or "nullptr lock" for a caller that holds the
lock. -/
def DecryptedDataContainer.sanityException (ddc : DecryptedDataContainer) :
    DecryptedDataContainerException :=
  if ddc.ownsLock then .nullptrLock else .unlockedDoesNotOwnLock

/-! ## WalletFileInterface.cpp: the db-key allocator -/

/-- The state of the `DBInterface` after `n` calls of `getNewDbKey`. -/
def DBInterface.afterNewDbKeys (d : DBInterface) : Nat → DBInterface
  | 0 => d
  | n + 1 => (d.afterNewDbKeys n).getNewDbKey.2

/-! ## Accounts.cpp: the asset count of a stored account -/

/-- The account record under `key` reads up to the derivation scheme: the type
byte, the length of the parent ID, the two slices of the key, and a derivation
scheme that deserializes. -/
def AccountHeaderReads (cd : AssetCodec) (disk : Disk) (key : BinaryData) : Prop :=
  ∃ typeByte r1 plen r2 len r3 bdr r4 ds,
    get_uint8_t (getDataRef disk key) = some (typeByte, r1) ∧
    get_var_int r1 = some (plen, r2) ∧
    (getSliceCopy key 1 plen).isSome = true ∧
    (getSliceCopy key (1 + plen) (key.length - 1 - plen)).isSome = true ∧
    get_var_int r2 = some (len, r3) ∧
    get_BinaryData len r3 = some (bdr, r4) ∧
    cd.derDeserialize bdr = .ok ds

/-- The asset entry of a record when it is not a root. -/
def nonRootEntry (cd : AssetCodec) (e : BinaryData × BinaryData) : Option AssetEntry :=
  match cd.deserialize e.1 e.2 with
  | .ok a => if a.index_ ≠ ROOT_ASSETENTRY_ID then some a else none
  | .error _ => none

/-- In the words of the spec: the non-root asset entries found under the
asset-entry prefix `K` of the account, in key order. -/
def nonRootEntriesUnder (cd : AssetCodec) (K : BinaryData) (disk : Disk) : List AssetEntry :=
  (disk.filter (fun e => K.isPrefixOf e.1)).filterMap (nonRootEntry cd)

/-- What the asset loop of `loadFromDisk` collects from records that
deserialize: the root and the map of the other assets by index. -/
def collectAssets (cd : AssetCodec) :
    Disk → Option AssetEntry × List (Nat × AssetEntry) →
      Option AssetEntry × List (Nat × AssetEntry)
  | [], st => st
  | (k, v) :: rest, st =>
    match cd.deserialize k v with
    | .error _ => st
    | .ok a =>
      if a.index_ ≠ ROOT_ASSETENTRY_ID then
        collectAssets cd rest (st.1, mapEmplace st.2 a.index_ a)
      else collectAssets cd rest (some a, st.2)

/-- The store of the toy asset account with assets 0 and 1, after its commit,
with the asset count record changed to 3. -/
def toyDiskWrongCount : Disk :=
  mapInsert (toyAssetAccountUnused.commit toyPrefixes toyCodec []).2
    [0xE2, 0, 0, 0, 7, 0, 0, 0, 1] [3]

/-! ## Accounts.cpp: the growth of the public chain -/

/-- In the words of the spec: the derivation scheme of the account yields one
asset for each requested index, the indices from `start` to `stop`, in
order. -/
def AssetAccount.YieldsEachIndex (a : AssetAccount) : Prop :=
  ∀ ap start stop, ∃ l, a.extendPublicChainRange (some ap) start stop = .ok l ∧
    l.map AssetEntry.index_ = List.range' start (stop + 1 - start)

/-- The index an extension of the public chain starts at: one above the
highest index computed, 0 (one above the index of the root, modulo 2^32) when
no asset is computed. -/
def AssetAccount.nextComputedIndex (a : AssetAccount) : Nat :=
  match a.assets_.getLast? with
  | some last => last.1 + 1
  | none => 0

/-- The asset map of the account is in key order with every asset under its
own index, and an account without assets has a root, at the root index. -/
def AssetAccount.ChainOk (a : AssetAccount) : Prop :=
  MapSorted a.assets_ ∧ (∀ x ∈ a.assets_, x.2.index_ = x.1) ∧
  (a.assets_ = [] → ∃ r, a.root_ = some r ∧ r.index_ = ROOT_ASSETENTRY_ID)

/-! ## Accounts.cpp: peekNextAsset -/

/-- `AssetAccount::peekNextAsset`: the asset returned or the exception thrown,
with the account and the store as the call leaves them. `lastUsedIndex_ + 1` is
taken modulo 2^32. -/
def AssetAccount.peekNextAsset (p : DbPrefixes) (cd : AssetCodec) (a : AssetAccount)
    (disk : Disk) : Except AccountException AssetEntry × AssetAccount × Disk :=
  let index := (a.lastUsedIndex_ + 1) % 2 ^ 32
  match mapFind a.assets_ index with
  | some entry => (.ok entry, a, disk)
  | none =>
    match a.extendPublicChain p cd disk a.lookup_ with
    | .error e => (.error e, a, disk)
    | .ok (a2, d2) =>
      match mapFind a2.assets_ index with
      | some entry => (.ok entry, a2, d2)
      | none => (.error .requestedIndexOverflowsMaxLookup, a2, d2)

/-- The account and the store after `n` calls of `getNewAsset`. -/
def afterNewAssets (p : DbPrefixes) (cd : AssetCodec) :
    Nat → AssetAccount × Disk → AssetAccount × Disk
  | 0, s => s
  | n + 1, s => afterNewAssets p cd n (s.1.getNewAsset p cd s.2).2

/-- The asset account of the test: the assets 0 to 4 are computed, no address
is handed out, and `getLookup()` is 100. -/
def toyAssetAccountFive : AssetAccount :=
  { toyAssetAccount with
    assets_ := (List.range 5).map (fun i => (i, toyAsset [0, 0, 0, 7, 0, 0, 0, 1] i)),
    lookup_ := 100 }

/-- The asset account of the test after five requests: the assets 0 to 4 are
handed out. -/
def toyAssetAccountFiveUsed : AssetAccount :=
  { toyAssetAccountFive with lastUsedIndex_ := 4 }

/-! ## ScriptRecipient.cpp: recipients -/

/-- The script opcodes `ScriptRecipient.cpp` and the script builders name
(constants of a header that is not part of the sources at hand), taken as
parameters. -/
structure ScriptOpcodes where
  OP_DUP : Nat
  OP_HASH160 : Nat
  OP_EQUALVERIFY : Nat
  OP_EQUAL : Nat
  OP_CHECKSIG : Nat
  OP_RETURN : Nat
  OP_PUSHDATA1 : Nat
  deriving DecidableEq, Repr

/-- The opcodes of the Bitcoin script language. -/
def bitcoinOpcodes : ScriptOpcodes :=
  { OP_DUP := 0x76, OP_HASH160 := 0xa9, OP_EQUALVERIFY := 0x88, OP_EQUAL := 0x87,
    OP_CHECKSIG := 0xac, OP_RETURN := 0x6a, OP_PUSHDATA1 := 0x4c }

/-- What `ScriptRecipient.cpp` throws: the two `ScriptRecipientException`s and
the overflow of a `BinaryRefReader`. -/
inductive ScriptRecipientError where
  | unexpectedRecipientScript
  | bip32PathConflict
  | readerOverflow
  deriving DecidableEq, Repr

/-- The recipient classes with the members their `serialize` reads. -/
inductive RecipientKind where
  | P2PKH (h160 : BinaryData) (value : Nat)
  | P2PK (pubkey : BinaryData) (value : Nat)
  | P2WPKH (h160 : BinaryData) (value : Nat)
  | P2SH (h160 : BinaryData) (value : Nat)
  | P2WSH (h256 : BinaryData) (value : Nat)
  | OPRETURN (message : BinaryData)
  | Universal (binScript : BinaryData) (value : Nat)
  deriving DecidableEq, Repr

/-- A `ScriptRecipient`: the object of one of the recipient classes and
`bip32Paths_`, the `std::map` from public key to path, in key order. -/
structure ScriptRecipient where
  kind : RecipientKind
  bip32Paths_ : List (BinaryData × List Nat) := []
  deriving DecidableEq, Repr

/-- `Codec_SignerState::RecipientState`, the message of a recipient: `data`
and the repeated `bip32paths`, each a `pubkey` and its repeated `steps`. -/
structure RecipientState where
  data : BinaryData
  bip32paths : List (BinaryData × List Nat) := []
  deriving DecidableEq, Repr

/-- `BinaryWriter::put_uint64_t` with the default (little) endianness. -/
def put_uint64_t (n : Nat) : BinaryData := WRITE_LE 8 n

/-- Modelled from the spec: `BtcUtils::getP2PKHScript` (BtcUtils.h is not part
of the sources at hand), the P2PKH script template: `OP_DUP OP_HASH160`, the
push of the 20-byte hash, `OP_EQUALVERIFY OP_CHECKSIG`; 25 bytes, as
`Recipient_P2PKH::getSize` (34) and `fromScript` have it. -/
def getP2PKHScript (ops : ScriptOpcodes) (h160 : BinaryData) : BinaryData :=
  [ops.OP_DUP, ops.OP_HASH160, 20] ++ h160 ++ [ops.OP_EQUALVERIFY, ops.OP_CHECKSIG]

/-- Modelled from the spec: `BtcUtils::getP2PKScript` (same header), the P2PK
script template: the push of the public key (its length byte, then the key),
then `OP_CHECKSIG`; two bytes more than the key. -/
def getP2PKScript (ops : ScriptOpcodes) (pubkey : BinaryData) : BinaryData :=
  [pubkey.length % 256] ++ pubkey ++ [ops.OP_CHECKSIG]

/-- Modelled from the spec: `BtcUtils::getP2WPKHOutputScript` (same header),
the native P2WPKH template: version 0 and the push of the 20-byte hash; 22
bytes, as `Recipient_P2WPKH::getSize` (31) and `fromScript` have it. -/
def getP2WPKHOutputScript (h160 : BinaryData) : BinaryData := [0, 20] ++ h160

/-- Modelled from the spec: `BtcUtils::getP2SHScript` (same header), the P2SH
template: `OP_HASH160`, the push of the 20-byte hash, `OP_EQUAL`; 23 bytes, as
`Recipient_P2SH::getSize` (32) and `fromScript` have it. -/
def getP2SHScript (ops : ScriptOpcodes) (h160 : BinaryData) : BinaryData :=
  [ops.OP_HASH160, 20] ++ h160 ++ [ops.OP_EQUAL]

/-- Modelled from the spec: `BtcUtils::getP2WSHOutputScript` (same header),
the native P2WSH template: version 0 and the push of the 32-byte hash; 34
bytes, as `Recipient_P2WSH::getSize` (43) and `fromScript` have it. -/
def getP2WSHOutputScript (h256 : BinaryData) : BinaryData := [0, 32] ++ h256

/-- The `serialize` of the recipient classes: the value of `script_`
afterwards. `put_uint8_t` keeps the low 8 bits. -/
def RecipientKind.serialize (ops : ScriptOpcodes) : RecipientKind → BinaryData
  | .P2PKH h160 value =>
    let rawScript := getP2PKHScript ops h160
    put_uint64_t value ++ put_var_int rawScript.length ++ rawScript
  | .P2PK pubkey value =>
    let rawScript := getP2PKScript ops pubkey
    put_uint64_t value ++ put_var_int rawScript.length ++ rawScript
  | .P2WPKH h160 value =>
    let rawScript := getP2WPKHOutputScript h160
    put_uint64_t value ++ put_var_int rawScript.length ++ rawScript
  | .P2SH h160 value =>
    let rawScript := getP2SHScript ops h160
    put_uint64_t value ++ put_var_int rawScript.length ++ rawScript
  | .P2WSH h256 value =>
    let rawScript := getP2WSHOutputScript h256
    put_uint64_t value ++ put_var_int rawScript.length ++ rawScript
  | .OPRETURN message =>
    let size := message.length
    let bw_msg : BinaryData :=
      (if size > 75 then [ops.OP_PUSHDATA1, size % 256]
       else if size > 0 then [size % 256]
       else [])
      ++ (if size > 0 then message else [])
    put_uint64_t 0 ++ [(bw_msg.length + 1) % 256] ++ [ops.OP_RETURN] ++ bw_msg
  | .Universal binScript value =>
    put_uint64_t value ++ put_var_int binScript.length ++ binScript

/-- Modelled from the spec: `ScriptRecipient::getSerializedScript`
(ScriptRecipient.h is not part of the sources at hand): the "serialized output
script", `script_` once `serialize` has run. -/
def ScriptRecipient.getSerializedScript (ops : ScriptOpcodes) (r : ScriptRecipient) :
    BinaryData :=
  r.kind.serialize ops

/-- `ScriptRecipient::fromScript`. The size checks of the constructors of the
recipient classes are in a header that is not part of the sources at hand: the
objects are taken as built. -/
def ScriptRecipient.fromScript (ops : ScriptOpcodes) (dataRef : BinaryData) :
    Except ScriptRecipientError ScriptRecipient :=
  match get_BinaryData 8 dataRef with
  | none => .error .readerOverflow
  | some (v, script) =>
    let value := READ_LE v
    match get_uint8_t script with
    | none => .error .readerOverflow
    | some (byte0, s1) =>
      match get_uint8_t s1 with
      | none => .error .readerOverflow
      | some (byte1, s2) =>
        match get_uint8_t s2 with
        | none => .error .readerOverflow
        | some (byte2, s3) =>
          if byte0 = 25 ∧ byte1 = ops.OP_DUP ∧ byte2 = ops.OP_HASH160 then
            match get_uint8_t s3 with
            | none => .error .readerOverflow
            | some (byte3, s4) =>
              if byte3 = 20 then
                match get_BinaryData 20 s4 with
                | none => .error .readerOverflow
                | some (hash160, _) => .ok { kind := .P2PKH hash160 value }
              else .error .unexpectedRecipientScript
          else if byte0 = 22 ∧ byte1 = 0 ∧ byte2 = 20 then
            match get_BinaryData 20 s3 with
            | none => .error .readerOverflow
            | some (hash160, _) => .ok { kind := .P2WPKH hash160 value }
          else if byte0 = 23 ∧ byte1 = ops.OP_HASH160 ∧ byte2 = 20 then
            match get_BinaryData 20 s3 with
            | none => .error .readerOverflow
            | some (hash160, _) => .ok { kind := .P2SH hash160 value }
          else if byte0 = 34 ∧ byte1 = 0 ∧ byte2 = 32 then
            match get_BinaryData 32 s3 with
            | none => .error .readerOverflow
            | some (hash256, _) => .ok { kind := .P2WSH hash256 value }
          else
            -- is this an OP_RETURN?
            if byte0 = script.length - 1 ∧ byte1 = ops.OP_RETURN then
              let pushed : Option (Nat × BinaryData) :=
                if byte2 = ops.OP_PUSHDATA1 then get_uint8_t s3 else some (byte2, s3)
              match pushed with
              | none => .error .readerOverflow
              | some (byte2, s4) =>
                match get_BinaryData byte2 s4 with
                | none => .error .readerOverflow
                | some (opReturnMessage, _) => .ok { kind := .OPRETURN opReturnMessage }
            else .error .unexpectedRecipientScript

/-- `ScriptRecipient::addBip32Path`. -/
def ScriptRecipient.addBip32Path (r : ScriptRecipient) (pubkey : BinaryData)
    (bip32Path : List Nat) : Except ScriptRecipientError ScriptRecipient :=
  match mapFind r.bip32Paths_ pubkey with
  | none => .ok { r with bip32Paths_ := mapInsert r.bip32Paths_ pubkey bip32Path }
  | some path => if path ≠ bip32Path then .error .bip32PathConflict else .ok r

/-- `ScriptRecipient::toProtobuf`. -/
def ScriptRecipient.toProtobuf (ops : ScriptOpcodes) (r : ScriptRecipient) : RecipientState :=
  { data := r.getSerializedScript ops, bip32paths := r.bip32Paths_ }

/-- The loop of `fromProtobuf` over the paths of the message. -/
def addBip32Paths : List (BinaryData × List Nat) → ScriptRecipient →
    Except ScriptRecipientError ScriptRecipient
  | [], recipient => .ok recipient
  | pathMsg :: rest, recipient =>
    match recipient.addBip32Path pathMsg.1 pathMsg.2 with
    | .error e => .error e
    | .ok r => addBip32Paths rest r

/-- `ScriptRecipient::fromProtobuf`. -/
def ScriptRecipient.fromProtobuf (ops : ScriptOpcodes) (protoMsg : RecipientState) :
    Except ScriptRecipientError ScriptRecipient :=
  match ScriptRecipient.fromScript ops protoMsg.data with
  | .error e => .error e
  | .ok recipient => addBip32Paths protoMsg.bip32paths recipient

/-- The recipients that `fromScript` reads back from their serialized output:
P2PKH, P2WPKH and P2SH over a 20-byte hash, P2WSH over a 32-byte hash, each
with a 64-bit value, and OP_RETURN with a message of 1 to 252 bytes. -/
def RecipientKind.ReadBack : RecipientKind → Prop
  | .P2PKH h160 value => h160.length = 20 ∧ value < 2 ^ 64
  | .P2PK _ _ => False
  | .P2WPKH h160 value => h160.length = 20 ∧ value < 2 ^ 64
  | .P2SH h160 value => h160.length = 20 ∧ value < 2 ^ 64
  | .P2WSH h256 value => h256.length = 32 ∧ value < 2 ^ 64
  | .OPRETURN message => 0 < message.length ∧ message.length ≤ 252
  | .Universal _ _ => False

/-- The opcodes are told apart where `fromScript` tells the templates apart:
`OP_RETURN` is not `OP_DUP`, `OP_HASH160` or 0, and `OP_PUSHDATA1` is above the
direct push lengths. -/
def ScriptOpcodes.Distinct (ops : ScriptOpcodes) : Prop :=
  ops.OP_RETURN ≠ ops.OP_DUP ∧ ops.OP_RETURN ≠ ops.OP_HASH160 ∧ ops.OP_RETURN ≠ 0 ∧
  75 < ops.OP_PUSHDATA1

/-! ## Signer.h: the verification flags -/

/-- The script verification flags (macros of a header that is not part of the
sources at hand), bit masks of an `unsigned`, taken as parameters. -/
structure ScriptVerifyFlags where
  SCRIPT_VERIFY_SEGWIT : Nat
  SCRIPT_VERIFY_P2SH : Nat
  SCRIPT_VERIFY_P2SH_SHA256 : Nat
  SCRIPT_VERIFY_CHECKSEQUENCEVERIFY : Nat
  SCRIPT_VERIFY_CHECKLOCKTIMEVERIFY : Nat
  deriving DecidableEq, Repr

/-- The members of `ScriptSpender` that `Signer::evaluateSignedState` reads:
the three flags and the UTXO (its serialized form). -/
structure ScriptSpender where
  isP2SH_ : Bool := false
  isCSV_ : Bool := false
  isCLTV_ : Bool := false
  utxo_ : BinaryData := []
  deriving DecidableEq, Repr

/-- The members of `Signer` that `evaluateSignedState` reads. -/
structure Signer where
  spenders_ : List ScriptSpender := []
  deriving DecidableEq, Repr

/-- The functions `evaluateSignedState` calls that are declared in `Signer.h`
and defined elsewhere: `serializeAvailableResolvedData`, `getOutputHash`,
`getOutputIndex` and the static `verify`, whose result is a `TxEvalState`. -/
structure SignerCalls (TxEvalState : Type) where
  serializeAvailableResolvedData : Signer → BinaryData
  getOutputHash : ScriptSpender → BinaryData
  getOutputIndex : ScriptSpender → Nat
  verify : BinaryData → List (BinaryData × List (Nat × BinaryData)) → Nat → Bool → TxEvalState

/-- `ScriptSpender::getFlags`. -/
def ScriptSpender.getFlags (F : ScriptVerifyFlags) (s : ScriptSpender) : Nat :=
  let flags := F.SCRIPT_VERIFY_SEGWIT
  let flags := if s.isP2SH_ then flags ||| (F.SCRIPT_VERIFY_P2SH ||| F.SCRIPT_VERIFY_P2SH_SHA256)
    else flags
  let flags := if s.isCSV_ then flags ||| F.SCRIPT_VERIFY_CHECKSEQUENCEVERIFY else flags
  let flags := if s.isCLTV_ then flags ||| F.SCRIPT_VERIFY_CHECKLOCKTIMEVERIFY else flags
  flags

/-- The loop of `evaluateSignedState` over the spenders: the UTXO map and the
flag word. -/
def evaluateSpenders {τ : Type} (F : ScriptVerifyFlags) (calls : SignerCalls τ) :
    List ScriptSpender → List (BinaryData × List (Nat × BinaryData)) × Nat →
      List (BinaryData × List (Nat × BinaryData)) × Nat
  | [], st => st
  | spender :: rest, (utxoMap, flags) =>
    let indexMap := (mapFind utxoMap (calls.getOutputHash spender)).getD []
    let indexMap := mapInsert indexMap (calls.getOutputIndex spender) spender.utxo_
    evaluateSpenders F calls rest
      (mapInsert utxoMap (calls.getOutputHash spender) indexMap, flags ||| spender.getFlags F)

/-- The flag word `Signer::evaluateSignedState` passes to `verify`. -/
def Signer.evaluationFlags {τ : Type} (F : ScriptVerifyFlags) (calls : SignerCalls τ)
    (signer : Signer) : Nat :=
  (evaluateSpenders F calls signer.spenders_ ([], 0)).2

/-- `Signer::evaluateSignedState`. -/
def Signer.evaluateSignedState {τ : Type} (F : ScriptVerifyFlags) (calls : SignerCalls τ)
    (signer : Signer) : τ :=
  let txdata := calls.serializeAvailableResolvedData signer
  let r := evaluateSpenders F calls signer.spenders_ ([], 0)
  calls.verify txdata r.1 r.2 true

/-- A flag word contains the flag `flag`: all its bits are set. -/
def hasFlag (flags flag : Nat) : Prop := flags &&& flag = flag

/-- The five flags are bit masks that are not zero and share no bit. -/
def ScriptVerifyFlags.Independent (F : ScriptVerifyFlags) : Prop :=
  [F.SCRIPT_VERIFY_SEGWIT, F.SCRIPT_VERIFY_P2SH, F.SCRIPT_VERIFY_P2SH_SHA256,
    F.SCRIPT_VERIFY_CHECKSEQUENCEVERIFY, F.SCRIPT_VERIFY_CHECKLOCKTIMEVERIFY].Pairwise
      (fun a b => a &&& b = 0) ∧
  ∀ a ∈ [F.SCRIPT_VERIFY_SEGWIT, F.SCRIPT_VERIFY_P2SH, F.SCRIPT_VERIFY_P2SH_SHA256,
    F.SCRIPT_VERIFY_CHECKSEQUENCEVERIFY, F.SCRIPT_VERIFY_CHECKLOCKTIMEVERIFY], a ≠ 0

/-- Flag values for the examples: one bit each. -/
def toyVerifyFlags : ScriptVerifyFlags :=
  { SCRIPT_VERIFY_SEGWIT := 16, SCRIPT_VERIFY_P2SH := 4, SCRIPT_VERIFY_P2SH_SHA256 := 8,
    SCRIPT_VERIFY_CHECKSEQUENCEVERIFY := 2, SCRIPT_VERIFY_CHECKLOCKTIMEVERIFY := 1 }

/-- Calls for the examples: the verifier returns the flag word it is given. -/
def toySignerCalls : SignerCalls Nat :=
  { serializeAvailableResolvedData := fun _ => []
    getOutputHash := fun s => s.utxo_.take 2
    getOutputIndex := fun s => s.utxo_.length
    verify := fun _ _ flags _ => flags }

/-! ## Reads through a write transaction -/

/-- `DBInterface::getDataRef`: the value `dataMap_` holds for the key, an empty
reference when it holds none. -/
def DBInterface.getDataRef (d : DBInterface) (key : BinaryData) : BinaryData :=
  match mapFind d.dataMap_ key with
  | none => []
  | some v => v

/-- The `getDataLbd` lambda of `insertTx`, on the buffer of the transaction it
captured: the operation `keyToDataMap_` indexes for the key; `none` stands for
the `NoDataInDB` it throws when the key is not in the map. `insertVec_` and
`keyToDataMap_` are only changed together, by the insert and erase lambdas, so
the index is one of the vector (`[i]?` has no operation outside it). -/
def WalletIfaceTransaction.getDataLbd (tx : WalletIfaceTransaction) (key : BinaryData) :
    Option InsertData :=
  match mapFind tx.keyToDataMap_ key with
  | none => none
  | some i => tx.insertVec_[i]?

/-- `WalletIfaceTransaction::getDataRef(key)` on the object at `txPtr`, with
`getInsertDataForKey` inlined: a write transaction asks its get lambda first,
which reads the buffer of the transaction it captured (it makes no thread
check), and falls back to the database object when that throws `NoDataInDB`;
a read transaction goes to the database object at once. -/
def World.getDataRef (w : World) (txPtr : Nat) (key : BinaryData) :
    Except WalletInterfaceException BinaryData :=
  match mapFind w.objects txPtr with
  | none => .error .nullTxPtr
  | some obj =>
    let fromDb : Except WalletInterfaceException BinaryData :=
      match mapFind w.dbMap_ obj.dbName_ with
      | none => .error .nullTxPtr
      | some dbPtr => .ok (dbPtr.getDataRef key)
    if obj.tx.commit_ then
      match obj.lbd_ with
      | none => .error .txMissingGetLbd
      | some (_, target) =>
        match mapFind w.objects target with
        | none => .error .nullTxPtr
        | some pobj =>
          match pobj.tx.getDataLbd key with
          | some dataPtr => if !dataPtr.write_ then .ok [] else .ok dataPtr.value_
          | none => fromDb
    else fromDb

/-- The operations of the vector that are the last one on their data key, in
the order of the vector. -/
def lastOps : List InsertData → List InsertData
  | [] => []
  | op :: rest =>
    if rest.any (fun o => decide (o.key_ = op.key_)) then lastOps rest else op :: lastOps rest

/-- One `commitOp` per operation of the list, in order, up to the first
exception. -/
def commitOps (c : Crypto) (ent : Entropy) :
    List InsertData → DBInterface → DBInterface × Option WalletInterfaceException
  | [], d => (d, none)
  | op :: rest, d =>
    match commitOp c ent d op with
    | (d', some e) => (d', some e)
    | (d', none) => commitOps c ent rest d'

/-- The toy session after one transaction wrote `[10]` under `[1,2,3]` and
`[70]` under `[7]`. -/
def toyStoreB : DBInterface :=
  ((({} : WalletIfaceTransaction).calls [.insert [1, 2, 3] [10], .insert [7] [70]]).commit
    toyCrypto toyEntropy toySession).1

/-- A process with `toyStoreB` open as database "wallet" where thread 1 holds
a write transaction (object 100) and a nested one (object 101), after three
calls: `[4] := [12]` through the outermost object, then `[4] := [13]` and the
erase of `[1,2,3]` through the nested one. -/
def toyWorldNested : World :=
  ((((((({ dbMap_ := [("wallet", toyStoreB)] } : World).construct 1 100 "wallet" true).1.construct
    1 101 "wallet" true).1.call 1 100 (.insert [4] [12])).1.call 1 101 (.insert [4] [13])).1.call
      1 101 (.erase [1, 2, 3])).1)

/-! ## Exchange of signer states -/

/-- Modelled from the spec: a slot of a spender's stack (`StackItem`, whose
class is not among the sources): plain data, or the signatures collected for
an M-of-N multisig, by signature index. -/
inductive StackSlot where
  | data (d : BinaryData)
  | sigs (m : Nat) (sigs : List (Nat × BinaryData))
  deriving DecidableEq, Repr

/-- Modelled from the spec: the state of a spender on the wire
(`Codec_SignerState::ScriptSpenderState`, from the protobuf definition that is
not among the sources): "its outpoint, utxo (optional), sequence, sighash, P2SH
flag, legacy stack items, witness stack items, and accumulated signatures", the
stacks by slot as `legacyStack_` and `witnessStack_` of `ScriptSpender` are. -/
structure ScriptSpenderState where
  outpoint : BinaryData
  utxo : Option BinaryData := none
  sequence : Nat := 0xFFFFFFFF
  sigHashType : Nat := 1
  isP2SH : Bool := false
  legacyStack : List (Nat × StackSlot) := []
  witnessStack : List (Nat × StackSlot) := []
  deriving DecidableEq, Repr

/-- Modelled from the spec: the signer state on the wire
(`Codec_SignerState::SignerState`, from the protobuf definition that is not
among the sources): "version, locktime, ordered spenders, ordered recipients". -/
structure SignerState where
  version : Nat
  lockTime : Nat
  spenders : List ScriptSpenderState := []
  recipients : List RecipientState := []
  deriving DecidableEq, Repr

/-- The state of a `Signer` as its constructor leaves it: `version_ = 1`,
`lockTime_ = 0`, no spender, no recipient. -/
def freshSigner : SignerState := { version := 1, lockTime := 0 }

/-- Modelled from the spec: the merge of one filled slot into another, the
slot rule of `ScriptSpender::merge` (declared in `Signer.h`, its body is not
among the sources): "a slot filled with identical data is a no-op; a slot
filled with conflicting data is an error" (`none`). -/
def mergeSame {β : Type} [DecidableEq β] (a b : β) : Option β :=
  if a = b then some a else none

/-- Modelled from the spec: the slot rule on an optional value, such as the
UTXO of a spender: "an empty slot takes the incoming value", filled slots
merge as `mergeSame` has it. -/
def mergeOptional {β : Type} [DecidableEq β] : Option β → Option β → Option (Option β)
  | none, inc => some inc
  | some a, none => some (some a)
  | some a, some b => if a = b then some (some a) else none

/-- Modelled from the spec: the slot-by-slot merge of `ScriptSpender::merge`
(body not among the sources) on two maps in key order, the incoming one
second: an entry whose key the current map does not hold fills the empty
slot; one whose key it holds is merged into the value held by `f`, whose
`none` is a conflict and fails the merge. -/
def mergeMaps {κ β : Type} [DecidableEq κ] [MapKey κ] (f : β → β → Option β) :
    List (κ × β) → List (κ × β) → Option (List (κ × β))
  | cur, [] => some cur
  | cur, (k, v) :: rest =>
    match mapFind cur k with
    | none => mergeMaps f (mapInsert cur k v) rest
    | some c =>
      match f c v with
      | none => none
      | some m => mergeMaps f (mapInsert cur k m) rest

/-- Modelled from the spec: the rule by which a multisig slot of an M-of-N
script puts together the signatures it holds (the first list) and those of the
incoming slot (the second list), both by signature index, in
`ScriptSpender::merge` (body not among the sources); `none` is an error. The
spec says of the rule that "signatures accumulate (up to M for multisig)";
which signatures a slot keeps of more than M, and what becomes of two different
signatures under one index, it does not say. The rule is a parameter. -/
abbrev SignatureRule :=
  Nat → List (Nat × BinaryData) → List (Nat × BinaryData) → Option (List (Nat × BinaryData))

/-- Modelled from the spec: the merge of two filled stack slots in
`ScriptSpender::merge` (body not among the sources). Plain data follows the
slot rule; the signatures of two multisig slots of the same M are put together
by the signature rule. -/
def StackSlot.merge (rule : SignatureRule) : StackSlot → StackSlot → Option StackSlot
  | .data a, .data b => if a = b then some (.data a) else none
  | .sigs m a, .sigs m2 b => if m = m2 then (rule m a b).map (StackSlot.sigs m) else none
  | _, _ => none

/-- Modelled from the spec: `ScriptSpender::merge` (declared in `Signer.h`,
body not among the sources) on the state of the matching spender: the UTXO
and the two stacks merge slot by slot; the spec names no rule for the
sequence, the sighash type and the P2SH flag, the spender keeps its own. -/
def ScriptSpenderState.merge (rule : SignatureRule) (cur inc : ScriptSpenderState) :
    Option ScriptSpenderState :=
  match mergeOptional cur.utxo inc.utxo,
      mergeMaps (StackSlot.merge rule) cur.legacyStack inc.legacyStack,
      mergeMaps (StackSlot.merge rule) cur.witnessStack inc.witnessStack with
  | some u, some l, some w => some { cur with utxo := u, legacyStack := l, witnessStack := w }
  | _, _, _ => none

/-- Modelled from the spec: the merge of a recipient into the one matched by
script in `Signer::deserializeState` (body not among the sources): the
derivation hints of the two sides are put together by public key, "conflicts
error out". -/
def RecipientState.merge (cur inc : RecipientState) : Option RecipientState :=
  match mergeMaps mergeSame cur.bip32paths inc.bip32paths with
  | none => none
  | some paths => some { cur with bip32paths := paths }

/-- The first entry of the list under the key `k`, with the entries before it
and those after it. -/
def splitAtKey {α κ : Type} [DecidableEq κ] (key : α → κ) (k : κ) :
    List α → Option (List α × α × List α)
  | [] => none
  | x :: rest =>
    if key x = k then some ([], x, rest)
    else
      match splitAtKey key k rest with
      | none => none
      | some (a, c, b) => some (x :: a, c, b)

/-- Modelled from the spec: the merge of an ordered list of incoming entries
(spenders matched by outpoint, recipients matched by script) into the list of
the signer, in `Signer::deserializeState` (declared in `Signer.h`, body not
among the sources). `done` holds the entries of the signer up to the last
match, `todo` those after it. An incoming entry that matches an entry of
`todo` is merged into it; one that matches nothing is appended, "in
input-order"; one that matches an entry of `done` comes in another order than
the signer has it: "merging a state that reorders existing inputs/outputs is
rejected". -/
def mergeOrdered {α κ : Type} [DecidableEq κ] (key : α → κ) (merge : α → α → Option α) :
    List α → List α → List α → Option (List α)
  | done, todo, [] => some (done ++ todo)
  | done, todo, x :: rest =>
    if done.any (fun y => decide (key y = key x)) then none
    else
      match splitAtKey key (key x) todo with
      | none => mergeOrdered key merge done (todo ++ [x]) rest
      | some (a, c, b) =>
        match merge c x with
        | none => none
        | some m => mergeOrdered key merge (done ++ a ++ [m]) b rest

/-- Modelled from the spec: `Signer::deserializeState` (declared in
`Signer.h`, body not among the sources), on states: the incoming state is
merged into the signer, spenders matched by outpoint and recipients by script;
the signer takes the version and the lock time of the state it reads. `none`
is the error of a conflict or of a reordering. -/
def SignerState.deserializeState (rule : SignatureRule) (cur inc : SignerState) :
    Option SignerState :=
  match mergeOrdered ScriptSpenderState.outpoint (ScriptSpenderState.merge rule) [] cur.spenders
      inc.spenders,
    mergeOrdered RecipientState.data RecipientState.merge [] cur.recipients inc.recipients with
  | some sp, some rc =>
    some { version := inc.version, lockTime := inc.lockTime, spenders := sp, recipients := rc }
  | _, _ => none

/-- Two signer states of the same transaction: same version and lock time,
the same inputs (outpoint, sequence, sighash type, P2SH flag) in the same
order and the same output scripts in the same order. -/
structure SameTransaction (s1 s2 : SignerState) : Prop where
  version : s1.version = s2.version
  lockTime : s1.lockTime = s2.lockTime
  inputs : List.Forall₂ (fun a b : ScriptSpenderState => a.outpoint = b.outpoint ∧
    a.sequence = b.sequence ∧ a.sigHashType = b.sigHashType ∧ a.isP2SH = b.isP2SH)
      s1.spenders s2.spenders
  outputs : List.Forall₂ (fun a b : RecipientState => a.data = b.data)
    s1.recipients s2.recipients

/-- Two slots that the two states hold under one key are within M: multisig
slots of the same M hold no two different signatures under one index and
together no more than M signatures. -/
def StackSlot.WithinM : StackSlot → StackSlot → Prop
  | .sigs m a, .sigs m2 b => m = m2 → ∃ u, mergeMaps mergeSame a b = some u ∧ u.length ≤ m
  | _, _ => True

/-- Every pair of slots that two stacks hold under one key is within M. -/
def StacksWithinM (x y : List (Nat × StackSlot)) : Prop :=
  ∀ k a b, mapFind x k = some a → mapFind y k = some b → a.WithinM b

/-- Two signer states whose signatures are compatible: input by input, the
multisig slots the two hold under one key agree on the signatures both hold
and hold together no more than M signatures. -/
def SignaturesWithinM (s1 s2 : SignerState) : Prop :=
  List.Forall₂ (fun a b : ScriptSpenderState =>
    StacksWithinM a.legacyStack b.legacyStack ∧ StacksWithinM a.witnessStack b.witnessStack)
    s1.spenders s2.spenders

/-- Another signature rule for the examples: a slot that holds M signatures
takes no more; else as `toySignatureRule`. -/
def toySignatureRuleFull : SignatureRule := fun m cur inc =>
  if m ≤ cur.length then
    match mergeMaps mergeSame cur inc with
    | none => none
    | some u => if u.length ≤ m then some u else some cur
  else (mergeMaps mergeSame cur inc).map (fun u => u.take m)

/-- The state of party A of a 2-of-3 multisig spend: one input, with its UTXO,
the witness script in slot 0 and A's signature, under index 0, in slot 1; one
output. -/
def toySignerStateA : SignerState :=
  { version := 1, lockTime := 0,
    spenders := [{ outpoint := [7, 7, 0, 0, 0, 0], utxo := some [1, 0x51],
                   witnessStack := [(0, .data [0xAA]), (1, .sigs 2 [(0, [0x30, 1])])] }],
    recipients := [{ data := [5, 0, 0, 0, 0, 0, 0, 0, 1, 0x51] }] }

/-- The content of the `BinaryWriter` of `AccountType_BIP32::getAccountID` when
it is hashed: the input of `getHash160`. -/
def AccountType_BIP32.hashInput (t : AccountType_BIP32) : BinaryData :=
  let bw := t.publicRoot_
  -- account soft derivation paths
  let bw := bw ++ (t.nodes_.map WRITE_UINT32_BE).flatten
  -- accounts structure
  let bw := if t.outerAccount_.length ≠ 0 then bw ++ t.outerAccount_ else bw
  let bw := if t.innerAccount_.length ≠ 0 then bw ++ t.innerAccount_ else bw
  -- address types
  let bw := bw ++ (t.addressTypes_.map WRITE_UINT32_BE).flatten
  -- default address
  let bw := bw ++ put_uint32_t t.defaultAddressEntryType_
  -- main flag
  bw ++ [if t.isMain_ then 1 else 0]

/-- A BIP32 account type on the public root `02 07`: the node 1, the outer
account 2, the inner account 3, the address type 4, which is the default. -/
def toyBIP32NodeOne : AccountType_BIP32 :=
  { publicRoot_ := [2, 7], nodes_ := [1], outerAccount_ := [0, 0, 0, 2],
    innerAccount_ := [0, 0, 0, 3], addressTypes_ := [4], defaultAddressEntryType_ := 4,
    isMain_ := true }

/-- A BIP32 account type on the same public root: no node, the outer account
1, the inner account 2, the address types 3 and 4, with 4 the default. -/
def toyBIP32NoNode : AccountType_BIP32 :=
  { publicRoot_ := [2, 7], nodes_ := [], outerAccount_ := [0, 0, 0, 1],
    innerAccount_ := [0, 0, 0, 2], addressTypes_ := [3, 4], defaultAddressEntryType_ := 4,
    isMain_ := true }

/-! ## ScriptRecipient.cpp: size estimates -/

/-- The `getSize` of the recipient classes. -/
def RecipientKind.getSize : RecipientKind → Nat
  | .P2PKH _ _ => 34
  | .P2PK pubkey _ => 10 + pubkey.length
  | .P2WPKH _ _ => 31
  | .P2SH _ _ => 32
  | .P2WSH _ _ => 43
  | .OPRETURN message =>
    let size := message.length
    let size := if size > 75 then size + 2 else if size > 0 then size + 1 else size
    -- 8 for value, one for op_return
    size + 9
  | .Universal binScript _ =>
    let varint_len := if binScript.length ≥ 0xfd then 3 else 1
    8 + binScript.length + varint_len

/-! ## ScriptRecipient.cpp: what `fromScript` accepts -/

/-- An output of 1000 satoshis whose 25-byte script starts as the P2PKH
template does (`OP_DUP OP_HASH160`, the push of a 20-byte hash) and ends with
`OP_EQUAL OP_NOP` where the template has `OP_EQUALVERIFY OP_CHECKSIG`. -/
def toyOutputOtherTail : BinaryData :=
  put_uint64_t 1000 ++ [25, 0x76, 0xa9, 20] ++ List.replicate 20 7 ++ [0x87, 0x61]

/-- An output of 1000 satoshis whose script starts as the native P2WPKH
template does and goes on for three more bytes. -/
def toyOutputLongTail : BinaryData :=
  put_uint64_t 1000 ++ [22, 0, 20] ++ List.replicate 20 7 ++ [9, 9, 9]

/-! ## BlockDataManagerConfig.cpp: stripQuotes -/

/-- What a call on a `std::string` can end in besides its value: a read
outside the character array of the string, which is undefined, or the
`std::out_of_range` of `substr`. -/
inductive StringFault where
  | readOutsideString
  | outOfRange
  deriving DecidableEq, Repr

/-- The read of `input.c_str()[i]` for a `size_t` index `i`; a `std::string`
is the list of its characters (bytes). The array `c_str()` holds the
characters of the string and the terminator at index `size()`; an index
beyond it is outside the array. -/
def cStrAt (input : List Nat) (i : Nat) : Except StringFault Nat :=
  if i < input.length then .ok (input.getD i 0)
  else if i = input.length then .ok 0
  else .error .readOutsideString

/-- `std::string::substr(pos, count)`. -/
def substr (input : List Nat) (pos count : Nat) : Except StringFault (List Nat) :=
  if pos > input.length then .error .outOfRange
  else .ok ((input.drop pos).take count)

/-- `--x` on a `size_t`. -/
def decrSizeT (x : Nat) : Nat := (x + 2 ^ 64 - 1) % 2 ^ 64

/-- `BlockDataManagerConfig::stripQuotes`; the double quote is the character
0x22, the single quote 0x27. `first_char` and `last_char` are references: the
characters are read where they are compared. -/
def stripQuotes (input : List Nat) : Except StringFault (List Nat) :=
  let start := 0
  let len := input.length
  match cStrAt input 0 with
  | .error e => .error e
  | .ok first_char =>
    let sl : Nat × Nat :=
      if first_char = 0x22 ∨ first_char = 0x27 then (1, decrSizeT len) else (start, len)
    match cStrAt input (decrSizeT len) with
    | .error e => .error e
    | .ok last_char =>
      let len3 := if last_char = 0x22 ∨ last_char = 0x27 then decrSizeT sl.2 else sl.2
      substr input sl.1 len3

/-- `BlockDataManagerConfig::getKeyValFromLine`: the key is read up to the
delimiter; the value, the rest of the line up to a line feed, is read only
when the stream is still good, which it is not after a key that ran to the end
of the line. -/
def getKeyValFromLine (line : List Nat) (delim : Nat) : List Nat × List Nat :=
  let key := line.takeWhile (fun ch => decide (ch ≠ delim))
  if key.length < line.length then
    (key, (line.drop (key.length + 1)).takeWhile (fun ch => decide (ch ≠ 10)))
  else (key, [])

/-- The string as the spec has it stripped: without its first character when
that is a quote, and then without its last character when that is a quote. -/
def specStripQuotes (s : List Nat) : List Nat :=
  let isQuote : Nat → Bool := fun ch => decide (ch = 0x22 ∨ ch = 0x27)
  let s1 := match s with
    | [] => []
    | ch :: rest => if isQuote ch then rest else ch :: rest
  match s1.getLast? with
  | some ch => if isQuote ch then s1.dropLast else s1
  | none => s1

/-- The characters of `testnet`, what is left of the argument `--testnet` when
`parseArgs` hands it to `getKeyValFromLine`. -/
def toyFlagTestnet : List Nat := [0x74, 0x65, 0x73, 0x74, 0x6e, 0x65, 0x74]

/-! ## Accounts.cpp: the asset loop of loadFromDisk on the bare asset-entry key -/

/-- The store of `toyAssetAccountUnused` with one more record, under the
asset-entry prefix followed by the full ID of the account and nothing else. -/
def toyDiskBareKey : Disk :=
  mapInsert (toyAssetAccountUnused.commit toyPrefixes toyCodec []).2
    [0x8A, 0, 0, 0, 7, 0, 0, 0, 1] [9]

/-! ## Accounts.cpp: peekNextChangeAddress -/

/-- `AddressAccount::peekNextChangeAddress(aeType)`: the address returned or
the exception thrown, with the account and the store as the call leaves them.
The asset is taken with `getNewAsset()`. -/
def AddressAccount.peekNextChangeAddress (AddressEntryType_Default : Nat) (p : DbPrefixes)
    (cd : AssetCodec) (aa : AddressAccount) (disk : Disk) (aeType : Nat) :
    Except AccountException AddressEntry × AddressAccount × Disk :=
  match mapFind aa.assetAccounts_ aa.innerAccount_ with
  | none => (.error .invalidAssetAccount, aa, disk)
  | some acc =>
    let aeType := if aeType = AddressEntryType_Default then aa.defaultAddressEntryType_ else aeType
    if aeType ∉ aa.addressTypes_ then (.error .invalidAddressTypeForAccount, aa, disk)
    else
      let r := acc.getNewAsset p cd disk
      let aa1 := { aa with assetAccounts_ := mapInsert aa.assetAccounts_ aa.innerAccount_ r.2.1 }
      match r.1 with
      | .error e => (.error e, aa1, r.2.2)
      | .ok assetPtr => (.ok { asset := assetPtr, type := aeType }, aa1, r.2.2)

/-- The store of `toyAssetAccountUnused`, the inner account of
`toyAddressAccountUnused`, after its commit. -/
def toyDiskUnused : Disk := (toyAssetAccountUnused.commit toyPrefixes toyCodec []).2

/-! ## Accounts.cpp: extendPublicChainToIndex -/

/-- `AssetAccount::getLastComputedIndex`: -1 for an account without assets,
else the last key of the asset map, as an `int`. -/
def AssetAccount.getLastComputedIndex (a : AssetAccount) : Int :=
  match a.assets_.getLast? with
  | none => -1
  | some last => toInt32 last.1

/-- `AssetAccount::extendPublicChainToIndex(count)`. The comparison of the
`int` with the `unsigned` and the subtraction are done on 32-bit unsigned
values. -/
def AssetAccount.extendPublicChainToIndex (p : DbPrefixes) (cd : AssetCodec) (a : AssetAccount)
    (disk : Disk) (count : Nat) : Except AccountException (AssetAccount × Disk) :=
  let lastComputedIndex : Nat := (max a.getLastComputedIndex 0).toNat
  if lastComputedIndex > count then .ok (a, disk)
  else
    let toCompute := (count + 2 ^ 32 - lastComputedIndex) % 2 ^ 32
    a.extendPublicChain p cd disk toCompute

/-- Every asset of the map is kept under its own index. -/
def OwnIndex (m : List (Nat × AssetEntry)) : Prop := ∀ x ∈ m, x.2.index_ = x.1

/-- `AssetAccount::getLastAssetWithPrivateKey`: the last asset of the map that
has a private key; `none` stands for the `runtime_error` "no asset with
private keys". -/
def AssetAccount.getLastAssetWithPrivateKey (a : AssetAccount) : Option AssetEntry :=
  (a.assets_.reverse.find? (fun x => x.2.hasPrivateKey)).map Prod.snd

/-- `AssetAccount::extendPrivateChain(ddc, count)`: the exception of
`getLastAssetWithPrivateKey` is caught and leaves `topAsset` null. -/
def AssetAccount.extendPrivateChain (derPriv : PrivateDerivation) (p : DbPrefixes)
    (cd : AssetCodec) (a : AssetAccount) (disk : Disk) (count : Nat) :
    Except AccountException (AssetAccount × Disk) :=
  let topAsset := a.getLastAssetWithPrivateKey
  a.extendPrivateChainFrom derPriv p cd disk topAsset count

/-- `AssetAccount::extendPrivateChainToIndex(ddc, id)`. `topIndex` is an `int`;
the comparison with the `unsigned` `id` and the subtraction are done on 32-bit
unsigned values. -/
def AssetAccount.extendPrivateChainToIndex (derPriv : PrivateDerivation) (p : DbPrefixes)
    (cd : AssetCodec) (a : AssetAccount) (disk : Disk) (id : Nat) :
    Except AccountException (AssetAccount × Disk) :=
  let topAsset := a.getLastAssetWithPrivateKey
  let topIndex : Int :=
    match topAsset with
    | some t => toInt32 t.index_
    | none => 0
  if id > toUInt32 topIndex then
    let count := (id + 2 ^ 32 - toUInt32 topIndex) % 2 ^ 32
    a.extendPrivateChainFrom derPriv p cd disk topAsset count
  else .ok (a, disk)

/-- In the words of the spec: the derivation scheme returns one asset for each
requested index: a list it returns for the indices from `start` to `stop` has
one asset per index, in order. -/
def DerivationScheme.YieldsRequested (ds : DerivationScheme) : Prop :=
  ∀ ap start stop l, ds.extendPublicChain ap start stop = .ok l →
    l.map AssetEntry.index_ = List.range' start (stop + 1 - start)

/-- In the words of the spec: the private derivation returns one asset for each
requested index. -/
def PrivateYieldsRequested (derPriv : PrivateDerivation) : Prop :=
  ∀ ap start stop l, derPriv ap start stop = .ok l →
    l.map AssetEntry.index_ = List.range' start (stop + 1 - start)

/-- An asset account as `AddressAccount::make_new` creates it: with its root,
at the root index, and no asset (the BIP32 and ECDH types), or with a null
root and the first derived asset inserted under index 0 (the Armory legacy
type: "no root asset for legacy derivation scheme, using first entry
instead"). -/
def AssetAccount.Created (a : AssetAccount) : Prop :=
  (a.assets_ = [] ∧ ∃ r, a.root_ = some r ∧ r.index_ = ROOT_ASSETENTRY_ID) ∨
  (a.root_ = none ∧ ∃ e, a.assets_ = [(0, e)] ∧ e.index_ = 0)

/-- An asset account as `make_new` creates it for the Armory legacy type: no
root, the first derived asset under index 0. -/
def toyAssetAccountLegacy : AssetAccount :=
  { toyAssetAccount with root_ := none, assets_ := [(0, toyAsset [0, 0, 0, 7, 0, 0, 0, 1] 0)] }

/-- One operation on an asset account: the account and the store before and
after a call of `extendPublicChain`, `extendPublicChainToIndex`,
`extendPrivateChain`, `extendPrivateChainToIndex` that returns, or of
`getNewAsset`, `peekNextAsset`, `fillPrivateKey`, whatever its outcome. -/
inductive AssetAccount.Step (single : AssetEntry → Bool) (derPriv : PrivateDerivation)
    (p : DbPrefixes) (cd : AssetCodec) : AssetAccount × Disk → AssetAccount × Disk → Prop where
  | extendPublicChain (a : AssetAccount) (disk : Disk) (count : Nat) (s : AssetAccount × Disk) :
      a.extendPublicChain p cd disk count = .ok s → Step single derPriv p cd (a, disk) s
  | extendPublicChainToIndex (a : AssetAccount) (disk : Disk) (count : Nat)
      (s : AssetAccount × Disk) :
      a.extendPublicChainToIndex p cd disk count = .ok s → Step single derPriv p cd (a, disk) s
  | extendPrivateChain (a : AssetAccount) (disk : Disk) (count : Nat) (s : AssetAccount × Disk) :
      a.extendPrivateChain derPriv p cd disk count = .ok s → Step single derPriv p cd (a, disk) s
  | extendPrivateChainToIndex (a : AssetAccount) (disk : Disk) (id : Nat)
      (s : AssetAccount × Disk) :
      a.extendPrivateChainToIndex derPriv p cd disk id = .ok s →
      Step single derPriv p cd (a, disk) s
  | getNewAsset (a : AssetAccount) (disk : Disk) :
      Step single derPriv p cd (a, disk) (a.getNewAsset p cd disk).2
  | peekNextAsset (a : AssetAccount) (disk : Disk) :
      Step single derPriv p cd (a, disk) (a.peekNextAsset p cd disk).2
  | fillPrivateKey (a : AssetAccount) (disk : Disk) (id : BinaryData) :
      Step single derPriv p cd (a, disk) (a.fillPrivateKey single derPriv p cd disk id).2

/-- The states of an asset account reachable from the account `a0` over the
store `d0` through the operations of `Step`. -/
inductive AssetAccount.Reachable (single : AssetEntry → Bool) (derPriv : PrivateDerivation)
    (p : DbPrefixes) (cd : AssetCodec) (a0 : AssetAccount) (d0 : Disk) :
    AssetAccount × Disk → Prop where
  | created : Reachable single derPriv p cd a0 d0 (a0, d0)
  | step (s t : AssetAccount × Disk) :
      Reachable single derPriv p cd a0 d0 s → AssetAccount.Step single derPriv p cd s t →
      Reachable single derPriv p cd a0 d0 t

/-- What the operations keep: the indices of the asset map are the first `n`
numbers for some `n`, every asset is under its own index, a root the account
has is at the root index, and the derivation scheme is the one the account was
created with. -/
def AssetAccount.SegInv (a0 a : AssetAccount) : Prop :=
  (∃ n, a.assets_.map Prod.fst = List.range n) ∧ OwnIndex a.assets_ ∧
  (∀ r, a.root_ = some r → r.index_ = ROOT_ASSETENTRY_ID) ∧ a.derScheme_ = a0.derScheme_

/-- A state of the 2-of-3 spend of the examples whose slot 1 holds the
signatures under the indices 1 and 2. -/
def toySignerStateTwoSigs : SignerState :=
  { version := 1, lockTime := 0,
    spenders := [{ outpoint := [7, 7, 0, 0, 0, 0],
                   witnessStack := [(1, .sigs 2 [(1, [0x30, 3]), (2, [0x30, 2])])] }],
    recipients := [{ data := [5, 0, 0, 0, 0, 0, 0, 0, 1, 0x51] }] }

/-! # Properties -/

/-! ## Reader and writer lemmas -/

theorem READ_LE_WRITE_LE (w n : Nat) : READ_LE (WRITE_LE w n) = n % 256 ^ w := by
  induction w generalizing n with
  | zero => simp [WRITE_LE, READ_LE, Nat.mod_one]
  | succ w ih =>
    simp only [WRITE_LE, READ_LE, ih]
    rw [pow_succ, Nat.mul_comm (256 ^ w) 256, Nat.mod_mul]

theorem WRITE_LE_length (w n : Nat) : (WRITE_LE w n).length = w := by
  induction w generalizing n with
  | zero => rfl
  | succ w ih => simp [WRITE_LE, ih]

theorem get_BinaryData_append (a b : BinaryData) :
    get_BinaryData a.length (a ++ b) = some (a, b) := by
  simp [get_BinaryData]

theorem get_BinaryData_append_of_length {n : Nat} (a b : BinaryData) (h : a.length = n) :
    get_BinaryData n (a ++ b) = some (a, b) := by
  subst h; exact get_BinaryData_append a b

theorem get_var_int_put_var_int (n : Nat) (rest : BinaryData) (h : n < 2 ^ 64) :
    get_var_int (put_var_int n ++ rest) = some (n, rest) := by
  unfold put_var_int
  split_ifs with h1 h2 h3
  · simp [get_var_int, h1]
  · have hl : (WRITE_LE 2 n).length = 2 := WRITE_LE_length 2 n
    simp only [get_var_int, List.cons_append]
    simp [get_BinaryData_append_of_length _ rest hl, READ_LE_WRITE_LE]
    omega
  · have hl : (WRITE_LE 4 n).length = 4 := WRITE_LE_length 4 n
    simp only [get_var_int, List.cons_append]
    simp [get_BinaryData_append_of_length _ rest hl, READ_LE_WRITE_LE]
    omega
  · have hl : (WRITE_LE 8 n).length = 8 := WRITE_LE_length 8 n
    simp only [get_var_int, List.cons_append]
    simp [get_BinaryData_append_of_length _ rest hl, READ_LE_WRITE_LE]
    omega

theorem get_BinaryData_self (a : BinaryData) : get_BinaryData a.length a = some (a, []) := by
  simp [get_BinaryData]

/-- What `readDataPacket` returns on a packet whose plaintext is known. -/
theorem readDataPacket_createDataPacket (c : Crypto) (hc : c.Sound)
    (dbKey dataKey dataVal macKey decrPrivKey localPrivKey iv : BinaryData)
    (hiv : iv.length = 16) (hk : dataKey.length < 2 ^ 64) (hv : dataVal.length < 2 ^ 64) :
    readDataPacket c dbKey
        (createDataPacket c dbKey dataKey dataVal (c.ComputePublicKey decrPrivKey) macKey
          localPrivKey iv)
        decrPrivKey macKey
      = .ok (dataKey, dataVal) := by
  have h33 := hc.pub_length localPrivKey
  unfold readDataPacket createDataPacket
  simp only [List.append_assoc]
  rw [get_BinaryData_append_of_length _ _ h33]
  simp only []
  rw [get_BinaryData_append_of_length _ _ (show iv.length = AES_BLOCK_SIZE from hiv)]
  simp only []
  rw [hc.ecdh localPrivKey decrPrivKey, hc.decrypt_encrypt]
  simp only []
  rw [get_BinaryData_append_of_length _ _ (hc.hmac_length _ _)]
  simp only []
  rw [get_var_int_put_var_int _ _ hk]
  simp only []
  rw [get_BinaryData_append]
  simp only []
  rw [get_var_int_put_var_int _ _ hv]
  simp only []
  rw [get_BinaryData_self]
  simp only [List.length_nil, ne_eq, not_true_eq_false, ↓reduceIte, List.length_append,
    hc.hmac_length]
  have hdrop : ∀ (h x : BinaryData), h.length = 32 → (h ++ x).drop 32 = x := by
    intro h x hl; rw [← hl]; exact List.drop_left _ _
  rw [hdrop _ _ (hc.hmac_length _ _)]
  rw [List.take_of_length_le (by simp)]
  simp [List.append_assoc]

/-! ## Map lemmas -/

section MapLemmas

variable {κ β : Type} [DecidableEq κ] [MapKey κ]

theorem mapFind_mapInsert_self (m : List (κ × β)) (k : κ) (v : β) :
    mapFind (mapInsert m k v) k = some v := by
  induction m with
  | nil => simp [mapInsert, mapFind]
  | cons e t ih =>
    obtain ⟨k', v'⟩ := e
    simp only [mapInsert]
    split_ifs with h1 h2
    · simp [mapFind]
    · simp [mapFind]
    · simp [mapFind, h1, ih]

theorem mapFind_mapInsert_ne (m : List (κ × β)) (k k2 : κ) (v : β) (h : k ≠ k2) :
    mapFind (mapInsert m k v) k2 = mapFind m k2 := by
  induction m with
  | nil => simp [mapInsert, mapFind, h]
  | cons e t ih =>
    obtain ⟨k', v'⟩ := e
    simp only [mapInsert]
    split_ifs with h1 h2
    · subst h1; simp [mapFind, h]
    · simp [mapFind, h]
    · simp [mapFind, ih]

omit [MapKey κ] in
theorem mapFind_mapErase_self (m : List (κ × β)) (k : κ) : mapFind (mapErase m k) k = none := by
  induction m with
  | nil => simp [mapErase, mapFind]
  | cons e t ih =>
    obtain ⟨k', v'⟩ := e
    by_cases h : k' = k
    · simpa [mapErase, h] using ih
    · simpa [mapErase, h, mapFind] using ih

omit [MapKey κ] in
theorem mapFind_mapErase_ne (m : List (κ × β)) (k k2 : κ) (h : k ≠ k2) :
    mapFind (mapErase m k) k2 = mapFind m k2 := by
  induction m with
  | nil => simp [mapErase, mapFind]
  | cons e t ih =>
    obtain ⟨k', v'⟩ := e
    by_cases h1 : k' = k
    · subst h1
      have : mapFind (mapErase t k') k2 = mapFind t k2 := ih
      simp [mapErase, mapFind, h] at this ⊢
      exact this
    · have : mapFind (mapErase t k) k2 = mapFind t k2 := ih
      simp only [mapErase, ne_eq, decide_not, h1, not_false_eq_true, decide_True,
        List.filter_cons_of_pos, Bool.not_false, decide_False, mapFind] at this ⊢
      rw [this]

omit [MapKey κ] in
theorem mapFind_eq_some_mem {m : List (κ × β)} {k : κ} {v : β} (h : mapFind m k = some v) :
    (k, v) ∈ m := by
  induction m with
  | nil => simp [mapFind] at h
  | cons e t ih =>
    obtain ⟨k', v'⟩ := e
    simp only [mapFind] at h
    split_ifs at h with h1
    · subst h1; simp at h; subst h; simp
    · exact List.mem_cons_of_mem _ (ih h)

omit [MapKey κ] in
theorem mapFind_eq_none_iff {m : List (κ × β)} {k : κ} :
    mapFind m k = none ↔ ∀ e ∈ m, e.1 ≠ k := by
  induction m with
  | nil => simp [mapFind]
  | cons e t ih =>
    obtain ⟨k', v'⟩ := e
    simp only [mapFind]
    split_ifs with h1
    · simp [h1]
    · simp [ih, h1]

end MapLemmas

theorem READ_WRITE_UINT32_BE (k : Nat) (h : k < 2 ^ 32) :
    READ_UINT32_BE (WRITE_UINT32_BE k) = k := by
  unfold READ_UINT32_BE WRITE_UINT32_BE
  have hl : (WRITE_LE 4 k).reverse.length = 4 := by simp [WRITE_LE_length]
  rw [List.take_of_length_le (by omega), List.reverse_reverse, READ_LE_WRITE_LE]
  exact Nat.mod_eq_of_lt (by simpa using h)

theorem WRITE_UINT32_BE_length (k : Nat) : (WRITE_UINT32_BE k).length = 4 := by
  simp [WRITE_UINT32_BE, WRITE_LE_length]

theorem WRITE_UINT32_BE_inj {a b : Nat} (ha : a < 2 ^ 32) (hb : b < 2 ^ 32)
    (h : WRITE_UINT32_BE a = WRITE_UINT32_BE b) : a = b := by
  have := congrArg READ_UINT32_BE h
  rwa [READ_WRITE_UINT32_BE a ha, READ_WRITE_UINT32_BE b hb] at this

theorem toInt32_of_lt (k : Nat) (h : k < 2 ^ 31) : toInt32 k = (k : Int) := by
  unfold toInt32
  have : k % 2 ^ 32 = k := Nat.mod_eq_of_lt (by omega)
  rw [this, if_pos h]

theorem mem_foldl_setInsert (l gaps : List Nat) (g : Nat) :
    g ∈ l.foldl setInsert gaps ↔ g ∈ gaps ∨ g ∈ l := by
  induction l generalizing gaps with
  | nil => simp
  | cons a t ih =>
    simp only [List.foldl_cons, ih, setInsert, List.mem_cons]
    split_ifs with h
    · constructor
      · rintro (h1 | h1)
        · exact Or.inl h1
        · exact Or.inr (Or.inr h1)
      · rintro (h1 | h1 | h1)
        · exact Or.inl h1
        · subst h1; exact Or.inl h
        · exact Or.inr h1
    · simp only [List.mem_append, List.mem_singleton]
      tauto

theorem mem_setErase (s : List Nat) (g x : Nat) : x ∈ setErase s g ↔ x ∈ s ∧ x ≠ g := by
  simp [setErase]

theorem mem_markGaps (prev : Int) (k : Nat) (gaps : List Nat) (hp : -1 ≤ prev)
    (hk : k < 2 ^ 31) (hlt : prev < k) (g : Nat) :
    g ∈ markGaps prev (k : Int) gaps ↔ g ∈ gaps ∨ (prev < (g : Int) ∧ g < k) := by
  unfold markGaps
  split_ifs with h
  · simp only [mem_foldl_setInsert, List.mem_range'_1]
    have h1 : toUInt32 (prev + 1) = (prev + 1).toNat := by
      unfold toUInt32
      rw [Int.emod_eq_of_lt (by omega) (by omega)]
    have h2 : toUInt32 (k : Int) = k := by
      unfold toUInt32
      rw [Int.emod_eq_of_lt (by omega) (by omega)]
      simp
    rw [h1, h2]
    constructor
    · rintro (h3 | ⟨h3, h4⟩)
      · exact Or.inl h3
      · right; omega
    · rintro (h3 | ⟨h3, h4⟩)
      · exact Or.inl h3
      · right; omega
  · constructor
    · exact Or.inl
    · rintro (h3 | ⟨h3, h4⟩)
      · exact h3
      · exfalso; simp at h; omega

/-- `processMetaDataPacket` is the parse `classifyMeta` followed by the effect
of the entry parsed. -/
theorem processMetaDataPacket_eq (c : Crypto) (saltedRoot : BinaryData) (s : LoadState)
    (packet : BinaryData) :
    processMetaDataPacket c saltedRoot s packet =
      match classifyMeta packet with
      | .error e => .error e
      | .ok (.placeholder g) =>
        if g ∈ s.gaps then .ok (some { s with gaps := setErase s.gaps g })
        else .error .erasurePlaceHolderForMissingGap
      | .ok .cycle =>
        match computeKeyPair c saltedRoot (incr32 s.decrKeyCounter) with
        | .error e => .error e
        | .ok (priv, mac) =>
          .ok (some { s with decrKeyCounter := incr32 s.decrKeyCounter,
                             decrPrivKey := priv, macKey := mac })
      | .ok .unknown => .ok none := by
  unfold processMetaDataPacket classifyMeta
  simp only []
  repeat' split
  all_goals (try simp_all)

theorem loadStep_eq (c : Crypto) (saltedRoot : BinaryData) (s : LoadState) (k : Nat)
    (val : BinaryData) (hk : k < 2 ^ 31) :
    loadStep c saltedRoot s k val =
      match readDataPacket c (WRITE_UINT32_BE k) val s.decrPrivKey s.macKey with
      | .error e => .error e
      | .ok (dk, dv) =>
        if dk = [] then
          match classifyMeta dv with
          | .error e => .error e
          | .ok (.placeholder g) =>
            if g ∈ (markState s k).gaps then
              .ok (closeGap (markState s k) g)
            else .error .erasurePlaceHolderForMissingGap
          | .ok .cycle =>
            match computeKeyPair c saltedRoot (incr32 s.decrKeyCounter) with
            | .error e => .error e
            | .ok (priv, mac) =>
              .ok (cycleKeys (markState s k) priv mac)
          | .ok .unknown => .error .emptyDataKey
        else
          match mapFind s.dataKeyToDbKey_ dk with
          | some _ => .error .duplicatedDbEntry
          | none => .ok (addData (markState s k) k dk dv) := by
  unfold loadStep
  simp only [READ_WRITE_UINT32_BE k (by omega), toInt32_of_lt k hk]
  cases hr : readDataPacket c (WRITE_UINT32_BE k) val s.decrPrivKey s.macKey with
  | error e => simp
  | ok dataPair =>
    obtain ⟨dk, dv⟩ := dataPair
    simp only [List.length_eq_zero]
    by_cases hdk : dk = []
    · simp only [hdk, if_true, processMetaDataPacket_eq]
      cases hcl : classifyMeta dv with
      | error e => simp
      | ok m =>
        cases m with
        | placeholder g =>
          simp only [markState]
          split_ifs <;> rfl
        | cycle =>
          simp only [markState]
          cases computeKeyPair c saltedRoot (incr32 s.decrKeyCounter) with
          | error e => rfl
          | ok kp => rfl
        | unknown => rfl
    · simp only [hdk, if_false]
      cases mapFind s.dataKeyToDbKey_ dk with
      | none => rfl
      | some x => rfl

theorem mem_markState_gaps {s : LoadState} (hs : LoadInv s) {k : Nat} (hk : k < 2 ^ 31)
    (hlt : s.prevDbKey < k) (g : Nat) :
    g ∈ (markState s k).gaps ↔ Open s g ∧ g < k := by
  simp only [markState, mem_markGaps _ _ _ hs.prev_ge hk hlt, Open]
  constructor
  · rintro (h | ⟨h1, h2⟩)
    · have := hs.gaps_below g h
      exact ⟨Or.inl h, by omega⟩
    · exact ⟨Or.inr h1, h2⟩
  · rintro ⟨h | h, h2⟩
    · exact Or.inl h
    · exact Or.inr ⟨h, h2⟩

theorem open_markState {s : LoadState} (hs : LoadInv s) {k : Nat} (hk : k < 2 ^ 31)
    (hlt : s.prevDbKey < k) (g : Nat) :
    Open (markState s k) g ↔ Open s g ∧ g ≠ k := by
  unfold Open
  rw [mem_markState_gaps hs hk hlt]
  simp only [markState, Open]
  constructor
  · rintro (⟨h1, h2⟩ | h)
    · exact ⟨h1, by omega⟩
    · exact ⟨Or.inr (by omega), by omega⟩
  · rintro ⟨h | h, h2⟩
    · have := hs.gaps_below g h
      exact Or.inl ⟨Or.inl h, by omega⟩
    · by_cases h3 : g < k
      · exact Or.inl ⟨Or.inr h, h3⟩
      · exact Or.inr (by omega)

theorem loadInv_markState {s : LoadState} (hs : LoadInv s) {k : Nat} (hk : k < 2 ^ 31)
    (hlt : s.prevDbKey < k) : LoadInv (markState s k) := by
  refine ⟨?_, ?_, ?_, ?_⟩
  · simp [markState]; omega
  · simp [markState]; omega
  · intro g hg
    have := (mem_markState_gaps hs hk hlt g).1 hg
    simp [markState]; omega
  · exact hs.dom_eq

/-- The three ways an iteration of the load loop succeeds. -/
theorem loadStep_cases {c : Crypto} {saltedRoot : BinaryData} {s s' : LoadState} {k : Nat}
    {val : BinaryData} (hk : k < 2 ^ 31) (h : loadStep c saltedRoot s k val = .ok s') :
    (∃ dk dv, dk ≠ [] ∧
        readDataPacket c (WRITE_UINT32_BE k) val s.decrPrivKey s.macKey = .ok (dk, dv) ∧
        mapFind s.dataKeyToDbKey_ dk = none ∧ s' = addData (markState s k) k dk dv) ∨
    (∃ dv g, readDataPacket c (WRITE_UINT32_BE k) val s.decrPrivKey s.macKey = .ok ([], dv) ∧
        classifyMeta dv = .ok (.placeholder g) ∧ g ∈ (markState s k).gaps ∧
        s' = closeGap (markState s k) g) ∨
    (∃ dv priv mac,
        readDataPacket c (WRITE_UINT32_BE k) val s.decrPrivKey s.macKey = .ok ([], dv) ∧
        classifyMeta dv = .ok .cycle ∧
        computeKeyPair c saltedRoot (incr32 s.decrKeyCounter) = .ok (priv, mac) ∧
        s' = cycleKeys (markState s k) priv mac) := by
  rw [loadStep_eq c saltedRoot s k val hk] at h
  cases hr : readDataPacket c (WRITE_UINT32_BE k) val s.decrPrivKey s.macKey with
  | error e => simp [hr] at h
  | ok dataPair =>
    obtain ⟨dk, dv⟩ := dataPair
    simp only [hr] at h
    by_cases hdk : dk = []
    · subst hdk
      simp only [if_true] at h
      cases hcl : classifyMeta dv with
      | error e => simp [hcl] at h
      | ok m =>
        cases m with
        | placeholder g =>
          simp only [hcl] at h
          split_ifs at h with hg
          · right; left
            exact ⟨dv, g, rfl, hcl, hg, by simpa using h.symm⟩
        | cycle =>
          simp only [hcl] at h
          cases hkp : computeKeyPair c saltedRoot (incr32 s.decrKeyCounter) with
          | error e => simp [hkp] at h
          | ok kp =>
            obtain ⟨priv, mac⟩ := kp
            simp only [hkp] at h
            right; right
            exact ⟨dv, priv, mac, rfl, hcl, rfl, by simpa using h.symm⟩
        | unknown => simp [hcl] at h
    · simp only [hdk, if_false] at h
      cases hf : mapFind s.dataKeyToDbKey_ dk with
      | some x => simp [hf] at h
      | none =>
        simp only [hf] at h
        left
        exact ⟨dk, dv, hdk, rfl, hf, by simpa using h.symm⟩

theorem loadStep_data {c : Crypto} {saltedRoot : BinaryData} {s : LoadState} {k : Nat}
    {val dk dv : BinaryData} (hk : k < 2 ^ 31) (hdk : dk ≠ [])
    (hr : readDataPacket c (WRITE_UINT32_BE k) val s.decrPrivKey s.macKey = .ok (dk, dv))
    (hf : mapFind s.dataKeyToDbKey_ dk = none) :
    loadStep c saltedRoot s k val = .ok (addData (markState s k) k dk dv) := by
  rw [loadStep_eq c saltedRoot s k val hk, hr]
  simp [hdk, hf]

theorem loadStep_placeholder {c : Crypto} {saltedRoot : BinaryData} {s : LoadState} {k : Nat}
    {val dv : BinaryData} {g : Nat} (hk : k < 2 ^ 31)
    (hr : readDataPacket c (WRITE_UINT32_BE k) val s.decrPrivKey s.macKey = .ok ([], dv))
    (hcl : classifyMeta dv = .ok (.placeholder g)) (hg : g ∈ (markState s k).gaps) :
    loadStep c saltedRoot s k val = .ok (closeGap (markState s k) g) := by
  rw [loadStep_eq c saltedRoot s k val hk, hr]
  simp [hcl, hg]

theorem loadStep_cycle {c : Crypto} {saltedRoot : BinaryData} {s : LoadState} {k : Nat}
    {val dv priv mac : BinaryData} (hk : k < 2 ^ 31)
    (hr : readDataPacket c (WRITE_UINT32_BE k) val s.decrPrivKey s.macKey = .ok ([], dv))
    (hcl : classifyMeta dv = .ok .cycle)
    (hkp : computeKeyPair c saltedRoot (incr32 s.decrKeyCounter) = .ok (priv, mac)) :
    loadStep c saltedRoot s k val = .ok (cycleKeys (markState s k) priv mac) := by
  rw [loadStep_eq c saltedRoot s k val hk, hr]
  simp [hcl, hkp]

theorem loadInv_addData {s : LoadState} (hs : LoadInv s) (k : Nat) (dk dv : BinaryData)
    (hf : mapFind s.dataKeyToDbKey_ dk = none) : LoadInv (addData s k dk dv) := by
  refine ⟨hs.prev_ge, hs.prev_lt, hs.gaps_below, ?_⟩
  intro K
  have hn : mapFind s.dataMap_ dk = none := (hs.dom_eq dk).2 hf
  simp only [addData, hn]
  by_cases hK : dk = K
  · subst hK
    simp [mapFind_mapInsert_self]
  · simp only [mapFind_mapInsert_ne _ _ _ _ hK]
    exact hs.dom_eq K

theorem loadInv_closeGap {s : LoadState} (hs : LoadInv s) (g : Nat) : LoadInv (closeGap s g) := by
  refine ⟨hs.prev_ge, hs.prev_lt, ?_, hs.dom_eq⟩
  intro x hx
  exact hs.gaps_below x ((mem_setErase _ _ _).1 hx).1

theorem loadInv_cycleKeys {s : LoadState} (hs : LoadInv s) (priv mac : BinaryData) :
    LoadInv (cycleKeys s priv mac) :=
  ⟨hs.prev_ge, hs.prev_lt, hs.gaps_below, hs.dom_eq⟩

theorem loadStep_inv {c : Crypto} {saltedRoot : BinaryData} {s s' : LoadState} {k : Nat}
    {val : BinaryData} (hs : LoadInv s) (hk : k < 2 ^ 31) (hlt : s.prevDbKey < k)
    (h : loadStep c saltedRoot s k val = .ok s') : LoadInv s' ∧ s'.prevDbKey = k := by
  have hm := loadInv_markState hs hk hlt
  rcases loadStep_cases hk h with ⟨dk, dv, _, _, hf, rfl⟩ | ⟨dv, g, _, _, _, rfl⟩ |
    ⟨dv, priv, mac, _, _, _, rfl⟩
  · exact ⟨loadInv_addData hm k dk dv hf, rfl⟩
  · exact ⟨loadInv_closeGap hm g, rfl⟩
  · exact ⟨loadInv_cycleKeys hm priv mac, rfl⟩

theorem open_closeGap {s : LoadState} (hs : LoadInv s) {g : Nat} (hg : g ∈ s.gaps) (x : Nat) :
    Open (closeGap s g) x ↔ Open s x ∧ x ≠ g := by
  have := hs.gaps_below g hg
  simp only [Open, closeGap, mem_setErase]
  constructor
  · rintro (⟨h1, h2⟩ | h)
    · exact ⟨Or.inl h1, h2⟩
    · exact ⟨Or.inr h, by omega⟩
  · rintro ⟨h1 | h1, h2⟩
    · exact Or.inl ⟨h1, h2⟩
    · exact Or.inr h1

theorem simRel_mark {K : BinaryData} {p : Nat} {t t' : LoadState} (h : SimRel K p t t')
    (ht : LoadInv t) (ht' : LoadInv t') {k : Nat} (hk : k < 2 ^ 31) (hlt : t.prevDbKey < k) :
    SimRel K p (markState t k) (markState t' k) := by
  have hlt' : t'.prevDbKey < k := lt_of_le_of_lt h.prev_le hlt
  have hpk : p ≠ k := by
    intro e
    apply h.closed
    right; rw [e]; exact hlt
  refine ⟨h.cnt, h.priv, h.mac, ?_, ?_, h.dk2db, h.dmap, h.has, le_refl _⟩
  · intro g
    rw [open_markState ht' hk hlt', open_markState ht hk hlt, h.open_iff]
    constructor
    · rintro ⟨h1 | h1, h2⟩
      · exact Or.inl ⟨h1, h2⟩
      · exact Or.inr h1
    · rintro (⟨h1, h2⟩ | h1)
      · exact ⟨Or.inl h1, h2⟩
      · exact ⟨Or.inr h1, by rw [h1]; exact hpk⟩
  · intro ho
    exact h.closed ((open_markState ht hk hlt p).1 ho).1

theorem sim_step {c : Crypto} {saltedRoot : BinaryData} {K : BinaryData} {p : Nat}
    {t t' u : LoadState} (h : SimRel K p t t') (ht : LoadInv t) (ht' : LoadInv t')
    {k : Nat} {val : BinaryData} (hk : k < 2 ^ 31) (hlt : t.prevDbKey < k)
    (hu : loadStep c saltedRoot t k val = .ok u) :
    ∃ u', loadStep c saltedRoot t' k val = .ok u' ∧ SimRel K p u u' := by
  have hlt' : t'.prevDbKey < k := lt_of_le_of_lt h.prev_le hlt
  have hm := simRel_mark h ht ht' hk hlt
  have htm := loadInv_markState ht hk hlt
  have htm' := loadInv_markState ht' hk hlt'
  rcases loadStep_cases hk hu with ⟨dk, dv, hdk, hr, hf, rfl⟩ | ⟨dv, g, hr, hcl, hg, rfl⟩ |
    ⟨dv, priv, mac, hr, hcl, hkp, rfl⟩
  · -- data record
    have hne : dk ≠ K := by
      intro e; rw [e] at hf; exact h.has hf
    have hf' : mapFind t'.dataKeyToDbKey_ dk = none := by
      rw [h.dk2db]; simp [hne, hf]
    rw [← h.priv, ← h.mac] at hr
    refine ⟨_, loadStep_data hk hdk hr hf', ?_⟩
    refine ⟨hm.cnt, hm.priv, hm.mac, hm.open_iff, hm.closed, ?_, ?_, ?_, hm.prev_le⟩
    · intro K2
      simp only [addData, markState]
      by_cases e : dk = K2
      · subst e
        simp [mapFind_mapInsert_self, hne]
      · rw [mapFind_mapInsert_ne _ _ _ _ e, mapFind_mapInsert_ne _ _ _ _ e]
        exact h.dk2db K2
    · intro K2
      have hd : mapFind t'.dataMap_ dk = mapFind t.dataMap_ dk := by
        rw [h.dmap]; simp [hne]
      simp only [addData, markState, hd]
      cases hx : mapFind t.dataMap_ dk with
      | some x => simpa using h.dmap K2
      | none =>
        simp only []
        by_cases e : dk = K2
        · subst e
          simp [mapFind_mapInsert_self, hne]
        · rw [mapFind_mapInsert_ne _ _ _ _ e, mapFind_mapInsert_ne _ _ _ _ e]
          exact h.dmap K2
    · simp only [addData, markState]
      rw [mapFind_mapInsert_ne _ _ _ _ hne]
      exact h.has
  · -- erasure place holder
    have hg2 := (mem_markState_gaps ht hk hlt g).1 hg
    have hg' : g ∈ (markState t' k).gaps := by
      rw [mem_markState_gaps ht' hk hlt']
      exact ⟨(h.open_iff g).2 (Or.inl hg2.1), hg2.2⟩
    rw [← h.priv, ← h.mac] at hr
    refine ⟨_, loadStep_placeholder hk hr hcl hg', ?_⟩
    have hpg : p ≠ g := by
      intro e
      apply h.closed
      rw [e]; exact hg2.1
    refine ⟨hm.cnt, hm.priv, hm.mac, ?_, ?_, hm.dk2db, hm.dmap, hm.has, hm.prev_le⟩
    · intro x
      rw [open_closeGap htm' hg', open_closeGap htm hg, hm.open_iff]
      constructor
      · rintro ⟨h1 | h1, h2⟩
        · exact Or.inl ⟨h1, h2⟩
        · exact Or.inr h1
      · rintro (⟨h1, h2⟩ | h1)
        · exact ⟨Or.inl h1, h2⟩
        · exact ⟨Or.inr h1, by rw [h1]; exact hpg⟩
    · intro ho
      exact hm.closed ((open_closeGap htm hg p).1 ho).1
  · -- key cycle flag
    rw [← h.priv, ← h.mac] at hr
    rw [← h.cnt] at hkp
    refine ⟨_, loadStep_cycle hk hr hcl hkp, ?_⟩
    refine ⟨?_, rfl, rfl, hm.open_iff, hm.closed, hm.dk2db, hm.dmap, hm.has, hm.prev_le⟩
    simp only [cycleKeys, markState]
    rw [h.cnt]

theorem sortedBelow_cons {k : Nat} {val : BinaryData} {rest : List (Nat × BinaryData)}
    {lo : Int} (h : SortedBelow ((k, val) :: rest) lo) :
    lo < (k : Int) ∧ k < 2 ^ 31 ∧ SortedBelow rest (k : Int) := by
  obtain ⟨h1, h2⟩ := h
  rw [List.pairwise_cons] at h1
  have hk := h2 (k, val) (List.mem_cons_self _ _)
  refine ⟨hk.1, hk.2, h1.2, ?_⟩
  intro e he
  have := h1.1 e he
  have := h2 e (List.mem_cons_of_mem _ he)
  simp only at *
  omega

theorem loadLoop_append (c : Crypto) (saltedRoot : BinaryData) (l1 l2 : List (Nat × BinaryData))
    (s : LoadState) :
    loadLoop c saltedRoot (l1 ++ l2) s =
      match loadLoop c saltedRoot l1 s with
      | .error e => .error e
      | .ok s' => loadLoop c saltedRoot l2 s' := by
  induction l1 generalizing s with
  | nil => rfl
  | cons e t ih =>
    obtain ⟨k, val⟩ := e
    simp only [List.cons_append, loadLoop]
    cases loadStep c saltedRoot s k val with
    | error e => rfl
    | ok s' => exact ih s'

theorem loadLoop_inv {c : Crypto} {saltedRoot : BinaryData} {raw : List (Nat × BinaryData)}
    {s t : LoadState} (hs : LoadInv s) (hraw : SortedBelow raw s.prevDbKey)
    (h : loadLoop c saltedRoot raw s = .ok t) :
    LoadInv t ∧ s.prevDbKey ≤ t.prevDbKey := by
  induction raw generalizing s with
  | nil =>
    simp only [loadLoop, Except.ok.injEq] at h
    subst h; exact ⟨hs, le_refl _⟩
  | cons e rest ih =>
    obtain ⟨k, val⟩ := e
    obtain ⟨hlo, hk, hrest⟩ := sortedBelow_cons hraw
    simp only [loadLoop] at h
    cases hst : loadStep c saltedRoot s k val with
    | error e => simp [hst] at h
    | ok s' =>
      simp only [hst] at h
      obtain ⟨hs', hp⟩ := loadStep_inv hs hk hlo hst
      rw [← hp] at hrest
      obtain ⟨h1, h2⟩ := ih hs' hrest h
      exact ⟨h1, by omega⟩

theorem sim_loop {c : Crypto} {saltedRoot : BinaryData} {K : BinaryData} {p : Nat}
    {raw : List (Nat × BinaryData)} {t t' u : LoadState} (h : SimRel K p t t')
    (ht : LoadInv t) (ht' : LoadInv t') (hraw : SortedBelow raw t.prevDbKey)
    (hu : loadLoop c saltedRoot raw t = .ok u) :
    ∃ u', loadLoop c saltedRoot raw t' = .ok u' ∧ SimRel K p u u' ∧ LoadInv u' := by
  induction raw generalizing t t' with
  | nil =>
    simp only [loadLoop, Except.ok.injEq] at hu
    subst hu
    exact ⟨t', rfl, h, ht'⟩
  | cons e rest ih =>
    obtain ⟨k, val⟩ := e
    obtain ⟨hlo, hk, hrest⟩ := sortedBelow_cons hraw
    simp only [loadLoop] at hu
    cases hst : loadStep c saltedRoot t k val with
    | error e => simp [hst] at hu
    | ok s' =>
      simp only [hst] at hu
      obtain ⟨w, hw, hrel⟩ := sim_step h ht ht' hk hlo hst
      obtain ⟨hs', hp⟩ := loadStep_inv ht hk hlo hst
      obtain ⟨hw', _⟩ := loadStep_inv ht' hk (lt_of_le_of_lt h.prev_le hlo) hw
      rw [← hp] at hrest
      obtain ⟨u', hu', hrel', hinv'⟩ := ih hrel hs' hw' hrest hu
      refine ⟨u', ?_, hrel', hinv'⟩
      simp only [loadLoop, hw]
      exact hu'

theorem loadStep_keeps {c : Crypto} {saltedRoot : BinaryData} {s s' : LoadState} {k : Nat}
    {val : BinaryData} (hk : k < 2 ^ 31) (h : loadStep c saltedRoot s k val = .ok s')
    {K y : BinaryData} (hy : mapFind s.dataKeyToDbKey_ K = some y) :
    mapFind s'.dataKeyToDbKey_ K = some y := by
  rcases loadStep_cases hk h with ⟨dk, dv, _, _, hf, rfl⟩ | ⟨dv, g, _, _, _, rfl⟩ |
    ⟨dv, priv, mac, _, _, _, rfl⟩
  · have hne : dk ≠ K := by
      intro e; rw [e, hy] at hf; exact Option.noConfusion hf
    simp only [addData, markState]
    rw [mapFind_mapInsert_ne _ _ _ _ hne]
    exact hy
  · exact hy
  · exact hy

theorem loadLoop_keeps {c : Crypto} {saltedRoot : BinaryData} {raw : List (Nat × BinaryData)}
    {s t : LoadState} {lo : Int} (hraw : SortedBelow raw lo)
    (h : loadLoop c saltedRoot raw s = .ok t)
    {K y : BinaryData} (hy : mapFind s.dataKeyToDbKey_ K = some y) :
    mapFind t.dataKeyToDbKey_ K = some y := by
  induction raw generalizing s lo with
  | nil =>
    simp only [loadLoop, Except.ok.injEq] at h
    subst h; exact hy
  | cons e rest ih =>
    obtain ⟨k, val⟩ := e
    obtain ⟨_, hk, hrest⟩ := sortedBelow_cons hraw
    simp only [loadLoop] at h
    cases hst : loadStep c saltedRoot s k val with
    | error e => simp [hst] at h
    | ok s' =>
      simp only [hst] at h
      exact ih hrest h (loadStep_keeps hk hst hy)

/-- The last key read is the key of the last record of the store. -/
theorem loadLoop_prev {c : Crypto} {saltedRoot : BinaryData} {raw : List (Nat × BinaryData)}
    {s t : LoadState} (hs : LoadInv s) (hraw : SortedBelow raw s.prevDbKey)
    (h : loadLoop c saltedRoot raw s = .ok t) :
    (∀ e ∈ raw, (e.1 : Int) ≤ t.prevDbKey) ∧
      (raw = [] ∧ t.prevDbKey = s.prevDbKey ∨ ∃ e ∈ raw, t.prevDbKey = (e.1 : Int)) := by
  induction raw generalizing s with
  | nil =>
    simp only [loadLoop, Except.ok.injEq] at h
    subst h; simp
  | cons e rest ih =>
    obtain ⟨k, val⟩ := e
    obtain ⟨hlo, hk, hrest⟩ := sortedBelow_cons hraw
    simp only [loadLoop] at h
    cases hst : loadStep c saltedRoot s k val with
    | error e => simp [hst] at h
    | ok s' =>
      simp only [hst] at h
      obtain ⟨hs', hp⟩ := loadStep_inv hs hk hlo hst
      rw [← hp] at hrest
      obtain ⟨h1, h2⟩ := ih hs' hrest h
      have h3 := (loadLoop_inv hs' hrest h).2
      constructor
      · intro e he
        rcases List.mem_cons.1 he with rfl | he
        · simp only; omega
        · exact h1 e he
      · right
        rcases h2 with ⟨rfl, h2⟩ | ⟨e, he, h2⟩
        · exact ⟨(k, val), List.mem_cons_self _ _, by rw [h2, hp]⟩
        · exact ⟨e, List.mem_cons_of_mem _ he, h2⟩

/-- Where an entry of `dataKeyToDbKey_` comes from: a data record of the store,
read by the loop when the data key was not mapped yet. -/
theorem loadLoop_provenance {c : Crypto} {saltedRoot : BinaryData}
    {raw : List (Nat × BinaryData)} {s t : LoadState} {lo : Int} (hraw : SortedBelow raw lo)
    (h : loadLoop c saltedRoot raw s = .ok t) {K x : BinaryData}
    (hn : mapFind s.dataKeyToDbKey_ K = none) (hx : mapFind t.dataKeyToDbKey_ K = some x) :
    ∃ l1 p val l2 sp dv, raw = l1 ++ (p, val) :: l2 ∧ loadLoop c saltedRoot l1 s = .ok sp ∧
      x = WRITE_UINT32_BE p ∧ K ≠ [] ∧
      readDataPacket c (WRITE_UINT32_BE p) val sp.decrPrivKey sp.macKey = .ok (K, dv) ∧
      mapFind sp.dataKeyToDbKey_ K = none ∧
      loadLoop c saltedRoot l2 (addData (markState sp p) p K dv) = .ok t := by
  induction raw generalizing s lo with
  | nil =>
    simp only [loadLoop, Except.ok.injEq] at h
    subst h; rw [hn] at hx; exact Option.noConfusion hx
  | cons e rest ih =>
    obtain ⟨k, val⟩ := e
    obtain ⟨_, hk, hrest⟩ := sortedBelow_cons hraw
    simp only [loadLoop] at h
    cases hst : loadStep c saltedRoot s k val with
    | error e => simp [hst] at h
    | ok s' =>
      simp only [hst] at h
      have step_rec : mapFind s'.dataKeyToDbKey_ K = none →
          ∃ l1 p val' l2 sp dv, (k, val) :: rest = l1 ++ (p, val') :: l2 ∧
            loadLoop c saltedRoot l1 s = .ok sp ∧ x = WRITE_UINT32_BE p ∧ K ≠ [] ∧
            readDataPacket c (WRITE_UINT32_BE p) val' sp.decrPrivKey sp.macKey = .ok (K, dv) ∧
            mapFind sp.dataKeyToDbKey_ K = none ∧
            loadLoop c saltedRoot l2 (addData (markState sp p) p K dv) = .ok t := by
        intro hn'
        obtain ⟨l1, p, val', l2, sp, dv, e1, e2, e3, e4, e5, e6, e7⟩ := ih hrest h hn'
        refine ⟨(k, val) :: l1, p, val', l2, sp, dv, by rw [e1]; rfl, ?_, e3, e4, e5, e6, e7⟩
        simp only [loadLoop, hst]
        exact e2
      rcases loadStep_cases hk hst with ⟨dk, dv, hdk, hr, hf, rfl⟩ | ⟨dv, g, _, _, _, rfl⟩ |
        ⟨dv, priv, mac, _, _, _, rfl⟩
      · by_cases e : dk = K
        · subst e
          have hy : mapFind (addData (markState s k) k dk dv).dataKeyToDbKey_ dk
              = some (WRITE_UINT32_BE k) := by
            simp [addData, mapFind_mapInsert_self]
          have := loadLoop_keeps hrest h hy
          rw [this] at hx
          refine ⟨[], k, val, rest, s, dv, rfl, rfl, ?_, hdk, hr, hf, h⟩
          exact (Option.some.inj hx).symm
        · apply step_rec
          simp only [addData, markState]
          rw [mapFind_mapInsert_ne _ _ _ _ e]
          exact hn
      · exact step_rec hn
      · exact step_rec hn

theorem sortedBelow_append {l1 l2 : List (Nat × BinaryData)} {lo : Int}
    (h : SortedBelow (l1 ++ l2) lo) :
    SortedBelow l1 lo ∧ SortedBelow l2 lo ∧ ∀ a ∈ l1, ∀ b ∈ l2, a.1 < b.1 := by
  obtain ⟨h1, h2⟩ := h
  rw [List.pairwise_append] at h1
  refine ⟨⟨h1.1, fun e he => h2 e (List.mem_append_left _ he)⟩,
    ⟨h1.2.1, fun e he => h2 e (List.mem_append_right _ he)⟩, h1.2.2⟩

theorem sortedBelow_raise {l : List (Nat × BinaryData)} {lo hi : Int}
    (h : SortedBelow l lo) (hh : ∀ e ∈ l, hi < (e.1 : Int)) : SortedBelow l hi :=
  ⟨h.1, fun e he => ⟨hh e he, (h.2 e he).2⟩⟩

theorem mapErase_split {l1 l2 : List (Nat × BinaryData)} {p : Nat} {val : BinaryData}
    (h1 : ∀ a ∈ l1, a.1 < p) (h2 : ∀ b ∈ l2, p < b.1) :
    mapErase (l1 ++ (p, val) :: l2) p = l1 ++ l2 := by
  unfold mapErase
  rw [List.filter_append, List.filter_cons]
  simp only [ne_eq, not_true_eq_false, decide_False, Bool.false_eq_true, if_false]
  congr 1
  · apply List.filter_eq_self.2
    intro a ha
    have := h1 a ha
    simp; omega
  · apply List.filter_eq_self.2
    intro a ha
    have := h2 a ha
    simp; omega

/-- Reload of a store from which the record of a mapped data key was wiped. -/
theorem load_after_wipe {c : Crypto} {saltedRoot : BinaryData}
    {raw : List (Nat × BinaryData)} {s t : LoadState} (hs : LoadInv s)
    (hraw : SortedBelow raw s.prevDbKey) (h : loadLoop c saltedRoot raw s = .ok t)
    {K x : BinaryData} (hn : mapFind s.dataKeyToDbKey_ K = none)
    (hx : mapFind t.dataKeyToDbKey_ K = some x) :
    ∃ p t', x = WRITE_UINT32_BE p ∧ p < 2 ^ 31 ∧ (∃ val, (p, val) ∈ raw) ∧
      loadLoop c saltedRoot (mapErase raw p) s = .ok t' ∧ SimRel K p t t' ∧ LoadInv t' := by
  obtain ⟨l1, p, val, l2, sp, dv, e1, e2, e3, e4, e5, e6, e7⟩ :=
    loadLoop_provenance hraw h hn hx
  subst e1
  obtain ⟨hl1, hl2, hcross⟩ := sortedBelow_append hraw
  obtain ⟨hlo, hp, hrest⟩ := sortedBelow_cons hl2
  obtain ⟨hsp, _⟩ := loadLoop_inv hs hl1 e2
  have hprev : sp.prevDbKey < (p : Int) := by
    rcases (loadLoop_prev hs hl1 e2).2 with ⟨_, h2⟩ | ⟨e, he, h2⟩
    · rw [h2]; exact hlo
    · rw [h2]
      have := hcross e he (p, val) (List.mem_cons_self _ _)
      simp only at this; omega
  have herase : mapErase (l1 ++ (p, val) :: l2) p = l1 ++ l2 := by
    apply mapErase_split
    · intro a ha
      exact hcross a ha (p, val) (List.mem_cons_self _ _)
    · intro b hb
      have := (hrest.2 b hb).1
      omega
  have hmark := loadInv_markState hsp hp hprev
  have hsq : LoadInv (addData (markState sp p) p K dv) := loadInv_addData hmark p K dv e6
  have hrel : SimRel K p (addData (markState sp p) p K dv) sp := by
    refine ⟨rfl, rfl, rfl, ?_, ?_, ?_, ?_, ?_, ?_⟩
    · intro g
      have : Open (addData (markState sp p) p K dv) g ↔ Open (markState sp p) g := Iff.rfl
      rw [this, open_markState hsp hp hprev]
      constructor
      · intro ho
        by_cases e : g = p
        · exact Or.inr e
        · exact Or.inl ⟨ho, e⟩
      · rintro (⟨ho, _⟩ | e)
        · exact ho
        · subst e; exact Or.inr hprev
    · intro ho
      have : Open (markState sp p) p := ho
      exact ((open_markState hsp hp hprev p).1 this).2 rfl
    · intro K2
      simp only [addData, markState]
      by_cases e : K2 = K
      · subst e; simp [e6]
      · simp only [e, if_false]
        rw [mapFind_mapInsert_ne _ _ _ _ (Ne.symm e)]
    · intro K2
      have hd : mapFind sp.dataMap_ K = none := (hsp.dom_eq K).2 e6
      simp only [addData, markState, hd]
      by_cases e : K2 = K
      · subst e; simp [hd]
      · simp only [e, if_false]
        rw [mapFind_mapInsert_ne _ _ _ _ (Ne.symm e)]
    · simp [addData, mapFind_mapInsert_self]
    · simp only [addData, markState]; omega
  have hrest' : SortedBelow l2 (addData (markState sp p) p K dv).prevDbKey := hrest
  obtain ⟨t', ht', hrel', hinv'⟩ := sim_loop hrel hsq hsp hrest' e7
  refine ⟨p, t', e3, hp, ⟨val, by simp⟩, ?_, hrel', hinv'⟩
  rw [herase, loadLoop_append, e2]
  exact ht'

theorem mapInsert_append_of_lt (raw : List (Nat × BinaryData)) (n : Nat) (v : BinaryData)
    (h : ∀ e ∈ raw, e.1 < n) : mapInsert raw n v = raw ++ [(n, v)] := by
  induction raw with
  | nil => rfl
  | cons e t ih =>
    obtain ⟨k, w⟩ := e
    have hk : k < n := h (k, w) (List.mem_cons_self _ _)
    have h1 : ¬ k = n := by omega
    have h2 : MapKey.less n k = false := by
      show decide (n < k) = false
      simp; omega
    simp only [mapInsert, h1, if_false, h2, List.cons_append]
    rw [ih (fun e he => h e (List.mem_cons_of_mem _ he))]
    simp

theorem mem_mapErase {κ β : Type} [DecidableEq κ] (m : List (κ × β)) (k : κ) (e : κ × β) :
    e ∈ mapErase m k ↔ e ∈ m ∧ e.1 ≠ k := by
  simp [mapErase]

theorem sortedBelow_mapErase {raw : List (Nat × BinaryData)} {lo : Int}
    (h : SortedBelow raw lo) (p : Nat) : SortedBelow (mapErase raw p) lo :=
  ⟨List.Pairwise.filter _ h.1, fun e he => h.2 e ((mem_mapErase _ _ _).1 he).1⟩

theorem sortedBelow_snoc {raw : List (Nat × BinaryData)} {lo : Int} (h : SortedBelow raw lo)
    {n : Nat} (v : BinaryData) (hn : n < 2 ^ 31) (hlo : lo < (n : Int))
    (hlt : ∀ e ∈ raw, e.1 < n) : SortedBelow (raw ++ [(n, v)]) lo := by
  constructor
  · rw [List.pairwise_append]
    refine ⟨h.1, List.pairwise_singleton _ _, ?_⟩
    intro a ha b hb
    rw [List.mem_singleton] at hb
    subst hb
    exact hlt a ha
  · intro e he
    rcases List.mem_append.1 he with he | he
    · exact h.2 e he
    · rw [List.mem_singleton] at he
      subst he
      exact ⟨hlo, hn⟩

theorem classifyMeta_keyCycleFlag : classifyMeta keyCycleFlag_ = .ok .cycle := rfl

theorem put_var_int_4 : put_var_int 4 = [4] := by decide

theorem classifyMeta_erasedPacket (p : Nat) (hp : p < 2 ^ 32) :
    classifyMeta (erasedPacket (WRITE_UINT32_BE p)) = .ok (.placeholder p) := by
  have hl : (WRITE_UINT32_BE p).length = 4 := WRITE_UINT32_BE_length p
  have he : erasedPacket (WRITE_UINT32_BE p)
      = erasurePlaceHolder_ ++ ([4] ++ WRITE_UINT32_BE p) := by
    unfold erasedPacket
    rw [hl, put_var_int_4, List.append_assoc]
  rw [he]
  have h6 : erasurePlaceHolder_.length = 6 := rfl
  have hlen : (erasurePlaceHolder_ ++ ([4] ++ WRITE_UINT32_BE p)).length
      > erasurePlaceHolder_.length := by
    simp [hl, h6]
  have hv : get_var_int ([4] ++ WRITE_UINT32_BE p) = some (4, WRITE_UINT32_BE p) := by
    simp [get_var_int]
  have h4 : get_BinaryData 4 (WRITE_UINT32_BE p) = some (WRITE_UINT32_BE p, []) := by
    rw [← hl, get_BinaryData_self]
  unfold classifyMeta
  simp only [hlen, if_true]
  rw [get_BinaryData_append]
  simp only [if_true, hv, h4, READ_WRITE_UINT32_BE p hp]

theorem gaps_nil_of_mark {t : LoadState} (ht : LoadInv t) (hg : t.gaps = []) {n : Nat}
    (hn : n < 2 ^ 31) (hp : t.prevDbKey + 1 = (n : Int)) : (markState t n).gaps = [] := by
  apply List.eq_nil_iff_forall_not_mem.2
  intro g hmem
  have := (mem_markState_gaps ht hn (by omega) g).1 hmem
  rcases this with ⟨h1 | h1, h2⟩
  · rw [hg] at h1; simp at h1
  · omega

theorem incr32_of_lt {n : Nat} (h : n + 1 < 2 ^ 32) : incr32 n = n + 1 := by
  unfold incr32
  exact Nat.mod_eq_of_lt h

theorem Sess.inv {c : Crypto} {saltedRoot : BinaryData} {s0 : LoadState} {d : DBInterface}
    {t : LoadState} (h : Sess c saltedRoot s0 d t) (h0 : FreshLoad s0) : LoadInv t :=
  (loadLoop_inv h0.inv (by rw [h0.prev]; exact h.sorted) h.load).1

theorem Sess.keys_lt {c : Crypto} {saltedRoot : BinaryData} {s0 : LoadState} {d : DBInterface}
    {t : LoadState} (h : Sess c saltedRoot s0 d t) (h0 : FreshLoad s0) :
    ∀ e ∈ d.db_, e.1 < d.dbKeyCounter_ := by
  intro e he
  have := (loadLoop_prev h0.inv (by rw [h0.prev]; exact h.sorted) h.load).1 e he
  have := h.counter
  omega

/-- Reload of the store with one more record, written under the next db-key. -/
theorem loadLoop_snoc {c : Crypto} {saltedRoot : BinaryData} {raw : List (Nat × BinaryData)}
    {s0 t : LoadState} (h : loadLoop c saltedRoot raw s0 = .ok t) (n : Nat) (v : BinaryData) :
    loadLoop c saltedRoot (raw ++ [(n, v)]) s0 = loadStep c saltedRoot t n v := by
  rw [loadLoop_append, h]
  simp only [loadLoop]
  cases loadStep c saltedRoot t n v <;> rfl

/-- A record written by the session reads back under the session key pair. -/
theorem read_session_packet {c : Crypto} (hc : c.Sound) {ent : Entropy}
    (hent : ∀ k, (ent k).2.length = 16) {saltedRoot : BinaryData} {s0 : LoadState}
    {d : DBInterface} {t : LoadState} (hS : Sess c saltedRoot s0 d t) (n : Nat)
    (dk dv : BinaryData) (hk : dk.length < 2 ^ 64) (hv : dv.length < 2 ^ 64) :
    readDataPacket c (WRITE_UINT32_BE n)
        (createDataPacket c (WRITE_UINT32_BE n) dk dv d.encrPubKey_ d.macKey_
          (ent (WRITE_UINT32_BE n)).1 (ent (WRITE_UINT32_BE n)).2)
        t.decrPrivKey t.macKey = .ok (dk, dv) := by
  rw [hS.pub, hS.mac]
  exact readDataPacket_createDataPacket c hc _ dk dv _ _ _ _ (hent _) hk hv

/-- The session after a data record for a data key that is not mapped was
appended under the next db-key. -/
theorem sess_append_data {c : Crypto} (hc : c.Sound) {ent : Entropy}
    (hent : ∀ k, (ent k).2.length = 16) {saltedRoot : BinaryData} {s0 : LoadState}
    (h0 : FreshLoad s0) {d : DBInterface} {t : LoadState} (hS : Sess c saltedRoot s0 d t)
    (hn : d.dbKeyCounter_ + 1 < 2 ^ 31) (op : InsertData) (hK : op.key_ ≠ [])
    (hk : op.key_.length < 2 ^ 64) (hv : op.value_.length < 2 ^ 64)
    (hf : mapFind d.dataKeyToDbKey_ op.key_ = none) :
    Sess c saltedRoot s0 (writePayload c ent d.getNewDbKey.2 op d.getNewDbKey.1)
      (addData (markState t d.dbKeyCounter_) d.dbKeyCounter_ op.key_ op.value_) := by
  have ht := hS.inv h0
  have hlt := hS.keys_lt h0
  have hcnt := hS.counter
  have hdb : (writePayload c ent d.getNewDbKey.2 op d.getNewDbKey.1).db_
      = d.db_ ++ [(d.dbKeyCounter_, createDataPacket c (WRITE_UINT32_BE d.dbKeyCounter_)
          op.key_ op.value_ d.encrPubKey_ d.macKey_
          (ent (WRITE_UINT32_BE d.dbKeyCounter_)).1 (ent (WRITE_UINT32_BE d.dbKeyCounter_)).2)] := by
    simp only [writePayload, DBInterface.getNewDbKey, lmdbInsert,
      READ_WRITE_UINT32_BE d.dbKeyCounter_ (by omega)]
    exact mapInsert_append_of_lt _ _ _ hlt
  have hf' : mapFind t.dataKeyToDbKey_ op.key_ = none := by rw [hS.dk2db]; exact hf
  refine ⟨?_, ?_, ?_, ?_, ?_, ?_, ?_⟩
  · rw [hdb]
    exact sortedBelow_snoc hS.sorted _ (by omega) (by omega) hlt
  · rw [hdb, loadLoop_snoc hS.load]
    exact loadStep_data (by omega) hK (read_session_packet hc hent hS _ _ _ hk hv) hf'
  · exact gaps_nil_of_mark ht hS.gaps (by omega) hcnt
  · simp only [addData, markState, writePayload, DBInterface.getNewDbKey,
      incr32_of_lt (show d.dbKeyCounter_ + 1 < 2 ^ 32 by omega)]
    push_cast; ring
  · intro K
    simp only [addData, markState, writePayload, DBInterface.getNewDbKey]
    by_cases e : op.key_ = K
    · subst e; simp [mapFind_mapInsert_self]
    · rw [mapFind_mapInsert_ne _ _ _ _ e, mapFind_mapInsert_ne _ _ _ _ e]
      exact hS.dk2db K
  · exact hS.pub
  · exact hS.mac

/-- The session after the record of a mapped data key was wiped and the
erasure place holder naming its db-key was appended. -/
theorem sess_wipe {c : Crypto} (hc : c.Sound) {ent : Entropy}
    (hent : ∀ k, (ent k).2.length = 16) {saltedRoot : BinaryData} {s0 : LoadState}
    (h0 : FreshLoad s0) {d : DBInterface} {t : LoadState} (hS : Sess c saltedRoot s0 d t)
    (hn : d.dbKeyCounter_ + 1 < 2 ^ 31) {K x : BinaryData}
    (hf : mapFind d.dataKeyToDbKey_ K = some x) :
    ∃ t1, Sess c saltedRoot s0
        { d with
          db_ := lmdbInsert (lmdbWipe d.db_ x) (WRITE_UINT32_BE d.dbKeyCounter_)
            (createDataPacket c (WRITE_UINT32_BE d.dbKeyCounter_) [] (erasedPacket x)
              d.encrPubKey_ d.macKey_ (ent (WRITE_UINT32_BE d.dbKeyCounter_)).1
              (ent (WRITE_UINT32_BE d.dbKeyCounter_)).2)
          dbKeyCounter_ := incr32 d.dbKeyCounter_
          dataKeyToDbKey_ := mapErase d.dataKeyToDbKey_ K } t1 ∧
      (∀ K2, mapFind t1.dataMap_ K2 = if K2 = K then none else mapFind t.dataMap_ K2) := by
  have ht := hS.inv h0
  have hlt := hS.keys_lt h0
  have hcnt := hS.counter
  have hx : mapFind t.dataKeyToDbKey_ K = some x := by rw [hS.dk2db]; exact hf
  obtain ⟨p, t', hxp, hp, ⟨pv, hpmem⟩, hload', hrel, hinv'⟩ :=
    load_after_wipe h0.inv (by rw [h0.prev]; exact hS.sorted) hS.load (h0.empty K) hx
  have hpn : p < d.dbKeyCounter_ := hlt _ hpmem
  have hlt' : ∀ e ∈ mapErase d.db_ p, e.1 < d.dbKeyCounter_ :=
    fun e he => hlt e ((mem_mapErase _ _ _).1 he).1
  set n := d.dbKeyCounter_ with hn_def
  set pkt := createDataPacket c (WRITE_UINT32_BE n) [] (erasedPacket x)
      d.encrPubKey_ d.macKey_ (ent (WRITE_UINT32_BE n)).1 (ent (WRITE_UINT32_BE n)).2 with hpkt
  have hdb : lmdbInsert (lmdbWipe d.db_ x) (WRITE_UINT32_BE n) pkt
      = mapErase d.db_ p ++ [(n, pkt)] := by
    simp only [lmdbInsert, lmdbWipe, hxp, READ_WRITE_UINT32_BE n (by omega),
      READ_WRITE_UINT32_BE p (by omega)]
    exact mapInsert_append_of_lt _ _ _ hlt'
  have hprev' : t'.prevDbKey < (n : Int) := by
    have := hrel.prev_le
    omega
  have hxlen : (erasedPacket x).length < 2 ^ 64 := by
    rw [hxp]
    simp [erasedPacket, WRITE_UINT32_BE_length, put_var_int_4, erasurePlaceHolder_]
  have hread : readDataPacket c (WRITE_UINT32_BE n) pkt t'.decrPrivKey t'.macKey
      = .ok ([], erasedPacket x) := by
    rw [hrel.priv, hrel.mac]
    exact read_session_packet hc hent hS n [] (erasedPacket x) (by simp) hxlen
  have hcl : classifyMeta (erasedPacket x) = .ok (.placeholder p) := by
    rw [hxp]; exact classifyMeta_erasedPacket p (by omega)
  have hgap : p ∈ (markState t' n).gaps := by
    rw [mem_markState_gaps hinv' (by omega) hprev']
    exact ⟨(hrel.open_iff p).2 (Or.inr rfl), hpn⟩
  have hmark' := loadInv_markState hinv' (show n < 2 ^ 31 by omega) hprev'
  refine ⟨closeGap (markState t' n) p, ⟨?_, ?_, ?_, ?_, ?_, ?_, ?_⟩, ?_⟩
  · show SortedBelow (lmdbInsert (lmdbWipe d.db_ x) (WRITE_UINT32_BE n) pkt) (-1)
    rw [hdb]
    exact sortedBelow_snoc (sortedBelow_mapErase hS.sorted p) _ (by omega) (by omega) hlt'
  · show loadLoop c saltedRoot (lmdbInsert (lmdbWipe d.db_ x) (WRITE_UINT32_BE n) pkt) s0 = _
    rw [hdb, loadLoop_snoc hload']
    exact loadStep_placeholder (by omega) hread hcl hgap
  · apply List.eq_nil_iff_forall_not_mem.2
    intro g hmem
    have h1 : g ∈ (markState t' n).gaps ∧ g ≠ p := (mem_setErase _ _ _).1 hmem
    have h2 := (mem_markState_gaps hinv' (by omega) hprev' g).1 h1.1
    rcases (hrel.open_iff g).1 h2.1 with h3 | h3
    · rcases h3 with h3 | h3
      · rw [hS.gaps] at h3; simp at h3
      · omega
    · exact h1.2 h3
  · show ((n : Int) + 1 = ((incr32 n : Nat) : Int))
    rw [incr32_of_lt (show n + 1 < 2 ^ 32 by omega)]
    push_cast; ring
  · intro K2
    show mapFind t'.dataKeyToDbKey_ K2 = mapFind (mapErase d.dataKeyToDbKey_ K) K2
    rw [hrel.dk2db]
    by_cases e : K2 = K
    · subst e; simp [mapFind_mapErase_self]
    · simp only [e, if_false]
      rw [mapFind_mapErase_ne _ _ _ (Ne.symm e)]
      exact hS.dk2db K2
  · show d.encrPubKey_ = c.ComputePublicKey t'.decrPrivKey
    rw [hrel.priv]; exact hS.pub
  · show d.macKey_ = t'.macKey
    rw [hrel.mac]; exact hS.mac
  · intro K2
    exact hrel.dmap K2

theorem Sess.congr {c : Crypto} {saltedRoot : BinaryData} {s0 : LoadState} {d : DBInterface}
    {t : LoadState} (h : Sess c saltedRoot s0 d t) (d2 : DBInterface) (hdb : d2.db_ = d.db_)
    (hcn : d2.dbKeyCounter_ = d.dbKeyCounter_)
    (hm : ∀ K, mapFind d2.dataKeyToDbKey_ K = mapFind d.dataKeyToDbKey_ K)
    (hp : d2.encrPubKey_ = d.encrPubKey_) (hmac : d2.macKey_ = d.macKey_) :
    Sess c saltedRoot s0 d2 t :=
  ⟨by rw [hdb]; exact h.sorted, by rw [hdb]; exact h.load, h.gaps, by rw [hcn]; exact h.counter,
    fun K => by rw [hm]; exact h.dk2db K, by rw [hp]; exact h.pub, by rw [hmac]; exact h.mac⟩

/-- One iteration of the commit loop keeps the session reloadable. -/
theorem commitOp_sess {c : Crypto} (hc : c.Sound) {ent : Entropy}
    (hent : ∀ k, (ent k).2.length = 16) {saltedRoot : BinaryData} {s0 : LoadState}
    (h0 : FreshLoad s0) {d : DBInterface} {t : LoadState} (hS : Sess c saltedRoot s0 d t)
    (hn : d.dbKeyCounter_ + 2 < 2 ^ 31) (op : InsertData) (hK : op.key_ ≠ [])
    (hk : op.key_.length < 2 ^ 64) (hv : op.value_.length < 2 ^ 64)
    (hstored : op.write_ = false → mapFind d.dataKeyToDbKey_ op.key_ ≠ none) :
    ∃ d' t', commitOp c ent d op = (d', none) ∧ Sess c saltedRoot s0 d' t' ∧
      d'.dbKeyCounter_ ≤ d.dbKeyCounter_ + 2 ∧ d'.dataMap_ = d.dataMap_ ∧
      d'.controlSalt_ = d.controlSalt_ ∧
      (∀ K2, K2 ≠ op.key_ → mapFind d'.dataKeyToDbKey_ K2 = mapFind d.dataKeyToDbKey_ K2) ∧
      (∀ K2, mapFind t'.dataMap_ K2
        = if K2 = op.key_ then (if op.write_ then some op.value_ else none)
          else mapFind t.dataMap_ K2) := by
  have ht := hS.inv h0
  cases hf : mapFind d.dataKeyToDbKey_ op.key_ with
  | none =>
    have hw : op.write_ = true := by
      cases hww : op.write_ with
      | true => rfl
      | false => exact absurd hf (hstored hww)
    have hS' := sess_append_data hc hent h0 hS (by omega) op hK hk hv hf
    refine ⟨_, _, ?_, hS', ?_, rfl, rfl, ?_, ?_⟩
    · simp only [commitOp, DBInterface.resolveDataKey, hf, hw]
      rfl
    · simp only [writePayload, DBInterface.getNewDbKey,
        incr32_of_lt (show d.dbKeyCounter_ + 1 < 2 ^ 32 by omega)]
      omega
    · intro K2 hne
      simp only [writePayload, DBInterface.getNewDbKey]
      exact mapFind_mapInsert_ne _ _ _ _ (Ne.symm hne)
    · intro K2
      have hd : mapFind t.dataMap_ op.key_ = none :=
        (ht.dom_eq _).2 (by rw [hS.dk2db]; exact hf)
      simp only [addData, markState, hd, hw, if_true]
      by_cases e : K2 = op.key_
      · subst e; simp [mapFind_mapInsert_self]
      · simp only [e, if_false]
        exact mapFind_mapInsert_ne _ _ _ _ (Ne.symm e)
  | some x =>
    obtain ⟨t1, hS1, hd1⟩ := sess_wipe hc hent h0 hS (by omega) hf
    have hinc : incr32 d.dbKeyCounter_ = d.dbKeyCounter_ + 1 :=
      incr32_of_lt (show d.dbKeyCounter_ + 1 < 2 ^ 32 by omega)
    cases hw : op.write_ with
    | false =>
      refine ⟨_, t1, ?_, hS1, ?_, rfl, rfl, ?_, ?_⟩
      · simp only [commitOp, DBInterface.resolveDataKey, hf, hw, DBInterface.getNewDbKey]
        rfl
      · show incr32 d.dbKeyCounter_ ≤ _
        rw [hinc]; omega
      · intro K2 hne
        exact mapFind_mapErase_ne _ _ _ (Ne.symm hne)
      · intro K2
        rw [hd1]
        simp
    | true =>
      have hfW : mapFind (mapErase d.dataKeyToDbKey_ op.key_) op.key_ = none :=
        mapFind_mapErase_self _ _
      have hS2 := sess_append_data hc hent h0 hS1 (by show incr32 _ + 1 < _; rw [hinc]; omega)
        op hK hk hv hfW
      have ht1 := hS1.inv h0
      refine ⟨writePayload c ent
          ({ d with
            db_ := lmdbInsert (lmdbWipe d.db_ x) (WRITE_UINT32_BE d.dbKeyCounter_)
              (createDataPacket c (WRITE_UINT32_BE d.dbKeyCounter_) [] (erasedPacket x)
                d.encrPubKey_ d.macKey_ (ent (WRITE_UINT32_BE d.dbKeyCounter_)).1
                (ent (WRITE_UINT32_BE d.dbKeyCounter_)).2)
            dbKeyCounter_ := incr32 d.dbKeyCounter_ } : DBInterface).getNewDbKey.2 op
          (WRITE_UINT32_BE (incr32 d.dbKeyCounter_)), _, ?_, hS2.congr _ rfl rfl ?_ rfl rfl,
          ?_, rfl, rfl, ?_, ?_⟩
      · simp only [commitOp, DBInterface.resolveDataKey, hf, hw, DBInterface.getNewDbKey]
        rfl
      · intro K2
        simp only [writePayload, DBInterface.getNewDbKey]
        by_cases e : op.key_ = K2
        · subst e; simp [mapFind_mapInsert_self]
        · rw [mapFind_mapInsert_ne _ _ _ _ e, mapFind_mapInsert_ne _ _ _ _ e,
            mapFind_mapErase_ne _ _ _ e]
      · simp only [writePayload, DBInterface.getNewDbKey, hinc,
          incr32_of_lt (show d.dbKeyCounter_ + 1 + 1 < 2 ^ 32 by omega)]
        omega
      · intro K2 hne
        simp only [writePayload, DBInterface.getNewDbKey]
        exact mapFind_mapInsert_ne _ _ _ _ (Ne.symm hne)
      · intro K2
        have hd : mapFind t1.dataMap_ op.key_ = none := by rw [hd1]; simp
        simp only [addData, markState, hd, if_true]
        by_cases e : K2 = op.key_
        · subst e; simp [mapFind_mapInsert_self]
        · simp only [e, if_false]
          rw [mapFind_mapInsert_ne _ _ _ _ (Ne.symm e), hd1]
          simp [e]

theorem lastIdxFrom_ge {i j : Nat} {ops : List InsertData} {K : BinaryData}
    (h : lastIdxFrom i ops K = some j) : i ≤ j := by
  induction ops generalizing i j with
  | nil => simp [lastIdxFrom] at h
  | cons op rest ih =>
    simp only [lastIdxFrom] at h
    cases hr : lastIdxFrom (i + 1) rest K with
    | some j' =>
      rw [hr] at h
      have := ih hr
      simp at h; omega
    | none =>
      rw [hr] at h
      split_ifs at h
      simp at h; omega

theorem lastIdxFrom_none_iff {i : Nat} {ops : List InsertData} {K : BinaryData} :
    lastIdxFrom i ops K = none ↔ ∀ op ∈ ops, op.key_ ≠ K := by
  induction ops generalizing i with
  | nil => simp [lastIdxFrom]
  | cons op rest ih =>
    simp only [lastIdxFrom, List.mem_cons, forall_eq_or_imp]
    cases hr : lastIdxFrom (i + 1) rest K with
    | some j =>
      have := (not_congr (ih (i := i + 1))).1 (by rw [hr]; simp)
      simp only []
      constructor
      · intro h; exact absurd h (by simp)
      · intro h; exact absurd h.2 this
    | none =>
      have := ih.1 hr
      simp only []
      split_ifs with e
      · simp [e]
      · simpa [e] using this

theorem lastOp_none_iff {ops : List InsertData} {K : BinaryData} :
    lastOp ops K = none ↔ ∀ op ∈ ops, op.key_ ≠ K := by
  induction ops with
  | nil => simp [lastOp]
  | cons op rest ih =>
    simp only [lastOp, List.mem_cons, forall_eq_or_imp]
    cases hr : lastOp rest K with
    | some j =>
      have := (not_congr ih).1 (by rw [hr]; simp)
      simp only []
      constructor
      · intro h; exact absurd h (by simp)
      · intro h; exact absurd h.2 this
    | none =>
      have := ih.1 hr
      simp only []
      split_ifs with e
      · simp [e]
      · simpa [e] using this

theorem LastIdxMap.tail {km : List (BinaryData × Nat)} {i : Nat} {op : InsertData}
    {rest : List InsertData} (h : LastIdxMap km i (op :: rest)) : LastIdxMap km (i + 1) rest := by
  intro op' hop'
  rw [h op' (List.mem_cons_of_mem _ hop')]
  simp only [lastIdxFrom]
  cases hr : lastIdxFrom (i + 1) rest op'.key_ with
  | some j => rfl
  | none => exact absurd hop' (fun hm => (lastIdxFrom_none_iff.1 hr) op' hm rfl)

theorem commitLoop_sess {c : Crypto} (hc : c.Sound) {ent : Entropy}
    (hent : ∀ k, (ent k).2.length = 16) {saltedRoot : BinaryData} {s0 : LoadState}
    (h0 : FreshLoad s0) (km : List (BinaryData × Nat)) (ops : List InsertData) :
    ∀ (i : Nat) (d : DBInterface) (t : LoadState), Sess c saltedRoot s0 d t →
      LastIdxMap km i ops → d.dbKeyCounter_ + 2 * ops.length < 2 ^ 31 →
      (∀ op ∈ ops, OpOk d op) →
      ∃ d' t', commitLoop c ent km ops i d = (d', none) ∧ Sess c saltedRoot s0 d' t' ∧
        d'.dataMap_ = d.dataMap_ ∧ d'.controlSalt_ = d.controlSalt_ ∧
        d'.dbKeyCounter_ ≤ d.dbKeyCounter_ + 2 * ops.length ∧
        (∀ K, mapFind t'.dataMap_ K
          = match lastOp ops K with
            | some op => op.effect
            | none => mapFind t.dataMap_ K) := by
  induction ops with
  | nil =>
    intro i d t hS _ _ _
    exact ⟨d, t, rfl, hS, rfl, rfl, by simp, fun K => rfl⟩
  | cons op rest ih =>
    intro i d t hS hkm hb hok
    have hkm' := hkm.tail
    have hfind := hkm op (List.mem_cons_self _ _)
    simp only [lastIdxFrom] at hfind
    simp only [List.length_cons] at hb
    cases hr : lastIdxFrom (i + 1) rest op.key_ with
    | some j =>
      -- not the last operation on its key: skipped
      rw [hr] at hfind
      have hij : i ≠ j := by have := lastIdxFrom_ge hr; omega
      obtain ⟨d', t', h1, h2, h3, h4, h5, h6⟩ := ih (i + 1) d t hS hkm' (by omega)
        (fun op' hop' => hok op' (List.mem_cons_of_mem _ hop'))
      refine ⟨d', t', ?_, h2, h3, h4, by simp only [List.length_cons]; omega, ?_⟩
      · simp only [commitLoop, hfind, hij, ne_eq, not_false_eq_true, if_true]
        exact h1
      · intro K
        rw [h6 K]
        simp only [lastOp]
        cases hl : lastOp rest K with
        | some e => rfl
        | none =>
          have hne : op.key_ ≠ K := by
            intro e
            have h7 := lastOp_none_iff.1 hl
            have h8 := (not_congr (@lastIdxFrom_none_iff (i + 1) rest op.key_)).1
              (by rw [hr]; simp)
            apply h8
            intro op' hop'
            rw [e]; exact h7 op' hop'
          simp [hne]
    | none =>
      rw [hr] at hfind
      simp only [if_true] at hfind
      have hnone := lastIdxFrom_none_iff.1 hr
      obtain ⟨hK, hk, hv, hst⟩ := hok op (List.mem_cons_self _ _)
      obtain ⟨d1, t1, e1, hS1, hc1, hm1, hs1, hk1, hd1⟩ :=
        commitOp_sess hc hent h0 hS (by omega) op hK hk hv hst
      have hok1 : ∀ op' ∈ rest, OpOk d1 op' := by
        intro op' hop'
        obtain ⟨a1, a2, a3, a4⟩ := hok op' (List.mem_cons_of_mem _ hop')
        refine ⟨a1, a2, a3, ?_⟩
        intro hw
        rw [hk1 _ (hnone op' hop')]
        exact a4 hw
      obtain ⟨d', t', h1, h2, h3, h4, h5, h6⟩ := ih (i + 1) d1 t1 hS1 hkm' (by omega) hok1
      refine ⟨d', t', ?_, h2, by rw [h3, hm1], by rw [h4, hs1],
        by simp only [List.length_cons]; omega, ?_⟩
      · simp only [commitLoop, hfind, ne_eq, not_true_eq_false, if_false, e1]
        exact h1
      · intro K
        rw [h6 K]
        simp only [lastOp]
        cases hl : lastOp rest K with
        | some e => rfl
        | none =>
          simp only [hd1 K]
          by_cases e : K = op.key_
          · subst e; simp [InsertData.effect]
          · have : ¬ op.key_ = K := fun h => e h.symm
            simp [e, this]

/-- `DBInterface::update` leaves under every data key what the last operation
on it leaves. -/
theorem mapFind_update (ops : List InsertData) (d : DBInterface) (K : BinaryData) :
    mapFind (d.update ops).dataMap_ K
      = match lastOp ops K with
        | some op => op.effect
        | none => mapFind d.dataMap_ K := by
  induction ops generalizing d with
  | nil => rfl
  | cons op rest ih =>
    simp only [DBInterface.update, lastOp]
    cases hw : op.write_ with
    | false =>
      simp only [Bool.not_false, if_true]
      rw [ih]
      cases hl : lastOp rest K with
      | some e => rfl
      | none =>
        simp only []
        by_cases e : op.key_ = K
        · subst e; simp [InsertData.effect, hw, mapFind_mapErase_self]
        · simp [e, mapFind_mapErase_ne _ _ _ e]
    | true =>
      simp only [Bool.not_true, Bool.false_eq_true, if_false]
      rw [ih]
      cases hl : lastOp rest K with
      | some e => rfl
      | none =>
        simp only []
        by_cases e : op.key_ = K
        · subst e; simp [InsertData.effect, hw, mapFind_mapInsert_self]
        · simp [e, mapFind_mapInsert_ne _ _ _ _ e]

theorem update_fields (ops : List InsertData) (d : DBInterface) :
    (d.update ops).db_ = d.db_ ∧ (d.update ops).dataKeyToDbKey_ = d.dataKeyToDbKey_ ∧
      (d.update ops).dbKeyCounter_ = d.dbKeyCounter_ ∧
      (d.update ops).controlSalt_ = d.controlSalt_ ∧
      (d.update ops).encrPubKey_ = d.encrPubKey_ ∧ (d.update ops).macKey_ = d.macKey_ := by
  induction ops generalizing d with
  | nil => simp [DBInterface.update]
  | cons op rest ih =>
    simp only [DBInterface.update]
    split_ifs
    · exact ih _
    · exact ih _

theorem update_dataMap (txops : List TxOp) (d : DBInterface) :
    (d.update (txops.map TxOp.toInsertData)).dataMap_ = applyOps d.dataMap_ txops := by
  induction txops generalizing d with
  | nil => rfl
  | cons op rest ih =>
    cases op with
    | insert k v =>
      simp only [List.map_cons, DBInterface.update, TxOp.toInsertData, applyOps]
      exact ih _
    | erase k =>
      simp only [List.map_cons, DBInterface.update, TxOp.toInsertData, applyOps]
      exact ih _

theorem lastIdxFrom_snoc (i : Nat) (l : List InsertData) (e : InsertData) (K : BinaryData) :
    lastIdxFrom i (l ++ [e]) K
      = if e.key_ = K then some (i + l.length) else lastIdxFrom i l K := by
  induction l generalizing i with
  | nil => simp [lastIdxFrom]
  | cons op rest ih =>
    have e1 : lastIdxFrom i (op :: rest ++ [e]) K
        = match lastIdxFrom (i + 1) (rest ++ [e]) K with
          | some j => some j
          | none => if op.key_ = K then some i else none := rfl
    rw [e1, ih (i + 1)]
    by_cases h : e.key_ = K
    · simp only [h, if_true, List.length_cons]
      congr 1; omega
    · simp only [h, if_false]
      rfl

theorem bufferOk_call {tx : WalletIfaceTransaction} (h : BufferOk tx) (op : TxOp) :
    BufferOk (tx.call op) ∧ (tx.call op).insertVec_ = tx.insertVec_ ++ [op.toInsertData] := by
  cases op with
  | insert k v =>
    refine ⟨?_, rfl⟩
    intro K
    simp only [WalletIfaceTransaction.call, WalletIfaceTransaction.insert, lastIdxFrom_snoc]
    by_cases e : k = K
    · subst e; simp [mapFind_mapInsert_self]
    · simp only [e, if_false, mapFind_mapInsert_ne _ _ _ _ e]
      exact h K
  | erase k =>
    refine ⟨?_, rfl⟩
    intro K
    simp only [WalletIfaceTransaction.call, WalletIfaceTransaction.erase,
      WalletIfaceTransaction.eraseLbd, lastIdxFrom_snoc]
    by_cases e : k = K
    · subst e; simp [mapFind_mapInsert_self]
    · simp only [e, if_false, mapFind_mapInsert_ne _ _ _ _ e]
      exact h K

theorem bufferOk_calls (ops : List TxOp) {tx : WalletIfaceTransaction} (h : BufferOk tx) :
    BufferOk (tx.calls ops) ∧
      (tx.calls ops).insertVec_ = tx.insertVec_ ++ ops.map TxOp.toInsertData := by
  induction ops generalizing tx with
  | nil => exact ⟨h, by simp [WalletIfaceTransaction.calls]⟩
  | cons op rest ih =>
    obtain ⟨h1, h2⟩ := bufferOk_call h op
    obtain ⟨h3, h4⟩ := ih h1
    refine ⟨h3, ?_⟩
    show ((tx.call op).calls rest).insertVec_ = _
    rw [h4, h2]
    simp

theorem calls_empty (ops : List TxOp) :
    LastIdxMap (({} : WalletIfaceTransaction).calls ops).keyToDataMap_ 0
        (({} : WalletIfaceTransaction).calls ops).insertVec_ ∧
      (({} : WalletIfaceTransaction).calls ops).insertVec_ = ops.map TxOp.toInsertData := by
  have h0 : BufferOk ({} : WalletIfaceTransaction) := fun K => rfl
  obtain ⟨h1, h2⟩ := bufferOk_calls ops h0
  exact ⟨fun op _ => h1 op.key_, by simpa using h2⟩

theorem commit_sessB {c : Crypto} (hc : c.Sound) {ent : Entropy}
    (hent : ∀ k, (ent k).2.length = 16) {saltedRoot : BinaryData} {s0 : LoadState}
    (h0 : FreshLoad s0) {d : DBInterface} {t : LoadState} (hS : SessB c saltedRoot s0 d t)
    (ops : List TxOp) (hok : StoredOps d.dataMap_ ops)
    (hb : d.dbKeyCounter_ + 2 * ops.length < 2 ^ 31) :
    ∃ d' t', (({} : WalletIfaceTransaction).calls ops).commit c ent d = (d', none) ∧
      SessB c saltedRoot s0 d' t' ∧ d'.dataMap_ = applyOps d.dataMap_ ops ∧
      d'.controlSalt_ = d.controlSalt_ ∧ d'.dbKeyCounter_ ≤ d.dbKeyCounter_ + 2 * ops.length := by
  obtain ⟨hkm, hvec⟩ := calls_empty ops
  have ht := hS.sess.inv h0
  have hopok : ∀ op ∈ (({} : WalletIfaceTransaction).calls ops).insertVec_, OpOk d op := by
    rw [hvec]
    intro op hop
    obtain ⟨o, ho, rfl⟩ := List.mem_map.1 hop
    have hoo := hok o ho
    cases o with
    | insert k v =>
      obtain ⟨a1, a2, a3⟩ := hoo
      exact ⟨a1, a2, a3, fun hw => by simp [TxOp.toInsertData] at hw⟩
    | erase k =>
      obtain ⟨a1, a2, h1⟩ := hoo
      refine ⟨a1, a2, by simp [TxOp.toInsertData], fun _ => ?_⟩
      show mapFind d.dataKeyToDbKey_ k ≠ none
      rw [← hS.sess.dk2db k]
      intro h2
      apply h1
      rw [← hS.dmap k]
      exact (ht.dom_eq k).2 h2
  have hlen : (({} : WalletIfaceTransaction).calls ops).insertVec_.length = ops.length := by
    rw [hvec]; simp
  obtain ⟨d', t', e1, hS', hm, hs, hcn, hd⟩ :=
    commitLoop_sess hc hent h0 _ _ 0 d t hS.sess hkm (by rw [hlen]; exact hb) hopok
  obtain ⟨u1, u2, u3, u4, u5, u6⟩ := update_fields
    (({} : WalletIfaceTransaction).calls ops).insertVec_ d'
  refine ⟨d'.update (({} : WalletIfaceTransaction).calls ops).insertVec_, t', ?_, ⟨?_, ?_⟩,
    ?_, ?_, ?_⟩
  · simp only [WalletIfaceTransaction.commit, e1]
  · exact hS'.congr _ u1 u3 (fun K => by rw [u2]) u5 u6
  · intro K
    rw [hd K, mapFind_update, hm]
    cases lastOp (({} : WalletIfaceTransaction).calls ops).insertVec_ K with
    | some e => rfl
    | none => exact hS.dmap K
  · rw [hvec, update_dataMap, hm]
  · rw [u4, hs]
  · rw [u3]; rw [hlen] at hcn; exact hcn

theorem commitAll_sessB {c : Crypto} (hc : c.Sound) {ent : Entropy}
    (hent : ∀ k, (ent k).2.length = 16) {saltedRoot : BinaryData} {s0 : LoadState}
    (h0 : FreshLoad s0) (txs : List (List TxOp)) :
    ∀ (d : DBInterface) (t : LoadState), SessB c saltedRoot s0 d t →
      StoredTxs d.dataMap_ txs →
      d.dbKeyCounter_ + 2 * (txs.map List.length).sum < 2 ^ 31 →
      ∃ d' t', commitAll c ent txs d = (d', none) ∧ SessB c saltedRoot s0 d' t' ∧
        d'.dataMap_ = applyAll d.dataMap_ txs ∧ d'.controlSalt_ = d.controlSalt_ := by
  induction txs with
  | nil =>
    intro d t hS _ _
    exact ⟨d, t, rfl, hS, rfl, rfl⟩
  | cons ops rest ih =>
    intro d t hS hok hb
    simp only [List.map_cons, List.sum_cons] at hb
    obtain ⟨d1, t1, e1, hS1, hm1, hs1, hc1⟩ :=
      commit_sessB hc hent h0 hS ops hok.1 (by omega)
    obtain ⟨d', t', e2, hS2, hm2, hs2⟩ := ih d1 t1 hS1 (by rw [hm1]; exact hok.2) (by omega)
    refine ⟨d', t', ?_, hS2, ?_, by rw [hs2, hs1]⟩
    · simp only [commitAll, e1]
      exact e2
    · rw [hm2, hm1]; rfl

theorem freshLoad_init (d0 : DBInterface) (hm : d0.dataMap_ = [] ∧ d0.dataKeyToDbKey_ = [])
    (priv0 mac0 : BinaryData) : FreshLoad (initLoadState d0 priv0 mac0) := by
  refine ⟨⟨?_, ?_, ?_, ?_⟩, rfl, ?_⟩
  · simp [initLoadState]
  · simp [initLoadState]
  · intro g hg; simp [initLoadState] at hg
  · intro K; simp [initLoadState, hm.1, hm.2, mapFind]
  · intro K; simp [initLoadState, hm.2, mapFind]

theorem toUInt32_succ {p : Int} (h1 : -1 ≤ p) (h2 : p < 2 ^ 31) :
    ((toUInt32 (p + 1) : Nat) : Int) = p + 1 := by
  unfold toUInt32
  rw [Int.emod_eq_of_lt (by omega) (by omega)]
  exact Int.toNat_of_nonneg (by omega)

/-- What a successful `loadAllEntries` went through. -/
theorem loadAllEntries_ok {c : Crypto} {ent : Entropy} {d d1 : DBInterface}
    {rootKey : BinaryData} (h : d.loadAllEntries c ent rootKey = .ok d1) :
    ∃ priv0 mac0 s priv mac,
      computeKeyPair c (c.getHMAC256 d.controlSalt_ rootKey) 0 = .ok (priv0, mac0) ∧
      loadLoop c (c.getHMAC256 d.controlSalt_ rootKey) d.db_ (initLoadState d priv0 mac0)
        = .ok s ∧
      s.gaps = [] ∧
      computeKeyPair c (c.getHMAC256 d.controlSalt_ rootKey) (incr32 s.decrKeyCounter)
        = .ok (priv, mac) ∧
      d1 = { d with
        dataKeyToDbKey_ := s.dataKeyToDbKey_
        dataMap_ := s.dataMap_
        dbKeyCounter_ := incr32 (toUInt32 (s.prevDbKey + 1))
        db_ := lmdbInsert d.db_ (WRITE_UINT32_BE (toUInt32 (s.prevDbKey + 1)))
          (createDataPacket c (WRITE_UINT32_BE (toUInt32 (s.prevDbKey + 1))) [] keyCycleFlag_
            (c.ComputePublicKey s.decrPrivKey) s.macKey
            (ent (WRITE_UINT32_BE (toUInt32 (s.prevDbKey + 1)))).1
            (ent (WRITE_UINT32_BE (toUInt32 (s.prevDbKey + 1)))).2)
        encrPubKey_ := c.ComputePublicKey priv
        macKey_ := mac } := by
  unfold DBInterface.loadAllEntries at h
  simp only [] at h
  cases h0 : computeKeyPair c (c.getHMAC256 d.controlSalt_ rootKey) 0 with
  | error e => simp [h0] at h
  | ok kp0 =>
    obtain ⟨priv0, mac0⟩ := kp0
    simp only [h0] at h
    cases hl : loadLoop c (c.getHMAC256 d.controlSalt_ rootKey) d.db_
        (initLoadState d priv0 mac0) with
    | error e => simp [hl] at h
    | ok s =>
      simp only [hl] at h
      by_cases hg : s.gaps.length ≠ 0
      · simp [hg] at h
      · simp only [hg, if_false] at h
        cases hk : computeKeyPair c (c.getHMAC256 d.controlSalt_ rootKey)
            (incr32 s.decrKeyCounter) with
        | error e => simp [hk] at h
        | ok kp =>
          obtain ⟨priv, mac⟩ := kp
          simp only [hk, Except.ok.injEq] at h
          refine ⟨priv0, mac0, s, priv, mac, rfl, hl, ?_, hk, ?_⟩
          · simpa using hg
          · rw [← h]; rfl

theorem loadAllEntries_of_loop {c : Crypto} {ent : Entropy} {d : DBInterface}
    {rootKey : BinaryData} {priv0 mac0 priv mac : BinaryData} {s : LoadState}
    (h0 : computeKeyPair c (c.getHMAC256 d.controlSalt_ rootKey) 0 = .ok (priv0, mac0))
    (hl : loadLoop c (c.getHMAC256 d.controlSalt_ rootKey) d.db_ (initLoadState d priv0 mac0)
      = .ok s)
    (hg : s.gaps = [])
    (hk : computeKeyPair c (c.getHMAC256 d.controlSalt_ rootKey) (incr32 s.decrKeyCounter)
      = .ok (priv, mac)) :
    ∃ d1, d.loadAllEntries c ent rootKey = .ok d1 ∧ d1.dataMap_ = s.dataMap_ ∧
      d1.dataKeyToDbKey_ = s.dataKeyToDbKey_ := by
  unfold DBInterface.loadAllEntries
  simp only [h0, hl, hg, hk]
  exact ⟨_, rfl, rfl, rfl⟩

/-- The session a successful load opens. -/
theorem load_sessB {c : Crypto} (hc : c.Sound) {ent : Entropy}
    (hent : ∀ k, (ent k).2.length = 16) {d0 d1 : DBInterface} {rootKey : BinaryData}
    (hm : d0.dataMap_ = [] ∧ d0.dataKeyToDbKey_ = []) (hsorted : SortedBelow d0.db_ (-1))
    (hload : d0.loadAllEntries c ent rootKey = .ok d1) (hcnt : d1.dbKeyCounter_ < 2 ^ 31) :
    ∃ priv0 mac0 t,
      computeKeyPair c (c.getHMAC256 d0.controlSalt_ rootKey) 0 = .ok (priv0, mac0) ∧
      SessB c (c.getHMAC256 d0.controlSalt_ rootKey) (initLoadState d0 priv0 mac0) d1 t ∧
      d1.controlSalt_ = d0.controlSalt_ := by
  obtain ⟨priv0, mac0, s, priv, mac, h0, hl, hg, hk, rfl⟩ := loadAllEntries_ok hload
  have hfresh := freshLoad_init d0 hm priv0 mac0
  have hsorted' : SortedBelow d0.db_ (initLoadState d0 priv0 mac0).prevDbKey := hsorted
  obtain ⟨hs, _⟩ := loadLoop_inv hfresh.inv hsorted' hl
  have hprev := (loadLoop_prev hfresh.inv hsorted' hl).1
  have hsucc := toUInt32_succ hs.prev_ge hs.prev_lt
  set n := toUInt32 (s.prevDbKey + 1) with hn
  have hn32 : n + 1 < 2 ^ 32 := by
    have := hs.prev_lt
    omega
  have hinc : incr32 n = n + 1 := incr32_of_lt hn32
  have hn31 : n < 2 ^ 31 := by
    have : incr32 n < 2 ^ 31 := hcnt
    omega
  have hlt : ∀ e ∈ d0.db_, e.1 < n := by
    intro e he
    have := hprev e he
    omega
  have hdb : lmdbInsert d0.db_ (WRITE_UINT32_BE n)
      (createDataPacket c (WRITE_UINT32_BE n) [] keyCycleFlag_
        (c.ComputePublicKey s.decrPrivKey) s.macKey (ent (WRITE_UINT32_BE n)).1
        (ent (WRITE_UINT32_BE n)).2)
      = d0.db_ ++ [(n, createDataPacket c (WRITE_UINT32_BE n) [] keyCycleFlag_
        (c.ComputePublicKey s.decrPrivKey) s.macKey (ent (WRITE_UINT32_BE n)).1
        (ent (WRITE_UINT32_BE n)).2)] := by
    simp only [lmdbInsert, READ_WRITE_UINT32_BE n (by omega)]
    exact mapInsert_append_of_lt _ _ _ hlt
  have hread : readDataPacket c (WRITE_UINT32_BE n)
      (createDataPacket c (WRITE_UINT32_BE n) [] keyCycleFlag_
        (c.ComputePublicKey s.decrPrivKey) s.macKey (ent (WRITE_UINT32_BE n)).1
        (ent (WRITE_UINT32_BE n)).2) s.decrPrivKey s.macKey = .ok ([], keyCycleFlag_) :=
    readDataPacket_createDataPacket c hc _ [] keyCycleFlag_ _ _ _ _ (hent _) (by simp)
      (by simp [keyCycleFlag_])
  refine ⟨priv0, mac0, cycleKeys (markState s n) priv mac, h0, ⟨⟨?_, ?_, ?_, ?_, ?_, rfl, rfl⟩,
    fun K => rfl⟩, rfl⟩
  · show SortedBelow (lmdbInsert _ _ _) (-1)
    rw [hdb]
    exact sortedBelow_snoc hsorted _ hn31 (by omega) hlt
  · show loadLoop _ _ (lmdbInsert _ _ _) _ = _
    rw [hdb, loadLoop_snoc hl]
    exact loadStep_cycle hn31 hread classifyMeta_keyCycleFlag hk
  · exact gaps_nil_of_mark hs hg hn31 (by omega)
  · show (n : Int) + 1 = ((incr32 n : Nat) : Int)
    rw [hinc]; push_cast; ring
  · intro K; rfl

/-- Closing and reloading a session between two transactions. -/
theorem reload_sessB {c : Crypto} {ent : Entropy} {d : DBInterface} {rootKey : BinaryData}
    {priv0 mac0 : BinaryData} {t : LoadState}
    (h0 : computeKeyPair c (c.getHMAC256 d.controlSalt_ rootKey) 0 = .ok (priv0, mac0))
    (hS : SessB c (c.getHMAC256 d.controlSalt_ rootKey) (initLoadState d.reopen priv0 mac0) d t)
    (hk : ∃ kp, computeKeyPair c (c.getHMAC256 d.controlSalt_ rootKey)
      (incr32 t.decrKeyCounter) = .ok kp) :
    ∃ d3, d.reopen.loadAllEntries c ent rootKey = .ok d3 ∧
      (∀ K, mapFind d3.dataMap_ K = mapFind d.dataMap_ K) ∧
      (∀ K, mapFind d3.dataKeyToDbKey_ K = mapFind d.dataKeyToDbKey_ K) := by
  obtain ⟨⟨priv, mac⟩, hk⟩ := hk
  obtain ⟨d3, h1, h2, h3⟩ := @loadAllEntries_of_loop c ent d.reopen rootKey priv0 mac0 priv mac t
    h0 hS.sess.load hS.sess.gaps hk
  exact ⟨d3, h1, fun K => by rw [h2]; exact hS.dmap K, fun K => by rw [h3]; exact hS.sess.dk2db K⟩

/-! ## The toy primitives satisfy the contracts -/

theorem toyCrypto_sound : toyCrypto.Sound where
  decrypt_encrypt := by intro d k iv; simp [toyCrypto]
  ecdh := by
    intro a b
    simp only [toyCrypto, List.getD_cons_succ]
    have h : ∀ x : Nat, (List.replicate 32 x).getD 0 0 = x := by intro x; rfl
    rw [h, h, Nat.mul_comm]
  pub_length := by intro a; simp [toyCrypto]
  hmac_length := by intro k m; simp [toyCrypto]
  hmac512_length := by intro k m; simp [toyCrypto]

theorem toyCrypto_keys (saltedRoot : BinaryData) (j : Nat) :
    ∃ kp, computeKeyPair toyCrypto saltedRoot j = .ok kp := by
  simp [computeKeyPair, toyCrypto, get_BinaryData]

theorem toyEntropy_iv (k : BinaryData) : (toyEntropy k).2.length = 16 := rfl

theorem toySession_load : emptyDb.loadAllEntries toyCrypto toyEntropy [9] = .ok toySession := by
  rfl

/-! ## Claims -/

/-- C1. For every encrypted store that loads without error and every sequence
of committed write transactions that insert new logical keys, overwrite stored
keys or erase stored keys (logical keys non-empty), every commit succeeds and
closing and reloading succeeds: the load reconciles every missing db-key with a
later erasure place holder and meets no duplicated logical key, and the map it
loads returns, for every logical key, what the sequence of calls leaves under
it: the last value written for a surviving key, nothing for an erased one. The
store is read in db-key order, its db-keys and the allocator stay below 2^31,
and the primitives meet their contracts. -/
theorem reload_after_committed_transactions (c : Crypto) (hc : c.Sound) (ent ent2 : Entropy)
    (hent : ∀ k, (ent k).2.length = 16) (d0 d1 : DBInterface) (rootKey : BinaryData)
    (hfresh : d0.dataMap_ = [] ∧ d0.dataKeyToDbKey_ = [])
    (hsorted : SortedBelow d0.db_ (-1))
    (hkeys : ∀ j, ∃ kp, computeKeyPair c (c.getHMAC256 d0.controlSalt_ rootKey) j = .ok kp)
    (hload : d0.loadAllEntries c ent rootKey = .ok d1)
    (txs : List (List TxOp)) (hok : StoredTxs d1.dataMap_ txs)
    (hb : d1.dbKeyCounter_ + 2 * (txs.map List.length).sum < 2 ^ 31) :
    ∃ d2 d3, commitAll c ent txs d1 = (d2, none) ∧
      d2.dataMap_ = applyAll d1.dataMap_ txs ∧
      d2.reopen.loadAllEntries c ent2 rootKey = .ok d3 ∧
      (∀ K, mapFind d3.dataMap_ K = mapFind (applyAll d1.dataMap_ txs) K) ∧
      (∀ K, mapFind d3.dataKeyToDbKey_ K = mapFind d2.dataKeyToDbKey_ K) := by
  obtain ⟨priv0, mac0, t, h0, hS, hsalt⟩ :=
    load_sessB hc hent hfresh hsorted hload (by omega)
  have hf := freshLoad_init d0 hfresh priv0 mac0
  obtain ⟨d2, t2, e1, hS2, hm2, hs2⟩ := commitAll_sessB hc hent hf txs d1 t hS hok hb
  have hsalt2 : d2.controlSalt_ = d0.controlSalt_ := by rw [hs2, hsalt]
  have hinit : initLoadState d0 priv0 mac0 = initLoadState d2.reopen priv0 mac0 := by
    simp only [initLoadState, hfresh.1, hfresh.2, DBInterface.reopen]
  rw [hinit, ← hsalt2] at hS2
  rw [← hsalt2] at h0
  obtain ⟨d3, h3, h4, h5⟩ := @reload_sessB c ent2 d2 rootKey priv0 mac0 t2 h0 hS2
    (by rw [hsalt2]; exact hkeys _)
  exact ⟨d2, d3, e1, hm2, h3, fun K => by rw [h4, hm2], h5⟩

/-- C1, witness: the empty store, loaded, then logical key `[1,2,3]` written
with `[10]`, overwritten with `[11]`, overwritten with `[12]`, each in its own
transaction; close and reload. -/
theorem reload_after_committed_transactions_witness :
    ∃ d2 d3,
      commitAll toyCrypto toyEntropy
        [[.insert [1, 2, 3] [10]], [.insert [1, 2, 3] [11]], [.insert [1, 2, 3] [12]]]
        toySession = (d2, none) ∧
      d2.dataMap_ = applyAll toySession.dataMap_
        [[.insert [1, 2, 3] [10]], [.insert [1, 2, 3] [11]], [.insert [1, 2, 3] [12]]] ∧
      d2.reopen.loadAllEntries toyCrypto toyEntropy [9] = .ok d3 ∧
      (∀ K, mapFind d3.dataMap_ K = mapFind (applyAll toySession.dataMap_
        [[.insert [1, 2, 3] [10]], [.insert [1, 2, 3] [11]], [.insert [1, 2, 3] [12]]]) K) ∧
      (∀ K, mapFind d3.dataKeyToDbKey_ K = mapFind d2.dataKeyToDbKey_ K) :=
  reload_after_committed_transactions toyCrypto toyCrypto_sound toyEntropy toyEntropy
    toyEntropy_iv emptyDb toySession [9] ⟨rfl, rfl⟩
    ⟨List.Pairwise.nil, fun _ h => absurd h (List.not_mem_nil _)⟩
    (toyCrypto_keys _) toySession_load _
    (by simp [StoredTxs, StoredOps, TxOp.Ok]) (by decide)

/-- C3. For every db-key, logical key, value, MAC key and key pair
(`decrPriv`, `encrPub` = public key of `decrPriv`), `readDataPacket` on the
packet `createDataPacket` makes returns exactly (key, value), when AES-CBC
decryption inverts encryption and both sides of the ECDH exchange reach the
same point (with the 33-byte public key, 32-byte MAC and 16-byte IV of the
primitives, and sizes a `size_t` holds). -/
theorem readDataPacket_createDataPacket_roundtrip (c : Crypto) (hc : c.Sound)
    (dbKey dataKey dataVal macKey decrPrivKey localPrivKey iv : BinaryData)
    (hiv : iv.length = 16) (hk : dataKey.length < 2 ^ 64) (hv : dataVal.length < 2 ^ 64) :
    readDataPacket c dbKey
        (createDataPacket c dbKey dataKey dataVal (c.ComputePublicKey decrPrivKey) macKey
          localPrivKey iv)
        decrPrivKey macKey
      = .ok (dataKey, dataVal) :=
  readDataPacket_createDataPacket c hc dbKey dataKey dataVal macKey decrPrivKey localPrivKey iv
    hiv hk hv

/-- C3, witness: key `[1,2,3]`, value `[10,20]` under db-key 5. -/
theorem readDataPacket_createDataPacket_roundtrip_witness :
    readDataPacket toyCrypto [0, 0, 0, 5]
        (createDataPacket toyCrypto [0, 0, 0, 5] [1, 2, 3] [10, 20]
          (toyCrypto.ComputePublicKey [42]) [8, 8] [1] (List.replicate 16 0))
        [42] [8, 8]
      = .ok ([1, 2, 3], [10, 20]) :=
  readDataPacket_createDataPacket_roundtrip toyCrypto toyCrypto_sound [0, 0, 0, 5] [1, 2, 3]
    [10, 20] [8, 8] [42] [1] (List.replicate 16 0) (by decide) (by decide) (by decide)

theorem NamedLater.mono {c : Crypto} {saltedRoot : BinaryData} {s0 : LoadState}
    {raw : List (Nat × BinaryData)} {g : Nat} (h : NamedLater c saltedRoot s0 raw g)
    (more : List (Nat × BinaryData)) : NamedLater c saltedRoot s0 (raw ++ more) g := by
  obtain ⟨l1, p, pv, l2, sp, e, h1, h2, h3⟩ := h
  exact ⟨l1, p, pv, l2 ++ more, sp, by rw [e]; simp, h1, h2, h3⟩

/-- An iteration of the load loop closes no db-key but the one it reads and the
one an erasure place holder names there. -/
theorem loadStep_open {c : Crypto} {saltedRoot : BinaryData} {s s' : LoadState} {k : Nat}
    {val : BinaryData} (hs : LoadInv s) (hk : k < 2 ^ 31) (hlt : s.prevDbKey < k)
    (h : loadStep c saltedRoot s k val = .ok s') (g : Nat) :
    (Open s' g → Open s g) ∧
      (Open s g → g ≠ k → ¬ Open s' g → g < k ∧ readsAsPlaceholder c s k val g) := by
  have hm := loadInv_markState hs hk hlt
  have hom := open_markState hs hk hlt g
  rcases loadStep_cases hk h with ⟨dk, dv, _, _, hf, rfl⟩ | ⟨dv, g0, hr, hcl, hg0, rfl⟩ |
    ⟨dv, priv, mac, _, _, _, rfl⟩
  · have e : Open (addData (markState s k) k dk dv) g ↔ Open (markState s k) g := Iff.rfl
    rw [e, hom]
    exact ⟨fun h => h.1, fun h1 h2 h3 => absurd ⟨h1, h2⟩ h3⟩
  · rw [open_closeGap hm hg0, hom]
    refine ⟨fun h => h.1.1, fun h1 h2 h3 => ?_⟩
    have hgg : g = g0 := by
      by_contra hne
      exact h3 ⟨⟨h1, h2⟩, hne⟩
    subst hgg
    exact ⟨((mem_markState_gaps hs hk hlt g).1 hg0).2, dv, hr, hcl⟩
  · have e : Open (cycleKeys (markState s k) priv mac) g ↔ Open (markState s k) g := Iff.rfl
    rw [e, hom]
    exact ⟨fun h => h.1, fun h1 h2 h3 => absurd ⟨h1, h2⟩ h3⟩

/-- A db-key that is closed stays closed. -/
theorem loadLoop_closed {c : Crypto} {saltedRoot : BinaryData} {raw : List (Nat × BinaryData)}
    {s t : LoadState} (hs : LoadInv s) (hraw : SortedBelow raw s.prevDbKey)
    (h : loadLoop c saltedRoot raw s = .ok t) {g : Nat} (hg : ¬ Open s g) : ¬ Open t g := by
  induction raw generalizing s with
  | nil =>
    simp only [loadLoop, Except.ok.injEq] at h
    subst h; exact hg
  | cons e rest ih =>
    obtain ⟨k, val⟩ := e
    obtain ⟨hlo, hk, hrest⟩ := sortedBelow_cons hraw
    simp only [loadLoop] at h
    cases hst : loadStep c saltedRoot s k val with
    | error e => simp [hst] at h
    | ok s' =>
      simp only [hst] at h
      obtain ⟨hs', hp⟩ := loadStep_inv hs hk hlo hst
      rw [← hp] at hrest
      exact ih hs' hrest h (fun ho => hg ((loadStep_open hs hk hlo hst g).1 ho))

/-- Every db-key the loop has passed and that is neither stored nor an open gap
was named by an erasure place holder read at a higher db-key. -/
theorem loadLoop_named {c : Crypto} {saltedRoot : BinaryData} {s0 : LoadState}
    (h0 : LoadInv s0) (rest : List (Nat × BinaryData)) :
    ∀ (pre : List (Nat × BinaryData)) (s t : LoadState),
      SortedBelow (pre ++ rest) s0.prevDbKey → loadLoop c saltedRoot pre s0 = .ok s →
      loadLoop c saltedRoot rest s = .ok t →
      (∀ g, (∀ e ∈ pre, e.1 ≠ g) → ¬ Open s g → NamedLater c saltedRoot s0 pre g) →
      (∀ g, (∀ e ∈ pre ++ rest, e.1 ≠ g) → ¬ Open t g →
        NamedLater c saltedRoot s0 (pre ++ rest) g) := by
  induction rest with
  | nil =>
    intro pre s t _ _ ht hinv
    simp only [loadLoop, Except.ok.injEq] at ht
    subst ht
    simpa using hinv
  | cons e rest ih =>
    intro pre s t hsorted hpre ht hinv
    obtain ⟨k, val⟩ := e
    obtain ⟨hspre, hsrest, hcross⟩ := sortedBelow_append hsorted
    obtain ⟨hs, _⟩ := loadLoop_inv h0 hspre hpre
    have hk : k < 2 ^ 31 := (hsrest.2 (k, val) (List.mem_cons_self _ _)).2
    have hlo : s.prevDbKey < (k : Int) := by
      rcases (loadLoop_prev h0 hspre hpre).2 with ⟨_, h2⟩ | ⟨e, he, h2⟩
      · rw [h2]; exact (hsrest.2 (k, val) (List.mem_cons_self _ _)).1
      · rw [h2]
        have := hcross e he (k, val) (List.mem_cons_self _ _)
        simp only at this; omega
    simp only [loadLoop] at ht
    cases hst : loadStep c saltedRoot s k val with
    | error e => simp [hst] at ht
    | ok s' =>
      simp only [hst] at ht
      have happ : pre ++ (k, val) :: rest = (pre ++ [(k, val)]) ++ rest := by simp
      rw [happ] at hsorted ⊢
      have hpre' : loadLoop c saltedRoot (pre ++ [(k, val)]) s0 = .ok s' := by
        rw [loadLoop_snoc hpre]; exact hst
      apply ih (pre ++ [(k, val)]) s' t hsorted hpre' ht
      intro g hg hclosed
      have hgk : g ≠ k := fun e => hg (k, val) (by simp) e.symm
      have hgpre : ∀ e ∈ pre, e.1 ≠ g := fun e he => hg e (List.mem_append_left _ he)
      by_cases ho : Open s g
      · obtain ⟨h1, h2⟩ := (loadStep_open hs hk hlo hst g).2 ho hgk hclosed
        exact ⟨pre, k, val, [], s, rfl, h1, hpre, h2⟩
      · exact (hinv g hgpre ho).mono _

/-- An open gap of the loop is a db-key that is not stored. -/
theorem loadLoop_gaps_missing {c : Crypto} {saltedRoot : BinaryData}
    {raw : List (Nat × BinaryData)} {s t : LoadState} (hs : LoadInv s)
    (hraw : SortedBelow raw s.prevDbKey) (h : loadLoop c saltedRoot raw s = .ok t) {g : Nat}
    (hg : g ∈ t.gaps) (hsg : g ∉ s.gaps) : ∀ e ∈ raw, e.1 ≠ g := by
  induction raw generalizing s with
  | nil => intro e he; simp at he
  | cons e rest ih =>
    obtain ⟨k, val⟩ := e
    obtain ⟨hlo, hk, hrest⟩ := sortedBelow_cons hraw
    simp only [loadLoop] at h
    cases hst : loadStep c saltedRoot s k val with
    | error e => simp [hst] at h
    | ok s' =>
      simp only [hst] at h
      obtain ⟨hs', hp⟩ := loadStep_inv hs hk hlo hst
      have hrest' : SortedBelow rest s'.prevDbKey := by rw [hp]; exact hrest
      have hopen : Open s' g := by
        by_contra hc
        exact loadLoop_closed hs' hrest' h hc (Or.inl hg)
      have hos := (loadStep_open hs hk hlo hst g).1 hopen
      intro e he
      rcases List.mem_cons.1 he with rfl | he
      · -- the key just read is closed
        intro ek
        simp only at ek
        have hm := open_markState hs hk hlo g
        have hmm := loadInv_markState hs hk hlo
        rcases loadStep_cases hk hst with ⟨dk, dv, _, _, _, rfl⟩ | ⟨dv, g0, _, _, hg0, rfl⟩ |
          ⟨dv, priv, mac, _, _, _, rfl⟩
        · exact (hm.1 hopen).2 ek.symm
        · exact (hm.1 ((open_closeGap hmm hg0 g).1 hopen).1).2 ek.symm
        · exact (hm.1 hopen).2 ek.symm
      · by_cases hin : g ∈ s'.gaps
        · -- already a gap after this record: it lies below it
          have := hs'.gaps_below g hin
          have := (hrest.2 e he).1
          rw [hp] at *
          omega
        · exact ih hs' hrest' h hin e he

theorem loadLoop_error_of_step {c : Crypto} {saltedRoot : BinaryData}
    {l1 l2 : List (Nat × BinaryData)} {p : Nat} {pv : BinaryData} {s0 sp : LoadState}
    {e : WalletInterfaceException} (h1 : loadLoop c saltedRoot l1 s0 = .ok sp)
    (h2 : loadStep c saltedRoot sp p pv = .error e) :
    loadLoop c saltedRoot (l1 ++ (p, pv) :: l2) s0 = .error e := by
  rw [loadLoop_append, h1]
  simp only [loadLoop, h2]

theorem loadLoop_split {c : Crypto} {saltedRoot : BinaryData}
    {l1 l2 : List (Nat × BinaryData)} {p : Nat} {pv : BinaryData} {s0 sp t : LoadState}
    (h1 : loadLoop c saltedRoot l1 s0 = .ok sp)
    (h : loadLoop c saltedRoot (l1 ++ (p, pv) :: l2) s0 = .ok t) :
    ∃ sq, loadStep c saltedRoot sp p pv = .ok sq ∧ loadLoop c saltedRoot l2 sq = .ok t := by
  rw [loadLoop_append, h1] at h
  simp only [loadLoop] at h
  cases hst : loadStep c saltedRoot sp p pv with
  | error e => simp [hst] at h
  | ok sq =>
    simp only [hst] at h
    exact ⟨sq, rfl, h⟩

theorem loadAllEntries_loop_error {c : Crypto} {ent : Entropy} {d : DBInterface}
    {rootKey priv0 mac0 : BinaryData} {e : WalletInterfaceException}
    (h0 : computeKeyPair c (c.getHMAC256 d.controlSalt_ rootKey) 0 = .ok (priv0, mac0))
    (hl : loadLoop c (c.getHMAC256 d.controlSalt_ rootKey) d.db_ (initLoadState d priv0 mac0)
      = .error e) :
    d.loadAllEntries c ent rootKey = .error e := by
  unfold DBInterface.loadAllEntries
  simp only [h0, hl]

/-- C7. `loadAllEntries` (on a freshly constructed `DBInterface`, over a store
read in db-key order with db-keys below 2^31): (a) it fails whenever some
integer below a stored db-key is neither a stored db-key nor named by an
erasure place holder that the loop reads at a higher db-key; (b) it fails, with
"erasure place holder for missing gap", whenever an erasure place holder names a
db-key that is not in the gap set at the moment it is read; (c) when the
iteration completes and every such missing integer is named by a later
place holder, the gap set is empty at the end of the iteration. -/
theorem loadAllEntries_gap_accounting (c : Crypto) (ent : Entropy) (d : DBInterface)
    (rootKey : BinaryData) (hfresh : d.dataMap_ = [] ∧ d.dataKeyToDbKey_ = [])
    (hsorted : SortedBelow d.db_ (-1)) :
    (∀ g hi hv, (hi, hv) ∈ d.db_ → g < hi → (∀ e ∈ d.db_, e.1 ≠ g) →
      (∀ priv0 mac0,
        computeKeyPair c (c.getHMAC256 d.controlSalt_ rootKey) 0 = .ok (priv0, mac0) →
        ¬ NamedLater c (c.getHMAC256 d.controlSalt_ rootKey) (initLoadState d priv0 mac0)
          d.db_ g) →
      ∃ e, d.loadAllEntries c ent rootKey = .error e) ∧
    (∀ priv0 mac0 l1 p pv l2 sp g,
      computeKeyPair c (c.getHMAC256 d.controlSalt_ rootKey) 0 = .ok (priv0, mac0) →
      d.db_ = l1 ++ (p, pv) :: l2 →
      loadLoop c (c.getHMAC256 d.controlSalt_ rootKey) l1 (initLoadState d priv0 mac0)
        = .ok sp →
      readsAsPlaceholder c sp p pv g →
      g ∉ markGaps sp.prevDbKey (p : Int) sp.gaps →
      d.loadAllEntries c ent rootKey = .error .erasurePlaceHolderForMissingGap) ∧
    (∀ priv0 mac0 t,
      computeKeyPair c (c.getHMAC256 d.controlSalt_ rootKey) 0 = .ok (priv0, mac0) →
      loadLoop c (c.getHMAC256 d.controlSalt_ rootKey) d.db_ (initLoadState d priv0 mac0)
        = .ok t →
      (∀ g hi hv, (hi, hv) ∈ d.db_ → g < hi → (∀ e ∈ d.db_, e.1 ≠ g) →
        NamedLater c (c.getHMAC256 d.controlSalt_ rootKey) (initLoadState d priv0 mac0)
          d.db_ g) →
      t.gaps = []) := by
  have hopen0 : ∀ priv0 mac0 g, Open (initLoadState d priv0 mac0) g := by
    intro priv0 mac0 g
    right
    show (-1 : Int) < (g : Int)
    omega
  refine ⟨?_, ?_, ?_⟩
  · -- (a)
    intro g hi hv hmem hlt hmiss hnot
    cases hres : d.loadAllEntries c ent rootKey with
    | error e => exact ⟨e, rfl⟩
    | ok d1 =>
      exfalso
      obtain ⟨priv0, mac0, s, priv, mac, h0, hl, hg, _, _⟩ := loadAllEntries_ok hres
      have hf := freshLoad_init d hfresh priv0 mac0
      have hs' : SortedBelow d.db_ (initLoadState d priv0 mac0).prevDbKey := hsorted
      have hnamed := loadLoop_named hf.inv d.db_ [] (initLoadState d priv0 mac0) s
        (by simpa using hs') rfl hl (fun g _ hc => absurd (hopen0 priv0 mac0 g) hc)
      apply hnot priv0 mac0 h0
      have := hnamed g (by simpa using hmiss) (by
        intro ho
        rcases ho with ho | ho
        · rw [hg] at ho; simp at ho
        · have := (loadLoop_prev hf.inv hs' hl).1 (hi, hv) hmem
          simp only at this
          omega)
      simpa using this
  · -- (b)
    intro priv0 mac0 l1 p pv l2 sp g h0 hsplit hl1 hread hnot
    apply loadAllEntries_loop_error h0
    rw [hsplit]
    apply loadLoop_error_of_step hl1
    have hp : p < 2 ^ 31 := by
      have := hsorted.2 (p, pv) (by rw [hsplit]; simp)
      exact this.2
    obtain ⟨packet, hr, hcl⟩ := hread
    rw [loadStep_eq c _ sp p pv hp, hr]
    simp only [if_true, hcl]
    rw [if_neg]
    exact hnot
  · -- (c)
    intro priv0 mac0 t h0 hl hall
    have hf := freshLoad_init d hfresh priv0 mac0
    have hs' : SortedBelow d.db_ (initLoadState d priv0 mac0).prevDbKey := hsorted
    obtain ⟨ht, _⟩ := loadLoop_inv hf.inv hs' hl
    apply List.eq_nil_iff_forall_not_mem.2
    intro g hg
    have hmiss := loadLoop_gaps_missing hf.inv hs' hl hg (by simp [initLoadState])
    have hbelow := ht.gaps_below g hg
    obtain ⟨hi, hv, hmem, hlt⟩ : ∃ hi hv, (hi, hv) ∈ d.db_ ∧ g < hi := by
      rcases (loadLoop_prev hf.inv hs' hl).2 with ⟨_, h2⟩ | ⟨e, he, h2⟩
      · rw [h2, hf.prev] at hbelow; omega
      · exact ⟨e.1, e.2, he, by rw [h2] at hbelow; omega⟩
    obtain ⟨l1, p, pv, l2, sp, hsplit, hgp, hl1, packet, hr, hcl⟩ := hall g hi hv hmem hlt hmiss
    rw [hsplit] at hl hs'
    obtain ⟨sq, hst, hl2⟩ := loadLoop_split hl1 hl
    obtain ⟨hs1, hs2, hcross⟩ := sortedBelow_append hs'
    obtain ⟨hlo, hp, hrest⟩ := sortedBelow_cons hs2
    obtain ⟨hsp, _⟩ := loadLoop_inv hf.inv hs1 hl1
    have hprev : sp.prevDbKey < (p : Int) := by
      rcases (loadLoop_prev hf.inv hs1 hl1).2 with ⟨_, h2⟩ | ⟨e, he, h2⟩
      · rw [h2]; exact hlo
      · rw [h2]
        have := hcross e he (p, pv) (List.mem_cons_self _ _)
        simp only at this; omega
    obtain ⟨hsq, hq⟩ := loadStep_inv hsp hp hprev hst
    have hclosed : ¬ Open sq g := by
      have hmm := loadInv_markState hsp hp hprev
      rcases loadStep_cases hp hst with ⟨dk, dv, hdk, hr2, _, _⟩ | ⟨dv, g0, hr2, hcl2, hg0, rfl⟩ |
        ⟨dv, priv, mac, hr2, hcl2, _, _⟩
      · rw [hr] at hr2
        simp only [Except.ok.injEq, Prod.mk.injEq] at hr2
        exact absurd hr2.1.symm hdk
      · rw [hr] at hr2
        simp only [Except.ok.injEq, Prod.mk.injEq, true_and] at hr2
        subst hr2
        rw [hcl] at hcl2
        simp only [Except.ok.injEq, MetaEntry.placeholder.injEq] at hcl2
        subst hcl2
        intro ho
        exact ((open_closeGap hmm hg0 g).1 ho).2 rfl
      · rw [hr] at hr2
        simp only [Except.ok.injEq, Prod.mk.injEq, true_and] at hr2
        subst hr2
        rw [hcl] at hcl2
        simp at hcl2
    have hrest' : SortedBelow l2 sq.prevDbKey := by rw [hq]; exact hrest
    exact loadLoop_closed hsq hrest' hl2 hclosed (Or.inl hg)

theorem commitOp_dataMap (c : Crypto) (ent : Entropy) (d : DBInterface) (op : InsertData) :
    (commitOp c ent d op).1.dataMap_ = d.dataMap_ := by
  unfold commitOp
  simp only [DBInterface.resolveDataKey, DBInterface.getNewDbKey, writePayload]
  cases mapFind d.dataKeyToDbKey_ op.key_ <;> cases op.write_ <;> rfl

theorem commitLoop_dataMap (c : Crypto) (ent : Entropy) (km : List (BinaryData × Nat))
    (vec : List InsertData) (i : Nat) (d : DBInterface) :
    (commitLoop c ent km vec i d).1.dataMap_ = d.dataMap_ := by
  induction vec generalizing i d with
  | nil => rfl
  | cons op rest ih =>
    simp only [commitLoop]
    cases mapFind km op.key_ with
    | none => rfl
    | some effect =>
      simp only []
      split_ifs with h
      · exact ih _ _
      · have := commitOp_dataMap c ent d op
        cases hco : commitOp c ent d op with
        | mk d' e =>
          rw [hco] at this
          cases e with
          | some e => exact this
          | none =>
            simp only []
            rw [ih]; exact this

/-- A commit loop over operations that all name the data key of the last one
performs that last operation only. -/
theorem commitLoop_single (c : Crypto) (ent : Entropy) (km : List (BinaryData × Nat))
    (last : InsertData) (pre : List InsertData) :
    ∀ (i : Nat) (d : DBInterface), LastIdxMap km i (pre ++ [last]) →
      (∀ op ∈ pre, op.key_ = last.key_) →
      commitLoop c ent km (pre ++ [last]) i d = commitOp c ent d last := by
  induction pre with
  | nil =>
    intro i d hkm _
    have hfind := hkm last (by simp)
    simp only [List.nil_append, lastIdxFrom, if_true] at hfind
    simp only [List.nil_append, commitLoop, hfind, ne_eq, not_true_eq_false, if_false]
    cases hco : commitOp c ent d last with
    | mk d' e => cases e <;> rfl
  | cons op rest ih =>
    intro i d hkm hkeys
    have hfind := hkm op (by simp)
    have hk : op.key_ = last.key_ := hkeys op (List.mem_cons_self _ _)
    have hsome : ∃ j, lastIdxFrom (i + 1) (rest ++ [last]) op.key_ = some j := by
      rw [lastIdxFrom_snoc, hk]; simp
    obtain ⟨j, hj⟩ := hsome
    have hij : i ≠ j := by have := lastIdxFrom_ge hj; omega
    have hfind' : mapFind km op.key_ = some j := by
      rw [hfind]
      show (match lastIdxFrom (i + 1) (rest ++ [last]) op.key_ with
        | some j => some j
        | none => if op.key_ = op.key_ then some i else none) = some j
      rw [hj]
    show commitLoop c ent km (op :: (rest ++ [last])) i d = _
    simp only [commitLoop, hfind', hij, ne_eq, not_false_eq_true, if_true]
    exact ih (i + 1) d hkm.tail (fun o ho => hkeys o (List.mem_cons_of_mem _ ho))

theorem update_eta (d : DBInterface) (vec : List InsertData) :
    d.update vec = { d with dataMap_ := (d.update vec).dataMap_ } := by
  induction vec generalizing d with
  | nil => rfl
  | cons op rest ih =>
    simp only [DBInterface.update]
    split_ifs
    · rw [ih]
    · rw [ih]

theorem update_dataMap_congr (vec : List InsertData) (d1 d2 : DBInterface)
    (h : d1.dataMap_ = d2.dataMap_) : (d1.update vec).dataMap_ = (d2.update vec).dataMap_ := by
  induction vec generalizing d1 d2 with
  | nil => exact h
  | cons op rest ih =>
    simp only [DBInterface.update]
    split_ifs
    · apply ih
      show mapErase d1.dataMap_ _ = mapErase d2.dataMap_ _
      rw [h]
    · apply ih
      show mapInsert d1.dataMap_ _ _ = mapInsert d2.dataMap_ _ _
      rw [h]

/-- C6. When the outermost write transaction commits with the db-key allocator
at `n` and its buffer holds operations on one logical key `K` only: (a) if the
final operation inserts `v` and `K` has no db-key, the payload packet is written
at db-key `n`, `K` is mapped to `n` and one db-key is consumed; (b) if the final
operation inserts `v` and `K` is stored at db-key `p`, slot `p` is wiped, an
erasure place holder naming `p` is written at `n`, the payload at `n+1`, `K` is
mapped to `n+1` and two db-keys are consumed; (c) if the final operation erases
`K`, stored at `p`, slot `p` is wiped, only the place holder is written, at
`n`, and `K` is unmapped. -/
theorem commit_single_key (c : Crypto) (ent : Entropy) (d : DBInterface) (K : BinaryData)
    (pre : List TxOp) (last : TxOp) (hpre : ∀ op ∈ pre, op.key = K) (hlast : last.key = K)
    (hn : d.dbKeyCounter_ + 2 < 2 ^ 32) :
    (∀ v, last = .insert K v → mapFind d.dataKeyToDbKey_ K = none →
      (({} : WalletIfaceTransaction).calls (pre ++ [last])).commit c ent d =
        ({ d.update ((pre ++ [last]).map TxOp.toInsertData) with
            db_ := mapInsert d.db_ d.dbKeyCounter_
              (createDataPacket c (WRITE_UINT32_BE d.dbKeyCounter_) K v d.encrPubKey_ d.macKey_
                (ent (WRITE_UINT32_BE d.dbKeyCounter_)).1 (ent (WRITE_UINT32_BE d.dbKeyCounter_)).2)
            dataKeyToDbKey_ := mapInsert d.dataKeyToDbKey_ K (WRITE_UINT32_BE d.dbKeyCounter_)
            dbKeyCounter_ := d.dbKeyCounter_ + 1 }, none)) ∧
    (∀ v p, last = .insert K v → p < 2 ^ 32 →
      mapFind d.dataKeyToDbKey_ K = some (WRITE_UINT32_BE p) →
      classifyMeta (erasedPacket (WRITE_UINT32_BE p)) = .ok (.placeholder p) ∧
      (({} : WalletIfaceTransaction).calls (pre ++ [last])).commit c ent d =
        ({ d.update ((pre ++ [last]).map TxOp.toInsertData) with
            db_ := mapInsert
              (mapInsert (mapErase d.db_ p) d.dbKeyCounter_
                (createDataPacket c (WRITE_UINT32_BE d.dbKeyCounter_) []
                  (erasedPacket (WRITE_UINT32_BE p)) d.encrPubKey_ d.macKey_
                  (ent (WRITE_UINT32_BE d.dbKeyCounter_)).1
                  (ent (WRITE_UINT32_BE d.dbKeyCounter_)).2))
              (d.dbKeyCounter_ + 1)
              (createDataPacket c (WRITE_UINT32_BE (d.dbKeyCounter_ + 1)) K v d.encrPubKey_
                d.macKey_ (ent (WRITE_UINT32_BE (d.dbKeyCounter_ + 1))).1
                (ent (WRITE_UINT32_BE (d.dbKeyCounter_ + 1))).2)
            dataKeyToDbKey_ :=
              mapInsert d.dataKeyToDbKey_ K (WRITE_UINT32_BE (d.dbKeyCounter_ + 1))
            dbKeyCounter_ := d.dbKeyCounter_ + 2 }, none)) ∧
    (∀ p, last = .erase K → p < 2 ^ 32 →
      mapFind d.dataKeyToDbKey_ K = some (WRITE_UINT32_BE p) →
      (({} : WalletIfaceTransaction).calls (pre ++ [last])).commit c ent d =
        ({ d.update ((pre ++ [last]).map TxOp.toInsertData) with
            db_ := mapInsert (mapErase d.db_ p) d.dbKeyCounter_
              (createDataPacket c (WRITE_UINT32_BE d.dbKeyCounter_) []
                (erasedPacket (WRITE_UINT32_BE p)) d.encrPubKey_ d.macKey_
                (ent (WRITE_UINT32_BE d.dbKeyCounter_)).1
                (ent (WRITE_UINT32_BE d.dbKeyCounter_)).2)
            dataKeyToDbKey_ := mapErase d.dataKeyToDbKey_ K
            dbKeyCounter_ := d.dbKeyCounter_ + 1 }, none)) := by
  obtain ⟨hkm, hvec⟩ := calls_empty (pre ++ [last])
  have hvec' : (({} : WalletIfaceTransaction).calls (pre ++ [last])).insertVec_
      = pre.map TxOp.toInsertData ++ [last.toInsertData] := by
    rw [hvec]; simp
  have hkeyOf : ∀ o : TxOp, o.toInsertData.key_ = o.key := by
    intro o; cases o <;> rfl
  have hloop : ∀ d : DBInterface,
      commitLoop c ent (({} : WalletIfaceTransaction).calls (pre ++ [last])).keyToDataMap_
        (({} : WalletIfaceTransaction).calls (pre ++ [last])).insertVec_ 0 d
        = commitOp c ent d last.toInsertData := by
    intro d
    rw [hvec'] at hkm ⊢
    apply commitLoop_single c ent _ _ _ 0 d hkm
    intro op hop
    obtain ⟨o, ho, rfl⟩ := List.mem_map.1 hop
    rw [hkeyOf, hkeyOf, hpre o ho, hlast]
  have h1 : incr32 d.dbKeyCounter_ = d.dbKeyCounter_ + 1 := incr32_of_lt (by omega)
  have h2 : incr32 (d.dbKeyCounter_ + 1) = d.dbKeyCounter_ + 2 := incr32_of_lt (by omega)
  have hr1 : READ_UINT32_BE (WRITE_UINT32_BE d.dbKeyCounter_) = d.dbKeyCounter_ :=
    READ_WRITE_UINT32_BE _ (by omega)
  have hr2 : READ_UINT32_BE (WRITE_UINT32_BE (d.dbKeyCounter_ + 1)) = d.dbKeyCounter_ + 1 :=
    READ_WRITE_UINT32_BE _ (by omega)
  have hupd := update_eta
  have hupdMap : ∀ (d' : DBInterface) (vec : List InsertData), d'.dataMap_ = d.dataMap_ →
      (d'.update vec).dataMap_ = (d.update vec).dataMap_ :=
    fun d' vec h => update_dataMap_congr vec d' d h
  refine ⟨?_, ?_, ?_⟩
  · intro v hl hf
    subst hl
    simp only [WalletIfaceTransaction.commit, hloop]
    have : commitOp c ent d (TxOp.insert K v).toInsertData
        = (writePayload c ent d.getNewDbKey.2 (TxOp.insert K v).toInsertData d.getNewDbKey.1,
            none) := by
      simp only [commitOp, DBInterface.resolveDataKey, TxOp.toInsertData, hf]
      rfl
    rw [this]
    simp only [Prod.mk.injEq, and_true]
    rw [hupd, hupd d]
    rw [hupdMap _ _ (show (writePayload c ent d.getNewDbKey.2 (TxOp.insert K v).toInsertData
      d.getNewDbKey.1).dataMap_ = d.dataMap_ from rfl), hvec]
    simp only [writePayload, DBInterface.getNewDbKey, lmdbInsert, hr1, h1, TxOp.toInsertData]
  · intro v p hl hp hf
    subst hl
    refine ⟨classifyMeta_erasedPacket p hp, ?_⟩
    simp only [WalletIfaceTransaction.commit, hloop]
    have hco := commitOp_dataMap c ent d (TxOp.insert K v).toInsertData
    have : commitOp c ent d (TxOp.insert K v).toInsertData
        = ((commitOp c ent d (TxOp.insert K v).toInsertData).1, none) := by
      simp only [commitOp, DBInterface.resolveDataKey, TxOp.toInsertData, hf]
      rfl
    rw [this]
    simp only [Prod.mk.injEq, and_true]
    rw [hupd, hupd d, hupdMap _ _ hco, hvec]
    simp only [commitOp, DBInterface.resolveDataKey, TxOp.toInsertData, hf, writePayload,
      DBInterface.getNewDbKey, lmdbInsert, lmdbWipe, hr1, hr2, h1, h2,
      READ_WRITE_UINT32_BE p hp]
    rfl
  · intro p hl hp hf
    subst hl
    simp only [WalletIfaceTransaction.commit, hloop]
    have hco := commitOp_dataMap c ent d (TxOp.erase K).toInsertData
    have : commitOp c ent d (TxOp.erase K).toInsertData
        = ((commitOp c ent d (TxOp.erase K).toInsertData).1, none) := by
      simp only [commitOp, DBInterface.resolveDataKey, TxOp.toInsertData, hf]
      rfl
    rw [this]
    simp only [Prod.mk.injEq, and_true]
    rw [hupd, hupd d, hupdMap _ _ hco, hvec]
    simp only [commitOp, DBInterface.resolveDataKey, TxOp.toInsertData, hf, writePayload,
      DBInterface.getNewDbKey, lmdbInsert, lmdbWipe, hr1, h1, READ_WRITE_UINT32_BE p hp]
    rfl

theorem commitOp_error {c : Crypto} {ent : Entropy} {d d' : DBInterface} {op : InsertData}
    {e : WalletInterfaceException} (h : commitOp c ent d op = (d', some e)) :
    d'.db_ = d.db_ ∧ d'.dataKeyToDbKey_ = d.dataKeyToDbKey_ := by
  unfold commitOp at h
  simp only [DBInterface.resolveDataKey, DBInterface.getNewDbKey] at h
  cases hf : mapFind d.dataKeyToDbKey_ op.key_ with
  | none =>
    simp only [hf] at h
    cases hw : op.write_ with
    | true => simp [hw] at h
    | false =>
      simp only [hw, Bool.false_eq_true, if_false, Bool.not_false, if_true, Prod.mk.injEq] at h
      rw [← h.1]
      exact ⟨rfl, rfl⟩
  | some x =>
    simp only [hf, if_true] at h
    cases hw : op.write_ <;> simp [hw] at h

/-- A commit loop that throws leaves the records and the db-key map as the
operations committed before the failing one made them. -/
theorem commitLoop_error {c : Crypto} {ent : Entropy} {km : List (BinaryData × Nat)}
    (vec : List InsertData) :
    ∀ (i : Nat) (d d' : DBInterface) (e : WalletInterfaceException),
      commitLoop c ent km vec i d = (d', some e) →
      ∃ pre op rest d1, vec = pre ++ op :: rest ∧ commitLoop c ent km pre i d = (d1, none) ∧
        d'.db_ = d1.db_ ∧ d'.dataKeyToDbKey_ = d1.dataKeyToDbKey_ := by
  induction vec with
  | nil => intro i d d' e h; simp [commitLoop] at h
  | cons op rest ih =>
    intro i d d' e h
    simp only [commitLoop] at h
    cases hf : mapFind km op.key_ with
    | none =>
      simp only [hf, Prod.mk.injEq] at h
      exact ⟨[], op, rest, d, rfl, rfl, by rw [h.1], by rw [h.1]⟩
    | some effect =>
      simp only [hf] at h
      by_cases hi : i ≠ effect
      · simp only [hi, ne_eq, not_false_eq_true, if_true] at h
        obtain ⟨pre, op', rest', d1, e1, e2, e3, e4⟩ := ih (i + 1) d d' e h
        refine ⟨op :: pre, op', rest', d1, by rw [e1]; rfl, ?_, e3, e4⟩
        simp only [commitLoop, hf, hi, ne_eq, not_false_eq_true, if_true]
        exact e2
      · simp only [hi, if_false] at h
        cases hco : commitOp c ent d op with
        | mk d2 e2 =>
          cases e2 with
          | some e2 =>
            simp only [hco, Prod.mk.injEq] at h
            obtain ⟨h1, h2⟩ := commitOp_error hco
            exact ⟨[], op, rest, d, rfl, rfl, by rw [← h.1]; exact h1, by rw [← h.1]; exact h2⟩
          | none =>
            simp only [hco] at h
            obtain ⟨pre, op', rest', d1, e1, e2, e3, e4⟩ := ih (i + 1) d2 d' e h
            refine ⟨op :: pre, op', rest', d1, by rw [e1]; rfl, ?_, e3, e4⟩
            simp only [commitLoop, hf, hi, if_false, hco]
            exact e2

/-- C9, as amended. If committing the outermost write transaction fails, the
in-memory key/value map is unchanged, and the records and the
logical-key-to-db-key map are those left by the operations committed before the
failing one: these are not undone. -/
theorem commit_failure_state (c : Crypto) (ent : Entropy) (tx : WalletIfaceTransaction)
    (d d' : DBInterface) (e : WalletInterfaceException)
    (h : tx.commit c ent d = (d', some e)) :
    d'.dataMap_ = d.dataMap_ ∧
      ∃ pre op rest d1, tx.insertVec_ = pre ++ op :: rest ∧
        commitLoop c ent tx.keyToDataMap_ pre 0 d = (d1, none) ∧
        d'.db_ = d1.db_ ∧ d'.dataKeyToDbKey_ = d1.dataKeyToDbKey_ := by
  unfold WalletIfaceTransaction.commit at h
  cases hl : commitLoop c ent tx.keyToDataMap_ tx.insertVec_ 0 d with
  | mk d2 e2 =>
    cases e2 with
    | none => simp [hl] at h
    | some e2 =>
      simp only [hl, Prod.mk.injEq, Option.some.injEq] at h
      obtain ⟨h1, h2⟩ := h
      subst h1 h2
      refine ⟨?_, commitLoop_error _ 0 d d2 e2 hl⟩
      have := commitLoop_dataMap c ent tx.keyToDataMap_ tx.insertVec_ 0 d
      rw [hl] at this
      exact this

/-- C9, counterexample: in the toy session (allocator at 1, one record) a
transaction inserts `[10]` under `[1,2,3]` and erases `[5]`, which is not
stored. The commit throws, the payload of `[1,2,3]` stays written at db-key 1,
the data key stays mapped, and the allocator is at 3. -/
theorem commit_failure_not_rolled_back :
    (((({} : WalletIfaceTransaction).calls [.insert [1, 2, 3] [10], .erase [5]]).commit
        toyCrypto toyEntropy toySession).2 = some .keyMarkedForDeletionDoesNotExist) ∧
    ((({} : WalletIfaceTransaction).calls [.insert [1, 2, 3] [10], .erase [5]]).commit
        toyCrypto toyEntropy toySession).1.db_.map Prod.fst = [0, 1] ∧
    toySession.db_.map Prod.fst = [0] ∧
    ((({} : WalletIfaceTransaction).calls [.insert [1, 2, 3] [10], .erase [5]]).commit
        toyCrypto toyEntropy toySession).1.dbKeyCounter_ = 3 ∧
    toySession.dbKeyCounter_ = 1 ∧
    ((({} : WalletIfaceTransaction).calls [.insert [1, 2, 3] [10], .erase [5]]).commit
        toyCrypto toyEntropy toySession).1.dataKeyToDbKey_ = [([1, 2, 3], [0, 0, 0, 1])] ∧
    toySession.dataKeyToDbKey_ = [] := by
  decide

/-- C9 as amended, witness: the failing transaction of the counterexample. -/
theorem commit_failure_state_witness :
    ((({} : WalletIfaceTransaction).calls [.insert [1, 2, 3] [10], .erase [5]]).commit
        toyCrypto toyEntropy toySession).1.dataMap_ = toySession.dataMap_ ∧
      ∃ pre op rest d1,
        (({} : WalletIfaceTransaction).calls [.insert [1, 2, 3] [10], .erase [5]]).insertVec_
          = pre ++ op :: rest ∧
        commitLoop toyCrypto toyEntropy
          (({} : WalletIfaceTransaction).calls [.insert [1, 2, 3] [10], .erase [5]]).keyToDataMap_
          pre 0 toySession = (d1, none) ∧
        ((({} : WalletIfaceTransaction).calls [.insert [1, 2, 3] [10], .erase [5]]).commit
          toyCrypto toyEntropy toySession).1.db_ = d1.db_ ∧
        ((({} : WalletIfaceTransaction).calls [.insert [1, 2, 3] [10], .erase [5]]).commit
          toyCrypto toyEntropy toySession).1.dataKeyToDbKey_ = d1.dataKeyToDbKey_ :=
  commit_failure_state toyCrypto toyEntropy
    (({} : WalletIfaceTransaction).calls [.insert [1, 2, 3] [10], .erase [5]]) toySession _
    .keyMarkedForDeletionDoesNotExist (by decide)

/-- C6, witness: in the toy session (allocator at 1) a transaction that
inserts `[10]` then `[11]` under the new key `[1,2,3]` consumes one db-key;
after it (payload at db-key 1, allocator at 2) an overwrite consumes two and
maps the key to db-key 3, an erase consumes one and unmaps the key. -/
theorem commit_single_key_witness :
    ((({} : WalletIfaceTransaction).calls ([.insert [1, 2, 3] [10]] ++ [.insert [1, 2, 3] [11]])
        ).commit toyCrypto toyEntropy toySession).1.dbKeyCounter_ = 2 ∧
    ((({} : WalletIfaceTransaction).calls ([] ++ [.insert [1, 2, 3] [12]])
        ).commit toyCrypto toyEntropy toyStoreA).1.dataKeyToDbKey_
      = [([1, 2, 3], [0, 0, 0, 3])] ∧
    ((({} : WalletIfaceTransaction).calls ([] ++ [.erase [1, 2, 3]])
        ).commit toyCrypto toyEntropy toyStoreA).1.dataKeyToDbKey_ = [] := by
  refine ⟨?_, ?_, ?_⟩
  · rw [(commit_single_key toyCrypto toyEntropy toySession [1, 2, 3] [.insert [1, 2, 3] [10]]
      (.insert [1, 2, 3] [11]) (by decide) rfl (by decide)).1 [11] rfl (by decide)]
    decide
  · rw [((commit_single_key toyCrypto toyEntropy toyStoreA [1, 2, 3] []
      (.insert [1, 2, 3] [12]) (by decide) rfl (by decide)).2.1 [12] 1 rfl (by decide)
      (by decide)).2]
    decide
  · rw [(commit_single_key toyCrypto toyEntropy toyStoreA [1, 2, 3] []
      (.erase [1, 2, 3]) (by decide) rfl (by decide)).2.2 1 rfl (by decide) (by decide)]
    decide

/-- C7, witness: the store whose record at db-key 1 is an erasure place holder
naming db-key 7, which is no open gap when the record is read. -/
theorem loadAllEntries_gap_accounting_witness :
    toyStoreBadPlaceholder.loadAllEntries toyCrypto toyEntropy [9]
      = .error .erasurePlaceHolderForMissingGap :=
  (loadAllEntries_gap_accounting toyCrypto toyEntropy toyStoreBadPlaceholder [9] ⟨rfl, rfl⟩
    (by unfold SortedBelow; decide)).2.1
    (List.replicate 32 0) (List.replicate 32 0) toySession.db_ 1 _ [] toyLoadStateAfterFlag 7
    (by decide) rfl (by decide) ⟨erasedPacket (WRITE_UINT32_BE 7), by decide, by decide⟩
    (by decide)

/-- C8. On one thread `thr` and one database `db` with a transaction open
(registry entry `ptx`, outermost object at `p`): opening a transaction of the
same kind yields a nested transaction `q` that carries the lambdas of the
outermost one and raises the counter; for write transactions a call (insert or
erase) made through `q` lands in the buffer of `p` and not in the store; ending
`q` writes nothing and restores the counter; ending `p`, once it is the only
one left, commits its buffer, the nested call included, to the store. Opening a
transaction of the opposite kind fails and leaves the registry (and everything
else) unchanged. -/
theorem nested_transactions (c : Crypto) (ent : Entropy) (w : World) (thr p q : Nat)
    (db : String) (txMap : List (Nat × ParentTx)) (ptx : ParentTx) (pobj : TxObject)
    (op : TxOp)
    (hdb : mapFind w.txMap_ db = some txMap) (hthr : mapFind txMap thr = some ptx)
    (hlbd : ptx.commit_ = true → ptx.lbd_ = some (thr, p))
    (hp : mapFind w.objects p = some pobj) (hpdb : pobj.dbName_ = db) (hq : q ≠ p)
    (hcnt : 1 ≤ ptx.counter_ ∧ ptx.counter_ + 1 < 2 ^ 32) :
    ((w.construct thr q db ptx.commit_).2 = none ∧
      mapFind (w.construct thr q db ptx.commit_).1.objects q
        = some { dbName_ := db, tx := { commit_ := ptx.commit_ }, lbd_ := ptx.lbd_ } ∧
      (∃ txMap1, mapFind (w.construct thr q db ptx.commit_).1.txMap_ db = some txMap1 ∧
        mapFind txMap1 thr = some { ptx with counter_ := ptx.counter_ + 1 }) ∧
      (w.construct thr q db ptx.commit_).1.dbMap_ = w.dbMap_ ∧
      (ptx.commit_ = true →
        (((w.construct thr q db ptx.commit_).1.call thr q op).2 = none ∧
          mapFind ((w.construct thr q db ptx.commit_).1.call thr q op).1.objects p
            = some { pobj with tx := pobj.tx.call op } ∧
          mapFind ((w.construct thr q db ptx.commit_).1.call thr q op).1.objects q
            = some { dbName_ := db, tx := { commit_ := ptx.commit_ }, lbd_ := ptx.lbd_ } ∧
          ((w.construct thr q db ptx.commit_).1.call thr q op).1.dbMap_ = w.dbMap_) ∧
        ((((w.construct thr q db ptx.commit_).1.call thr q op).1.destruct c ent thr q).2 = none ∧
          (((w.construct thr q db ptx.commit_).1.call thr q op).1.destruct c ent thr q).1.dbMap_
            = w.dbMap_ ∧
          mapFind
            (((w.construct thr q db ptx.commit_).1.call thr q op).1.destruct c ent thr q
              ).1.objects p = some { pobj with tx := pobj.tx.call op } ∧
          (∃ txMap3,
            mapFind
              (((w.construct thr q db ptx.commit_).1.call thr q op).1.destruct c ent thr q
                ).1.txMap_ db = some txMap3 ∧ mapFind txMap3 thr = some ptx)) ∧
        (ptx.counter_ = 1 → pobj.tx.commit_ = true →
          ∀ d, mapFind w.dbMap_ db = some d →
            ((((w.construct thr q db ptx.commit_).1.call thr q op).1.destruct c ent thr q
                ).1.destruct c ent thr p).2
              = ((pobj.tx.call op).commit c ent d).2 ∧
            mapFind
              ((((w.construct thr q db ptx.commit_).1.call thr q op).1.destruct c ent thr q
                ).1.destruct c ent thr p).1.dbMap_ db
              = some ((pobj.tx.call op).commit c ent d).1))) ∧
    w.construct thr q db (!ptx.commit_) = (w, some .failedToCreateDbTx) := by
  have hinc : incr32 ptx.counter_ = ptx.counter_ + 1 := incr32_of_lt hcnt.2
  have hqp : ¬ q = p := hq
  have hpq : ¬ p = q := fun e => hq e.symm
  have e1 : w.construct thr q db ptx.commit_ =
      ({ w with
          txMap_ := mapInsert w.txMap_ db
            (mapInsert txMap thr { ptx with counter_ := ptx.counter_ + 1 })
          objects := mapInsert w.objects q
            ({ dbName_ := db, tx := { commit_ := ptx.commit_ }, lbd_ := ptx.lbd_ } : TxObject) },
        none) := by
    simp only [World.construct, hdb, Option.getD_some, hthr, ne_eq, not_true_eq_false,
      if_false, hinc]
  constructor
  · rw [e1]
    refine ⟨rfl, mapFind_mapInsert_self _ _ _,
      ⟨_, mapFind_mapInsert_self _ _ _, mapFind_mapInsert_self _ _ _⟩, rfl, ?_⟩
    intro hw
    have hl := hlbd hw
    have e2 : World.call
        { w with
          txMap_ := mapInsert w.txMap_ db
            (mapInsert txMap thr { ptx with counter_ := ptx.counter_ + 1 })
          objects := mapInsert w.objects q
            ({ dbName_ := db, tx := { commit_ := ptx.commit_ }, lbd_ := ptx.lbd_ } : TxObject) }
        thr q op =
        ({ w with
            txMap_ := mapInsert w.txMap_ db
              (mapInsert txMap thr { ptx with counter_ := ptx.counter_ + 1 })
            objects := mapInsert
              (mapInsert w.objects q
                ({ dbName_ := db, tx := { commit_ := ptx.commit_ }, lbd_ := ptx.lbd_ } :
                  TxObject))
              p ({ pobj with tx := pobj.tx.call op } : TxObject) }, none) := by
      cases op with
      | insert k v =>
        simp only [World.call, World.insert, mapFind_mapInsert_self, hl, ne_eq,
          not_true_eq_false, if_false, mapFind_mapInsert_ne _ _ _ _ hqp, hp]
        rfl
      | erase k =>
        simp only [World.call, World.erase, mapFind_mapInsert_self, hl, ne_eq,
          not_true_eq_false, if_false, mapFind_mapInsert_ne _ _ _ _ hqp, hp]
        rfl
    rw [e2]
    have hgt : ptx.counter_ + 1 > 1 := by omega
    have e3 : World.destruct c ent
        { w with
            txMap_ := mapInsert w.txMap_ db
              (mapInsert txMap thr { ptx with counter_ := ptx.counter_ + 1 })
            objects := mapInsert
              (mapInsert w.objects q
                ({ dbName_ := db, tx := { commit_ := ptx.commit_ }, lbd_ := ptx.lbd_ } :
                  TxObject))
              p ({ pobj with tx := pobj.tx.call op } : TxObject) } thr q =
        ({ w with
            txMap_ := mapInsert
              (mapInsert w.txMap_ db
                (mapInsert txMap thr { ptx with counter_ := ptx.counter_ + 1 })) db
              (mapInsert (mapInsert txMap thr { ptx with counter_ := ptx.counter_ + 1 }) thr ptx)
            objects := mapErase (mapInsert
              (mapInsert w.objects q
                ({ dbName_ := db, tx := { commit_ := ptx.commit_ }, lbd_ := ptx.lbd_ } :
                  TxObject))
              p ({ pobj with tx := pobj.tx.call op } : TxObject)) q }, none) := by
      simp only [World.destruct, mapFind_mapInsert_ne _ _ _ _ hpq, mapFind_mapInsert_self,
        hgt, if_true, Nat.add_sub_cancel]
    rw [e3]
    refine ⟨⟨rfl, mapFind_mapInsert_self _ _ _, ?_, rfl⟩, ⟨rfl, rfl, ?_, ?_⟩, ?_⟩
    · simp only []
      rw [mapFind_mapInsert_ne _ _ _ _ hpq, mapFind_mapInsert_self]
    · simp only []
      rw [mapFind_mapErase_ne _ _ _ hqp, mapFind_mapInsert_self]
    · exact ⟨_, mapFind_mapInsert_self _ _ _, mapFind_mapInsert_self _ _ _⟩
    · intro h1 hcom d hd
      have hnot : ¬ ptx.counter_ > 1 := by omega
      have hc2 : (pobj.tx.call op).commit_ = true := by
        cases op <;> exact hcom
      simp only [World.destruct, mapFind_mapErase_ne _ _ _ hqp, mapFind_mapInsert_self,
        hpdb, hnot, if_false, hd, hc2, Bool.not_true, Bool.false_eq_true, and_self]
  · simp only [World.construct, hdb, Option.getD_some, hthr]
    cases ptx.commit_ <;> rfl

/-- C8, witness: thread 1 opens a nested write transaction (object 101) inside
the write transaction of `toyWorld`, inserts `[10]` under `[1,2,3]` through it,
ends it, then ends the outermost transaction: the store is then the one a
single transaction with that insert leaves. -/
theorem nested_transactions_witness :
    mapFind ((((toyWorld.construct 1 101 "wallet" true).1.call 1 101
        (.insert [1, 2, 3] [10])).1.destruct toyCrypto toyEntropy 1 101).1.destruct
          toyCrypto toyEntropy 1 100).1.dbMap_ "wallet" = some toyStoreA ∧
      toyWorld.construct 1 101 "wallet" false = (toyWorld, some .failedToCreateDbTx) :=
  have h := nested_transactions toyCrypto toyEntropy toyWorld 1 100 101 "wallet"
    [(1, { counter_ := 1, commit_ := true, lbd_ := some (1, 100) })]
    { counter_ := 1, commit_ := true, lbd_ := some (1, 100) }
    { dbName_ := "wallet", tx := { commit_ := true }, lbd_ := some (1, 100) }
    (.insert [1, 2, 3] [10]) (by decide) (by decide) (fun _ => rfl) (by decide) rfl (by decide)
    (by decide)
  ⟨((h.1.2.2.2.2 rfl).2.2 rfl rfl toySession (by decide)).2, h.2⟩

/-! ## Asset accounts -/

theorem mapFind_writeAssetEntry (p : DbPrefixes) (cd : AssetCodec) (e : AssetEntry) (disk : Disk)
    (K : BinaryData) (hK : ∀ x : AssetEntry, x.getDbKey p ≠ K) :
    mapFind (writeAssetEntry p cd e disk).2 K = mapFind disk K := by
  unfold writeAssetEntry
  split
  · rfl
  · exact mapFind_mapInsert_ne _ _ _ _ (hK e)

theorem mapFind_writeAssetEntries (p : DbPrefixes) (cd : AssetCodec)
    (l : List (Nat × AssetEntry)) (disk : Disk)
    (K : BinaryData) (hK : ∀ x : AssetEntry, x.getDbKey p ≠ K) :
    mapFind (writeAssetEntries p cd l disk).2 K = mapFind disk K := by
  induction l generalizing disk with
  | nil => rfl
  | cons x rest ih =>
    obtain ⟨i, e⟩ := x
    simp only [writeAssetEntries]
    rw [ih, mapFind_writeAssetEntry p cd e disk K hK]

theorem getDbKey_ne_cons (p : DbPrefixes) (b : Nat) (t : BinaryData)
    (h : b ≠ p.ASSETENTRY_PREFIX) (x : AssetEntry) : x.getDbKey p ≠ b :: t := by
  intro e
  simp only [AssetEntry.getDbKey, List.cons.injEq] at e
  exact h e.1.symm

theorem updateOnDiskAssets_spec (p : DbPrefixes) (cd : AssetCodec) (a : AssetAccount) (disk : Disk)
    (b : Nat) (t : BinaryData) (h1 : b ≠ p.ASSETENTRY_PREFIX) (h2 : b ≠ p.ASSET_COUNT_PREFIX) :
    (a.updateOnDiskAssets p cd disk).1.lastUsedIndex_ = a.lastUsedIndex_ ∧
    (a.updateOnDiskAssets p cd disk).1.getFullID = a.getFullID ∧
    mapFind (a.updateOnDiskAssets p cd disk).2 (b :: t) = mapFind disk (b :: t) := by
  refine ⟨rfl, rfl, ?_⟩
  simp only [AssetAccount.updateOnDiskAssets, AssetAccount.updateAssetCount]
  rw [mapFind_mapInsert_ne, mapFind_writeAssetEntries p cd _ _ _ (getDbKey_ne_cons p b t h1)]
  intro e
  simp only [List.cons.injEq] at e
  exact h2 e.1.symm

theorem extendPublicChain_spec (p : DbPrefixes) (cd : AssetCodec) (a a2 : AssetAccount)
    (disk d2 : Disk) (count : Nat)
    (b : Nat) (t : BinaryData) (h1 : b ≠ p.ASSETENTRY_PREFIX) (h2 : b ≠ p.ASSET_COUNT_PREFIX)
    (h : a.extendPublicChain p cd disk count = .ok (a2, d2)) :
    a2.lastUsedIndex_ = a.lastUsedIndex_ ∧ a2.getFullID = a.getFullID ∧
    mapFind d2 (b :: t) = mapFind disk (b :: t) := by
  unfold AssetAccount.extendPublicChain at h
  simp only at h
  split_ifs at h with hc
  · simp only [Except.ok.injEq, Prod.mk.injEq] at h
    obtain ⟨rfl, rfl⟩ := h
    exact ⟨rfl, rfl, rfl⟩
  · unfold AssetAccount.extendPublicChainFrom at h
    simp only [hc, if_false] at h
    split at h
    · cases h
    · split at h
      · cases h
      · simp only [Except.ok.injEq] at h
        have := updateOnDiskAssets_spec p cd
          { a with assets_ := insertNewAssets a.assets_ (by assumption) } disk b t h1 h2
        rw [h] at this
        exact this

/-- The effect of `getNewAsset` on the top index, whatever its outcome: the
index is incremented modulo 2^32 in memory and the new value is stored under
the top-index key; an asset returned is the entry at the new index. -/
theorem getNewAsset_spec (p : DbPrefixes) (cd : AssetCodec) (a : AssetAccount) (disk : Disk)
    (h1 : p.ASSET_TOP_INDEX_PREFIX ≠ p.ASSETENTRY_PREFIX)
    (h2 : p.ASSET_TOP_INDEX_PREFIX ≠ p.ASSET_COUNT_PREFIX) :
    (a.getNewAsset p cd disk).2.1.lastUsedIndex_ = incr32 a.lastUsedIndex_ ∧
    (a.getNewAsset p cd disk).2.1.getFullID = a.getFullID ∧
    mapFind (a.getNewAsset p cd disk).2.2 (p.ASSET_TOP_INDEX_PREFIX :: a.getFullID)
      = some (put_var_int (incr32 a.lastUsedIndex_)) ∧
    ∀ e, (a.getNewAsset p cd disk).1 = .ok e →
      mapFind (a.getNewAsset p cd disk).2.1.assets_ (incr32 a.lastUsedIndex_) = some e := by
  have hb : mapFind ({ a with lastUsedIndex_ := incr32 a.lastUsedIndex_ }.updateHighestUsedIndex
      p disk) (p.ASSET_TOP_INDEX_PREFIX :: a.getFullID)
      = some (put_var_int (incr32 a.lastUsedIndex_)) := by
    simp only [AssetAccount.updateHighestUsedIndex]
    exact mapFind_mapInsert_self _ _ _
  unfold AssetAccount.getNewAsset
  simp only [AssetAccount.getAndBumpHighestUsedIndex]
  split
  · rename_i entry he
    exact ⟨rfl, rfl, hb, fun e h => by simp only [Except.ok.injEq] at h; rw [← h]; exact he⟩
  · split
    · exact ⟨rfl, rfl, hb, fun e h => by cases h⟩
    · rename_i a2 d2 hx
      obtain ⟨e1, e2, e3⟩ := extendPublicChain_spec p cd _ a2 _ d2 _
        p.ASSET_TOP_INDEX_PREFIX a.getFullID h1 h2 hx
      split
      · rename_i entry he
        refine ⟨e1, e2, by rw [e3]; exact hb, fun e h => ?_⟩
        simp only [Except.ok.injEq] at h
        rw [← h]; exact he
      · exact ⟨e1, e2, by rw [e3]; exact hb, fun e h => by cases h⟩

/-- C2. When `getNewAsset` returns an asset, `lastUsedIndex_` has gone up by
one modulo 2^32 (from `UINT32_MAX`, nothing handed out, to 0), the new value is
stored under the top-index key of the account, and the asset returned is the
entry of `assets_` at the new `lastUsedIndex_`. -/
theorem getNewAsset_returns (p : DbPrefixes) (cd : AssetCodec) (a a' : AssetAccount)
    (disk disk' : Disk) (entry : AssetEntry)
    (h1 : p.ASSET_TOP_INDEX_PREFIX ≠ p.ASSETENTRY_PREFIX)
    (h2 : p.ASSET_TOP_INDEX_PREFIX ≠ p.ASSET_COUNT_PREFIX)
    (h : a.getNewAsset p cd disk = (.ok entry, a', disk')) :
    a'.lastUsedIndex_ = (a.lastUsedIndex_ + 1) % 2 ^ 32 ∧
    (a.lastUsedIndex_ = 0xFFFFFFFF → a'.lastUsedIndex_ = 0) ∧
    mapFind disk' (p.ASSET_TOP_INDEX_PREFIX :: a'.getFullID) = some (put_var_int a'.lastUsedIndex_) ∧
    mapFind a'.assets_ a'.lastUsedIndex_ = some entry := by
  obtain ⟨e1, hf, e2, e3⟩ := getNewAsset_spec p cd a disk h1 h2
  rw [h] at e1 hf e2 e3
  simp only at e1 hf e2 e3
  refine ⟨e1, ?_, ?_, ?_⟩
  · intro hm; rw [e1, hm]; rfl
  · rw [hf, e1]; exact e2
  · rw [e1]; exact e3 entry rfl

/-- C2, witness: the first call on an account that has computed and handed out
nothing extends the chain by the lookup window and returns asset 0. -/
theorem getNewAsset_returns_witness :
    toyAssetAccount.lastUsedIndex_ = 0xFFFFFFFF ∧
    (toyAssetAccount.getNewAsset toyPrefixes toyCodec []).1
      = .ok (toyAsset [0, 0, 0, 7, 0, 0, 0, 1] 0).doNotCommit ∧
    (toyAssetAccount.getNewAsset toyPrefixes toyCodec []).2.1.lastUsedIndex_ = 0 ∧
    mapFind (toyAssetAccount.getNewAsset toyPrefixes toyCodec []).2.2
      [0xE3, 0, 0, 0, 7, 0, 0, 0, 1] = some [0] :=
  ⟨rfl, by decide,
    ((getNewAsset_returns toyPrefixes toyCodec toyAssetAccount
      (toyAssetAccount.getNewAsset toyPrefixes toyCodec []).2.1 []
      (toyAssetAccount.getNewAsset toyPrefixes toyCodec []).2.2
      (toyAsset [0, 0, 0, 7, 0, 0, 0, 1] 0).doNotCommit (by decide) (by decide)
      (Prod.ext (by decide) rfl)).2.1 rfl),
    by decide⟩

/-- C10, as amended. Whenever `getNewAsset` fails, `lastUsedIndex_` has been
incremented (modulo 2^32) in memory and the incremented value is stored under
the top-index key: the bump is not undone. -/
theorem getNewAsset_failure_keeps_bump (p : DbPrefixes) (cd : AssetCodec) (a a' : AssetAccount)
    (disk disk' : Disk) (e : AccountException)
    (h1 : p.ASSET_TOP_INDEX_PREFIX ≠ p.ASSETENTRY_PREFIX)
    (h2 : p.ASSET_TOP_INDEX_PREFIX ≠ p.ASSET_COUNT_PREFIX)
    (h : a.getNewAsset p cd disk = (.error e, a', disk')) :
    a'.lastUsedIndex_ = (a.lastUsedIndex_ + 1) % 2 ^ 32 ∧
    mapFind disk' (p.ASSET_TOP_INDEX_PREFIX :: a.getFullID)
      = some (put_var_int ((a.lastUsedIndex_ + 1) % 2 ^ 32)) := by
  obtain ⟨e1, _, e2, _⟩ := getNewAsset_spec p cd a disk h1 h2
  rw [h] at e1 e2
  exact ⟨e1, e2⟩

/-- C10, counterexample: an account with assets 0 and 1, last used index 5
(stored as 5) and lookup window 2. `getNewAsset` extends the chain to assets 2
and 3, does not find index 6 and throws; the last used index is then 6 in
memory and under the top-index key. -/
theorem getNewAsset_not_atomic :
    (toyAssetAccountAhead.getNewAsset toyPrefixes toyCodec toyDiskAhead).1
      = .error .requestedIndexOverflowsMaxLookup ∧
    toyAssetAccountAhead.lastUsedIndex_ = 5 ∧
    mapFind toyDiskAhead (toyPrefixes.ASSET_TOP_INDEX_PREFIX :: toyAssetAccountAhead.getFullID)
      = some (put_var_int 5) ∧
    (toyAssetAccountAhead.getNewAsset toyPrefixes toyCodec toyDiskAhead).2.1.lastUsedIndex_ = 6 ∧
    mapFind (toyAssetAccountAhead.getNewAsset toyPrefixes toyCodec toyDiskAhead).2.2
      (toyPrefixes.ASSET_TOP_INDEX_PREFIX :: toyAssetAccountAhead.getFullID)
      = some (put_var_int 6) ∧
    (toyAssetAccountAhead.getNewAsset toyPrefixes toyCodec toyDiskAhead).2.1.assets_.map Prod.fst
      = [0, 1, 2, 3] := by
  decide

/-- C10 as amended, witness: the failing call of the counterexample. -/
theorem getNewAsset_failure_keeps_bump_witness :
    (toyAssetAccountAhead.getNewAsset toyPrefixes toyCodec toyDiskAhead).2.1.lastUsedIndex_
      = (5 + 1) % 2 ^ 32 ∧
    mapFind (toyAssetAccountAhead.getNewAsset toyPrefixes toyCodec toyDiskAhead).2.2
      (toyPrefixes.ASSET_TOP_INDEX_PREFIX :: toyAssetAccountAhead.getFullID)
      = some (put_var_int ((5 + 1) % 2 ^ 32)) :=
  getNewAsset_failure_keeps_bump toyPrefixes toyCodec toyAssetAccountAhead
    (toyAssetAccountAhead.getNewAsset toyPrefixes toyCodec toyDiskAhead).2.1 toyDiskAhead
    (toyAssetAccountAhead.getNewAsset toyPrefixes toyCodec toyDiskAhead).2.2
    .requestedIndexOverflowsMaxLookup (by decide) (by decide) (Prod.ext (by decide) rfl)

/-! ## Address accounts -/

/-- C5, at the failing input: the asset account has assets 0 and 1 and has
handed out no address (`lastUsedIndex_ = UINT32_MAX`, `getUsedAddressMap` is
empty); `getAddressEntryForID` on the ID of asset 0 does not throw
`UnrequestedAddress`, it returns the address of asset 0 under the default
type. -/
theorem getAddressEntryForID_nothing_handed_out :
    toyAssetAccountUnused.lastUsedIndex_ = 0xFFFFFFFF ∧
    toyAddressAccountUnused.getUsedAddressMap = .ok [] ∧
    toyAddressAccountUnused.getAddressEntryForID [0, 0, 0, 7, 0, 0, 0, 1, 0, 0, 0, 0]
      = .ok { asset := toyAsset [0, 0, 0, 7, 0, 0, 0, 1] 0, type := 1 } ∧
    toyAddressAccountUnused.getAddressEntryForID [0, 0, 0, 7, 0, 0, 0, 1, 0, 0, 0, 0]
      ≠ .error .unrequestedAddress := by
  decide

/-! ## The key orders -/

theorem bdLess_irrefl (a : BinaryData) : bdLess a a = false := by
  induction a with
  | nil => rfl
  | cons x t ih => simp [bdLess, ih]

theorem bdLess_append (K a b : BinaryData) : bdLess (K ++ a) (K ++ b) = bdLess a b := by
  induction K with
  | nil => rfl
  | cons x t ih => simp [bdLess, ih]

theorem bdLess_trans (a b c : BinaryData) (h1 : bdLess a b = true) (h2 : bdLess b c = true) :
    bdLess a c = true := by
  induction a generalizing b c with
  | nil =>
    cases b with
    | nil => simp [bdLess] at h1
    | cons y b' =>
      cases c with
      | nil => simp [bdLess] at h2
      | cons z c' => simp [bdLess]
  | cons x a' ih =>
    cases b with
    | nil => simp [bdLess] at h1
    | cons y b' =>
      cases c with
      | nil => simp [bdLess] at h2
      | cons z c' =>
        simp only [bdLess] at h1 h2 ⊢
        split_ifs at h1 h2 ⊢ with p1 p2 p3 p4 p5 p6 p7 p8
        all_goals first
          | rfl
          | omega
          | exact ih _ _ h1 h2

theorem bdLess_total (a b : BinaryData) (hne : a ≠ b) (h : bdLess a b = false) :
    bdLess b a = true := by
  induction a generalizing b with
  | nil =>
    cases b with
    | nil => exact absurd rfl hne
    | cons y b' => simp [bdLess] at h
  | cons x a' ih =>
    cases b with
    | nil => simp [bdLess]
    | cons y b' =>
      simp only [bdLess] at h ⊢
      split_ifs at h ⊢ <;> first
        | rfl
        | omega
        | (have e : x = y := by omega
           subst e
           exact ih b' (fun e => hne (by rw [e])) h)

theorem bdLaws : MapKey.Laws BinaryData :=
  ⟨bdLess_irrefl, bdLess_trans, bdLess_total⟩

theorem natLaws : MapKey.Laws Nat :=
  ⟨fun a => by show decide (a < a) = false; simp,
   fun a b c h1 h2 => by
     have h1' : decide (a < b) = true := h1
     have h2' : decide (b < c) = true := h2
     show decide (a < c) = true
     simp at h1' h2' ⊢; omega,
   fun a b hne h => by
     have h' : decide (a < b) = false := h
     show decide (b < a) = true
     simp at h' ⊢; omega⟩

theorem MapKey.Laws.asymm {κ : Type} [MapKey κ] (hk : MapKey.Laws κ) {a b : κ}
    (h : MapKey.less a b = true) : MapKey.less b a = false := by
  cases hb : MapKey.less b a with
  | false => rfl
  | true =>
    have := hk.trans a b a h hb
    rw [hk.irrefl] at this
    cases this

theorem MapKey.Laws.ne {κ : Type} [MapKey κ] (hk : MapKey.Laws κ) {a b : κ}
    (h : MapKey.less a b = true) : a ≠ b := by
  intro e
  subst e
  rw [hk.irrefl] at h
  cases h

theorem isPrefixOf_cons_cons (k a : Nat) (K x : BinaryData) :
    (k :: K).isPrefixOf (a :: x) = (decide (k = a) && K.isPrefixOf x) := by
  by_cases h : k = a <;> simp [List.isPrefixOf, h]

theorem isPrefixOf_append_self (K t : BinaryData) : K.isPrefixOf (K ++ t) = true := by
  induction K with
  | nil => simp [List.isPrefixOf]
  | cons k K' ih => simp [List.isPrefixOf, ih]

theorem isPrefixOf_iff (K x : BinaryData) : K.isPrefixOf x = true ↔ ∃ t, x = K ++ t := by
  induction K generalizing x with
  | nil => simp [List.isPrefixOf]
  | cons k K' ih =>
    cases x with
    | nil => simp [List.isPrefixOf]
    | cons a x' =>
      rw [isPrefixOf_cons_cons]
      simp only [Bool.and_eq_true, decide_eq_true_eq, ih, List.cons_append, List.cons.injEq]
      constructor
      · rintro ⟨rfl, t, rfl⟩; exact ⟨t, rfl, rfl⟩
      · rintro ⟨t, rfl, rfl⟩; exact ⟨rfl, t, rfl⟩

/-- A key that starts with `K` is not below `K`. -/
theorem not_bdLess_of_isPrefixOf {K x : BinaryData} (h : K.isPrefixOf x = true) :
    bdLess x K = false := by
  obtain ⟨t, rfl⟩ := (isPrefixOf_iff K x).1 h
  have := bdLess_append K t []
  rw [List.append_nil] at this
  rw [this]
  cases t <;> rfl

/-- The keys that start with `K` come before the other keys that are not below
`K`. -/
theorem bdLess_of_isPrefixOf {K x y : BinaryData} (hx : K.isPrefixOf x = true)
    (hy : bdLess y K = false) (hny : K.isPrefixOf y = false) : bdLess x y = true := by
  induction K generalizing x y with
  | nil => simp [List.isPrefixOf] at hny
  | cons k K' ih =>
    cases x with
    | nil => simp [List.isPrefixOf] at hx
    | cons a x' =>
      rw [isPrefixOf_cons_cons] at hx
      simp only [Bool.and_eq_true, decide_eq_true_eq] at hx
      obtain ⟨rfl, hx'⟩ := hx
      cases y with
      | nil => simp [bdLess] at hy
      | cons b y' =>
        rw [isPrefixOf_cons_cons] at hny
        simp only [bdLess] at hy ⊢
        split_ifs at hy ⊢ <;> first
          | rfl
          | omega
          | (have e : k = b := by omega
             subst e
             simp only [decide_True, Bool.true_and] at hny
             exact ih hx' hy hny)

/-! ## Sorted maps -/

section SortedMaps

variable {κ β : Type} [DecidableEq κ] [MapKey κ]

theorem mem_mapInsert_self (m : List (κ × β)) (k : κ) (v : β) : (k, v) ∈ mapInsert m k v := by
  induction m with
  | nil => simp [mapInsert]
  | cons e t ih =>
    obtain ⟨k', v'⟩ := e
    simp only [mapInsert]
    split_ifs
    · simp
    · simp
    · exact List.mem_cons_of_mem _ ih

theorem mem_mapInsert_imp {m : List (κ × β)} {k : κ} {v : β} {x : κ × β}
    (h : x ∈ mapInsert m k v) : x = (k, v) ∨ x ∈ m := by
  induction m with
  | nil => simp [mapInsert] at h; exact Or.inl h
  | cons e t ih =>
    obtain ⟨k', v'⟩ := e
    simp only [mapInsert] at h
    split_ifs at h
    · rcases List.mem_cons.1 h with h | h
      · exact Or.inl h
      · exact Or.inr (List.mem_cons_of_mem _ h)
    · rcases List.mem_cons.1 h with h | h
      · exact Or.inl h
      · exact Or.inr h
    · rcases List.mem_cons.1 h with h | h
      · exact Or.inr (by rw [h]; exact List.mem_cons_self _ _)
      · rcases ih h with h | h
        · exact Or.inl h
        · exact Or.inr (List.mem_cons_of_mem _ h)

theorem mem_mapInsert_of_mem {m : List (κ × β)} {k : κ} {v : β} {x : κ × β}
    (h : x ∈ m) (hx : x.1 ≠ k) : x ∈ mapInsert m k v := by
  induction m with
  | nil => cases h
  | cons e t ih =>
    obtain ⟨k', v'⟩ := e
    simp only [mapInsert]
    rcases List.mem_cons.1 h with h | h
    · subst h
      simp only at hx
      simp [hx]
      split_ifs <;> simp
    · split_ifs
      · exact List.mem_cons_of_mem _ h
      · exact List.mem_cons_of_mem _ (List.mem_cons_of_mem _ h)
      · exact List.mem_cons_of_mem _ (ih h)

theorem mapFind_of_mem_sorted (hk : MapKey.Laws κ) {m : List (κ × β)} (h : MapSorted m)
    {k : κ} {v : β} (hm : (k, v) ∈ m) : mapFind m k = some v := by
  induction m with
  | nil => cases hm
  | cons e t ih =>
    obtain ⟨k', v'⟩ := e
    have ht : MapSorted t := (List.pairwise_cons.1 h).2
    have hlt : ∀ y ∈ t, MapKey.less k' y.1 = true := (List.pairwise_cons.1 h).1
    simp only [mapFind]
    rcases List.mem_cons.1 hm with hm | hm
    · simp only [Prod.mk.injEq] at hm
      simp [hm.1, hm.2]
    · have := hk.ne (hlt _ hm)
      simp only at this
      simp only [this, if_false]
      exact ih ht hm

theorem mapInsert_append_of_less (hk : MapKey.Laws κ) (m : List (κ × β)) (k : κ) (v : β)
    (h : ∀ e ∈ m, MapKey.less e.1 k = true) : mapInsert m k v = m ++ [(k, v)] := by
  induction m with
  | nil => rfl
  | cons e t ih =>
    obtain ⟨k', w⟩ := e
    have h0 : MapKey.less k' k = true := h (k', w) (List.mem_cons_self _ _)
    have h1 : ¬ k' = k := hk.ne h0
    have h2 : MapKey.less k k' = false := hk.asymm h0
    simp only [mapInsert, h1, if_false, h2, List.cons_append]
    rw [ih (fun e he => h e (List.mem_cons_of_mem _ he))]
    simp

theorem mapFind_none_of_less (hk : MapKey.Laws κ) (m : List (κ × β)) (k : κ)
    (h : ∀ e ∈ m, MapKey.less e.1 k = true) : mapFind m k = none :=
  mapFind_eq_none_iff.2 (fun e he => hk.ne (h e he))

theorem mapEmplace_append_of_less (hk : MapKey.Laws κ) (m : List (κ × β)) (k : κ) (v : β)
    (h : ∀ e ∈ m, MapKey.less e.1 k = true) : mapEmplace m k v = m ++ [(k, v)] := by
  unfold mapEmplace
  rw [mapFind_none_of_less hk m k h]
  exact mapInsert_append_of_less hk m k v h

end SortedMaps

/-- In a sorted list whose keys are not below `K`, the keys that start with `K`
come first. -/
theorem prefixed_first {l : Disk} (h : MapSorted l) (K : BinaryData)
    (hge : ∀ e ∈ l, bdLess e.1 K = false) :
    ∃ rest, l = l.filter (fun e => K.isPrefixOf e.1) ++ rest ∧
      ∀ e ∈ rest, K.isPrefixOf e.1 = false := by
  induction l with
  | nil => exact ⟨[], rfl, fun e he => by cases he⟩
  | cons y t ih =>
    have ht : MapSorted t := (List.pairwise_cons.1 h).2
    have hlt : ∀ z ∈ t, bdLess y.1 z.1 = true := (List.pairwise_cons.1 h).1
    cases hy : K.isPrefixOf y.1 with
    | true =>
      obtain ⟨rest, e1, e2⟩ := ih ht (fun e he => hge e (List.mem_cons_of_mem _ he))
      refine ⟨rest, ?_, e2⟩
      rw [List.filter_cons_of_pos (by simpa using hy), List.cons_append, ← e1]
    | false =>
      have hno : ∀ z ∈ y :: t, K.isPrefixOf z.1 = false := by
        intro z hz
        rcases List.mem_cons.1 hz with hz | hz
        · rw [hz]; exact hy
        · cases hz' : K.isPrefixOf z.1 with
          | false => rfl
          | true =>
            have h1 := bdLess_of_isPrefixOf hz' (hge y (List.mem_cons_self _ _)) hy
            have h2 := bdLaws.asymm (hlt z hz)
            have h1' : MapKey.less z.1 y.1 = true := h1
            rw [h1'] at h2
            cases h2
      refine ⟨y :: t, ?_, hno⟩
      have : (y :: t).filter (fun e => K.isPrefixOf e.1) = [] :=
        List.filter_eq_nil_iff.2 (fun z hz => by simp [hno z hz])
      rw [this, List.nil_append]

/-- The iterator positioned by `seek(K)` on a sorted store first yields the
entries whose key starts with `K`, all of them, in key order. -/
theorem seek_split {d : Disk} (h : MapSorted d) (K : BinaryData) :
    ∃ rest, seek d K = d.filter (fun e => K.isPrefixOf e.1) ++ rest ∧
      ∀ e ∈ rest, K.isPrefixOf e.1 = false := by
  induction d with
  | nil => exact ⟨[], rfl, fun e he => by cases he⟩
  | cons x t ih =>
    have ht : MapSorted t := (List.pairwise_cons.1 h).2
    have hlt : ∀ z ∈ t, bdLess x.1 z.1 = true := (List.pairwise_cons.1 h).1
    cases hx : bdLess x.1 K with
    | true =>
      have hnp : K.isPrefixOf x.1 = false := by
        cases hp : K.isPrefixOf x.1 with
        | false => rfl
        | true => rw [not_bdLess_of_isPrefixOf hp] at hx; cases hx
      obtain ⟨rest, e1, e2⟩ := ih ht
      refine ⟨rest, ?_, e2⟩
      have : seek (x :: t) K = seek t K := by
        simp only [seek, List.dropWhile_cons, hx, if_true]
      rw [this, e1, List.filter_cons_of_neg (by simp [hnp])]
    | false =>
      have hs : seek (x :: t) K = x :: t := by
        simp only [seek, List.dropWhile_cons, hx]
        simp
      rw [hs]
      apply prefixed_first h K
      intro e he
      rcases List.mem_cons.1 he with he | he
      · rw [he]; exact hx
      · cases hb : bdLess e.1 K with
        | false => rfl
        | true =>
          have := bdLess_trans _ _ _ (hlt e he) hb
          rw [hx] at this
          cases this

/-! ## Commit as a list of record slots -/

theorem writeAssetEntry_eq (p : DbPrefixes) (cd : AssetCodec) (e : AssetEntry) (d : Disk) :
    writeAssetEntry p cd e d = (e.doNotCommit, applySlots d [e.slot p cd]) := by
  unfold writeAssetEntry AssetEntry.slot applySlots
  cases h : e.needsCommit_ with
  | true => simp
  | false =>
    simp only [Bool.not_false, if_true, List.foldl_cons, List.foldl_nil]
    cases e
    simp only at h
    subst h
    rfl

theorem writeAssetEntries_eq (p : DbPrefixes) (cd : AssetCodec) (l : List (Nat × AssetEntry))
    (d : Disk) :
    writeAssetEntries p cd l d
      = (l.map (fun x => (x.1, x.2.doNotCommit)), applySlots d (l.map (fun x => x.2.slot p cd))) := by
  induction l generalizing d with
  | nil => rfl
  | cons x rest ih =>
    obtain ⟨i, e⟩ := x
    simp only [writeAssetEntries, ih, writeAssetEntry_eq, List.map_cons]
    rfl

theorem WRITE_UINT32_BE_eq (n : Nat) :
    WRITE_UINT32_BE n = [n / 256 / 256 / 256 % 256, n / 256 / 256 % 256, n / 256 % 256, n % 256] := by
  simp [WRITE_UINT32_BE, WRITE_LE]

theorem bdLess_WRITE_UINT32_BE {i j : Nat} (h : i < j) (hj : j < 2 ^ 32) :
    bdLess (WRITE_UINT32_BE i) (WRITE_UINT32_BE j) = true := by
  rw [WRITE_UINT32_BE_eq, WRITE_UINT32_BE_eq]
  simp only [bdLess]
  split_ifs <;> first | rfl | omega

theorem mem_entries (a : AssetAccount) (e : AssetEntry) :
    e ∈ a.entries ↔ (∃ x ∈ a.assets_, x.2 = e) ∨ a.root_ = some e := by
  simp [AssetAccount.entries, Option.mem_toList]

/-- The asset loop at the end of the records of the account: it stops. -/
theorem loadAssetsLoop_stop (cd : AssetCodec) (K : BinaryData) (rest : Disk)
    (st : Option AssetEntry × List (Nat × AssetEntry)) (fuel : Nat)
    (hr : ∀ e ∈ rest, K.isPrefixOf e.1 = false) :
    loadAssetsLoop cd K (fuel + 1) rest st = some (.ok st) := by
  cases rest with
  | nil => rfl
  | cons x rest =>
    obtain ⟨k, v⟩ := x
    have h1 : K.isPrefixOf k = false := hr (k, v) (List.mem_cons_self _ _)
    have h2 : k ≠ K := by
      intro e
      subst e
      have := isPrefixOf_append_self k []
      rw [List.append_nil, h1] at this
      cases this
    rw [loadAssetsLoop]
    simp [h1, h2]

theorem mapSorted_inj {κ β : Type} [DecidableEq κ] [MapKey κ] (hk : MapKey.Laws κ)
    {m : List (κ × β)} (h : MapSorted m) {x y : κ × β} (hx : x ∈ m) (hy : y ∈ m)
    (e : x.1 = y.1) : x = y := by
  have h1 := mapFind_of_mem_sorted hk h (k := x.1) (v := x.2) hx
  have h2 := mapFind_of_mem_sorted hk h (k := y.1) (v := y.2) hy
  rw [e, h2] at h1
  simp only [Option.some.injEq] at h1
  exact Prod.ext e h1.symm

theorem mapFind_map_snd {κ β γ : Type} [DecidableEq κ] (g : β → γ) (l : List (κ × β)) (k : κ) :
    mapFind (l.map (fun x => (x.1, g x.2))) k = (mapFind l k).map g := by
  induction l with
  | nil => rfl
  | cons x l ih =>
    obtain ⟨k', v⟩ := x
    simp only [List.map_cons, mapFind]
    split_ifs
    · rfl
    · exact ih

/-- C11, at the failing input: the toy address account has default address
type 1 and an empty override table. `updateInstantiatedAddressType` with the ID
of asset 0 and the default type records the ID under the default type, in
memory and on disk. -/
theorem updateInstantiatedAddressType_records_default :
    toyAddressAccountUnused.defaultAddressEntryType_ = 1 ∧
    toyAddressAccountUnused.addresses_ = [] ∧
    (toyAddressAccountUnused.updateInstantiatedAddressType toyPrefixes []
        [0, 0, 0, 7, 0, 0, 0, 1, 0, 0, 0, 0] 1).1.addresses_
      = [([0, 0, 0, 7, 0, 0, 0, 1, 0, 0, 0, 0], 1)] ∧
    (toyAddressAccountUnused.updateInstantiatedAddressType toyPrefixes []
        [0, 0, 0, 7, 0, 0, 0, 1, 0, 0, 0, 0] 1).2
      = [([0xD1, 0, 0, 0, 7, 0, 0, 0, 1, 0, 0, 0, 0], [1, 0, 0, 0])] := by
  decide

theorem updateInstantiatedAddressType_find (p : DbPrefixes) (aa : AddressAccount) (disk : Disk)
    (id : BinaryData) (t : Nat) (ht : t ≠ aa.defaultAddressEntryType_) :
    mapFind (aa.updateInstantiatedAddressType p disk id t).1.addresses_ id = some t ∧
    (aa.updateInstantiatedAddressType p disk id t).1.assetAccounts_ = aa.assetAccounts_ ∧
    (aa.updateInstantiatedAddressType p disk id t).1.defaultAddressEntryType_
      = aa.defaultAddressEntryType_ ∧
    (mapFind aa.addresses_ id ≠ some t →
      mapFind (aa.updateInstantiatedAddressType p disk id t).2 (p.ADDRESS_TYPE_PREFIX :: id)
        = some (put_uint32_t t)) := by
  unfold AddressAccount.updateInstantiatedAddressType
  simp only
  split
  · rename_i t0 h0
    split_ifs with h1
    · subst h1
      exact ⟨h0, rfl, rfl, fun h => absurd h0 h⟩
    · exact ⟨mapFind_mapInsert_self _ _ _, rfl, rfl, fun _ => mapFind_mapInsert_self _ _ _⟩
  · exact ⟨mapFind_mapInsert_self _ _ _, rfl, rfl, fun _ => mapFind_mapInsert_self _ _ _⟩

theorem getNewAddressFor_spec (D : Nat) (p : DbPrefixes) (cd : AssetCodec)
    (aa : AddressAccount) (disk : Disk) (account : BinaryData) (t : Nat)
    (acc acc' : AssetAccount) (disk1 : Disk) (asset : AssetEntry)
    (hacc : mapFind aa.assetAccounts_ account = some acc)
    (ht : (if t = D then aa.defaultAddressEntryType_ else t) ∈ aa.addressTypes_)
    (hnew : acc.getNewAsset p cd disk = (.ok asset, acc', disk1)) :
    ∃ aa' disk',
      aa.getNewAddressFor D p cd disk account t
        = (.ok { asset := asset, type := if t = D then aa.defaultAddressEntryType_ else t },
            aa', disk') ∧
      mapFind aa'.assetAccounts_ account = some acc' ∧
      aa'.defaultAddressEntryType_ = aa.defaultAddressEntryType_ ∧
      ((if t = D then aa.defaultAddressEntryType_ else t) ≠ aa.defaultAddressEntryType_ →
        mapFind aa'.addresses_ asset.ID_
            = some (if t = D then aa.defaultAddressEntryType_ else t) ∧
        (mapFind aa.addresses_ asset.ID_ = none →
          mapFind disk' (p.ADDRESS_TYPE_PREFIX :: asset.ID_)
            = some (put_uint32_t (if t = D then aa.defaultAddressEntryType_ else t)))) ∧
      ((if t = D then aa.defaultAddressEntryType_ else t) = aa.defaultAddressEntryType_ →
        aa'.addresses_ = aa.addresses_ ∧ disk' = disk1) := by
  unfold AddressAccount.getNewAddressFor
  simp only [hacc, hnew]
  simp only [ht, not_true_eq_false, if_false]
  by_cases hd : (if t = D then aa.defaultAddressEntryType_ else t) = aa.defaultAddressEntryType_
  · rw [if_neg (not_not.2 hd)]
    exact ⟨_, _, rfl, mapFind_mapInsert_self _ _ _, rfl, fun h => absurd hd h,
      fun _ => ⟨rfl, rfl⟩⟩
  · have htD : t ≠ D := by
      intro e
      rw [if_pos e] at hd
      exact hd rfl
    have ht' : (if t = D then aa.defaultAddressEntryType_ else t) = t := if_neg htD
    rw [if_pos hd]
    rw [ht'] at hd ⊢
    simp only [AddressAccount.updateInstantiatedAddressTypeOf, htD, if_false]
    obtain ⟨e1, e2, e3, e4⟩ := updateInstantiatedAddressType_find p
      { aa with assetAccounts_ := mapInsert aa.assetAccounts_ account acc' } disk1 asset.ID_ t hd
    refine ⟨_, _, rfl, ?_, e3, fun _ => ⟨e1, fun hn => e4 ?_⟩, fun h => absurd h hd⟩
    · rw [e2]
      exact mapFind_mapInsert_self _ _ _
    · show mapFind aa.addresses_ asset.ID_ ≠ some t
      rw [hn]
      exact fun h => by cases h

/-- C12, amended. For an address account with a non-empty outer account ID that
names one of its asset accounts and a permitted address type `t` (the
enumerator `AddressEntryType_Default` standing for the account default), if
`getNewAsset` of the outer asset account returns `asset` (the entry at its
incremented `lastUsedIndex_`), then `getNewAddress(t)` returns the address of
`asset` under the type, and afterwards the override table maps the ID of
`asset` to the type when it is not the account default, and is the table of
before the call when it is the default: it has no entry for `asset` when it
had none, and keeps the entry it had. `getNewChangeAddress` does the same on
the inner asset account. -/
theorem getNewAddress_override_table (D : Nat) (p : DbPrefixes) (cd : AssetCodec)
    (aa : AddressAccount) (disk : Disk) (t t' : Nat)
    (h1 : p.ASSET_TOP_INDEX_PREFIX ≠ p.ASSETENTRY_PREFIX)
    (h2 : p.ASSET_TOP_INDEX_PREFIX ≠ p.ASSET_COUNT_PREFIX)
    (ht' : t' = if t = D then aa.defaultAddressEntryType_ else t)
    (ht : t' ∈ aa.addressTypes_) :
    (∀ acc acc' disk1 asset, aa.outerAccount_ ≠ [] →
      mapFind aa.assetAccounts_ aa.outerAccount_ = some acc →
      acc.getNewAsset p cd disk = (.ok asset, acc', disk1) →
      mapFind acc'.assets_ ((acc.lastUsedIndex_ + 1) % 2 ^ 32) = some asset ∧
      ∃ aa' disk', aa.getNewAddress D p cd disk t = (.ok { asset := asset, type := t' }, aa', disk') ∧
        mapFind aa'.assetAccounts_ aa.outerAccount_ = some acc' ∧
        (t' ≠ aa.defaultAddressEntryType_ → mapFind aa'.addresses_ asset.ID_ = some t') ∧
        (t' = aa.defaultAddressEntryType_ → aa'.addresses_ = aa.addresses_ ∧
          (mapFind aa.addresses_ asset.ID_ = none → mapFind aa'.addresses_ asset.ID_ = none))) ∧
    (∀ acc acc' disk1 asset, aa.innerAccount_ ≠ [] →
      mapFind aa.assetAccounts_ aa.innerAccount_ = some acc →
      acc.getNewAsset p cd disk = (.ok asset, acc', disk1) →
      mapFind acc'.assets_ ((acc.lastUsedIndex_ + 1) % 2 ^ 32) = some asset ∧
      ∃ aa' disk', aa.getNewChangeAddress D p cd disk t
          = (.ok { asset := asset, type := t' }, aa', disk') ∧
        mapFind aa'.assetAccounts_ aa.innerAccount_ = some acc' ∧
        (t' ≠ aa.defaultAddressEntryType_ → mapFind aa'.addresses_ asset.ID_ = some t') ∧
        (t' = aa.defaultAddressEntryType_ → aa'.addresses_ = aa.addresses_ ∧
          (mapFind aa.addresses_ asset.ID_ = none → mapFind aa'.addresses_ asset.ID_ = none))) := by
  subst ht'
  have key : ∀ (account : BinaryData) acc acc' disk1 asset,
      mapFind aa.assetAccounts_ account = some acc →
      acc.getNewAsset p cd disk = (.ok asset, acc', disk1) →
      mapFind acc'.assets_ ((acc.lastUsedIndex_ + 1) % 2 ^ 32) = some asset ∧
      ∃ aa' disk', aa.getNewAddressFor D p cd disk account t
          = (.ok { asset := asset, type := if t = D then aa.defaultAddressEntryType_ else t },
              aa', disk') ∧
        mapFind aa'.assetAccounts_ account = some acc' ∧
        ((if t = D then aa.defaultAddressEntryType_ else t) ≠ aa.defaultAddressEntryType_ →
          mapFind aa'.addresses_ asset.ID_
            = some (if t = D then aa.defaultAddressEntryType_ else t)) ∧
        ((if t = D then aa.defaultAddressEntryType_ else t) = aa.defaultAddressEntryType_ →
          aa'.addresses_ = aa.addresses_ ∧
          (mapFind aa.addresses_ asset.ID_ = none → mapFind aa'.addresses_ asset.ID_ = none)) := by
    intro account acc acc' disk1 asset hacc hnew
    obtain ⟨e1, -, -, e4⟩ := getNewAsset_spec p cd acc disk h1 h2
    rw [hnew] at e1 e4
    obtain ⟨aa', disk', g1, g2, -, g4, g5⟩ :=
      getNewAddressFor_spec D p cd aa disk account t acc acc' disk1 asset hacc ht hnew
    refine ⟨e4 asset rfl, aa', disk', g1, g2, fun h => (g4 h).1, fun h => ⟨(g5 h).1, ?_⟩⟩
    intro hn
    rw [(g5 h).1]
    exact hn
  constructor
  · intro acc acc' disk1 asset hne hacc hnew
    have : ¬ aa.outerAccount_.length = 0 := fun h => hne (List.length_eq_zero.1 h)
    unfold AddressAccount.getNewAddress
    rw [if_neg this]
    exact key _ acc acc' disk1 asset hacc hnew
  · intro acc acc' disk1 asset hne hacc hnew
    have : ¬ aa.innerAccount_.length = 0 := fun h => hne (List.length_eq_zero.1 h)
    unfold AddressAccount.getNewChangeAddress
    rw [if_neg this]
    exact key _ acc acc' disk1 asset hacc hnew

/-- C12, witness: the toy account with types 1 and 2 and default 1 hands out
its first address under type 2; the override table then maps the ID of asset 0
to 2. Asked for the default type it hands out the address of asset 0 under
type 1 and the override table stays empty. -/
theorem getNewAddress_override_table_witness :
    (toyAddressAccountTwoTypes.getNewAddress 0 toyPrefixes toyCodec [] 2).1
      = .ok { asset := (toyAsset [0, 0, 0, 7, 0, 0, 0, 1] 0), type := 2 } ∧
    (toyAddressAccountTwoTypes.getNewAddress 0 toyPrefixes toyCodec [] 2).2.1.addresses_
      = [([0, 0, 0, 7, 0, 0, 0, 1, 0, 0, 0, 0], 2)] ∧
    (∃ aa' disk', toyAddressAccountTwoTypes.getNewAddress 0 toyPrefixes toyCodec [] 2
        = (.ok { asset := (toyAsset [0, 0, 0, 7, 0, 0, 0, 1] 0), type := 2 }, aa', disk') ∧
      mapFind aa'.assetAccounts_ toyAddressAccountTwoTypes.outerAccount_
        = some (toyAssetAccountUnused.getNewAsset toyPrefixes toyCodec []).2.1 ∧
      (2 ≠ toyAddressAccountTwoTypes.defaultAddressEntryType_ →
        mapFind aa'.addresses_ (toyAsset [0, 0, 0, 7, 0, 0, 0, 1] 0).ID_ = some 2) ∧
      (2 = toyAddressAccountTwoTypes.defaultAddressEntryType_ →
        aa'.addresses_ = toyAddressAccountTwoTypes.addresses_ ∧
        (mapFind toyAddressAccountTwoTypes.addresses_ (toyAsset [0, 0, 0, 7, 0, 0, 0, 1] 0).ID_
            = none →
          mapFind aa'.addresses_ (toyAsset [0, 0, 0, 7, 0, 0, 0, 1] 0).ID_ = none))) ∧
    (toyAddressAccountTwoTypes.getNewAddress 0 toyPrefixes toyCodec [] 0).1
      = .ok { asset := (toyAsset [0, 0, 0, 7, 0, 0, 0, 1] 0), type := 1 } ∧
    (toyAddressAccountTwoTypes.getNewAddress 0 toyPrefixes toyCodec [] 0).2.1.addresses_ = [] ∧
    (∃ aa' disk', toyAddressAccountTwoTypes.getNewAddress 0 toyPrefixes toyCodec [] 0
        = (.ok { asset := (toyAsset [0, 0, 0, 7, 0, 0, 0, 1] 0), type := 1 }, aa', disk') ∧
      mapFind aa'.assetAccounts_ toyAddressAccountTwoTypes.outerAccount_
        = some (toyAssetAccountUnused.getNewAsset toyPrefixes toyCodec []).2.1 ∧
      (1 ≠ toyAddressAccountTwoTypes.defaultAddressEntryType_ →
        mapFind aa'.addresses_ (toyAsset [0, 0, 0, 7, 0, 0, 0, 1] 0).ID_ = some 1) ∧
      (1 = toyAddressAccountTwoTypes.defaultAddressEntryType_ →
        aa'.addresses_ = toyAddressAccountTwoTypes.addresses_ ∧
        (mapFind toyAddressAccountTwoTypes.addresses_ (toyAsset [0, 0, 0, 7, 0, 0, 0, 1] 0).ID_
            = none →
          mapFind aa'.addresses_ (toyAsset [0, 0, 0, 7, 0, 0, 0, 1] 0).ID_ = none))) :=
  ⟨by decide, by decide,
    ((getNewAddress_override_table 0 toyPrefixes toyCodec toyAddressAccountTwoTypes [] 2 2
      (by decide) (by decide) (by decide) (by decide)).1
      toyAssetAccountUnused (toyAssetAccountUnused.getNewAsset toyPrefixes toyCodec []).2.1
      (toyAssetAccountUnused.getNewAsset toyPrefixes toyCodec []).2.2
      (toyAsset [0, 0, 0, 7, 0, 0, 0, 1] 0) (by decide) rfl
      (Prod.ext (by decide) rfl)).2,
    by decide, by decide,
    ((getNewAddress_override_table 0 toyPrefixes toyCodec toyAddressAccountTwoTypes [] 0 1
      (by decide) (by decide) (by decide) (by decide)).1
      toyAssetAccountUnused (toyAssetAccountUnused.getNewAsset toyPrefixes toyCodec []).2.1
      (toyAssetAccountUnused.getNewAsset toyPrefixes toyCodec []).2.2
      (toyAsset [0, 0, 0, 7, 0, 0, 0, 1] 0) (by decide) rfl
      (Prod.ext (by decide) rfl)).2⟩

/-- C12, counterexample: on the toy account with types 1 and 2 and default 1,
which has handed out nothing, `updateInstantiatedAddressType(id, 2)` with the ID
of asset 0 puts that ID under type 2 in the override table.
`getNewAddress` with the default type then returns the address of asset 0
under type 1, and the override table still maps the ID of asset 0 to 2: it
has an entry for the asset although the type asked for is the default. The
same with `getNewChangeAddress`. -/
theorem getNewAddress_default_keeps_entry :
    (toyAddressAccountTwoTypes.updateInstantiatedAddressType toyPrefixes []
        [0, 0, 0, 7, 0, 0, 0, 1, 0, 0, 0, 0] 2).1.addresses_
      = [([0, 0, 0, 7, 0, 0, 0, 1, 0, 0, 0, 0], 2)] ∧
    ((toyAddressAccountTwoTypes.updateInstantiatedAddressType toyPrefixes []
        [0, 0, 0, 7, 0, 0, 0, 1, 0, 0, 0, 0] 2).1.getNewAddress 0 toyPrefixes toyCodec
      (toyAddressAccountTwoTypes.updateInstantiatedAddressType toyPrefixes []
        [0, 0, 0, 7, 0, 0, 0, 1, 0, 0, 0, 0] 2).2 0).1
      = .ok { asset := (toyAsset [0, 0, 0, 7, 0, 0, 0, 1] 0), type := 1 } ∧
    mapFind ((toyAddressAccountTwoTypes.updateInstantiatedAddressType toyPrefixes []
        [0, 0, 0, 7, 0, 0, 0, 1, 0, 0, 0, 0] 2).1.getNewAddress 0 toyPrefixes toyCodec
      (toyAddressAccountTwoTypes.updateInstantiatedAddressType toyPrefixes []
        [0, 0, 0, 7, 0, 0, 0, 1, 0, 0, 0, 0] 2).2 0).2.1.addresses_
        (toyAsset [0, 0, 0, 7, 0, 0, 0, 1] 0).ID_ = some 2 ∧
    ((toyAddressAccountTwoTypes.updateInstantiatedAddressType toyPrefixes []
        [0, 0, 0, 7, 0, 0, 0, 1, 0, 0, 0, 0] 2).1.getNewChangeAddress 0 toyPrefixes toyCodec
      (toyAddressAccountTwoTypes.updateInstantiatedAddressType toyPrefixes []
        [0, 0, 0, 7, 0, 0, 0, 1, 0, 0, 0, 0] 2).2 1).1
      = .ok { asset := (toyAsset [0, 0, 0, 7, 0, 0, 0, 1] 0), type := 1 } ∧
    mapFind ((toyAddressAccountTwoTypes.updateInstantiatedAddressType toyPrefixes []
        [0, 0, 0, 7, 0, 0, 0, 1, 0, 0, 0, 0] 2).1.getNewChangeAddress 0 toyPrefixes toyCodec
      (toyAddressAccountTwoTypes.updateInstantiatedAddressType toyPrefixes []
        [0, 0, 0, 7, 0, 0, 0, 1, 0, 0, 0, 0] 2).2 1).2.1.addresses_
        (toyAsset [0, 0, 0, 7, 0, 0, 0, 1] 0).ID_ = some 2 := by
  decide

/-! ## Private chains -/

theorem mem_takeWhile_sorted {β : Type} (l : List (Nat × β)) (idx : Nat) (e : β)
    (hs : MapSorted l) (hf : mapFind l idx = some e) (x : Nat × β) :
    x ∈ l.takeWhile (fun x => decide (x.1 ≠ idx)) ↔ x ∈ l ∧ x.1 < idx := by
  induction l with
  | nil => simp [mapFind] at hf
  | cons y t ih =>
    have hp := List.pairwise_cons.1 hs
    have hlt : ∀ z ∈ t, y.1 < z.1 := fun z hz => by
      have : decide (y.1 < z.1) = true := hp.1 z hz
      simpa using this
    by_cases hy : y.1 = idx
    · have : (y :: t).takeWhile (fun x => decide (x.1 ≠ idx)) = [] := by
        simp [List.takeWhile, hy]
      rw [this]
      simp only [List.not_mem_nil, List.mem_cons, false_iff, not_and, not_lt]
      rintro (rfl | hx)
      · omega
      · have := hlt x hx
        omega
    · have hf' : mapFind t idx = some e := by
        obtain ⟨k, v⟩ := y
        simp only [mapFind] at hf
        simp only at hy
        rw [if_neg hy] at hf
        exact hf
      have hmem := mapFind_eq_some_mem hf'
      have hylt : y.1 < idx := hlt _ hmem
      have : (y :: t).takeWhile (fun x => decide (x.1 ≠ idx))
          = y :: t.takeWhile (fun x => decide (x.1 ≠ idx)) := by
        simp [List.takeWhile, hy]
      rw [this, List.mem_cons, List.mem_cons, ih hp.2 hf']
      constructor
      · rintro (rfl | ⟨h1, h2⟩)
        · exact ⟨Or.inl rfl, hylt⟩
        · exact ⟨Or.inr h1, h2⟩
      · rintro ⟨rfl | h1, h2⟩
        · exact Or.inl rfl
        · exact Or.inr ⟨h1, h2⟩

theorem takeWhile_sorted {β : Type} (l : List (Nat × β)) (q : Nat × β → Bool)
    (hs : MapSorted l) : MapSorted (l.takeWhile q) :=
  List.Pairwise.sublist (List.takeWhile_sublist q) hs

/-- The reverse walk of `fillPrivateKey` finds the start the specification
names. -/
theorem prevAssetWithKey_nearest (a : AssetAccount) (idx : Nat) (e s : AssetEntry)
    (hs : MapSorted a.assets_) (hf : mapFind a.assets_ idx = some e)
    (hn : a.NearestPrivate idx s) :
    a.prevAssetWithKey idx = some s := by
  have hmem := mem_takeWhile_sorted a.assets_ idx e hs hf
  have hpre := takeWhile_sorted a.assets_ (fun x => decide (x.1 ≠ idx)) hs
  unfold AssetAccount.prevAssetWithKey
  rcases hn with ⟨i, hi, hlt, hkey, hbetween⟩ | ⟨hnone, hroot⟩
  · cases hfind : (a.assets_.takeWhile (fun x => decide (x.1 ≠ idx))).reverse.find?
        (fun x => x.2.hasPrivateKey) with
    | none =>
      rw [List.find?_eq_none] at hfind
      have := hfind (i, s) (List.mem_reverse.2 ((hmem (i, s)).2 ⟨hi, hlt⟩))
      simp only [hkey, not_true_eq_false] at this
    | some x =>
      simp only
      rw [List.find?_eq_some] at hfind
      obtain ⟨hx, as, bs, hab, hno⟩ := hfind
      have hrev : a.assets_.takeWhile (fun x => decide (x.1 ≠ idx))
          = bs.reverse ++ x :: as.reverse := by
        have := congrArg List.reverse hab
        simpa using this
      have his : (i, s) ∈ bs.reverse ++ x :: as.reverse := by
        rw [← hrev]; exact (hmem (i, s)).2 ⟨hi, hlt⟩
      have hxm : x ∈ a.assets_ ∧ x.1 < idx := (hmem x).1 (by rw [hrev]; simp)
      rw [hrev] at hpre
      have hp2 := List.pairwise_append.1 hpre
      rcases List.mem_append.1 his with h | h
      · have hlt2 : decide (i < x.1) = true := hp2.2.2 (i, s) h x (List.mem_cons_self _ _)
        simp only [decide_eq_true_eq] at hlt2
        have := hbetween x hxm.1 hlt2 hxm.2
        rw [this] at hx
        cases hx
      · rcases List.mem_cons.1 h with h | h
        · rw [← h]
        · have := hno (i, s) (List.mem_reverse.1 h)
          simp only [hkey, Bool.not_true] at this
          cases this
  · have : (a.assets_.takeWhile (fun x => decide (x.1 ≠ idx))).reverse.find?
        (fun x => x.2.hasPrivateKey) = none := by
      rw [List.find?_eq_none]
      intro x hx
      have := (hmem x).1 (List.mem_reverse.1 hx)
      simp [hnone x this.1 this.2]
    rw [this]
    exact hroot

theorem fillPrivateKey_extend (single : AssetEntry → Bool) (derPriv : PrivateDerivation)
    (p : DbPrefixes) (cd : AssetCodec) (a : AssetAccount) (disk : Disk) (id : BinaryData)
    (e s : AssetEntry)
    (hs : MapSorted a.assets_)
    (hi : ∀ x ∈ a.assets_, x.2.index_ = x.1 ∧ x.1 < ROOT_ASSETENTRY_ID)
    (hr : ∀ r ∈ a.root_.toList, r.index_ = ROOT_ASSETENTRY_ID)
    (hl : id.length = 12) (hf : mapFind a.assets_ (READ_UINT32_BE (id.drop 8)) = some e)
    (hsg : single e = true) (hk : e.privKey_ = none)
    (hn : a.NearestPrivate (READ_UINT32_BE (id.drop 8)) s) :
    READ_UINT32_BE (id.drop 8) + 1 - (s.index_ + 1) % 2 ^ 32
      = (READ_UINT32_BE (id.drop 8) + 2 ^ 32 - s.index_) % 2 ^ 32 ∧
    a.fillPrivateKey single derPriv p cd disk id =
      match a.extendPrivateChainRange derPriv (some s) ((s.index_ + 1) % 2 ^ 32)
          (READ_UINT32_BE (id.drop 8)) with
      | .error err => (.error err, a, disk)
      | .ok assetVec =>
        let r := { a with assets_ := insertPrivateAssets a.assets_ assetVec }.updateOnDiskAssets
          p cd disk
        match mapFind r.1.assets_ (READ_UINT32_BE (id.drop 8)) with
        | none => (.error .invalidAssetId, r.1, r.2)
        | some fresh =>
          match fresh.privKey_ with
          | none => (.error .fillPrivateKeyFailed, r.1, r.2)
          | some privKey =>
            if !single fresh then (.error .fillPrivateKeyFailed, r.1, r.2)
            else (.ok privKey, r.1, r.2) := by
  have hprev := prevAssetWithKey_nearest a _ e s hs hf hn
  have hidx : READ_UINT32_BE (id.drop 8) < ROOT_ASSETENTRY_ID := (hi _ (mapFind_eq_some_mem hf)).2
  have hsidx : s.index_ < READ_UINT32_BE (id.drop 8) ∨ s.index_ = ROOT_ASSETENTRY_ID := by
    rcases hn with ⟨i, hm, hlt, -, -⟩ | ⟨-, hroot⟩
    · have := hi _ hm
      simp only at this
      omega
    · exact Or.inr (hr s (by rw [hroot]; simp))
  have h32 : (2 : Nat) ^ 32 = 4294967296 := by norm_num
  have hR : ROOT_ASSETENTRY_ID = 4294967295 := rfl
  rw [hR] at hidx hsidx
  have hcount : (READ_UINT32_BE (id.drop 8) + 2 ^ 32 - s.index_ % 2 ^ 32) % 2 ^ 32 ≠ 0 := by
    rw [h32]; omega
  have hstop : (s.index_ + (READ_UINT32_BE (id.drop 8) + 2 ^ 32 - s.index_ % 2 ^ 32) % 2 ^ 32)
      % 2 ^ 32 = READ_UINT32_BE (id.drop 8) := by
    rw [h32]; omega
  refine ⟨by rw [h32]; omega, ?_⟩
  unfold AssetAccount.fillPrivateKey
  simp only [hl, ne_eq, not_true_eq_false, if_false, hf, hsg, Bool.not_true, Bool.false_eq_true,
    hk, hprev, AssetAccount.extendPrivateChainFrom, hcount, hstop]
  cases a.extendPrivateChainRange derPriv (some s) ((s.index_ + 1) % 2 ^ 32)
      (READ_UINT32_BE (id.drop 8)) with
  | error err => rfl
  | ok vec => rfl

/-- A key returned by `fillPrivateKey` is the private key of the target asset
as the call leaves the account. -/
theorem fillPrivateKey_ok (single : AssetEntry → Bool) (derPriv : PrivateDerivation)
    (p : DbPrefixes) (cd : AssetCodec) (a a2 : AssetAccount) (disk d2 : Disk) (id k : BinaryData)
    (h : a.fillPrivateKey single derPriv p cd disk id = (.ok k, a2, d2)) :
    ∃ fresh, mapFind a2.assets_ (READ_UINT32_BE (id.drop 8)) = some fresh ∧
      fresh.privKey_ = some k ∧ single fresh = true := by
  unfold AssetAccount.fillPrivateKey at h
  split_ifs at h with h0
  · cases h
  · dsimp only at h
    split at h
    · cases h
    · rename_i thisAsset hf
      split_ifs at h with h1
      · cases h
      · split at h
        · rename_i pk hpk
          simp only [Prod.mk.injEq, Except.ok.injEq] at h
          obtain ⟨rfl, rfl, rfl⟩ := h
          exact ⟨thisAsset, hf, hpk, by simpa using h1⟩
        · split at h
          · cases h
          · split at h
            · cases h
            · rename_i a3 d3 hx
              split at h
              · cases h
              · rename_i fresh hfr
                split at h
                · cases h
                · rename_i pk hpk
                  split_ifs at h with h2
                  · cases h
                  · simp only [Prod.mk.injEq, Except.ok.injEq] at h
                    obtain ⟨rfl, rfl, rfl⟩ := h
                    exact ⟨fresh, hfr, hpk, by simpa using h2⟩

/-- C13. For an asset account whose map is in key order with every asset
under its own index and the root at the root index, and an asset ID: an ID
whose length is not 12 or whose index is not in the map fails with an
`AccountException`; when the asset has a private key, that key is returned and
nothing is derived or changed; when it has none, the private chain is
extended from the nearest lower asset with a private key, or from the root
when there is none, over the indices from the one after the start up to the
target, as many as target index minus start index (modulo 2^32), and the key
returned is the private key the target asset has after the extension. -/
theorem fillPrivateKey_spec (single : AssetEntry → Bool) (derPriv : PrivateDerivation)
    (p : DbPrefixes) (cd : AssetCodec) (a : AssetAccount) (disk : Disk) (id : BinaryData)
    (hs : MapSorted a.assets_)
    (hi : ∀ x ∈ a.assets_, x.2.index_ = x.1 ∧ x.1 < ROOT_ASSETENTRY_ID)
    (hr : ∀ r ∈ a.root_.toList, r.index_ = ROOT_ASSETENTRY_ID) :
    (id.length ≠ 12 →
      a.fillPrivateKey single derPriv p cd disk id = (.error .unexpectedAssetIdLength, a, disk)) ∧
    (id.length = 12 → mapFind a.assets_ (READ_UINT32_BE (id.drop 8)) = none →
      a.fillPrivateKey single derPriv p cd disk id = (.error .invalidAssetId, a, disk)) ∧
    (∀ e k, id.length = 12 → mapFind a.assets_ (READ_UINT32_BE (id.drop 8)) = some e →
      single e = true → e.privKey_ = some k →
      a.fillPrivateKey single derPriv p cd disk id = (.ok k, a, disk)) ∧
    (∀ e s, id.length = 12 → mapFind a.assets_ (READ_UINT32_BE (id.drop 8)) = some e →
      single e = true → e.privKey_ = none → a.NearestPrivate (READ_UINT32_BE (id.drop 8)) s →
      READ_UINT32_BE (id.drop 8) + 1 - (s.index_ + 1) % 2 ^ 32
        = (READ_UINT32_BE (id.drop 8) + 2 ^ 32 - s.index_) % 2 ^ 32 ∧
      a.fillPrivateKey single derPriv p cd disk id =
        match a.extendPrivateChainRange derPriv (some s) ((s.index_ + 1) % 2 ^ 32)
            (READ_UINT32_BE (id.drop 8)) with
        | .error err => (.error err, a, disk)
        | .ok assetVec =>
          let r := { a with assets_ := insertPrivateAssets a.assets_ assetVec }.updateOnDiskAssets
            p cd disk
          match mapFind r.1.assets_ (READ_UINT32_BE (id.drop 8)) with
          | none => (.error .invalidAssetId, r.1, r.2)
          | some fresh =>
            match fresh.privKey_ with
            | none => (.error .fillPrivateKeyFailed, r.1, r.2)
            | some privKey =>
              if !single fresh then (.error .fillPrivateKeyFailed, r.1, r.2)
              else (.ok privKey, r.1, r.2)) ∧
    (∀ k a2 d2, a.fillPrivateKey single derPriv p cd disk id = (.ok k, a2, d2) →
      ∃ fresh, mapFind a2.assets_ (READ_UINT32_BE (id.drop 8)) = some fresh ∧
        fresh.privKey_ = some k) := by
  refine ⟨?_, ?_, ?_, ?_, ?_⟩
  · intro h
    unfold AssetAccount.fillPrivateKey
    simp [h]
  · intro h hf
    unfold AssetAccount.fillPrivateKey
    simp [h, hf]
  · intro e k h hf hsg hk
    unfold AssetAccount.fillPrivateKey
    simp [h, hf, hsg, hk]
  · intro e s hl hf hsg hk hn
    exact fillPrivateKey_extend single derPriv p cd a disk id e s hs hi hr hl hf hsg hk hn
  · intro k a2 d2 h
    obtain ⟨f, h1, h2, -⟩ := fillPrivateKey_ok single derPriv p cd a a2 disk d2 id k h
    exact ⟨f, h1, h2⟩

theorem toyAssetAccountPrivate_nearest :
    toyAssetAccountPrivate.NearestPrivate 2
      { toyAsset [0, 0, 0, 7, 0, 0, 0, 1] 0 with privKey_ := some [9, 0] } :=
  Or.inl ⟨0, by decide, by decide, by decide, by decide⟩

/-- C13, witness: in the toy account asset 0 has a private key and assets 1
and 2 have none; the key of asset 2 is filled by deriving indices 1 and 2
from asset 0. -/
theorem fillPrivateKey_spec_witness :
    MapSorted toyAssetAccountPrivate.assets_ ∧
    (toyAssetAccountPrivate.fillPrivateKey (fun _ => true) toyDerPriv toyPrefixes toyCodec []
      [0, 0, 0, 7, 0, 0, 0, 1, 0, 0, 0, 2]).1 = .ok [9, 2] ∧
    (2 + 1 - (0 + 1) % 2 ^ 32 = (2 + 2 ^ 32 - 0) % 2 ^ 32) ∧
    (toyAssetAccountPrivate.fillPrivateKey (fun _ => true) toyDerPriv toyPrefixes toyCodec []
      [0, 0, 0, 7, 0, 0, 0, 1, 0, 0, 0, 0]) = (.ok [9, 0], toyAssetAccountPrivate, []) :=
  ⟨by unfold MapSorted; decide, by decide,
    (((fillPrivateKey_spec (fun _ => true) toyDerPriv toyPrefixes toyCodec toyAssetAccountPrivate
      [] [0, 0, 0, 7, 0, 0, 0, 1, 0, 0, 0, 2] (by unfold MapSorted; decide) (by decide)
      (by decide)).2.2.2.1 (toyAsset [0, 0, 0, 7, 0, 0, 0, 1] 2)
      { toyAsset [0, 0, 0, 7, 0, 0, 0, 1] 0 with privKey_ := some [9, 0] }
      (by decide) (by decide) rfl rfl toyAssetAccountPrivate_nearest).1),
    ((fillPrivateKey_spec (fun _ => true) toyDerPriv toyPrefixes toyCodec toyAssetAccountPrivate
      [] [0, 0, 0, 7, 0, 0, 0, 1, 0, 0, 0, 0] (by unfold MapSorted; decide) (by decide)
      (by decide)).2.2.1 { toyAsset [0, 0, 0, 7, 0, 0, 0, 1] 0 with privKey_ := some [9, 0] }
      [9, 0] (by decide) (by decide) rfl rfl)⟩

/-! ## The address hash index -/

theorem mapFind_mapEmplace {κ β : Type} [DecidableEq κ] [MapKey κ] (m : List (κ × β)) (k k2 : κ)
    (v : β) :
    mapFind (mapEmplace m k v) k2
      = match mapFind m k2 with
        | some x => some x
        | none => if k = k2 then some v else none := by
  unfold mapEmplace
  cases hk : mapFind m k with
  | some x =>
    simp only
    cases h2 : mapFind m k2 with
    | some y => rfl
    | none =>
      simp only
      split_ifs with e
      · subst e; rw [hk] at h2; cases h2
      · rfl
  | none =>
    simp only
    by_cases e : k = k2
    · subst e
      rw [mapFind_mapInsert_self, hk]
      simp
    · rw [mapFind_mapInsert_ne _ _ _ _ e]
      cases mapFind m k2 <;> simp [e]

theorem mem_mapEmplace_imp {κ β : Type} [DecidableEq κ] [MapKey κ] {m : List (κ × β)} {k : κ}
    {v : β} {x : κ × β} (h : x ∈ mapEmplace m k v) : x = (k, v) ∨ x ∈ m := by
  unfold mapEmplace at h
  split at h
  · exact Or.inr h
  · exact mem_mapInsert_imp h

theorem hashTypes_mem (hash : PrefixedHash) (a : AssetEntry) (types : List Nat)
    (m : List (Nat × BinaryData)) (x : Nat × BinaryData)
    (h : x ∈ hashTypes hash a types m) : x ∈ m ∨ (x.1 ∈ types ∧ x.2 = hash a x.1) := by
  induction types generalizing m with
  | nil => exact Or.inl h
  | cons t ts ih =>
    simp only [hashTypes] at h
    split at h
    · rcases ih m h with h | h
      · exact Or.inl h
      · exact Or.inr ⟨List.mem_cons_of_mem _ h.1, h.2⟩
    · rcases ih _ h with h | h
      · rcases mem_mapEmplace_imp h with h | h
        · right; rw [h]; exact ⟨List.mem_cons_self _ _, rfl⟩
        · exact Or.inl h
      · exact Or.inr ⟨List.mem_cons_of_mem _ h.1, h.2⟩

theorem hashTypes_find_mono (hash : PrefixedHash) (a : AssetEntry) (types : List Nat)
    (m : List (Nat × BinaryData)) (t : Nat) (v : BinaryData) (h : mapFind m t = some v) :
    mapFind (hashTypes hash a types m) t = some v := by
  induction types generalizing m with
  | nil => exact h
  | cons t0 ts ih =>
    simp only [hashTypes]
    split
    · exact ih m h
    · apply ih
      rw [mapFind_mapEmplace, h]

theorem hashTypes_find (hash : PrefixedHash) (a : AssetEntry) (types : List Nat)
    (m : List (Nat × BinaryData)) (t : Nat) (ht : t ∈ types)
    (hm : ∀ t v, mapFind m t = some v → v = hash a t) :
    mapFind (hashTypes hash a types m) t = some (hash a t) := by
  induction types generalizing m with
  | nil => cases ht
  | cons t0 ts ih =>
    simp only [hashTypes]
    rcases List.mem_cons.1 ht with e | hin
    · subst e
      split
      · rename_i v hv
        rw [hashTypes_find_mono hash a ts m t v hv, hm t v hv]
      · rename_i hv
        apply hashTypes_find_mono
        rw [mapFind_mapEmplace, hv]
        simp
    · split
      · exact ih m hin hm
      · rename_i hv
        apply ih _ hin
        intro t1 v1 h1
        rw [mapFind_mapEmplace] at h1
        cases h2 : mapFind m t1 with
        | some y =>
          rw [h2] at h1
          simp only [Option.some.injEq] at h1
          rw [← h1]; exact hm t1 y h2
        | none =>
          rw [h2] at h1
          simp only at h1
          split_ifs at h1 with e
          subst e
          simp only [Option.some.injEq] at h1
          exact h1.symm

/-- The hashes of an entry: those of the address types, each the hash of the
asset under the type. -/
theorem hashEntryOf_ok (hash : PrefixedHash) (types : List Nat) (a : AssetEntry) :
    (∀ x ∈ (hashEntryOf hash types a).2, x.1 ∈ types ∧ x.2 = hash a x.1) ∧
    (∀ t ∈ types, (t, hash a t) ∈ (hashEntryOf hash types a).2) := by
  constructor
  · intro x hx
    rcases hashTypes_mem hash a types [] x hx with h | h
    · cases h
    · exact h
  · intro t ht
    apply mapFind_eq_some_mem
    exact hashTypes_find hash a types [] t ht (fun t v h => by simp [mapFind] at h)

theorem dropWhile_key {κ β : Type} [DecidableEq κ] (pre : List (κ × β)) (x : κ × β)
    (post : List (κ × β)) (h : ∀ y ∈ pre, y.1 ≠ x.1) :
    (pre ++ x :: post).dropWhile (fun y => decide (y.1 ≠ x.1)) = x :: post := by
  induction pre with
  | nil => simp [List.dropWhile]
  | cons y t ih =>
    have hy : y.1 ≠ x.1 := h y (List.mem_cons_self _ _)
    simp only [List.cons_append, List.dropWhile, hy, ne_eq, not_false_eq_true, decide_True]
    exact ih (fun z hz => h z (List.mem_cons_of_mem _ hz))

theorem mapFind_key {κ β : Type} [DecidableEq κ] (pre : List (κ × β)) (x : κ × β)
    (post : List (κ × β)) (h : ∀ y ∈ pre, y.1 ≠ x.1) :
    mapFind (pre ++ x :: post) x.1 = some x.2 := by
  induction pre with
  | nil => simp [mapFind]
  | cons y t ih =>
    have hy : y.1 ≠ x.1 := h y (List.mem_cons_self _ _)
    obtain ⟨k, v⟩ := y
    simp only [List.cons_append, mapFind]
    simp only at hy
    rw [if_neg hy]
    exact ih (fun z hz => h z (List.mem_cons_of_mem _ hz))

theorem getLast?_cons_some {α : Type} (y : α) (t : List α) : ∃ z, (y :: t).getLast? = some z :=
  ⟨(y :: t).getLast (by simp), List.getLast?_eq_getLast _ _⟩

theorem hashAssetsLoop_append (hash : PrefixedHash) (types : List Nat)
    (rest : List (Nat × AssetEntry)) (L : Nat) (M : List (BinaryData × List (Nat × BinaryData)))
    (hr : (rest.map (fun x => x.2.ID_)).Pairwise (fun x y => bdLess x y = true))
    (hM : ∀ e ∈ M, ∀ x ∈ rest, bdLess e.1 x.2.ID_ = true) :
    hashAssetsLoop hash types rest { lastHashedAsset_ := L, addrHashMap_ := M }
      = { lastHashedAsset_ := (rest.getLast?.map Prod.fst).getD L,
          addrHashMap_ := M ++ rest.map (fun y => hashEntryOf hash types y.2) } := by
  induction rest generalizing L M with
  | nil => simp [hashAssetsLoop]
  | cons x rest ih =>
    obtain ⟨i, a⟩ := x
    rw [List.map_cons, List.pairwise_cons] at hr
    have hless : ∀ e ∈ M, MapKey.less e.1 a.ID_ = true :=
      fun e he => hM e he (i, a) (List.mem_cons_self _ _)
    simp only [hashAssetsLoop, mapFind_none_of_less bdLaws M a.ID_ hless, Option.getD_none,
      mapInsert_append_of_less bdLaws M a.ID_ _ hless]
    rw [ih i _ hr.2 ?_]
    · congr 1
      · cases rest with
        | nil => simp
        | cons y t =>
          obtain ⟨z, hz⟩ := getLast?_cons_some y t
          simp [List.getLast?_cons_cons, hz]
      · simp [hashEntryOf]
    · intro e he x hx
      rcases List.mem_append.1 he with he | he
      · exact hM e he x (List.mem_cons_of_mem _ hx)
      · simp only [List.mem_singleton] at he
        rw [he]
        exact hr.1 _ (List.mem_map_of_mem (fun x => x.2.ID_) hx)

theorem sorted_keys_ne {β : Type} (pre : List (Nat × β)) (x : Nat × β) (post : List (Nat × β))
    (hs : MapSorted (pre ++ x :: post)) : ∀ y ∈ pre, y.1 ≠ x.1 := by
  intro y hy
  have := (List.pairwise_append.1 hs).2.2 y hy x (List.mem_cons_self _ _)
  exact natLaws.ne this

/-- After `updateAddressHashMap` of an asset account with a coherent cache,
every asset has its entry, in the order of the assets, and the cache is
coherent. -/
theorem updateAddressHashMap_asset (hash : PrefixedHash) (types : List Nat) (acc : AssetAccount)
    (c : AssetHashCache) (hs : MapSorted acc.assets_) (hid : acc.IdSorted)
    (hc : acc.HashCoherent hash types c) :
    (acc.updateAddressHashMap hash types c).addrHashMap_
      = acc.assets_.map (fun y => hashEntryOf hash types y.2) ∧
    acc.HashCoherent hash types (acc.updateAddressHashMap hash types c) := by
  have key : (acc.updateAddressHashMap hash types c)
      = { lastHashedAsset_ := (acc.assets_.getLast?.map Prod.fst).getD c.lastHashedAsset_,
          addrHashMap_ := acc.assets_.map (fun y => hashEntryOf hash types y.2) } := by
    unfold AssetAccount.updateAddressHashMap
    rcases hc with ⟨h1, h2⟩ | ⟨pre, x, post, h1, h2, h3⟩
    · simp only [h2]
      have := hashAssetsLoop_append hash types acc.assets_ c.lastHashedAsset_ [] hid
        (fun e he => by cases he)
      rw [List.nil_append] at this
      rw [← this, ← h1]
    · have hne := sorted_keys_ne pre x post (h1 ▸ hs)
      have hfind : mapFind acc.assets_ c.lastHashedAsset_ = some x.2 := by
        rw [h1, ← h2]; exact mapFind_key pre x post hne
      have hdrop : (acc.assets_.dropWhile (fun y => decide (y.1 ≠ c.lastHashedAsset_))).drop 1
          = post := by
        rw [h1, ← h2, dropWhile_key pre x post hne]
        rfl
      simp only [hfind, hdrop]
      unfold AssetAccount.IdSorted at hid
      rw [h1, List.map_append, List.map_cons, List.pairwise_append] at hid
      have hpost := (List.pairwise_cons.1 hid.2.1).2
      have hM : ∀ e ∈ (pre ++ [x]).map (fun y => hashEntryOf hash types y.2), ∀ z ∈ post,
          bdLess e.1 z.2.ID_ = true := by
        intro e he z hz
        obtain ⟨y, hy, rfl⟩ := List.mem_map.1 he
        have hzm : z.2.ID_ ∈ post.map (fun x => x.2.ID_) := List.mem_map_of_mem _ hz
        rcases List.mem_append.1 hy with hy | hy
        · exact hid.2.2 _ (List.mem_map_of_mem (fun x => x.2.ID_) hy) _
            (List.mem_cons_of_mem _ hzm)
        · simp only [List.mem_singleton] at hy
          rw [hy]
          exact (List.pairwise_cons.1 hid.2.1).1 _ hzm
      have := hashAssetsLoop_append hash types post c.lastHashedAsset_ _ hpost hM
      rw [← h3] at this
      rw [this, h3, h1]
      congr 1
      · cases post with
        | nil => simp [h2]
        | cons y t =>
          obtain ⟨z, hz⟩ := getLast?_cons_some y t
          simp [List.getLast?_cons_cons, List.getLast?_append, hz]
      · simp
  rw [key]
  refine ⟨rfl, ?_⟩
  rcases List.eq_nil_or_concat acc.assets_ with h | ⟨pre, x, h⟩
  · left
    rcases hc with ⟨h1, h2⟩ | ⟨pre, x, post, h1, h2, h3⟩
    · simp [h, mapFind]
    · rw [h] at h1; simp at h1
  · right
    refine ⟨pre, x, [], by simp [h], ?_, by simp [h]⟩
    simp [h]

section Emplace

variable {κ β : Type} [DecidableEq κ] [MapKey κ]

theorem emplaceAll_mono (kvs : List (κ × β)) (A : List (κ × β)) (k : κ) (x : β)
    (h : mapFind A k = some x) :
    mapFind (kvs.foldl (fun m kv => mapEmplace m kv.1 kv.2) A) k = some x := by
  induction kvs generalizing A with
  | nil => exact h
  | cons kv kvs ih =>
    apply ih
    rw [mapFind_mapEmplace, h]

theorem emplaceAll_sound (kvs : List (κ × β)) (A : List (κ × β)) (k : κ) (x : β)
    (h : mapFind (kvs.foldl (fun m kv => mapEmplace m kv.1 kv.2) A) k = some x) :
    mapFind A k = some x ∨ (k, x) ∈ kvs := by
  induction kvs generalizing A with
  | nil => exact Or.inl h
  | cons kv kvs ih =>
    rcases ih _ h with h1 | h1
    · rw [mapFind_mapEmplace] at h1
      cases h2 : mapFind A k with
      | some y => rw [h2] at h1; exact Or.inl h1
      | none =>
        rw [h2] at h1
        simp only at h1
        split_ifs at h1 with e
        simp only [Option.some.injEq] at h1
        right
        rw [← e, ← h1]
        exact List.mem_cons_self _ _
    · exact Or.inr (List.mem_cons_of_mem _ h1)

theorem emplaceAll_cover (kvs : List (κ × β)) (A : List (κ × β)) (k : κ) (x : β)
    (h : (k, x) ∈ kvs) :
    ∃ y, mapFind (kvs.foldl (fun m kv => mapEmplace m kv.1 kv.2) A) k = some y := by
  induction kvs generalizing A with
  | nil => cases h
  | cons kv kvs ih =>
    rcases List.mem_cons.1 h with h1 | h1
    · subst h1
      have : ∃ y, mapFind (mapEmplace A k x) k = some y := by
        rw [mapFind_mapEmplace]
        cases mapFind A k with
        | some y => exact ⟨y, rfl⟩
        | none => exact ⟨x, by simp⟩
      obtain ⟨y, hy⟩ := this
      exact ⟨y, emplaceAll_mono kvs _ k y hy⟩
    · exact ih _ h1

end Emplace

theorem emplaceHashes_eq (A : List (BinaryData × (BinaryData × Nat)))
    (entries : List (BinaryData × List (Nat × BinaryData))) :
    emplaceHashes A entries
      = (flatHashes entries).foldl (fun m kv => mapEmplace m kv.1 kv.2) A := by
  induction entries generalizing A with
  | nil => rfl
  | cons e rest ih =>
    obtain ⟨id, hashes⟩ := e
    simp only [emplaceHashes, flatHashes, List.map_cons, List.flatten_cons, List.foldl_append,
      List.foldl_map]
    exact ih _

/-- The pairs put in `addressHashes_` for the entries of a list of assets. -/
theorem mem_flatHashes (hash : PrefixedHash) (types : List Nat) (S : List (Nat × AssetEntry))
    (v : BinaryData) (pair : BinaryData × Nat) :
    (v, pair) ∈ flatHashes (S.map (fun y => hashEntryOf hash types y.2)) ↔
      ∃ a ∈ S, ∃ t ∈ types, v = hash a.2 t ∧ pair = (a.2.ID_, t) := by
  unfold flatHashes
  simp only [List.mem_flatten, List.mem_map, List.map_map, Function.comp_def]
  constructor
  · rintro ⟨l, ⟨a, ha, rfl⟩, hl⟩
    obtain ⟨hv, hhv, e⟩ := List.mem_map.1 hl
    have := (hashEntryOf_ok hash types a.2).1 hv hhv
    simp only [Prod.mk.injEq] at e
    refine ⟨a, ha, hv.1, this.1, ?_, ?_⟩
    · rw [← e.1, this.2]
    · rw [← e.2]; rfl
  · rintro ⟨a, ha, t, ht, rfl, rfl⟩
    refine ⟨_, ⟨a, ha, rfl⟩, ?_⟩
    exact List.mem_map.2 ⟨(t, hash a.2 t), (hashEntryOf_ok hash types a.2).2 t ht, rfl⟩

theorem idSorted_keys_ne (hash : PrefixedHash) (types : List Nat)
    (pre : List (Nat × AssetEntry)) (y : Nat × AssetEntry) (post : List (Nat × AssetEntry))
    (h : ((pre ++ y :: post).map (fun x => x.2.ID_)).Pairwise (fun a b => bdLess a b = true)) :
    ∀ e ∈ pre.map (fun z => hashEntryOf hash types z.2), e.1 ≠ (hashEntryOf hash types y.2).1 := by
  intro e he
  obtain ⟨z, hz, rfl⟩ := List.mem_map.1 he
  show z.2.ID_ ≠ y.2.ID_
  rw [List.map_append, List.map_cons, List.pairwise_append] at h
  have := h.2.2 z.2.ID_ (List.mem_map.2 ⟨z, hz, rfl⟩) y.2.ID_ (List.mem_cons_self _ _)
  intro e
  rw [e] at this
  rw [show bdLess y.2.ID_ y.2.ID_ = false from bdLaws.irrefl _] at this
  cases this

theorem getLast?_cons_concat {α : Type} (a : α) (l : List α) (z : α) :
    (a :: (l ++ [z])).getLast? = some z := by
  rw [← List.cons_append, List.getLast?_append]
  rfl

/-- The two outcomes of the loop body of `AddressAccount::updateAddressHashMap`
for one asset account: nothing is put in `addressHashes_` and the hashes of
all the assets are there, or the hashes of the assets after the last one
indexed are put and the last asset becomes the last one indexed. -/
theorem updateAddressHashMapFor_cases (hash : PrefixedHash) (aa : AddressAccount)
    (h : AddressHashCache) (x : BinaryData × AssetAccount)
    (hs : MapSorted x.2.assets_) (hid : x.2.IdSorted)
    (hc : x.2.HashCoherent hash aa.addressTypes_ (h.assetCaches_ x.1))
    (ht : aa.TopCoherent hash h x) :
    (aa.updateAddressHashMapFor hash h x
        = { h with assetCaches_ := fun k =>
              if k = x.1 then x.2.updateAddressHashMap hash aa.addressTypes_ (h.assetCaches_ x.1)
              else h.assetCaches_ k } ∧
      ∀ a ∈ x.2.assets_, ∀ t ∈ aa.addressTypes_,
        mapFind h.addressHashes_ (hash a.2 t) = some (a.2.ID_, t)) ∨
    (∃ P S z, x.2.assets_ = P ++ (S ++ [z]) ∧
      (∀ a ∈ P, ∀ t ∈ aa.addressTypes_,
        mapFind h.addressHashes_ (hash a.2 t) = some (a.2.ID_, t)) ∧
      aa.updateAddressHashMapFor hash h x
        = { assetCaches_ := fun k =>
              if k = x.1 then x.2.updateAddressHashMap hash aa.addressTypes_ (h.assetCaches_ x.1)
              else h.assetCaches_ k,
            addressHashes_ := emplaceHashes h.addressHashes_
              ((S ++ [z]).map (fun y => hashEntryOf hash aa.addressTypes_ y.2)),
            topHashedAssetId_ := mapInsert h.topHashedAssetId_ x.1 z.2.ID_ }) := by
  obtain ⟨hmap, -⟩ := updateAddressHashMap_asset hash aa.addressTypes_ x.2 _ hs hid hc
  unfold AddressAccount.updateAddressHashMapFor
  simp only [hmap, List.length_map]
  by_cases hnil : x.2.assets_ = []
  · left
    simp [hnil]
  · have hlen : ¬ x.2.assets_.length = 0 := fun e => hnil (List.length_eq_zero.1 e)
    rw [if_neg hlen]
    rcases ht with ht | ⟨pre, y, post, hsplit, htop, hdone⟩
    · right
      refine ⟨[], x.2.assets_.dropLast, x.2.assets_.getLast hnil, ?_, ?_, ?_⟩
      · simp [List.dropLast_append_getLast]
      · intro a ha; cases ha
      · rw [ht]
        have e1 : x.2.assets_ = x.2.assets_.dropLast ++ [x.2.assets_.getLast hnil] :=
          (List.dropLast_append_getLast hnil).symm
        generalize x.2.assets_.getLast hnil = z at e1
        generalize x.2.assets_.dropLast = S at e1
        rw [e1]
        cases S with
        | nil => simp; rfl
        | cons s0 S =>
          simp only [List.map_append, List.map_cons, List.map_nil, List.cons_append,
            getLast?_cons_concat]
          rfl
    · rw [htop]
      have hne := idSorted_keys_ne hash aa.addressTypes_ pre y post (by
        have := hid
        unfold AssetAccount.IdSorted at this
        rwa [hsplit] at this)
      have hdw : ((x.2.assets_.map (fun y => hashEntryOf hash aa.addressTypes_ y.2)).dropWhile
          (fun e => decide (e.1 ≠ y.2.ID_))).drop 1
          = post.map (fun y => hashEntryOf hash aa.addressTypes_ y.2) := by
        rw [hsplit, List.map_append, List.map_cons]
        have := dropWhile_key (pre.map (fun y => hashEntryOf hash aa.addressTypes_ y.2))
          (hashEntryOf hash aa.addressTypes_ y.2)
          (post.map (fun y => hashEntryOf hash aa.addressTypes_ y.2)) hne
        simp only [hashEntryOf] at this ⊢
        rw [this]
        rfl
      simp only [hdw]
      by_cases hpost : post = []
      · left
        subst hpost
        refine ⟨by simp, ?_⟩
        intro a ha
        rw [hsplit] at ha
        exact hdone a ha
      · right
        refine ⟨pre ++ [y], post.dropLast, post.getLast hpost, ?_, hdone, ?_⟩
        · rw [hsplit, List.dropLast_append_getLast]; simp
        · have e1 : post = post.dropLast ++ [post.getLast hpost] :=
            (List.dropLast_append_getLast hpost).symm
          generalize post.getLast hpost = z at e1
          generalize post.dropLast = S at e1
          rw [hsplit, e1]
          cases S with
          | nil =>
            simp only [List.map_append, List.map_cons, List.map_nil, List.nil_append]
            rw [List.getLast?_append]
            rfl
          | cons s0 S =>
            simp only [List.map_append, List.map_cons, List.map_nil, List.cons_append]
            rw [List.getLast?_append, ← List.cons_append, getLast?_cons_concat]
            rfl

/-- One pass of the loop body of `AddressAccount::updateAddressHashMap`: the
hashes of all the assets of the asset account are in `addressHashes_`
afterwards, the index stays coherent, and the other asset accounts keep their
caches. -/
theorem updateAddressHashMapFor_step (hash : PrefixedHash) (aa : AddressAccount)
    (h : AddressHashCache) (x : BinaryData × AssetAccount)
    (hx : x ∈ aa.assetAccounts_)
    (hs : MapSorted x.2.assets_) (hid : x.2.IdSorted)
    (hinj : aa.HashInjective hash)
    (hc : x.2.HashCoherent hash aa.addressTypes_ (h.assetCaches_ x.1))
    (ht : aa.TopCoherent hash h x)
    (hsound : ∀ v pair, mapFind h.addressHashes_ v = some pair → aa.IsAddressHash hash v pair) :
    x.2.HashCoherent hash aa.addressTypes_
      ((aa.updateAddressHashMapFor hash h x).assetCaches_ x.1) ∧
    aa.TopCoherent hash (aa.updateAddressHashMapFor hash h x) x ∧
    (∀ a ∈ x.2.assets_, ∀ t ∈ aa.addressTypes_,
      mapFind (aa.updateAddressHashMapFor hash h x).addressHashes_ (hash a.2 t)
        = some (a.2.ID_, t)) ∧
    (∀ v pair, mapFind (aa.updateAddressHashMapFor hash h x).addressHashes_ v = some pair →
      aa.IsAddressHash hash v pair) ∧
    (∀ k, k ≠ x.1 →
      (aa.updateAddressHashMapFor hash h x).assetCaches_ k = h.assetCaches_ k ∧
      mapFind (aa.updateAddressHashMapFor hash h x).topHashedAssetId_ k
        = mapFind h.topHashedAssetId_ k) ∧
    (∀ v pair, mapFind h.addressHashes_ v = some pair →
      mapFind (aa.updateAddressHashMapFor hash h x).addressHashes_ v = some pair) := by
  obtain ⟨-, hc2⟩ := updateAddressHashMap_asset hash aa.addressTypes_ x.2 _ hs hid hc
  rcases updateAddressHashMapFor_cases hash aa h x hs hid hc ht with
    ⟨e, hdone⟩ | ⟨P, S, z, hsplit, hP, e⟩
  · rw [e]
    refine ⟨?_, ht, hdone, hsound, ?_, fun v pair hv => hv⟩
    · simpa using hc2
    · intro k hk
      simp [hk]
  · rw [e]
    have hmono : ∀ v pair, mapFind h.addressHashes_ v = some pair →
        mapFind (emplaceHashes h.addressHashes_
          ((S ++ [z]).map (fun y => hashEntryOf hash aa.addressTypes_ y.2))) v = some pair := by
      intro v pair hv
      rw [emplaceHashes_eq]
      exact emplaceAll_mono _ _ _ _ hv
    have hsound2 : ∀ v pair, mapFind (emplaceHashes h.addressHashes_
          ((S ++ [z]).map (fun y => hashEntryOf hash aa.addressTypes_ y.2))) v = some pair →
        aa.IsAddressHash hash v pair := by
      intro v pair hv
      rw [emplaceHashes_eq] at hv
      rcases emplaceAll_sound _ _ _ _ hv with h1 | h1
      · exact hsound v pair h1
      · obtain ⟨a, ha, t, ht, hv1, hp1⟩ := (mem_flatHashes hash aa.addressTypes_ _ v pair).1 h1
        refine ⟨x, hx, a, ?_, t, ht, hv1, hp1⟩
        rw [hsplit]
        exact List.mem_append_right _ ha
    have hdone : ∀ a ∈ x.2.assets_, ∀ t ∈ aa.addressTypes_,
        mapFind (emplaceHashes h.addressHashes_
          ((S ++ [z]).map (fun y => hashEntryOf hash aa.addressTypes_ y.2))) (hash a.2 t)
          = some (a.2.ID_, t) := by
      intro a ha t ht
      have ha0 := ha
      rw [hsplit] at ha
      rcases List.mem_append.1 ha with ha1 | ha1
      · exact hmono _ _ (hP a ha1 t ht)
      · have hmem : (hash a.2 t, (a.2.ID_, t)) ∈ flatHashes
            ((S ++ [z]).map (fun y => hashEntryOf hash aa.addressTypes_ y.2)) :=
          (mem_flatHashes hash aa.addressTypes_ _ _ _).2 ⟨a, ha1, t, ht, rfl, rfl⟩
        obtain ⟨y, hy⟩ := emplaceAll_cover _ h.addressHashes_ _ _ hmem
        rw [← emplaceHashes_eq] at hy
        obtain ⟨x2, hx2, a2, ha2, t2, ht2, hv2, hp2⟩ := hsound2 _ _ hy
        obtain ⟨e1, e2⟩ := hinj x hx x2 hx2 a ha0 a2 ha2 t ht t2 ht2 hv2
        rw [hy, hp2, e1, e2]
    refine ⟨?_, ?_, hdone, hsound2, ?_, hmono⟩
    · simpa using hc2
    · right
      refine ⟨P ++ S, z, [], ?_, ?_, ?_⟩
      · rw [hsplit, List.append_assoc]
      · exact mapFind_mapInsert_self _ _ _
      · intro a ha
        apply hdone
        rw [hsplit, ← List.append_assoc]
        exact ha
    · intro k hk
      refine ⟨by simp [hk], ?_⟩
      exact mapFind_mapInsert_ne _ _ _ _ (Ne.symm hk)

theorem wellFormed_idSorted (a : AssetAccount) (hw : a.WellFormed) : a.IdSorted := by
  obtain ⟨_, _, _, _, _, hs, hi, hr, hid⟩ := hw
  unfold AssetAccount.IdSorted
  rw [List.pairwise_map]
  refine List.Pairwise.imp_of_mem ?_ hs
  intro x y hx hy hxy
  have hxy2 : decide (x.1 < y.1) = true := hxy
  simp only [decide_eq_true_eq] at hxy2
  have e1 := hi x hx
  have e2 := hi y hy
  rw [hid x.2 ((mem_entries a _).2 (Or.inl ⟨x, hx, rfl⟩)),
    hid y.2 ((mem_entries a _).2 (Or.inl ⟨y, hy, rfl⟩)), bdLess_append]
  apply bdLess_WRITE_UINT32_BE
  · omega
  · have : ROOT_ASSETENTRY_ID < 2 ^ 32 := by decide
    omega

theorem updateAddressHashMap_asset_nil (hash : PrefixedHash) (types : List Nat)
    (acc : AssetAccount) (c : AssetHashCache) (h : acc.assets_ = []) :
    acc.updateAddressHashMap hash types c = c := by
  unfold AssetAccount.updateAddressHashMap
  simp [h, mapFind, hashAssetsLoop]

/-- The loop of `AddressAccount::updateAddressHashMap` over a list of asset
accounts of the account keeps the index coherent, leaves in `addressHashes_`
the hashes of all the assets of these accounts, and keeps what was there. -/
theorem updateAddressHashMap_fold (hash : PrefixedHash) (aa : AddressAccount)
    (hw : aa.WellFormed) (hinj : aa.HashInjective hash)
    (l : List (BinaryData × AssetAccount)) (hl : ∀ x ∈ l, x ∈ aa.assetAccounts_)
    (h : AddressHashCache) (hc : aa.HashCoherent hash h) :
    aa.HashCoherent hash (l.foldl (aa.updateAddressHashMapFor hash) h) ∧
    (∀ x ∈ l, ∀ a ∈ x.2.assets_, ∀ t ∈ aa.addressTypes_,
      mapFind (l.foldl (aa.updateAddressHashMapFor hash) h).addressHashes_ (hash a.2 t)
        = some (a.2.ID_, t)) ∧
    (∀ v pair, mapFind h.addressHashes_ v = some pair →
      mapFind (l.foldl (aa.updateAddressHashMapFor hash) h).addressHashes_ v = some pair) := by
  induction l generalizing h with
  | nil => exact ⟨hc, fun x hx => absurd hx (List.not_mem_nil x), fun v pair hv => hv⟩
  | cons x l ih =>
    have hx := hl x (List.mem_cons_self _ _)
    have hwx : x.2.WellFormed := (hw.2.2.2.2.2.2.2.2.2.1 x hx).2.2
    have hsx : MapSorted x.2.assets_ := hwx.2.2.2.2.2.1
    obtain ⟨s1, s2, s3, s4, s5, s6⟩ := updateAddressHashMapFor_step hash aa h x hx hsx
      (wellFormed_idSorted x.2 hwx) hinj (hc.1 x hx).1 (hc.1 x hx).2.1 hc.2
    have hc1 : aa.HashCoherent hash (aa.updateAddressHashMapFor hash h x) := by
      refine ⟨?_, s4⟩
      intro y hy
      by_cases e : y.1 = x.1
      · have := mapSorted_inj bdLaws hw.2.2.2.2.2.2.2.2.1 hy hx e
        subst this
        refine ⟨s1, s2, ?_⟩
        intro hnil
        obtain ⟨hmap, -⟩ := updateAddressHashMap_asset hash aa.addressTypes_ y.2 _ hsx
          (wellFormed_idSorted y.2 hwx) (hc.1 y hx).1
        have hupd : (aa.updateAddressHashMapFor hash h y).assetCaches_ y.1
            = y.2.updateAddressHashMap hash aa.addressTypes_ (h.assetCaches_ y.1) := by
          rcases updateAddressHashMapFor_cases hash aa h y hsx (wellFormed_idSorted y.2 hwx)
            (hc.1 y hx).1 (hc.1 y hx).2.1 with ⟨e, -⟩ | ⟨P, S, z, -, -, e⟩ <;> rw [e] <;> simp
        rw [hupd] at hnil ⊢
        rw [hmap] at hnil
        have hnil2 : y.2.assets_ = [] := List.map_eq_nil_iff.1 hnil
        rw [updateAddressHashMap_asset_nil hash _ _ _ hnil2]
        apply (hc.1 y hx).2.2
        have := (updateAddressHashMap_asset_nil hash aa.addressTypes_ y.2
          (h.assetCaches_ y.1) hnil2)
        rw [← this, hmap, hnil2]
        rfl
      · obtain ⟨c1, c2⟩ := s5 y.1 e
        obtain ⟨d1, d2, d3⟩ := hc.1 y hy
        rw [c1]
        refine ⟨d1, ?_, d3⟩
        rcases d2 with d2 | ⟨pre, z, post, hsplit, htop, hdone⟩
        · left
          rw [c2]
          exact d2
        · right
          refine ⟨pre, z, post, hsplit, by rw [c2]; exact htop, ?_⟩
          intro a ha t ht
          exact s6 _ _ (hdone a ha t ht)
    obtain ⟨i1, i2, i3⟩ := ih (fun y hy => hl y (List.mem_cons_of_mem _ hy)) _ hc1
    refine ⟨i1, ?_, fun v pair hv => i3 v pair (s6 v pair hv)⟩
    intro y hy a ha t ht
    rcases List.mem_cons.1 hy with e | e
    · subst e
      exact i3 _ _ (s3 a ha t ht)
    · exact i2 y e a ha t ht

theorem mapFind_none_of_root_le (a : AssetAccount) (hw : a.WellFormed) (i : Nat)
    (hi : ROOT_ASSETENTRY_ID ≤ i) : mapFind a.assets_ i = none := by
  apply mapFind_eq_none_iff.2
  intro e he
  have := (hw.2.2.2.2.2.2.1 e he).2
  omega

/-- An index that holds nothing is coherent. -/
theorem hashCoherent_fresh (hash : PrefixedHash) (aa : AddressAccount) (hw : aa.WellFormed)
    (h : AddressHashCache)
    (h1 : ∀ k, (h.assetCaches_ k).addrHashMap_ = [] ∧
      ROOT_ASSETENTRY_ID ≤ (h.assetCaches_ k).lastHashedAsset_)
    (h2 : h.addressHashes_ = []) (h3 : h.topHashedAssetId_ = []) :
    aa.HashCoherent hash h := by
  refine ⟨?_, ?_⟩
  · intro x hx
    have hwx : x.2.WellFormed := (hw.2.2.2.2.2.2.2.2.2.1 x hx).2.2
    refine ⟨Or.inl ⟨(h1 x.1).1, mapFind_none_of_root_le x.2 hwx _ (h1 x.1).2⟩, ?_,
      fun _ => (h1 x.1).2⟩
    left
    rw [h3]
    rfl
  · intro v pair hv
    rw [h2] at hv
    cases hv

/-- A coherent index stays coherent when chains are extended. -/
theorem hashCoherent_chainExtends (hash : PrefixedHash) (aa aa2 : AddressAccount)
    (hw2 : aa2.WellFormed) (he : aa.ChainExtends aa2) (h : AddressHashCache)
    (hc : aa.HashCoherent hash h) : aa2.HashCoherent hash h := by
  obtain ⟨ht, he1, he2⟩ := he
  refine ⟨?_, ?_⟩
  · intro y hy
    obtain ⟨x, hx, exy, new, hnew⟩ := he1 y hy
    obtain ⟨d1, d2, d3⟩ := hc.1 x hx
    have hwy : y.2.WellFormed := (hw2.2.2.2.2.2.2.2.2.2.1 y hy).2.2
    rw [← exy, ht]
    refine ⟨?_, ?_, d3⟩
    · rcases d1 with ⟨hnil, -⟩ | ⟨pre, z, post, hsplit, hz, hmap⟩
      · exact Or.inl ⟨hnil, mapFind_none_of_root_le y.2 hwy _ (d3 hnil)⟩
      · refine Or.inr ⟨pre, z, post ++ new, ?_, hz, hmap⟩
        rw [hnew, hsplit]
        simp
    · rcases d2 with d2 | ⟨pre, z, post, hsplit, htop, hdone⟩
      · left
        rw [← exy]
        exact d2
      · right
        refine ⟨pre, z, post ++ new, ?_, ?_, ?_⟩
        · rw [hnew, hsplit]
          simp
        · rw [← exy]
          exact htop
        · rw [ht]
          exact hdone
  · intro v pair hv
    obtain ⟨x, hx, a, ha, t, ht1, e1, e2⟩ := hc.2 v pair hv
    obtain ⟨y, hy, -, new, hnew⟩ := he2 x hx
    refine ⟨y, hy, a, ?_, t, ?_, e1, e2⟩
    · rw [hnew]
      exact List.mem_append_left _ ha
    · rw [ht]
      exact ht1

/-- The lookup on a coherent index: the refreshed index is coherent, the hash
of every address of the account is found, and no other hash is. -/
theorem getAssetIDPairForAddr_coherent (hash : PrefixedHash) (aa : AddressAccount)
    (h : AddressHashCache) (hw : aa.WellFormed) (hinj : aa.HashInjective hash)
    (hc : aa.HashCoherent hash h) :
    aa.HashCoherent hash (aa.updateAddressHashMap hash h) ∧
    (∀ x ∈ aa.assetAccounts_, ∀ a ∈ x.2.assets_, ∀ t ∈ aa.addressTypes_,
      aa.getAssetIDPairForAddr hash h (hash a.2 t)
        = (.ok (a.2.ID_, t), aa.updateAddressHashMap hash h)) ∧
    (∀ v, (∀ x ∈ aa.assetAccounts_, ∀ a ∈ x.2.assets_, ∀ t ∈ aa.addressTypes_,
        v ≠ hash a.2 t) →
      aa.getAssetIDPairForAddr hash h v
        = (.error .unknownScrAddr, aa.updateAddressHashMap hash h)) := by
  obtain ⟨f1, f2, -⟩ := updateAddressHashMap_fold hash aa hw hinj aa.assetAccounts_
    (fun x hx => hx) h hc
  refine ⟨f1, ?_, ?_⟩
  · intro x hx a ha t ht
    have := f2 x hx a ha t ht
    unfold AddressAccount.getAssetIDPairForAddr
    simp only
    unfold AddressAccount.updateAddressHashMap
    rw [this]
  · intro v hv
    unfold AddressAccount.getAssetIDPairForAddr
    simp only
    cases hf : mapFind (aa.updateAddressHashMap hash h).addressHashes_ v with
    | none => rfl
    | some pair =>
      obtain ⟨x, hx, a, ha, t, ht, e1, -⟩ := f1.2 v pair hf
      exact absurd e1 (hv x hx a ha t ht)

theorem toyHash_injective (aa : AddressAccount) : aa.HashInjective toyHash := by
  intro x _ y _ a _ b _ t1 _ t2 _ e
  simp only [toyHash, List.cons.injEq] at e
  exact ⟨e.2, e.1⟩

/-- C14: on a well-formed address account with a coherent hash index and no
two (asset, type) pairs under one prefixed hash, `getAssetIDPairForAddr` on
the hash of the address of an asset `a` of any asset account under a permitted
type `t` returns (ID of `a`, `t`); a hash of no such pair fails with an
`AccountException`; and after any lookup and any chain extension of the
account, the lookup of every address of the extended account, the new assets
included, returns its pair. -/
theorem getAssetIDPairForAddr_spec (hash : PrefixedHash) (aa : AddressAccount)
    (h : AddressHashCache) (hw : aa.WellFormed) (hinj : aa.HashInjective hash)
    (hc : aa.HashCoherent hash h) :
    (∀ x ∈ aa.assetAccounts_, ∀ a ∈ x.2.assets_, ∀ t ∈ aa.addressTypes_,
      (aa.getAssetIDPairForAddr hash h (hash a.2 t)).1 = .ok (a.2.ID_, t)) ∧
    (∀ v, (∀ x ∈ aa.assetAccounts_, ∀ a ∈ x.2.assets_, ∀ t ∈ aa.addressTypes_,
        v ≠ hash a.2 t) →
      (aa.getAssetIDPairForAddr hash h v).1 = .error .unknownScrAddr) ∧
    (∀ v aa2, aa2.WellFormed → aa2.HashInjective hash → aa.ChainExtends aa2 →
      ∀ x ∈ aa2.assetAccounts_, ∀ a ∈ x.2.assets_, ∀ t ∈ aa2.addressTypes_,
        (aa2.getAssetIDPairForAddr hash (aa.getAssetIDPairForAddr hash h v).2
          (hash a.2 t)).1 = .ok (a.2.ID_, t)) := by
  obtain ⟨g1, g2, g3⟩ := getAssetIDPairForAddr_coherent hash aa h hw hinj hc
  refine ⟨?_, ?_, ?_⟩
  · intro x hx a ha t ht
    rw [g2 x hx a ha t ht]
  · intro v hv
    rw [g3 v hv]
  · intro v aa2 hw2 hinj2 he x hx a ha t ht
    have e : (aa.getAssetIDPairForAddr hash h v).2 = aa.updateAddressHashMap hash h := by
      unfold AddressAccount.getAssetIDPairForAddr
      simp only
      cases mapFind (aa.updateAddressHashMap hash h).addressHashes_ v <;> rfl
    rw [e]
    have hc2 := hashCoherent_chainExtends hash aa aa2 hw2 he _ g1
    rw [(getAssetIDPairForAddr_coherent hash aa2 _ hw2 hinj2 hc2).2.1 x hx a ha t ht]

/-- C14, witness: on the toy address account and an index that holds nothing,
the hash of the address of asset 1 under type 2 is looked up. -/
theorem getAssetIDPairForAddr_spec_witness :
    toyAddressAccount.WellFormed ∧ toyAddressAccount.HashInjective toyHash ∧
    toyAddressAccount.HashCoherent toyHash toyHashCache ∧
    (toyAddressAccount.getAssetIDPairForAddr toyHash toyHashCache
        [2, 0, 0, 0, 7, 0, 0, 0, 1, 0, 0, 0, 1]).1
      = .ok ([0, 0, 0, 7, 0, 0, 0, 1, 0, 0, 0, 1], 2) :=
  have hw : toyAddressAccount.WellFormed := by
    unfold AddressAccount.WellFormed AssetAccount.WellFormed MapSorted; decide
  have hc : toyAddressAccount.HashCoherent toyHash toyHashCache :=
    hashCoherent_fresh toyHash toyAddressAccount hw toyHashCache
      (fun _ => ⟨rfl, Nat.le_refl _⟩) rfl rfl
  ⟨hw, toyHash_injective _, hc,
    (getAssetIDPairForAddr_spec toyHash toyAddressAccount toyHashCache hw
      (toyHash_injective _) hc).1 ([0, 0, 0, 1], toyAssetAccountUnused) (List.Mem.head _)
      (1, toyAsset [0, 0, 0, 7, 0, 0, 0, 1] 1) (List.Mem.tail _ (List.Mem.head _)) 2
      (by decide)⟩

theorem watchingOnlyAssets_sorted (single : AssetEntry → Bool) (l wo : List (Nat × AssetEntry))
    (hs : MapSorted l) (hsingle : ∀ x ∈ l, single x.2 = true)
    (hlt : ∀ e ∈ wo, ∀ x ∈ l, MapKey.less e.1 x.1 = true) :
    watchingOnlyAssets single l wo
      = .ok (wo ++ l.map (fun x => (x.1, x.2.getPublicCopy.flagForCommit))) := by
  induction l generalizing wo with
  | nil => simp [watchingOnlyAssets]
  | cons x l ih =>
    have hs2 := List.pairwise_cons.1 hs
    simp only [watchingOnlyAssets, hsingle x (List.mem_cons_self _ _), if_true]
    rw [mapEmplace_append_of_less natLaws wo x.1 _
      (fun e he => hlt e he x (List.mem_cons_self _ _))]
    rw [ih _ hs2.2 (fun y hy => hsingle y (List.mem_cons_of_mem _ hy))]
    · simp
    · intro e he y hy
      rcases List.mem_append.1 he with h1 | h1
      · exact hlt e h1 y (List.mem_cons_of_mem _ hy)
      · simp only [List.mem_singleton] at h1
        subst h1
        exact hs2.1 y hy

theorem watchingOnlyAccount_eq (single : AssetEntry → Bool)
    (putAllSalts : DerivationScheme → Disk → Disk) (lookup : AssetAccountTypeEnum → Nat)
    (woAcc : AddressAccount) (disk : Disk) (a : AssetAccount)
    (hs : MapSorted a.assets_) (hsingle : ∀ e ∈ a.entries, single e = true)
    (hecdh : a.type = .ECDH → a.derScheme_.type = .ECDH) :
    ∃ disk1, woAcc.watchingOnlyAccount single putAllSalts lookup disk a
      = (woAcc.addAccount (a.publicCopy lookup), disk1) := by
  have hassets := watchingOnlyAssets_sorted single a.assets_ [] hs
    (fun x hx => hsingle x.2 ((mem_entries a _).2 (Or.inl ⟨x, hx, rfl⟩)))
    (fun e he => absurd he (List.not_mem_nil e))
  unfold AddressAccount.watchingOnlyAccount AssetAccount.publicCopy
  rw [hassets]
  cases hr : a.root_ with
  | none =>
    cases ht : a.type with
    | Plain => exact ⟨disk, by simp⟩
    | ECDH => exact ⟨putAllSalts a.derScheme_ disk, by simp [hecdh ht]⟩
  | some root =>
    have h1 : single root = true := hsingle root ((mem_entries a _).2 (Or.inr hr))
    cases ht : a.type with
    | Plain => exact ⟨disk, by simp [h1]⟩
    | ECDH => exact ⟨putAllSalts a.derScheme_ disk, by simp [h1, hecdh ht]⟩

theorem watchingOnlyLoop_sorted (single : AssetEntry → Bool)
    (putAllSalts : DerivationScheme → Disk → Disk) (lookup : AssetAccountTypeEnum → Nat)
    (l : List (BinaryData × AssetAccount)) (woAcc : AddressAccount) (disk : Disk)
    (hs : MapSorted l)
    (hl : ∀ x ∈ l, x.1 = x.2.id_ ∧ x.2.id_.length = 4 ∧ MapSorted x.2.assets_ ∧
      (∀ e ∈ x.2.entries, single e = true) ∧ (x.2.type = .ECDH → x.2.derScheme_.type = .ECDH))
    (hlt : ∀ e ∈ woAcc.assetAccounts_, ∀ x ∈ l, MapKey.less e.1 x.1 = true) :
    ∃ disk1, watchingOnlyLoop single putAllSalts lookup l woAcc disk
      = (.ok { woAcc with assetAccounts_ :=
                woAcc.assetAccounts_ ++ l.map (fun x => (x.1, x.2.publicCopy lookup)) },
          disk1) := by
  induction l generalizing woAcc disk with
  | nil => exact ⟨disk, by simp [watchingOnlyLoop]⟩
  | cons x l ih =>
    have hs2 := List.pairwise_cons.1 hs
    obtain ⟨hid, hlen, hsa, hsg, hec⟩ := hl x (List.mem_cons_self _ _)
    obtain ⟨disk1, e1⟩ := watchingOnlyAccount_eq single putAllSalts lookup woAcc disk x.2
      hsa hsg hec
    have hless : ∀ e ∈ woAcc.assetAccounts_, MapKey.less e.1 (x.2.publicCopy lookup).id_ = true := by
      intro e he
      have := hlt e he x (List.mem_cons_self _ _)
      rw [hid] at this
      exact this
    have e2 : woAcc.addAccount (x.2.publicCopy lookup)
        = .ok { woAcc with assetAccounts_ :=
                  woAcc.assetAccounts_ ++ [(x.1, x.2.publicCopy lookup)] } := by
      unfold AddressAccount.addAccount
      rw [mapFind_none_of_less bdLaws _ _ hless, mapInsert_append_of_less bdLaws _ _ _ hless]
      have : (x.2.publicCopy lookup).id_ = x.1 := hid.symm
      simp [this, ← hid, hlen]
      rw [hid]; exact hlen
    simp only [watchingOnlyLoop, e1, e2]
    obtain ⟨disk2, e3⟩ := ih
      { woAcc with assetAccounts_ := woAcc.assetAccounts_ ++ [(x.1, x.2.publicCopy lookup)] }
      disk1 hs2.2 (fun y hy => hl y (List.mem_cons_of_mem _ hy)) (by
      intro e he y hy
      rcases List.mem_append.1 he with h1 | h1
      · exact hlt e h1 y (List.mem_cons_of_mem _ hy)
      · simp only [List.mem_singleton] at h1
        subst h1
        exact hs2.1 y hy)
    refine ⟨disk2, ?_⟩
    rw [e3]
    simp

/-- C15: for a well-formed address account whose assets and roots are
single-key assets (and whose ECDH asset accounts carry an ECDH derivation
scheme), `getWatchingOnlyCopy` returns an account with the same ID, outer and
inner account IDs, address types, default type and override table, the same
asset-account IDs, and per asset account the same `lastUsedIndex_`, the same
asset indices, and as root and assets the public copies of the originals, none
of which has a private key. -/
theorem getWatchingOnlyCopy_spec (single : AssetEntry → Bool)
    (putAllSalts : DerivationScheme → Disk → Disk) (lookup : AssetAccountTypeEnum → Nat)
    (aa : AddressAccount) (disk : Disk) (hw : aa.WellFormed)
    (hsingle : ∀ x ∈ aa.assetAccounts_, ∀ e ∈ x.2.entries, single e = true)
    (hecdh : ∀ x ∈ aa.assetAccounts_, x.2.type = .ECDH → x.2.derScheme_.type = .ECDH) :
    ∃ wo disk1, aa.getWatchingOnlyCopy single putAllSalts lookup disk = (.ok wo, disk1) ∧
      wo.ID_ = aa.ID_ ∧ wo.outerAccount_ = aa.outerAccount_ ∧
      wo.innerAccount_ = aa.innerAccount_ ∧ wo.addressTypes_ = aa.addressTypes_ ∧
      wo.defaultAddressEntryType_ = aa.defaultAddressEntryType_ ∧
      wo.addresses_ = aa.addresses_ ∧
      wo.assetAccounts_.map Prod.fst = aa.assetAccounts_.map Prod.fst ∧
      ∀ k a, mapFind aa.assetAccounts_ k = some a →
        ∃ a2, mapFind wo.assetAccounts_ k = some a2 ∧
          a2.id_ = a.id_ ∧ a2.parent_id_ = a.parent_id_ ∧ a2.type = a.type ∧
          a2.lastUsedIndex_ = a.lastUsedIndex_ ∧
          a2.assets_.map Prod.fst = a.assets_.map Prod.fst ∧
          a2.root_ = a.root_.map AssetEntry.getPublicCopy ∧
          (∀ i, mapFind a2.assets_ i
            = (mapFind a.assets_ i).map (fun e => e.getPublicCopy.flagForCommit)) ∧
          ∀ e ∈ a2.entries, e.hasPrivateKey = false := by
  obtain ⟨_, _, _, _, _, _, _, _, hsA, hacc, _, _⟩ := hw
  obtain ⟨disk1, e⟩ := watchingOnlyLoop_sorted single putAllSalts lookup aa.assetAccounts_
    { ID_ := aa.ID_, defaultAddressEntryType_ := aa.defaultAddressEntryType_,
      addressTypes_ := aa.addressTypes_, addresses_ := aa.addresses_,
      outerAccount_ := aa.outerAccount_, innerAccount_ := aa.innerAccount_ } disk hsA
    (fun x hx => ⟨(hacc x hx).1, (hacc x hx).2.2.1, (hacc x hx).2.2.2.2.2.2.2.1,
      hsingle x hx, hecdh x hx⟩)
    (fun e he => absurd he (List.not_mem_nil e))
  refine ⟨_, disk1, e, rfl, rfl, rfl, rfl, rfl, rfl, ?_, ?_⟩
  · simp [Function.comp_def]
  · intro k a hk
    refine ⟨a.publicCopy lookup, ?_, rfl, rfl, rfl, rfl, ?_, rfl, ?_, ?_⟩
    · simp only [List.nil_append]
      rw [mapFind_map_snd (AssetAccount.publicCopy lookup), hk]
      rfl
    · simp [AssetAccount.publicCopy, Function.comp_def]
    · intro i
      exact mapFind_map_snd (fun e => e.getPublicCopy.flagForCommit) a.assets_ i
    · intro e he
      rcases (mem_entries _ _).1 he with ⟨x, hx, rfl⟩ | hr
      · obtain ⟨y, -, rfl⟩ := List.mem_map.1 hx
        rfl
      · simp only [AssetAccount.publicCopy, Option.map_eq_some'] at hr
        obtain ⟨r, -, rfl⟩ := hr
        rfl

/-- C15, witness: the watching-only copy of the toy address account. -/
theorem getWatchingOnlyCopy_spec_witness :
    toyAddressAccount.WellFormed ∧
    ∃ wo disk1, toyAddressAccount.getWatchingOnlyCopy (fun _ => true) (fun _ d => d)
        (fun _ => 2) [] = (.ok wo, disk1) ∧
      wo.ID_ = toyAddressAccount.ID_ ∧ wo.outerAccount_ = toyAddressAccount.outerAccount_ ∧
      wo.innerAccount_ = toyAddressAccount.innerAccount_ ∧
      wo.addressTypes_ = toyAddressAccount.addressTypes_ ∧
      wo.defaultAddressEntryType_ = toyAddressAccount.defaultAddressEntryType_ ∧
      wo.addresses_ = toyAddressAccount.addresses_ ∧
      wo.assetAccounts_.map Prod.fst = toyAddressAccount.assetAccounts_.map Prod.fst ∧
      ∀ k a, mapFind toyAddressAccount.assetAccounts_ k = some a →
        ∃ a2, mapFind wo.assetAccounts_ k = some a2 ∧
          a2.id_ = a.id_ ∧ a2.parent_id_ = a.parent_id_ ∧ a2.type = a.type ∧
          a2.lastUsedIndex_ = a.lastUsedIndex_ ∧
          a2.assets_.map Prod.fst = a.assets_.map Prod.fst ∧
          a2.root_ = a.root_.map AssetEntry.getPublicCopy ∧
          (∀ i, mapFind a2.assets_ i
            = (mapFind a.assets_ i).map (fun e => e.getPublicCopy.flagForCommit)) ∧
          ∀ e ∈ a2.entries, e.hasPrivateKey = false :=
  have hw : toyAddressAccount.WellFormed := by
    unfold AddressAccount.WellFormed AssetAccount.WellFormed MapSorted; decide
  ⟨hw, getWatchingOnlyCopy_spec (fun _ => true) (fun _ d => d) (fun _ => 2) toyAddressAccount []
    hw (fun _ _ _ _ => rfl) (fun x hx ht => by
      simp only [toyAddressAccount, toyAddressAccountUnused, List.mem_singleton] at hx
      subst hx
      cases ht)⟩

theorem checkAccountID_spec (r : ReservedAccountIds) (h : BinaryData) (hlen : 4 ≤ h.length) :
    checkAccountID r h
      = if h.take 4 = WRITE_UINT32_BE r.ARMORY_LEGACY_ACCOUNTID ∨
            h.take 4 = WRITE_UINT32_BE r.IMPORTS_ACCOUNTID then
          .error .accountIdCollision
        else .ok (h.take 4) := by
  unfold checkAccountID getSliceCopy
  simp [hlen]

theorem checkAccountID_ok (r : ReservedAccountIds) (h id : BinaryData)
    (e : checkAccountID r h = .ok id) :
    id = h.take 4 ∧ id ≠ WRITE_UINT32_BE r.ARMORY_LEGACY_ACCOUNTID ∧
      id ≠ WRITE_UINT32_BE r.IMPORTS_ACCOUNTID := by
  unfold checkAccountID getSliceCopy at e
  split_ifs at e with h1
  · simp only [List.drop_zero] at e
    split_ifs at e with h2
    simp only [Except.ok.injEq] at e
    subst e
    exact ⟨rfl, fun e1 => h2 (Or.inl e1), fun e2 => h2 (Or.inr e2)⟩

/-- The bytes `AccountType_BIP32::getAccountID` hashes. -/
theorem AccountType_BIP32.getAccountID_eq (r : ReservedAccountIds) (getHash160 : Hash160)
    (t : AccountType_BIP32) (hroot : t.publicRoot_ ≠ []) :
    t.getAccountID r getHash160
      = checkAccountID r (getHash160
          (t.publicRoot_ ++ (t.nodes_.map WRITE_UINT32_BE).flatten ++ t.outerAccount_
            ++ t.innerAccount_ ++ (t.addressTypes_.map WRITE_UINT32_BE).flatten
            ++ WRITE_LE 4 t.defaultAddressEntryType_ ++ [if t.isMain_ then 1 else 0])) := by
  unfold AccountType_BIP32.getAccountID
  have h0 : ¬ t.publicRoot_.length = 0 := fun e => hroot (List.length_eq_zero.1 e)
  simp only [h0, if_false, put_uint32_t]
  have ho : (if t.outerAccount_.length ≠ 0
      then t.publicRoot_ ++ (t.nodes_.map WRITE_UINT32_BE).flatten ++ t.outerAccount_
      else t.publicRoot_ ++ (t.nodes_.map WRITE_UINT32_BE).flatten)
      = t.publicRoot_ ++ (t.nodes_.map WRITE_UINT32_BE).flatten ++ t.outerAccount_ := by
    split_ifs with h1
    · rfl
    · rw [List.length_eq_zero.1 (not_not.1 h1), List.append_nil]
  rw [ho]
  have hi : (if t.innerAccount_.length ≠ 0
      then t.publicRoot_ ++ (t.nodes_.map WRITE_UINT32_BE).flatten ++ t.outerAccount_
        ++ t.innerAccount_
      else t.publicRoot_ ++ (t.nodes_.map WRITE_UINT32_BE).flatten ++ t.outerAccount_)
      = t.publicRoot_ ++ (t.nodes_.map WRITE_UINT32_BE).flatten ++ t.outerAccount_
        ++ t.innerAccount_ := by
    split_ifs with h1
    · rfl
    · rw [List.length_eq_zero.1 (not_not.1 h1), List.append_nil]
  rw [hi]

theorem toyHash160_length (d : BinaryData) : 4 ≤ (toyHash160 d).length := by
  simp [toyHash160]

/-- C16, counterexample: for the toy BIP32 account type (default address type
1) the ID returned is the hash prefix of a preimage that holds the default
type as `01 00 00 00`, not the hash prefix of the preimage with every 32-bit
integer big-endian. -/
theorem getAccountID_default_type_little_endian :
    toyBIP32.getAccountID toyReserved toyHash160 = .ok [1, 0, 0, 0] ∧
    (toyHash160 toyBIP32.specPreimage).take 4 = [1, 1, 0, 0] ∧
    toyBIP32.getAccountID toyReserved toyHash160
      ≠ .ok ((toyHash160 toyBIP32.specPreimage).take 4) := by decide

/-- C16, amended: for a non-empty public root and a hash prefix that is not
reserved, `AccountType_BIP32::getAccountID` returns the first 4 bytes of
Hash160 of the concatenation public root, each soft-derivation node, outer
account ID, inner account ID, each address type, default address type, main
flag, in which the nodes and the address types are 4 bytes big-endian, the
default address type 4 bytes little-endian and the main flag one byte. -/
theorem getAccountID_preimage (r : ReservedAccountIds) (getHash160 : Hash160)
    (t : AccountType_BIP32) (P : BinaryData)
    (hP : P = t.publicRoot_ ++ (t.nodes_.map WRITE_UINT32_BE).flatten ++ t.outerAccount_
      ++ t.innerAccount_ ++ (t.addressTypes_.map WRITE_UINT32_BE).flatten
      ++ WRITE_LE 4 t.defaultAddressEntryType_ ++ [if t.isMain_ then 1 else 0])
    (hroot : t.publicRoot_ ≠ []) (hlen : 4 ≤ (getHash160 P).length)
    (h1 : (getHash160 P).take 4 ≠ WRITE_UINT32_BE r.ARMORY_LEGACY_ACCOUNTID)
    (h2 : (getHash160 P).take 4 ≠ WRITE_UINT32_BE r.IMPORTS_ACCOUNTID) :
    t.getAccountID r getHash160 = .ok ((getHash160 P).take 4) := by
  rw [AccountType_BIP32.getAccountID_eq r getHash160 t hroot, ← hP,
    checkAccountID_spec r _ hlen]
  simp [h1, h2]

/-- C16, witness: the toy BIP32 account type. -/
theorem getAccountID_preimage_witness :
    toyBIP32.getAccountID toyReserved toyHash160
      = .ok ((toyHash160 [2, 7, 0, 0, 0, 5, 0, 0, 0, 0, 0, 0, 0, 1, 0, 0, 0, 1, 0, 0, 0, 2,
          1, 0, 0, 0, 1]).take 4) :=
  getAccountID_preimage toyReserved toyHash160 toyBIP32 _ (by decide) (by decide) (by decide)
    (by decide) (by decide)

/-- C17, counterexample: the toy BIP32 account type without a public root.
The hash prefix of its preimage (under either encoding of the default type)
is not a reserved ID, and the call fails. -/
theorem getAccountID_empty_public_root :
    toyBIP32NoRoot.getAccountID toyReserved toyHash160 = .error .emptyPublicRoot ∧
    (toyHash160 toyBIP32NoRoot.specPreimage).take 4 = [1, 1, 0, 0] ∧
    (toyHash160 [0, 0, 0, 5, 0, 0, 0, 0, 0, 0, 0, 1, 0, 0, 0, 1, 0, 0, 0, 2,
      1, 0, 0, 0, 1]).take 4 = [1, 0, 0, 0] ∧
    WRITE_UINT32_BE toyReserved.ARMORY_LEGACY_ACCOUNTID = [0xF6, 0xE1, 0, 0] ∧
    WRITE_UINT32_BE toyReserved.IMPORTS_ACCOUNTID = [0, 0, 0, 0] := by decide

/-- C17, amended: `getAccountID` of a BIP32 or an ECDH account type never
returns a reserved address-account ID. For a BIP32 account type with a
non-empty public root, and for an ECDH account type whose key (the public key
when watching-only, the computed one otherwise) has a first byte: when the
4-byte hash prefix is the ARMORY_LEGACY or the IMPORTS account ID the call
fails with an account exception, and in every other case it returns the
prefix. A BIP32 account type with an empty public root fails with an account
exception. -/
theorem getAccountID_never_reserved (r : ReservedAccountIds) (getHash160 : Hash160)
    (ComputePublicKey : BinaryData → BinaryData) (type : Nat)
    (hlen : ∀ d, 4 ≤ (getHash160 d).length) :
    (∀ t : AccountType_BIP32,
      (∀ id, t.getAccountID r getHash160 = .ok id →
        id ≠ WRITE_UINT32_BE r.ARMORY_LEGACY_ACCOUNTID ∧
        id ≠ WRITE_UINT32_BE r.IMPORTS_ACCOUNTID) ∧
      (t.publicRoot_ = [] → t.getAccountID r getHash160 = .error .emptyPublicRoot) ∧
      (t.publicRoot_ ≠ [] → ∀ id,
        id = (getHash160 (t.publicRoot_ ++ (t.nodes_.map WRITE_UINT32_BE).flatten
          ++ t.outerAccount_ ++ t.innerAccount_
          ++ (t.addressTypes_.map WRITE_UINT32_BE).flatten
          ++ WRITE_LE 4 t.defaultAddressEntryType_ ++ [if t.isMain_ then 1 else 0])).take 4 →
        t.getAccountID r getHash160
          = if id = WRITE_UINT32_BE r.ARMORY_LEGACY_ACCOUNTID ∨
                id = WRITE_UINT32_BE r.IMPORTS_ACCOUNTID then
              .error .accountIdCollision
            else .ok id)) ∧
    (∀ t : AccountType_ECDH,
      (∀ id, t.getAccountID r getHash160 ComputePublicKey type = some (.ok id) →
        id ≠ WRITE_UINT32_BE r.ARMORY_LEGACY_ACCOUNTID ∧
        id ≠ WRITE_UINT32_BE r.IMPORTS_ACCOUNTID) ∧
      (∀ b rest,
        (if t.isWatchingOnly then t.publicKey_ else ComputePublicKey t.privateKey_)
          = b :: rest →
        ∀ id, id = (getHash160 (((b ^^^ (type % 256)) % 256) :: rest)).take 4 →
        t.getAccountID r getHash160 ComputePublicKey type
          = some (if id = WRITE_UINT32_BE r.ARMORY_LEGACY_ACCOUNTID ∨
                    id = WRITE_UINT32_BE r.IMPORTS_ACCOUNTID then
                  .error .accountIdCollision
                else .ok id))) := by
  refine ⟨fun t => ⟨?_, ?_, ?_⟩, fun t => ⟨?_, ?_⟩⟩
  · intro id e
    unfold AccountType_BIP32.getAccountID at e
    simp only at e
    split_ifs at e <;> exact (checkAccountID_ok r _ id e).2
  · intro h0
    simp [AccountType_BIP32.getAccountID, h0]
  · intro hroot id hid
    rw [AccountType_BIP32.getAccountID_eq r getHash160 t hroot, hid,
      checkAccountID_spec r _ (hlen _)]
  · intro id e
    unfold AccountType_ECDH.getAccountID at e
    split_ifs at e
    all_goals
      simp only [Option.map_eq_some'] at e
      obtain ⟨k, -, e⟩ := e
      exact (checkAccountID_ok r _ id e).2
  · intro b rest hk id hid
    subst hid
    unfold AccountType_ECDH.getAccountID
    by_cases hw : t.isWatchingOnly = true
    · rw [if_pos hw] at hk ⊢
      rw [hk]
      simp only [xorFirstByte, Option.map_some', checkAccountID_spec r _ (hlen _)]
    · rw [if_neg hw] at hk ⊢
      rw [hk]
      simp only [xorFirstByte, Option.map_some', checkAccountID_spec r _ (hlen _)]

/-- C17, witness: the toy account types under the toy hash. -/
theorem getAccountID_never_reserved_witness :
    (∀ d, 4 ≤ (toyHash160 d).length) ∧
    toyBIP32.getAccountID toyReserved toyHash160 = .ok [1, 0, 0, 0] ∧
    toyBIP32NoRoot.getAccountID toyReserved toyHash160 = .error .emptyPublicRoot ∧
    toyECDH.getAccountID toyReserved toyHash160 (fun k => k) 3 = some (.ok [13, 11, 9, 7]) :=
  ⟨toyHash160_length,
   (((getAccountID_never_reserved toyReserved toyHash160 (fun k => k) 3
      toyHash160_length).1 toyBIP32).2.2 (by decide) _ rfl).trans (by decide),
   ((getAccountID_never_reserved toyReserved toyHash160 (fun k => k) 3
      toyHash160_length).1 toyBIP32NoRoot).2.1 rfl,
   (((getAccountID_never_reserved toyReserved toyHash160 (fun k => k) 3
      toyHash160_length).2 toyECDH).2 2 [7, 9, 11, 13] rfl _ rfl).trans (by decide)⟩

/-- C20: with the lock owned, an encrypted datum that is not in the decrypted
cache and whose `hasData()` is false makes `getDecryptedPrivateData` fail with
`EncryptedDataMissing`, the container unchanged; and for every input the
outcome does not depend on the body of the branch under the second
`hasData()` check: the branch is never taken. -/
theorem getDecryptedPrivateData_missing (cl : CipherLayer) (fuel : Nat)
    (ddc : DecryptedDataContainer) (maps : DecryptedDataMaps) (dataPtr : Asset_EncryptedData)
    (hlock : ddc.ownsLock = true) (hmaps : ddc.lockedDecryptedData_ = some maps)
    (hcache : mapFind maps.privateData_ dataPtr.id_ = none)
    (hdata : dataPtr.hasData = false) :
    ddc.getDecryptedPrivateData cl fuel (some dataPtr)
      = some (.error .EncryptedDataMissing, ddc) ∧
    ∀ (nullCipher : DecryptedDataContainer → Asset_EncryptedData →
        Except ContainerError BinaryData × DecryptedDataContainer)
      (fuel2 : Nat) (ddc2 : DecryptedDataContainer) (dataPtr2 : Option Asset_EncryptedData),
      ddc2.getDecryptedPrivateDataWith cl nullCipher fuel2 dataPtr2
        = ddc2.getDecryptedPrivateData cl fuel2 dataPtr2 := by
  constructor
  · unfold DecryptedDataContainer.getDecryptedPrivateData
      DecryptedDataContainer.getDecryptedPrivateDataWith
    simp [hlock, hmaps, hcache, hdata]
  · intro nullCipher fuel2 ddc2 dataPtr2
    unfold DecryptedDataContainer.getDecryptedPrivateData
      DecryptedDataContainer.getDecryptedPrivateDataWith
    cases ddc2.ownsLock with
    | false => rfl
    | true =>
      cases ddc2.lockedDecryptedData_ with
      | none => rfl
      | some maps2 =>
        cases dataPtr2 with
        | none => rfl
        | some d =>
          cases hf : mapFind maps2.privateData_ d.id_ with
          | some v => simp [hf]
          | none =>
            cases hd : d.hasData with
            | false => simp [hf, hd]
            | true => simp [hf, hd]

/-- C20, witness: the toy container and a datum without data. -/
theorem getDecryptedPrivateData_missing_witness :
    toyContainer.getDecryptedPrivateData toyCipherLayer 0 (some toyMissingDatum)
      = some (.error .EncryptedDataMissing, toyContainer) :=
  (getDecryptedPrivateData_missing toyCipherLayer 0 toyContainer
    { encryptionKeys_ := [([0], some { rawKey_ := [3] })] } toyMissingDatum rfl rfl rfl rfl).1

theorem deriveEncryptionKey_promptCalls (cl : CipherLayer) (ddc : DecryptedDataContainer)
    (n : Nat) (k : DecryptedEncryptionKey) (kdfid : BinaryData) :
    DecryptedDataContainer.deriveEncryptionKey cl { ddc with promptCalls_ := n } k kdfid
      = ddc.deriveEncryptionKey cl k kdfid := rfl

theorem tryKeyPairs_promptCalls (cl : CipherLayer) (ddc : DecryptedDataContainer) (n : Nat)
    (k : DecryptedEncryptionKey) (keyMap : List (BinaryData × BinaryData)) :
    DecryptedDataContainer.tryKeyPairs cl { ddc with promptCalls_ := n } k keyMap
      = ddc.tryKeyPairs cl k keyMap := by
  induction keyMap generalizing k with
  | nil => rfl
  | cons kp rest ih =>
    simp only [DecryptedDataContainer.tryKeyPairs, deriveEncryptionKey_promptCalls]
    cases ddc.deriveEncryptionKey cl k kp.2 with
    | error e => rfl
    | ok k1 =>
      simp only
      cases k1.getId cl kp.2 with
      | error e => rfl
      | ok id =>
        simp only
        split_ifs
        · rfl
        · exact ih k1

/-- A passphrase is tried on every candidate pair without a match: the KDFs of
the pairs are at hand, and under none the ID of the derived key is the key ID
of the pair. -/
theorem tryKeyPairs_none (cl : CipherLayer) (ddc : DecryptedDataContainer)
    (hlock : ddc.ownsLock = true) (hmaps : ddc.lockedDecryptedData_.isSome = true)
    (keyMap : List (BinaryData × BinaryData)) (k : DecryptedEncryptionKey)
    (hkdf : ∀ kp ∈ keyMap, ∃ kdf, mapFind ddc.kdfMap_ kp.2 = some (some kdf) ∧ kdf.id_ = kp.2 ∧
      cl.computeId (cl.deriveKey kdf k.rawKey_) ≠ kp.1)
    (hinv : ∀ id v, mapFind k.derivedKeys_ id = some v →
      ∀ kdf, mapFind ddc.kdfMap_ id = some (some kdf) → v = cl.deriveKey kdf k.rawKey_) :
    ddc.tryKeyPairs cl k keyMap = .ok none := by
  induction keyMap generalizing k with
  | nil => rfl
  | cons kp rest ih =>
    obtain ⟨kdf, hk1, hk2, hk3⟩ := hkdf kp (List.mem_cons_self _ _)
    have hnone : ddc.lockedDecryptedData_.isNone = false := by
      cases h : ddc.lockedDecryptedData_ with
      | none => rw [h] at hmaps; cases hmaps
      | some _ => rfl
    simp only [DecryptedDataContainer.tryKeyPairs, DecryptedDataContainer.deriveEncryptionKey,
      hlock, hnone, Bool.not_true, Bool.false_eq_true, if_false, hk1]
    cases hd : mapFind k.derivedKeys_ kp.2 with
    | some v =>
      have hv := hinv kp.2 v hd kdf hk1
      simp only [DecryptedEncryptionKey.getId, DecryptedEncryptionKey.getDerivedKey, hd]
      rw [if_neg (fun e => hk3 (by rw [← hv, ← e]))]
      exact ih k (fun kp2 h2 => hkdf kp2 (List.mem_cons_of_mem _ h2)) hinv
    | none =>
      have hfind : mapFind (k.deriveKey cl kdf).derivedKeys_ kp.2
          = some (cl.deriveKey kdf k.rawKey_) := by
        simp only [DecryptedEncryptionKey.deriveKey]
        rw [mapFind_mapEmplace, hd, hk2]
        simp
      simp only [DecryptedEncryptionKey.getId, DecryptedEncryptionKey.getDerivedKey, hfind]
      rw [if_neg (fun e => hk3 e.symm)]
      apply ih (k.deriveKey cl kdf) (fun kp2 h2 => hkdf kp2 (List.mem_cons_of_mem _ h2))
      intro id v hv kdf2 hk
      simp only [DecryptedEncryptionKey.deriveKey] at hv ⊢
      rw [mapFind_mapEmplace] at hv
      cases h0 : mapFind k.derivedKeys_ id with
      | some w =>
        rw [h0] at hv
        simp only [Option.some.injEq] at hv
        rw [← hv]
        exact hinv id w h0 kdf2 hk
      | none =>
        rw [h0] at hv
        simp only at hv
        split_ifs at hv with e
        simp only [Option.some.injEq] at hv
        rw [hk2] at e
        rw [← e, hk1] at hk
        simp only [Option.some.injEq] at hk
        rw [← hv, ← hk]

theorem promptPassphrase_step (cl : CipherLayer) (ddc : DecryptedDataContainer)
    (f : Nat → List BinaryData → BinaryData) (keyMap : List (BinaryData × BinaryData))
    (hl : ddc.getPassphraseLambda_ = some f) (hlock : ddc.ownsLock = true)
    (hmaps : ddc.lockedDecryptedData_.isSome = true) (fuel : Nat)
    (hno : ddc.NoMatch cl keyMap (f ddc.promptCalls_ (keyMap.map Prod.fst))) :
    ddc.promptPassphrase cl (fuel + 1) keyMap
      = DecryptedDataContainer.promptPassphrase cl fuel
          { ddc with promptCalls_ := ddc.promptCalls_ + 1 } keyMap := by
  obtain ⟨hne, hk⟩ := hno
  have hlen : ¬ (f ddc.promptCalls_ (keyMap.map Prod.fst)).length = 0 :=
    fun e => hne (List.length_eq_zero.1 e)
  have htry := tryKeyPairs_none cl ddc hlock hmaps keyMap
    { rawKey_ := f ddc.promptCalls_ (keyMap.map Prod.fst) } hk
    (fun id v hv => by simp [mapFind] at hv)
  have htry2 : DecryptedDataContainer.tryKeyPairs cl
      { ddc with promptCalls_ := ddc.promptCalls_ + 1 }
      { rawKey_ := f ddc.promptCalls_ (keyMap.map Prod.fst) } keyMap = .ok none := by
    rw [tryKeyPairs_promptCalls]
    exact htry
  rw [DecryptedDataContainer.promptPassphrase]
  split
  · rename_i h
    rw [hl] at h
    cases h
  · rename_i lambda h
    rw [hl] at h
    obtain rfl : f = lambda := Option.some.inj h
    simp only
    rw [if_neg hlen, htry2]

/-- While the prompt answers with passphrases that match no pair, the loop of
`promptPassphrase` goes on: no amount of fuel gives a result. -/
theorem promptPassphrase_loop (cl : CipherLayer) (f : Nat → List BinaryData → BinaryData)
    (keyMap : List (BinaryData × BinaryData)) (fuel : Nat) (ddc : DecryptedDataContainer)
    (hl : ddc.getPassphraseLambda_ = some f) (hlock : ddc.ownsLock = true)
    (hmaps : ddc.lockedDecryptedData_.isSome = true)
    (hno : ∀ i, i < fuel → ddc.NoMatch cl keyMap (f (ddc.promptCalls_ + i) (keyMap.map Prod.fst))) :
    ddc.promptPassphrase cl fuel keyMap = none := by
  induction fuel generalizing ddc with
  | zero => rfl
  | succ fuel ih =>
    rw [promptPassphrase_step cl ddc f keyMap hl hlock hmaps fuel (hno 0 (Nat.succ_pos _))]
    apply ih { ddc with promptCalls_ := ddc.promptCalls_ + 1 } hl hlock hmaps
    intro i hi
    have := hno (i + 1) (Nat.succ_lt_succ hi)
    simp only at this ⊢
    rw [show ddc.promptCalls_ + 1 + i = ddc.promptCalls_ + (i + 1) by omega]
    exact this

/-- When the prompt gives up with an empty passphrase after `n` passphrases
that match no pair, `promptPassphrase` throws "empty passphrase". -/
theorem promptPassphrase_gives_up (cl : CipherLayer) (f : Nat → List BinaryData → BinaryData)
    (keyMap : List (BinaryData × BinaryData)) (n : Nat) (ddc : DecryptedDataContainer)
    (hl : ddc.getPassphraseLambda_ = some f) (hlock : ddc.ownsLock = true)
    (hmaps : ddc.lockedDecryptedData_.isSome = true)
    (hno : ∀ i, i < n → ddc.NoMatch cl keyMap (f (ddc.promptCalls_ + i) (keyMap.map Prod.fst)))
    (hempty : f (ddc.promptCalls_ + n) (keyMap.map Prod.fst) = [])
    (fuel : Nat) (hfuel : n < fuel) :
    ddc.promptPassphrase cl fuel keyMap
      = some (.error (.container .emptyPassphrase),
          { ddc with promptCalls_ := ddc.promptCalls_ + n + 1 }) := by
  induction n generalizing ddc fuel with
  | zero =>
    obtain ⟨fuel, rfl⟩ : ∃ m, fuel = m + 1 := ⟨fuel - 1, by omega⟩
    simp only [Nat.add_zero] at hempty
    simp [DecryptedDataContainer.promptPassphrase, hl, hempty]
  | succ n ih =>
    obtain ⟨fuel, rfl⟩ : ∃ m, fuel = m + 1 := ⟨fuel - 1, by omega⟩
    rw [promptPassphrase_step cl ddc f keyMap hl hlock hmaps fuel (hno 0 (Nat.succ_pos _))]
    rw [ih { ddc with promptCalls_ := ddc.promptCalls_ + 1 } hl hlock hmaps ?_ ?_ fuel
      (by omega)]
    · simp only [Nat.add_assoc, Nat.add_comm 1 n]
    · intro i hi
      have := hno (i + 1) (Nat.succ_lt_succ hi)
      simp only at this ⊢
      rw [show ddc.promptCalls_ + 1 + i = ddc.promptCalls_ + (i + 1) by omega]
      exact this
    · simp only
      rw [show ddc.promptCalls_ + 1 + n = ddc.promptCalls_ + (n + 1) by omega]
      exact hempty

/-- With no candidate key in the container, decrypted or encrypted,
`populateEncryptionKey` goes to the prompt. -/
theorem populateEncryptionKey_prompts (cl : CipherLayer) (ddc : DecryptedDataContainer)
    (maps : DecryptedDataMaps) (keyMap : List (BinaryData × BinaryData)) (fuel : Nat)
    (hlock : ddc.ownsLock = true) (hmaps : ddc.lockedDecryptedData_ = some maps)
    (hkeys : ∀ kp ∈ keyMap, mapFind maps.encryptionKeys_ kp.1 = none ∧
      mapFind ddc.encryptionKeyMap_ kp.1 = none) :
    ddc.populateEncryptionKey cl (fuel + 1) keyMap
      = ddc.promptAndInsert cl fuel keyMap none [] [] := by
  have h1 : keyMap.find? (fun keyPair => (mapFind maps.encryptionKeys_ keyPair.1).isSome)
      = none := by
    rw [List.find?_eq_none]
    intro kp hkp
    simp [(hkeys kp hkp).1]
  have h2 : keyMap.find? (fun keyPair => (mapFind ddc.encryptionKeyMap_ keyPair.1).isSome)
      = none := by
    rw [List.find?_eq_none]
    intro kp hkp
    simp [(hkeys kp hkp).2]
  simp only [DecryptedDataContainer.populateEncryptionKey, hlock, hmaps, h1,
    DecryptedDataContainer.decryptEncryptedKey, h2, Bool.not_true, Bool.false_eq_true, if_false]

theorem promptAndInsert_prompt (cl : CipherLayer) (ddc ddc3 : DecryptedDataContainer)
    (keyMap : List (BinaryData × BinaryData)) (fuel : Nat) (keyId kdfId : BinaryData)
    (r : Option (Except ContainerError DecryptedEncryptionKey × DecryptedDataContainer))
    (e : ContainerError)
    (h : ddc.promptPassphrase cl fuel keyMap = r) :
    (r = none → ddc.promptAndInsert cl fuel keyMap none keyId kdfId = none) ∧
    (r = some (.error e, ddc3) →
      ddc.promptAndInsert cl fuel keyMap none keyId kdfId = some (.error e, ddc3)) := by
  constructor
  · intro hr
    simp only [DecryptedDataContainer.promptAndInsert, h, hr]
  · intro hr
    simp only [DecryptedDataContainer.promptAndInsert, h, hr]

/-- While the prompt answers with passphrases that match no pair, a
`populateEncryptionKey` that finds no candidate key in the container does not
return. -/
theorem populateEncryptionKey_loop (cl : CipherLayer) (f : Nat → List BinaryData → BinaryData)
    (keyMap : List (BinaryData × BinaryData)) (fuel : Nat) (ddc : DecryptedDataContainer)
    (maps : DecryptedDataMaps)
    (hl : ddc.getPassphraseLambda_ = some f) (hlock : ddc.ownsLock = true)
    (hmaps : ddc.lockedDecryptedData_ = some maps)
    (hkeys : ∀ kp ∈ keyMap, mapFind maps.encryptionKeys_ kp.1 = none ∧
      mapFind ddc.encryptionKeyMap_ kp.1 = none)
    (hno : ∀ i, i < fuel → ddc.NoMatch cl keyMap (f (ddc.promptCalls_ + i) (keyMap.map Prod.fst))) :
    ddc.populateEncryptionKey cl fuel keyMap = none := by
  cases fuel with
  | zero => rfl
  | succ m =>
    rw [populateEncryptionKey_prompts cl ddc maps keyMap m hlock hmaps hkeys]
    exact (promptAndInsert_prompt cl ddc ddc keyMap m [] [] _ .nullPointer rfl).1
      (promptPassphrase_loop cl f keyMap m ddc hl hlock (by rw [hmaps]; rfl)
        (fun i hi => hno i (Nat.lt_succ_of_lt hi)))

/-- A `populateEncryptionKey` whose nested call for the parent keys does not
return does not return. -/
theorem populateEncryptionKey_nested (cl : CipherLayer) (ddc : DecryptedDataContainer)
    (maps : DecryptedDataMaps) (keyMap : List (BinaryData × BinaryData)) (fuel : Nat)
    (keyPair : BinaryData × BinaryData) (encryptedKey : Asset_EncryptionKey)
    (hlock : ddc.ownsLock = true) (hmaps : ddc.lockedDecryptedData_ = some maps)
    (h1 : keyMap.find? (fun keyPair => (mapFind maps.encryptionKeys_ keyPair.1).isSome) = none)
    (h2 : keyMap.find? (fun keyPair => (mapFind ddc.encryptionKeyMap_ keyPair.1).isSome)
      = some keyPair)
    (h3 : mapFind ddc.encryptionKeyMap_ keyPair.1 = some encryptedKey)
    (h4 : ddc.populateEncryptionKey cl fuel encryptedKey.parentKeyMap = none) :
    ddc.populateEncryptionKey cl (fuel + 1) keyMap = none := by
  simp only [DecryptedDataContainer.populateEncryptionKey, hlock, hmaps, h1,
    DecryptedDataContainer.decryptEncryptedKey, h2, h3, h4, Bool.not_true, Bool.false_eq_true,
    if_false]

theorem toyContainer_noMatch :
    toyContainer.NoMatch toyCipherLayer [([7, 5], [1])] [6] := by
  refine ⟨by decide, ?_⟩
  intro kp hkp
  simp only [List.mem_singleton] at hkp
  subst hkp
  exact ⟨{ id_ := [1], params_ := [7] }, rfl, rfl, by decide⟩

/-- C19, counterexample: the prompt of the toy container answers `[6]` on
every call, and the ID `[7, 6]` of the key derived from it is not the key ID
`[7, 5]` of the one candidate pair; `promptPassphrase` on that pair, and
`populateEncryptionKey` for the pair and for the master key that the pair
wraps, do not return, whatever the fuel. -/
theorem promptPassphrase_never_returns :
    (∀ n keySet, toyContainer.getPassphraseLambda_.map (fun f => f n keySet) = some [6]) ∧
    toyCipherLayer.computeId (toyCipherLayer.deriveKey { id_ := [1], params_ := [7] } [6])
      = [7, 6] ∧
    ∀ fuel, toyContainer.promptPassphrase toyCipherLayer fuel [([7, 5], [1])] = none ∧
      toyContainer.populateEncryptionKey toyCipherLayer fuel [([7, 5], [1])] = none ∧
      toyContainer.populateEncryptionKey toyCipherLayer fuel [([0xAA], [1])] = none := by
  refine ⟨fun _ _ => rfl, rfl, ?_⟩
  have hloop : ∀ fuel, toyContainer.populateEncryptionKey toyCipherLayer fuel [([7, 5], [1])]
      = none := by
    intro fuel
    refine populateEncryptionKey_loop toyCipherLayer (fun _ _ => [6]) _ fuel toyContainer
      { encryptionKeys_ := [([0], some { rawKey_ := [3] })] } rfl rfl rfl ?_
      (fun _ _ => toyContainer_noMatch)
    intro kp hkp
    simp only [List.mem_singleton] at hkp
    subst hkp
    exact ⟨rfl, rfl⟩
  intro fuel
  refine ⟨?_, hloop fuel, ?_⟩
  · exact promptPassphrase_loop toyCipherLayer (fun _ _ => [6]) _ fuel toyContainer rfl rfl rfl
      (fun _ _ => toyContainer_noMatch)
  · cases fuel with
    | zero => rfl
    | succ m =>
      exact populateEncryptionKey_nested toyCipherLayer toyContainer
        { encryptionKeys_ := [([0], some { rawKey_ := [3] })] } _ m ([0xAA], [1]) toyMasterKey
        rfl rfl rfl rfl rfl (hloop m)

/-- C19, amended: `promptPassphrase` puts no limit on the number of attempts.
With the lock owned and a prompt function set: as long as the prompt answers
with non-empty passphrases that match none of the candidate pairs, the loop
asks again, so that no amount of fuel gives a result, for `promptPassphrase`
and for a `populateEncryptionKey` that finds no candidate key in the
container; once the prompt, after `n` such answers, answers with an empty
passphrase, the call terminates and fails with the
`DecryptedDataContainerException` "empty passphrase". -/
theorem promptPassphrase_until_empty (cl : CipherLayer) (ddc : DecryptedDataContainer)
    (maps : DecryptedDataMaps) (f : Nat → List BinaryData → BinaryData)
    (keyMap : List (BinaryData × BinaryData))
    (hl : ddc.getPassphraseLambda_ = some f) (hlock : ddc.ownsLock = true)
    (hmaps : ddc.lockedDecryptedData_ = some maps) :
    (∀ fuel,
      (∀ i, i < fuel →
        ddc.NoMatch cl keyMap (f (ddc.promptCalls_ + i) (keyMap.map Prod.fst))) →
      ddc.promptPassphrase cl fuel keyMap = none ∧
      ((∀ kp ∈ keyMap, mapFind maps.encryptionKeys_ kp.1 = none ∧
          mapFind ddc.encryptionKeyMap_ kp.1 = none) →
        ddc.populateEncryptionKey cl fuel keyMap = none)) ∧
    (∀ n,
      (∀ i, i < n →
        ddc.NoMatch cl keyMap (f (ddc.promptCalls_ + i) (keyMap.map Prod.fst))) →
      f (ddc.promptCalls_ + n) (keyMap.map Prod.fst) = [] →
      ∀ fuel, n < fuel →
        ddc.promptPassphrase cl fuel keyMap
          = some (.error (.container .emptyPassphrase),
              { ddc with promptCalls_ := ddc.promptCalls_ + n + 1 }) ∧
        ((∀ kp ∈ keyMap, mapFind maps.encryptionKeys_ kp.1 = none ∧
            mapFind ddc.encryptionKeyMap_ kp.1 = none) →
          ddc.populateEncryptionKey cl (fuel + 1) keyMap
            = some (.error (.container .emptyPassphrase),
                { ddc with promptCalls_ := ddc.promptCalls_ + n + 1 }))) := by
  have hsome : ddc.lockedDecryptedData_.isSome = true := by rw [hmaps]; rfl
  refine ⟨?_, ?_⟩
  · intro fuel hno
    exact ⟨promptPassphrase_loop cl f keyMap fuel ddc hl hlock hsome hno,
      fun hkeys => populateEncryptionKey_loop cl f keyMap fuel ddc maps hl hlock hmaps hkeys hno⟩
  · intro n hno hempty fuel hfuel
    have hp := promptPassphrase_gives_up cl f keyMap n ddc hl hlock hsome hno hempty fuel hfuel
    refine ⟨hp, fun hkeys => ?_⟩
    rw [populateEncryptionKey_prompts cl ddc maps keyMap fuel hlock hmaps hkeys]
    exact (promptAndInsert_prompt cl ddc _ keyMap fuel [] [] _ _ rfl).2 hp

/-- C19, witness: the prompt of `toyContainerGivingUp` answers `[6]` twice and
then nothing; the third attempt ends the call. -/
theorem promptPassphrase_until_empty_witness :
    toyContainerGivingUp.promptPassphrase toyCipherLayer 3 [([7, 5], [1])]
      = some (.error (.container .emptyPassphrase),
          { toyContainerGivingUp with promptCalls_ := 3 }) :=
  ((promptPassphrase_until_empty toyCipherLayer toyContainerGivingUp
      { encryptionKeys_ := [([0], some { rawKey_ := [3] })] }
      (fun n _ => if n < 2 then [6] else []) [([7, 5], [1])] rfl rfl rfl).2 2
    (fun i hi => by
      have h6 : (if 0 + i < 2 then [6] else ([] : BinaryData)) = [6] := by
        rw [if_pos (by omega)]
      show toyContainerGivingUp.NoMatch toyCipherLayer [([7, 5], [1])]
        (if 0 + i < 2 then [6] else [])
      rw [h6]
      exact toyContainer_noMatch)
    rfl 3 (by decide)).1

theorem derivedOk_nil (cl : CipherLayer) (ddc : DecryptedDataContainer) (raw : BinaryData) :
    DerivedOk cl ddc { rawKey_ := raw } := by
  intro id v h
  simp [mapFind] at h

/-- The outcome of `deriveEncryptionKey` on a key whose derived keys are in
order. -/
theorem deriveEncryptionKey_ok (cl : CipherLayer) (ddc : DecryptedDataContainer)
    (hk : ddc.KdfMapOk) (k k2 : DecryptedEncryptionKey) (kdfid : BinaryData)
    (hd : DerivedOk cl ddc k) (h : ddc.deriveEncryptionKey cl k kdfid = .ok k2) :
    k2.rawKey_ = k.rawKey_ ∧ DerivedOk cl ddc k2 ∧
    ∃ kdf, mapFind ddc.kdfMap_ kdfid = some (some kdf) ∧
      mapFind k2.derivedKeys_ kdfid = some (cl.deriveKey kdf k.rawKey_) := by
  unfold DecryptedDataContainer.deriveEncryptionKey at h
  split_ifs at h
  cases hf : mapFind k.derivedKeys_ kdfid with
  | some v =>
    rw [hf] at h
    simp only [Except.ok.injEq] at h
    subst h
    obtain ⟨kdf, h1, h2⟩ := hd kdfid v hf
    exact ⟨rfl, hd, kdf, h1, by rw [hf, h2]⟩
  | none =>
    rw [hf] at h
    simp only at h
    cases hq : mapFind ddc.kdfMap_ kdfid with
    | none => rw [hq] at h; cases h
    | some o =>
      cases o with
      | none => rw [hq] at h; cases h
      | some kdf =>
        rw [hq] at h
        simp only [Except.ok.injEq] at h
        subst h
        have hid := hk kdfid kdf hq
        refine ⟨rfl, ?_, kdf, rfl, ?_⟩
        · intro id v hv
          simp only [DecryptedEncryptionKey.deriveKey] at hv ⊢
          rw [mapFind_mapEmplace] at hv
          cases h0 : mapFind k.derivedKeys_ id with
          | some w =>
            rw [h0] at hv
            simp only [Option.some.injEq] at hv
            rw [← hv]
            exact hd id w h0
          | none =>
            rw [h0] at hv
            simp only at hv
            split_ifs at hv with e
            simp only [Option.some.injEq] at hv
            rw [hid] at e
            exact ⟨kdf, by rw [← e]; exact hq, hv.symm⟩
        · simp only [DecryptedEncryptionKey.deriveKey]
          rw [mapFind_mapEmplace, hf, hid]
          simp

theorem mapFind_moveOut (maps : DecryptedDataMaps) (k id : BinaryData) :
    mapFind (maps.moveOut k).encryptionKeys_ id
      = if id = k then (mapFind maps.encryptionKeys_ id).map (fun _ => none)
        else mapFind maps.encryptionKeys_ id := by
  unfold DecryptedDataMaps.moveOut
  simp only
  induction maps.encryptionKeys_ with
  | nil => simp [mapFind]
  | cons e t ih =>
    obtain ⟨k1, v1⟩ := e
    simp only [List.map_cons, mapFind]
    by_cases h2 : k1 = id
    · subst h2
      by_cases h1 : k1 = k <;> simp [h1]
    · rw [if_neg h2, if_neg h2, ih]

/-- The entries of `encryptionKeys_` after "erase, then insert" of a key ID. -/
theorem mapFind_reinsert {β : Type} (m : List (BinaryData × β)) (k id : BinaryData) (v : β) :
    mapFind (mapEmplace (mapErase m k) k v) id = if id = k then some v else mapFind m id := by
  rw [mapFind_mapEmplace]
  by_cases h : id = k
  · subst h
    rw [mapFind_mapErase_self]
    simp
  · rw [mapFind_mapErase_ne m k id (Ne.symm h), if_neg h, if_neg (Ne.symm h)]
    cases mapFind m id <;> rfl

theorem mapFind_isSome_of_mem {κ β : Type} [DecidableEq κ] {m : List (κ × β)} {e : κ × β}
    (h : e ∈ m) : (mapFind m e.1).isSome = true := by
  induction m with
  | nil => cases h
  | cons x t ih =>
    obtain ⟨k1, v1⟩ := x
    simp only [mapFind]
    by_cases h1 : k1 = e.1
    · simp [h1]
    · rw [if_neg h1]
      rcases List.mem_cons.1 h with h2 | h2
      · subst h2
        exact absurd rfl h1
      · exact ih h2

/-- The loop that looks for a cipher over the decrypted keys comes to the one
key ID that has one. -/
theorem findSome_unique {β γ : Type} (m : List (BinaryData × β)) (g : BinaryData → Option γ)
    (k : BinaryData) (c : γ) (hk : (mapFind m k).isSome = true) (hg : g k = some c)
    (hu : ∀ id, (mapFind m id).isSome = true → (g id).isSome = true → id = k) :
    m.findSome? (fun keyPair => g keyPair.1) = some c := by
  induction m with
  | nil => simp [mapFind] at hk
  | cons x t ih =>
    obtain ⟨k1, v1⟩ := x
    simp only [List.findSome?]
    cases hg1 : g k1 with
    | some c1 =>
      have : k1 = k := hu k1 (by simp [mapFind]) (by rw [hg1]; rfl)
      subst this
      rw [hg] at hg1
      simp only [hg1]
    | none =>
      simp only
      have hne : k1 ≠ k := fun e => by rw [e, hg] at hg1; cases hg1
      apply ih
      · simpa [mapFind, hne] using hk
      · intro id h1 h2
        apply hu id _ h2
        simp only [mapFind]
        by_cases e : k1 = id
        · simp [e]
        · rw [if_neg e]; exact h1

/-- A pair of the parent key map is the key ID and the KDF ID of the cipher of
a wrap. -/
theorem parentKeyMap_mem (K : Asset_EncryptionKey) (kp : BinaryData × BinaryData)
    (h : kp ∈ K.parentKeyMap) :
    ∃ w ∈ K.cipherData_, w.2.cipher_.encryptionKeyId_ = kp.1 ∧ w.2.cipher_.kdfId_ = kp.2 := by
  unfold Asset_EncryptionKey.parentKeyMap at h
  have gen : ∀ (L : List (BinaryData × CipherData)) (acc : List (BinaryData × BinaryData)),
      kp ∈ L.foldl (fun m cipherPair =>
        mapEmplace m cipherPair.2.cipher_.encryptionKeyId_ cipherPair.2.cipher_.kdfId_) acc →
      kp ∈ acc ∨ ∃ w ∈ L, w.2.cipher_.encryptionKeyId_ = kp.1 ∧ w.2.cipher_.kdfId_ = kp.2 := by
    intro L
    induction L with
    | nil => intro acc h; exact Or.inl h
    | cons w L ih =>
      intro acc h
      rcases ih _ h with h1 | ⟨w2, hw2, e⟩
      · rcases mem_mapEmplace_imp h1 with h2 | h2
        · right
          refine ⟨w, List.mem_cons_self _ _, ?_, ?_⟩ <;> rw [h2]
        · exact Or.inl h2
      · exact Or.inr ⟨w2, List.mem_cons_of_mem _ hw2, e⟩
  rcases gen _ _ h with h1 | h1
  · cases h1
  · exact h1

/-- The parent key map has a pair for the key ID of the cipher of every
wrap. -/
theorem parentKeyMap_cover (K : Asset_EncryptionKey) (w : BinaryData × CipherData)
    (h : w ∈ K.cipherData_) :
    ∃ kp ∈ K.parentKeyMap, kp.1 = w.2.cipher_.encryptionKeyId_ := by
  unfold Asset_EncryptionKey.parentKeyMap
  have gen : ∀ (L : List (BinaryData × CipherData)) (acc : List (BinaryData × BinaryData)),
      ((mapFind acc w.2.cipher_.encryptionKeyId_).isSome = true ∨ w ∈ L) →
      (mapFind (L.foldl (fun m cipherPair =>
        mapEmplace m cipherPair.2.cipher_.encryptionKeyId_ cipherPair.2.cipher_.kdfId_) acc)
        w.2.cipher_.encryptionKeyId_).isSome = true := by
    intro L
    induction L with
    | nil =>
      intro acc h
      rcases h with h | h
      · exact h
      · cases h
    | cons w2 L ih =>
      intro acc h
      apply ih
      rcases h with h | h
      · left
        rw [mapFind_mapEmplace]
        cases hh : mapFind acc w.2.cipher_.encryptionKeyId_ with
        | some x => rfl
        | none => rw [hh] at h; cases h
      · rcases List.mem_cons.1 h with h2 | h2
        · left
          subst h2
          rw [mapFind_mapEmplace]
          cases mapFind acc w.2.cipher_.encryptionKeyId_ <;> simp
        · exact Or.inr h2
  have := gen K.cipherData_ [] (Or.inr h)
  cases hf : mapFind (K.cipherData_.foldl (fun m cipherPair =>
        mapEmplace m cipherPair.2.cipher_.encryptionKeyId_ cipherPair.2.cipher_.kdfId_) [])
        w.2.cipher_.encryptionKeyId_ with
  | none => rw [hf] at this; cases this
  | some v => exact ⟨_, mapFind_eq_some_mem hf, rfl⟩

theorem deriveEncryptionKey_withKeys (cl : CipherLayer) (ddc : DecryptedDataContainer)
    (maps maps0 : DecryptedDataMaps) (keys : List (BinaryData × Option DecryptedEncryptionKey))
    (hmaps : ddc.lockedDecryptedData_ = some maps0)
    (k : DecryptedEncryptionKey) (kdfid : BinaryData) :
    (ddc.withKeys maps keys).deriveEncryptionKey cl k kdfid
      = ddc.deriveEncryptionKey cl k kdfid := by
  unfold DecryptedDataContainer.deriveEncryptionKey DecryptedDataContainer.withKeys
    DecryptedDataContainer.ownsLock
  simp [hmaps]

theorem insertDecryptedKey_eq (ddc : DecryptedDataContainer) (maps : DecryptedDataMaps)
    (hmaps : ddc.lockedDecryptedData_ = some maps) (id : BinaryData)
    (k : DecryptedEncryptionKey) :
    ddc.insertDecryptedKey id (some k)
      = (.ok (), ddc.withKeys maps (mapEmplace (mapErase maps.encryptionKeys_ id) id (some k))) := by
  simp only [DecryptedDataContainer.insertDecryptedKey, hmaps, DecryptedDataContainer.withKeys]

theorem promptAndInsert_some (cl : CipherLayer) (fuel : Nat) (ddc : DecryptedDataContainer)
    (keyMap : List (BinaryData × BinaryData)) (k : DecryptedEncryptionKey)
    (keyId kdfId : BinaryData) :
    ddc.promptAndInsert cl fuel keyMap (some k) keyId kdfId
      = match ddc.deriveEncryptionKey cl k kdfId with
        | .error e => some (.error e, ddc)
        | .ok k2 => some (ddc.insertDecryptedKey keyId (some k2)) := by
  simp only [DecryptedDataContainer.promptAndInsert]

/-- A candidate key that is decrypted in the container is taken from it. -/
theorem populateEncryptionKey_found (cl : CipherLayer) (ddc : DecryptedDataContainer)
    (maps : DecryptedDataMaps) (keyMap : List (BinaryData × BinaryData)) (fuel : Nat)
    (kp : BinaryData × BinaryData) (dk : DecryptedEncryptionKey)
    (hlock : ddc.ownsLock = true) (hmaps : ddc.lockedDecryptedData_ = some maps)
    (h1 : keyMap.find? (fun keyPair => (mapFind maps.encryptionKeys_ keyPair.1).isSome)
      = some kp)
    (h2 : mapFind maps.encryptionKeys_ kp.1 = some (some dk)) :
    ddc.populateEncryptionKey cl (fuel + 1) keyMap
      = (ddc.withKeys maps (maps.moveOut kp.1).encryptionKeys_).promptAndInsert cl fuel keyMap
          (some dk) kp.1 kp.2 := by
  simp only [DecryptedDataContainer.populateEncryptionKey, hlock, hmaps, h1, h2,
    Bool.not_true, Bool.false_eq_true, if_false, Option.join]
  rfl

/-- A candidate key that is encrypted in the container is decrypted from its
parents. -/
theorem populateEncryptionKey_encrypted (cl : CipherLayer) (ddc : DecryptedDataContainer)
    (maps : DecryptedDataMaps) (keyMap : List (BinaryData × BinaryData)) (fuel : Nat)
    (keyPair : BinaryData × BinaryData) (K : Asset_EncryptionKey)
    (hlock : ddc.ownsLock = true) (hmaps : ddc.lockedDecryptedData_ = some maps)
    (h1 : keyMap.find? (fun keyPair => (mapFind maps.encryptionKeys_ keyPair.1).isSome) = none)
    (h2 : keyMap.find? (fun keyPair => (mapFind ddc.encryptionKeyMap_ keyPair.1).isSome)
      = some keyPair)
    (h3 : mapFind ddc.encryptionKeyMap_ keyPair.1 = some K) :
    ddc.populateEncryptionKey cl (fuel + 1) keyMap
      = match ddc.populateEncryptionKey cl fuel K.parentKeyMap with
        | none => none
        | some (.error e, ddc1) => some (.error e, ddc1)
        | some (.ok _, ddc1) =>
          match ddc1.decryptFromParents cl K.cipherData_ none false with
          | (.error e, ddc2) => some (.error e, ddc2)
          | (.ok (decryptedKey, done), ddc2) =>
            if !done then some (.error (.container .failedToDecryptKey), ddc2)
            else ddc2.promptAndInsert cl fuel keyMap decryptedKey keyPair.1 keyPair.2 := by
  simp only [DecryptedDataContainer.populateEncryptionKey, hlock, hmaps, h1,
    DecryptedDataContainer.decryptEncryptedKey, h2, h3, Bool.not_true, Bool.false_eq_true,
    if_false]
  cases ddc.populateEncryptionKey cl fuel K.parentKeyMap with
  | none => rfl
  | some r =>
    obtain ⟨r1, ddc1⟩ := r
    cases r1 with
    | error e => rfl
    | ok u =>
      simp only
      cases hdf : ddc1.decryptFromParents cl K.cipherData_ none false with
      | mk r2 ddc2 =>
        cases r2 with
        | error e => rfl
        | ok v =>
          obtain ⟨dk, done⟩ := v
          cases done <;> simp

/-- A key that `tryKeyPairs` returns: the raw key is the one tried, its derived
keys are in order, and its ID under the KDF of a candidate pair is the key ID
of the pair. -/
theorem tryKeyPairs_some (cl : CipherLayer) (ddc : DecryptedDataContainer) (hk : ddc.KdfMapOk)
    (keyMap : List (BinaryData × BinaryData)) (k0 k : DecryptedEncryptionKey)
    (hd : DerivedOk cl ddc k0) (h : ddc.tryKeyPairs cl k0 keyMap = .ok (some k)) :
    k.rawKey_ = k0.rawKey_ ∧ DerivedOk cl ddc k ∧
    ∃ kp ∈ keyMap, k.getId cl kp.2 = .ok kp.1 := by
  induction keyMap generalizing k0 with
  | nil => simp [DecryptedDataContainer.tryKeyPairs] at h
  | cons kp rest ih =>
    simp only [DecryptedDataContainer.tryKeyPairs] at h
    cases hder : ddc.deriveEncryptionKey cl k0 kp.2 with
    | error e => rw [hder] at h; cases h
    | ok k1 =>
      rw [hder] at h
      simp only at h
      obtain ⟨e1, d1, -⟩ := deriveEncryptionKey_ok cl ddc hk k0 k1 kp.2 hd hder
      cases hid : k1.getId cl kp.2 with
      | error e => rw [hid] at h; cases h
      | ok id =>
        rw [hid] at h
        simp only at h
        split_ifs at h with heq
        · simp only [Except.ok.injEq, Option.some.injEq] at h
          subst h
          exact ⟨e1, d1, kp, List.mem_cons_self _ _, by rw [hid, heq]⟩
        · obtain ⟨e2, d2, kp2, hkp2, hid2⟩ := ih k1 d1 h
          exact ⟨e2.trans e1, d2, kp2, List.mem_cons_of_mem _ hkp2, hid2⟩

/-- A key that `promptPassphrase` returns: the prompt has been called some more
times, and the key is what `tryKeyPairs` makes of its last answer. -/
theorem promptPassphrase_ok (cl : CipherLayer) (f : Nat → List BinaryData → BinaryData)
    (keyMap : List (BinaryData × BinaryData)) (fuel : Nat) (ddc ddc3 : DecryptedDataContainer)
    (k : DecryptedEncryptionKey) (hl : ddc.getPassphraseLambda_ = some f)
    (h : ddc.promptPassphrase cl fuel keyMap = some (.ok k, ddc3)) :
    ∃ n, ddc3 = { ddc with promptCalls_ := ddc.promptCalls_ + n + 1 } ∧
      ddc.tryKeyPairs cl { rawKey_ := f (ddc.promptCalls_ + n) (keyMap.map Prod.fst) } keyMap
        = .ok (some k) := by
  induction fuel generalizing ddc with
  | zero => simp [DecryptedDataContainer.promptPassphrase] at h
  | succ fuel ih =>
    rw [DecryptedDataContainer.promptPassphrase] at h
    split at h
    · rename_i h0
      rw [hl] at h0
      cases h0
    · rename_i lambda h0
      rw [hl] at h0
      obtain rfl : f = lambda := Option.some.inj h0
      simp only at h
      split_ifs at h with hlen
      · simp at h
      rw [tryKeyPairs_promptCalls] at h
      cases htry : ddc.tryKeyPairs cl { rawKey_ := f ddc.promptCalls_ (keyMap.map Prod.fst) }
          keyMap with
      | error e => rw [htry] at h; simp at h
      | ok o =>
        rw [htry] at h
        cases o with
        | some k1 =>
          simp only [Option.some.injEq, Prod.mk.injEq, Except.ok.injEq] at h
          obtain ⟨h1, h2⟩ := h
          subst h1
          exact ⟨0, h2.symm, htry⟩
        | none =>
          simp only at h
          obtain ⟨n, e1, e2⟩ := ih { ddc with promptCalls_ := ddc.promptCalls_ + 1 } hl h
          refine ⟨n + 1, ?_, ?_⟩
          · rw [e1]
            simp only [Nat.add_assoc, Nat.add_comm 1 n]
          · rw [tryKeyPairs_promptCalls] at e2
            simp only at e2
            rw [show ddc.promptCalls_ + (n + 1) = ddc.promptCalls_ + 1 + n by omega]
            exact e2

/-- The pair `matchKeyPair` comes to, when the key matches a pair. -/
theorem matchKeyPair_ok (cl : CipherLayer) (k : DecryptedEncryptionKey)
    (keyMap : List (BinaryData × BinaryData)) (ids0 ids : BinaryData × BinaryData)
    (hex : ∃ kp ∈ keyMap, k.getId cl kp.2 = .ok kp.1)
    (h : matchKeyPair cl k keyMap ids0 = .ok ids) :
    ids ∈ keyMap ∧ k.getId cl ids.2 = .ok ids.1 := by
  induction keyMap with
  | nil =>
    obtain ⟨kp, hkp, -⟩ := hex
    cases hkp
  | cons kp rest ih =>
    simp only [matchKeyPair] at h
    cases hid : k.getId cl kp.2 with
    | error e => rw [hid] at h; cases h
    | ok id =>
      rw [hid] at h
      simp only at h
      split_ifs at h with heq
      · simp only [Except.ok.injEq] at h
        subst h
        exact ⟨List.mem_cons_self _ _, by rw [hid, heq]⟩
      · have hex2 : ∃ kp2 ∈ rest, k.getId cl kp2.2 = .ok kp2.1 := by
          obtain ⟨kp2, hkp2, hid2⟩ := hex
          rcases List.mem_cons.1 hkp2 with e | e
          · subst e
            rw [hid] at hid2
            simp only [Except.ok.injEq] at hid2
            exact absurd hid2 heq
          · exact ⟨kp2, e, hid2⟩
        obtain ⟨m1, m2⟩ := ih hex2 h
        exact ⟨List.mem_cons_of_mem _ m1, m2⟩

theorem withKeys_withKeys (ddc : DecryptedDataContainer) (maps maps1 : DecryptedDataMaps)
    (E1 E2 : List (BinaryData × Option DecryptedEncryptionKey))
    (h : maps1 = { maps with encryptionKeys_ := E1 }) :
    (ddc.withKeys maps E1).withKeys maps1 E2 = ddc.withKeys maps E2 := by
  subst h
  rfl

theorem moveOut_withKeys (ddc : DecryptedDataContainer) (maps : DecryptedDataMaps)
    (k : BinaryData) :
    ({ ddc with lockedDecryptedData_ := some (maps.moveOut k) } : DecryptedDataContainer)
      = ddc.withKeys maps (maps.moveOut k).encryptionKeys_ := rfl

/-- The loop over the cipher data passes over the wraps whose key is not
decrypted in the container. -/
theorem decryptFromParents_skip (cl : CipherLayer) (ddc : DecryptedDataContainer)
    (maps : DecryptedDataMaps) (hmaps : ddc.lockedDecryptedData_ = some maps)
    (L : List (BinaryData × CipherData))
    (hL : ∀ w ∈ L, mapFind maps.encryptionKeys_ w.2.cipher_.encryptionKeyId_ = none)
    (rest : List (BinaryData × CipherData))
    (dk : Option DecryptedEncryptionKey) (done : Bool) :
    ddc.decryptFromParents cl (L ++ rest) dk done = ddc.decryptFromParents cl rest dk done := by
  induction L with
  | nil => rfl
  | cons w L ih =>
    simp only [List.cons_append, DecryptedDataContainer.decryptFromParents, hmaps,
      hL w (List.mem_cons_self _ _)]
    exact ih (fun w2 h2 => hL w2 (List.mem_cons_of_mem _ h2))

/-- The loop over the cipher data when the key of one wrap is decrypted in the
container: the wrap is decrypted under the key its KDF derives from that
key, and the key is put back. -/
theorem decryptFromParents_hit (cl : CipherLayer) (ddc ddc2 : DecryptedDataContainer)
    (hk : ddc.KdfMapOk)
    (maps : DecryptedDataMaps) (hmaps : ddc.lockedDecryptedData_ = some maps)
    (pre post : List (BinaryData × CipherData)) (w : BinaryData × CipherData)
    (uk : DecryptedEncryptionKey)
    (hpre : ∀ x ∈ pre, mapFind maps.encryptionKeys_ x.2.cipher_.encryptionKeyId_ = none)
    (hpost : ∀ x ∈ post, x.2.cipher_.encryptionKeyId_ ≠ w.2.cipher_.encryptionKeyId_ ∧
      mapFind maps.encryptionKeys_ x.2.cipher_.encryptionKeyId_ = none)
    (hw : mapFind maps.encryptionKeys_ w.2.cipher_.encryptionKeyId_ = some (some uk))
    (hd : DerivedOk cl ddc uk)
    (r : Option DecryptedEncryptionKey × Bool)
    (h : ddc.decryptFromParents cl (pre ++ w :: post) none false = (.ok r, ddc2)) :
    ∃ uk2 kdf, ddc.deriveEncryptionKey cl uk w.2.cipher_.kdfId_ = .ok uk2 ∧
      mapFind ddc.kdfMap_ w.2.cipher_.kdfId_ = some (some kdf) ∧
      r = (some { rawKey_ := cl.decrypt w.2.cipher_ (cl.deriveKey kdf uk.rawKey_)
                    w.2.cipherText_ }, true) ∧
      ddc2 = ddc.withKeys maps
        (mapEmplace (mapErase (maps.moveOut w.2.cipher_.encryptionKeyId_).encryptionKeys_
          w.2.cipher_.encryptionKeyId_) w.2.cipher_.encryptionKeyId_ (some uk2)) := by
  rw [decryptFromParents_skip cl ddc maps hmaps pre hpre] at h
  simp only [DecryptedDataContainer.decryptFromParents, hmaps, hw] at h
  have hder0 := deriveEncryptionKey_withKeys cl ddc maps maps
    (maps.moveOut w.2.cipher_.encryptionKeyId_).encryptionKeys_ hmaps uk w.2.cipher_.kdfId_
  rw [moveOut_withKeys, hder0] at h
  cases hder : ddc.deriveEncryptionKey cl uk w.2.cipher_.kdfId_ with
  | error e => rw [hder] at h; simp at h
  | ok uk2 =>
    rw [hder] at h
    simp only at h
    obtain ⟨e1, d1, kdf, hkdf, hfind⟩ :=
      deriveEncryptionKey_ok cl ddc hk uk uk2 w.2.cipher_.kdfId_ hd hder
    have hget : uk2.getDerivedKey w.2.cipher_.kdfId_ = .ok (cl.deriveKey kdf uk.rawKey_) := by
      simp only [DecryptedEncryptionKey.getDerivedKey, hfind]
    rw [hget] at h
    simp only at h
    rw [insertDecryptedKey_eq _ (maps.moveOut w.2.cipher_.encryptionKeyId_) rfl] at h
    simp only at h
    have hS2 : (ddc.withKeys maps (maps.moveOut w.2.cipher_.encryptionKeyId_).encryptionKeys_).withKeys
        (maps.moveOut w.2.cipher_.encryptionKeyId_)
        (mapEmplace (mapErase (maps.moveOut w.2.cipher_.encryptionKeyId_).encryptionKeys_
          w.2.cipher_.encryptionKeyId_) w.2.cipher_.encryptionKeyId_ (some uk2))
        = ddc.withKeys maps
        (mapEmplace (mapErase (maps.moveOut w.2.cipher_.encryptionKeyId_).encryptionKeys_
          w.2.cipher_.encryptionKeyId_) w.2.cipher_.encryptionKeyId_ (some uk2)) := rfl
    rw [hS2] at h
    have hskip := decryptFromParents_skip cl
      (ddc.withKeys maps
        (mapEmplace (mapErase (maps.moveOut w.2.cipher_.encryptionKeyId_).encryptionKeys_
          w.2.cipher_.encryptionKeyId_) w.2.cipher_.encryptionKeyId_ (some uk2)))
      { maps with encryptionKeys_ :=
        (mapEmplace (mapErase (maps.moveOut w.2.cipher_.encryptionKeyId_).encryptionKeys_
          w.2.cipher_.encryptionKeyId_) w.2.cipher_.encryptionKeyId_ (some uk2)) } rfl post
      (by
        intro x hx
        obtain ⟨hne, hnone⟩ := hpost x hx
        simp only
        rw [mapFind_reinsert, if_neg hne, mapFind_moveOut, if_neg hne]
        exact hnone) []
      (some { rawKey_ := cl.decrypt w.2.cipher_ (cl.deriveKey kdf uk.rawKey_) w.2.cipherText_ })
      true
    rw [List.append_nil] at hskip
    rw [hskip] at h
    simp only [DecryptedDataContainer.decryptFromParents, Prod.mk.injEq, Except.ok.injEq] at h
    exact ⟨uk2, kdf, rfl, hkdf, h.1.symm, h.2.symm⟩

theorem frame_refl (a : DecryptedDataContainer) : a.Frame a :=
  ⟨rfl, rfl, rfl, rfl, rfl, rfl, rfl⟩

theorem frame_trans {a b c : DecryptedDataContainer} (h1 : a.Frame b) (h2 : b.Frame c) :
    a.Frame c :=
  ⟨h2.lock.trans h1.lock, h2.keys.trans h1.keys, h2.kdfs.trans h1.kdfs,
    h2.defaultKey.trans h1.defaultKey, h2.defaultId.trans h1.defaultId,
    h2.lambda.trans h1.lambda, h2.store.trans h1.store⟩

theorem frame_withKeys (a : DecryptedDataContainer) (maps : DecryptedDataMaps)
    (E : List (BinaryData × Option DecryptedEncryptionKey)) : a.Frame (a.withKeys maps E) :=
  ⟨rfl, rfl, rfl, rfl, rfl, rfl, rfl⟩

theorem frame_promptCalls (a : DecryptedDataContainer) (n : Nat) :
    a.Frame { a with promptCalls_ := n } :=
  ⟨rfl, rfl, rfl, rfl, rfl, rfl, rfl⟩

theorem frame_ownsLock {a b : DecryptedDataContainer} (h : a.Frame b) :
    b.ownsLock = a.ownsLock := by
  unfold DecryptedDataContainer.ownsLock
  rw [h.lock]

theorem frame_derivedOk {a b : DecryptedDataContainer} (h : a.Frame b) (cl : CipherLayer)
    (k : DecryptedEncryptionKey) (hd : DerivedOk cl a k) : DerivedOk cl b k := by
  intro id v hv
  rw [h.kdfs]
  exact hd id v hv

theorem frame_kdfMapOk {a b : DecryptedDataContainer} (h : a.Frame b) (hk : a.KdfMapOk) :
    b.KdfMapOk := by
  intro id kdf hf
  rw [h.kdfs] at hf
  exact hk id kdf hf

theorem frame_deriveEncryptionKey {a b : DecryptedDataContainer} (h : a.Frame b)
    (cl : CipherLayer) (ma mb : DecryptedDataMaps) (ha : a.lockedDecryptedData_ = some ma)
    (hb : b.lockedDecryptedData_ = some mb) (k : DecryptedEncryptionKey) (kdfid : BinaryData) :
    b.deriveEncryptionKey cl k kdfid = a.deriveEncryptionKey cl k kdfid := by
  unfold DecryptedDataContainer.deriveEncryptionKey
  rw [frame_ownsLock h, h.kdfs, ha, hb]
  rfl

/-- A key that `promptPassphrase` returns, for any prompt function. -/
theorem promptPassphrase_ok_frame (cl : CipherLayer) (keyMap : List (BinaryData × BinaryData))
    (fuel : Nat) (ddc ddc3 : DecryptedDataContainer) (k : DecryptedEncryptionKey)
    (h : ddc.promptPassphrase cl fuel keyMap = some (.ok k, ddc3)) :
    ∃ f n, ddc.getPassphraseLambda_ = some f ∧
      ddc3 = { ddc with promptCalls_ := ddc.promptCalls_ + n + 1 } ∧
      ddc.tryKeyPairs cl { rawKey_ := f (ddc.promptCalls_ + n) (keyMap.map Prod.fst) } keyMap
        = .ok (some k) := by
  rcases Option.eq_none_or_eq_some ddc.getPassphraseLambda_ with hl | ⟨f, hl⟩
  · cases fuel with
    | zero => simp [DecryptedDataContainer.promptPassphrase] at h
    | succ m => simp [DecryptedDataContainer.promptPassphrase, hl] at h
  · obtain ⟨n, h1, h2⟩ := promptPassphrase_ok cl f keyMap fuel ddc ddc3 k hl h
    exact ⟨f, n, hl, h1, h2⟩

/-- The nested call of `populateEncryptionKey` for the keys that wrap the
master key, under a lock just taken: on success one of these keys is decrypted
in the container, the default key when it wraps the master key, else the key
of the last passphrase the prompt gave, whose ID under the KDF of a wrap is
the key ID of the wrap. -/
theorem populateEncryptionKey_parents (cl : CipherLayer) (ddc S2 : DecryptedDataContainer)
    (keyID : BinaryData) (K : Asset_EncryptionKey) (hM : ddc.MasterKey keyID K)
    (hlock : ddc.ownsLock = true) (maps : DecryptedDataMaps)
    (hmaps : ddc.lockedDecryptedData_ = some maps)
    (hfresh : ddc.FreshKeys maps.encryptionKeys_) (fuel : Nat)
    (h : ddc.populateEncryptionKey cl fuel K.parentKeyMap = some (.ok (), S2)) :
    ddc.Frame S2 ∧ ∃ maps2 uid uk, S2.lockedDecryptedData_ = some maps2 ∧
      mapFind maps2.encryptionKeys_ uid = some (some uk) ∧ DerivedOk cl ddc uk ∧
      (∀ id, id ≠ uid → mapFind maps2.encryptionKeys_ id = mapFind maps.encryptionKeys_ id) ∧
      (∃ w ∈ K.cipherData_, w.1 = uid) ∧
      (∀ w ∈ K.cipherData_, w.1 ≠ uid → w.1 ≠ ddc.defaultEncryptionKeyId_) ∧
      ((uid = ddc.defaultEncryptionKeyId_ ∧ uk.rawKey_ = ddc.defaultEncryptionKey_ ∧
          S2.promptCalls_ = ddc.promptCalls_) ∨
       (uid ≠ ddc.defaultEncryptionKeyId_ ∧
        ∃ f n w kdf, ddc.getPassphraseLambda_ = some f ∧ ddc.promptCalls_ ≤ n ∧
          S2.promptCalls_ = n + 1 ∧ uk.rawKey_ = f n (K.parentKeyMap.map Prod.fst) ∧
          w ∈ K.cipherData_ ∧ w.1 = uid ∧
          mapFind ddc.kdfMap_ w.2.cipher_.kdfId_ = some (some kdf) ∧
          cl.computeId (cl.deriveKey kdf uk.rawKey_) = uid)) := by
  cases fuel with
  | zero => simp [DecryptedDataContainer.populateEncryptionKey] at h
  | succ m =>
    cases hfind : K.parentKeyMap.find?
        (fun keyPair => (mapFind maps.encryptionKeys_ keyPair.1).isSome) with
    | some kp0 =>
      -- the default key wraps the master key
      have hmem : kp0 ∈ K.parentKeyMap := List.mem_of_find?_eq_some hfind
      have hsome := List.find?_some hfind
      have hid : kp0.1 = ddc.defaultEncryptionKeyId_ := by
        by_contra hne
        rw [hfresh kp0.1, if_neg hne] at hsome
        simp at hsome
      have hdef : mapFind maps.encryptionKeys_ kp0.1
          = some (some { rawKey_ := ddc.defaultEncryptionKey_ }) := by
        rw [hfresh kp0.1, if_pos hid]
      rw [populateEncryptionKey_found cl ddc maps _ m kp0 _ hlock hmaps hfind hdef,
        promptAndInsert_some, deriveEncryptionKey_withKeys cl ddc maps maps _ hmaps] at h
      cases hder : ddc.deriveEncryptionKey cl { rawKey_ := ddc.defaultEncryptionKey_ } kp0.2 with
      | error e => rw [hder] at h; simp at h
      | ok dk2 =>
        rw [hder] at h
        simp only at h
        rw [insertDecryptedKey_eq _ (maps.moveOut kp0.1) rfl] at h
        simp only [Option.some.injEq, Prod.mk.injEq, true_and] at h
        obtain ⟨e1, d1, -⟩ := deriveEncryptionKey_ok cl ddc hM.kdfs _ dk2 kp0.2
          (derivedOk_nil cl ddc _) hder
        obtain ⟨w, hw, hw1, -⟩ := parentKeyMap_mem K kp0 hmem
        subst h
        refine ⟨frame_withKeys _ _ _, _, kp0.1, dk2, rfl, ?_, d1, ?_,
          ⟨w, hw, by rw [← hM.keyed w hw, hw1]⟩, ?_, Or.inl ⟨hid, e1, rfl⟩⟩
        · simp only
          rw [mapFind_reinsert, if_pos rfl]
        · intro id hne
          simp only
          rw [mapFind_reinsert, if_neg hne, mapFind_moveOut, if_neg hne]
        · intro w2 _ hne
          rw [← hid]
          exact hne
    | none =>
      -- no wrap under the default key: the prompt
      have hall : ∀ kp ∈ K.parentKeyMap, kp.1 ≠ ddc.defaultEncryptionKeyId_ ∧
          mapFind maps.encryptionKeys_ kp.1 = none := by
        intro kp hkp
        have := List.find?_eq_none.1 hfind kp hkp
        have hne : kp.1 ≠ ddc.defaultEncryptionKeyId_ := by
          intro e
          rw [hfresh kp.1, if_pos e] at this
          simp at this
        exact ⟨hne, by rw [hfresh kp.1, if_neg hne]⟩
      have hwdef : ∀ w ∈ K.cipherData_, w.1 ≠ ddc.defaultEncryptionKeyId_ := by
        intro w hw
        obtain ⟨kp, hkp, e⟩ := parentKeyMap_cover K w hw
        rw [← hM.keyed w hw, ← e]
        exact (hall kp hkp).1
      have hkeys : ∀ kp ∈ K.parentKeyMap, mapFind maps.encryptionKeys_ kp.1 = none ∧
          mapFind ddc.encryptionKeyMap_ kp.1 = none := by
        intro kp hkp
        refine ⟨(hall kp hkp).2, ?_⟩
        obtain ⟨w, hw, hw1, -⟩ := parentKeyMap_mem K kp hkp
        rw [← hw1, hM.keyed w hw]
        exact hM.parents w hw
      rw [populateEncryptionKey_prompts cl ddc maps _ m hlock hmaps hkeys] at h
      unfold DecryptedDataContainer.promptAndInsert at h
      simp only at h
      cases hp : ddc.promptPassphrase cl m K.parentKeyMap with
      | none => rw [hp] at h; simp at h
      | some r =>
        obtain ⟨r1, S3⟩ := r
        cases r1 with
        | error e => rw [hp] at h; simp at h
        | ok k =>
          rw [hp] at h
          simp only at h
          obtain ⟨f, n, hl, hS3, htry⟩ := promptPassphrase_ok_frame cl _ m ddc S3 k hp
          obtain ⟨e1, d1, hex⟩ := tryKeyPairs_some cl ddc hM.kdfs _ _ k
            (derivedOk_nil cl ddc _) htry
          cases hmk : matchKeyPair cl k K.parentKeyMap ([], []) with
          | error e => rw [hmk] at h; simp at h
          | ok ids =>
            rw [hmk] at h
            simp only at h
            obtain ⟨hids, hgetid⟩ := matchKeyPair_ok cl k _ _ ids hex hmk
            have hfr : ddc.Frame S3 := by rw [hS3]; exact frame_promptCalls _ _
            have hS3maps : S3.lockedDecryptedData_ = some maps := by rw [hS3]; exact hmaps
            rw [frame_deriveEncryptionKey hfr cl maps maps hmaps hS3maps] at h
            cases hder : ddc.deriveEncryptionKey cl k ids.2 with
            | error e => rw [hder] at h; simp at h
            | ok k2 =>
              rw [hder] at h
              simp only at h
              rw [insertDecryptedKey_eq _ maps hS3maps] at h
              simp only [Option.some.injEq, Prod.mk.injEq, true_and] at h
              obtain ⟨e2, d2, -⟩ := deriveEncryptionKey_ok cl ddc hM.kdfs k k2 ids.2 d1 hder
              obtain ⟨w, hw, hw1, hw2⟩ := parentKeyMap_mem K ids hids
              have hwid : w.1 = ids.1 := by rw [← hM.keyed w hw, hw1]
              -- the ID of the key under the KDF of the wrap
              have hopen : ∃ kdf, mapFind ddc.kdfMap_ w.2.cipher_.kdfId_ = some (some kdf) ∧
                  cl.computeId (cl.deriveKey kdf k2.rawKey_) = ids.1 := by
                unfold DecryptedEncryptionKey.getId DecryptedEncryptionKey.getDerivedKey
                  at hgetid
                cases hdv : mapFind k.derivedKeys_ ids.2 with
                | none => rw [hdv] at hgetid; simp at hgetid
                | some d =>
                  rw [hdv] at hgetid
                  simp only [Except.ok.injEq] at hgetid
                  obtain ⟨kdf, hk1, hk2⟩ := d1 ids.2 d hdv
                  refine ⟨kdf, by rw [hw2]; exact hk1, ?_⟩
                  rw [e2, ← hk2]
                  exact hgetid
              obtain ⟨kdf, hkdf, hcid⟩ := hopen
              subst h
              refine ⟨frame_trans hfr (frame_withKeys _ _ _), _, ids.1, k2, rfl, ?_, d2, ?_,
                ⟨w, hw, hwid⟩, fun w2 hw2 _ => hwdef w2 hw2,
                Or.inr ⟨(hall ids hids).1, f, ddc.promptCalls_ + n, w, kdf, hl,
                  Nat.le_add_right _ _, ?_, ?_, hw, hwid, hkdf, hcid⟩⟩
              · simp only
                rw [mapFind_reinsert, if_pos rfl]
              · intro id hne
                simp only
                rw [mapFind_reinsert, if_neg hne]
              · rw [hS3]
                rfl
              · rw [e2, e1]

theorem sorted_split_ne (W pre post : List (BinaryData × CipherData)) (w : BinaryData × CipherData)
    (hs : MapSorted W) (e : W = pre ++ w :: post) :
    (∀ x ∈ pre, x.1 ≠ w.1) ∧ (∀ x ∈ post, x.1 ≠ w.1) := by
  unfold MapSorted at hs
  rw [e, List.pairwise_append] at hs
  obtain ⟨-, h2, h3⟩ := hs
  rw [List.pairwise_cons] at h2
  constructor
  · intro x hx
    exact bdLaws.ne (h3 x hx w (List.mem_cons_self _ _))
  · intro x hx
    exact (bdLaws.ne (h2.1 x hx)).symm

/-- The call of `populateEncryptionKey` for the master key under a lock just
taken: on success the master key is in the container, decrypted from the wrap
`old` under the key, derived by the KDF of the wrap, of the key `uk` kept
under the ID of the wrap; of the keys that wrap the master key only that one
is in the container; it is the default key, or the key of the last passphrase
the prompt gave. -/
theorem populateEncryptionKey_master (cl : CipherLayer) (ddc S3 : DecryptedDataContainer)
    (keyID kdfID : BinaryData) (K : Asset_EncryptionKey) (hM : ddc.MasterKey keyID K)
    (hlock : ddc.ownsLock = true) (maps : DecryptedDataMaps)
    (hmaps : ddc.lockedDecryptedData_ = some maps)
    (hfresh : ddc.FreshKeys maps.encryptionKeys_) (fuel : Nat)
    (h : ddc.populateEncryptionKey cl fuel (mapEmplace [] keyID kdfID) = some (.ok (), S3)) :
    ddc.Frame S3 ∧ ∃ maps3 old uk mk kdfOld,
      S3.lockedDecryptedData_ = some maps3 ∧ old ∈ K.cipherData_ ∧
      mapFind ddc.kdfMap_ old.2.cipher_.kdfId_ = some (some kdfOld) ∧
      mapFind maps3.encryptionKeys_ keyID = some (some mk) ∧
      mk.rawKey_ = cl.decrypt old.2.cipher_ (cl.deriveKey kdfOld uk.rawKey_) old.2.cipherText_ ∧
      DerivedOk cl ddc mk ∧
      mapFind maps3.encryptionKeys_ old.1 = some (some uk) ∧ DerivedOk cl ddc uk ∧
      (∀ id, id ≠ keyID → id ≠ old.1 →
        mapFind maps3.encryptionKeys_ id = mapFind maps.encryptionKeys_ id) ∧
      (∀ w ∈ K.cipherData_, w.1 ≠ old.1 → w.1 ≠ ddc.defaultEncryptionKeyId_) ∧
      ((old.1 = ddc.defaultEncryptionKeyId_ ∧ uk.rawKey_ = ddc.defaultEncryptionKey_ ∧
          S3.promptCalls_ = ddc.promptCalls_) ∨
       (old.1 ≠ ddc.defaultEncryptionKeyId_ ∧
        ∃ f n, ddc.getPassphraseLambda_ = some f ∧ ddc.promptCalls_ ≤ n ∧
          S3.promptCalls_ = n + 1 ∧ uk.rawKey_ = f n (K.parentKeyMap.map Prod.fst) ∧
          cl.computeId (cl.deriveKey kdfOld uk.rawKey_) = old.1)) := by
  cases fuel with
  | zero => simp [DecryptedDataContainer.populateEncryptionKey] at h
  | succ m =>
    have hkm : (mapEmplace [] keyID kdfID : List (BinaryData × BinaryData))
        = [(keyID, kdfID)] := rfl
    rw [hkm] at h
    have hnone : mapFind maps.encryptionKeys_ keyID = none := by
      rw [hfresh keyID, if_neg hM.notDefault]
    have h1 : [(keyID, kdfID)].find?
        (fun keyPair => (mapFind maps.encryptionKeys_ keyPair.1).isSome) = none := by
      simp [List.find?, hnone]
    have h2 : [(keyID, kdfID)].find?
        (fun keyPair => (mapFind ddc.encryptionKeyMap_ keyPair.1).isSome)
        = some (keyID, kdfID) := by
      simp [List.find?, hM.found]
    rw [populateEncryptionKey_encrypted cl ddc maps _ m (keyID, kdfID) K hlock hmaps h1 h2
      hM.found] at h
    cases hin : ddc.populateEncryptionKey cl m K.parentKeyMap with
    | none => rw [hin] at h; simp at h
    | some r =>
      obtain ⟨r1, S2⟩ := r
      cases r1 with
      | error e => rw [hin] at h; simp at h
      | ok u =>
        rw [hin] at h
        simp only at h
        obtain ⟨hfr2, maps2, uid, uk, hmaps2, huk, hduk, hother, ⟨w, hw, hwuid⟩, hwdef, hcase⟩ :=
          populateEncryptionKey_parents cl ddc S2 keyID K hM hlock maps hmaps hfresh m hin
        obtain ⟨pre, post, hsplit⟩ := List.append_of_mem hw
        obtain ⟨hpre, hpost⟩ := sorted_split_ne _ pre post w hM.sorted hsplit
        have hkey : w.2.cipher_.encryptionKeyId_ = w.1 := hM.keyed w hw
        have habsent : ∀ x ∈ K.cipherData_, x.1 ≠ w.1 →
            mapFind maps2.encryptionKeys_ x.2.cipher_.encryptionKeyId_ = none := by
          intro x hx hne
          rw [hM.keyed x hx, hother x.1 (by rw [← hwuid]; exact hne), hfresh x.1,
            if_neg (hwdef x hx (by rw [← hwuid]; exact hne))]
        cases hdf : S2.decryptFromParents cl K.cipherData_ none false with
        | mk r2 S2b =>
          rw [hdf] at h
          cases r2 with
          | error e => simp at h
          | ok r =>
            simp only at h
            have hdf2 := hdf
            rw [hsplit] at hdf2
            obtain ⟨uk2, kdf, hder, hkdf, hr, hS2b⟩ := decryptFromParents_hit cl S2 S2b
              (frame_kdfMapOk hfr2 hM.kdfs) maps2 hmaps2 pre post w uk
              (fun x hx => habsent x (by rw [hsplit]; exact List.mem_append_left _ hx)
                (hpre x hx))
              (fun x hx => by
                have hxW : x ∈ K.cipherData_ := by
                  rw [hsplit]
                  exact List.mem_append_right _ (List.mem_cons_of_mem _ hx)
                refine ⟨?_, habsent x hxW (hpost x hx)⟩
                rw [hM.keyed x hxW, hkey]
                exact hpost x hx)
              (by rw [hkey, hwuid]; exact huk)
              (frame_derivedOk hfr2 cl uk hduk) r hdf2
            subst hr
            simp only [Bool.not_true, Bool.false_eq_true, if_false] at h
            rw [promptAndInsert_some] at h
            have hfr2b : ddc.Frame S2b := by
              rw [hS2b]
              exact frame_trans hfr2 (frame_withKeys _ _ _)
            have hmaps2b : S2b.lockedDecryptedData_ = some
                { maps2 with encryptionKeys_ :=
                    mapEmplace (mapErase (maps2.moveOut w.2.cipher_.encryptionKeyId_).encryptionKeys_
                      w.2.cipher_.encryptionKeyId_) w.2.cipher_.encryptionKeyId_ (some uk2) } := by
              rw [hS2b]
              rfl
            rw [frame_deriveEncryptionKey hfr2b cl maps _ hmaps hmaps2b] at h
            cases hdm : ddc.deriveEncryptionKey cl
                { rawKey_ := cl.decrypt w.2.cipher_ (cl.deriveKey kdf uk.rawKey_)
                    w.2.cipherText_ } kdfID with
            | error e => rw [hdm] at h; simp at h
            | ok mk =>
              rw [hdm] at h
              simp only at h
              rw [insertDecryptedKey_eq _ _ hmaps2b] at h
              simp only [Option.some.injEq, Prod.mk.injEq, true_and] at h
              obtain ⟨em, dm, -⟩ := deriveEncryptionKey_ok cl ddc hM.kdfs _ mk kdfID
                (derivedOk_nil cl ddc _) hdm
              have hder2 : ddc.deriveEncryptionKey cl uk w.2.cipher_.kdfId_ = .ok uk2 := by
                rw [← frame_deriveEncryptionKey hfr2 cl maps maps2 hmaps hmaps2]
                exact hder
              obtain ⟨eu, du, -⟩ := deriveEncryptionKey_ok cl ddc hM.kdfs uk uk2 _ hduk hder2
              have hkdf2 : mapFind ddc.kdfMap_ w.2.cipher_.kdfId_ = some (some kdf) := by
                rw [← hfr2.kdfs]
                exact hkdf
              have hne : w.1 ≠ keyID := by
                intro e
                have := hM.parents w hw
                rw [e, hM.found] at this
                cases this
              subst h
              refine ⟨frame_trans hfr2b (frame_withKeys _ _ _), _, w, uk2, mk, kdf, rfl, hw,
                hkdf2, ?_, ?_, dm, ?_, du, ?_, ?_, ?_⟩
              · simp only
                rw [mapFind_reinsert, if_pos rfl]
              · rw [em, eu]
              · simp only
                rw [mapFind_reinsert, if_neg hne, hkey, mapFind_reinsert, if_pos rfl]
              · intro id h1 h2
                simp only
                rw [mapFind_reinsert, if_neg h1, hkey, mapFind_reinsert, if_neg h2,
                  mapFind_moveOut, if_neg h2]
                exact hother id (by rw [← hwuid]; exact h2)
              · intro x hx hne2
                exact hwdef x hx (by rw [← hwuid]; exact hne2)
              · rcases hcase with ⟨c1, c2, c3⟩ | ⟨c1, f, n, w2, kdf2, c2, c3, c4, c5, c6, c7, c8, c9⟩
                · left
                  refine ⟨by rw [hwuid]; exact c1, by rw [eu]; exact c2, ?_⟩
                  rw [hS2b]
                  exact c3
                · right
                  refine ⟨by rw [hwuid]; exact c1, f, n, c2, c3, ?_, by rw [eu]; exact c5, ?_⟩
                  · rw [hS2b]
                    exact c4
                  · have hw2 : w2 = w := by
                      have hs := hM.sorted
                      exact mapSorted_inj bdLaws hs c6 hw (by rw [c7, hwuid])
                    subst hw2
                    rw [hkdf2] at c8
                    simp only [Option.some.injEq] at c8
                    rw [c8, eu, hwuid]
                    exact c9

theorem deleteKeyFromDisk_frame (ddc : DecryptedDataContainer) (key : BinaryData) :
    (ddc.deleteKeyFromDisk key).2.encryptionKeyMap_ = ddc.encryptionKeyMap_ ∧
    (ddc.deleteKeyFromDisk key).2.promptCalls_ = ddc.promptCalls_ ∧
    (ddc.deleteKeyFromDisk key).2.lock_ = ddc.lock_ := by
  unfold DecryptedDataContainer.deleteKeyFromDisk
  split_ifs <;> exact ⟨rfl, rfl, rfl⟩

theorem updateKeyOnDiskNoPrefix_frame (kc : KeyCodec) (ddc : DecryptedDataContainer)
    (dbKey : BinaryData) (k : Asset_EncryptionKey) :
    (ddc.updateKeyOnDiskNoPrefix kc dbKey k).2.encryptionKeyMap_ = ddc.encryptionKeyMap_ ∧
    (ddc.updateKeyOnDiskNoPrefix kc dbKey k).2.promptCalls_ = ddc.promptCalls_ ∧
    (ddc.updateKeyOnDiskNoPrefix kc dbKey k).2.lock_ = ddc.lock_ := by
  unfold DecryptedDataContainer.updateKeyOnDiskNoPrefix
  simp only
  split_ifs with h1
  · cases kc.deserialize ((mapFind ddc.store_ dbKey).getD []) with
    | none => exact ⟨rfl, rfl, rfl⟩
    | some d =>
      simp only
      split_ifs
      · exact ⟨rfl, rfl, rfl⟩
      · have := deleteKeyFromDisk_frame ddc dbKey
        cases hdel : ddc.deleteKeyFromDisk dbKey with
        | mk r1 d1 =>
          rw [hdel] at this
          cases r1 with
          | error e => exact this
          | ok u => exact this
  · exact ⟨rfl, rfl, rfl⟩

theorem writeEncryptedKey_frame (kc : KeyCodec) (kp : KeyPrefixes)
    (ddc : DecryptedDataContainer) (keyID : BinaryData) (k : Asset_EncryptionKey) :
    (ddc.writeEncryptedKey kc kp keyID k).2.encryptionKeyMap_ = ddc.encryptionKeyMap_ ∧
    (ddc.writeEncryptedKey kc kp keyID k).2.promptCalls_ = ddc.promptCalls_ ∧
    (ddc.writeEncryptedKey kc kp keyID k).2.lock_ = ddc.lock_ := by
  unfold DecryptedDataContainer.writeEncryptedKey
  simp only
  have f1 := updateKeyOnDiskNoPrefix_frame kc ddc (kp.ENCRYPTIONKEY_PREFIX_TEMP :: keyID) k
  cases h1 : ddc.updateKeyOnDiskNoPrefix kc (kp.ENCRYPTIONKEY_PREFIX_TEMP :: keyID) k with
  | mk r1 d1 =>
    rw [h1] at f1
    cases r1 with
    | error e => exact f1
    | ok u =>
      simp only
      have f2 := deleteKeyFromDisk_frame d1 (kp.ENCRYPTIONKEY_PREFIX :: keyID)
      cases h2 : d1.deleteKeyFromDisk (kp.ENCRYPTIONKEY_PREFIX :: keyID) with
      | mk r2 d2 =>
        rw [h2] at f2
        cases r2 with
        | error e => exact ⟨f2.1.trans f1.1, f2.2.1.trans f1.2.1, f2.2.2.trans f1.2.2⟩
        | ok u2 =>
          simp only
          have f3 := updateKeyOnDiskNoPrefix_frame kc d2 (kp.ENCRYPTIONKEY_PREFIX :: keyID) k
          cases h3 : d2.updateKeyOnDiskNoPrefix kc (kp.ENCRYPTIONKEY_PREFIX :: keyID) k with
          | mk r3 d3 =>
            rw [h3] at f3
            cases r3 with
            | error e =>
              exact ⟨f3.1.trans (f2.1.trans f1.1), f3.2.1.trans (f2.2.1.trans f1.2.1),
                f3.2.2.trans (f2.2.2.trans f1.2.2)⟩
            | ok u3 =>
              simp only
              have f4 := deleteKeyFromDisk_frame d3 (kp.ENCRYPTIONKEY_PREFIX_TEMP :: keyID)
              exact ⟨f4.1.trans (f3.1.trans (f2.1.trans f1.1)),
                f4.2.1.trans (f3.2.1.trans (f2.2.1.trans f1.2.1)),
                f4.2.2.trans (f3.2.2.trans (f2.2.2.trans f1.2.2))⟩

/-- `encryptData` under a cipher whose key is decrypted in the container: the
data is encrypted under the key that the KDF of the cipher derives from it. -/
theorem encryptData_found (cl : CipherLayer) (ddc S : DecryptedDataContainer)
    (hk : ddc.KdfMapOk) (hlock : ddc.ownsLock = true) (maps : DecryptedDataMaps)
    (hmaps : ddc.lockedDecryptedData_ = some maps) (cipher : Cipher)
    (xk : DecryptedEncryptionKey)
    (hx : mapFind maps.encryptionKeys_ cipher.encryptionKeyId_ = some (some xk))
    (hd : DerivedOk cl ddc xk) (fuel : Nat) (data ct : BinaryData)
    (h : ddc.encryptData cl fuel (some cipher) data = some (.ok ct, S)) :
    ddc.Frame S ∧ S.promptCalls_ = ddc.promptCalls_ ∧
    ∃ kdf, mapFind ddc.kdfMap_ cipher.kdfId_ = some (some kdf) ∧
      ct = cl.encrypt cipher (cl.deriveKey kdf xk.rawKey_) data := by
  unfold DecryptedDataContainer.encryptData at h
  simp only [hlock, hmaps, Bool.not_true, Bool.false_eq_true, if_false, Option.isNone_some]
    at h
  have hkm : (mapEmplace [] cipher.encryptionKeyId_ cipher.kdfId_ : List (BinaryData × BinaryData))
      = [(cipher.encryptionKeyId_, cipher.kdfId_)] := rfl
  rw [hkm] at h
  cases fuel with
  | zero => simp [DecryptedDataContainer.populateEncryptionKey] at h
  | succ m =>
    have h1 : [(cipher.encryptionKeyId_, cipher.kdfId_)].find?
        (fun keyPair => (mapFind maps.encryptionKeys_ keyPair.1).isSome)
        = some (cipher.encryptionKeyId_, cipher.kdfId_) := by
      simp [List.find?, hx]
    rw [populateEncryptionKey_found cl ddc maps _ m _ xk hlock hmaps h1 hx,
      promptAndInsert_some, deriveEncryptionKey_withKeys cl ddc maps maps _ hmaps] at h
    cases hder : ddc.deriveEncryptionKey cl xk cipher.kdfId_ with
    | error e => rw [hder] at h; simp at h
    | ok xk2 =>
      rw [hder] at h
      simp only at h
      rw [insertDecryptedKey_eq _ (maps.moveOut cipher.encryptionKeyId_) rfl] at h
      simp only [DecryptedDataContainer.withKeys, mapFind_reinsert, if_true] at h
      obtain ⟨e1, d1, kdf, hkdf, hfind⟩ :=
        deriveEncryptionKey_ok cl ddc hk xk xk2 cipher.kdfId_ hd hder
      simp only [DecryptedEncryptionKey.getDerivedKey, hfind, Option.some.injEq, Prod.mk.injEq,
        Except.ok.injEq] at h
      obtain ⟨h2, h3⟩ := h
      subst h3
      exact ⟨⟨rfl, rfl, rfl, rfl, rfl, rfl, rfl⟩, rfl, kdf, hkdf, h2.symm⟩

theorem freshKeys_initAfterLock (ddc : DecryptedDataContainer) :
    ddc.FreshKeys (mapEmplace [] ddc.defaultEncryptionKeyId_
      (some ({ rawKey_ := ddc.defaultEncryptionKey_ } : DecryptedEncryptionKey))) := by
  intro id
  rw [mapFind_mapEmplace]
  simp only [mapFind]
  by_cases h : id = ddc.defaultEncryptionKeyId_
  · rw [if_pos h, if_pos h.symm]
  · rw [if_neg h, if_neg (fun e => h e.symm)]

theorem writeEncryptedKey_result (kc : KeyCodec) (kp : KeyPrefixes)
    (ddc : DecryptedDataContainer) (keyID : BinaryData) (k : Asset_EncryptionKey)
    (r : Except ContainerError Unit) (S : DecryptedDataContainer)
    (h : ddc.writeEncryptedKey kc kp keyID k = (r, S)) :
    S.encryptionKeyMap_ = ddc.encryptionKeyMap_ ∧ S.promptCalls_ = ddc.promptCalls_ ∧
    S.lock_ = ddc.lock_ := by
  have := writeEncryptedKey_frame kc kp ddc keyID k
  rw [h] at this
  exact this

/-- The body of `encryptEncryptionKey` under a lock just taken, on success. -/
theorem encryptEncryptionKeyLocked_ok (cl : CipherLayer) (kc : KeyCodec) (kp : KeyPrefixes)
    (fuel : Nat) (ddc S : DecryptedDataContainer)
    (keyID kdfID newPassphrase : BinaryData) (replace : Bool) (iv : BinaryData)
    (K : Asset_EncryptionKey) (hM : ddc.MasterKey keyID K)
    (hlock : ddc.ownsLock = true) (maps : DecryptedDataMaps)
    (hmaps : ddc.lockedDecryptedData_ = some maps)
    (hfresh : ddc.FreshKeys maps.encryptionKeys_)
    (h : ddc.encryptEncryptionKeyLocked cl kc kp fuel keyID kdfID newPassphrase replace iv
      = some (.ok (), S)) :
    ∃ old u kdfOld kdfNew x newKeyId M newCd W2,
      old ∈ K.cipherData_ ∧
      mapFind ddc.kdfMap_ old.2.cipher_.kdfId_ = some (some kdfOld) ∧
      ((old.1 = ddc.defaultEncryptionKeyId_ ∧ u = ddc.defaultEncryptionKey_ ∧
          S.promptCalls_ = ddc.promptCalls_) ∨
       (old.1 ≠ ddc.defaultEncryptionKeyId_ ∧
        cl.computeId (cl.deriveKey kdfOld u) = old.1 ∧
        ∃ f n, ddc.getPassphraseLambda_ = some f ∧ ddc.promptCalls_ ≤ n ∧
          S.promptCalls_ = n + 1 ∧ u = f n (K.parentKeyMap.map Prod.fst))) ∧
      M = cl.decrypt old.2.cipher_ (cl.deriveKey kdfOld u) old.2.cipherText_ ∧
      mapFind ddc.kdfMap_ kdfID = some (some kdfNew) ∧
      newKeyId = cl.computeId (cl.deriveKey kdfNew newPassphrase) ∧
      (newKeyId ≠ keyID → newKeyId ≠ old.1 → newKeyId ≠ ddc.defaultEncryptionKeyId_ →
        x = newPassphrase) ∧
      newCd = { cipherText_ := cl.encrypt (old.2.cipher_.getCopy newKeyId iv)
                  (cl.deriveKey kdfOld x) M,
                cipher_ := old.2.cipher_.getCopy newKeyId iv } ∧
      mapFind (if replace then mapErase K.cipherData_ old.1 else K.cipherData_) newKeyId
        = none ∧
      W2 = mapInsert (if replace then mapErase K.cipherData_ old.1 else K.cipherData_)
        newKeyId newCd ∧
      mapFind S.encryptionKeyMap_ keyID = some { K with cipherData_ := W2 } ∧
      S.lock_ = ddc.lock_ := by
  unfold DecryptedDataContainer.encryptEncryptionKeyLocked at h
  have hkm : (mapEmplace [] keyID kdfID : List (BinaryData × BinaryData))
      = [(keyID, kdfID)] := rfl
  simp only [hlock, hmaps, Bool.not_true, Bool.false_eq_true, if_false, Option.isNone_some,
    hM.found] at h
  cases hpop : ddc.populateEncryptionKey cl fuel (mapEmplace [] keyID kdfID) with
  | none => rw [hpop] at h; simp at h
  | some r =>
    obtain ⟨r1, S3⟩ := r
    cases r1 with
    | error e => rw [hpop] at h; simp at h
    | ok u0 =>
      rw [hpop] at h
      simp only at h
      obtain ⟨hfr3, maps3, old, uk, mk, kdfOld, hmaps3, hold, hkdfOld, hmk, hmkraw, hdmk, huk,
        hduk, hother, hwdef, hcase⟩ :=
        populateEncryptionKey_master cl ddc S3 keyID kdfID K hM hlock maps hmaps hfresh fuel hpop
      rw [hmaps3] at h
      simp only [hmk, hfr3.kdfs] at h
      rcases hkN : mapFind ddc.kdfMap_ kdfID with _ | _ | kdfNew
      · rw [hkN] at h; simp at h
      · rw [hkN] at h; simp at h
      rw [hkN] at h
      simp only at h
      have hidN : kdfNew.id_ = kdfID := hM.kdfs kdfID kdfNew hkN
      have hfindN : mapFind (DecryptedEncryptionKey.deriveKey cl { rawKey_ := newPassphrase }
          kdfNew).derivedKeys_ kdfID = some (cl.deriveKey kdfNew newPassphrase) := by
        simp only [DecryptedEncryptionKey.deriveKey]
        rw [mapFind_mapEmplace, hidN]
        simp [mapFind]
      have hgetid : (DecryptedEncryptionKey.deriveKey cl { rawKey_ := newPassphrase }
          kdfNew).getId cl kdfID = .ok (cl.computeId (cl.deriveKey kdfNew newPassphrase)) := by
        simp only [DecryptedEncryptionKey.getId, DecryptedEncryptionKey.getDerivedKey, hfindN]
      have hdN : DerivedOk cl ddc (DecryptedEncryptionKey.deriveKey cl
          { rawKey_ := newPassphrase } kdfNew) := by
        intro id v hv
        simp only [DecryptedEncryptionKey.deriveKey] at hv ⊢
        rw [mapFind_mapEmplace] at hv
        simp only [mapFind] at hv
        split_ifs at hv with e
        simp only [Option.some.injEq] at hv
        rw [hidN] at e
        exact ⟨kdfNew, by rw [← e]; exact hkN, hv.symm⟩
      rw [hgetid] at h
      simp only at h
      -- the cipher the loop over the decrypted keys comes to
      have hWold : mapFind K.cipherData_ old.1 = some old.2 :=
        mapFind_of_mem_sorted bdLaws hM.sorted hold
      have hkeyold : old.2.cipher_.encryptionKeyId_ = old.1 := hM.keyed old hold
      have hnek : old.1 ≠ keyID := by
        intro e
        have := hM.parents old hold
        rw [e, hM.found] at this
        cases this
      have hcipher : maps3.encryptionKeys_.findSome?
          (fun keyPair => K.getCipherPtrForId keyPair.1) = some old.2.cipher_ := by
        apply findSome_unique _ _ old.1
        · rw [huk]; rfl
        · simp only [Asset_EncryptionKey.getCipherPtrForId, hWold, Option.map_some']
        · intro id h1 h2
          by_contra hne
          simp only [Asset_EncryptionKey.getCipherPtrForId, Option.isSome_map'] at h2
          cases hW : mapFind K.cipherData_ id with
          | none => rw [hW] at h2; cases h2
          | some cd =>
            have hmem := mapFind_eq_some_mem hW
            by_cases hk : id = keyID
            · have := hM.parents (id, cd) hmem
              rw [hk, hM.found] at this
              cases this
            · rw [hother id hk hne, hfresh id,
                if_neg (hwdef (id, cd) hmem hne)] at h1
              cases h1
      rw [hcipher] at h
      simp only at h
      unfold DecryptedDataContainer.rewrap at h
      simp only [hmaps3] at h
      -- the key the container holds under the new key ID
      obtain ⟨xk, hx, hdx, hxraw⟩ : ∃ xk : DecryptedEncryptionKey,
          mapFind (mapEmplace maps3.encryptionKeys_
            (cl.computeId (cl.deriveKey kdfNew newPassphrase))
            (some (DecryptedEncryptionKey.deriveKey cl { rawKey_ := newPassphrase } kdfNew)))
            (cl.computeId (cl.deriveKey kdfNew newPassphrase)) = some (some xk) ∧
          DerivedOk cl ddc xk ∧
          (cl.computeId (cl.deriveKey kdfNew newPassphrase) ≠ keyID →
            cl.computeId (cl.deriveKey kdfNew newPassphrase) ≠ old.1 →
            cl.computeId (cl.deriveKey kdfNew newPassphrase) ≠ ddc.defaultEncryptionKeyId_ →
            xk.rawKey_ = newPassphrase) := by
        rw [mapFind_mapEmplace]
        by_cases e1 : cl.computeId (cl.deriveKey kdfNew newPassphrase) = keyID
        · rw [e1, hmk]
          exact ⟨mk, rfl, hdmk, fun c => absurd rfl c⟩
        · by_cases e2 : cl.computeId (cl.deriveKey kdfNew newPassphrase) = old.1
          · rw [e2, huk]
            exact ⟨uk, rfl, hduk, fun _ c => absurd rfl c⟩
          · rw [hother _ e1 e2, hfresh]
            by_cases e3 : cl.computeId (cl.deriveKey kdfNew newPassphrase)
                = ddc.defaultEncryptionKeyId_
            · rw [if_pos e3]
              exact ⟨_, rfl, derivedOk_nil cl ddc _, fun _ _ c => absurd e3 c⟩
            · rw [if_neg e3]
              exact ⟨_, by simp, hdN, fun _ _ _ => rfl⟩
      generalize hen : DecryptedDataContainer.encryptData cl fuel _ _ mk.rawKey_ = res at h
      rcases res with _ | ⟨_ | ct, S5⟩
      · simp at h
      · simp at h
      simp only at h
      have hfr4 : ddc.Frame (S3.withKeys maps3 (mapEmplace maps3.encryptionKeys_
          (cl.computeId (cl.deriveKey kdfNew newPassphrase))
          (some (DecryptedEncryptionKey.deriveKey cl { rawKey_ := newPassphrase } kdfNew)))) :=
        frame_trans hfr3 (frame_withKeys _ _ _)
      obtain ⟨hfr5, hpc5, kdf, hkdf5, hct⟩ := encryptData_found cl
        (S3.withKeys maps3 (mapEmplace maps3.encryptionKeys_
          (cl.computeId (cl.deriveKey kdfNew newPassphrase))
          (some (DecryptedEncryptionKey.deriveKey cl { rawKey_ := newPassphrase } kdfNew))))
        S5 (frame_kdfMapOk hfr4 hM.kdfs) ((frame_ownsLock hfr4).trans hlock)
        { maps3 with encryptionKeys_ := (mapEmplace maps3.encryptionKeys_
          (cl.computeId (cl.deriveKey kdfNew newPassphrase))
          (some (DecryptedEncryptionKey.deriveKey cl { rawKey_ := newPassphrase } kdfNew))) } rfl
        (old.2.cipher_.getCopy (cl.computeId (cl.deriveKey kdfNew newPassphrase)) iv) xk hx
        (frame_derivedOk hfr4 cl xk hdx) fuel mk.rawKey_ ct hen
      have hkdfeq : kdf = kdfOld := by
        have h1 : mapFind ddc.kdfMap_ old.2.cipher_.kdfId_ = some (some kdf) := by
          rw [← hfr4.kdfs]
          exact hkdf5
        rw [hkdfOld] at h1
        simp only [Option.some.injEq] at h1
        exact h1.symm
      subst hkdfeq
      have hrem : (if replace = true then K.removeCipherData old.2.cipher_.encryptionKeyId_
            else (true, K))
          = (true, { K with cipherData_ :=
              (if replace then mapErase K.cipherData_ old.1 else K.cipherData_) }) := by
        cases replace
        · rfl
        · simp [Asset_EncryptionKey.removeCipherData, hkeyold, hWold]
      rw [hrem] at h
      simp only [Bool.not_true, Bool.false_eq_true, if_false,
        Asset_EncryptionKey.addCipherData] at h
      have hcopy : (old.2.cipher_.getCopy (cl.computeId (cl.deriveKey kdfNew newPassphrase))
          iv).encryptionKeyId_ = cl.computeId (cl.deriveKey kdfNew newPassphrase) := rfl
      rw [hcopy] at h
      cases hadd : mapFind (if replace = true then mapErase K.cipherData_ old.1
          else K.cipherData_) (cl.computeId (cl.deriveKey kdfNew newPassphrase)) with
      | some cd => rw [hadd] at h; simp at h
      | none =>
        rw [hadd] at h
        simp only [Bool.not_true, Bool.false_eq_true, if_false, Option.some.injEq] at h
        obtain ⟨hf1, hf2, hf3⟩ := writeEncryptedKey_result kc kp _ keyID _ _ _ h
        have hpc : S.promptCalls_ = S3.promptCalls_ := hf2.trans hpc5
        refine ⟨old, uk.rawKey_, kdf, kdfNew, xk.rawKey_, _, mk.rawKey_,
          { cipherText_ := ct,
            cipher_ := old.2.cipher_.getCopy (cl.computeId (cl.deriveKey kdfNew newPassphrase))
              iv }, _, hold, hkdfOld, ?_,
          hmkraw, rfl, rfl, hxraw, ?_, hadd, rfl, ?_, ?_⟩
        · rcases hcase with ⟨c1, c2, c3⟩ | ⟨c1, f, n, c2, c3, c4, c5, c6⟩
          · exact Or.inl ⟨c1, c2, hpc.trans c3⟩
          · exact Or.inr ⟨c1, c6, f, n, c2, c3, hpc.trans c4, c5⟩
        · rw [hct]
        · rw [hf1]
          exact mapFind_mapInsert_self _ _ _
        · rw [hf3]
          exact hfr5.lock.trans hfr4.lock

theorem toyContainerUnlocked_masterKey : toyContainerUnlocked.MasterKey [0xAA] toyMasterKey := by
  refine ⟨rfl, by decide, ?_, ?_, by unfold MapSorted; decide, ?_⟩
  · intro w hw
    simp only [toyMasterKey, List.mem_singleton] at hw
    subst hw
    rfl
  · intro w hw
    simp only [toyMasterKey, List.mem_singleton] at hw
    subst hw
    rfl
  · intro id kdf h
    simp only [toyContainerUnlocked, toyContainer, mapFind] at h
    split_ifs at h with e
    simp only [Option.some.injEq] at h
    rw [← h, ← e]

/-- C18, counterexample: on the toy container the key is unlocked with the
passphrase `[5]` (the second answer of the prompt, whose key ID is `[7, 5]`)
and the same passphrase `[5]` is set with `replace` true. The call succeeds,
and the master key has a wrap under the key ID `[7, 5]` afterwards: the old
passphrase still unlocks it. -/
theorem encryptEncryptionKey_same_passphrase :
    (toyContainerUnlocked.encryptEncryptionKey toyCipherLayer toyKeyCodec toyKeyPrefixes 5
        [0xAA] [1] [5] true [1, 1]).map
      (fun r => (r.1, (mapFind r.2.encryptionKeyMap_ [0xAA]).map
        (fun k => k.cipherData_.map Prod.fst), r.2.promptCalls_))
      = some (.ok (), some [[7, 5]], 2) ∧
    toyContainerUnlocked.getPassphraseLambda_.map (fun f => f 1 [[7, 5]]) = some [5] ∧
    toyCipherLayer.computeId (toyCipherLayer.deriveKey { id_ := [1], params_ := [7] } [5])
      = [7, 5] := by
  decide

/-- C18, amended: a successful `encryptEncryptionKey(keyID, kdfID,
newPassphrase, replace)` on a master key `K`. There is a wrap `old` of `K`,
the one used to unlock the key: the master key `M` is its cipher text
decrypted under the key that its KDF derives from `u`, where `u` is the
default key (the wrap is under the default key ID) or the last passphrase the
prompt gave, whose key ID is that of the wrap. The new wrap `newCd` is `M`
encrypted under the key that the same KDF derives from `x`, the new passphrase
(unless the container holds a key under the new key ID), and it is kept under
the ID of the key that the KDF `kdfID` derives from the new passphrase. The
wraps `W2` afterwards are the previous ones plus the new wrap when `replace`
is false, and the previous ones without `old` plus the new wrap when `replace`
is true; the new wrap decrypts to `M`. With `replace` false every previous
wrap is kept, so the old passphrase still unlocks the key; with `replace`
true a wrap under the ID of `old` is left exactly when the new key has that
ID. -/
theorem encryptEncryptionKey_wraps (cl : CipherLayer) (kc : KeyCodec) (kp : KeyPrefixes)
    (fuel : Nat) (ddc ddc2 : DecryptedDataContainer)
    (keyID kdfID newPassphrase : BinaryData) (replace : Bool) (iv : BinaryData)
    (K : Asset_EncryptionKey) (hM : ddc.MasterKey keyID K)
    (h : ddc.encryptEncryptionKey cl kc kp fuel keyID kdfID newPassphrase replace iv
      = some (.ok (), ddc2)) :
    ∃ old u kdfOld kdfNew x newKeyId M newCd W2,
      old ∈ K.cipherData_ ∧
      mapFind ddc.kdfMap_ old.2.cipher_.kdfId_ = some (some kdfOld) ∧
      ((old.1 = ddc.defaultEncryptionKeyId_ ∧ u = ddc.defaultEncryptionKey_ ∧
          ddc2.promptCalls_ = ddc.promptCalls_) ∨
       (old.1 ≠ ddc.defaultEncryptionKeyId_ ∧
        cl.computeId (cl.deriveKey kdfOld u) = old.1 ∧
        ∃ f n, ddc.getPassphraseLambda_ = some f ∧ ddc.promptCalls_ ≤ n ∧
          ddc2.promptCalls_ = n + 1 ∧ u = f n (K.parentKeyMap.map Prod.fst))) ∧
      M = cl.decrypt old.2.cipher_ (cl.deriveKey kdfOld u) old.2.cipherText_ ∧
      mapFind ddc.kdfMap_ kdfID = some (some kdfNew) ∧
      newKeyId = cl.computeId (cl.deriveKey kdfNew newPassphrase) ∧
      (newKeyId ≠ keyID → newKeyId ≠ old.1 → newKeyId ≠ ddc.defaultEncryptionKeyId_ →
        x = newPassphrase) ∧
      newCd = { cipherText_ := cl.encrypt (old.2.cipher_.getCopy newKeyId iv)
                  (cl.deriveKey kdfOld x) M,
                cipher_ := old.2.cipher_.getCopy newKeyId iv } ∧
      W2 = mapInsert (if replace then mapErase K.cipherData_ old.1 else K.cipherData_)
        newKeyId newCd ∧
      mapFind ddc2.encryptionKeyMap_ keyID = some { K with cipherData_ := W2 } ∧
      (newKeyId, newCd) ∈ W2 ∧
      (∀ w ∈ W2, w = (newKeyId, newCd) ∨
        (w ∈ K.cipherData_ ∧ w.1 ≠ newKeyId ∧ (replace = true → w.1 ≠ old.1))) ∧
      (replace = false → ∀ w ∈ K.cipherData_, w ∈ W2) ∧
      (replace = true → ∀ w ∈ K.cipherData_, w.1 ≠ old.1 → w ∈ W2) ∧
      (replace = true → ((mapFind W2 old.1).isSome = true ↔ newKeyId = old.1)) ∧
      ((∀ c k d, cl.decrypt c k (cl.encrypt c k d) = d) →
        cl.decrypt newCd.cipher_ (cl.deriveKey kdfOld x) newCd.cipherText_ = M) := by
  unfold DecryptedDataContainer.encryptEncryptionKey DecryptedDataContainer.singleLock at h
  cases hlk : ddc.lock_ with
  | caller => rw [hlk] at h; simp at h
  | other => rw [hlk] at h; simp at h
  | free =>
    rw [hlk] at h
    simp only at h
    cases hb : DecryptedDataContainer.encryptEncryptionKeyLocked cl kc kp fuel
        (DecryptedDataContainer.initAfterLock { ddc with lock_ := .caller })
        keyID kdfID newPassphrase replace iv with
    | none => rw [hb] at h; simp at h
    | some r =>
      obtain ⟨r1, S⟩ := r
      rw [hb] at h
      simp only [Option.some.injEq, Prod.mk.injEq] at h
      obtain ⟨h1, h2⟩ := h
      subst h1
      obtain ⟨old, u, kdfOld, kdfNew, x, newKeyId, M, newCd, W2, c1, c2, c3, c4, c5, c6, c7, c8,
          c9, c10, c11, -⟩ :=
        encryptEncryptionKeyLocked_ok cl kc kp fuel
          (DecryptedDataContainer.initAfterLock { ddc with lock_ := .caller }) S
          keyID kdfID newPassphrase replace iv K
          ⟨hM.found, hM.notDefault, hM.parents, hM.keyed, hM.sorted, hM.kdfs⟩ rfl
          { encryptionKeys_ := mapEmplace [] ddc.defaultEncryptionKeyId_
              (some ({ rawKey_ := ddc.defaultEncryptionKey_ } : DecryptedEncryptionKey)) }
          rfl (freshKeys_initAfterLock _) hb
      have hpc : ddc2.promptCalls_ = S.promptCalls_ := by rw [← h2]; rfl
      have hkm : ddc2.encryptionKeyMap_ = S.encryptionKeyMap_ := by rw [← h2]; rfl
      have hnew : (newKeyId, newCd) ∈ W2 := by
        rw [c10]
        exact mem_mapInsert_self _ _ _
      have hin : ∀ w ∈ (if replace = true then mapErase K.cipherData_ old.1
          else K.cipherData_), w.1 ≠ newKeyId := by
        intro w hw e
        have := mapFind_isSome_of_mem hw
        rw [e, c9] at this
        cases this
      refine ⟨old, u, kdfOld, kdfNew, x, newKeyId, M, newCd, W2, c1, c2, ?_, c4, c5, c6, c7, c8,
        c10, by rw [hkm]; exact c11, hnew, ?_, ?_, ?_, ?_, ?_⟩
      · rcases c3 with ⟨d1, d2, d3⟩ | ⟨d1, d2, f, n, d3, d4, d5, d6⟩
        · exact Or.inl ⟨d1, d2, hpc.trans d3⟩
        · exact Or.inr ⟨d1, d2, f, n, d3, d4, hpc.trans d5, d6⟩
      · intro w hw
        rw [c10] at hw
        rcases mem_mapInsert_imp hw with e | e
        · exact Or.inl e
        · right
          refine ⟨?_, hin w e, ?_⟩
          · cases replace
            · exact e
            · exact ((mem_mapErase _ _ _).1 e).1
          · intro hr
            rw [hr] at e
            exact ((mem_mapErase _ _ _).1 e).2
      · intro hr w hw
        subst hr
        rw [c10]
        exact mem_mapInsert_of_mem hw (hin w hw)
      · intro hr w hw hne
        subst hr
        rw [c10]
        have hw2 : w ∈ mapErase K.cipherData_ old.1 := (mem_mapErase _ _ _).2 ⟨hw, hne⟩
        exact mem_mapInsert_of_mem hw2 (hin w hw2)
      · intro hr
        subst hr
        rw [c10]
        constructor
        · intro hs
          by_contra hne
          rw [mapFind_mapInsert_ne _ _ _ _ hne] at hs
          simp only [if_true] at hs
          rw [mapFind_mapErase_self] at hs
          cases hs
        · intro e
          rw [← e, mapFind_mapInsert_self]
          rfl
      · intro hcontract
        rw [c8]
        exact hcontract _ _ _

/-- C18, witness: on the toy container the prompt answers `[6]`, then `[5]`,
which unlocks the master key; the passphrase `[8]` is added. -/
theorem encryptEncryptionKey_wraps_witness :
    toyContainerUnlocked.MasterKey [0xAA] toyMasterKey ∧
    toyContainerUnlocked.encryptEncryptionKey toyCipherLayer toyKeyCodec toyKeyPrefixes 5
      [0xAA] [1] [8] false [1, 1] = some (.ok (), toyContainerRewrapped) ∧
    ∃ old u kdfOld kdfNew x newKeyId M newCd W2,
      old ∈ toyMasterKey.cipherData_ ∧
      mapFind toyContainerUnlocked.kdfMap_ old.2.cipher_.kdfId_ = some (some kdfOld) ∧
      ((old.1 = toyContainerUnlocked.defaultEncryptionKeyId_ ∧
          u = toyContainerUnlocked.defaultEncryptionKey_ ∧
          toyContainerRewrapped.promptCalls_ = toyContainerUnlocked.promptCalls_) ∨
       (old.1 ≠ toyContainerUnlocked.defaultEncryptionKeyId_ ∧
        toyCipherLayer.computeId (toyCipherLayer.deriveKey kdfOld u) = old.1 ∧
        ∃ f n, toyContainerUnlocked.getPassphraseLambda_ = some f ∧
          toyContainerUnlocked.promptCalls_ ≤ n ∧
          toyContainerRewrapped.promptCalls_ = n + 1 ∧
          u = f n (toyMasterKey.parentKeyMap.map Prod.fst))) ∧
      M = toyCipherLayer.decrypt old.2.cipher_ (toyCipherLayer.deriveKey kdfOld u)
        old.2.cipherText_ ∧
      mapFind toyContainerUnlocked.kdfMap_ [1] = some (some kdfNew) ∧
      newKeyId = toyCipherLayer.computeId (toyCipherLayer.deriveKey kdfNew [8]) ∧
      (newKeyId ≠ [0xAA] → newKeyId ≠ old.1 →
        newKeyId ≠ toyContainerUnlocked.defaultEncryptionKeyId_ → x = [8]) ∧
      newCd = { cipherText_ := toyCipherLayer.encrypt (old.2.cipher_.getCopy newKeyId [1, 1])
                  (toyCipherLayer.deriveKey kdfOld x) M,
                cipher_ := old.2.cipher_.getCopy newKeyId [1, 1] } ∧
      W2 = mapInsert (if false then mapErase toyMasterKey.cipherData_ old.1
          else toyMasterKey.cipherData_) newKeyId newCd ∧
      mapFind toyContainerRewrapped.encryptionKeyMap_ [0xAA]
        = some { toyMasterKey with cipherData_ := W2 } ∧
      (newKeyId, newCd) ∈ W2 ∧
      (∀ w ∈ W2, w = (newKeyId, newCd) ∨
        (w ∈ toyMasterKey.cipherData_ ∧ w.1 ≠ newKeyId ∧ (false = true → w.1 ≠ old.1))) ∧
      (false = false → ∀ w ∈ toyMasterKey.cipherData_, w ∈ W2) ∧
      (false = true → ∀ w ∈ toyMasterKey.cipherData_, w.1 ≠ old.1 → w ∈ W2) ∧
      (false = true → ((mapFind W2 old.1).isSome = true ↔ newKeyId = old.1)) ∧
      ((∀ c k d, toyCipherLayer.decrypt c k (toyCipherLayer.encrypt c k d) = d) →
        toyCipherLayer.decrypt newCd.cipher_ (toyCipherLayer.deriveKey kdfOld x)
          newCd.cipherText_ = M) :=
  ⟨toyContainerUnlocked_masterKey, rfl,
    encryptEncryptionKey_wraps toyCipherLayer toyKeyCodec toyKeyPrefixes 5 toyContainerUnlocked
      toyContainerRewrapped [0xAA] [1] [8] false [1, 1] toyMasterKey
      toyContainerUnlocked_masterKey rfl⟩

theorem calls_without_data (cl : CipherLayer) (ddc : DecryptedDataContainer)
    (h : ddc.lockedDecryptedData_ = none) :
    (∀ decrKey kdfid,
      ddc.deriveEncryptionKey cl decrKey kdfid = .error (.container ddc.sanityException)) ∧
    (∀ fuel dataPtr,
      ddc.getDecryptedPrivateData cl fuel dataPtr
        = some (.error (.container ddc.sanityException), ddc)) ∧
    (∀ fuel cipher data,
      ddc.encryptData cl fuel (some cipher) data
        = some (.error (.container ddc.sanityException), ddc)) ∧
    (∀ fuel keyMap,
      ddc.populateEncryptionKey cl (fuel + 1) keyMap
        = some (.error (.container ddc.sanityException), ddc)) := by
  unfold DecryptedDataContainer.sanityException
  cases ho : ddc.ownsLock with
  | false =>
    refine ⟨?_, ?_, ?_, ?_⟩
    · intro decrKey kdfid
      simp [DecryptedDataContainer.deriveEncryptionKey, ho]
    · intro fuel dataPtr
      simp [DecryptedDataContainer.getDecryptedPrivateData,
        DecryptedDataContainer.getDecryptedPrivateDataWith, ho]
    · intro fuel cipher data
      simp [DecryptedDataContainer.encryptData, ho]
    · intro fuel keyMap
      simp [DecryptedDataContainer.populateEncryptionKey, ho]
  | true =>
    refine ⟨?_, ?_, ?_, ?_⟩
    · intro decrKey kdfid
      simp [DecryptedDataContainer.deriveEncryptionKey, ho, h]
    · intro fuel dataPtr
      simp [DecryptedDataContainer.getDecryptedPrivateData,
        DecryptedDataContainer.getDecryptedPrivateDataWith, ho, h]
    · intro fuel cipher data
      simp [DecryptedDataContainer.encryptData, ho, h]
    · intro fuel keyMap
      simp [DecryptedDataContainer.populateEncryptionKey, ho, h]

/-- C21: in a container state in which the caller does not own the lock,
`deriveEncryptionKey`, `getDecryptedPrivateData`, `encryptData` and
`populateEncryptionKey` fail with a `DecryptedDataContainerException`
("unlocked/does not own lock"; "null cipher" for `encryptData` on a null
cipher), whatever the cipher layer, the keys and the data at hand: the
container is left as it was and the prompt is not called. In every state
`cleanUpBeforeUnlock` leaves the container without decrypted data, and the
four calls fail on the state it leaves, for a caller that holds the lock
too. -/
theorem calls_without_lock (cl : CipherLayer) (ddc : DecryptedDataContainer)
    (h : ddc.ownsLock = false) :
    (∀ decrKey kdfid,
      ddc.deriveEncryptionKey cl decrKey kdfid = .error (.container .unlockedDoesNotOwnLock)) ∧
    (∀ fuel dataPtr,
      ddc.getDecryptedPrivateData cl fuel dataPtr
        = some (.error (.container .unlockedDoesNotOwnLock), ddc)) ∧
    (∀ fuel cipher data,
      ddc.encryptData cl fuel cipher data
        = some (.error (.container (if cipher.isNone then .nullCipher
            else .unlockedDoesNotOwnLock)), ddc)) ∧
    (∀ fuel keyMap,
      ddc.populateEncryptionKey cl (fuel + 1) keyMap
        = some (.error (.container .unlockedDoesNotOwnLock), ddc)) ∧
    (∀ d : DecryptedDataContainer,
      d.cleanUpBeforeUnlock.lockedDecryptedData_ = none ∧
      (∀ decrKey kdfid,
        d.cleanUpBeforeUnlock.deriveEncryptionKey cl decrKey kdfid
          = .error (.container d.cleanUpBeforeUnlock.sanityException)) ∧
      (∀ fuel dataPtr,
        d.cleanUpBeforeUnlock.getDecryptedPrivateData cl fuel dataPtr
          = some (.error (.container d.cleanUpBeforeUnlock.sanityException),
              d.cleanUpBeforeUnlock)) ∧
      (∀ fuel cipher data,
        d.cleanUpBeforeUnlock.encryptData cl fuel (some cipher) data
          = some (.error (.container d.cleanUpBeforeUnlock.sanityException),
              d.cleanUpBeforeUnlock)) ∧
      (∀ fuel keyMap,
        d.cleanUpBeforeUnlock.populateEncryptionKey cl (fuel + 1) keyMap
          = some (.error (.container d.cleanUpBeforeUnlock.sanityException),
              d.cleanUpBeforeUnlock))) := by
  refine ⟨?_, ?_, ?_, ?_, ?_⟩
  · intro decrKey kdfid
    simp [DecryptedDataContainer.deriveEncryptionKey, h]
  · intro fuel dataPtr
    simp [DecryptedDataContainer.getDecryptedPrivateData,
      DecryptedDataContainer.getDecryptedPrivateDataWith, h]
  · intro fuel cipher data
    cases cipher with
    | none => simp [DecryptedDataContainer.encryptData]
    | some c => simp [DecryptedDataContainer.encryptData, h]
  · intro fuel keyMap
    simp [DecryptedDataContainer.populateEncryptionKey, h]
  · intro d
    exact ⟨rfl, calls_without_data cl d.cleanUpBeforeUnlock rfl⟩

/-- C21, witness: the toy container with its lock held by another thread. -/
theorem calls_without_lock_witness :
    toyContainerOtherLock.populateEncryptionKey toyCipherLayer 1 [([7, 5], [1])]
      = some (.error (.container .unlockedDoesNotOwnLock), toyContainerOtherLock) :=
  (calls_without_lock toyCipherLayer toyContainerOtherLock rfl).2.2.2.1 0 [([7, 5], [1])]

/-- C22: a packet that `createDataPacket` makes for the db-key `dbKey`, read by
`readDataPacket` under another db-key `dbKey2` with the same decryption key
and MAC key, fails with the MAC mismatch error, given that the HMAC of the
payload followed by `dbKey` is not the HMAC of the payload followed by
`dbKey2` (AES-CBC decryption inverts encryption, both sides of the ECDH
exchange reach the same point, with the 33-byte public key, the 32-byte MAC
and the 16-byte IV of the primitives, and sizes a `size_t` holds). -/
theorem readDataPacket_other_dbKey (c : Crypto) (hc : c.Sound)
    (dbKey dbKey2 dataKey dataVal macKey decrPrivKey localPrivKey iv : BinaryData)
    (hiv : iv.length = 16) (hk : dataKey.length < 2 ^ 64) (hv : dataVal.length < 2 ^ 64)
    (hmac :
      c.getHMAC256 macKey
          (put_var_int dataKey.length ++ dataKey ++ (put_var_int dataVal.length ++ dataVal)
            ++ dbKey)
        ≠ c.getHMAC256 macKey
          (put_var_int dataKey.length ++ dataKey ++ (put_var_int dataVal.length ++ dataVal)
            ++ dbKey2)) :
    readDataPacket c dbKey2
        (createDataPacket c dbKey dataKey dataVal (c.ComputePublicKey decrPrivKey) macKey
          localPrivKey iv)
        decrPrivKey macKey
      = .error .macMismatch := by
  have h33 := hc.pub_length localPrivKey
  unfold readDataPacket createDataPacket
  simp only [List.append_assoc]
  rw [get_BinaryData_append_of_length _ _ h33]
  simp only []
  rw [get_BinaryData_append_of_length _ _ (show iv.length = AES_BLOCK_SIZE from hiv)]
  simp only []
  rw [hc.ecdh localPrivKey decrPrivKey, hc.decrypt_encrypt]
  simp only []
  rw [get_BinaryData_append_of_length _ _ (hc.hmac_length _ _)]
  simp only []
  rw [get_var_int_put_var_int _ _ hk]
  simp only []
  rw [get_BinaryData_append]
  simp only []
  rw [get_var_int_put_var_int _ _ hv]
  simp only []
  rw [get_BinaryData_self]
  simp only [List.length_nil, ne_eq, not_true_eq_false, ↓reduceIte, List.length_append,
    hc.hmac_length]
  have hdrop : ∀ (h x : BinaryData), h.length = 32 → (h ++ x).drop 32 = x := by
    intro h x hl; rw [← hl]; exact List.drop_left _ _
  rw [hdrop _ _ (hc.hmac_length _ _)]
  rw [List.take_of_length_le (by simp)]
  simp only [List.append_assoc] at hmac
  rw [if_pos]
  simp only [List.append_assoc]
  exact fun e => hmac e.symm

/-- C22, witness: the packet of key `[1,2,3]`, value `[10,20]` made for db-key
5 and read under db-key 6. -/
theorem readDataPacket_other_dbKey_witness :
    readDataPacket toyCrypto [0, 0, 0, 6]
        (createDataPacket toyCrypto [0, 0, 0, 5] [1, 2, 3] [10, 20]
          (toyCrypto.ComputePublicKey [42]) [8, 8] [1] (List.replicate 16 0))
        [42] [8, 8]
      = .error .macMismatch :=
  readDataPacket_other_dbKey toyCrypto toyCrypto_sound [0, 0, 0, 5] [0, 0, 0, 6] [1, 2, 3]
    [10, 20] [8, 8] [42] [1] (List.replicate 16 0) (by decide) (by decide) (by decide)
    (by decide)

theorem afterNewDbKeys_counter (d : DBInterface) (n : Nat)
    (h : d.dbKeyCounter_ + n < 2 ^ 32) :
    (d.afterNewDbKeys n).dbKeyCounter_ = d.dbKeyCounter_ + n := by
  induction n with
  | zero => rfl
  | succ n ih =>
    show incr32 (d.afterNewDbKeys n).dbKeyCounter_ = _
    rw [ih (by omega), incr32_of_lt (by omega)]
    omega

theorem afterNewDbKeys_key (d : DBInterface) (n : Nat) (h : d.dbKeyCounter_ + n < 2 ^ 32) :
    (d.afterNewDbKeys n).getNewDbKey.1 = WRITE_UINT32_BE (d.dbKeyCounter_ + n) := by
  show WRITE_UINT32_BE (d.afterNewDbKeys n).dbKeyCounter_ = _
  rw [afterNewDbKeys_counter d n h]

/-- C23: `loadAllEntries` on a freshly constructed `DBInterface`, over a store
in db-key order with 31-bit db-keys, when it succeeds. The allocator is seeded
with `seed`: 0 for an empty store, the highest db-key of the store plus one
otherwise. The key cycle marker (a packet with an empty data key and the key
cycle flag as its value) is written at the db-key `seed`, after the records of
the store, and the allocator is left at `seed + 1`. The db-key that call
number `n` of `getNewDbKey` hands out afterwards, as long as the 32-bit
counter has not wrapped, is the 4-byte big-endian integer `seed + 1 + n`: it
is above every db-key of the store, the marker included, and no other call
hands it out. -/
theorem loadAllEntries_seeds_allocator (c : Crypto) (ent : Entropy) (d0 d1 : DBInterface)
    (rootKey : BinaryData) (hm : d0.dataMap_ = [] ∧ d0.dataKeyToDbKey_ = [])
    (hsorted : SortedBelow d0.db_ (-1))
    (hload : d0.loadAllEntries c ent rootKey = .ok d1) :
    ∃ seed,
      ((d0.db_ = [] ∧ seed = 0) ∨
        (∃ e ∈ d0.db_, (∀ e2 ∈ d0.db_, e2.1 ≤ e.1) ∧ seed = e.1 + 1)) ∧
      (∃ priv mac localPrivKey iv,
        d1.db_ = d0.db_ ++ [(seed, createDataPacket c (WRITE_UINT32_BE seed) [] keyCycleFlag_
          (c.ComputePublicKey priv) mac localPrivKey iv)]) ∧
      d1.dbKeyCounter_ = seed + 1 ∧
      ∀ n, seed + 1 + n < 2 ^ 32 →
        (d1.afterNewDbKeys n).getNewDbKey.1 = WRITE_UINT32_BE (seed + 1 + n) ∧
        ((d1.afterNewDbKeys n).getNewDbKey.1).length = 4 ∧
        (∀ e ∈ d1.db_, e.1 < READ_UINT32_BE ((d1.afterNewDbKeys n).getNewDbKey.1)) ∧
        (∀ n2, seed + 1 + n2 < 2 ^ 32 → n2 ≠ n →
          (d1.afterNewDbKeys n2).getNewDbKey.1 ≠ (d1.afterNewDbKeys n).getNewDbKey.1) := by
  obtain ⟨priv0, mac0, s, priv, mac, h0, hl, hg, hk, rfl⟩ := loadAllEntries_ok hload
  have hfresh := freshLoad_init d0 hm priv0 mac0
  have hsorted2 : SortedBelow d0.db_ (initLoadState d0 priv0 mac0).prevDbKey := hsorted
  obtain ⟨hs, _⟩ := loadLoop_inv hfresh.inv hsorted2 hl
  obtain ⟨hprev, hlast⟩ := loadLoop_prev hfresh.inv hsorted2 hl
  have hsucc := toUInt32_succ hs.prev_ge hs.prev_lt
  generalize hn : toUInt32 (s.prevDbKey + 1) = seed at hsucc
  have hn32 : seed + 1 < 2 ^ 32 := by
    have := hs.prev_lt
    omega
  have hlt : ∀ e ∈ d0.db_, e.1 < seed := by
    intro e he
    have := hprev e he
    omega
  have hdb : ∀ v, lmdbInsert d0.db_ (WRITE_UINT32_BE seed) v = d0.db_ ++ [(seed, v)] := by
    intro v
    simp only [lmdbInsert, READ_WRITE_UINT32_BE seed (by omega)]
    exact mapInsert_append_of_lt _ _ _ hlt
  have key : ∀ (d : DBInterface), d.dbKeyCounter_ = seed + 1 → ∀ k, seed + 1 + k < 2 ^ 32 →
      (d.afterNewDbKeys k).getNewDbKey.1 = WRITE_UINT32_BE (seed + 1 + k) := by
    intro d hd k hkb
    rw [afterNewDbKeys_key d k (by omega), hd]
  refine ⟨seed, ?_, ⟨s.decrPrivKey, s.macKey, (ent (WRITE_UINT32_BE seed)).1,
    (ent (WRITE_UINT32_BE seed)).2, ?_⟩, ?_, ?_⟩
  · rcases hlast with ⟨hnil, hp⟩ | ⟨e, he, hp⟩
    · left
      refine ⟨hnil, ?_⟩
      have : s.prevDbKey = -1 := by rw [hp]; rfl
      omega
    · right
      refine ⟨e, he, fun e2 he2 => ?_, ?_⟩
      · have := hprev e2 he2
        omega
      · omega
  · exact hdb _
  · exact incr32_of_lt hn32
  · intro n hb
    rw [key _ (incr32_of_lt hn32) n hb]
    refine ⟨rfl, WRITE_UINT32_BE_length _, ?_, ?_⟩
    · intro e he
      rw [READ_WRITE_UINT32_BE _ hb]
      have he2 := he
      simp only [] at he2
      rw [hdb] at he2
      rcases List.mem_append.1 he2 with h1 | h1
      · have := hlt e h1
        omega
      · simp only [List.mem_singleton] at h1
        subst h1
        show seed < _
        omega
    · intro n2 hb2 hne
      rw [key _ (incr32_of_lt hn32) n2 hb2]
      intro e
      have := WRITE_UINT32_BE_inj hb2 hb e
      omega

/-- C23, witness: the load of the empty store. The marker goes to db-key 0 and
the first db-key handed out afterwards is 1. -/
theorem loadAllEntries_seeds_allocator_witness :
    ∃ seed,
      ((emptyDb.db_ = [] ∧ seed = 0) ∨
        (∃ e ∈ emptyDb.db_, (∀ e2 ∈ emptyDb.db_, e2.1 ≤ e.1) ∧ seed = e.1 + 1)) ∧
      (∃ priv mac localPrivKey iv,
        toySession.db_ = emptyDb.db_ ++ [(seed, createDataPacket toyCrypto (WRITE_UINT32_BE seed)
          [] keyCycleFlag_ (toyCrypto.ComputePublicKey priv) mac localPrivKey iv)]) ∧
      toySession.dbKeyCounter_ = seed + 1 ∧
      ∀ n, seed + 1 + n < 2 ^ 32 →
        (toySession.afterNewDbKeys n).getNewDbKey.1 = WRITE_UINT32_BE (seed + 1 + n) ∧
        ((toySession.afterNewDbKeys n).getNewDbKey.1).length = 4 ∧
        (∀ e ∈ toySession.db_,
          e.1 < READ_UINT32_BE ((toySession.afterNewDbKeys n).getNewDbKey.1)) ∧
        (∀ n2, seed + 1 + n2 < 2 ^ 32 → n2 ≠ n →
          (toySession.afterNewDbKeys n2).getNewDbKey.1
            ≠ (toySession.afterNewDbKeys n).getNewDbKey.1) :=
  loadAllEntries_seeds_allocator toyCrypto toyEntropy emptyDb toySession [9] ⟨rfl, rfl⟩
    ⟨List.Pairwise.nil, fun e he => absurd he (List.not_mem_nil e)⟩ toySession_load

theorem loadAssetsLoop_collect (cd : AssetCodec) (K : BinaryData) (l tail : Disk)
    (st : Option AssetEntry × List (Nat × AssetEntry)) (fuel : Nat)
    (hl : ∀ e ∈ l, e.1 ≠ K ∧ K.isPrefixOf e.1 = true ∧ ∃ a, cd.deserialize e.1 e.2 = .ok a) :
    loadAssetsLoop cd K (l.length + fuel) (l ++ tail) st
      = loadAssetsLoop cd K fuel tail (collectAssets cd l st) := by
  induction l generalizing st with
  | nil => simp [collectAssets]
  | cons x l ih =>
    obtain ⟨k, v⟩ := x
    obtain ⟨h1, h2, a, h3⟩ := hl (k, v) (List.mem_cons_self _ _)
    have e : ((k, v) :: l).length + fuel = (l.length + fuel) + 1 := by
      simp only [List.length_cons]; omega
    have h1' : k ≠ K := h1
    have h2' : K.isPrefixOf k = true := h2
    have h3' : cd.deserialize k v = .ok a := h3
    rw [e, List.cons_append, loadAssetsLoop]
    simp only [h1', if_false, h2', Bool.not_true, h3', collectAssets]
    by_cases hr : a.index_ ≠ ROOT_ASSETENTRY_ID
    · rw [if_pos hr, if_pos hr]
      exact ih _ (fun z hz => hl z (List.mem_cons_of_mem _ hz))
    · rw [if_neg hr, if_neg hr]
      exact ih _ (fun z hz => hl z (List.mem_cons_of_mem _ hz))

theorem mapInsert_length_of_none {κ β : Type} [DecidableEq κ] [MapKey κ] (m : List (κ × β))
    (k : κ) (v : β) (h : mapFind m k = none) : (mapInsert m k v).length = m.length + 1 := by
  induction m with
  | nil => rfl
  | cons e t ih =>
    obtain ⟨k', v'⟩ := e
    simp only [mapFind] at h
    by_cases hk : k' = k
    · simp [hk] at h
    · simp only [hk, if_false] at h
      simp only [mapInsert, hk, if_false]
      split_ifs
      · simp
      · simp [ih h]

theorem collectAssets_length (cd : AssetCodec) (l : Disk)
    (st : Option AssetEntry × List (Nat × AssetEntry))
    (hnd : ((l.filterMap (nonRootEntry cd)).map AssetEntry.index_).Nodup)
    (hst : ∀ a ∈ l.filterMap (nonRootEntry cd), mapFind st.2 a.index_ = none)
    (hok : ∀ e ∈ l, ∃ a, cd.deserialize e.1 e.2 = .ok a) :
    (collectAssets cd l st).2.length = st.2.length + (l.filterMap (nonRootEntry cd)).length := by
  induction l generalizing st with
  | nil => simp [collectAssets]
  | cons x l ih =>
    obtain ⟨k, v⟩ := x
    obtain ⟨a, ha⟩ := hok (k, v) (List.mem_cons_self _ _)
    have ha' : cd.deserialize k v = .ok a := ha
    have hok' : ∀ e ∈ l, ∃ a, cd.deserialize e.1 e.2 = .ok a :=
      fun z hz => hok z (List.mem_cons_of_mem _ hz)
    by_cases hr : a.index_ ≠ ROOT_ASSETENTRY_ID
    · have hn : nonRootEntry cd (k, v) = some a := by
        simp only [nonRootEntry, ha']
        exact if_pos hr
      have hf : ((k, v) :: l).filterMap (nonRootEntry cd)
          = a :: l.filterMap (nonRootEntry cd) := by
        rw [List.filterMap_cons, hn]
      rw [hf] at hnd hst ⊢
      simp only [List.map_cons, List.nodup_cons] at hnd
      have hnone : mapFind st.2 a.index_ = none := hst a (List.mem_cons_self _ _)
      have hc : collectAssets cd ((k, v) :: l) st
          = collectAssets cd l (st.1, mapEmplace st.2 a.index_ a) := by
        simp only [collectAssets, ha']
        exact if_pos hr
      rw [hc, ih _ hnd.2 ?_ hok']
      · simp only [mapEmplace, hnone, List.length_cons]
        rw [mapInsert_length_of_none _ _ _ hnone]
        omega
      · intro b hb
        simp only [mapEmplace, hnone]
        rw [mapFind_mapInsert_ne]
        · exact hst b (List.mem_cons_of_mem _ hb)
        · intro e
          exact hnd.1 (List.mem_map.2 ⟨b, hb, e.symm⟩)
    · have hn : nonRootEntry cd (k, v) = none := by
        simp only [nonRootEntry, ha']
        exact if_neg hr
      have hf : ((k, v) :: l).filterMap (nonRootEntry cd) = l.filterMap (nonRootEntry cd) := by
        rw [List.filterMap_cons, hn]
      rw [hf] at hnd hst ⊢
      have hc : collectAssets cd ((k, v) :: l) st = collectAssets cd l (some a, st.2) := by
        simp only [collectAssets, ha']
        exact if_neg hr
      rw [hc]
      exact ih _ hnd hst hok'

theorem loadFromDisk_ok_count (p : DbPrefixes) (cd : AssetCodec)
    (lookup : AssetAccountTypeEnum → Nat) (disk : Disk) (k0 : Nat) (keyTail : BinaryData)
    (fuel : Nat) (a : AssetAccount)
    (h : AssetAccount.loadFromDisk p cd lookup fuel disk (k0 :: keyTail) = some (.ok a)) :
    ∃ n rest, getDataRef disk (p.ASSET_COUNT_PREFIX :: keyTail) ≠ [] ∧
      getDataRef disk (p.ASSET_TOP_INDEX_PREFIX :: keyTail) ≠ [] ∧
      get_var_int (getDataRef disk (p.ASSET_COUNT_PREFIX :: keyTail)) = some (n, rest) ∧
      a.assets_.length = n := by
  unfold AssetAccount.loadFromDisk at h
  simp only [] at h
  split at h
  · simp at h
  · split at h
    · simp at h
    · split at h
      · simp at h
      · split at h
        · split at h
          · simp at h
          · split at h
            · simp at h
            · split at h
              · simp at h
              · split at h
                · simp at h
                · rename_i hcnt
                  split at h
                  · simp at h
                  · rename_i n rest hn
                    split at h
                    · simp at h
                    · rename_i htop
                      split at h
                      · simp at h
                      · split at h
                        · simp at h
                        · simp at h
                        · split at h
                          · simp at h
                          · refine ⟨n, rest, ?_, ?_, hn, ?_⟩
                            · intro e; exact hcnt (by rw [e]; rfl)
                            · intro e; exact htop (by rw [e]; rfl)
                            · rename_i hlen
                              simp only [ne_eq, Decidable.not_not] at hlen
                              split at h
                              · simp only [Option.some.injEq, Except.ok.injEq] at h
                                rw [← h]; exact hlen.symm
                              · split at h
                                · simp only [Option.some.injEq, Except.ok.injEq] at h
                                  rw [← h]; exact hlen.symm
                                · simp at h
        · simp at h

theorem loadFromDisk_header (p : DbPrefixes) (cd : AssetCodec)
    (lookup : AssetAccountTypeEnum → Nat) (disk : Disk) (keyTail : BinaryData)
    (hh : AccountHeaderReads cd disk (p.ASSET_ACCOUNT_PREFIX :: keyTail)) (fuel : Nat) :
    ∃ typeByte parent_id account_id derScheme,
    AssetAccount.loadFromDisk p cd lookup fuel disk (p.ASSET_ACCOUNT_PREFIX :: keyTail)
      = (let assetcount := getDataRef disk (p.ASSET_COUNT_PREFIX :: keyTail)
        if assetcount.length = 0 then some (.error .missingAssetCountEntry)
        else
          match get_var_int assetcount with
          | none => some (.error .readerOverflow)
          | some (assetCount, _) =>
            let lastusedindex := getDataRef disk (p.ASSET_TOP_INDEX_PREFIX :: keyTail)
            if lastusedindex.length = 0 then some (.error .missingLastUsedEntry)
            else
              match get_var_int lastusedindex with
              | none => some (.error .readerOverflow)
              | some (lastUsedIndex, _) =>
                let assetDbKey := p.ASSETENTRY_PREFIX :: keyTail
                match loadAssetsLoop cd assetDbKey fuel (seek disk assetDbKey) (none, []) with
                | none => none
                | some (.error e) => some (.error e)
                | some (.ok (rootEntry, assetMap)) =>
                  if assetCount ≠ assetMap.length then
                    some (.error .unexpectedAccountAssetCount)
                  else
                    let mk : AssetAccountTypeEnum → AssetAccount := fun ty =>
                      { id_ := account_id, parent_id_ := parent_id, type := ty,
                        root_ := rootEntry, derScheme_ := derScheme,
                        assets_ := assetMap,
                        lastUsedIndex_ := lastUsedIndex % 2 ^ 32,
                        lookup_ := lookup ty }
                    if typeByte = AssetAccountTypeEnum.Plain.toByte then
                      some (.ok (mk .Plain))
                    else if typeByte = AssetAccountTypeEnum.ECDH.toByte then
                      some (.ok (mk .ECDH))
                    else some (.error .unexpectedAssetAccountType)) := by
  obtain ⟨typeByte, r1, plen, r2, len, r3, bdr, r4, ds, h1, h2, h3, h4, h5, h6, h7⟩ := hh
  obtain ⟨parent, h3⟩ := Option.isSome_iff_exists.1 h3
  obtain ⟨account, h4⟩ := Option.isSome_iff_exists.1 h4
  refine ⟨typeByte, parent, account, ds, ?_⟩
  unfold AssetAccount.loadFromDisk
  simp only [ne_eq, not_true_eq_false, if_false, h1, h2, h3, h4, h5, h6, h7]

/-- C24: `AssetAccount::loadFromDisk` under the key of an account whose record
reads up to the derivation scheme. It fails with the `AccountException`
"missing asset count entry" when the asset count record is missing, and with
"missing last used entry" when the asset count is read and the last used index
record is missing, whatever the fuel. When both records are read, on a store in
key order without a record at the bare asset-entry key of the account, whose
records under the asset-entry prefix deserialize to assets of distinct
indices, it fails with "unexpected account asset count" once the stored count
is not the number of non-root asset entries under the prefix (the fuel above
the number of records). And whenever it returns an account, on any store and
under any key, the two records are there and the size of the asset map of the
account is the stored count. -/
theorem loadFromDisk_asset_count (p : DbPrefixes) (cd : AssetCodec)
    (lookup : AssetAccountTypeEnum → Nat) (disk : Disk) (keyTail : BinaryData)
    (hh : AccountHeaderReads cd disk (p.ASSET_ACCOUNT_PREFIX :: keyTail)) :
    (getDataRef disk (p.ASSET_COUNT_PREFIX :: keyTail) = [] →
      ∀ fuel,
        AssetAccount.loadFromDisk p cd lookup fuel disk (p.ASSET_ACCOUNT_PREFIX :: keyTail)
          = some (.error .missingAssetCountEntry)) ∧
    (∀ n rest,
      get_var_int (getDataRef disk (p.ASSET_COUNT_PREFIX :: keyTail)) = some (n, rest) →
      getDataRef disk (p.ASSET_TOP_INDEX_PREFIX :: keyTail) = [] →
      ∀ fuel,
        AssetAccount.loadFromDisk p cd lookup fuel disk (p.ASSET_ACCOUNT_PREFIX :: keyTail)
          = some (.error .missingLastUsedEntry)) ∧
    (∀ n rest top rest2,
      get_var_int (getDataRef disk (p.ASSET_COUNT_PREFIX :: keyTail)) = some (n, rest) →
      get_var_int (getDataRef disk (p.ASSET_TOP_INDEX_PREFIX :: keyTail)) = some (top, rest2) →
      MapSorted disk →
      mapFind disk (p.ASSETENTRY_PREFIX :: keyTail) = none →
      (∀ e ∈ disk, (p.ASSETENTRY_PREFIX :: keyTail).isPrefixOf e.1 = true →
        ∃ a, cd.deserialize e.1 e.2 = .ok a) →
      ((nonRootEntriesUnder cd (p.ASSETENTRY_PREFIX :: keyTail) disk).map
        AssetEntry.index_).Nodup →
      n ≠ (nonRootEntriesUnder cd (p.ASSETENTRY_PREFIX :: keyTail) disk).length →
      ∀ fuel, disk.length < fuel →
        AssetAccount.loadFromDisk p cd lookup fuel disk (p.ASSET_ACCOUNT_PREFIX :: keyTail)
          = some (.error .unexpectedAccountAssetCount)) ∧
    (∀ fuel k0 a,
      AssetAccount.loadFromDisk p cd lookup fuel disk (k0 :: keyTail) = some (.ok a) →
      ∃ n rest, getDataRef disk (p.ASSET_COUNT_PREFIX :: keyTail) ≠ [] ∧
        getDataRef disk (p.ASSET_TOP_INDEX_PREFIX :: keyTail) ≠ [] ∧
        get_var_int (getDataRef disk (p.ASSET_COUNT_PREFIX :: keyTail)) = some (n, rest) ∧
        a.assets_.length = n) := by
  have hne : ∀ (d : BinaryData) (x : Nat × BinaryData), get_var_int d = some x →
      ¬ d.length = 0 := by
    intro d x hd hl
    have : d = [] := List.length_eq_zero.1 hl
    rw [this] at hd
    simp [get_var_int] at hd
  refine ⟨?_, ?_, ?_, ?_⟩
  · intro h0 fuel
    obtain ⟨tb, pid, aid, ds, e⟩ := loadFromDisk_header p cd lookup disk keyTail hh fuel
    rw [e]
    simp only [h0, List.length_nil, if_true]
  · intro n rest hn h0 fuel
    obtain ⟨tb, pid, aid, ds, e⟩ := loadFromDisk_header p cd lookup disk keyTail hh fuel
    rw [e]
    simp only [hne _ _ hn, if_false, hn, h0, List.length_nil, if_true]
  · intro n rest top rest2 hn htop hsorted hbare hok hnd hcount fuel hfuel
    obtain ⟨tb, pid, aid, ds, e⟩ := loadFromDisk_header p cd lookup disk keyTail hh fuel
    rw [e]
    simp only [hne _ _ hn, if_false, hn, hne _ _ htop, htop]
    obtain ⟨rest3, hseek, hrest⟩ := seek_split hsorted (p.ASSETENTRY_PREFIX :: keyTail)
    have hl : ∀ e ∈ disk.filter (fun e => (p.ASSETENTRY_PREFIX :: keyTail).isPrefixOf e.1),
        e.1 ≠ p.ASSETENTRY_PREFIX :: keyTail ∧
        (p.ASSETENTRY_PREFIX :: keyTail).isPrefixOf e.1 = true ∧
        ∃ a, cd.deserialize e.1 e.2 = .ok a := by
      intro x hx
      obtain ⟨hx1, hx2⟩ := List.mem_filter.1 hx
      exact ⟨mapFind_eq_none_iff.1 hbare x hx1, hx2, hok x hx1 hx2⟩
    have hlen : (disk.filter (fun e => (p.ASSETENTRY_PREFIX :: keyTail).isPrefixOf e.1)).length
        ≤ disk.length := List.length_filter_le _ _
    obtain ⟨f1, hf1⟩ : ∃ f1, fuel
        = (disk.filter (fun e => (p.ASSETENTRY_PREFIX :: keyTail).isPrefixOf e.1)).length
          + (f1 + 1) := ⟨fuel - (disk.filter
            (fun e => (p.ASSETENTRY_PREFIX :: keyTail).isPrefixOf e.1)).length - 1, by omega⟩
    rw [hseek, hf1, loadAssetsLoop_collect cd _ _ rest3 (none, []) (f1 + 1) hl,
      loadAssetsLoop_stop cd _ rest3 _ f1 hrest]
    have hcl := collectAssets_length cd
      (disk.filter (fun e => (p.ASSETENTRY_PREFIX :: keyTail).isPrefixOf e.1)) (none, [])
      hnd (fun a _ => rfl) (fun x hx => (hl x hx).2.2)
    simp only [List.length_nil, Nat.zero_add] at hcl
    have hcl2 : (collectAssets cd
        (disk.filter (fun e => (p.ASSETENTRY_PREFIX :: keyTail).isPrefixOf e.1))
        (none, [])).2.length
        = (nonRootEntriesUnder cd (p.ASSETENTRY_PREFIX :: keyTail) disk).length := hcl
    simp only [ne_eq]
    rw [if_pos]
    rw [hcl2]
    exact hcount
  · intro fuel k0 a h
    exact loadFromDisk_ok_count p cd lookup disk k0 keyTail fuel a h

/-- C24, witness: the store of the toy account with assets 0 and 1 and the
stored count 3. -/
theorem loadFromDisk_asset_count_witness :
    AssetAccount.loadFromDisk toyPrefixes toyCodec (fun _ => 2) 7 toyDiskWrongCount
        (toyPrefixes.ASSET_ACCOUNT_PREFIX :: [0, 0, 0, 7, 0, 0, 0, 1])
      = some (.error .unexpectedAccountAssetCount) :=
  (loadFromDisk_asset_count toyPrefixes toyCodec (fun _ => 2) toyDiskWrongCount
    [0, 0, 0, 7, 0, 0, 0, 1]
    ⟨0, [4, 2, 1, 32], 4, [2, 1, 32], 2, [1, 32], [1, 32], [], toyDerScheme,
      rfl, rfl, rfl, rfl, rfl, rfl, rfl⟩).2.2.1
    3 [] 0xFFFFFFFF [] rfl rfl (by unfold MapSorted; decide) rfl (fun _ _ _ => ⟨_, rfl⟩) (by decide) (by decide)
    7 (by decide)

theorem insertNewAssets_append (l : List AssetEntry) (m : List (Nat × AssetEntry))
    (hm : ∀ y ∈ m, ∀ e ∈ l, y.1 < e.index_)
    (hl : (l.map AssetEntry.index_).Pairwise (fun x y => x < y)) :
    insertNewAssets m l = m ++ l.map (fun e => (e.index_, e)) := by
  induction l generalizing m with
  | nil => simp [insertNewAssets]
  | cons e rest ih =>
    have hless : ∀ y ∈ m, MapKey.less y.1 e.index_ = true := by
      intro y hy
      show decide (y.1 < e.index_) = true
      simpa using hm y hy e (List.mem_cons_self _ _)
    simp only [List.map_cons, List.pairwise_cons] at hl
    simp only [insertNewAssets, mapFind_none_of_less natLaws m e.index_ hless]
    rw [mapInsert_append_of_less natLaws m e.index_ e hless, ih _ ?_ hl.2]
    · simp
    · intro y hy z hz
      rcases List.mem_append.1 hy with hy | hy
      · exact hm y hy z (List.mem_cons_of_mem _ hz)
      · simp only [List.mem_singleton] at hy
        subst hy
        exact hl.1 _ (List.mem_map.2 ⟨z, hz, rfl⟩)

theorem mapSorted_last_max {β : Type} (m : List (Nat × β)) (hs : MapSorted m)
    (last : Nat × β) (h : m.getLast? = some last) : ∀ y ∈ m, y.1 ≤ last.1 := by
  obtain ⟨ys, rfl⟩ := List.getLast?_eq_some_iff.1 h
  intro y hy
  rcases List.mem_append.1 hy with hy | hy
  · have := (List.pairwise_append.1 hs).2.2 y hy last (List.mem_singleton_self _)
    have h2 : decide (y.1 < last.1) = true := this
    simp at h2
    omega
  · simp only [List.mem_singleton] at hy
    subst hy
    exact Nat.le_refl _

theorem nextComputedIndex_above (a : AssetAccount) (hs : MapSorted a.assets_) :
    ∀ y ∈ a.assets_, y.1 < a.nextComputedIndex := by
  intro y hy
  unfold AssetAccount.nextComputedIndex
  cases hl : a.assets_.getLast? with
  | none =>
    rw [List.getLast?_eq_none_iff.1 hl] at hy
    cases hy
  | some last =>
    have := mapSorted_last_max a.assets_ hs last hl y hy
    simp only
    omega

/-- The extension of the public chain by `count` under a derivation scheme
that yields each index: the indices from the next one on are appended. -/
theorem extendPublicChain_yields (p : DbPrefixes) (cd : AssetCodec) (a : AssetAccount)
    (disk : Disk) (count : Nat) (hy : a.YieldsEachIndex) (hc : a.ChainOk)
    (hw : a.nextComputedIndex + count ≤ 2 ^ 32) :
    ∃ a2 d2, a.extendPublicChain p cd disk count = .ok (a2, d2) ∧
      a2.assets_.map Prod.fst = a.assets_.map Prod.fst ++ List.range' a.nextComputedIndex count ∧
      (∀ x ∈ a2.assets_, x.2.index_ = x.1) ∧
      a2.lookup_ = a.lookup_ ∧ a2.lastUsedIndex_ = a.lastUsedIndex_ ∧
      a2.root_ = a.root_ ∧ a2.derScheme_ = a.derScheme_ := by
  obtain ⟨hs, hidx, hroot⟩ := hc
  by_cases h0 : count = 0
  · subst h0
    refine ⟨a, disk, ?_, by simp, hidx, rfl, rfl, rfl, rfl⟩
    simp [AssetAccount.extendPublicChain]
  · have hptr : ∃ ap, (match a.assets_.getLast? with
          | some last => some last.2
          | none => a.root_) = some ap ∧
        (ap.index_ + 1) % 2 ^ 32 = a.nextComputedIndex ∧
        (ap.index_ + count) % 2 ^ 32 + 1 - a.nextComputedIndex = count := by
      unfold AssetAccount.nextComputedIndex at hw ⊢
      cases hl : a.assets_.getLast? with
      | none =>
        obtain ⟨r, hr, hri⟩ := hroot (List.getLast?_eq_none_iff.1 hl)
        rw [hl] at hw
        simp only at hw
        refine ⟨r, hr, ?_, ?_⟩
        · rw [hri]; rfl
        · rw [hri]
          simp only [ROOT_ASSETENTRY_ID]
          omega
      | some last =>
        rw [hl] at hw
        simp only at hw
        have hi := hidx last (List.mem_of_getLast?_eq_some hl)
        refine ⟨last.2, rfl, ?_, ?_⟩
        · rw [hi]
          exact Nat.mod_eq_of_lt (by omega)
        · rw [hi, Nat.mod_eq_of_lt (by omega)]
          simp only
          omega
    obtain ⟨ap, hap, hstart, hlen⟩ := hptr
    obtain ⟨l, hl1, hl2⟩ := hy ap a.nextComputedIndex ((ap.index_ + count) % 2 ^ 32)
    rw [hlen] at hl2
    have hins : insertNewAssets a.assets_ l = a.assets_ ++ l.map (fun e => (e.index_, e)) := by
      apply insertNewAssets_append
      · intro y hy2 e he
        have h1 := nextComputedIndex_above a hs y hy2
        have h2 : e.index_ ∈ List.range' a.nextComputedIndex count := by
          rw [← hl2]; exact List.mem_map.2 ⟨e, he, rfl⟩
        have := List.mem_range'_1.1 h2
        omega
      · rw [hl2]
        exact List.pairwise_lt_range' _ _
    have heq : a.extendPublicChain p cd disk count
        = .ok (AssetAccount.updateOnDiskAssets p cd
            { a with assets_ := insertNewAssets a.assets_ l } disk) := by
      unfold AssetAccount.extendPublicChain AssetAccount.extendPublicChainFrom
      simp only [h0, if_false]
      cases hg : a.assets_.getLast? with
      | none =>
        rw [hg] at hap
        simp only at hap ⊢
        rw [hap]
        simp only [hstart, hl1]
      | some last =>
        rw [hg] at hap
        simp only [Option.some.injEq] at hap
        subst hap
        simp only [hstart, hl1]
    refine ⟨(AssetAccount.updateOnDiskAssets p cd
        { a with assets_ := insertNewAssets a.assets_ l } disk).1,
      (AssetAccount.updateOnDiskAssets p cd
        { a with assets_ := insertNewAssets a.assets_ l } disk).2, heq, ?_, ?_, ?_, ?_, ?_, ?_⟩
    · simp only [AssetAccount.updateOnDiskAssets, writeAssetEntries_eq, hins, List.map_map,
        List.map_append]
      rw [← hl2]
      simp [Function.comp_def]
    · intro x hx
      simp only [AssetAccount.updateOnDiskAssets, writeAssetEntries_eq, hins, List.mem_map] at hx
      obtain ⟨y, hy2, rfl⟩ := hx
      rcases List.mem_append.1 hy2 with h1 | h1
      · exact hidx y h1
      · obtain ⟨e, _, rfl⟩ := List.mem_map.1 h1
        rfl
    · rfl
    · rfl
    · rfl
    · rfl

theorem mapFind_of_key_mem {β : Type} (m : List (Nat × β)) (k : Nat)
    (h : k ∈ m.map Prod.fst) : ∃ v, mapFind m k = some v ∧ (k, v) ∈ m := by
  obtain ⟨e, he, rfl⟩ := List.mem_map.1 h
  have := mapFind_isSome_of_mem he
  obtain ⟨v, hv⟩ := Option.isSome_iff_exists.1 this
  exact ⟨v, hv, mapFind_eq_some_mem hv⟩

/-- C25: `peekNextAsset`, whatever its outcome, leaves `lastUsedIndex_` as it
was, in memory and under the top-index key of the store. An asset it returns
is the entry of the asset map at index `lastUsedIndex_ + 1` (modulo 2^32).
When that index is computed the entry is returned and neither the account nor
the store changes; when it is not, the public chain is extended by the lookup
window. With a derivation scheme that yields each requested index, on an
account whose asset map is in order, the call returns the asset of that index
once the index lies within the lookup window above the chain. -/
theorem peekNextAsset_frame (p : DbPrefixes) (cd : AssetCodec) (a : AssetAccount) (disk : Disk)
    (h1 : p.ASSET_TOP_INDEX_PREFIX ≠ p.ASSETENTRY_PREFIX)
    (h2 : p.ASSET_TOP_INDEX_PREFIX ≠ p.ASSET_COUNT_PREFIX) :
    (a.peekNextAsset p cd disk).2.1.lastUsedIndex_ = a.lastUsedIndex_ ∧
    (a.peekNextAsset p cd disk).2.1.getFullID = a.getFullID ∧
    mapFind (a.peekNextAsset p cd disk).2.2 (p.ASSET_TOP_INDEX_PREFIX :: a.getFullID)
      = mapFind disk (p.ASSET_TOP_INDEX_PREFIX :: a.getFullID) ∧
    (∀ e, (a.peekNextAsset p cd disk).1 = .ok e →
      mapFind (a.peekNextAsset p cd disk).2.1.assets_ ((a.lastUsedIndex_ + 1) % 2 ^ 32)
        = some e) ∧
    (∀ e, mapFind a.assets_ ((a.lastUsedIndex_ + 1) % 2 ^ 32) = some e →
      a.peekNextAsset p cd disk = (.ok e, a, disk)) ∧
    (mapFind a.assets_ ((a.lastUsedIndex_ + 1) % 2 ^ 32) = none →
      ∀ a2 d2, a.extendPublicChain p cd disk a.lookup_ = .ok (a2, d2) →
        (a.peekNextAsset p cd disk).2 = (a2, d2)) ∧
    (a.YieldsEachIndex → a.ChainOk → a.nextComputedIndex + a.lookup_ ≤ 2 ^ 32 →
      mapFind a.assets_ ((a.lastUsedIndex_ + 1) % 2 ^ 32) = none →
      a.nextComputedIndex ≤ (a.lastUsedIndex_ + 1) % 2 ^ 32 →
      (a.lastUsedIndex_ + 1) % 2 ^ 32 < a.nextComputedIndex + a.lookup_ →
      ∃ e, (a.peekNextAsset p cd disk).1 = .ok e ∧
        e.index_ = (a.lastUsedIndex_ + 1) % 2 ^ 32 ∧
        (a.peekNextAsset p cd disk).2.1.assets_.map Prod.fst
          = a.assets_.map Prod.fst ++ List.range' a.nextComputedIndex a.lookup_) := by
  refine ⟨?_, ?_, ?_, ?_, ?_, ?_, ?_⟩
  · unfold AssetAccount.peekNextAsset
    simp only
    split
    · rfl
    · split
      · rfl
      · rename_i a2 d2 hx
        have := (extendPublicChain_spec p cd _ a2 _ d2 _ p.ASSET_TOP_INDEX_PREFIX a.getFullID
          h1 h2 hx).1
        split <;> exact this
  · unfold AssetAccount.peekNextAsset
    simp only
    split
    · rfl
    · split
      · rfl
      · rename_i a2 d2 hx
        have := (extendPublicChain_spec p cd _ a2 _ d2 _ p.ASSET_TOP_INDEX_PREFIX a.getFullID
          h1 h2 hx).2.1
        split <;> exact this
  · unfold AssetAccount.peekNextAsset
    simp only
    split
    · rfl
    · split
      · rfl
      · rename_i a2 d2 hx
        have := (extendPublicChain_spec p cd _ a2 _ d2 _ p.ASSET_TOP_INDEX_PREFIX a.getFullID
          h1 h2 hx).2.2
        split <;> exact this
  · intro e
    unfold AssetAccount.peekNextAsset
    simp only
    split
    · rename_i entry he
      intro h
      simp only [Except.ok.injEq] at h
      rw [← h]; exact he
    · split
      · intro h; cases h
      · split
        · rename_i entry he
          intro h
          simp only [Except.ok.injEq] at h
          rw [← h]; exact he
        · intro h; cases h
  · intro e he
    unfold AssetAccount.peekNextAsset
    simp only [he]
  · intro hn a2 d2 hx
    unfold AssetAccount.peekNextAsset
    simp only [hn, hx]
    split <;> rfl
  · intro hy hc hw hn hlo hhi
    obtain ⟨a2, d2, hx, hk, hidx, -, -, -, -⟩ :=
      extendPublicChain_yields p cd a disk a.lookup_ hy hc hw
    have hmem : (a.lastUsedIndex_ + 1) % 2 ^ 32 ∈ a2.assets_.map Prod.fst := by
      rw [hk]
      exact List.mem_append.2 (Or.inr (List.mem_range'_1.2 ⟨hlo, hhi⟩))
    obtain ⟨v, hv, hvm⟩ := mapFind_of_key_mem _ _ hmem
    refine ⟨v, ?_, hidx _ hvm, ?_⟩
    · unfold AssetAccount.peekNextAsset
      simp only [hn, hx, hv]
    · unfold AssetAccount.peekNextAsset
      simp only [hn, hx, hv]
      exact hk

/-- C25, witness: the toy account that has computed and handed out nothing
(lookup window 2). The call extends the chain to the assets 0 and 1 and
returns asset 0; the last used index stays `UINT32_MAX`, and the store, which
has no top-index record, gets none. -/
theorem peekNextAsset_frame_witness :
    (toyAssetAccount.peekNextAsset toyPrefixes toyCodec []).1
      = .ok (toyAsset [0, 0, 0, 7, 0, 0, 0, 1] 0).doNotCommit ∧
    (toyAssetAccount.peekNextAsset toyPrefixes toyCodec []).2.1.assets_.map Prod.fst = [0, 1] ∧
    (toyAssetAccount.peekNextAsset toyPrefixes toyCodec []).2.1.lastUsedIndex_ = 0xFFFFFFFF ∧
    mapFind (toyAssetAccount.peekNextAsset toyPrefixes toyCodec []).2.2
      (toyPrefixes.ASSET_TOP_INDEX_PREFIX :: toyAssetAccount.getFullID) = none :=
  ⟨by decide, by decide,
    (peekNextAsset_frame toyPrefixes toyCodec toyAssetAccount [] (by decide) (by decide)).1,
    (peekNextAsset_frame toyPrefixes toyCodec toyAssetAccount [] (by decide) (by decide)).2.2.1⟩

theorem mapSorted_iff_keys {β : Type} (m : List (Nat × β)) :
    MapSorted m ↔ (m.map Prod.fst).Pairwise (fun x y => x < y) := by
  unfold MapSorted
  rw [List.pairwise_map]
  constructor
  · intro h
    exact List.Pairwise.imp (fun {a b} hab => by
      have : decide (a.1 < b.1) = true := hab
      simpa using this) h
  · intro h
    exact List.Pairwise.imp (fun {a b} hab => by
      show decide (a.1 < b.1) = true
      simpa using hab) h

theorem extendPublicChain_chainOk (p : DbPrefixes) (cd : AssetCodec) (a a2 : AssetAccount)
    (disk d2 : Disk) (count : Nat) (hy : a.YieldsEachIndex) (hc : a.ChainOk)
    (hw : a.nextComputedIndex + count ≤ 2 ^ 32)
    (h : a.extendPublicChain p cd disk count = .ok (a2, d2)) :
    a2.assets_.map Prod.fst = a.assets_.map Prod.fst ++ List.range' a.nextComputedIndex count ∧
    a2.lookup_ = a.lookup_ ∧ a2.YieldsEachIndex ∧ a2.ChainOk := by
  obtain ⟨a3, d3, hx, hk, hidx, hl, -, hr, hd⟩ :=
    extendPublicChain_yields p cd a disk count hy hc hw
  rw [h] at hx
  simp only [Except.ok.injEq, Prod.mk.injEq] at hx
  obtain ⟨rfl, rfl⟩ := hx
  refine ⟨hk, hl, ?_, ?_, hidx, ?_⟩
  · intro ap start stop
    have := hy ap start stop
    unfold AssetAccount.extendPublicChainRange at this ⊢
    rw [hd, hr]
    exact this
  · rw [mapSorted_iff_keys, hk, List.pairwise_append]
    refine ⟨(mapSorted_iff_keys _).1 hc.1, List.pairwise_lt_range' _ _, ?_⟩
    intro x hx y hy2
    obtain ⟨e, he, rfl⟩ := List.mem_map.1 hx
    have h1 := nextComputedIndex_above a hc.1 e he
    have h2 := List.mem_range'_1.1 hy2
    omega
  · intro hnil
    rw [hr]
    apply hc.2.2
    have : a2.assets_.map Prod.fst = [] := by rw [hnil]; rfl
    rw [hk] at this
    have h2 := (List.append_eq_nil.1 this).1
    exact List.map_eq_nil_iff.1 h2

/-- C28: `getNewAsset` on an asset account whose derivation scheme yields one
asset for each requested index (the asset map in key order, the indices
within 32 bits). A call that finds the next index computed leaves the asset
map as it is. A call that finds it missing grows the asset count by exactly
`getLookup()`: the indices of the map afterwards are those of before followed
by the `getLookup()` indices from the one above the highest index of before,
all of them above every index of before. The account is left in a state of
which the same holds. -/
theorem getNewAsset_asset_count (p : DbPrefixes) (cd : AssetCodec) (a : AssetAccount)
    (disk : Disk) (hy : a.YieldsEachIndex) (hc : a.ChainOk)
    (hw : a.nextComputedIndex + a.lookup_ ≤ 2 ^ 32) :
    (mapFind a.assets_ (incr32 a.lastUsedIndex_) ≠ none →
      (a.getNewAsset p cd disk).2.1.assets_ = a.assets_) ∧
    (mapFind a.assets_ (incr32 a.lastUsedIndex_) = none →
      (a.getNewAsset p cd disk).2.1.assets_.length = a.assets_.length + a.lookup_ ∧
      (a.getNewAsset p cd disk).2.1.assets_.map Prod.fst
        = a.assets_.map Prod.fst ++ List.range' a.nextComputedIndex a.lookup_ ∧
      (∀ k ∈ List.range' a.nextComputedIndex a.lookup_, ∀ y ∈ a.assets_, y.1 < k)) ∧
    (a.getNewAsset p cd disk).2.1.lookup_ = a.lookup_ ∧
    (a.getNewAsset p cd disk).2.1.YieldsEachIndex ∧
    (a.getNewAsset p cd disk).2.1.ChainOk := by
  have hb : ({ a with lastUsedIndex_ := incr32 a.lastUsedIndex_ } : AssetAccount).YieldsEachIndex :=
    hy
  have hcb : ({ a with lastUsedIndex_ := incr32 a.lastUsedIndex_ } : AssetAccount).ChainOk := hc
  have hwb : ({ a with lastUsedIndex_ := incr32 a.lastUsedIndex_ } : AssetAccount).nextComputedIndex
      + a.lookup_ ≤ 2 ^ 32 := hw
  obtain ⟨a2, d2, hx, -⟩ := extendPublicChain_yields p cd
    { a with lastUsedIndex_ := incr32 a.lastUsedIndex_ }
    ({ a with lastUsedIndex_ := incr32 a.lastUsedIndex_ }.updateHighestUsedIndex p disk)
    a.lookup_ hb hcb hwb
  obtain ⟨hk, hl, hy2, hc2⟩ := extendPublicChain_chainOk p cd _ a2 _ d2 _ hb hcb hwb hx
  have hk2 : a2.assets_.map Prod.fst
      = a.assets_.map Prod.fst ++ List.range' a.nextComputedIndex a.lookup_ := hk
  cases hf : mapFind a.assets_ (incr32 a.lastUsedIndex_) with
  | some e =>
    have hr : a.getNewAsset p cd disk
        = (.ok e, { a with lastUsedIndex_ := incr32 a.lastUsedIndex_ },
            { a with lastUsedIndex_ := incr32 a.lastUsedIndex_ }.updateHighestUsedIndex p disk) := by
      unfold AssetAccount.getNewAsset AssetAccount.getAndBumpHighestUsedIndex
      simp only [hf]
    rw [hr]
    exact ⟨fun _ => rfl, fun h => (by cases h), rfl, hb, hcb⟩
  | none =>
    have hr : (a.getNewAsset p cd disk).2.1 = a2 := by
      unfold AssetAccount.getNewAsset AssetAccount.getAndBumpHighestUsedIndex
      simp only [hf, hx]
      split <;> rfl
    rw [hr]
    refine ⟨fun h => absurd rfl h, fun _ => ⟨?_, hk2, ?_⟩, hl, hy2, hc2⟩
    · have := congrArg List.length hk2
      simpa using this
    · intro k hk3 y hy3
      have h1 := nextComputedIndex_above a hc.1 y hy3
      have h2 := List.mem_range'_1.1 hk3
      omega

theorem toyDerScheme_yields (a : AssetAccount) (h : a.derScheme_ = toyDerScheme) :
    a.YieldsEachIndex := by
  intro ap start stop
  unfold AssetAccount.extendPublicChainRange
  rw [h]
  refine ⟨_, rfl, ?_⟩
  simp [Function.comp_def, toyAsset]

/-- C28, witness: the account of the test. The sixth request finds index 5
missing and grows the asset count from 5 by `getLookup()`, 100; over the 16
requests of the test the asset count goes from 5 to 105. -/
theorem getNewAsset_asset_count_witness :
    toyAssetAccountFiveUsed.assets_.length = 5 ∧
    (toyAssetAccountFiveUsed.getNewAsset toyPrefixes toyCodec []).2.1.assets_.length
      = toyAssetAccountFiveUsed.assets_.length + toyAssetAccountFiveUsed.lookup_ ∧
    (afterNewAssets toyPrefixes toyCodec 5 (toyAssetAccountFive, [])).1.lastUsedIndex_ = 4 ∧
    (afterNewAssets toyPrefixes toyCodec 5 (toyAssetAccountFive, [])).1.assets_.length = 5 ∧
    (afterNewAssets toyPrefixes toyCodec 16 (toyAssetAccountFive, [])).1.assets_.length = 105 :=
  ⟨by decide,
    ((getNewAsset_asset_count toyPrefixes toyCodec toyAssetAccountFiveUsed []
      (toyDerScheme_yields _ rfl)
      ⟨by unfold MapSorted; decide, by decide, fun h => absurd h (by decide)⟩
      (by decide)).2.1 (by decide)).1,
    by decide, by decide, by decide⟩

theorem addBip32Paths_sorted (kind : RecipientKind) (l m : List (BinaryData × List Nat))
    (h : MapSorted (m ++ l)) :
    addBip32Paths l { kind := kind, bip32Paths_ := m }
      = .ok { kind := kind, bip32Paths_ := m ++ l } := by
  induction l generalizing m with
  | nil => simp [addBip32Paths]
  | cons x l ih =>
    have hless : ∀ e ∈ m, MapKey.less e.1 x.1 = true := by
      intro e he
      exact (List.pairwise_append.1 h).2.2 e he x (List.mem_cons_self _ _)
    simp only [addBip32Paths, ScriptRecipient.addBip32Path,
      mapFind_none_of_less bdLaws m x.1 hless,
      mapInsert_append_of_less bdLaws m x.1 x.2 hless]
    rw [ih (m ++ [(x.1, x.2)]) (by simpa using h)]
    simp

theorem get_uint64_t_put_uint64_t (value : Nat) (rest : BinaryData) :
    get_BinaryData 8 (put_uint64_t value ++ rest) = some (put_uint64_t value, rest) :=
  get_BinaryData_append_of_length _ _ (WRITE_LE_length 8 value)

theorem READ_LE_put_uint64_t (value : Nat) (h : value < 2 ^ 64) :
    READ_LE (put_uint64_t value) = value := by
  unfold put_uint64_t
  rw [READ_LE_WRITE_LE]
  exact Nat.mod_eq_of_lt (by simpa using h)

theorem fromScript_serialize (ops : ScriptOpcodes) (hops : ops.Distinct) (kind : RecipientKind)
    (hk : kind.ReadBack) :
    ScriptRecipient.fromScript ops (kind.serialize ops) = .ok { kind := kind } := by
  obtain ⟨o1, o2, o3, o4⟩ := hops
  cases kind with
  | P2PK pubkey value => exact absurd hk id
  | Universal binScript value => exact absurd hk id
  | P2PKH h160 value =>
    obtain ⟨hl, hv⟩ := hk
    have e : RecipientKind.serialize ops (.P2PKH h160 value)
        = put_uint64_t value ++ (25 :: ops.OP_DUP :: ops.OP_HASH160 :: 20
            :: (h160 ++ [ops.OP_EQUALVERIFY, ops.OP_CHECKSIG])) := by
      simp [RecipientKind.serialize, getP2PKHScript, hl, put_var_int]
    rw [e]
    unfold ScriptRecipient.fromScript
    rw [get_uint64_t_put_uint64_t]
    simp only [get_uint8_t, and_self, if_true, READ_LE_put_uint64_t value hv,
      get_BinaryData_append_of_length _ _ hl]
  | P2WPKH h160 value =>
    obtain ⟨hl, hv⟩ := hk
    have e : RecipientKind.serialize ops (.P2WPKH h160 value)
        = put_uint64_t value ++ (22 :: 0 :: 20 :: (h160 ++ [])) := by
      simp [RecipientKind.serialize, getP2WPKHOutputScript, hl, put_var_int]
    rw [e]
    unfold ScriptRecipient.fromScript
    rw [get_uint64_t_put_uint64_t]
    simp only [get_uint8_t, READ_LE_put_uint64_t value hv,
      get_BinaryData_append_of_length _ _ hl]
    simp
  | P2SH h160 value =>
    obtain ⟨hl, hv⟩ := hk
    have e : RecipientKind.serialize ops (.P2SH h160 value)
        = put_uint64_t value ++ (23 :: ops.OP_HASH160 :: 20 :: (h160 ++ [ops.OP_EQUAL])) := by
      simp [RecipientKind.serialize, getP2SHScript, hl, put_var_int]
    rw [e]
    unfold ScriptRecipient.fromScript
    rw [get_uint64_t_put_uint64_t]
    simp only [get_uint8_t, READ_LE_put_uint64_t value hv,
      get_BinaryData_append_of_length _ _ hl]
    simp
  | P2WSH h256 value =>
    obtain ⟨hl, hv⟩ := hk
    have e : RecipientKind.serialize ops (.P2WSH h256 value)
        = put_uint64_t value ++ (34 :: 0 :: 32 :: (h256 ++ [])) := by
      simp [RecipientKind.serialize, getP2WSHOutputScript, hl, put_var_int]
    rw [e]
    unfold ScriptRecipient.fromScript
    rw [get_uint64_t_put_uint64_t]
    simp only [get_uint8_t, READ_LE_put_uint64_t value hv,
      get_BinaryData_append_of_length _ _ hl]
    simp
  | OPRETURN message =>
    obtain ⟨h0, h252⟩ := hk
    have hz : READ_LE (put_uint64_t 0) = 0 := READ_LE_put_uint64_t 0 (by decide)
    by_cases h75 : message.length > 75
    · have e : RecipientKind.serialize ops (.OPRETURN message)
          = put_uint64_t 0 ++ ((message.length + 3) :: ops.OP_RETURN :: ops.OP_PUSHDATA1
              :: message.length :: (message ++ [])) := by
        have m1 : message.length % 256 = message.length := Nat.mod_eq_of_lt (by omega)
        have m2 : (message.length + 3) % 256 = message.length + 3 :=
          Nat.mod_eq_of_lt (by omega)
        simp [RecipientKind.serialize, h75, h0, m1, m2]
      rw [e]
      unfold ScriptRecipient.fromScript
      rw [get_uint64_t_put_uint64_t]
      simp only [get_uint8_t, hz, get_BinaryData_append]
      simp [o1, o2, o3, get_BinaryData_self]
    · have e : RecipientKind.serialize ops (.OPRETURN message)
          = put_uint64_t 0 ++ ((message.length + 2) :: ops.OP_RETURN
              :: message.length :: (message ++ [])) := by
        have m1 : message.length % 256 = message.length := Nat.mod_eq_of_lt (by omega)
        have m2 : (message.length + 2) % 256 = message.length + 2 :=
          Nat.mod_eq_of_lt (by omega)
        simp [RecipientKind.serialize, h75, h0, m1, m2]
      rw [e]
      unfold ScriptRecipient.fromScript
      rw [get_uint64_t_put_uint64_t]
      have hne : message.length ≠ ops.OP_PUSHDATA1 := by omega
      simp only [get_uint8_t, hz, get_BinaryData_append]
      simp [o1, o2, o3, hne, get_BinaryData_self]

/-- The length byte of an OP_RETURN script wraps at 256: the output of a
253-byte message is not read back. -/
theorem fromScript_opreturn_253 (ops : ScriptOpcodes) (message : BinaryData)
    (h : message.length = 253) :
    ScriptRecipient.fromScript ops (RecipientKind.serialize ops (.OPRETURN message))
      = .error .unexpectedRecipientScript := by
  have e : RecipientKind.serialize ops (.OPRETURN message)
      = put_uint64_t 0 ++ (0 :: ops.OP_RETURN :: ops.OP_PUSHDATA1 :: 253 :: message) := by
    simp [RecipientKind.serialize, h]
  have hz : (put_uint64_t 0).length = 8 := by simp [put_uint64_t, WRITE_LE_length]
  rw [e]
  unfold ScriptRecipient.fromScript
  simp only [get_BinaryData_append_of_length _ _ hz, get_uint8_t]
  simp [h]

/-- C26, counterexample: four recipients whose message `fromProtobuf` does not
read back. An OP_RETURN recipient with the empty message serializes to the
value and the two bytes `01 6a`, and `fromScript` runs over the end reading the
third byte; a P2PK recipient over a 33-byte public key serializes to a script
that is none of the templates `fromScript` knows; a Universal recipient with
the one-byte script `51` has two bytes after the value; an OP_RETURN recipient
with a message of 253 bytes has a script of 256 bytes after its length byte,
which holds 0. -/
theorem fromProtobuf_toProtobuf_fails :
    ScriptRecipient.getSerializedScript bitcoinOpcodes { kind := .OPRETURN [] }
      = [0, 0, 0, 0, 0, 0, 0, 0, 1, 0x6a] ∧
    ScriptRecipient.fromProtobuf bitcoinOpcodes
        (ScriptRecipient.toProtobuf bitcoinOpcodes { kind := .OPRETURN [] })
      = .error .readerOverflow ∧
    ScriptRecipient.fromProtobuf bitcoinOpcodes
        (ScriptRecipient.toProtobuf bitcoinOpcodes
          { kind := .P2PK (2 :: List.replicate 32 7) 1000 })
      = .error .unexpectedRecipientScript ∧
    ScriptRecipient.fromProtobuf bitcoinOpcodes
        (ScriptRecipient.toProtobuf bitcoinOpcodes { kind := .Universal [0x51] 1000 })
      = .error .readerOverflow ∧
    ScriptRecipient.fromProtobuf bitcoinOpcodes
        (ScriptRecipient.toProtobuf bitcoinOpcodes { kind := .OPRETURN (List.replicate 253 0) })
      = .error .unexpectedRecipientScript := by
  refine ⟨by decide, by decide, by decide, by decide, ?_⟩
  unfold ScriptRecipient.fromProtobuf ScriptRecipient.toProtobuf
    ScriptRecipient.getSerializedScript
  simp only [fromScript_opreturn_253 bitcoinOpcodes (List.replicate 253 0)
    (List.length_replicate _ _)]

/-- C26, amended: for a recipient of the variants P2PKH, P2WPKH, P2SH (over a
20-byte hash), P2WSH (over a 32-byte hash), each with a 64-bit value, or
OP_RETURN with a message of 1 to 252 bytes, with its BIP32 paths in the key
order of the `std::map`, `fromProtobuf(toProtobuf(r))` succeeds and yields a
recipient with the same serialized output and the same BIP32 path map as
`r`: it yields `r`. -/
theorem fromProtobuf_toProtobuf (ops : ScriptOpcodes) (hops : ops.Distinct)
    (r : ScriptRecipient) (hk : r.kind.ReadBack) (hs : MapSorted r.bip32Paths_) :
    ScriptRecipient.fromProtobuf ops (r.toProtobuf ops) = .ok r ∧
    ∀ r2, ScriptRecipient.fromProtobuf ops (r.toProtobuf ops) = .ok r2 →
      r2.getSerializedScript ops = r.getSerializedScript ops ∧
      r2.bip32Paths_ = r.bip32Paths_ := by
  have h : ScriptRecipient.fromProtobuf ops (r.toProtobuf ops) = .ok r := by
    unfold ScriptRecipient.fromProtobuf ScriptRecipient.toProtobuf
      ScriptRecipient.getSerializedScript
    simp only [fromScript_serialize ops hops r.kind hk]
    rw [addBip32Paths_sorted r.kind r.bip32Paths_ [] (by simpa using hs)]
    simp
  refine ⟨h, fun r2 h2 => ?_⟩
  rw [h] at h2
  simp only [Except.ok.injEq] at h2
  subst h2
  exact ⟨rfl, rfl⟩

/-- C26 as amended, witness: an OP_RETURN recipient with the message
`[1, 2, 3]` and a P2PKH recipient with one BIP32 path. -/
theorem fromProtobuf_toProtobuf_witness :
    ScriptRecipient.fromProtobuf bitcoinOpcodes
        (ScriptRecipient.toProtobuf bitcoinOpcodes { kind := .OPRETURN [1, 2, 3] })
      = .ok { kind := .OPRETURN [1, 2, 3] } ∧
    ScriptRecipient.fromProtobuf bitcoinOpcodes
        (ScriptRecipient.toProtobuf bitcoinOpcodes
          { kind := .P2PKH (List.replicate 20 9) 5000,
            bip32Paths_ := [(3 :: List.replicate 32 1, [0x8000002C, 0, 7])] })
      = .ok { kind := .P2PKH (List.replicate 20 9) 5000,
              bip32Paths_ := [(3 :: List.replicate 32 1, [0x8000002C, 0, 7])] } :=
  ⟨(fromProtobuf_toProtobuf bitcoinOpcodes ⟨by decide, by decide, by decide, by decide⟩
      { kind := .OPRETURN [1, 2, 3] } ⟨by decide, by decide⟩ (by unfold MapSorted; decide)).1,
   (fromProtobuf_toProtobuf bitcoinOpcodes ⟨by decide, by decide, by decide, by decide⟩
      { kind := .P2PKH (List.replicate 20 9) 5000,
        bip32Paths_ := [(3 :: List.replicate 32 1, [0x8000002C, 0, 7])] }
      ⟨by decide, by decide⟩ (by unfold MapSorted; decide)).1⟩

theorem and_or_distrib_right (a b c : Nat) : (a ||| b) &&& c = (a &&& c) ||| (b &&& c) := by
  apply Nat.eq_of_testBit_eq
  intro i
  simp only [Nat.testBit_and, Nat.testBit_or]
  cases a.testBit i <;> cases b.testBit i <;> cases c.testBit i <;> rfl

theorem or_eq_zero {a b : Nat} (h : a ||| b = 0) : a = 0 ∧ b = 0 := by
  constructor
  · apply Nat.eq_of_testBit_eq
    intro i
    have := congrArg (fun x => Nat.testBit x i) h
    simp only [Nat.testBit_or, Nat.zero_testBit, Bool.or_eq_false_iff] at this
    simp [this.1]
  · apply Nat.eq_of_testBit_eq
    intro i
    have := congrArg (fun x => Nat.testBit x i) h
    simp only [Nat.testBit_or, Nat.zero_testBit, Bool.or_eq_false_iff] at this
    simp [this.2]

/-- A flag is in an OR exactly when it is in one of the two words, for two
words each of which holds the flag or none of its bits. -/
theorem hasFlag_or (a b flag : Nat)
    (ha : a &&& flag = flag ∨ a &&& flag = 0) (hb : b &&& flag = flag ∨ b &&& flag = 0) :
    ((a ||| b) &&& flag = flag ∨ (a ||| b) &&& flag = 0) ∧
    (hasFlag (a ||| b) flag ↔ hasFlag a flag ∨ hasFlag b flag) := by
  unfold hasFlag
  rw [and_or_distrib_right]
  rcases ha with ha | ha <;> rcases hb with hb | hb <;> rw [ha, hb]
  · simp [Nat.or_self]
  · simp [Nat.or_zero]
  · simp [Nat.zero_or]
  · simp [Nat.or_self]

theorem evaluateSpenders_flags {τ : Type} (F : ScriptVerifyFlags) (calls : SignerCalls τ)
    (l : List ScriptSpender) (u : List (BinaryData × List (Nat × BinaryData))) (f : Nat) :
    (evaluateSpenders F calls l (u, f)).2 = l.foldl (fun acc s => acc ||| s.getFlags F) f := by
  induction l generalizing u f with
  | nil => rfl
  | cons s l ih =>
    simp only [evaluateSpenders, List.foldl_cons]
    exact ih _ _

theorem foldl_or_eq (g : ScriptSpender → Nat) (l : List ScriptSpender) (f : Nat) :
    l.foldl (fun acc s => acc ||| g s) f = f ||| (l.map g).foldr (fun x acc => x ||| acc) 0 := by
  induction l generalizing f with
  | nil => simp
  | cons s l ih =>
    simp only [List.foldl_cons, List.map_cons, List.foldr_cons]
    rw [ih, Nat.or_assoc]

/-- A flag is in the OR of the words of a list exactly when it is in one of
them, when each word holds the flag or none of its bits. -/
theorem hasFlag_foldr (flag : Nat) (h0 : flag ≠ 0) (l : List Nat)
    (hl : ∀ x ∈ l, x &&& flag = flag ∨ x &&& flag = 0) :
    (l.foldr (fun x acc => x ||| acc) 0 &&& flag = flag ∨
        l.foldr (fun x acc => x ||| acc) 0 &&& flag = 0) ∧
    (hasFlag (l.foldr (fun x acc => x ||| acc) 0) flag ↔ ∃ x ∈ l, hasFlag x flag) := by
  induction l with
  | nil =>
    simp only [List.foldr_nil, Nat.zero_and, or_true, hasFlag, List.not_mem_nil, false_and,
      exists_false, iff_false, true_and]
    exact fun h => h0 h.symm
  | cons x l ih =>
    obtain ⟨i1, i2⟩ := ih (fun y hy => hl y (List.mem_cons_of_mem _ hy))
    obtain ⟨j1, j2⟩ := hasFlag_or x (l.foldr (fun x acc => x ||| acc) 0) flag
      (hl x (List.mem_cons_self _ _)) i1
    simp only [List.foldr_cons]
    refine ⟨j1, ?_⟩
    rw [j2, i2]
    simp

theorem getFlags_bits (F : ScriptVerifyFlags) (hF : F.Independent) (s : ScriptSpender) :
    (s.getFlags F &&& F.SCRIPT_VERIFY_SEGWIT = F.SCRIPT_VERIFY_SEGWIT) ∧
    (s.getFlags F &&& F.SCRIPT_VERIFY_P2SH
      = if s.isP2SH_ then F.SCRIPT_VERIFY_P2SH else 0) ∧
    (s.getFlags F &&& F.SCRIPT_VERIFY_P2SH_SHA256
      = if s.isP2SH_ then F.SCRIPT_VERIFY_P2SH_SHA256 else 0) ∧
    (s.getFlags F &&& F.SCRIPT_VERIFY_CHECKSEQUENCEVERIFY
      = if s.isCSV_ then F.SCRIPT_VERIFY_CHECKSEQUENCEVERIFY else 0) ∧
    (s.getFlags F &&& F.SCRIPT_VERIFY_CHECKLOCKTIMEVERIFY
      = if s.isCLTV_ then F.SCRIPT_VERIFY_CHECKLOCKTIMEVERIFY else 0) := by
  obtain ⟨hp, -⟩ := hF
  simp only [List.pairwise_cons, List.mem_cons, List.mem_singleton, forall_eq_or_imp, forall_eq,
    List.not_mem_nil, false_implies, implies_true, List.Pairwise.nil, and_true] at hp
  obtain ⟨⟨a1, a2, a3, a4⟩, ⟨b2, b3, b4⟩, ⟨c3, c4⟩, d4⟩ := hp
  have a1' := (Nat.and_comm _ _).trans a1
  have a2' := (Nat.and_comm _ _).trans a2
  have a3' := (Nat.and_comm _ _).trans a3
  have a4' := (Nat.and_comm _ _).trans a4
  have b2' := (Nat.and_comm _ _).trans b2
  have b3' := (Nat.and_comm _ _).trans b3
  have b4' := (Nat.and_comm _ _).trans b4
  have c3' := (Nat.and_comm _ _).trans c3
  have c4' := (Nat.and_comm _ _).trans c4
  have d4' := (Nat.and_comm _ _).trans d4
  unfold ScriptSpender.getFlags
  cases s.isP2SH_ <;> cases s.isCSV_ <;> cases s.isCLTV_ <;>
    simp [and_or_distrib_right, a1, a2, a3, a4, b2, b3, b4, c3, c4, d4, a1', a2', a3', a4', b2',
      b3', b4', c3', c4', d4', Nat.and_self, Nat.or_zero, Nat.zero_or]

theorem hasFlag_getFlags (F : ScriptVerifyFlags) (hF : F.Independent) (s : ScriptSpender) :
    hasFlag (s.getFlags F) F.SCRIPT_VERIFY_SEGWIT ∧
    (hasFlag (s.getFlags F) F.SCRIPT_VERIFY_P2SH ↔ s.isP2SH_ = true) ∧
    (hasFlag (s.getFlags F) F.SCRIPT_VERIFY_P2SH_SHA256 ↔ s.isP2SH_ = true) ∧
    (hasFlag (s.getFlags F) F.SCRIPT_VERIFY_CHECKSEQUENCEVERIFY ↔ s.isCSV_ = true) ∧
    (hasFlag (s.getFlags F) F.SCRIPT_VERIFY_CHECKLOCKTIMEVERIFY ↔ s.isCLTV_ = true) := by
  obtain ⟨g1, g2, g3, g4, g5⟩ := getFlags_bits F hF s
  obtain ⟨-, hz⟩ := hF
  simp only [List.mem_cons, List.mem_singleton, forall_eq_or_imp, forall_eq, List.not_mem_nil,
    false_implies, implies_true, and_true] at hz
  obtain ⟨z1, z2, z3, z4, z5⟩ := hz
  unfold hasFlag
  rw [g1, g2, g3, g4, g5]
  refine ⟨rfl, ?_, ?_, ?_, ?_⟩
  · cases s.isP2SH_ <;> simp [Ne.symm z2]
  · cases s.isP2SH_ <;> simp [Ne.symm z3]
  · cases s.isCSV_ <;> simp [Ne.symm z4]
  · cases s.isCLTV_ <;> simp [Ne.symm z5]

theorem hasFlag_words (F : ScriptVerifyFlags) (l : List ScriptSpender)
    (flag : Nat) (h0 : flag ≠ 0)
    (hflag : ∀ s : ScriptSpender, s.getFlags F &&& flag = flag ∨ s.getFlags F &&& flag = 0) :
    hasFlag ((l.map (ScriptSpender.getFlags F)).foldr (fun x acc => x ||| acc) 0) flag ↔
      ∃ s ∈ l, hasFlag (s.getFlags F) flag := by
  rw [(hasFlag_foldr flag h0 _ (fun x hx => by
    obtain ⟨s, _, rfl⟩ := List.mem_map.1 hx
    exact hflag s)).2]
  constructor
  · rintro ⟨x, hx, h⟩
    obtain ⟨s, hs, rfl⟩ := List.mem_map.1 hx
    exact ⟨s, hs, h⟩
  · rintro ⟨s, hs, h⟩
    exact ⟨_, List.mem_map.2 ⟨s, hs, rfl⟩, h⟩

/-- C27: the flag word `Signer::evaluateSignedState` passes to `verify` (with
the available resolved data, the UTXO map and `true`) is the bitwise OR of
`getFlags()` over the spenders of the signer, 0 when there is none. The flags
being bit masks that are not zero and share no bit: the flags of a spender
contain SEGWIT, contain P2SH and P2SH_SHA256 exactly when the spender is
flagged P2SH, CHECKSEQUENCEVERIFY exactly when it is CSV and
CHECKLOCKTIMEVERIFY exactly when it is CLTV; so the word passed contains
SEGWIT exactly when the signer has a spender, and each of the other flags
exactly when a spender has it. -/
theorem evaluateSignedState_flags {τ : Type} (F : ScriptVerifyFlags) (hF : F.Independent)
    (calls : SignerCalls τ) (signer : Signer) :
    (∃ utxoMap, signer.evaluateSignedState F calls
      = calls.verify (calls.serializeAvailableResolvedData signer) utxoMap
          (signer.evaluationFlags F calls) true) ∧
    signer.evaluationFlags F calls
      = (signer.spenders_.map (ScriptSpender.getFlags F)).foldr (fun x acc => x ||| acc) 0 ∧
    (signer.spenders_ = [] → signer.evaluationFlags F calls = 0) ∧
    (∀ s : ScriptSpender,
      hasFlag (s.getFlags F) F.SCRIPT_VERIFY_SEGWIT ∧
      (hasFlag (s.getFlags F) F.SCRIPT_VERIFY_P2SH ↔ s.isP2SH_ = true) ∧
      (hasFlag (s.getFlags F) F.SCRIPT_VERIFY_P2SH_SHA256 ↔ s.isP2SH_ = true) ∧
      (hasFlag (s.getFlags F) F.SCRIPT_VERIFY_CHECKSEQUENCEVERIFY ↔ s.isCSV_ = true) ∧
      (hasFlag (s.getFlags F) F.SCRIPT_VERIFY_CHECKLOCKTIMEVERIFY ↔ s.isCLTV_ = true)) ∧
    (hasFlag (signer.evaluationFlags F calls) F.SCRIPT_VERIFY_SEGWIT ↔ signer.spenders_ ≠ []) ∧
    (hasFlag (signer.evaluationFlags F calls) F.SCRIPT_VERIFY_P2SH ↔
      ∃ s ∈ signer.spenders_, s.isP2SH_ = true) ∧
    (hasFlag (signer.evaluationFlags F calls) F.SCRIPT_VERIFY_P2SH_SHA256 ↔
      ∃ s ∈ signer.spenders_, s.isP2SH_ = true) ∧
    (hasFlag (signer.evaluationFlags F calls) F.SCRIPT_VERIFY_CHECKSEQUENCEVERIFY ↔
      ∃ s ∈ signer.spenders_, s.isCSV_ = true) ∧
    (hasFlag (signer.evaluationFlags F calls) F.SCRIPT_VERIFY_CHECKLOCKTIMEVERIFY ↔
      ∃ s ∈ signer.spenders_, s.isCLTV_ = true) := by
  have hword : signer.evaluationFlags F calls
      = (signer.spenders_.map (ScriptSpender.getFlags F)).foldr (fun x acc => x ||| acc) 0 := by
    unfold Signer.evaluationFlags
    rw [evaluateSpenders_flags, foldl_or_eq, Nat.zero_or]
  have hz := hF.2
  simp only [List.mem_cons, List.mem_singleton, forall_eq_or_imp, forall_eq, List.not_mem_nil,
    false_implies, implies_true, and_true] at hz
  obtain ⟨z1, z2, z3, z4, z5⟩ := hz
  have hb := getFlags_bits F hF
  have hs := hasFlag_getFlags F hF
  refine ⟨⟨_, rfl⟩, hword, ?_, hs, ?_, ?_, ?_, ?_, ?_⟩
  · intro h
    rw [hword, h]
    rfl
  · rw [hword, hasFlag_words F _ _ z1 (fun s => Or.inl (hb s).1)]
    constructor
    · rintro ⟨s, hs1, -⟩ h
      rw [h] at hs1
      cases hs1
    · intro h
      obtain ⟨s, l, e⟩ := List.exists_cons_of_ne_nil h
      exact ⟨s, by rw [e]; exact List.mem_cons_self _ _, (hs s).1⟩
  · rw [hword, hasFlag_words F _ _ z2 (fun s => by
      rw [(hb s).2.1]; cases s.isP2SH_ <;> simp)]
    exact exists_congr (fun s => and_congr_right (fun _ => (hs s).2.1))
  · rw [hword, hasFlag_words F _ _ z3 (fun s => by
      rw [(hb s).2.2.1]; cases s.isP2SH_ <;> simp)]
    exact exists_congr (fun s => and_congr_right (fun _ => (hs s).2.2.1))
  · rw [hword, hasFlag_words F _ _ z4 (fun s => by
      rw [(hb s).2.2.2.1]; cases s.isCSV_ <;> simp)]
    exact exists_congr (fun s => and_congr_right (fun _ => (hs s).2.2.2.1))
  · rw [hword, hasFlag_words F _ _ z5 (fun s => by
      rw [(hb s).2.2.2.2]; cases s.isCLTV_ <;> simp)]
    exact exists_congr (fun s => and_congr_right (fun _ => (hs s).2.2.2.2))

/-- C27, witness: a signer with a P2SH spender and a CSV spender; the word
passed is SEGWIT, P2SH, P2SH_SHA256 and CHECKSEQUENCEVERIFY. -/
theorem evaluateSignedState_flags_witness :
    Signer.evaluateSignedState toyVerifyFlags toySignerCalls
        { spenders_ := [{ isP2SH_ := true, utxo_ := [1, 2, 3] }, { isCSV_ := true }] }
      = 16 ||| 4 ||| 8 ||| 2 ∧
    Signer.evaluationFlags toyVerifyFlags toySignerCalls
        { spenders_ := [{ isP2SH_ := true, utxo_ := [1, 2, 3] }, { isCSV_ := true }] }
      = (List.map (ScriptSpender.getFlags toyVerifyFlags)
          [{ isP2SH_ := true, utxo_ := [1, 2, 3] }, { isCSV_ := true }]).foldr
            (fun x acc => x ||| acc) 0 :=
  ⟨by decide,
    (evaluateSignedState_flags toyVerifyFlags
      ⟨by unfold toyVerifyFlags; decide, by unfold toyVerifyFlags; decide⟩ toySignerCalls
      { spenders_ := [{ isP2SH_ := true, utxo_ := [1, 2, 3] }, { isCSV_ := true }] }).2.1⟩

theorem lastIdxFrom_get (ops : List InsertData) (K : BinaryData) :
    ∀ s, (lastIdxFrom s ops K).bind (fun j => ops[j - s]?) = lastOp ops K := by
  induction ops with
  | nil => intro s; rfl
  | cons op rest ih =>
    intro s
    simp only [lastIdxFrom, lastOp]
    cases hr : lastIdxFrom (s + 1) rest K with
    | some j =>
      have hge := lastIdxFrom_ge hr
      have h1 := ih (s + 1)
      rw [hr] at h1
      have h1 : rest[j - (s + 1)]? = lastOp rest K := h1
      have hj : j - s = (j - (s + 1)) + 1 := by omega
      show (op :: rest)[j - s]? = _
      rw [hj, List.getElem?_cons_succ, h1]
      cases hl : lastOp rest K with
      | some e => rfl
      | none =>
        exfalso
        have h2 := lastOp_none_iff.1 hl
        have h3 := (@lastIdxFrom_none_iff (s + 1) rest K).2 h2
        rw [hr] at h3
        cases h3
    | none =>
      have h2 := lastIdxFrom_none_iff.1 hr
      have h3 := (@lastOp_none_iff rest K).2 h2
      rw [h3]
      simp only []
      split_ifs with e
      · simp
      · rfl

theorem getDataLbd_eq {tx : WalletIfaceTransaction} (h : BufferOk tx) (K : BinaryData) :
    tx.getDataLbd K = lastOp tx.insertVec_ K := by
  unfold WalletIfaceTransaction.getDataLbd
  rw [h K, ← lastIdxFrom_get tx.insertVec_ K 0]
  cases lastIdxFrom 0 tx.insertVec_ K with
  | none => rfl
  | some j => rfl

theorem lastOp_append_last (pre post : List InsertData) (o : InsertData) (K : BinaryData)
    (hk : o.key_ = K) (hpost : ∀ x ∈ post, x.key_ ≠ K) :
    lastOp (pre ++ o :: post) K = some o := by
  have hn : lastOp post K = none := lastOp_none_iff.2 hpost
  induction pre with
  | nil => simp [lastOp, hn, hk]
  | cons x rest ih =>
    show lastOp (x :: (rest ++ o :: post)) K = some o
    simp only [lastOp, ih]

/-- The last operation the calls `ops` buffer for the data key `K`. -/
theorem lastOp_calls (ops : List TxOp) (K : BinaryData) :
    (∀ pre o post, ops = pre ++ o :: post → o.key = K → (∀ x ∈ post, x.key ≠ K) →
      lastOp (ops.map TxOp.toInsertData) K = some o.toInsertData) ∧
    ((∀ o ∈ ops, o.key ≠ K) → lastOp (ops.map TxOp.toInsertData) K = none) := by
  have hkey : ∀ o : TxOp, o.toInsertData.key_ = o.key := by
    intro o; cases o <;> rfl
  constructor
  · intro pre o post e hk hpost
    subst e
    rw [List.map_append, List.map_cons]
    apply lastOp_append_last
    · rw [hkey]; exact hk
    · intro x hx
      obtain ⟨y, hy, rfl⟩ := List.mem_map.1 hx
      rw [hkey]; exact hpost y hy
  · intro h
    apply lastOp_none_iff.2
    intro x hx
    obtain ⟨y, hy, rfl⟩ := List.mem_map.1 hx
    rw [hkey]; exact h y hy

theorem lastIdxFrom_isSome_iff (i : Nat) (ops : List InsertData) (K : BinaryData) :
    (lastIdxFrom i ops K).isSome = ops.any (fun o => decide (o.key_ = K)) := by
  cases h : lastIdxFrom i ops K with
  | none =>
    have h1 := lastIdxFrom_none_iff.1 h
    symm
    simp only [Option.isSome_none, List.any_eq_false, decide_eq_true_eq]
    exact h1
  | some j =>
    have h1 := (not_congr (@lastIdxFrom_none_iff i ops K)).1 (by rw [h]; simp)
    symm
    simp only [Option.isSome_some, List.any_eq_true, decide_eq_true_eq]
    by_contra hc
    apply h1
    intro op hop e
    exact hc ⟨op, hop, e⟩

/-- The commit loop performs `commitOp` on the last operation of each data key
and on nothing else. -/
theorem commitLoop_lastOps (c : Crypto) (ent : Entropy) (km : List (BinaryData × Nat))
    (ops : List InsertData) :
    ∀ (i : Nat) (d : DBInterface), LastIdxMap km i ops →
      commitLoop c ent km ops i d = commitOps c ent (lastOps ops) d := by
  induction ops with
  | nil => intro i d _; rfl
  | cons op rest ih =>
    intro i d hkm
    have hfind := hkm op (List.mem_cons_self _ _)
    simp only [lastIdxFrom] at hfind
    have hany := lastIdxFrom_isSome_iff (i + 1) rest op.key_
    cases hr : lastIdxFrom (i + 1) rest op.key_ with
    | some j =>
      rw [hr] at hfind hany
      have hij : i ≠ j := by have := lastIdxFrom_ge hr; omega
      simp only [Option.isSome_some] at hany
      simp only [commitLoop, hfind, hij, ne_eq, not_false_eq_true, if_true, lastOps, ← hany]
      exact ih (i + 1) d hkm.tail
    | none =>
      rw [hr] at hfind hany
      simp only [if_true] at hfind
      simp only [Option.isSome_none] at hany
      simp only [commitLoop, hfind, ne_eq, not_true_eq_false, if_false, lastOps, ← hany,
        Bool.false_eq_true, commitOps]
      cases hco : commitOp c ent d op with
      | mk d' e =>
        cases e with
        | some e => rfl
        | none => exact ih (i + 1) d' hkm.tail

theorem lastOps_sub (ops : List InsertData) : ∀ x ∈ lastOps ops, x ∈ ops := by
  induction ops with
  | nil => intro x hx; exact hx
  | cons op rest ih =>
    intro x hx
    simp only [lastOps] at hx
    split_ifs at hx with h
    · exact List.mem_cons_of_mem _ (ih x hx)
    · rcases List.mem_cons.1 hx with e | e
      · rw [e]; exact List.mem_cons_self _ _
      · exact List.mem_cons_of_mem _ (ih x e)

/-- The list `lastOps` holds one operation per data key of the vector, the
last one. -/
theorem lastOps_spec (ops : List InsertData) :
    ((lastOps ops).map InsertData.key_).Nodup ∧
      ∀ op, op ∈ lastOps ops → lastOp ops op.key_ = some op := by
  induction ops with
  | nil => exact ⟨List.nodup_nil, fun op h => by cases h⟩
  | cons op rest ih =>
    simp only [lastOps]
    by_cases h : rest.any (fun o => decide (o.key_ = op.key_)) = true
    · simp only [h, if_true]
      refine ⟨ih.1, ?_⟩
      intro x hx
      simp only [lastOp, ih.2 x hx]
    · have h' : rest.any (fun o => decide (o.key_ = op.key_)) = false := by simpa using h
      simp only [h', Bool.false_eq_true, if_false]
      have hnone : ∀ o ∈ rest, o.key_ ≠ op.key_ := by
        intro o ho e
        apply h
        exact List.any_eq_true.2 ⟨o, ho, by simp [e]⟩
      refine ⟨?_, ?_⟩
      · rw [List.map_cons, List.nodup_cons]
        refine ⟨?_, ih.1⟩
        intro hm
        obtain ⟨y, hy, e⟩ := List.mem_map.1 hm
        exact hnone y (lastOps_sub rest y hy) e
      · intro x hx
        rcases List.mem_cons.1 hx with e | e
        · subst e
          simp only [lastOp, lastOp_none_iff.2 hnone, if_true]
        · simp only [lastOp, ih.2 x e]

theorem lastOps_complete (ops : List InsertData) (K : BinaryData) (op : InsertData)
    (h : lastOp ops K = some op) : op ∈ lastOps ops := by
  induction ops with
  | nil => cases h
  | cons x rest ih =>
    simp only [lastOp] at h
    simp only [lastOps]
    cases hl : lastOp rest K with
    | some e =>
      rw [hl] at h
      simp only [Option.some.injEq] at h
      subst h
      have := ih hl
      split_ifs
      · exact this
      · exact List.mem_cons_of_mem _ this
    | none =>
      rw [hl] at h
      simp only [] at h
      split_ifs at h with e
      simp only [Option.some.injEq] at h
      subst h
      have hnone := lastOp_none_iff.1 hl
      have hany : rest.any (fun o => decide (o.key_ = x.key_)) = false := by
        rw [List.any_eq_false]
        intro o ho
        simp only [decide_eq_true_eq]
        rw [e]
        exact hnone o ho
      simp only [hany, Bool.false_eq_true, if_false]
      exact List.mem_cons_self _ _

theorem getDataRef_eq (w : World) (thr p q : Nat) (db : String)
    (d : DBInterface) (pobj qobj : TxObject) (ops : List TxOp)
    (hp : mapFind w.objects p = some pobj)
    (hbuf : pobj.tx = ({ commit_ := true } : WalletIfaceTransaction).calls ops)
    (hq : mapFind w.objects q = some qobj) (hqc : qobj.tx.commit_ = true)
    (hql : qobj.lbd_ = some (thr, p)) (hqdb : qobj.dbName_ = db)
    (hd : mapFind w.dbMap_ db = some d) (K : BinaryData) :
    w.getDataRef q K
      = match lastOp (ops.map TxOp.toInsertData) K with
        | some dataPtr => if !dataPtr.write_ then .ok [] else .ok dataPtr.value_
        | none => .ok (d.getDataRef K) := by
  have h0 : BufferOk ({ commit_ := true } : WalletIfaceTransaction) := fun K => rfl
  obtain ⟨hB, hvec⟩ := bufferOk_calls ops h0
  rw [← hbuf] at hB hvec
  have hvec2 : pobj.tx.insertVec_ = ops.map TxOp.toInsertData := by
    rw [hvec]; rfl
  unfold World.getDataRef
  simp only [hq, hqc, hql, hp, hqdb, hd, if_true, getDataLbd_eq hB, hvec2]

theorem commit_dataMap_ok (c : Crypto) (ent : Entropy) (tx : WalletIfaceTransaction)
    (d : DBInterface) (h : (tx.commit c ent d).2 = none) (K : BinaryData) :
    mapFind (tx.commit c ent d).1.dataMap_ K
      = match lastOp tx.insertVec_ K with
        | some op => op.effect
        | none => mapFind d.dataMap_ K := by
  have hdm := commitLoop_dataMap c ent tx.keyToDataMap_ tx.insertVec_ 0 d
  unfold WalletIfaceTransaction.commit at h ⊢
  cases hcl : commitLoop c ent tx.keyToDataMap_ tx.insertVec_ 0 d with
  | mk d' e =>
    rw [hcl] at h hdm
    cases e with
    | some e => simp at h
    | none =>
      simp only []
      rw [mapFind_update]
      simp only [] at hdm
      rw [hdm]

/-- C30. Thread `thr` holds on database `db` (object `d`) the outermost write
transaction `p`, whose buffer is what the calls `ops` made so far left there,
and `q` is a write transaction object carrying the lambdas of `p`: `p` itself
or a transaction nested in it. Then `getDataRef(K)` through `q` returns the
value of the last insert of `ops` on `K` when no later call of `ops` names `K`,
an empty reference when the last call on `K` is an erase, and what the
database object holds for `K` when no call names `K`. The commit loop of `p`
performs one `commitOp` per data key, on the last operation buffered for it
(`lastOps` holds each data key once, with its last operation). When the commit
raises no exception, the key/value map of the database object holds afterwards,
for each touched key, the last inserted value, or no entry if the last call
erased it, and for every untouched key what it held before. -/
theorem getDataRef_write_tx (c : Crypto) (ent : Entropy) (w : World) (thr p q : Nat)
    (db : String) (d : DBInterface) (pobj qobj : TxObject) (ops : List TxOp)
    (hp : mapFind w.objects p = some pobj)
    (hbuf : pobj.tx = ({ commit_ := true } : WalletIfaceTransaction).calls ops)
    (hq : mapFind w.objects q = some qobj) (hqc : qobj.tx.commit_ = true)
    (hql : qobj.lbd_ = some (thr, p)) (hqdb : qobj.dbName_ = db)
    (hd : mapFind w.dbMap_ db = some d) :
    (∀ K,
      (∀ pre v post, ops = pre ++ TxOp.insert K v :: post → (∀ o ∈ post, o.key ≠ K) →
        w.getDataRef q K = .ok v) ∧
      (∀ pre post, ops = pre ++ TxOp.erase K :: post → (∀ o ∈ post, o.key ≠ K) →
        w.getDataRef q K = .ok []) ∧
      ((∀ o ∈ ops, o.key ≠ K) → w.getDataRef q K = .ok (d.getDataRef K))) ∧
    commitLoop c ent pobj.tx.keyToDataMap_ pobj.tx.insertVec_ 0 d
      = commitOps c ent (lastOps (ops.map TxOp.toInsertData)) d ∧
    (((lastOps (ops.map TxOp.toInsertData)).map InsertData.key_).Nodup ∧
      ∀ op, op ∈ lastOps (ops.map TxOp.toInsertData)
        ↔ lastOp (ops.map TxOp.toInsertData) op.key_ = some op) ∧
    ((pobj.tx.commit c ent d).2 = none →
      ∀ K,
        (∀ pre v post, ops = pre ++ TxOp.insert K v :: post → (∀ o ∈ post, o.key ≠ K) →
          mapFind (pobj.tx.commit c ent d).1.dataMap_ K = some v ∧
            (pobj.tx.commit c ent d).1.getDataRef K = v) ∧
        (∀ pre post, ops = pre ++ TxOp.erase K :: post → (∀ o ∈ post, o.key ≠ K) →
          mapFind (pobj.tx.commit c ent d).1.dataMap_ K = none ∧
            (pobj.tx.commit c ent d).1.getDataRef K = []) ∧
        ((∀ o ∈ ops, o.key ≠ K) →
          mapFind (pobj.tx.commit c ent d).1.dataMap_ K = mapFind d.dataMap_ K ∧
            (pobj.tx.commit c ent d).1.getDataRef K = d.getDataRef K)) := by
  have h0 : BufferOk ({ commit_ := true } : WalletIfaceTransaction) := fun K => rfl
  obtain ⟨hB, hvec⟩ := bufferOk_calls ops h0
  rw [← hbuf] at hB hvec
  have hvec2 : pobj.tx.insertVec_ = ops.map TxOp.toInsertData := by
    rw [hvec]; rfl
  have hget := getDataRef_eq w thr p q db d pobj qobj ops hp hbuf hq hqc hql hqdb hd
  refine ⟨?_, ?_, ⟨(lastOps_spec _).1, fun op => ⟨(lastOps_spec _).2 op,
    lastOps_complete _ _ _⟩⟩, ?_⟩
  · intro K
    obtain ⟨hl1, hl2⟩ := lastOp_calls ops K
    refine ⟨?_, ?_, ?_⟩
    · intro pre v post e hpost
      rw [hget K, hl1 pre _ post e rfl hpost]
      rfl
    · intro pre post e hpost
      rw [hget K, hl1 pre _ post e rfl hpost]
      rfl
    · intro hno
      rw [hget K, hl2 hno]
  · rw [← hvec2]
    apply commitLoop_lastOps
    intro op _
    exact hB op.key_
  · intro hok K
    have hm := commit_dataMap_ok c ent pobj.tx d hok K
    rw [hvec2] at hm
    obtain ⟨hl1, hl2⟩ := lastOp_calls ops K
    refine ⟨?_, ?_, ?_⟩
    · intro pre v post e hpost
      rw [hl1 pre _ post e rfl hpost] at hm
      have hm2 : mapFind (pobj.tx.commit c ent d).1.dataMap_ K = some v := hm
      exact ⟨hm2, by simp only [DBInterface.getDataRef, hm2]⟩
    · intro pre post e hpost
      rw [hl1 pre _ post e rfl hpost] at hm
      have hm2 : mapFind (pobj.tx.commit c ent d).1.dataMap_ K = none := hm
      exact ⟨hm2, by simp only [DBInterface.getDataRef, hm2]⟩
    · intro hno
      rw [hl2 hno] at hm
      have hm2 : mapFind (pobj.tx.commit c ent d).1.dataMap_ K = mapFind d.dataMap_ K := hm
      exact ⟨hm2, by simp only [DBInterface.getDataRef, hm2]⟩

/-- C30, witness: in `toyWorldNested` the nested transaction reads `[13]`
under `[4]` (inserted twice), an empty reference under `[1,2,3]` (stored, then
erased in the transaction) and the stored `[70]` under the untouched `[7]`;
the commit succeeds and leaves `[13]` under `[4]`, nothing under `[1,2,3]`
and `[70]` under `[7]`. -/
theorem getDataRef_write_tx_witness :
    toyWorldNested.getDataRef 101 [4] = .ok [13] ∧
    toyWorldNested.getDataRef 101 [1, 2, 3] = .ok [] ∧
    toyWorldNested.getDataRef 101 [7] = .ok [70] ∧
    ((({ commit_ := true } : WalletIfaceTransaction).calls
      [.insert [4] [12], .insert [4] [13], .erase [1, 2, 3]]).commit toyCrypto toyEntropy
        toyStoreB).2 = none ∧
    mapFind ((({ commit_ := true } : WalletIfaceTransaction).calls
      [.insert [4] [12], .insert [4] [13], .erase [1, 2, 3]]).commit toyCrypto toyEntropy
        toyStoreB).1.dataMap_ [4] = some [13] ∧
    mapFind ((({ commit_ := true } : WalletIfaceTransaction).calls
      [.insert [4] [12], .insert [4] [13], .erase [1, 2, 3]]).commit toyCrypto toyEntropy
        toyStoreB).1.dataMap_ [1, 2, 3] = none ∧
    mapFind ((({ commit_ := true } : WalletIfaceTransaction).calls
      [.insert [4] [12], .insert [4] [13], .erase [1, 2, 3]]).commit toyCrypto toyEntropy
        toyStoreB).1.dataMap_ [7] = some [70] :=
  have h := getDataRef_write_tx toyCrypto toyEntropy toyWorldNested 1 100 101 "wallet" toyStoreB
    { dbName_ := "wallet",
      tx := ({ commit_ := true } : WalletIfaceTransaction).calls
        [.insert [4] [12], .insert [4] [13], .erase [1, 2, 3]],
      lbd_ := some (1, 100) }
    { dbName_ := "wallet", tx := { commit_ := true }, lbd_ := some (1, 100) }
    [.insert [4] [12], .insert [4] [13], .erase [1, 2, 3]]
    (by decide) rfl (by decide) rfl rfl rfl (by decide)
  have hok : ((({ commit_ := true } : WalletIfaceTransaction).calls
      [.insert [4] [12], .insert [4] [13], .erase [1, 2, 3]]).commit toyCrypto toyEntropy
        toyStoreB).2 = none := by decide
  ⟨(h.1 [4]).1 [.insert [4] [12]] [13] [.erase [1, 2, 3]] rfl (by decide),
    (h.1 [1, 2, 3]).2.1 [.insert [4] [12], .insert [4] [13]] [] rfl (by decide),
    ((h.1 [7]).2.2 (by decide)).trans (by decide),
    hok,
    ((h.2.2.2 hok [4]).1 [.insert [4] [12]] [13] [.erase [1, 2, 3]] rfl (by decide)).1,
    ((h.2.2.2 hok [1, 2, 3]).2.1 [.insert [4] [12], .insert [4] [13]] [] rfl (by decide)).1,
    ((h.2.2.2 hok [7]).2.2 (by decide)).1.trans (by decide)⟩

theorem SameTransaction.symm {s1 s2 : SignerState} (h : SameTransaction s1 s2) :
    SameTransaction s2 s1 :=
  ⟨h.version.symm, h.lockTime.symm,
    (List.Forall₂.flip h.inputs).imp (fun _ _ hab => ⟨hab.1.symm, hab.2.1.symm, hab.2.2.1.symm,
      hab.2.2.2.symm⟩),
    (List.Forall₂.flip h.outputs).imp (fun _ _ hab => hab.symm)⟩

/-- Beyond M the order of reading can matter, depending on the signature rule:
the state of party A (signature 0) and a state with the signatures 1 and 2
hold three signatures for M = 2. Under the rule by which a full slot takes no
more, the signer that reads A first ends with the signatures 0 and 1, the
signer that reads A last with the signatures 1 and 2. Both rules of the
examples let signatures accumulate up to M. -/
theorem deserializeState_beyond_M :
    ¬ SignaturesWithinM toySignerStateA toySignerStateTwoSigs ∧
    ((freshSigner.deserializeState toySignatureRuleFull toySignerStateA).bind
        (fun s => s.deserializeState toySignatureRuleFull toySignerStateTwoSigs)).map
      (fun s => s.spenders.map (fun sp => sp.witnessStack))
      = some [[(0, .data [0xAA]), (1, .sigs 2 [(0, [0x30, 1]), (1, [0x30, 3])])]] ∧
    ((freshSigner.deserializeState toySignatureRuleFull toySignerStateTwoSigs).bind
        (fun s => s.deserializeState toySignatureRuleFull toySignerStateA)).map
      (fun s => s.spenders.map (fun sp => sp.witnessStack))
      = some [[(0, .data [0xAA]), (1, .sigs 2 [(1, [0x30, 3]), (2, [0x30, 2])])]] := by
  refine ⟨?_, by decide, by decide⟩
  intro h
  cases h with
  | cons hab _ =>
    have := hab.2 1 (.sigs 2 [(0, [0x30, 1])]) (.sigs 2 [(1, [0x30, 3]), (2, [0x30, 2])])
      (by decide) (by decide) rfl
    obtain ⟨u, hu, hlen⟩ := this
    have hu2 : mergeMaps mergeSame [(0, ([0x30, 1] : BinaryData))]
        [(1, [0x30, 3]), (2, [0x30, 2])]
        = some [(0, [0x30, 1]), (1, [0x30, 3]), (2, [0x30, 2])] := by decide
    rw [hu2] at hu
    simp only [Option.some.injEq] at hu
    rw [← hu] at hlen
    simp at hlen

/-- `getAccountID` hashes `hashInput`. -/
theorem getAccountID_hashInput (r : ReservedAccountIds) (getHash160 : Hash160)
    (t : AccountType_BIP32) :
    t.getAccountID r getHash160
      = if t.publicRoot_.length = 0 then .error .emptyPublicRoot
        else checkAccountID r (getHash160 t.hashInput) := rfl

/-- C31, on the code: two BIP32 account types on the same public root that
differ in their node set, their outer account ID, their inner account ID and
their address-type set, and for which `getAccountID` hashes the same byte
string (the 4-byte words 1, 2, 3, 4 after the root, then the default type and
the main flag): they get the same account ID, whatever the hash function and
the reserved IDs. -/
theorem getAccountID_same_hash_input :
    toyBIP32NodeOne.publicRoot_ = toyBIP32NoNode.publicRoot_ ∧
    toyBIP32NodeOne.nodes_ ≠ toyBIP32NoNode.nodes_ ∧
    toyBIP32NodeOne.outerAccount_ ≠ toyBIP32NoNode.outerAccount_ ∧
    toyBIP32NodeOne.innerAccount_ ≠ toyBIP32NoNode.innerAccount_ ∧
    toyBIP32NodeOne.addressTypes_ ≠ toyBIP32NoNode.addressTypes_ ∧
    toyBIP32NodeOne.hashInput = toyBIP32NoNode.hashInput ∧
    toyBIP32NodeOne.hashInput
      = [2, 7, 0, 0, 0, 1, 0, 0, 0, 2, 0, 0, 0, 3, 0, 0, 0, 4, 4, 0, 0, 0, 1] ∧
    ∀ (r : ReservedAccountIds) (getHash160 : Hash160),
      toyBIP32NodeOne.getAccountID r getHash160 = toyBIP32NoNode.getAccountID r getHash160 := by
  refine ⟨by decide, by decide, by decide, by decide, by decide, by decide, by decide, ?_⟩
  intro r getHash160
  rw [getAccountID_hashInput, getAccountID_hashInput]
  have h : toyBIP32NodeOne.hashInput = toyBIP32NoNode.hashInput := by decide
  rw [h]
  rfl

theorem put_uint64_t_length (n : Nat) : (put_uint64_t n).length = 8 := by
  simp [put_uint64_t, WRITE_LE_length]

theorem put_var_int_length_small (n : Nat) (h : n < 0xfd) : (put_var_int n).length = 1 := by
  simp [put_var_int, h]

theorem put_var_int_length_mid (n : Nat) (h1 : 0xfd ≤ n) (h2 : n < 65536) :
    (put_var_int n).length = 3 := by
  have a : ¬ n < 0xfd := by omega
  have b : n ≤ 0xffff := by omega
  simp [put_var_int, a, b, WRITE_LE_length]

/-- The recipient classes whose `getSize` is the length of the serialized
output: P2PKH, P2WPKH and P2SH over a 20-byte hash, P2WSH over a 32-byte hash,
Universal over a script shorter than 65536 bytes. -/
theorem getSize_eq_length (ops : ScriptOpcodes) :
    (∀ h160 value, h160.length = 20 →
      (RecipientKind.serialize ops (.P2PKH h160 value)).length
        = (RecipientKind.P2PKH h160 value).getSize) ∧
    (∀ h160 value, h160.length = 20 →
      (RecipientKind.serialize ops (.P2WPKH h160 value)).length
        = (RecipientKind.P2WPKH h160 value).getSize) ∧
    (∀ h160 value, h160.length = 20 →
      (RecipientKind.serialize ops (.P2SH h160 value)).length
        = (RecipientKind.P2SH h160 value).getSize) ∧
    (∀ h256 value, h256.length = 32 →
      (RecipientKind.serialize ops (.P2WSH h256 value)).length
        = (RecipientKind.P2WSH h256 value).getSize) ∧
    (∀ binScript value, binScript.length < 65536 →
      (RecipientKind.serialize ops (.Universal binScript value)).length
        = (RecipientKind.Universal binScript value).getSize) := by
  refine ⟨?_, ?_, ?_, ?_, ?_⟩
  · intro h160 value h
    simp [RecipientKind.serialize, RecipientKind.getSize, getP2PKHScript, put_uint64_t_length,
      put_var_int, h]
  · intro h160 value h
    simp [RecipientKind.serialize, RecipientKind.getSize, getP2WPKHOutputScript,
      put_uint64_t_length, put_var_int, h]
  · intro h160 value h
    simp [RecipientKind.serialize, RecipientKind.getSize, getP2SHScript, put_uint64_t_length,
      put_var_int, h]
  · intro h256 value h
    simp [RecipientKind.serialize, RecipientKind.getSize, getP2WSHOutputScript,
      put_uint64_t_length, put_var_int, h]
  · intro binScript value h
    by_cases h1 : binScript.length < 0xfd
    · have h2 : ¬ binScript.length ≥ 0xfd := by omega
      simp only [RecipientKind.serialize, RecipientKind.getSize, List.length_append,
        put_uint64_t_length, put_var_int_length_small _ h1, h2, if_false]
      omega
    · have h2 : binScript.length ≥ 0xfd := by omega
      simp only [RecipientKind.serialize, RecipientKind.getSize, List.length_append,
        put_uint64_t_length, put_var_int_length_mid _ h2 h, h2, if_true]
      omega

/-- C32, on the code: the serialized output of an OP_RETURN recipient is one
byte longer than its `getSize()`, whatever the message: `getSize` counts the 8
bytes of the value, the `OP_RETURN` byte, the push header and the message, and
leaves out the byte that holds the length of the script. With the three-byte
message `01 02 03` the output has 14 bytes and `getSize()` is 13; with the
empty message the output has 10 bytes and `getSize()` is 9. -/
theorem getSize_opreturn_one_short :
    (∀ (ops : ScriptOpcodes) (message : BinaryData),
      (RecipientKind.serialize ops (.OPRETURN message)).length
        = (RecipientKind.OPRETURN message).getSize + 1) ∧
    (RecipientKind.serialize bitcoinOpcodes (.OPRETURN [1, 2, 3])).length = 14 ∧
    (RecipientKind.OPRETURN [1, 2, 3]).getSize = 13 ∧
    (RecipientKind.serialize bitcoinOpcodes (.OPRETURN [])).length = 10 ∧
    (RecipientKind.OPRETURN []).getSize = 9 := by
  refine ⟨?_, by decide, by decide, by decide, by decide⟩
  intro ops message
  simp only [RecipientKind.serialize, RecipientKind.getSize, List.length_append,
    put_uint64_t_length, List.length_singleton]
  by_cases h1 : message.length > 75
  · have h2 : message.length > 0 := by omega
    simp only [h1, h2, if_true, List.length_cons, List.length_nil]
    omega
  · by_cases h2 : message.length > 0
    · simp only [h1, h2, if_true, if_false, List.length_cons, List.length_nil]
      omega
    · simp only [h1, h2, if_false, List.length_nil]
      omega

/-- With the P2PK template (the push of the public key, then `OP_CHECKSIG`)
the serialized output of a P2PK recipient over a key of 33 or 65 bytes is one
byte longer than its `getSize()`. -/
theorem getSize_p2pk_one_short (ops : ScriptOpcodes) (pubkey : BinaryData) (value : Nat)
    (h : pubkey.length < 251) :
    (RecipientKind.serialize ops (.P2PK pubkey value)).length
      = (RecipientKind.P2PK pubkey value).getSize + 1 := by
  have h1 : (getP2PKScript ops pubkey).length = pubkey.length + 2 := by
    simp [getP2PKScript]
  simp only [RecipientKind.serialize, RecipientKind.getSize, List.length_append,
    put_uint64_t_length, h1, put_var_int_length_small _ (by omega : pubkey.length + 2 < 0xfd)]
  omega

/-- C40, on the code: `fromScript` accepts byte strings that are not the
serialized output of the recipient it returns. An output whose script starts
as the P2PKH template does and ends with other opcodes is read as the P2PKH
recipient of the hash, whose serialized output ends with
`OP_EQUALVERIFY OP_CHECKSIG`; an output whose script goes on after the native
P2WPKH template is read as the P2WPKH recipient, without the bytes that
follow; an OP_RETURN output that pushes a three-byte message with
`OP_PUSHDATA1` is read as a recipient that pushes it directly. -/
theorem fromScript_accepts_other_outputs :
    ScriptRecipient.fromScript bitcoinOpcodes toyOutputOtherTail
      = .ok { kind := .P2PKH (List.replicate 20 7) 1000 } ∧
    ScriptRecipient.getSerializedScript bitcoinOpcodes
        { kind := .P2PKH (List.replicate 20 7) 1000 }
      = put_uint64_t 1000 ++ [25, 0x76, 0xa9, 20] ++ List.replicate 20 7 ++ [0x88, 0xac] ∧
    ScriptRecipient.getSerializedScript bitcoinOpcodes
        { kind := .P2PKH (List.replicate 20 7) 1000 } ≠ toyOutputOtherTail ∧
    ScriptRecipient.fromScript bitcoinOpcodes toyOutputLongTail
      = .ok { kind := .P2WPKH (List.replicate 20 7) 1000 } ∧
    ScriptRecipient.getSerializedScript bitcoinOpcodes
        { kind := .P2WPKH (List.replicate 20 7) 1000 } ≠ toyOutputLongTail ∧
    ScriptRecipient.fromScript bitcoinOpcodes
        (put_uint64_t 0 ++ [6, 0x6a, 0x4c, 3, 1, 2, 3])
      = .ok { kind := .OPRETURN [1, 2, 3] } ∧
    ScriptRecipient.getSerializedScript bitcoinOpcodes { kind := .OPRETURN [1, 2, 3] }
      = put_uint64_t 0 ++ [5, 0x6a, 3, 1, 2, 3] := by
  decide

/-- C39, on the code: for the empty string `stripQuotes` reads
`input.c_str()[len - 1]` with `len = 0`, the index 2^64 - 1 of a `size_t`,
which is outside the character array of the string. The empty string is what
`getKeyValFromLine` returns as the value of `testnet`, the argument
`--testnet` without its dashes, and `parseArgs` passes that value to
`stripQuotes`. -/
theorem stripQuotes_empty_reads_outside :
    stripQuotes [] = .error .readOutsideString ∧
    cStrAt [] (decrSizeT 0) = .error .readOutsideString ∧
    decrSizeT 0 = 2 ^ 64 - 1 ∧
    getKeyValFromLine toyFlagTestnet 0x3d = (toyFlagTestnet, []) ∧
    stripQuotes (getKeyValFromLine toyFlagTestnet 0x3d).2 = .error .readOutsideString := by
  decide

theorem decrSizeT_pos (x : Nat) (h0 : 0 < x) (h : x < 2 ^ 64) : decrSizeT x = x - 1 := by
  unfold decrSizeT
  have e : x + 2 ^ 64 - 1 = (x - 1) + 2 ^ 64 := by omega
  rw [e, Nat.add_mod_right, Nat.mod_eq_of_lt (by omega)]

theorem cStrAt_last (s : List Nat) (h : s ≠ []) :
    cStrAt s (s.length - 1) = .ok ((s.getLast?).getD 0) := by
  have hl : 0 < s.length := List.length_pos.2 h
  have h1 : s.length - 1 < s.length := by omega
  unfold cStrAt
  rw [if_pos h1, List.getD_eq_getElem?_getD, List.getLast?_eq_getElem?]

theorem substr_one_singleton (ch n : Nat) : substr [ch] 1 n = .ok [] := by
  simp [substr]

theorem substr_zero (s : List Nat) (n : Nat) : substr s 0 n = .ok (s.take n) := by
  simp [substr]

theorem substr_one_cons (ch : Nat) (rest : List Nat) (n : Nat) :
    substr (ch :: rest) 1 n = .ok (rest.take n) := by
  simp [substr]

/-- The result of `stripQuotes` once its two reads are known. -/
theorem stripQuotes_of_reads (input : List Nat) (first last : Nat)
    (h1 : cStrAt input 0 = .ok first)
    (h2 : cStrAt input (decrSizeT input.length) = .ok last) :
    stripQuotes input
      = substr input (if first = 0x22 ∨ first = 0x27 then 1 else 0)
          (if last = 0x22 ∨ last = 0x27 then
            decrSizeT (if first = 0x22 ∨ first = 0x27 then decrSizeT input.length
              else input.length)
           else (if first = 0x22 ∨ first = 0x27 then decrSizeT input.length
              else input.length)) := by
  unfold stripQuotes
  rw [h1]
  dsimp only
  rw [h2]
  dsimp only
  by_cases hq : first = 0x22 ∨ first = 0x27
  · simp only [if_pos hq]
  · simp only [if_neg hq]

/-- On a string that is not empty `stripQuotes` reads inside the string and
returns it without its first character when that is a quote and without its
last character when that is a quote. -/
theorem stripQuotes_nonempty (s : List Nat) (h : s ≠ []) (hlen : s.length < 2 ^ 64) :
    stripQuotes s = .ok (specStripQuotes s) := by
  cases s with
  | nil => exact absurd rfl h
  | cons ch rest =>
    have hpos : 0 < (ch :: rest).length := Nat.succ_pos _
    have hd : decrSizeT (ch :: rest).length = rest.length :=
      decrSizeT_pos (ch :: rest).length hpos hlen
    have h0 : cStrAt (ch :: rest) 0 = .ok ch := by
      unfold cStrAt
      rw [if_pos hpos]
      rfl
    have hlast : cStrAt (ch :: rest) rest.length = .ok (((ch :: rest).getLast?).getD 0) :=
      cStrAt_last (ch :: rest) h
    rw [← hd] at hlast
    rw [stripQuotes_of_reads (ch :: rest) ch _ h0 hlast, hd]
    have hlen2 : rest.length < 2 ^ 64 := by
      have : (ch :: rest).length = rest.length + 1 := rfl
      omega
    by_cases hq : ch = 0x22 ∨ ch = 0x27
    · rw [if_pos hq, if_pos hq, substr_one_cons]
      cases hr : rest with
      | nil =>
        have e : specStripQuotes [ch] = [] := by simp [specStripQuotes, hq]
        rw [e]
        simp
      | cons c2 r2 =>
        have hne : rest ≠ [] := by rw [hr]; simp
        have hl2 : (ch :: c2 :: r2).getLast? = (c2 :: r2).getLast? := by
          simp [List.getLast?_cons_cons]
        rw [hl2, ← hr]
        have hpos2 : 0 < rest.length := List.length_pos.2 hne
        have hd2 : decrSizeT rest.length = rest.length - 1 :=
          decrSizeT_pos rest.length hpos2 hlen2
        obtain ⟨l, hl⟩ : ∃ l, rest.getLast? = some l := by
          cases hg : rest.getLast? with
          | none => exact absurd (List.getLast?_eq_none_iff.1 hg) hne
          | some l => exact ⟨l, rfl⟩
        rw [hl, Option.getD_some]
        have e : specStripQuotes (ch :: rest)
            = if l = 0x22 ∨ l = 0x27 then rest.dropLast else rest := by
          simp [specStripQuotes, hq, hl]
        rw [e]
        by_cases hq2 : l = 0x22 ∨ l = 0x27
        · rw [if_pos hq2, if_pos hq2, hd2, List.dropLast_eq_take]
        · rw [if_neg hq2, if_neg hq2, List.take_length]
    · rw [if_neg hq, if_neg hq, substr_zero]
      obtain ⟨l, hl⟩ : ∃ l, (ch :: rest).getLast? = some l := by
        cases hg : (ch :: rest).getLast? with
        | none => exact absurd (List.getLast?_eq_none_iff.1 hg) h
        | some l => exact ⟨l, rfl⟩
      rw [hl, Option.getD_some]
      have hd3 : decrSizeT (ch :: rest).length = (ch :: rest).length - 1 :=
        decrSizeT_pos (ch :: rest).length hpos hlen
      have e : specStripQuotes (ch :: rest)
          = if l = 0x22 ∨ l = 0x27 then (ch :: rest).dropLast else ch :: rest := by
        simp [specStripQuotes, hq, hl]
      rw [e]
      by_cases hq2 : l = 0x22 ∨ l = 0x27
      · rw [if_pos hq2, if_pos hq2, hd3, List.dropLast_eq_take]
      · rw [if_neg hq2, if_neg hq2, List.take_length]

/-- With the iterator on a record whose key is the asset-entry key of the
account, the loop runs out of any fuel: each pass takes the `continue` and
leaves the iterator where it is. -/
theorem loadAssetsLoop_bare_key (cd : AssetCodec) (K v : BinaryData) (rest : Disk)
    (st : Option AssetEntry × List (Nat × AssetEntry)) :
    ∀ fuel, loadAssetsLoop cd K fuel ((K, v) :: rest) st = none := by
  intro fuel
  induction fuel with
  | zero => rfl
  | succ n ih => simp only [loadAssetsLoop, if_true, ih]

theorem seek_of_find {d : Disk} (h : MapSorted d) {K v : BinaryData}
    (hf : mapFind d K = some v) : ∃ rest, seek d K = (K, v) :: rest := by
  induction d with
  | nil => simp [mapFind] at hf
  | cons x t ih =>
    obtain ⟨k, w⟩ := x
    have ht : MapSorted t := (List.pairwise_cons.1 h).2
    have hlt : ∀ z ∈ t, bdLess k z.1 = true := (List.pairwise_cons.1 h).1
    simp only [mapFind] at hf
    by_cases e : k = K
    · subst e
      simp only [if_true, Option.some.injEq] at hf
      subst hf
      refine ⟨t, ?_⟩
      have hir : bdLess k k = false := bdLaws.irrefl k
      simp [seek, List.dropWhile, hir]
    · simp only [e, if_false] at hf
      have hm := mapFind_eq_some_mem hf
      have hk : bdLess k K = true := hlt _ hm
      obtain ⟨rest, hr⟩ := ih ht hf
      refine ⟨rest, ?_⟩
      rw [← hr]
      simp [seek, List.dropWhile, hk]

/-- C35, on the code: `AssetAccount::loadFromDisk` does not return on a store
in key order that holds a record under the bare asset-entry key of the account
(the asset-entry prefix followed by the key of the account without its prefix),
when the account record reads up to the derivation scheme and the asset count
and last used index records are read: whatever the fuel, the asset loop is
still on that record when the fuel is spent. The pass that meets the key takes
`continue` without `advance()`. -/
theorem loadFromDisk_bare_key_never_returns (p : DbPrefixes) (cd : AssetCodec)
    (lookup : AssetAccountTypeEnum → Nat) (disk : Disk) (keyTail : BinaryData)
    (hh : AccountHeaderReads cd disk (p.ASSET_ACCOUNT_PREFIX :: keyTail))
    (hs : MapSorted disk)
    (n : Nat) (r : BinaryData)
    (hcount : get_var_int (getDataRef disk (p.ASSET_COUNT_PREFIX :: keyTail)) = some (n, r))
    (top : Nat) (r2 : BinaryData)
    (htop : get_var_int (getDataRef disk (p.ASSET_TOP_INDEX_PREFIX :: keyTail))
      = some (top, r2))
    (v : BinaryData) (hbare : mapFind disk (p.ASSETENTRY_PREFIX :: keyTail) = some v) :
    ∀ fuel, AssetAccount.loadFromDisk p cd lookup fuel disk
      (p.ASSET_ACCOUNT_PREFIX :: keyTail) = none := by
  intro fuel
  obtain ⟨typeByte, parent_id, account_id, derScheme, e⟩ :=
    loadFromDisk_header p cd lookup disk keyTail hh fuel
  obtain ⟨rest, hseek⟩ := seek_of_find hs hbare
  have hc0 : ¬ (getDataRef disk (p.ASSET_COUNT_PREFIX :: keyTail)).length = 0 := by
    intro h0
    rw [List.length_eq_zero.1 h0] at hcount
    simp [get_var_int] at hcount
  have ht0 : ¬ (getDataRef disk (p.ASSET_TOP_INDEX_PREFIX :: keyTail)).length = 0 := by
    intro h0
    rw [List.length_eq_zero.1 h0] at htop
    simp [get_var_int] at htop
  rw [e]
  simp only [hc0, if_false, hcount, ht0, htop, hseek, loadAssetsLoop_bare_key]

/-- C35, witness: the store of the toy account with a record at the bare
asset-entry key `8a 00000007 00000001`. -/
theorem loadFromDisk_bare_key_never_returns_witness :
    mapFind toyDiskBareKey [0x8A, 0, 0, 0, 7, 0, 0, 0, 1] = some [9] ∧
    ∀ fuel, AssetAccount.loadFromDisk toyPrefixes toyCodec (fun _ => 2) fuel toyDiskBareKey
      (toyPrefixes.ASSET_ACCOUNT_PREFIX :: [0, 0, 0, 7, 0, 0, 0, 1]) = none :=
  ⟨by decide,
   loadFromDisk_bare_key_never_returns toyPrefixes toyCodec (fun _ => 2) toyDiskBareKey
    [0, 0, 0, 7, 0, 0, 0, 1]
    ⟨0, [4, 2, 1, 32], 4, [2, 1, 32], 2, [1, 32], [1, 32], [], toyDerScheme,
      rfl, rfl, rfl, rfl, rfl, rfl, rfl⟩
    (by unfold MapSorted; decide) 2 [] (by decide) 0xFFFFFFFF [] (by decide) [9] (by decide)⟩

/-- The inner asset account after `peekNextChangeAddress` is the account as
`getNewAsset` leaves it: its `lastUsedIndex_` is incremented, in memory and
under the top-index key of the store. -/
theorem peekNextChangeAddress_bumps (D : Nat) (p : DbPrefixes) (cd : AssetCodec)
    (aa : AddressAccount) (disk : Disk) (t : Nat) (acc : AssetAccount)
    (h1 : p.ASSET_TOP_INDEX_PREFIX ≠ p.ASSETENTRY_PREFIX)
    (h2 : p.ASSET_TOP_INDEX_PREFIX ≠ p.ASSET_COUNT_PREFIX)
    (hacc : mapFind aa.assetAccounts_ aa.innerAccount_ = some acc)
    (ht : (if t = D then aa.defaultAddressEntryType_ else t) ∈ aa.addressTypes_) :
    mapFind (aa.peekNextChangeAddress D p cd disk t).2.1.assetAccounts_ aa.innerAccount_
      = some (acc.getNewAsset p cd disk).2.1 ∧
    (acc.getNewAsset p cd disk).2.1.lastUsedIndex_ = incr32 acc.lastUsedIndex_ ∧
    mapFind (aa.peekNextChangeAddress D p cd disk t).2.2
        (p.ASSET_TOP_INDEX_PREFIX :: acc.getFullID)
      = some (put_var_int (incr32 acc.lastUsedIndex_)) := by
  obtain ⟨e1, -, e3, -⟩ := getNewAsset_spec p cd acc disk h1 h2
  have hnot : ¬ (if t = D then aa.defaultAddressEntryType_ else t) ∉ aa.addressTypes_ :=
    fun h => h ht
  unfold AddressAccount.peekNextChangeAddress
  simp only [hacc, hnot, if_false]
  cases hr : (acc.getNewAsset p cd disk).1 with
  | error e =>
    simp only []
    exact ⟨mapFind_mapInsert_self _ _ _, e1, e3⟩
  | ok assetPtr =>
    simp only []
    exact ⟨mapFind_mapInsert_self _ _ _, e1, e3⟩

/-- C33, on the code: `peekNextChangeAddress` takes the asset with
`getNewAsset()`, not with `peekNextAsset()`. On the toy address account, whose
inner asset account has the assets 0 and 1 and has handed out nothing
(`lastUsedIndex_` is `UINT32_MAX`, stored as such), the call returns the address
of asset 0 and leaves `lastUsedIndex_` at 0, in memory and under the top-index
key of the store; the `getNewChangeAddress` that follows returns the address
of asset 1. -/
theorem peekNextChangeAddress_consumes_index :
    (mapFind toyAddressAccountUnused.assetAccounts_ toyAddressAccountUnused.innerAccount_).map
        AssetAccount.lastUsedIndex_ = some 0xFFFFFFFF ∧
    mapFind toyDiskUnused [0xE3, 0, 0, 0, 7, 0, 0, 0, 1] = some (put_var_int 0xFFFFFFFF) ∧
    (toyAddressAccountUnused.peekNextChangeAddress 0 toyPrefixes toyCodec toyDiskUnused 1).1
      = .ok { asset := (toyAsset [0, 0, 0, 7, 0, 0, 0, 1] 0), type := 1 } ∧
    (mapFind (toyAddressAccountUnused.peekNextChangeAddress 0 toyPrefixes toyCodec
        toyDiskUnused 1).2.1.assetAccounts_ toyAddressAccountUnused.innerAccount_).map
        AssetAccount.lastUsedIndex_ = some 0 ∧
    mapFind (toyAddressAccountUnused.peekNextChangeAddress 0 toyPrefixes toyCodec
        toyDiskUnused 1).2.2 [0xE3, 0, 0, 0, 7, 0, 0, 0, 1] = some (put_var_int 0) ∧
    ((toyAddressAccountUnused.peekNextChangeAddress 0 toyPrefixes toyCodec
        toyDiskUnused 1).2.1.getNewChangeAddress 0 toyPrefixes toyCodec
      (toyAddressAccountUnused.peekNextChangeAddress 0 toyPrefixes toyCodec
        toyDiskUnused 1).2.2 1).1
      = .ok { asset := (toyAsset [0, 0, 0, 7, 0, 0, 0, 1] 1), type := 1 } := by
  decide

/-! ## Accounts.cpp: an address type that is not permitted -/

/-- C37: when the address type asked for (the account default standing for
`AddressEntryType_Default`) is not in the set of permitted types of the address
account, `getNewAddress` and `getNewChangeAddress` throw an `AccountException`
("no currently active asset account", "invalid asset account" or, when the
outer, respectively inner, account is an asset account of the address account,
"invalid address type for this account") and leave the address account and the
store as they were: no asset account, no asset map, no `lastUsedIndex_`, no
entry of the override table and no record has changed. -/
theorem getNewAddress_type_not_permitted (D : Nat) (p : DbPrefixes) (cd : AssetCodec)
    (aa : AddressAccount) (disk : Disk) (t : Nat)
    (ht : (if t = D then aa.defaultAddressEntryType_ else t) ∉ aa.addressTypes_) :
    ((aa.getNewAddress D p cd disk t).1 = .error .noActiveAssetAccount ∨
      (aa.getNewAddress D p cd disk t).1 = .error .invalidAssetAccount ∨
      (aa.getNewAddress D p cd disk t).1 = .error .invalidAddressTypeForAccount) ∧
    (aa.getNewAddress D p cd disk t).2 = (aa, disk) ∧
    (aa.outerAccount_ ≠ [] → (mapFind aa.assetAccounts_ aa.outerAccount_).isSome = true →
      (aa.getNewAddress D p cd disk t).1 = .error .invalidAddressTypeForAccount) ∧
    ((aa.getNewChangeAddress D p cd disk t).1 = .error .noActiveAssetAccount ∨
      (aa.getNewChangeAddress D p cd disk t).1 = .error .invalidAssetAccount ∨
      (aa.getNewChangeAddress D p cd disk t).1 = .error .invalidAddressTypeForAccount) ∧
    (aa.getNewChangeAddress D p cd disk t).2 = (aa, disk) ∧
    (aa.innerAccount_ ≠ [] → (mapFind aa.assetAccounts_ aa.innerAccount_).isSome = true →
      (aa.getNewChangeAddress D p cd disk t).1 = .error .invalidAddressTypeForAccount) := by
  have key : ∀ account : BinaryData,
      ((aa.getNewAddressFor D p cd disk account t).1 = .error .invalidAssetAccount ∨
        (aa.getNewAddressFor D p cd disk account t).1 = .error .invalidAddressTypeForAccount) ∧
      (aa.getNewAddressFor D p cd disk account t).2 = (aa, disk) ∧
      ((mapFind aa.assetAccounts_ account).isSome = true →
        (aa.getNewAddressFor D p cd disk account t).1 = .error .invalidAddressTypeForAccount) := by
    intro account
    unfold AddressAccount.getNewAddressFor
    cases hacc : mapFind aa.assetAccounts_ account with
    | none => exact ⟨Or.inl rfl, rfl, fun h => by cases h⟩
    | some acc =>
      simp [ht]
  refine ⟨?_, ?_, ?_, ?_, ?_, ?_⟩
  · unfold AddressAccount.getNewAddress
    split_ifs with h0
    · exact Or.inl rfl
    · exact Or.inr (key _).1
  · unfold AddressAccount.getNewAddress
    split_ifs with h0
    · rfl
    · exact (key _).2.1
  · intro hne hsome
    have h0 : ¬ aa.outerAccount_.length = 0 := fun h => hne (List.length_eq_zero.1 h)
    unfold AddressAccount.getNewAddress
    rw [if_neg h0]
    exact (key _).2.2 hsome
  · unfold AddressAccount.getNewChangeAddress
    split_ifs with h0
    · exact Or.inl rfl
    · exact Or.inr (key _).1
  · unfold AddressAccount.getNewChangeAddress
    split_ifs with h0
    · rfl
    · exact (key _).2.1
  · intro hne hsome
    have h0 : ¬ aa.innerAccount_.length = 0 := fun h => hne (List.length_eq_zero.1 h)
    unfold AddressAccount.getNewChangeAddress
    rw [if_neg h0]
    exact (key _).2.2 hsome

/-- C37, witness: the toy address account permits the type 1 only; asked for
an address of type 2 it throws "invalid address type for this account" and is
left as it was, with the store. -/
theorem getNewAddress_type_not_permitted_witness :
    (toyAddressAccountUnused.getNewAddress 0 toyPrefixes toyCodec toyDiskUnused 2).1
      = .error .invalidAddressTypeForAccount ∧
    (toyAddressAccountUnused.getNewAddress 0 toyPrefixes toyCodec toyDiskUnused 2).2
      = (toyAddressAccountUnused, toyDiskUnused) ∧
    (toyAddressAccountUnused.getNewChangeAddress 0 toyPrefixes toyCodec toyDiskUnused 2).1
      = .error .invalidAddressTypeForAccount ∧
    (toyAddressAccountUnused.getNewChangeAddress 0 toyPrefixes toyCodec toyDiskUnused 2).2
      = (toyAddressAccountUnused, toyDiskUnused) :=
  have h := getNewAddress_type_not_permitted 0 toyPrefixes toyCodec toyAddressAccountUnused
    toyDiskUnused 2 (by decide)
  ⟨h.2.2.1 (by decide) (by decide), h.2.1, h.2.2.2.2.2 (by decide) (by decide), h.2.2.2.2.1⟩

/-- C34, counterexample: on the toy asset account, which has its root and no
asset, `extendPublicChainToIndex(2)` computes the assets 0 and 1: the last
computed index is 1 and there is no asset at index 2; and
`extendPublicChainToIndex(0)` computes nothing, the last computed index stays
-1. -/
theorem extendPublicChainToIndex_empty_account :
    toyAssetAccount.getLastComputedIndex = -1 ∧
    (toyAssetAccount.extendPublicChainToIndex toyPrefixes toyCodec [] 2).toOption.map
        (fun r => (r.1.assets_.map Prod.fst, r.1.getLastComputedIndex, mapFind r.1.assets_ 2))
      = some ([0, 1], 1, none) ∧
    (toyAssetAccount.extendPublicChainToIndex toyPrefixes toyCodec [] 0).toOption.map
        (fun r => (r.1.assets_.map Prod.fst, r.1.getLastComputedIndex, mapFind r.1.assets_ 0))
      = some ([], -1, none) := by
  decide

theorem getLast_keys {β : Type} (m : List (Nat × β)) :
    (m.map Prod.fst).getLast? = m.getLast?.map Prod.fst := by
  induction m with
  | nil => rfl
  | cons x t ih =>
    cases t with
    | nil => rfl
    | cons y t2 =>
      simp only [List.map_cons, List.getLast?_cons_cons] at ih ⊢
      exact ih

/-- C34, amended: `extendPublicChainToIndex(n)` under a derivation scheme
that yields each index, with `n` and the last computed index within the
positive range of `int`. On an account whose last computed index is `L`: when
`L <= n` the indices `L + 1` to `n` are appended, after which
`getLastComputedIndex()` is `n` and the asset map has an asset at index `n`;
when `L > n` the account and the store are returned as they are. On an account
with no asset the `n` indices 0 to `n - 1` are computed. -/
theorem extendPublicChainToIndex_spec (p : DbPrefixes) (cd : AssetCodec) (a : AssetAccount)
    (disk : Disk) (n : Nat) (hy : a.YieldsEachIndex) (hc : a.ChainOk) (hn : n < 2 ^ 31) :
    (∀ last, a.assets_.getLast? = some last → last.1 < 2 ^ 31 → last.1 ≤ n →
      ∃ a2 d2, a.extendPublicChainToIndex p cd disk n = .ok (a2, d2) ∧
        a2.assets_.map Prod.fst
          = a.assets_.map Prod.fst ++ List.range' (last.1 + 1) (n - last.1) ∧
        a2.getLastComputedIndex = (n : Int) ∧ mapFind a2.assets_ n ≠ none) ∧
    (∀ last, a.assets_.getLast? = some last → last.1 < 2 ^ 31 → n < last.1 →
      a.extendPublicChainToIndex p cd disk n = .ok (a, disk)) ∧
    (a.assets_ = [] →
      ∃ a2 d2, a.extendPublicChainToIndex p cd disk n = .ok (a2, d2) ∧
        a2.assets_.map Prod.fst = List.range n) := by
  refine ⟨?_, ?_, ?_⟩
  · intro last hl h31 hle
    have hlci : (max a.getLastComputedIndex 0).toNat = last.1 := by
      unfold AssetAccount.getLastComputedIndex
      rw [hl]
      simp only [toInt32_of_lt _ h31]
      omega
    have hnext : a.nextComputedIndex = last.1 + 1 := by
      unfold AssetAccount.nextComputedIndex
      rw [hl]
    have htc : (n + 2 ^ 32 - last.1) % 2 ^ 32 = n - last.1 := by omega
    have hw : a.nextComputedIndex + (n - last.1) ≤ 2 ^ 32 := by omega
    obtain ⟨a2, d2, hx, hk, -⟩ := extendPublicChain_yields p cd a disk (n - last.1) hy hc hw
    have hlast2 : (a2.assets_.map Prod.fst).getLast? = some n := by
      rw [hk, hnext]
      by_cases h0 : n - last.1 = 0
      · have : n = last.1 := by omega
        rw [h0, List.range'_zero, List.append_nil, getLast_keys, hl, this]
        rfl
      · have hr : List.range' (last.1 + 1) (n - last.1)
            = List.range' (last.1 + 1) (n - last.1 - 1) ++ [n] := by
          have h1 : n - last.1 = (n - last.1 - 1) + 1 := by omega
          conv_lhs => rw [h1]
          rw [List.range'_concat]
          congr 2
          omega
        rw [hr, ← List.append_assoc, List.getLast?_concat]
    refine ⟨a2, d2, ?_, ?_, ?_, ?_⟩
    · unfold AssetAccount.extendPublicChainToIndex
      simp only [hlci]
      rw [if_neg (by omega), htc]
      exact hx
    · rw [hk, hnext]
    · unfold AssetAccount.getLastComputedIndex
      rw [getLast_keys] at hlast2
      cases hg : a2.assets_.getLast? with
      | none => rw [hg] at hlast2; cases hlast2
      | some l2 =>
        rw [hg] at hlast2
        simp only [Option.map_some', Option.some.injEq] at hlast2
        simp only [hlast2]
        exact toInt32_of_lt n hn
    · intro hnone
      have hmem : n ∈ a2.assets_.map Prod.fst := List.mem_of_mem_getLast? hlast2
      obtain ⟨e, he, hen⟩ := List.mem_map.1 hmem
      exact mapFind_eq_none_iff.1 hnone e he hen
  · intro last hl h31 hlt
    have hlci : (max a.getLastComputedIndex 0).toNat = last.1 := by
      unfold AssetAccount.getLastComputedIndex
      rw [hl]
      simp only [toInt32_of_lt _ h31]
      omega
    unfold AssetAccount.extendPublicChainToIndex
    simp only [hlci]
    rw [if_pos hlt]
  · intro hnil
    have hg : a.assets_.getLast? = none := by rw [hnil]; rfl
    have hlci : (max a.getLastComputedIndex 0).toNat = 0 := by
      unfold AssetAccount.getLastComputedIndex
      rw [hg]
      rfl
    have hnext : a.nextComputedIndex = 0 := by
      unfold AssetAccount.nextComputedIndex
      rw [hg]
    have htc : (n + 2 ^ 32 - 0) % 2 ^ 32 = n := by omega
    have hw : a.nextComputedIndex + n ≤ 2 ^ 32 := by omega
    obtain ⟨a2, d2, hx, hk, -⟩ := extendPublicChain_yields p cd a disk n hy hc hw
    refine ⟨a2, d2, ?_, ?_⟩
    · unfold AssetAccount.extendPublicChainToIndex
      simp only [hlci]
      rw [if_neg (by omega), htc]
      exact hx
    · rw [hk, hnext, hnil, List.range_eq_range']
      rfl

/-- C34, witness: the toy asset account with the assets 0 and 1, extended to
index 4, and the toy asset account with no asset. -/
theorem extendPublicChainToIndex_spec_witness :
    (∃ a2 d2, toyAssetAccountUnused.extendPublicChainToIndex toyPrefixes toyCodec [] 4
        = .ok (a2, d2) ∧
      a2.assets_.map Prod.fst
        = toyAssetAccountUnused.assets_.map Prod.fst ++ List.range' (1 + 1) (4 - 1) ∧
      a2.getLastComputedIndex = ((4 : Nat) : Int) ∧ mapFind a2.assets_ 4 ≠ none) ∧
    toyAssetAccountUnused.extendPublicChainToIndex toyPrefixes toyCodec [] 0
      = .ok (toyAssetAccountUnused, []) :=
  have h := extendPublicChainToIndex_spec toyPrefixes toyCodec toyAssetAccountUnused []
  ⟨(h 4 (toyDerScheme_yields _ rfl)
      ⟨by unfold MapSorted; decide, by decide, fun h => by cases h⟩ (by decide)).1
      (1, toyAsset [0, 0, 0, 7, 0, 0, 0, 1] 1) rfl (by decide) (by decide),
    (h 0 (toyDerScheme_yields _ rfl)
      ⟨by unfold MapSorted; decide, by decide, fun h => by cases h⟩ (by decide)).2.1
      (1, toyAsset [0, 0, 0, 7, 0, 0, 0, 1] 1) rfl (by decide) (by decide)⟩

/-! ## DecryptedDataContainer.cpp: a passphrase change that fails -/

theorem insertDecryptedKey_frame (ddc : DecryptedDataContainer) (keyid : BinaryData)
    (k : Option DecryptedEncryptionKey) : ddc.Frame (ddc.insertDecryptedKey keyid k).2 := by
  unfold DecryptedDataContainer.insertDecryptedKey
  cases k with
  | none => exact frame_refl _
  | some dk =>
    cases hm : ddc.lockedDecryptedData_ with
    | none => exact frame_refl _
    | some maps => exact ⟨rfl, rfl, rfl, rfl, rfl, rfl, rfl⟩

theorem promptPassphrase_frame (cl : CipherLayer) (keyMap : List (BinaryData × BinaryData)) :
    ∀ (fuel : Nat) (ddc S : DecryptedDataContainer)
      (r : Except ContainerError DecryptedEncryptionKey),
      ddc.promptPassphrase cl fuel keyMap = some (r, S) → ddc.Frame S := by
  intro fuel
  induction fuel with
  | zero =>
    intro ddc S r h
    simp [DecryptedDataContainer.promptPassphrase] at h
  | succ n ih =>
    intro ddc S r h
    unfold DecryptedDataContainer.promptPassphrase at h
    split at h
    · simp only [Option.some.injEq, Prod.mk.injEq] at h
      rw [← h.2]
      exact frame_refl _
    · dsimp only at h
      split at h
      · simp only [Option.some.injEq, Prod.mk.injEq] at h
        rw [← h.2]
        exact frame_promptCalls _ _
      · split at h
        · simp only [Option.some.injEq, Prod.mk.injEq] at h
          rw [← h.2]
          exact frame_promptCalls _ _
        · simp only [Option.some.injEq, Prod.mk.injEq] at h
          rw [← h.2]
          exact frame_promptCalls _ _
        · exact frame_trans (frame_promptCalls _ _) (ih _ _ _ h)

theorem frame_moveOut (ddc : DecryptedDataContainer) (m : DecryptedDataMaps) :
    ddc.Frame { ddc with lockedDecryptedData_ := some m } :=
  ⟨rfl, rfl, rfl, rfl, rfl, rfl, rfl⟩

theorem decryptFromParents_frame (cl : CipherLayer) :
    ∀ (l : List (BinaryData × CipherData)) (ddc : DecryptedDataContainer)
      (dk : Option DecryptedEncryptionKey) (done : Bool),
      ddc.Frame (DecryptedDataContainer.decryptFromParents cl l ddc dk done).2 := by
  intro l
  induction l with
  | nil =>
    intro ddc dk done
    exact frame_refl _
  | cons c rest ih =>
    intro ddc dk done
    unfold DecryptedDataContainer.decryptFromParents
    dsimp only
    split
    · exact frame_refl _
    · rename_i maps hm
      split
      · exact ih _ _ _
      · rename_i moved hmv
        split
        · exact frame_moveOut _ _
        · split
          · exact frame_moveOut _ _
          · split
            · exact frame_moveOut _ _
            · split
              · rename_i e ddc2 hins
                have := insertDecryptedKey_frame
                  { ddc with lockedDecryptedData_ := some (maps.moveOut c.2.cipher_.encryptionKeyId_) }
                  c.2.cipher_.encryptionKeyId_ (some (by assumption))
                rw [hins] at this
                exact frame_trans (frame_moveOut _ _) this
              · rename_i u ddc2 hins
                have := insertDecryptedKey_frame
                  { ddc with lockedDecryptedData_ := some (maps.moveOut c.2.cipher_.encryptionKeyId_) }
                  c.2.cipher_.encryptionKeyId_ (some (by assumption))
                rw [hins] at this
                exact frame_trans (frame_trans (frame_moveOut _ _) this) (ih _ _ _)

theorem decryptEncryptedKey_frame (cl : CipherLayer)
    (recurse : DecryptedDataContainer → List (BinaryData × BinaryData) →
      Option (Except ContainerError Unit × DecryptedDataContainer))
    (hrec : ∀ d km r S, recurse d km = some (r, S) → d.Frame S)
    (ddc S : DecryptedDataContainer) (keyMap : List (BinaryData × BinaryData))
    (keyId kdfId : BinaryData)
    (r : Except ContainerError (Option DecryptedEncryptionKey × BinaryData × BinaryData))
    (h : ddc.decryptEncryptedKey cl recurse keyMap keyId kdfId = some (r, S)) :
    ddc.Frame S := by
  unfold DecryptedDataContainer.decryptEncryptedKey at h
  split at h
  · simp only [Option.some.injEq, Prod.mk.injEq] at h
    rw [← h.2]
    exact frame_refl _
  · split at h
    · simp only [Option.some.injEq, Prod.mk.injEq] at h
      rw [← h.2]
      exact frame_refl _
    · rename_i ek hek
      split at h
      · cases h
      · rename_i e ddc1 hr
        simp only [Option.some.injEq, Prod.mk.injEq] at h
        rw [← h.2]
        exact hrec _ _ _ _ hr
      · rename_i u ddc1 hr
        have f1 := hrec _ _ _ _ hr
        have f2 := decryptFromParents_frame cl ek.cipherData_ ddc1 none false
        split at h
        · rename_i e ddc2 hd
          rw [hd] at f2
          simp only [Option.some.injEq, Prod.mk.injEq] at h
          rw [← h.2]
          exact frame_trans f1 f2
        · rename_i dk done ddc2 hd
          rw [hd] at f2
          split at h <;>
          · simp only [Option.some.injEq, Prod.mk.injEq] at h
            rw [← h.2]
            exact frame_trans f1 f2

theorem promptAndInsert_frame (cl : CipherLayer) (fuel : Nat) (ddc S : DecryptedDataContainer)
    (keyMap : List (BinaryData × BinaryData)) (dk : Option DecryptedEncryptionKey)
    (keyId kdfId : BinaryData) (r : Except ContainerError Unit)
    (h : ddc.promptAndInsert cl fuel keyMap dk keyId kdfId = some (r, S)) : ddc.Frame S := by
  unfold DecryptedDataContainer.promptAndInsert at h
  dsimp only at h
  split at h
  · cases h
  · rename_i e ddc3 h3
    simp only [Option.some.injEq, Prod.mk.injEq] at h
    rw [← h.2]
    split at h3
    · cases h3
    · split at h3
      · cases h3
      · simp only [Option.some.injEq, Prod.mk.injEq] at h3
        rw [← h3.2]
        exact promptPassphrase_frame cl keyMap _ _ _ _ (by assumption)
      · split at h3
        · simp only [Option.some.injEq, Prod.mk.injEq] at h3
          rw [← h3.2]
          exact promptPassphrase_frame cl keyMap _ _ _ _ (by assumption)
        · cases h3
  · rename_i k kid kdf ddc3 h3
    have f3 : ddc.Frame ddc3 := by
      split at h3
      · simp only [Option.some.injEq, Prod.mk.injEq] at h3
        rw [← h3.2]
        exact frame_refl _
      · split at h3
        · cases h3
        · cases h3
        · split at h3
          · cases h3
          · simp only [Option.some.injEq, Prod.mk.injEq] at h3
            rw [← h3.2]
            exact promptPassphrase_frame cl keyMap _ _ _ _ (by assumption)
    split at h
    · simp only [Option.some.injEq, Prod.mk.injEq] at h
      rw [← h.2]
      exact f3
    · rename_i dk2 hdk
      simp only [Option.some.injEq] at h
      have := insertDecryptedKey_frame ddc3 kid (some dk2)
      rw [h] at this
      exact frame_trans f3 this

theorem populateEncryptionKey_frame (cl : CipherLayer) :
    ∀ (fuel : Nat) (ddc S : DecryptedDataContainer) (keyMap : List (BinaryData × BinaryData))
      (r : Except ContainerError Unit),
      ddc.populateEncryptionKey cl fuel keyMap = some (r, S) → ddc.Frame S := by
  intro fuel
  induction fuel with
  | zero =>
    intro ddc S keyMap r h
    simp [DecryptedDataContainer.populateEncryptionKey] at h
  | succ n ih =>
    intro ddc S keyMap r h
    unfold DecryptedDataContainer.populateEncryptionKey at h
    split at h
    · simp only [Option.some.injEq, Prod.mk.injEq] at h
      rw [← h.2]
      exact frame_refl _
    · split at h
      · simp only [Option.some.injEq, Prod.mk.injEq] at h
        rw [← h.2]
        exact frame_refl _
      · rename_i maps hm
        dsimp only at h
        have f1 : ddc.Frame (match List.find?
            (fun keyPair => (mapFind maps.encryptionKeys_ keyPair.1).isSome) keyMap with
          | none => ddc
          | some keyPair =>
            { ddc with lockedDecryptedData_ := some (maps.moveOut keyPair.1) }) := by
          split
          · exact frame_refl _
          · exact frame_moveOut _ _
        split at h
        · cases h
        · rename_i e ddc2 h2
          simp only [Option.some.injEq, Prod.mk.injEq] at h
          rw [← h.2]
          split at h2
          · cases h2
          · exact frame_trans f1
              (decryptEncryptedKey_frame cl _ (fun d km r S hr => ih d S km r hr) _ _ _ _ _ _ h2)
        · rename_i dk kid kdf ddc2 h2
          have f2 : ddc.Frame ddc2 := by
            split at h2
            · simp only [Option.some.injEq, Prod.mk.injEq] at h2
              rw [← h2.2]
              exact f1
            · exact frame_trans f1
                (decryptEncryptedKey_frame cl _ (fun d km r S hr => ih d S km r hr)
                  _ _ _ _ _ _ h2)
          exact frame_trans f2 (promptAndInsert_frame cl n _ _ _ _ _ _ _ h)

theorem encryptData_frame (cl : CipherLayer) (fuel : Nat) (ddc S : DecryptedDataContainer)
    (cipher : Option Cipher) (data : BinaryData) (r : Except ContainerError BinaryData)
    (h : ddc.encryptData cl fuel cipher data = some (r, S)) : ddc.Frame S := by
  unfold DecryptedDataContainer.encryptData at h
  split at h
  · simp only [Option.some.injEq, Prod.mk.injEq] at h
    rw [← h.2]
    exact frame_refl _
  · split at h
    · simp only [Option.some.injEq, Prod.mk.injEq] at h
      rw [← h.2]
      exact frame_refl _
    · split at h
      · simp only [Option.some.injEq, Prod.mk.injEq] at h
        rw [← h.2]
        exact frame_refl _
      · dsimp only at h
        split at h
        · cases h
        · rename_i e ddc1 hp
          simp only [Option.some.injEq, Prod.mk.injEq] at h
          rw [← h.2]
          exact populateEncryptionKey_frame cl _ _ _ _ _ hp
        · rename_i u ddc1 hp
          have f1 := populateEncryptionKey_frame cl _ _ _ _ _ hp
          split at h
          · simp only [Option.some.injEq, Prod.mk.injEq] at h
            rw [← h.2]
            exact f1
          · split at h
            · split at h <;>
              · simp only [Option.some.injEq, Prod.mk.injEq] at h
                rw [← h.2]
                exact f1
            · simp only [Option.some.injEq, Prod.mk.injEq] at h
              rw [← h.2]
              exact f1

theorem mapErase_of_not_found {κ β : Type} [DecidableEq κ] (m : List (κ × β)) (k : κ)
    (h : mapFind m k = none) : mapErase m k = m := by
  unfold mapErase
  rw [List.filter_eq_self]
  intro e he
  have := mapFind_eq_none_iff.1 h e he
  simpa using this

/-- `updateKeyOnDiskNoPrefix` called by the holder of the lock throws only on a
record under the key that does not deserialize, and then the container is as
it was; a call that returns changes the store only. -/
theorem updateKeyOnDiskNoPrefix_cases (kc : KeyCodec) (ddc : DecryptedDataContainer)
    (dbKey : BinaryData) (dataPtr : Asset_EncryptionKey) (hlock : ddc.ownsLock = true) :
    (∀ e, (ddc.updateKeyOnDiskNoPrefix kc dbKey dataPtr).1 = .error e →
      (ddc.updateKeyOnDiskNoPrefix kc dbKey dataPtr).2 = ddc ∧ e = .runtimeError ∧
      ∃ v, mapFind ddc.store_ dbKey = some v ∧ v ≠ [] ∧ kc.deserialize v = none) ∧
    (ddc.updateKeyOnDiskNoPrefix kc dbKey dataPtr).2.ownsLock = true ∧
    (ddc.updateKeyOnDiskNoPrefix kc dbKey dataPtr).2.encryptionKeyMap_ = ddc.encryptionKeyMap_ ∧
    (mapFind ddc.store_ dbKey = none →
      (ddc.updateKeyOnDiskNoPrefix kc dbKey dataPtr).1 = .ok ()) := by
  have hl : ddc.lock_ = .caller := by
    simpa [DecryptedDataContainer.ownsLock] using hlock
  unfold DecryptedDataContainer.updateKeyOnDiskNoPrefix DecryptedDataContainer.deleteKeyFromDisk
  simp only [hlock, Bool.not_true, Bool.false_eq_true, if_false]
  cases hf : mapFind ddc.store_ dbKey with
  | none => simp [DecryptedDataContainer.ownsLock, hl]
  | some v =>
    simp only [Option.getD_some]
    by_cases hv : v.length ≠ 0
    · have hv2 : v ≠ [] := fun hnil => hv (by rw [hnil]; rfl)
      simp only [hv, if_true, ne_eq, not_false_eq_true]
      cases hd : kc.deserialize v with
      | none => simp [DecryptedDataContainer.ownsLock, hl, hv2, hd]
      | some od =>
        simp only []
        by_cases hs : kc.isSame od dataPtr = true
        · simp [hs, DecryptedDataContainer.ownsLock, hl]
        · simp [hs, DecryptedDataContainer.ownsLock, hl]
    · simp [hv, DecryptedDataContainer.ownsLock, hl]

theorem deleteKeyFromDisk_cases (ddc : DecryptedDataContainer) (key : BinaryData)
    (hlock : ddc.ownsLock = true) :
    ddc.deleteKeyFromDisk key = (.ok (), { ddc with store_ := mapErase ddc.store_ key }) := by
  unfold DecryptedDataContainer.deleteKeyFromDisk
  simp [hlock]

/-- The three transactions at the end of `encryptEncryptionKey`, run by the
holder of the lock, throw only when the store holds a record under the
temporary key that does not deserialize, and nothing is written then. -/
theorem writeEncryptedKey_error (kc : KeyCodec) (kp : KeyPrefixes)
    (ddc S : DecryptedDataContainer) (keyID : BinaryData) (K : Asset_EncryptionKey)
    (e : ContainerError) (hlock : ddc.ownsLock = true)
    (h : ddc.writeEncryptedKey kc kp keyID K = (.error e, S)) :
    S = ddc ∧ e = .runtimeError ∧
    ∃ v, mapFind ddc.store_ (kp.ENCRYPTIONKEY_PREFIX_TEMP :: keyID) = some v ∧ v ≠ [] ∧
      kc.deserialize v = none := by
  unfold DecryptedDataContainer.writeEncryptedKey at h
  dsimp only at h
  obtain ⟨c1, c2, -, -⟩ := updateKeyOnDiskNoPrefix_cases kc ddc
    (kp.ENCRYPTIONKEY_PREFIX_TEMP :: keyID) K hlock
  cases h1 : ddc.updateKeyOnDiskNoPrefix kc (kp.ENCRYPTIONKEY_PREFIX_TEMP :: keyID) K with
  | mk r1 ddc1 =>
    rw [h1] at h c1 c2
    cases r1 with
    | error e1 =>
      simp only [Prod.mk.injEq, Except.error.injEq] at h
      obtain ⟨q1, q2, q3⟩ := c1 e1 rfl
      simp only at q1
      rw [← h.1, ← h.2]
      exact ⟨q1, q2, q3⟩
    | ok u =>
      exfalso
      simp only at h c2
      rw [deleteKeyFromDisk_cases ddc1 _ c2] at h
      simp only at h
      have hl2 : ({ ddc1 with store_ := mapErase ddc1.store_ (kp.ENCRYPTIONKEY_PREFIX :: keyID) }
          : DecryptedDataContainer).ownsLock = true := c2
      obtain ⟨-, d2, -, d4⟩ := updateKeyOnDiskNoPrefix_cases kc
        { ddc1 with store_ := mapErase ddc1.store_ (kp.ENCRYPTIONKEY_PREFIX :: keyID) }
        (kp.ENCRYPTIONKEY_PREFIX :: keyID) K hl2
      have d5 := d4 (mapFind_mapErase_self _ _)
      cases h2 : DecryptedDataContainer.updateKeyOnDiskNoPrefix kc
          { ddc1 with store_ := mapErase ddc1.store_ (kp.ENCRYPTIONKEY_PREFIX :: keyID) }
          (kp.ENCRYPTIONKEY_PREFIX :: keyID) K with
      | mk r2 ddc3 =>
        rw [h2] at h d2 d5
        simp only at d5 d2
        subst d5
        simp only at h
        rw [deleteKeyFromDisk_cases ddc3 _ d2] at h
        cases h

theorem structure_eta_cipherData (K : Asset_EncryptionKey) :
    ({ K with cipherData_ := K.cipherData_ } : Asset_EncryptionKey) = K := by
  cases K
  rfl

theorem addCipherData_refused (k : Asset_EncryptionKey) (cd : CipherData)
    (h : (k.addCipherData cd).1 = false) : (k.addCipherData cd).2 = k := by
  unfold Asset_EncryptionKey.addCipherData at h ⊢
  cases hf : mapFind k.cipherData_ cd.cipher_.encryptionKeyId_ with
  | none =>
    rw [hf] at h
    cases h
  | some x => rfl

/-- A failure of `encryptEncryptionKey` from "create new cipher" on, `K` being
the master key as the container holds it: the store is as it was; the master
key is as it was, unless the call fails on the new wrap with `replace` true,
or on the write of the temporary record. -/
theorem rewrap_error (cl : CipherLayer) (kc : KeyCodec) (kp : KeyPrefixes)
    (fuel : Nat) (ddc S : DecryptedDataContainer) (keyID : BinaryData)
    (K : Asset_EncryptionKey) (decryptedKey : BinaryData) (cipherPtr : Cipher)
    (newKeyId : BinaryData) (newEncryptionKey : DecryptedEncryptionKey) (replace : Bool)
    (iv : BinaryData) (e : ContainerError) (hlock : ddc.ownsLock = true)
    (hK : mapFind ddc.encryptionKeyMap_ keyID = some K)
    (h : ddc.rewrap cl kc kp fuel keyID K decryptedKey cipherPtr newKeyId newEncryptionKey
      replace iv = some (.error e, S)) :
    S.store_ = ddc.store_ ∧
    (mapFind S.encryptionKeyMap_ keyID = some K ∨
      (replace = true ∧ e = .container .cipherDataAlreadyPresent ∧
        (mapFind K.cipherData_ cipherPtr.encryptionKeyId_).isSome = true ∧
        mapFind S.encryptionKeyMap_ keyID
          = some { K with cipherData_ := mapErase K.cipherData_ cipherPtr.encryptionKeyId_ }) ∨
      (e = .runtimeError ∧
        ∃ v, mapFind ddc.store_ (kp.ENCRYPTIONKEY_PREFIX_TEMP :: keyID) = some v ∧ v ≠ [] ∧
          kc.deserialize v = none)) := by
  unfold DecryptedDataContainer.rewrap at h
  dsimp only at h
  split at h
  · simp only [Option.some.injEq, Prod.mk.injEq] at h
    rw [← h.2]
    exact ⟨rfl, Or.inl hK⟩
  · rename_i maps hm
    have f0 := frame_moveOut ddc
      ({ maps with encryptionKeys_ :=
          mapEmplace maps.encryptionKeys_ newKeyId (some newEncryptionKey) })
    split at h
    · cases h
    · rename_i e2 ddc2 hen
      have f2 := frame_trans f0 (encryptData_frame cl _ _ _ _ _ _ hen)
      simp only [Option.some.injEq, Prod.mk.injEq] at h
      rw [← h.2]
      exact ⟨f2.store, Or.inl (by rw [f2.keys]; exact hK)⟩
    · rename_i ct ddc2 hen
      have f2 := frame_trans f0 (encryptData_frame cl _ _ _ _ _ _ hen)
      have hl2 : ddc2.ownsLock = true := by rw [frame_ownsLock f2]; exact hlock
      have hadd2 := addCipherData_refused
      cases replace with
      | false =>
        simp only [Bool.false_eq_true, if_false, Bool.not_true] at h
        split at h
        · -- "cipher data already present in encryption key"
          rename_i hadd
          simp only [Option.some.injEq, Prod.mk.injEq] at h
          rw [← h.2]
          refine ⟨f2.store, Or.inl ?_⟩
          rw [mapFind_mapInsert_self, hadd2 _ _ (by simpa using hadd)]
        · simp only [Option.some.injEq] at h
          obtain ⟨w1, w2, w3⟩ := writeEncryptedKey_error kc kp _ S keyID _ e (by exact hl2) h
          rw [w1]
          refine ⟨f2.store, Or.inr (Or.inr ⟨w2, ?_⟩)⟩
          rw [← f2.store]
          exact w3
      | true =>
        simp only [if_true] at h
        split at h
        · -- "failed to erase old encryption key"
          rename_i hrem
          have hrem2 : mapFind K.cipherData_ cipherPtr.encryptionKeyId_ = none := by
            simpa [Asset_EncryptionKey.removeCipherData] using hrem
          simp only [Option.some.injEq, Prod.mk.injEq] at h
          rw [← h.2]
          refine ⟨f2.store, Or.inl ?_⟩
          simp only [Asset_EncryptionKey.removeCipherData]
          rw [mapFind_mapInsert_self, mapErase_of_not_found _ _ hrem2]
        · rename_i hrem
          have hrem2 : (mapFind K.cipherData_ cipherPtr.encryptionKeyId_).isSome = true := by
            rw [Option.isSome_iff_ne_none]
            simpa [Asset_EncryptionKey.removeCipherData] using hrem
          split at h
          · -- "cipher data already present in encryption key"
            rename_i hadd
            simp only [Option.some.injEq, Prod.mk.injEq] at h
            rw [← h.2]
            refine ⟨f2.store, Or.inr (Or.inl ⟨rfl, (Except.error.inj h.1).symm, hrem2, ?_⟩)⟩
            rw [mapFind_mapInsert_self, hadd2 _ _ (by simpa using hadd)]
            rfl
          · simp only [Option.some.injEq] at h
            obtain ⟨w1, w2, w3⟩ := writeEncryptedKey_error kc kp _ S keyID _ e (by exact hl2) h
            rw [w1]
            refine ⟨f2.store, Or.inr (Or.inr ⟨w2, ?_⟩)⟩
            rw [← f2.store]
            exact w3

/-- A failure of the body of `encryptEncryptionKey` under the lock. -/
theorem encryptEncryptionKeyLocked_error (cl : CipherLayer) (kc : KeyCodec) (kp : KeyPrefixes)
    (fuel : Nat) (ddc S : DecryptedDataContainer)
    (keyID kdfID newPassphrase : BinaryData) (replace : Bool) (iv : BinaryData)
    (e : ContainerError)
    (h : ddc.encryptEncryptionKeyLocked cl kc kp fuel keyID kdfID newPassphrase replace iv
      = some (.error e, S)) :
    S.store_ = ddc.store_ ∧
    (mapFind S.encryptionKeyMap_ keyID = mapFind ddc.encryptionKeyMap_ keyID ∨
      (replace = true ∧ e = .container .cipherDataAlreadyPresent ∧
        ∃ K old, mapFind ddc.encryptionKeyMap_ keyID = some K ∧
          (mapFind K.cipherData_ old).isSome = true ∧
          mapFind S.encryptionKeyMap_ keyID
            = some { K with cipherData_ := mapErase K.cipherData_ old }) ∨
      (e = .runtimeError ∧
        ∃ v, mapFind ddc.store_ (kp.ENCRYPTIONKEY_PREFIX_TEMP :: keyID) = some v ∧ v ≠ [] ∧
          kc.deserialize v = none)) := by
  have close : ∀ (T : DecryptedDataContainer) (x : ContainerError), ddc.Frame T →
      some ((Except.error x : Except ContainerError Unit), T) = some (.error e, S) →
      S.store_ = ddc.store_ ∧
      (mapFind S.encryptionKeyMap_ keyID = mapFind ddc.encryptionKeyMap_ keyID ∨
        (replace = true ∧ e = .container .cipherDataAlreadyPresent ∧
          ∃ K old, mapFind ddc.encryptionKeyMap_ keyID = some K ∧
            (mapFind K.cipherData_ old).isSome = true ∧
            mapFind S.encryptionKeyMap_ keyID
              = some { K with cipherData_ := mapErase K.cipherData_ old }) ∨
        (e = .runtimeError ∧
          ∃ v, mapFind ddc.store_ (kp.ENCRYPTIONKEY_PREFIX_TEMP :: keyID) = some v ∧ v ≠ [] ∧
            kc.deserialize v = none)) := by
    intro T x f hh
    simp only [Option.some.injEq, Prod.mk.injEq] at hh
    rw [← hh.2]
    exact ⟨f.store, Or.inl (by rw [f.keys])⟩
  unfold DecryptedDataContainer.encryptEncryptionKeyLocked at h
  split at h
  · exact close _ _ (frame_refl _) h
  · rename_i hown
    have hlock : ddc.ownsLock = true := by simpa using hown
    split at h
    · exact close _ _ (frame_refl _) h
    · split at h
      · exact close _ _ (frame_refl _) h
      · rename_i K hK
        dsimp only at h
        split at h
        · cases h
        · rename_i e1 ddc1 hp
          exact close _ _ (populateEncryptionKey_frame cl _ _ _ _ _ hp) h
        · rename_i u ddc1 hp
          have f1 := populateEncryptionKey_frame cl _ _ _ _ _ hp
          split at h
          · exact close _ _ f1 h
          · split at h
            · exact close _ _ f1 h
            · exact close _ _ f1 h
            · split at h
              · exact close _ _ f1 h
              · exact close _ _ f1 h
              · split at h
                · exact close _ _ f1 h
                · split at h
                  · exact close _ _ f1 h
                  · rename_i cipherPtr hc
                    have hl1 : ddc1.ownsLock = true := by rw [frame_ownsLock f1]; exact hlock
                    have hK1 : mapFind ddc1.encryptionKeyMap_ keyID = some K := by
                      rw [f1.keys]
                      exact hK
                    obtain ⟨r1, r2⟩ := rewrap_error cl kc kp fuel ddc1 S keyID K _ cipherPtr _ _
                      replace iv e hl1 hK1 h
                    refine ⟨r1.trans f1.store, ?_⟩
                    rcases r2 with r2 | ⟨q1, q2, q3, q4⟩ | ⟨q1, q2⟩
                    · exact Or.inl (by rw [r2, hK])
                    · exact Or.inr (Or.inl ⟨q1, q2, K, _, hK, q3, q4⟩)
                    · refine Or.inr (Or.inr ⟨q1, ?_⟩)
                      rw [← f1.store]
                      exact q2

/-- C38, amended: a failure of `encryptEncryptionKey(keyID, kdfID,
newPassphrase, replace)`, after the lock was acquired or on the lock. The store
is the same as before the call, the record of the master key with it, for
`replace` true and false. The master key is held in memory as before the call,
unless (a) `replace` is true and the call fails with "cipher data already
present in encryption key": then the wrap that the key was unlocked with is
removed from the wraps in memory; or (b) the store holds a record under the
temporary key that does not deserialize and the call fails on it: then the
wraps in memory are already changed. With `replace` false the failure "cipher
data already present in encryption key" leaves the wraps in memory as they
were. -/
theorem encryptEncryptionKey_failure (cl : CipherLayer) (kc : KeyCodec) (kp : KeyPrefixes)
    (fuel : Nat) (ddc S : DecryptedDataContainer)
    (keyID kdfID newPassphrase : BinaryData) (replace : Bool) (iv : BinaryData)
    (e : ContainerError)
    (h : ddc.encryptEncryptionKey cl kc kp fuel keyID kdfID newPassphrase replace iv
      = some (.error e, S)) :
    S.store_ = ddc.store_ ∧
    (mapFind S.encryptionKeyMap_ keyID = mapFind ddc.encryptionKeyMap_ keyID ∨
      (replace = true ∧ e = .container .cipherDataAlreadyPresent ∧
        ∃ K old, mapFind ddc.encryptionKeyMap_ keyID = some K ∧
          (mapFind K.cipherData_ old).isSome = true ∧
          mapFind S.encryptionKeyMap_ keyID
            = some { K with cipherData_ := mapErase K.cipherData_ old }) ∨
      (e = .runtimeError ∧
        ∃ v, mapFind ddc.store_ (kp.ENCRYPTIONKEY_PREFIX_TEMP :: keyID) = some v ∧ v ≠ [] ∧
          kc.deserialize v = none)) ∧
    (replace = false → e = .container .cipherDataAlreadyPresent →
      mapFind S.encryptionKeyMap_ keyID = mapFind ddc.encryptionKeyMap_ keyID) := by
  have main : S.store_ = ddc.store_ ∧
      (mapFind S.encryptionKeyMap_ keyID = mapFind ddc.encryptionKeyMap_ keyID ∨
        (replace = true ∧ e = .container .cipherDataAlreadyPresent ∧
          ∃ K old, mapFind ddc.encryptionKeyMap_ keyID = some K ∧
            (mapFind K.cipherData_ old).isSome = true ∧
            mapFind S.encryptionKeyMap_ keyID
              = some { K with cipherData_ := mapErase K.cipherData_ old }) ∨
        (e = .runtimeError ∧
          ∃ v, mapFind ddc.store_ (kp.ENCRYPTIONKEY_PREFIX_TEMP :: keyID) = some v ∧ v ≠ [] ∧
            kc.deserialize v = none)) := by
    unfold DecryptedDataContainer.encryptEncryptionKey at h
    split at h
    · simp only [Option.some.injEq, Prod.mk.injEq] at h
      rw [← h.2]
      exact ⟨rfl, Or.inl rfl⟩
    · rename_i ddc1 hl
      have e1 : ddc1.store_ = ddc.store_ ∧ ddc1.encryptionKeyMap_ = ddc.encryptionKeyMap_ := by
        unfold DecryptedDataContainer.singleLock at hl
        split at hl
        · simp only [Except.ok.injEq] at hl
          rw [← hl]
          exact ⟨rfl, rfl⟩
        · cases hl
      split at h
      · cases h
      · rename_i r ddc2 hb
        simp only [Option.some.injEq, Prod.mk.injEq] at h
        rw [h.1] at hb
        have := encryptEncryptionKeyLocked_error cl kc kp fuel ddc1 ddc2 keyID kdfID
          newPassphrase replace iv e hb
        rw [e1.1, e1.2] at this
        rw [← h.2]
        exact this
  refine ⟨main.1, main.2, ?_⟩
  intro hr he
  rcases main.2 with m | ⟨q1, -⟩ | ⟨q1, -⟩
  · exact m
  · rw [hr] at q1
    cases q1
  · rw [he] at q1
    cases q1

/-- C38, counterexample: the toy container after the passphrase `[8]` was
added holds the master key with the wraps `[7, 5]` and `[7, 8]`, and the prompt
answers `[5]`. `encryptEncryptionKey` with the new passphrase `[8]` and
`replace` true fails with "cipher data already present in encryption key"; the
store is as before, and the master key is left in memory with the wrap
`[7, 8]` only: the wrap under `[7, 5]`, the one the key was unlocked with, is
removed. -/
theorem encryptEncryptionKey_failure_drops_wrap :
    (mapFind toyContainerRewrapped.encryptionKeyMap_ [0xAA]).map
        (fun k => k.cipherData_.map Prod.fst) = some [[7, 5], [7, 8]] ∧
    toyContainerRewrapped.lock_ = .free ∧
    (toyContainerRewrapped.encryptEncryptionKey toyCipherLayer toyKeyCodec toyKeyPrefixes 5
        [0xAA] [1] [8] true [2, 2]).map
      (fun r => (r.1, (mapFind r.2.encryptionKeyMap_ [0xAA]).map
        (fun k => k.cipherData_.map Prod.fst), r.2.store_))
      = some (.error (.container .cipherDataAlreadyPresent), some [[7, 8]],
          toyContainerRewrapped.store_) := by
  decide

/-- C38, witness: on the same container the new passphrase `[8]` with
`replace` false fails with "cipher data already present in encryption key";
the store and the wraps in memory are as before. -/
theorem encryptEncryptionKey_failure_witness :
    toyContainerRewrapped.encryptEncryptionKey toyCipherLayer toyKeyCodec toyKeyPrefixes 5
        [0xAA] [1] [8] false [2, 2]
      = some (.error (.container .cipherDataAlreadyPresent),
          { toyContainerRewrapped with promptCalls_ := 3 }) ∧
    ({ toyContainerRewrapped with promptCalls_ := 3 } : DecryptedDataContainer).store_
      = toyContainerRewrapped.store_ ∧
    mapFind ({ toyContainerRewrapped with promptCalls_ := 3 } :
        DecryptedDataContainer).encryptionKeyMap_ [0xAA]
      = mapFind toyContainerRewrapped.encryptionKeyMap_ [0xAA] :=
  have h := encryptEncryptionKey_failure toyCipherLayer toyKeyCodec toyKeyPrefixes 5
    toyContainerRewrapped { toyContainerRewrapped with promptCalls_ := 3 } [0xAA] [1] [8]
    false [2, 2] (.container .cipherDataAlreadyPresent) rfl
  ⟨rfl, h.1, h.2.2 rfl rfl⟩

/-! ## Accounts.cpp: the indices of the asset map -/

theorem seg_find {β : Type} (m : List (Nat × β)) (n k : Nat)
    (h : m.map Prod.fst = List.range n) : mapFind m k = none ↔ n ≤ k := by
  rw [mapFind_eq_none_iff]
  constructor
  · intro hne
    by_contra hlt
    have hk : k ∈ m.map Prod.fst := by
      rw [h]
      exact List.mem_range.2 (by omega)
    obtain ⟨e, he, hek⟩ := List.mem_map.1 hk
    exact hne e he hek
  · intro hle e he hek
    have : e.1 ∈ m.map Prod.fst := List.mem_map.2 ⟨e, he, rfl⟩
    rw [h] at this
    have := List.mem_range.1 this
    omega

theorem seg_sorted {β : Type} (m : List (Nat × β)) (n : Nat)
    (h : m.map Prod.fst = List.range n) : MapSorted m := by
  rw [mapSorted_iff_keys, h]
  exact List.pairwise_lt_range n

theorem mapInsert_keys_present {β : Type} (m : List (Nat × β)) (hs : MapSorted m) (k : Nat)
    (v : β) (hk : k ∈ m.map Prod.fst) : (mapInsert m k v).map Prod.fst = m.map Prod.fst := by
  induction m with
  | nil => cases hk
  | cons e t ih =>
    obtain ⟨k', w⟩ := e
    by_cases h1 : k' = k
    · simp only [mapInsert, h1, if_true, List.map_cons]
    · have hk2 : k ∈ t.map Prod.fst := by
        simp only [List.map_cons, List.mem_cons] at hk
        rcases hk with hk | hk
        · exact absurd hk.symm h1
        · exact hk
      obtain ⟨e2, he2, hek⟩ := List.mem_map.1 hk2
      have hlt : MapKey.less k' e2.1 = true := (List.pairwise_cons.1 hs).1 e2 he2
      rw [hek] at hlt
      have h2 : MapKey.less k k' = false := natLaws.asymm hlt
      simp only [mapInsert, h1, if_false, h2, List.map_cons, Bool.false_eq_true]
      rw [ih (List.pairwise_cons.1 hs).2 hk2]

theorem mapInsert_keys_next {β : Type} (m : List (Nat × β)) (n : Nat) (v : β)
    (h : m.map Prod.fst = List.range n) :
    (mapInsert m n v).map Prod.fst = List.range (n + 1) := by
  have hless : ∀ e ∈ m, MapKey.less e.1 n = true := by
    intro e he
    have : e.1 ∈ m.map Prod.fst := List.mem_map.2 ⟨e, he, rfl⟩
    rw [h] at this
    have := List.mem_range.1 this
    show decide (e.1 < n) = true
    simpa using this
  rw [mapInsert_append_of_less natLaws m n v hless, List.map_append, h, List.range_succ]
  rfl

theorem mem_mapInsert {β : Type} (m : List (Nat × β)) (k : Nat) (v : β) (x : Nat × β)
    (hx : x ∈ mapInsert m k v) : x = (k, v) ∨ x ∈ m := by
  induction m with
  | nil =>
    simp only [mapInsert, List.mem_singleton] at hx
    exact Or.inl hx
  | cons e t ih =>
    obtain ⟨k', w⟩ := e
    simp only [mapInsert] at hx
    split_ifs at hx with h1 h2
    · rcases List.mem_cons.1 hx with h | h
      · exact Or.inl h
      · exact Or.inr (List.mem_cons_of_mem _ h)
    · rcases List.mem_cons.1 hx with h | h
      · exact Or.inl h
      · exact Or.inr h
    · rcases List.mem_cons.1 hx with h | h
      · exact Or.inr (by rw [h]; exact List.mem_cons_self _ _)
      · rcases ih h with h3 | h3
        · exact Or.inl h3
        · exact Or.inr (List.mem_cons_of_mem _ h3)

theorem ownIndex_mapInsert (m : List (Nat × AssetEntry)) (e : AssetEntry) (h : OwnIndex m) :
    OwnIndex (mapInsert m e.index_ e) := by
  intro x hx
  rcases mem_mapInsert m _ _ x hx with h1 | h1
  · rw [h1]
  · exact h x h1

theorem range'_cons_inv (s c : Nat) (i : Nat) (rest : List Nat)
    (h : i :: rest = List.range' s c) : ∃ c2, c = c2 + 1 ∧ i = s ∧ rest = List.range' (s + 1) c2 := by
  cases c with
  | zero => simp at h
  | succ c2 =>
    rw [List.range'_succ] at h
    simp only [List.cons.injEq] at h
    exact ⟨c2, rfl, h.1, h.2⟩

/-- The insertion loop of the public chain: on a map whose indices are the
first `n` numbers, assets of the indices `s` to `s + c - 1` with `s <= n`
leave a map whose indices are the first `max n (s + c)` numbers. -/
theorem insertNewAssets_seg (l : List AssetEntry) :
    ∀ (m : List (Nat × AssetEntry)) (n s c : Nat), m.map Prod.fst = List.range n →
      OwnIndex m → l.map AssetEntry.index_ = List.range' s c → s ≤ n →
      (insertNewAssets m l).map Prod.fst = List.range (max n (s + c)) ∧
      OwnIndex (insertNewAssets m l) := by
  induction l with
  | nil =>
    intro m n s c hm ho hl hs
    have hc : c = 0 := by
      cases c with
      | zero => rfl
      | succ c2 => simp [List.range'_succ] at hl
    subst hc
    simp only [insertNewAssets, Nat.add_zero]
    rw [Nat.max_eq_left hs]
    exact ⟨hm, ho⟩
  | cons e rest ih =>
    intro m n s c hm ho hl hs
    simp only [List.map_cons] at hl
    obtain ⟨c2, rfl, hi, hrest⟩ := range'_cons_inv s c _ _ hl
    unfold insertNewAssets
    cases hf : mapFind m e.index_ with
    | some v =>
      have hlt : e.index_ < n := by
        by_contra hge
        have := (seg_find m n e.index_ hm).2 (by omega)
        rw [this] at hf
        cases hf
      simp only
      have := ih m n (s + 1) c2 hm ho hrest (by omega)
      have he : max n (s + 1 + c2) = max n (s + (c2 + 1)) := by omega
      rw [he] at this
      exact this
    | none =>
      have hge : n ≤ e.index_ := (seg_find m n e.index_ hm).1 hf
      have hen : e.index_ = n := by omega
      simp only
      have hk : (mapInsert m e.index_ e).map Prod.fst = List.range (n + 1) := by
        rw [hen]
        exact mapInsert_keys_next m n e hm
      have := ih (mapInsert m e.index_ e) (n + 1) (s + 1) c2 hk (ownIndex_mapInsert m e ho)
        hrest (by omega)
      have he : max (n + 1) (s + 1 + c2) = max n (s + (c2 + 1)) := by omega
      rw [he] at this
      exact this

/-- The insertion loop of the public chain replaces no entry: what the map
holds under an index it holds afterwards. -/
theorem insertNewAssets_keeps (l : List AssetEntry) :
    ∀ (m : List (Nat × AssetEntry)) (k : Nat) (v : AssetEntry), mapFind m k = some v →
      mapFind (insertNewAssets m l) k = some v := by
  induction l with
  | nil =>
    intro m k v h
    exact h
  | cons e rest ih =>
    intro m k v h
    unfold insertNewAssets
    cases hf : mapFind m e.index_ with
    | some w => exact ih m k v h
    | none =>
      simp only
      apply ih
      rw [mapFind_mapInsert_ne]
      · exact h
      · intro hek
        rw [hek, h] at hf
        cases hf

/-- The insertion loop of the private chain: as for the public chain, the
indices stay the first numbers. -/
theorem insertPrivateAssets_seg (l : List AssetEntry) :
    ∀ (m : List (Nat × AssetEntry)) (n s c : Nat), m.map Prod.fst = List.range n →
      OwnIndex m → l.map AssetEntry.index_ = List.range' s c → s ≤ n →
      (insertPrivateAssets m l).map Prod.fst = List.range (max n (s + c)) ∧
      OwnIndex (insertPrivateAssets m l) := by
  induction l with
  | nil =>
    intro m n s c hm ho hl hs
    have hc : c = 0 := by
      cases c with
      | zero => rfl
      | succ c2 => simp [List.range'_succ] at hl
    subst hc
    simp only [insertPrivateAssets, Nat.add_zero]
    rw [Nat.max_eq_left hs]
    exact ⟨hm, ho⟩
  | cons e rest ih =>
    intro m n s c hm ho hl hs
    simp only [List.map_cons] at hl
    obtain ⟨c2, rfl, hi, hrest⟩ := range'_cons_inv s c _ _ hl
    unfold insertPrivateAssets
    cases hf : mapFind m e.index_ with
    | some v =>
      have hlt : e.index_ < n := by
        by_contra hge
        have := (seg_find m n e.index_ hm).2 (by omega)
        rw [this] at hf
        cases hf
      have he : max n (s + 1 + c2) = max n (s + (c2 + 1)) := by omega
      simp only
      split_ifs with hp
      · have := ih m n (s + 1) c2 hm ho hrest (by omega)
        rw [he] at this
        exact this
      · have hk : (mapInsert m e.index_ e).map Prod.fst = List.range n := by
          rw [mapInsert_keys_present m (seg_sorted m n hm) e.index_ e
            (by rw [hm]; exact List.mem_range.2 hlt)]
          exact hm
        have := ih (mapInsert m e.index_ e) n (s + 1) c2 hk (ownIndex_mapInsert m e ho)
          hrest (by omega)
        rw [he] at this
        exact this
    | none =>
      have hge : n ≤ e.index_ := (seg_find m n e.index_ hm).1 hf
      have hen : e.index_ = n := by omega
      simp only
      have hk : (mapInsert m e.index_ e).map Prod.fst = List.range (n + 1) := by
        rw [hen]
        exact mapInsert_keys_next m n e hm
      have := ih (mapInsert m e.index_ e) (n + 1) (s + 1) c2 hk (ownIndex_mapInsert m e ho)
        hrest (by omega)
      have he : max (n + 1) (s + 1 + c2) = max n (s + (c2 + 1)) := by omega
      rw [he] at this
      exact this

/-- The insertion loop of the private chain removes no entry and replaces no
entry that has a private key. -/
theorem insertPrivateAssets_keeps (l : List AssetEntry) :
    ∀ (m : List (Nat × AssetEntry)) (k : Nat) (v : AssetEntry), mapFind m k = some v →
      (mapFind (insertPrivateAssets m l) k).isSome = true ∧
      (v.hasPrivateKey = true → mapFind (insertPrivateAssets m l) k = some v) := by
  induction l with
  | nil =>
    intro m k v h
    simp only [insertPrivateAssets, h, Option.isSome_some, true_and]
    intro _
    trivial
  | cons e rest ih =>
    intro m k v h
    unfold insertPrivateAssets
    cases hf : mapFind m e.index_ with
    | some w =>
      simp only
      split_ifs with hp
      · exact ih m k v h
      · by_cases hek : e.index_ = k
        · have hw : w = v := by
            rw [hek, h] at hf
            exact (Option.some.inj hf).symm
          have h2 : mapFind (mapInsert m e.index_ e) k = some e := by
            rw [hek]
            exact mapFind_mapInsert_self _ _ _
          refine ⟨(ih _ k e h2).1, ?_⟩
          intro hv
          rw [hw] at hp
          exact absurd hv hp
        · have h2 : mapFind (mapInsert m e.index_ e) k = some v := by
            rw [mapFind_mapInsert_ne _ _ _ _ hek]
            exact h
          exact ih _ k v h2
    | none =>
      simp only
      apply ih
      rw [mapFind_mapInsert_ne]
      · exact h
      · intro hek
        rw [hek, h] at hf
        cases hf

theorem start_le_of_mem (m : List (Nat × AssetEntry)) (n : Nat) (x : Nat × AssetEntry)
    (hm : m.map Prod.fst = List.range n) (ho : OwnIndex m) (hx : x ∈ m) :
    (x.2.index_ + 1) % 2 ^ 32 ≤ n := by
  have h1 : x.1 ∈ m.map Prod.fst := List.mem_map.2 ⟨x, hx, rfl⟩
  rw [hm] at h1
  have h2 := List.mem_range.1 h1
  rw [ho x hx]
  have := Nat.mod_le (x.1 + 1) (2 ^ 32)
  omega

theorem start_le_of_root (r : AssetEntry) (n : Nat) (h : r.index_ = ROOT_ASSETENTRY_ID) :
    (r.index_ + 1) % 2 ^ 32 ≤ n := by
  rw [h]
  simp [ROOT_ASSETENTRY_ID]

theorem doNotCommit_keys (m : List (Nat × AssetEntry)) :
    (m.map (fun x => (x.1, x.2.doNotCommit))).map Prod.fst = m.map Prod.fst := by
  rw [List.map_map]
  rfl

theorem doNotCommit_ownIndex (m : List (Nat × AssetEntry)) (h : OwnIndex m) :
    OwnIndex (m.map (fun x => (x.1, x.2.doNotCommit))) := by
  intro x hx
  obtain ⟨y, hy, rfl⟩ := List.mem_map.1 hx
  exact h y hy

theorem updateOnDiskAssets_assets (p : DbPrefixes) (cd : AssetCodec) (a : AssetAccount)
    (disk : Disk) :
    (a.updateOnDiskAssets p cd disk).1
      = { a with assets_ := a.assets_.map (fun x => (x.1, x.2.doNotCommit)) } := by
  simp only [AssetAccount.updateOnDiskAssets, writeAssetEntries_eq]

theorem extendPublicChainRange_requested (a : AssetAccount)
    (hy : a.derScheme_.YieldsRequested) (ap : Option AssetEntry) (start stop : Nat)
    (l : List AssetEntry) (h : a.extendPublicChainRange ap start stop = .ok l) :
    l.map AssetEntry.index_ = List.range' start (stop + 1 - start) := by
  unfold AssetAccount.extendPublicChainRange at h
  split at h
  · exact hy _ _ _ _ h
  · exact hy _ _ _ _ h
  · exact hy _ _ _ _ h
  · cases h

theorem extendPrivateChainRange_requested (derPriv : PrivateDerivation) (a : AssetAccount)
    (hy : PrivateYieldsRequested derPriv) (ap : Option AssetEntry) (start stop : Nat)
    (l : List AssetEntry) (h : a.extendPrivateChainRange derPriv ap start stop = .ok l) :
    l.map AssetEntry.index_ = List.range' start (stop + 1 - start) := by
  unfold AssetAccount.extendPrivateChainRange at h
  split at h
  · exact hy _ _ _ _ h
  · exact hy _ _ _ _ h
  · exact hy _ _ _ _ h
  · cases h

/-- `extendPublicChain(assetPtr, count)` from an asset whose next index is not
above the indices of the map: the indices stay the first numbers, and every
entry of the map is the entry of before, its commit flag cleared by the
write. -/
theorem extendPublicChainFrom_seg (p : DbPrefixes) (cd : AssetCodec) (a0 a a2 : AssetAccount)
    (disk d2 : Disk) (ap : Option AssetEntry) (count : Nat) (hinv : a0.SegInv a)
    (hy : a0.derScheme_.YieldsRequested)
    (hs : ∀ x n, ap = some x → a.assets_.map Prod.fst = List.range n →
      (x.index_ + 1) % 2 ^ 32 ≤ n)
    (h : a.extendPublicChainFrom p cd disk ap count = .ok (a2, d2)) :
    a0.SegInv a2 ∧
    ∀ k v, mapFind a.assets_ k = some v →
      (mapFind a2.assets_ k).map AssetEntry.doNotCommit = some v.doNotCommit := by
  obtain ⟨⟨n, hn⟩, ho, hr, hd⟩ := hinv
  unfold AssetAccount.extendPublicChainFrom at h
  split at h
  · simp only [Except.ok.injEq, Prod.mk.injEq] at h
    rw [← h.1]
    refine ⟨⟨⟨n, hn⟩, ho, hr, hd⟩, ?_⟩
    intro k v hk
    rw [hk]
    rfl
  · split at h
    · cases h
    · rename_i x
      split at h
      · cases h
      · rename_i assetVec hv
        have hl := extendPublicChainRange_requested a (by rw [hd]; exact hy) _ _ _ _ hv
        obtain ⟨s1, s2⟩ := insertNewAssets_seg assetVec a.assets_ n _ _ hn ho hl
          (hs x n rfl hn)
        simp only [Except.ok.injEq] at h
        have h1 := congrArg Prod.fst h
        simp only at h1
        rw [← h1, updateOnDiskAssets_assets]
        refine ⟨⟨⟨_, (doNotCommit_keys _).trans s1⟩, ?_, hr, hd⟩, ?_⟩
        · exact doNotCommit_ownIndex _ s2
        · intro k v hk
          simp only
          rw [mapFind_map_snd, insertNewAssets_keeps assetVec a.assets_ k v hk]
          rfl

/-- `extendPrivateChain(ddc, assetPtr, count)` from an asset whose next index
is not above the indices of the map (index 0 for a null pointer): the indices
stay the first numbers, no entry is removed, and an entry that has a private
key is the entry of before, its commit flag cleared by the write. -/
theorem extendPrivateChainFrom_seg (derPriv : PrivateDerivation) (p : DbPrefixes)
    (cd : AssetCodec) (a0 a a2 : AssetAccount)
    (disk d2 : Disk) (ap : Option AssetEntry) (count : Nat) (hinv : a0.SegInv a)
    (hy : PrivateYieldsRequested derPriv)
    (hs : ∀ x n, ap = some x → a.assets_.map Prod.fst = List.range n →
      (x.index_ + 1) % 2 ^ 32 ≤ n)
    (h : a.extendPrivateChainFrom derPriv p cd disk ap count = .ok (a2, d2)) :
    a0.SegInv a2 ∧
    (∀ k v, mapFind a.assets_ k = some v → (mapFind a2.assets_ k).isSome = true) ∧
    (∀ k v, mapFind a.assets_ k = some v → v.hasPrivateKey = true →
      (mapFind a2.assets_ k).map AssetEntry.doNotCommit = some v.doNotCommit) := by
  obtain ⟨⟨n, hn⟩, ho, hr, hd⟩ := hinv
  unfold AssetAccount.extendPrivateChainFrom at h
  split at h
  · simp only [Except.ok.injEq, Prod.mk.injEq] at h
    rw [← h.1]
    refine ⟨⟨⟨n, hn⟩, ho, hr, hd⟩, ?_, ?_⟩
    · intro k v hk
      rw [hk]
      rfl
    · intro k v hk _
      rw [hk]
      rfl
  · have hstart : ∀ (idx : Nat) (assetVec : List AssetEntry), (idx + 1) % 2 ^ 32 ≤ n →
        a.extendPrivateChainRange derPriv ap ((idx + 1) % 2 ^ 32) ((idx + count) % 2 ^ 32)
          = .ok assetVec →
        AssetAccount.updateOnDiskAssets p cd
          { a with assets_ := insertPrivateAssets a.assets_ assetVec } disk = (a2, d2) →
        a0.SegInv a2 ∧
        (∀ k v, mapFind a.assets_ k = some v → (mapFind a2.assets_ k).isSome = true) ∧
        (∀ k v, mapFind a.assets_ k = some v → v.hasPrivateKey = true →
          (mapFind a2.assets_ k).map AssetEntry.doNotCommit = some v.doNotCommit) := by
      intro idx assetVec hle hv h
      have hl := extendPrivateChainRange_requested derPriv a hy _ _ _ _ hv
      obtain ⟨s1, s2⟩ := insertPrivateAssets_seg assetVec a.assets_ n _ _ hn ho hl hle
      have h1 := congrArg Prod.fst h
      simp only at h1
      rw [← h1, updateOnDiskAssets_assets]
      refine ⟨⟨⟨_, (doNotCommit_keys _).trans s1⟩, ?_, hr, hd⟩, ?_, ?_⟩
      · exact doNotCommit_ownIndex _ s2
      · intro k v hk
        simp only
        rw [mapFind_map_snd, Option.isSome_map']
        exact (insertPrivateAssets_keeps assetVec a.assets_ k v hk).1
      · intro k v hk hp
        simp only
        rw [mapFind_map_snd, (insertPrivateAssets_keeps assetVec a.assets_ k v hk).2 hp]
        rfl
    cases ap with
    | none =>
      simp only at h
      split at h
      · cases h
      · rename_i assetVec hv
        simp only [Except.ok.injEq] at h
        exact hstart 0xFFFFFFFF assetVec (by simp) hv h
    | some x =>
      simp only at h
      split at h
      · cases h
      · rename_i assetVec hv
        simp only [Except.ok.injEq] at h
        exact hstart x.index_ assetVec (hs x n rfl hn) hv h

theorem doNotCommit_isSome (o : Option AssetEntry) (v : AssetEntry)
    (h : o.map AssetEntry.doNotCommit = some v) : o.isSome = true := by
  cases o with
  | none => cases h
  | some x => rfl

theorem segInv_frame (a0 a b : AssetAccount) (h : a0.SegInv a) (h1 : b.assets_ = a.assets_)
    (h2 : b.root_ = a.root_) (h3 : b.derScheme_ = a.derScheme_) : a0.SegInv b := by
  unfold AssetAccount.SegInv at h ⊢
  rw [h1, h2, h3]
  exact h

theorem extendPublicChain_seg (p : DbPrefixes) (cd : AssetCodec) (a0 a a2 : AssetAccount)
    (disk d2 : Disk) (count : Nat) (hinv : a0.SegInv a) (hy : a0.derScheme_.YieldsRequested)
    (h : a.extendPublicChain p cd disk count = .ok (a2, d2)) :
    a0.SegInv a2 ∧
    ∀ k v, mapFind a.assets_ k = some v →
      (mapFind a2.assets_ k).map AssetEntry.doNotCommit = some v.doNotCommit := by
  unfold AssetAccount.extendPublicChain at h
  dsimp only at h
  split at h
  · simp only [Except.ok.injEq, Prod.mk.injEq] at h
    rw [← h.1]
    refine ⟨hinv, ?_⟩
    intro k v hk
    rw [hk]
    rfl
  · refine extendPublicChainFrom_seg p cd a0 a a2 disk d2 _ count hinv hy ?_ h
    intro x n hx hn
    split at hx
    · rename_i last hl
      simp only [Option.some.injEq] at hx
      rw [← hx]
      exact start_le_of_mem a.assets_ n last hn hinv.2.1 (List.mem_of_getLast?_eq_some hl)
    · exact start_le_of_root x n (hinv.2.2.1 x hx)

theorem extendPublicChainToIndex_seg (p : DbPrefixes) (cd : AssetCodec)
    (a0 a a2 : AssetAccount) (disk d2 : Disk) (count : Nat) (hinv : a0.SegInv a)
    (hy : a0.derScheme_.YieldsRequested)
    (h : a.extendPublicChainToIndex p cd disk count = .ok (a2, d2)) :
    a0.SegInv a2 ∧
    ∀ k v, mapFind a.assets_ k = some v →
      (mapFind a2.assets_ k).map AssetEntry.doNotCommit = some v.doNotCommit := by
  unfold AssetAccount.extendPublicChainToIndex at h
  dsimp only at h
  split at h
  · simp only [Except.ok.injEq, Prod.mk.injEq] at h
    rw [← h.1]
    refine ⟨hinv, ?_⟩
    intro k v hk
    rw [hk]
    rfl
  · exact extendPublicChain_seg p cd a0 a a2 disk d2 _ hinv hy h

theorem getLastAssetWithPrivateKey_mem (a : AssetAccount) (x : AssetEntry)
    (h : a.getLastAssetWithPrivateKey = some x) : ∃ y ∈ a.assets_, y.2 = x := by
  unfold AssetAccount.getLastAssetWithPrivateKey at h
  obtain ⟨y, hy, hyx⟩ := Option.map_eq_some'.1 h
  exact ⟨y, List.mem_reverse.1 (List.mem_of_find?_eq_some hy), hyx⟩

theorem extendPrivateChain_seg (derPriv : PrivateDerivation) (p : DbPrefixes) (cd : AssetCodec)
    (a0 a a2 : AssetAccount) (disk d2 : Disk) (count : Nat) (hinv : a0.SegInv a)
    (hy : PrivateYieldsRequested derPriv)
    (h : a.extendPrivateChain derPriv p cd disk count = .ok (a2, d2)) :
    a0.SegInv a2 ∧
    (∀ k v, mapFind a.assets_ k = some v → (mapFind a2.assets_ k).isSome = true) ∧
    (∀ k v, mapFind a.assets_ k = some v → v.hasPrivateKey = true →
      (mapFind a2.assets_ k).map AssetEntry.doNotCommit = some v.doNotCommit) := by
  unfold AssetAccount.extendPrivateChain at h
  refine extendPrivateChainFrom_seg derPriv p cd a0 a a2 disk d2 _ count hinv hy ?_ h
  intro x n hx hn
  obtain ⟨y, hy1, hy2⟩ := getLastAssetWithPrivateKey_mem a x hx
  rw [← hy2]
  exact start_le_of_mem a.assets_ n y hn hinv.2.1 hy1

theorem extendPrivateChainToIndex_seg (derPriv : PrivateDerivation) (p : DbPrefixes)
    (cd : AssetCodec) (a0 a a2 : AssetAccount) (disk d2 : Disk) (id : Nat)
    (hinv : a0.SegInv a) (hy : PrivateYieldsRequested derPriv)
    (h : a.extendPrivateChainToIndex derPriv p cd disk id = .ok (a2, d2)) :
    a0.SegInv a2 ∧
    (∀ k v, mapFind a.assets_ k = some v → (mapFind a2.assets_ k).isSome = true) ∧
    (∀ k v, mapFind a.assets_ k = some v → v.hasPrivateKey = true →
      (mapFind a2.assets_ k).map AssetEntry.doNotCommit = some v.doNotCommit) := by
  unfold AssetAccount.extendPrivateChainToIndex at h
  dsimp only at h
  split at h
  · refine extendPrivateChainFrom_seg derPriv p cd a0 a a2 disk d2 _ _ hinv hy ?_ h
    intro x n hx hn
    obtain ⟨y, hy1, hy2⟩ := getLastAssetWithPrivateKey_mem a x hx
    rw [← hy2]
    exact start_le_of_mem a.assets_ n y hn hinv.2.1 hy1
  · simp only [Except.ok.injEq, Prod.mk.injEq] at h
    rw [← h.1]
    refine ⟨hinv, ?_, ?_⟩
    · intro k v hk
      rw [hk]
      rfl
    · intro k v hk _
      rw [hk]
      rfl

theorem getNewAsset_seg (p : DbPrefixes) (cd : AssetCodec) (a0 a : AssetAccount)
    (disk : Disk) (hinv : a0.SegInv a) (hy : a0.derScheme_.YieldsRequested) :
    a0.SegInv (a.getNewAsset p cd disk).2.1 ∧
    ∀ k v, mapFind a.assets_ k = some v →
      (mapFind (a.getNewAsset p cd disk).2.1.assets_ k).map AssetEntry.doNotCommit
        = some v.doNotCommit := by
  have hb : a0.SegInv { a with lastUsedIndex_ := incr32 a.lastUsedIndex_ } :=
    segInv_frame a0 a _ hinv rfl rfl rfl
  have same : ∀ k v, mapFind a.assets_ k = some v →
      (mapFind ({ a with lastUsedIndex_ := incr32 a.lastUsedIndex_ } : AssetAccount).assets_
        k).map AssetEntry.doNotCommit = some v.doNotCommit := by
    intro k v hk
    show (mapFind a.assets_ k).map AssetEntry.doNotCommit = some v.doNotCommit
    rw [hk]
    rfl
  unfold AssetAccount.getNewAsset AssetAccount.getAndBumpHighestUsedIndex
  dsimp only
  split
  · exact ⟨hb, same⟩
  · split
    · exact ⟨hb, same⟩
    · rename_i a2 d2 hx
      have := extendPublicChain_seg p cd a0 _ a2 _ d2 _ hb hy hx
      split
      · exact this
      · exact this

theorem peekNextAsset_seg (p : DbPrefixes) (cd : AssetCodec) (a0 a : AssetAccount)
    (disk : Disk) (hinv : a0.SegInv a) (hy : a0.derScheme_.YieldsRequested) :
    a0.SegInv (a.peekNextAsset p cd disk).2.1 ∧
    ∀ k v, mapFind a.assets_ k = some v →
      (mapFind (a.peekNextAsset p cd disk).2.1.assets_ k).map AssetEntry.doNotCommit
        = some v.doNotCommit := by
  have same : ∀ k v, mapFind a.assets_ k = some v →
      (mapFind a.assets_ k).map AssetEntry.doNotCommit = some v.doNotCommit := by
    intro k v hk
    rw [hk]
    rfl
  unfold AssetAccount.peekNextAsset
  dsimp only
  split
  · exact ⟨hinv, same⟩
  · split
    · exact ⟨hinv, same⟩
    · rename_i a2 d2 hx
      have := extendPublicChain_seg p cd a0 _ a2 _ d2 _ hinv hy hx
      split
      · exact this
      · exact this

theorem prevAssetWithKey_mem (a : AssetAccount) (assetID : Nat) (x : AssetEntry)
    (h : a.prevAssetWithKey assetID = some x) : (∃ y ∈ a.assets_, y.2 = x) ∨ a.root_ = some x := by
  unfold AssetAccount.prevAssetWithKey at h
  split at h
  · rename_i y hy
    simp only [Option.some.injEq] at h
    have h1 := List.mem_reverse.1 (List.mem_of_find?_eq_some hy)
    exact Or.inl ⟨y, (List.takeWhile_sublist _).subset h1, h⟩
  · exact Or.inr h

theorem fillPrivateKey_seg (single : AssetEntry → Bool) (derPriv : PrivateDerivation)
    (p : DbPrefixes) (cd : AssetCodec) (a0 a : AssetAccount) (disk : Disk) (id : BinaryData)
    (hinv : a0.SegInv a) (hy : PrivateYieldsRequested derPriv) :
    a0.SegInv (a.fillPrivateKey single derPriv p cd disk id).2.1 ∧
    (∀ k v, mapFind a.assets_ k = some v →
      (mapFind (a.fillPrivateKey single derPriv p cd disk id).2.1.assets_ k).isSome = true) ∧
    (∀ k v, mapFind a.assets_ k = some v → v.hasPrivateKey = true →
      (mapFind (a.fillPrivateKey single derPriv p cd disk id).2.1.assets_ k).map
        AssetEntry.doNotCommit = some v.doNotCommit) := by
  have same : a0.SegInv a ∧
      (∀ k v, mapFind a.assets_ k = some v → (mapFind a.assets_ k).isSome = true) ∧
      (∀ k v, mapFind a.assets_ k = some v → v.hasPrivateKey = true →
        (mapFind a.assets_ k).map AssetEntry.doNotCommit = some v.doNotCommit) := by
    refine ⟨hinv, ?_, ?_⟩
    · intro k v hk
      rw [hk]
      rfl
    · intro k v hk _
      rw [hk]
      rfl
  unfold AssetAccount.fillPrivateKey
  split
  · exact same
  · dsimp only
    split
    · exact same
    · split
      · exact same
      · split
        · exact same
        · split
          · exact same
          · rename_i prev hprev
            split
            · exact same
            · rename_i a2 d2 hx
              have := extendPrivateChainFrom_seg derPriv p cd a0 a a2 disk d2 (some prev) _
                hinv hy (by
                  intro x n hxe hn
                  simp only [Option.some.injEq] at hxe
                  rw [← hxe]
                  rcases prevAssetWithKey_mem a _ prev hprev with ⟨y, hy1, hy2⟩ | hroot
                  · rw [← hy2]
                    exact start_le_of_mem a.assets_ n y hn hinv.2.1 hy1
                  · exact start_le_of_root prev n (hinv.2.2.1 prev hroot)) hx
              split
              · exact this
              · split
                · exact this
                · split
                  · exact this
                  · exact this

/-- One operation keeps the invariant and removes no entry. -/
theorem step_seg (single : AssetEntry → Bool) (derPriv : PrivateDerivation) (p : DbPrefixes)
    (cd : AssetCodec) (a0 : AssetAccount) (s t : AssetAccount × Disk)
    (hy : a0.derScheme_.YieldsRequested) (hpriv : PrivateYieldsRequested derPriv)
    (hinv : a0.SegInv s.1) (hst : AssetAccount.Step single derPriv p cd s t) :
    a0.SegInv t.1 ∧
    ∀ k v, mapFind s.1.assets_ k = some v → (mapFind t.1.assets_ k).isSome = true := by
  cases hst with
  | extendPublicChain a disk count s2 h =>
    obtain ⟨a2, d2⟩ := t
    obtain ⟨i1, i2⟩ := extendPublicChain_seg p cd a0 a a2 disk d2 count hinv hy h
    exact ⟨i1, fun k v hk => doNotCommit_isSome _ _ (i2 k v hk)⟩
  | extendPublicChainToIndex a disk count s2 h =>
    obtain ⟨a2, d2⟩ := t
    obtain ⟨i1, i2⟩ := extendPublicChainToIndex_seg p cd a0 a a2 disk d2 count hinv hy h
    exact ⟨i1, fun k v hk => doNotCommit_isSome _ _ (i2 k v hk)⟩
  | extendPrivateChain a disk count s2 h =>
    obtain ⟨a2, d2⟩ := t
    obtain ⟨i1, i2, -⟩ := extendPrivateChain_seg derPriv p cd a0 a a2 disk d2 count hinv hpriv h
    exact ⟨i1, i2⟩
  | extendPrivateChainToIndex a disk id s2 h =>
    obtain ⟨a2, d2⟩ := t
    obtain ⟨i1, i2, -⟩ :=
      extendPrivateChainToIndex_seg derPriv p cd a0 a a2 disk d2 id hinv hpriv h
    exact ⟨i1, i2⟩
  | getNewAsset a disk =>
    obtain ⟨i1, i2⟩ := getNewAsset_seg p cd a0 a disk hinv hy
    exact ⟨i1, fun k v hk => doNotCommit_isSome _ _ (i2 k v hk)⟩
  | peekNextAsset a disk =>
    obtain ⟨i1, i2⟩ := peekNextAsset_seg p cd a0 a disk hinv hy
    exact ⟨i1, fun k v hk => doNotCommit_isSome _ _ (i2 k v hk)⟩
  | fillPrivateKey a disk id =>
    obtain ⟨i1, i2, -⟩ := fillPrivateKey_seg single derPriv p cd a0 a disk id hinv hpriv
    exact ⟨i1, i2⟩

theorem reachable_seg (single : AssetEntry → Bool) (derPriv : PrivateDerivation)
    (p : DbPrefixes) (cd : AssetCodec) (a0 : AssetAccount) (d0 : Disk)
    (hc : a0.Created) (hy : a0.derScheme_.YieldsRequested)
    (hpriv : PrivateYieldsRequested derPriv) (s : AssetAccount × Disk)
    (hr : AssetAccount.Reachable single derPriv p cd a0 d0 s) : a0.SegInv s.1 := by
  induction hr with
  | created =>
    rcases hc with ⟨hnil, r, hr, hri⟩ | ⟨hroot, e, he, hei⟩
    · refine ⟨⟨0, ?_⟩, ?_, ?_, rfl⟩
      · rw [hnil]
        rfl
      · rw [hnil]
        intro x hx
        cases hx
      · intro r2 hr2
        rw [hr] at hr2
        simp only [Option.some.injEq] at hr2
        rw [← hr2]
        exact hri
    · refine ⟨⟨1, ?_⟩, ?_, ?_, rfl⟩
      · rw [he]
        rfl
      · rw [he]
        intro x hx
        simp only [List.mem_singleton] at hx
        rw [hx]
        exact hei
      · intro r2 hr2
        rw [hroot] at hr2
        cases hr2
  | step s t _ hst ih => exact (step_seg single derPriv p cd a0 s t hy hpriv ih hst).1

theorem toyDerScheme_requested : toyDerScheme.YieldsRequested := by
  intro ap start stop l h
  cases ap with
  | none => simp [toyDerScheme] at h
  | some x =>
    simp only [toyDerScheme, Except.ok.injEq] at h
    rw [← h]
    simp [Function.comp_def, toyAsset]

theorem toyDerPriv_requested : PrivateYieldsRequested toyDerPriv := by
  intro ap start stop l h
  cases ap with
  | none => simp [toyDerPriv] at h
  | some x =>
    simp only [toyDerPriv, Except.ok.injEq] at h
    rw [← h]
    simp [Function.comp_def, toyAsset]

/-- C36: an asset account as `make_new` creates it, with its root (at the
root index) and no asset, or, for the Armory legacy type, with a null root and
its first asset under index 0; under a derivation scheme and a private
derivation that return one asset for each requested index. In every state
reachable through `extendPublicChain`, `extendPublicChainToIndex`,
`extendPrivateChain`, `extendPrivateChainToIndex`, `getNewAsset`,
`peekNextAsset` and `fillPrivateKey` the indices of the asset map are the
numbers 0 to `n - 1` for some `n`. No operation removes an entry. After
`extendPublicChain` or `extendPublicChainToIndex` every entry of before is
still the entry under its index (its commit flag cleared by the write of the
assets); after `extendPrivateChain` or `extendPrivateChainToIndex` so is every
entry of before that has a private key. -/
theorem asset_indices_initial_segment (single : AssetEntry → Bool)
    (derPriv : PrivateDerivation) (p : DbPrefixes) (cd : AssetCodec) (a0 : AssetAccount)
    (d0 : Disk) (hc : a0.Created) (hy : a0.derScheme_.YieldsRequested)
    (hpriv : PrivateYieldsRequested derPriv) :
    (∀ s, AssetAccount.Reachable single derPriv p cd a0 d0 s →
      ∃ n, s.1.assets_.map Prod.fst = List.range n) ∧
    (∀ s t, AssetAccount.Reachable single derPriv p cd a0 d0 s →
      AssetAccount.Step single derPriv p cd s t →
      ∀ k v, mapFind s.1.assets_ k = some v → (mapFind t.1.assets_ k).isSome = true) ∧
    (∀ s count t, AssetAccount.Reachable single derPriv p cd a0 d0 s →
      (s.1.extendPublicChain p cd s.2 count = .ok t ∨
        s.1.extendPublicChainToIndex p cd s.2 count = .ok t) →
      ∀ k v, mapFind s.1.assets_ k = some v →
        (mapFind t.1.assets_ k).map AssetEntry.doNotCommit = some v.doNotCommit) ∧
    (∀ s count t, AssetAccount.Reachable single derPriv p cd a0 d0 s →
      (s.1.extendPrivateChain derPriv p cd s.2 count = .ok t ∨
        s.1.extendPrivateChainToIndex derPriv p cd s.2 count = .ok t) →
      ∀ k v, mapFind s.1.assets_ k = some v → v.hasPrivateKey = true →
        (mapFind t.1.assets_ k).map AssetEntry.doNotCommit = some v.doNotCommit) := by
  refine ⟨?_, ?_, ?_, ?_⟩
  · intro s hr
    exact (reachable_seg single derPriv p cd a0 d0 hc hy hpriv s hr).1
  · intro s t hr hst
    exact (step_seg single derPriv p cd a0 s t hy hpriv
      (reachable_seg single derPriv p cd a0 d0 hc hy hpriv s hr) hst).2
  · intro s count t hr h
    have hinv := reachable_seg single derPriv p cd a0 d0 hc hy hpriv s hr
    obtain ⟨a2, d2⟩ := t
    rcases h with h | h
    · exact (extendPublicChain_seg p cd a0 s.1 a2 s.2 d2 count hinv hy h).2
    · exact (extendPublicChainToIndex_seg p cd a0 s.1 a2 s.2 d2 count hinv hy h).2
  · intro s count t hr h
    have hinv := reachable_seg single derPriv p cd a0 d0 hc hy hpriv s hr
    obtain ⟨a2, d2⟩ := t
    rcases h with h | h
    · exact (extendPrivateChain_seg derPriv p cd a0 s.1 a2 s.2 d2 count hinv hpriv h).2.2
    · exact (extendPrivateChainToIndex_seg derPriv p cd a0 s.1 a2 s.2 d2 count hinv hpriv h).2.2

/-- C36, witness: the toy asset account, created with its root and no asset,
after `getNewAsset` (which computes the assets 0 and 1), then `fillPrivateKey`
for the asset 1 (which computes the private keys of the assets 0 and 1), then
`extendPrivateChainToIndex(3)` (which computes the assets 2 and 3); and the toy
legacy account, created without root and with asset 0, after
`extendPublicChainToIndex(3)` and `getNewAsset`. -/
theorem asset_indices_initial_segment_witness :
    toyAssetAccount.Created ∧
    (∃ n, ((toyAssetAccount.getNewAsset toyPrefixes toyCodec []).2.1.fillPrivateKey
        (fun _ => true) toyDerPriv toyPrefixes toyCodec
        (toyAssetAccount.getNewAsset toyPrefixes toyCodec []).2.2
        [0, 0, 0, 7, 0, 0, 0, 1, 0, 0, 0, 1]).2.1.assets_.map Prod.fst = List.range n) ∧
    ((toyAssetAccount.getNewAsset toyPrefixes toyCodec []).2.1.fillPrivateKey
        (fun _ => true) toyDerPriv toyPrefixes toyCodec
        (toyAssetAccount.getNewAsset toyPrefixes toyCodec []).2.2
        [0, 0, 0, 7, 0, 0, 0, 1, 0, 0, 0, 1]).2.1.assets_.map
        (fun x => (x.1, x.2.hasPrivateKey)) = [(0, true), (1, true)] ∧
    ((((toyAssetAccount.getNewAsset toyPrefixes toyCodec []).2.1.fillPrivateKey
        (fun _ => true) toyDerPriv toyPrefixes toyCodec
        (toyAssetAccount.getNewAsset toyPrefixes toyCodec []).2.2
        [0, 0, 0, 7, 0, 0, 0, 1, 0, 0, 0, 1]).2.1.extendPrivateChainToIndex
        toyDerPriv toyPrefixes toyCodec [] 3).toOption.map
      (fun r => r.1.assets_.map Prod.fst)) = some (List.range 4) ∧
    toyAssetAccountLegacy.Created ∧
    (∃ n, (toyAssetAccountLegacy.getNewAsset toyPrefixes toyCodec []).2.1.assets_.map Prod.fst
      = List.range n) ∧
    (toyAssetAccountLegacy.extendPublicChainToIndex toyPrefixes toyCodec [] 3).toOption.map
      (fun r => r.1.assets_.map Prod.fst) = some (List.range 4) :=
  ⟨Or.inl ⟨rfl, _, rfl, rfl⟩,
    (asset_indices_initial_segment (fun _ => true) toyDerPriv toyPrefixes toyCodec
      toyAssetAccount [] (Or.inl ⟨rfl, _, rfl, rfl⟩) toyDerScheme_requested
      toyDerPriv_requested).1 _
      (AssetAccount.Reachable.step _ _
        (AssetAccount.Reachable.step _ _ AssetAccount.Reachable.created
          (AssetAccount.Step.getNewAsset toyAssetAccount []))
        (AssetAccount.Step.fillPrivateKey _ _ [0, 0, 0, 7, 0, 0, 0, 1, 0, 0, 0, 1])),
    by decide, by decide,
    Or.inr ⟨rfl, _, rfl, rfl⟩,
    (asset_indices_initial_segment (fun _ => true) toyDerPriv toyPrefixes toyCodec
      toyAssetAccountLegacy [] (Or.inr ⟨rfl, _, rfl, rfl⟩) toyDerScheme_requested
      toyDerPriv_requested).1 _
      (AssetAccount.Reachable.step _ _ AssetAccount.Reachable.created
        (AssetAccount.Step.getNewAsset toyAssetAccountLegacy [])),
    by decide⟩

end Wallet
